import Mathlib


/-!
Code trees and multi-literal matching.

A verification development for the retrieval-and-matching core of the prover:
the code tree index (`Indexing/CodeTree.cpp`) and the multi-literal matcher
(`Kernel/MLMatcher.cpp`).

Conventions of the embedding.

* Heap objects live in an explicit memory: a code block is an entry of
  `CodeTree.mem`, an `OpCode*` is a `Ptr` (block address and offset). Pointer
  arithmetic (`op++`) changes the offset only; dereferencing a pointer that
  lies outside its block is a `Fault.outOfBounds`.
* Unbounded loops take a fuel argument; running out of fuel is the separate
  outcome `Fault.outOfFuel`, never confused with a result of the program.
* Debug assertions (`ASS`, `ASSERTION_VIOLATION`) that fail are
  `Fault.assertion`.
-/

namespace Kernel

/-- A `TermList` is either a variable or a (perfectly shared) compound term;
sharing makes pointer equality coincide with structural equality. -/
inductive TermList where
  | var (n : Nat) : TermList
  | term (functor : Nat) (args : List TermList) : TermList

mutual
/-- Structural equality test on terms. -/
def TermList.decEq : (a b : TermList) → Decidable (a = b)
  | .var n, .var m =>
    if h : n = m then isTrue (by rw [h]) else isFalse (by intro e; cases e; exact h rfl)
  | .var _, .term _ _ => isFalse (by intro e; cases e)
  | .term _ _, .var _ => isFalse (by intro e; cases e)
  | .term f as, .term g bs =>
    if h : f = g then
      match TermList.decEqList as bs with
      | isTrue h2 => isTrue (by rw [h, h2])
      | isFalse h2 => isFalse (by intro e; cases e; exact h2 rfl)
    else isFalse (by intro e; cases e; exact h rfl)
/-- Structural equality test on argument lists. -/
def TermList.decEqList : (a b : List TermList) → Decidable (a = b)
  | [], [] => isTrue rfl
  | [], _ :: _ => isFalse (by intro e; cases e)
  | _ :: _, [] => isFalse (by intro e; cases e)
  | a :: as, b :: bs =>
    match TermList.decEq a b with
    | isTrue h1 =>
      match TermList.decEqList as bs with
      | isTrue h2 => isTrue (by rw [h1, h2])
      | isFalse h2 => isFalse (by intro e; cases e; exact h2 rfl)
    | isFalse h1 => isFalse (by intro e; cases e; exact h1 rfl)
end

instance : DecidableEq TermList := TermList.decEq

mutual
/-- Modelled from the spec: `Term::SubtermIterator` (not part of the sources at
hand) yields the proper subterms of a term in depth-first, left-to-right
order, each subterm before its own subterms. -/
def TermList.subterms : TermList → List TermList
  | .var _ => []
  | .term _ args => TermList.subtermsOfArgs args
/-- The subterm traversal of an argument list. -/
def TermList.subtermsOfArgs : List TermList → List TermList
  | [] => []
  | t :: ts => t :: (t.subterms ++ TermList.subtermsOfArgs ts)
end

namespace FlatTerm

/-- One entry of a flat term. A compound subterm occupies three header
entries (`FUN`, `FUN_TERM_PTR`, `FUN_RIGHT_OFS`) followed by its arguments, a
variable occupies a single `VAR` entry. -/
inductive Entry where
  | FUN (number : Nat)
  | VAR (number : Nat)
  | FUN_TERM_PTR (ptr : TermList)
  | FUN_RIGHT_OFS (number : Nat)
deriving DecidableEq

/-- Number of header entries of a compound subterm. -/
def functionEntryCount : Nat := 3

mutual
/-- Number of flat-term entries a term occupies. -/
def getEntryCount : TermList → Nat
  | .var _ => 1
  | .term _ args => functionEntryCount + getEntryCountOfArgs args
/-- Number of flat-term entries an argument list occupies. -/
def getEntryCountOfArgs : List TermList → Nat
  | [] => 0
  | t :: ts => getEntryCount t + getEntryCountOfArgs ts
end

/-- The entries contributed by the head of one subterm. -/
def headEntries (s : TermList) : List Entry :=
  match s with
  | .var n => [Entry.VAR n]
  | .term f _ => [Entry.FUN f, Entry.FUN_TERM_PTR s, Entry.FUN_RIGHT_OFS (getEntryCount s)]

/-- Modelled from the spec: `FlatTerm::create` (not part of the sources at
hand) linearises a term: the head entries of the term itself followed by the
head entries of its proper subterms in traversal order. The right offset of a
function header is the distance from its `FUN` entry to the first entry after
the whole subterm. -/
def create (t : TermList) : List Entry :=
  headEntries t ++ (t.subterms.map headEntries).flatten

end FlatTerm

end Kernel

namespace Indexing

open Kernel

/-- Outcomes that are not results of the program. -/
inductive Fault where
  | outOfBounds
  | assertion
  | uninitialised
  | outOfFuel
deriving DecidableEq

/-- Result of running a piece of the program. -/
inductive Run (α : Type) where
  | ok (val : α) : Run α
  | fault (f : Fault) : Run α
deriving DecidableEq

/-- Address of an instruction: the block it lives in and its offset there. -/
structure Ptr where
  blk : Nat
  ofs : Nat
deriving DecidableEq

/-- Instruction tag together with its operand. `SUCCESS` and `SUCCESS2` of the
source differ only in the alignment of the stored result pointer and are one
constructor here. -/
inductive Instruction where
  | SUCCESS (result : Nat)
  | CHECK_FUN (arg : Nat)
  | ASSIGN_VAR (arg : Nat)
  | CHECK_VAR (arg : Nat)
  | FAIL
  | NEXT_LIT
deriving DecidableEq

/-- An instruction of the code tree with its alternative link. The
declaration of `OpCode` is not part of the sources at hand; only the tag, the
operand and the alternative link, which the code uses, are kept. -/
structure OpCode where
  instr : Instruction
  alternative : Option Ptr
deriving DecidableEq

/-- The constructor `OpCode(instr, arg)`: no alternative yet. -/
def OpCode.mk0 (i : Instruction) : OpCode := ⟨i, none⟩

/-- Return true iff `o` is equal to `a` except for the value of the
`alternative` field. -/
def OpCode.eqModAlt (a o : OpCode) : Bool := decide (a.instr = o.instr)

abbrev CodeStack := List OpCode
abbrev CodeBlock := List OpCode
abbrev VarMap := List (Nat × Nat)

/-- The code tree: the maximal number of variables of an inserted pattern,
the root block (`_data`, null for the empty tree) and the memory holding the
allocated code blocks. -/
structure CodeTree where
  _maxVarCnt : Nat
  _data : Option Nat
  mem : List CodeBlock
deriving DecidableEq

/-- The constructor `CodeTree::CodeTree`. -/
def CodeTree.empty : CodeTree := ⟨0, none, []⟩

/-- Dereference an instruction pointer. -/
def deref (mem : List CodeBlock) (p : Ptr) : Run OpCode :=
  match mem.get? p.blk with
  | none => .fault .outOfBounds
  | some b =>
    match b.get? p.ofs with
    | none => .fault .outOfBounds
    | some op => .ok op

/-- Store `alt` into the `alternative` field of the instruction at `p`. -/
def setAlternative (mem : List CodeBlock) (p : Ptr) (alt : Ptr) : List CodeBlock :=
  mem.modify (fun b => b.modify (fun op => { op with alternative := some alt }) p.ofs) p.blk

/-- One subterm step of `CodeTree::compile`: the body of its loop. -/
def CodeTree.compileStep (st : CodeStack × VarMap × Nat) (s : TermList) :
    CodeStack × VarMap × Nat :=
  match s with
  | .var v =>
    match st.2.1.lookup v with
    | none => (st.1 ++ [OpCode.mk0 (.ASSIGN_VAR st.2.2)], (v, st.2.2) :: st.2.1, st.2.2 + 1)
    | some k => (st.1 ++ [OpCode.mk0 (.CHECK_VAR k)], st.2.1, st.2.2)
  | .term f _ => (st.1 ++ [OpCode.mk0 (.CHECK_FUN f)], st.2.1, st.2.2)

/-- The method `CodeTree::compile(Term* t, code, varMap, nextVarNum)` for the
compound term with the given functor and arguments. -/
def CodeTree.compile (functor : Nat) (args : List TermList) (code : CodeStack) (varMap : VarMap)
    (nextVarNum : Nat) : CodeStack × VarMap × Nat :=
  (TermList.subtermsOfArgs args).foldl CodeTree.compileStep
    (code ++ [OpCode.mk0 (.CHECK_FUN functor)], varMap, nextVarNum)

/-- The method `CodeTree::buildBlock`: the block made of the last `cnt`
instructions of the code stack. -/
def CodeTree.buildBlock (code : CodeStack) (cnt : Nat) : Run CodeBlock :=
  if cnt ≤ code.length then
    let blk := code.drop (code.length - cnt)
    if blk.all (fun op => op.alternative.isNone) then .ok blk else .fault .assertion
  else .fault .assertion

/-- The inner loop of `incorporate`: follow alternative links from `treeOp`
while the instruction there differs from `c` and has an alternative. -/
def CodeTree.skipAlternatives (mem : List CodeBlock) (c : OpCode) : Nat → Ptr → Run Ptr
  | 0, _ => .fault .outOfFuel
  | fuel + 1, treeOp =>
    match deref mem treeOp with
    | .fault f => .fault f
    | .ok op =>
      if !c.eqModAlt op then
        match op.alternative with
        | some a => CodeTree.skipAlternatives mem c fuel a
        | none => .ok treeOp
      else .ok treeOp

/-- The last loop of `incorporate`: follow alternative links to the end of the
chain. -/
def CodeTree.lastAlternative (mem : List CodeBlock) : Nat → Ptr → Run Ptr
  | 0, _ => .fault .outOfFuel
  | fuel + 1, treeOp =>
    match deref mem treeOp with
    | .fault f => .fault f
    | .ok op =>
      match op.alternative with
      | some a => CodeTree.lastAlternative mem fuel a
      | none => .ok treeOp

/-- The main loop of `CodeTree::incorporate` from index `i = code.length -
rest.length` on, with the tree cursor at `treeOp`; `rest` is `code` from index
`i`. The chain walks get as much fuel as there are blocks. -/
def CodeTree.incorporateLoop (mem : List CodeBlock) (code : CodeStack) :
    List OpCode → Ptr → Run (List CodeBlock)
  | [], treeOp =>
    -- if we are here, we are inserting a clause/term multiple times
    match deref mem treeOp with
    | .fault f => .fault f
    | .ok op =>
      match op.instr with
      | .SUCCESS _ =>
        match CodeTree.lastAlternative mem (mem.length + 1) treeOp with
        | .fault f => .fault f
        | .ok last =>
          match CodeTree.buildBlock code 1 with
          | .fault f => .fault f
          | .ok rem => .ok (setAlternative (mem ++ [rem]) last ⟨mem.length, 0⟩)
      | _ => .fault .assertion
  | c :: rest, treeOp =>
    match CodeTree.skipAlternatives mem c (mem.length + 1) treeOp with
    | .fault f => .fault f
    | .ok p =>
      match deref mem p with
      | .fault f => .fault f
      | .ok op =>
        if !c.eqModAlt op then
          match CodeTree.buildBlock code (rest.length + 1) with
          | .fault f => .fault f
          | .ok rem => .ok (setAlternative (mem ++ [rem]) p ⟨mem.length, 0⟩)
        else CodeTree.incorporateLoop mem code rest ⟨p.blk, p.ofs + 1⟩

/-- The method `CodeTree::incorporate`. -/
def CodeTree.incorporate (tree : CodeTree) (code : CodeStack) : Run CodeTree :=
  match tree._data with
  | none =>
    match CodeTree.buildBlock code code.length with
    | .fault f => .fault f
    | .ok blk => .ok { tree with _data := some tree.mem.length, mem := tree.mem ++ [blk] }
  | some root =>
    match CodeTree.incorporateLoop tree.mem code code ⟨root, 0⟩ with
    | .fault f => .fault f
    | .ok mem => .ok { tree with mem := mem }

/-- The method `TermCodeTree::compile(TermList t, code)`: returns the code
stack and the tree with its variable count updated. -/
def TermCodeTree.compile (tree : CodeTree) (t : TermList) (code : CodeStack) :
    CodeStack × CodeTree :=
  let r : CodeStack × Nat :=
    match t with
    | .var _ => (code ++ [OpCode.mk0 (.ASSIGN_VAR 0)], 1)
    | .term f args =>
      let c := CodeTree.compile f args code [] 0
      (c.1, c.2.2)
  (r.1 ++ [OpCode.mk0 (.SUCCESS 0)],
    if r.2 > tree._maxVarCnt then { tree with _maxVarCnt := r.2 } else tree)

/-- A backtracking point: query position and instruction to resume at. -/
structure BTPoint where
  tp : Nat
  op : Ptr
deriving DecidableEq

/-- The execution context of a term query (`TermEContext`). An entry of
`bindings` that was never written is `none`. -/
structure EContext where
  fresh : Bool
  tp : Nat
  op : Ptr
  btStack : List BTPoint
  bindings : List (Option TermList)
  ft : List FlatTerm.Entry
deriving DecidableEq

/-- The method `TermEContext::init(TermList t, tree)`; the tree must already
contain something. -/
def TermCodeTree.init (tree : CodeTree) (t : TermList) : Run EContext :=
  match tree._data with
  | none => .fault .assertion
  | some root =>
    .ok { fresh := true, tp := 0, op := ⟨root, 0⟩, btStack := [],
          bindings := List.replicate tree._maxVarCnt none, ft := FlatTerm.create t }

/-- The method `EContext::backtrack`; `none` stands for the result false. -/
def EContext.backtrack (ctx : EContext) : Option EContext :=
  match ctx.btStack with
  | [] => none
  | bp :: rest => some { ctx with tp := bp.tp, op := bp.op, btStack := rest }

/-- The method `EContext::doCheckFun` for the operand `functor` of the current
instruction. -/
def EContext.doCheckFun (ctx : EContext) (functor : Nat) : Run (Bool × EContext) :=
  match ctx.ft.get? ctx.tp with
  | none => .fault .outOfBounds
  | some (.FUN n) =>
    if n ≠ functor then .ok (false, ctx)
    else .ok (true, { ctx with tp := ctx.tp + FlatTerm.functionEntryCount })
  | some _ => .ok (false, ctx)

/-- Write a binding; the table was sized by `init`. -/
def EContext.setBinding (ctx : EContext) (var : Nat) (t : TermList) : Run EContext :=
  if var < ctx.bindings.length then .ok { ctx with bindings := ctx.bindings.set var (some t) }
  else .fault .outOfBounds

/-- Read a binding. -/
def EContext.getBinding (ctx : EContext) (var : Nat) : Run TermList :=
  match ctx.bindings.get? var with
  | none => .fault .outOfBounds
  | some none => .fault .uninitialised
  | some (some t) => .ok t

/-- The method `EContext::doAssignVar` for the operand `var`. -/
def EContext.doAssignVar (ctx : EContext) (var : Nat) : Run EContext :=
  match ctx.ft.get? ctx.tp with
  | none => .fault .outOfBounds
  | some (.VAR n) =>
    match ctx.setBinding var (.var n) with
    | .fault f => .fault f
    | .ok c => .ok { c with tp := c.tp + 1 }
  | some (.FUN _) =>
    match ctx.ft.get? (ctx.tp + 1) with
    | some (.FUN_TERM_PTR t) =>
      match ctx.setBinding var t with
      | .fault f => .fault f
      | .ok c =>
        match ctx.ft.get? (ctx.tp + 2) with
        | some (.FUN_RIGHT_OFS k) => .ok { c with tp := c.tp + k }
        | some _ => .fault .assertion
        | none => .fault .outOfBounds
    | some _ => .fault .assertion
    | none => .fault .outOfBounds
  | some _ => .fault .assertion

/-- The method `EContext::doCheckVar` for the operand `var`. -/
def EContext.doCheckVar (ctx : EContext) (var : Nat) : Run (Bool × EContext) :=
  match ctx.ft.get? ctx.tp with
  | none => .fault .outOfBounds
  | some (.VAR n) =>
    match ctx.getBinding var with
    | .fault f => .fault f
    | .ok b =>
      if b ≠ .var n then .ok (false, ctx) else .ok (true, { ctx with tp := ctx.tp + 1 })
  | some (.FUN _) =>
    match ctx.ft.get? (ctx.tp + 1) with
    | some (.FUN_TERM_PTR t) =>
      match ctx.getBinding var with
      | .fault f => .fault f
      | .ok b =>
        if b ≠ t then .ok (false, ctx)
        else
          match ctx.ft.get? (ctx.tp + 2) with
          | some (.FUN_RIGHT_OFS k) => .ok (true, { ctx with tp := ctx.tp + k })
          | some _ => .fault .assertion
          | none => .fault .outOfBounds
    | some _ => .fault .assertion
    | none => .fault .outOfBounds
  | some _ => .fault .assertion

/-- What one pass through the body of the loop of `next` does. -/
inductive LoopStep where
  | ret (found : Bool) (res : Nat) (ctx : EContext)
  | again (ctx : EContext)
deriving DecidableEq

/-- The tail of the loop body of `next`: backtrack or advance the
instruction pointer. -/
def TermCodeTree.afterInstr (res : Nat) (r : Bool × EContext) : LoopStep :=
  if r.1 then
    -- the instruction did not fail: ctx.op++
    .again { r.2 with op := ⟨r.2.op.blk, r.2.op.ofs + 1⟩ }
  else
    match r.2.backtrack with
    | none => .ret false res r.2
    | some c => .again c

/-- One pass through the body of the loop of `TermCodeTree::next`. -/
def TermCodeTree.loopBody (mem : List CodeBlock) (ctx : EContext) (res : Nat) : Run LoopStep :=
  match deref mem ctx.op with
  | .fault f => .fault f
  | .ok op =>
    let ctx1 : EContext :=
      match op.alternative with
      | some a => { ctx with btStack := ⟨ctx.tp, a⟩ :: ctx.btStack }
      | none => ctx
    match op.instr with
    | .SUCCESS result => .ok (.ret true result ctx1)
    | .CHECK_FUN f =>
      match ctx1.doCheckFun f with
      | .fault e => .fault e
      | .ok r => .ok (TermCodeTree.afterInstr res r)
    | .ASSIGN_VAR v =>
      match ctx1.doAssignVar v with
      | .fault e => .fault e
      | .ok c => .ok (TermCodeTree.afterInstr res (true, c))
    | .CHECK_VAR v =>
      match ctx1.doCheckVar v with
      | .fault e => .fault e
      | .ok r => .ok (TermCodeTree.afterInstr res r)
    | .FAIL => .ok (TermCodeTree.afterInstr res (false, ctx1))
    | .NEXT_LIT => .fault .assertion

/-- The loop of `TermCodeTree::next`. -/
def TermCodeTree.nextLoop (mem : List CodeBlock) : Nat → EContext → Nat → Run (Bool × Nat × EContext)
  | 0, _, _ => .fault .outOfFuel
  | fuel + 1, ctx, res =>
    match TermCodeTree.loopBody mem ctx res with
    | .fault f => .fault f
    | .ok (.ret b r c) => .ok (b, r, c)
    | .ok (.again c) => TermCodeTree.nextLoop mem fuel c res

/-- The method `TermCodeTree::next(ctx, res)`: the returned triple holds the
boolean result, the value of `res` and the context after the call. -/
def TermCodeTree.next (tree : CodeTree) (fuel : Nat) (ctx : EContext) (res : Nat) :
    Run (Bool × Nat × EContext) :=
  if ctx.fresh then TermCodeTree.nextLoop tree.mem fuel { ctx with fresh := false } res
  else
    match ctx.backtrack with
    | none => .ok (false, res, ctx)
    | some c => TermCodeTree.nextLoop tree.mem fuel { c with fresh := false } res

end Indexing

namespace Indexing

open Kernel

/-- Insert one term pattern: `compile` on an empty code stack followed by
`incorporate`. -/
def TermCodeTree.insert (tree : CodeTree) (t : TermList) : Run CodeTree :=
  let r := TermCodeTree.compile tree t []
  CodeTree.incorporate r.2 r.1

/-- Insert a list of term patterns one after the other. -/
def TermCodeTree.insertAll : CodeTree → List TermList → Run CodeTree
  | tree, [] => .ok tree
  | tree, t :: ts =>
    match TermCodeTree.insert tree t with
    | .fault f => .fault f
    | .ok tree1 => TermCodeTree.insertAll tree1 ts

/-- How a series of calls of `next` ended: with the result false, with a
fault, or not yet (every call so far returned true). -/
inductive Ending where
  | exhausted
  | faulted (f : Fault)
  | unfinished
deriving DecidableEq

/-- Call `next` repeatedly, at most `n` times, until it returns false or
faults; collect the instruction pointers at which it returned true. -/
def TermCodeTree.collect (tree : CodeTree) (fuel : Nat) : Nat → EContext → List Ptr × Ending
  | 0, _ => ([], .unfinished)
  | n + 1, ctx =>
    match TermCodeTree.next tree fuel ctx 0 with
    | .fault f => ([], .faulted f)
    | .ok (false, _, _) => ([], .exhausted)
    | .ok (true, _, c) =>
      ((c.op :: (TermCodeTree.collect tree fuel n c).1), (TermCodeTree.collect tree fuel n c).2)

end Indexing


/-!
Specification-level notions for the code tree.

Substitution and generalisation on terms, the straight-line meaning of an
instruction sequence on a flat term, and the tree of instructions that a
memory of code blocks represents.
-/

namespace Kernel

mutual
/-- Apply a substitution to a term. -/
def TermList.subst (σ : Nat → TermList) : TermList → TermList
  | .var x => σ x
  | .term f args => .term f (TermList.substArgs σ args)
/-- Apply a substitution to an argument list. -/
def TermList.substArgs (σ : Nat → TermList) : List TermList → List TermList
  | [] => []
  | t :: ts => t.subst σ :: TermList.substArgs σ ts
end

/-- A pattern generalises a term when some substitution maps it to the term. -/
def TermList.generalises (p t : TermList) : Prop := ∃ σ : Nat → TermList, p.subst σ = t

mutual
/-- Every functor is applied to as many arguments as the signature says. -/
def TermList.wellFormed (ar : Nat → Nat) : TermList → Bool
  | .var _ => true
  | .term f args => decide (args.length = ar f) && TermList.wellFormedArgs ar args
/-- Well-formedness of an argument list. -/
def TermList.wellFormedArgs (ar : Nat → Nat) : List TermList → Bool
  | [] => true
  | t :: ts => t.wellFormed ar && TermList.wellFormedArgs ar ts
end

namespace FlatTerm

mutual
/-- The flat term of a term, by recursion on the term. -/
def flat : TermList → List Entry
  | .var n => [Entry.VAR n]
  | .term f args =>
    [Entry.FUN f, Entry.FUN_TERM_PTR (.term f args),
      Entry.FUN_RIGHT_OFS (functionEntryCount + getEntryCountOfArgs args)] ++ flatArgs args
/-- The flat terms of an argument list, one after the other. -/
def flatArgs : List TermList → List Entry
  | [] => []
  | t :: ts => flat t ++ flatArgs ts
end

end FlatTerm

end Kernel

namespace Indexing

open Kernel

abbrev Bindings := List (Option TermList)

/-- Two binding tables of the same size that agree on the slots below `j`. -/
def Bindings.agreeBelow (j : Nat) (b1 b2 : Bindings) : Prop :=
  b1.length = b2.length ∧ ∀ i, i < j → b1.get? i = b2.get? i

/-- The instruction sequence of a code stack. -/
def instrsOf (code : List OpCode) : List Instruction := code.map (fun op => op.instr)

mutual
/-- The instructions `CodeTree::compile` emits for one argument, by recursion
on the term. -/
def compArg : TermList → VarMap × Nat → List Instruction × VarMap × Nat
  | .var v, st =>
    match st.1.lookup v with
    | none => ([.ASSIGN_VAR st.2], (v, st.2) :: st.1, st.2 + 1)
    | some k => ([.CHECK_VAR k], st)
  | .term f args, st =>
    let r := compArgs args st
    (.CHECK_FUN f :: r.1, r.2)
/-- The instructions emitted for an argument list. -/
def compArgs : List TermList → VarMap × Nat → List Instruction × VarMap × Nat
  | [], st => ([], st)
  | t :: ts, st =>
    let r1 := compArg t st
    let r2 := compArgs ts r1.2
    (r1.1 ++ r2.1, r2.2)
end

/-- The instruction sequence of a term pattern, without the final SUCCESS. -/
def patternBody (p : TermList) : List Instruction := (compArg p ([], 0)).1

/-- The variable map after compiling a term pattern. -/
def patternVarMap (p : TermList) : VarMap := (compArg p ([], 0)).2.1

/-- The instruction sequence of a term pattern. -/
def patternCode (p : TermList) : List Instruction := patternBody p ++ [.SUCCESS 0]

/-- The substitution a binding table stands for, through the variable map of
a compiled pattern; unbound variables stay as they are. -/
def bindingSubst (vm : VarMap) (b : Bindings) (x : Nat) : TermList :=
  match vm.lookup x with
  | none => .var x
  | some k =>
    match b.get? k with
    | some (some t) => t
    | _ => .var x

/-- The check of `doCheckFun` on a flat term: the new position, or `none`
when the check fails. -/
def checkFun (ft : List FlatTerm.Entry) (tp : Nat) (functor : Nat) : Run (Option Nat) :=
  match ft.get? tp with
  | none => .fault .outOfBounds
  | some (.FUN n) => if n ≠ functor then .ok none else .ok (some (tp + FlatTerm.functionEntryCount))
  | some _ => .ok none

/-- The term at a position of a flat term and the position after it, as
`doAssignVar` and `doCheckVar` read them. -/
def termAt (ft : List FlatTerm.Entry) (tp : Nat) : Run (TermList × Run Nat) :=
  match ft.get? tp with
  | none => .fault .outOfBounds
  | some (.VAR n) => .ok (.var n, .ok (tp + 1))
  | some (.FUN _) =>
    match ft.get? (tp + 1) with
    | some (.FUN_TERM_PTR t) =>
      .ok (t,
        match ft.get? (tp + 2) with
        | some (.FUN_RIGHT_OFS k) => .ok (tp + k)
        | some _ => .fault .assertion
        | none => .fault .outOfBounds)
    | some _ => .fault .assertion
    | none => .fault .outOfBounds
  | some _ => .fault .assertion

/-- The effect of one instruction on position and bindings: `none` when the
instruction asks for backtracking. SUCCESS changes nothing. -/
def execInstr (ft : List FlatTerm.Entry) (i : Instruction) (tp : Nat) (b : Bindings) :
    Run (Option (Nat × Bindings)) :=
  match i with
  | .SUCCESS _ => .ok (some (tp, b))
  | .FAIL => .ok none
  | .NEXT_LIT => .fault .assertion
  | .CHECK_FUN f =>
    match checkFun ft tp f with
    | .fault e => .fault e
    | .ok none => .ok none
    | .ok (some tp1) => .ok (some (tp1, b))
  | .ASSIGN_VAR v =>
    match termAt ft tp with
    | .fault e => .fault e
    | .ok (t, nxt) =>
      if v < b.length then
        match nxt with
        | .fault e => .fault e
        | .ok tp1 => .ok (some (tp1, b.set v (some t)))
      else .fault .outOfBounds
  | .CHECK_VAR v =>
    match termAt ft tp with
    | .fault e => .fault e
    | .ok (t, nxt) =>
      match b.get? v with
      | none => .fault .outOfBounds
      | some none => .fault .uninitialised
      | some (some u) =>
        if u ≠ t then .ok none
        else
          match nxt with
          | .fault e => .fault e
          | .ok tp1 => .ok (some (tp1, b))

/-- Straight-line execution of an instruction sequence. -/
def execCode (ft : List FlatTerm.Entry) : List Instruction → Nat → Bindings →
    Run (Option (Nat × Bindings))
  | [], tp, b => .ok (some (tp, b))
  | i :: rest, tp, b =>
    match execInstr ft i tp b with
    | .fault e => .fault e
    | .ok none => .ok none
    | .ok (some (tp1, b1)) => execCode ft rest tp1 b1

/-- Whether an instruction ends a path of the tree. -/
def Instruction.terminal : Instruction → Bool
  | .SUCCESS _ => true
  | .FAIL => true
  | _ => false

/-- The tree of instructions reachable from an instruction pointer: the
instruction, what follows it in its block, and what its alternative link
leads to. -/
inductive Trie where
  | nil : Trie
  | node (p : Ptr) (i : Instruction) (child : Trie) (alt : Trie) : Trie

/-- The memory holds the trie `t` at the (possibly null) pointer `q`: every
node is the instruction at its address, a terminal instruction is the last of
its block, any other is followed by its child, and the alternative link leads
to the alternative subtrie. -/
def Rep (mem : List CodeBlock) : Trie → Option Ptr → Prop
  | .nil, q => q = none
  | .node p i c a, q =>
    q = some p ∧ ∃ alt, deref mem p = .ok ⟨i, alt⟩ ∧ Rep mem a alt ∧
      (∀ q1, alt = some q1 → p.blk < q1.blk ∧ q1.ofs = 0) ∧
      (if i.terminal then c = .nil ∧ deref mem ⟨p.blk, p.ofs + 1⟩ = .fault .outOfBounds
       else Rep mem c (some ⟨p.blk, p.ofs + 1⟩))

/-- The addresses of the nodes of a trie. -/
def Trie.ptrs : Trie → List Ptr
  | .nil => []
  | .node p _ c a => p :: (c.ptrs ++ a.ptrs)

/-- Number of nodes. -/
def Trie.size : Trie → Nat
  | .nil => 0
  | .node _ _ c a => 1 + c.size + a.size

/-- Number of SUCCESS nodes. -/
def Trie.successes : Trie → Nat
  | .nil => 0
  | .node _ i c a => (match i with | .SUCCESS _ => 1 | _ => 0) + c.successes + a.successes

/-- The instruction sequences stored in a trie together with the address of
their final SUCCESS, in the order of a depth-first traversal. -/
def Trie.paths : Trie → List (List Instruction × Ptr)
  | .nil => []
  | .node p i c a =>
    (match i with
      | .SUCCESS _ => [([i], p)]
      | .FAIL => []
      | _ => c.paths.map (fun sq => (i :: sq.1, sq.2))) ++ a.paths

/-- The trie holds only instructions of term patterns. -/
def Trie.termOnly : Trie → Prop
  | .nil => True
  | .node _ i c a => i ≠ .FAIL ∧ i ≠ .NEXT_LIT ∧ c.termOnly ∧ a.termOnly

/-- The trie of a freshly built block: a single path. -/
def Trie.linear (blk : Nat) : Nat → List Instruction → Trie
  | _, [] => .nil
  | ofs, i :: rest => .node ⟨blk, ofs⟩ i (if i.terminal then .nil else Trie.linear blk (ofs + 1) rest) .nil

/-- Depth-first run of the machine over a trie, threading the bindings as
`next` does (they are not restored on backtracking): the matches found, each
with the bindings at that moment, the addresses of the instructions
interpreted, in this order, and the bindings at the end or the fault that
stopped the run. -/
def Trie.run (ft : List FlatTerm.Entry) : Trie → Nat → Bindings →
    List (Ptr × Bindings) × List Ptr × Run Bindings
  | .nil, _, b => ([], [], .ok b)
  | .node p i c a, tp, b =>
    match i with
    | .SUCCESS _ =>
      ((p, b) :: (Trie.run ft a tp b).1, p :: (Trie.run ft a tp b).2.1, (Trie.run ft a tp b).2.2)
    | _ =>
      match execInstr ft i tp b with
      | .fault e => ([], [p], .fault e)
      | .ok none => ((Trie.run ft a tp b).1, p :: (Trie.run ft a tp b).2.1, (Trie.run ft a tp b).2.2)
      | .ok (some (tp1, b1)) =>
        match (Trie.run ft c tp1 b1).2.2 with
        | .fault e => ((Trie.run ft c tp1 b1).1, p :: (Trie.run ft c tp1 b1).2.1, .fault e)
        | .ok b2 =>
          ((Trie.run ft c tp1 b1).1 ++ (Trie.run ft a tp b2).1,
            p :: ((Trie.run ft c tp1 b1).2.1 ++ (Trie.run ft a tp b2).2.1),
            (Trie.run ft a tp b2).2.2)

/-- Run the loop of `next` to exhaustion: every time SUCCESS is reached the
instruction pointer and the bindings are recorded and the search resumes by
backtracking, exactly as the following call of `next` does. The result holds
the matches, the addresses of the instructions interpreted, and the fault
that stopped the run, if any. -/
def drive (mem : List CodeBlock) : Nat → EContext → List (Ptr × Bindings) × List Ptr × Option Fault
  | 0, _ => ([], [], some .outOfFuel)
  | fuel + 1, ctx =>
    match TermCodeTree.loopBody mem ctx 0 with
    | .fault f => ([], [ctx.op], some f)
    | .ok (.ret false _ _) => ([], [ctx.op], none)
    | .ok (.ret true _ c) =>
      match c.backtrack with
      | none => ([(c.op, c.bindings)], [ctx.op], none)
      | some c1 =>
        ((c.op, c.bindings) :: (drive mem fuel c1).1, ctx.op :: (drive mem fuel c1).2.1,
          (drive mem fuel c1).2.2)
    | .ok (.again c) => ((drive mem fuel c).1, ctx.op :: (drive mem fuel c).2.1, (drive mem fuel c).2.2)

/-- Resume the exhaustive run by backtracking into the stack `s`. -/
def resume (mem : List CodeBlock) (fuel : Nat) (s : List BTPoint) (b : Bindings)
    (ft : List FlatTerm.Entry) : List (Ptr × Bindings) × List Ptr × Option Fault :=
  match s with
  | [] => ([], [], none)
  | bp :: rest => drive mem fuel ⟨false, bp.tp, bp.op, rest, b, ft⟩

/-- Put the matches `l` and the trace `tr` in front of the outcome of the
rest of a run. -/
def prepend (l : List (Ptr × Bindings)) (tr : List Ptr)
    (r : List (Ptr × Bindings) × List Ptr × Option Fault) :
    List (Ptr × Bindings) × List Ptr × Option Fault :=
  (l ++ r.1, tr ++ r.2.1, r.2.2)

/-- The instruction sequence `code` is spelled in memory along a path that
starts in the alternative chain of `p` and ends at the instruction `q`. -/
inductive IsPath (mem : List CodeBlock) : Ptr → List Instruction → Ptr → Prop where
  | last (p : Ptr) (i : Instruction) (alt : Option Ptr) :
      deref mem p = .ok ⟨i, alt⟩ → IsPath mem p [i] p
  | step (p : Ptr) (i : Instruction) (alt : Option Ptr) (rest : List Instruction) (q : Ptr) :
      deref mem p = .ok ⟨i, alt⟩ → rest ≠ [] → IsPath mem ⟨p.blk, p.ofs + 1⟩ rest q →
      IsPath mem p (i :: rest) q
  | alt (p a : Ptr) (i : Instruction) (code : List Instruction) (q : Ptr) :
      deref mem p = .ok ⟨i, some a⟩ → IsPath mem a code q → IsPath mem p code q

/-- The context after the push of the alternative at the head of the loop of
`next`. -/
def EContext.pushAlt (ctx : EContext) (alt : Option Ptr) : EContext :=
  match alt with
  | some a => { ctx with btStack := ⟨ctx.tp, a⟩ :: ctx.btStack }
  | none => ctx

/-- The body of the loop of `next` in terms of `execInstr`, for the
instruction `i` with alternative `alt` at the current instruction pointer. -/
def loopBodySpec (ctx : EContext) (res : Nat) (i : Instruction) (alt : Option Ptr) : Run LoopStep :=
  match i with
  | .SUCCESS r => .ok (.ret true r (ctx.pushAlt alt))
  | .NEXT_LIT => .fault .assertion
  | _ =>
    match execInstr ctx.ft i ctx.tp ctx.bindings with
    | .fault e => .fault e
    | .ok none => .ok (TermCodeTree.afterInstr res (false, ctx.pushAlt alt))
    | .ok (some (tp1, b1)) =>
      .ok (TermCodeTree.afterInstr res (true, { ctx.pushAlt alt with tp := tp1, bindings := b1 }))

/-- The backtrack stack after the push of the alternative `alt` at query
position `tp`. -/
def pushStack (alt : Option Ptr) (tp : Nat) (s : List BTPoint) : List BTPoint :=
  match alt with
  | some a => ⟨tp, a⟩ :: s
  | none => s

/-- What the exhaustive run from the root of a trie comes to, given what
`Trie.run` yields and the outcome `rest` of backtracking into the stack
below. -/
def afterRun (r : List (Ptr × Bindings) × List Ptr × Run Bindings)
    (rest : Bindings → List (Ptr × Bindings) × List Ptr × Option Fault) :
    List (Ptr × Bindings) × List Ptr × Option Fault :=
  match r.2.2 with
  | .fault e => (r.1, r.2.1, some e)
  | .ok b2 => prepend r.1 r.2.1 (rest b2)

/-- The exhaustive run of the loop of `next` from the root of the trie `t`
does what `Trie.run` says and then backtracks into the stack below. -/
def DriveOK (mem : List CodeBlock) (ft : List FlatTerm.Entry) (t : Trie) : Prop :=
  ∀ (p : Ptr) (tp : Nat) (b : Bindings) (s : List BTPoint), Rep mem t (some p) →
    ∀ fuel, drive mem (fuel + (Trie.run ft t tp b).2.1.length) ⟨false, tp, p, s, b, ft⟩ =
      afterRun (Trie.run ft t tp b) (fun b2 => resume mem fuel s b2 ft)

/-- The run over a node whose instruction is not SUCCESS. -/
def runOther (ft : List FlatTerm.Entry) (p : Ptr) (i : Instruction) (c a : Trie) (tp : Nat)
    (b : Bindings) : List (Ptr × Bindings) × List Ptr × Run Bindings :=
  match execInstr ft i tp b with
  | .fault e => ([], [p], .fault e)
  | .ok none => ((Trie.run ft a tp b).1, p :: (Trie.run ft a tp b).2.1, (Trie.run ft a tp b).2.2)
  | .ok (some (tp1, b1)) =>
    match (Trie.run ft c tp1 b1).2.2 with
    | .fault e => ((Trie.run ft c tp1 b1).1, p :: (Trie.run ft c tp1 b1).2.1, .fault e)
    | .ok b2 =>
      ((Trie.run ft c tp1 b1).1 ++ (Trie.run ft a tp b2).1,
        p :: ((Trie.run ft c tp1 b1).2.1 ++ (Trie.run ft a tp b2).2.1),
        (Trie.run ft a tp b2).2.2)

/-- Slot discipline of one instruction at level `j`: an assignment writes
slot `j`, a variable check reads a slot below `j`; FAIL and NEXT_LIT do not
occur. -/
def Instruction.disc (j : Nat) : Instruction → Prop
  | .SUCCESS _ => True
  | .CHECK_FUN _ => True
  | .ASSIGN_VAR v => v = j
  | .CHECK_VAR v => v < j
  | .FAIL => False
  | .NEXT_LIT => False

/-- The level after an instruction: assignments use up one slot. -/
def Instruction.bump (j : Nat) : Instruction → Nat
  | .ASSIGN_VAR _ => j + 1
  | _ => j

/-- Slot discipline of an instruction sequence from level `j` on: the
assignments write the slots `j`, `j + 1`, ... in this order, every variable
check reads a slot assigned before, and SUCCESS occurs at the end only. -/
def Disc : Nat → List Instruction → Prop
  | _, [] => True
  | j, i :: rest => i.disc j ∧ (i.terminal = true → rest = []) ∧ Disc (i.bump j) rest

/-- Shape of a trie: exactly the terminal instructions have no child. -/
def Trie.shaped : Trie → Prop
  | .nil => True
  | .node _ i c a => (i.terminal = true → c = .nil) ∧ (i.terminal = false → c ≠ .nil) ∧
      c.shaped ∧ a.shaped

/-- Whether a straight-line execution reached its end. -/
def succeeds (r : Run (Option (Nat × Bindings))) : Bool :=
  match r with
  | .ok (some _) => true
  | _ => false

/-- What the depth-first run over `t` from position `tp` yields when started
with bindings that agree below level `j` with the reference bindings `b`. -/
def RunSpec (ft : List FlatTerm.Entry) (t : Trie) (tp : Nat) (b : Bindings) (j : Nat) : Prop :=
  ∀ b1 : Bindings, Bindings.agreeBelow j b1 b →
    ∃ b2, (Trie.run ft t tp b1).2.2 = .ok b2 ∧ Bindings.agreeBelow j b2 b ∧
      (Trie.run ft t tp b1).1.map Prod.fst =
        ((t.paths.filter (fun sq => succeeds (execCode ft sq.1 tp b))).map Prod.snd) ∧
      ∀ x ∈ (Trie.run ft t tp b1).1, ∃ s b0 tp1, (s, x.1) ∈ t.paths ∧
        Bindings.agreeBelow j b0 b ∧ execCode ft s tp b0 = .ok (some (tp1, x.2))

/-- The substitution `σ` is what the bindings hold for the variables of the
variable map. -/
def vmAgree (σ : Nat → TermList) (vm : VarMap) (b : Bindings) : Prop :=
  ∀ x k, vm.lookup x = some k → b.get? k = some (some (σ x))

/-- All slots of the variable map lie below `n`. -/
def vmBelow (vm : VarMap) (n : Nat) : Prop := ∀ x k, vm.lookup x = some k → k < n

/-- All slots below `n` have been written. -/
def initBelow (n : Nat) (b : Bindings) : Prop := ∀ k, k < n → ∃ u, b.get? k = some (some u)

/-- What executing the code of the pattern `p` does on a flat term that holds
the term `t` at the current position: it fails exactly when no substitution
compatible with the bindings so far maps `p` to `t`, and otherwise moves past
`t` and leaves bindings that instantiate `p` to `t`. -/
def MatchSpec (p t : TermList) : Prop :=
  ∀ (vm : VarMap) (n : Nat) (b : Bindings) (pre post : List FlatTerm.Entry),
    vmBelow vm n → initBelow n b → (compArg p (vm, n)).2.2 ≤ b.length →
    (execCode (pre ++ FlatTerm.flat t ++ post) (compArg p (vm, n)).1 pre.length b = .ok none ∧
      ¬ ∃ σ, vmAgree σ vm b ∧ p.subst σ = t) ∨
    (∃ b1, execCode (pre ++ FlatTerm.flat t ++ post) (compArg p (vm, n)).1 pre.length b
        = .ok (some (pre.length + (FlatTerm.flat t).length, b1)) ∧
      Bindings.agreeBelow n b1 b ∧ initBelow (compArg p (vm, n)).2.2 b1 ∧
      (∀ σ, vmAgree σ (compArg p (vm, n)).2.1 b1 → p.subst σ = t) ∧
      (∀ σ, vmAgree σ vm b → p.subst σ = t → vmAgree σ (compArg p (vm, n)).2.1 b1))

/-- The statement of `MatchSpec` for argument lists. -/
def MatchSpecArgs (ps ts : List TermList) : Prop :=
  ∀ (vm : VarMap) (n : Nat) (b : Bindings) (pre post : List FlatTerm.Entry),
    vmBelow vm n → initBelow n b → (compArgs ps (vm, n)).2.2 ≤ b.length →
    (execCode (pre ++ FlatTerm.flatArgs ts ++ post) (compArgs ps (vm, n)).1 pre.length b = .ok none ∧
      ¬ ∃ σ, vmAgree σ vm b ∧ TermList.substArgs σ ps = ts) ∨
    (∃ b1, execCode (pre ++ FlatTerm.flatArgs ts ++ post) (compArgs ps (vm, n)).1 pre.length b
        = .ok (some (pre.length + (FlatTerm.flatArgs ts).length, b1)) ∧
      Bindings.agreeBelow n b1 b ∧ initBelow (compArgs ps (vm, n)).2.2 b1 ∧
      (∀ σ, vmAgree σ (compArgs ps (vm, n)).2.1 b1 → TermList.substArgs σ ps = ts) ∧
      (∀ σ, vmAgree σ vm b → TermList.substArgs σ ps = ts →
        vmAgree σ (compArgs ps (vm, n)).2.1 b1))

/-- The level reached after an instruction sequence that starts at level `j`. -/
def levelAfter (j : Nat) (code : List Instruction) : Nat :=
  code.foldl (fun k i => i.bump k) j

/-- Number of variable slots a term pattern uses. -/
def patternVarCnt (p : TermList) : Nat := (compArg p ([], 0)).2.2

/-- The instructions that neither end a path nor separate literals. -/
def Instruction.plain : Instruction → Bool
  | .CHECK_FUN _ => true
  | .ASSIGN_VAR _ => true
  | .CHECK_VAR _ => true
  | _ => false

/-- Shape of the code of a term pattern: plain instructions followed by one
SUCCESS. -/
def codeOK : List Instruction → Prop
  | [] => False
  | i :: rest => if rest = [] then ∃ r, i = .SUCCESS r else (i.plain = true ∧ codeOK rest)

/-- The walk of `incorporate` on the trie: follow the alternative chain to an
instruction equal to the next instruction of the code and go on below it, or
hang the rest of the code as a new block (at address `newBlk`) at the end of
the chain. The result is `none` when the whole code is matched. -/
def Trie.insert (newBlk : Nat) : Trie → List Instruction → Option Trie
  | .nil, _ => none
  | .node _ _ _ _, [] => none
  | .node p i c a, c0 :: rest =>
    if c0 = i then
      match rest with
      | [] => none
      | _ :: _ =>
        match Trie.insert newBlk c rest with
        | none => none
        | some c1 => some (.node p i c1 a)
    else
      match a with
      | .nil => some (.node p i c (Trie.linear newBlk 0 (c0 :: rest)))
      | .node _ _ _ _ =>
        match Trie.insert newBlk a (c0 :: rest) with
        | none => none
        | some a1 => some (.node p i c a1)

/-- The part of the body of the main loop of `incorporate` that follows the
walk along the alternative chain. -/
def incBody (mem : List CodeBlock) (code : CodeStack) (c : OpCode) (rest : List OpCode)
    (r : Run Ptr) : Run (List CodeBlock) :=
  match r with
  | .fault f => .fault f
  | .ok p =>
    match deref mem p with
    | .fault f => .fault f
    | .ok op =>
      if !c.eqModAlt op then
        match CodeTree.buildBlock code (rest.length + 1) with
        | .fault f => .fault f
        | .ok rem => .ok (setAlternative (mem ++ [rem]) p ⟨mem.length, 0⟩)
      else CodeTree.incorporateLoop mem code rest ⟨p.blk, p.ofs + 1⟩

/-- What the main loop of `incorporate` does, in terms of the trie: a fault
when the code is already there, otherwise one new block and one new link, after
which the memory holds the trie with the code inserted. -/
def IncSpec (mem : List CodeBlock) (code : CodeStack) (t : Trie) : Prop :=
  ∀ (p : Ptr) (c : OpCode) (rest : List OpCode) (pre : List OpCode) (fuel : Nat),
    Rep mem t (some p) → t.shaped → (∀ x ∈ t.ptrs, x.blk < mem.length) → t.ptrs.Nodup →
    codeOK (instrsOf (c :: rest)) → code = pre ++ c :: rest →
    (∀ op ∈ code, op.alternative = none) → mem.length + 1 ≤ fuel + p.blk →
    (Trie.insert mem.length t (instrsOf (c :: rest)) = none ∧
      incBody mem code c rest (CodeTree.skipAlternatives mem c fuel p) = .fault .outOfBounds) ∨
    (∃ t1 q blk, Trie.insert mem.length t (instrsOf (c :: rest)) = some t1 ∧ q ∈ t.ptrs ∧
      incBody mem code c rest (CodeTree.skipAlternatives mem c fuel p)
        = .ok (setAlternative (mem ++ [blk]) q ⟨mem.length, 0⟩) ∧
      Rep (setAlternative (mem ++ [blk]) q ⟨mem.length, 0⟩) t1 (some p))

/-- Reading a memory cell that may not exist. -/
def Run.ofOption (o : Option OpCode) : Run OpCode :=
  match o with
  | none => .fault .outOfBounds
  | some op => .ok op

/-- How a series of calls of `next` ends when the exhaustive run ends with
the given fault, or with none. -/
def Ending.ofFault : Option Fault → Ending
  | none => .exhausted
  | some f => .faulted f

/-- The invariant of a term code tree that holds the patterns `ps`: the
memory holds a well-shaped trie `t` at the root whose paths spell the codes of
the patterns, and the binding table is large enough for every pattern. The
empty tree has no root and holds nothing. -/
def TreeInv (tree : CodeTree) (ps : List TermList) (t : Trie) : Prop :=
  (∀ p ∈ ps, patternVarCnt p ≤ tree._maxVarCnt) ∧
  match tree._data with
  | none => ps = [] ∧ t = .nil
  | some root =>
    Rep tree.mem t (some ⟨root, 0⟩) ∧ t.shaped ∧ t.termOnly ∧
      (∀ x ∈ t.ptrs, x.blk < tree.mem.length) ∧ t.ptrs.Nodup ∧
      (t.paths.map Prod.fst).Perm (ps.map patternCode)

mutual
/-- The pattern and the term have compatible shapes: wherever the same
functor stands at corresponding places it has the same number of arguments in
both. Terms over one signature are compatible. -/
def shapeCompat : TermList → TermList → Prop
  | .var _, _ => True
  | .term _ _, .var _ => True
  | .term f ps, .term g ts => f = g → (ps.length = ts.length ∧ shapeCompatArgs ps ts)
/-- Compatibility of shapes of argument lists of the same length. -/
def shapeCompatArgs : List TermList → List TermList → Prop
  | [], _ => True
  | _ :: _, [] => True
  | p :: ps, t :: ts => shapeCompat p t ∧ shapeCompatArgs ps ts
end

/-- The instruction sequence that `TermCodeTree::compile` pushes for a
pattern (it does not depend on the tree). -/
def compiledCode (p : TermList) : List Instruction :=
  instrsOf (TermCodeTree.compile CodeTree.empty p []).1

/-- The contexts reached from `ctx0` by successive calls of `next` that
returned true. -/
inductive Reached (tree : CodeTree) (ctx0 : EContext) : EContext → Prop where
  | start : Reached tree ctx0 ctx0
  | call (c c1 : EContext) (fuel res r : Nat) :
      Reached tree ctx0 c → TermCodeTree.next tree fuel c res = .ok (true, r, c1) →
      Reached tree ctx0 c1

/-- A match reported at the instruction `q` with the bindings `b` is sound
for the patterns `ps` and the query `t`: the instruction ends the code of one
of the patterns, and the bindings instantiate this pattern to the query. -/
def GoodMatch (tree : CodeTree) (root : Nat) (ps : List TermList) (t : TermList)
    (x : Ptr × Bindings) : Prop :=
  ∃ p ∈ ps, IsPath tree.mem ⟨root, 0⟩ (compiledCode p) x.1 ∧
    p.subst (bindingSubst (patternVarMap p) x.2) = t

/-- The result of one pass through the loop of `next` when the caller passes
`res` instead of 0: only the result false hands `res` back. -/
def LoopStep.withRes (res : Nat) : Run LoopStep → Run LoopStep
  | .ok (.ret false _ c) => .ok (.ret false res c)
  | x => x

/-- The result of the loop of `next` when the caller passes `res` instead of
0. -/
def withRes (res : Nat) : Run (Bool × Nat × EContext) → Run (Bool × Nat × EContext)
  | .ok (false, _, c) => .ok (false, res, c)
  | x => x

/-- What is still to come after the context `c` has returned a match: the
exhaustive run from its backtrack point (with fuel `k`) yields the matches `l`
and ends with `e`. -/
def RestOf (tree : CodeTree) (c : EContext) (k : Nat) (l : List (Ptr × Bindings))
    (e : Option Fault) : Prop :=
  (c.backtrack = none ∧ l = [] ∧ e = none) ∨
    ∃ c1, c.backtrack = some c1 ∧ (drive tree.mem k c1).1 = l ∧ (drive tree.mem k c1).2.2 = e

end Indexing


namespace Indexing

open Kernel

/-- Whether an instruction is SUCCESS. -/
def Instruction.isSuccess : Instruction → Bool
  | .SUCCESS _ => true
  | _ => false

/-- Number of instructions held by the blocks of a tree. -/
def numInstr (mem : List CodeBlock) : Nat := mem.flatten.length

/-- Number of SUCCESS instructions held by the blocks of a tree. -/
def numSuccess (mem : List CodeBlock) : Nat :=
  (mem.flatten.filter (fun op => op.instr.isSuccess)).length

/-- The alternative link held by the instruction at `p`, if there is one: what
the loop of `next` pushes on the backtrack stack when it interprets the
instruction at `p`. -/
def linkAt (mem : List CodeBlock) (p : Ptr) : Option Ptr :=
  match deref mem p with
  | .ok op => op.alternative
  | .fault _ => none

end Indexing


/-!
The multi-literal matcher.

The model of `Kernel/MLMatcher.cpp`. The arrays of `MatchingData` that are
indexed by base literal (`boundVarNums`, `altBindings`, `nextAlts`, the
triangular arrays `remaining` and `intersections`) are functions of the index;
the storage areas they point into are not modelled, so an array of alternative
bindings is a list of its own. A binding array and the record index stored
behind it are the two fields of an `AltBinding`. The time-limit oracle
`env.timeLimitReached()` is a function of the number of earlier consultations.
-/

namespace Kernel

open Indexing (Run Fault)

/-- Modelled from the spec: a literal is a predicate symbol with a polarity,
applied to argument terms (`Literal` is not part of the sources at hand).
Literals are perfectly shared, so pointer equality is structural equality;
the predicate symbol 0 is equality. -/
structure Literal where
  functor : Nat
  polarity : Bool
  args : List TermList
deriving DecidableEq

/-- Modelled from the spec: a clause is an array of literals. -/
abbrev Clause := List Literal

/-- Modelled from the spec: `Literal::header`, the predicate symbol together
with the polarity. -/
def Literal.header (l : Literal) : Nat := 2 * l.functor + (if l.polarity then 1 else 0)

/-- Modelled from the spec: `Literal::complementaryHeader`, the header of the
literal of opposite polarity. -/
def Literal.complementaryHeader (l : Literal) : Nat :=
  2 * l.functor + (if l.polarity then 0 else 1)

/-- Modelled from the spec: `Literal::isEquality`. -/
def Literal.isEquality (l : Literal) : Bool := l.functor == 0

/-- Modelled from the spec: `Literal::commutative`; equality is the only
commutative predicate. -/
def Literal.commutative (l : Literal) : Bool := l.isEquality

/-- Modelled from the spec: `Literal::arity`. -/
def Literal.arity (l : Literal) : Nat := l.args.length

mutual
/-- Modelled from the spec: the variable occurrences of a term, as a
`VariableIterator` yields them. -/
def TermList.varOccs : TermList → List Nat
  | .var v => [v]
  | .term _ args => TermList.varOccsArgs args
/-- The variable occurrences of a list of arguments. -/
def TermList.varOccsArgs : List TermList → List Nat
  | [] => []
  | t :: ts => t.varOccs ++ TermList.varOccsArgs ts
end

/-- Modelled from the spec: `VariableIterator(lit)`, the variable occurrences
of a literal. -/
def Literal.varOccs (l : Literal) : List Nat := TermList.varOccsArgs l.args

/-- Modelled from the spec: `Literal::getDistinctVars`, the number of distinct
variables of a literal. -/
def Literal.getDistinctVars (l : Literal) : Nat := l.varOccs.dedup.length

/-- Modelled from the spec: `Literal::couldBeInstanceOf(lit, complementary)`,
a necessary condition for being an instance: the headers fit. -/
def Literal.couldBeInstanceOf (l lit : Literal) (complementary : Bool) : Bool :=
  if complementary then l.complementaryHeader == lit.header else l.header == lit.header

/-- Modelled from the spec: `Clause::getLiteralPosition`, the index of a
literal in a clause; the literal must be there. -/
def Clause.getLiteralPosition : Clause → Literal → Run Nat
  | [], _ => .fault .assertion
  | l :: ls, lit =>
    if l = lit then .ok 0
    else
      match Clause.getLiteralPosition ls lit with
      | .fault f => .fault f
      | .ok n => .ok (n + 1)

mutual
/-- Modelled from the spec: `MatchingUtils::matchTerms(base, instance,
binder)`, the raw match primitive: walk both terms, hand every variable of the
base term with the instance subterm facing it to the binder, and fail at the
first place where the binder refuses or the functors differ. -/
def MatchingUtils.matchTerms {σ : Type} (bind : Nat → TermList → σ → Option σ) :
    TermList → TermList → σ → Option σ
  | .var v, t, s => bind v t s
  | .term f as, t, s =>
    match t with
    | .var _ => none
    | .term g bs => if f = g then MatchingUtils.matchList bind as bs s else none
/-- Match two argument lists with a binder, left to right. -/
def MatchingUtils.matchList {σ : Type} (bind : Nat → TermList → σ → Option σ) :
    List TermList → List TermList → σ → Option σ
  | [], bs, s =>
    match bs with
    | [] => some s
    | _ :: _ => none
  | a :: as, bs, s =>
    match bs with
    | [] => none
    | b :: bs1 =>
      match MatchingUtils.matchTerms bind a b s with
      | none => none
      | some s1 => MatchingUtils.matchList bind as bs1 s1
end

/-- Modelled from the spec: the binder of the matching test without
bindings, which accepts a variable only with one and the same term. -/
def MatchingUtils.mapBind (v : Nat) (t : TermList) (m : List (Nat × TermList)) :
    Option (List (Nat × TermList)) :=
  match m.lookup v with
  | none => some ((v, t) :: m)
  | some u => if u = t then some m else none

/-- Modelled from the spec: `MatchingUtils::matchArgs(base, instance)`: some
substitution maps the arguments of the base literal to those of the
instance. -/
def MatchingUtils.matchArgs (base inst : Literal) : Bool :=
  (MatchingUtils.matchList MatchingUtils.mapBind base.args inst.args []).isSome

/-- Modelled from the spec: `MatchingUtils::matchReversedArgs(base,
instance)`, for literals with two arguments: some substitution maps the first
argument of the base literal to the second of the instance and the second to
the first. -/
def MatchingUtils.matchReversedArgs (base inst : Literal) : Bool :=
  match base.args, inst.args with
  | [b0, b1], [i0, i1] =>
    (MatchingUtils.matchList MatchingUtils.mapBind [b0, b1] [i1, i0] []).isSome
  | _, _ => false

/-- Insert a number into an ascending list. -/
def orderedInsert (v : Nat) : List Nat → List Nat
  | [] => [v]
  | x :: xs => if v ≤ x then v :: x :: xs else x :: orderedInsert v xs

/-- The content of the heap `varNums` in the order in which `pop` returns it:
ascending. -/
def heapOrder : List Nat → List Nat
  | [] => []
  | v :: vs => orderedInsert v (heapOrder vs)

/-- The loop of `createLiteralBindings` that empties the heap: `last` is the
variable popped most recently (further copies of it are dropped), `acc` the
variables stored in `boundVarData` so far. A variable is stored when
`variablePositions.insert` succeeds, that is, when it is not yet there. -/
def collectVars : List Nat → Option Nat → List Nat → List Nat
  | [], _, acc => acc
  | v :: rest, last, acc =>
    if last = some v then collectVars rest last acc
    else if v ∈ acc then collectVars rest (some v) acc
    else collectVars rest (some v) (acc ++ [v])

/-- The variables of a base literal as `createLiteralBindings` stores them in
`boundVarData`. -/
def boundVars (baseLit : Literal) : List Nat :=
  collectVars (heapOrder baseLit.varOccs) none []

/-- The map `variablePositions`: the position of a variable in
`boundVarData`. -/
def variablePosition (vars : List Nat) (v : Nat) : Nat := vars.indexOf v

/-- One alternative of a base literal: the terms bound to its variables, in
the order of `boundVarNums` (`none` marks a cell that was never written), and
the record index stored behind them. -/
structure AltBinding where
  bindings : List (Option TermList)
  record : Nat
deriving DecidableEq

/-- The method `ArrayStoringBinder::bind`: store the term at the position of
the variable; never refuses. -/
def ArrayStoringBinder.bind (v2pos : List Nat) (var : Nat) (term : TermList)
    (arr : List (Option TermList)) : Option (List (Option TermList)) :=
  some (arr.set (variablePosition v2pos var) (some term))

/-- The record index stored behind the bindings of an ordinary alternative:
0 when there is a resolved literal, otherwise the position of the literal in
the instance clause. -/
def altRecord (instCl : Clause) (resolvedLit : Option Literal) (alit : Literal) : Run Nat :=
  match resolvedLit with
  | some _ => .ok 0
  | none => instCl.getLiteralPosition alit

/-- The bindings written by `matchArgs(baseLit, alit, binder)` after the
match without binder has succeeded. -/
def argBindings (vars : List Nat) (baseLit alit : Literal) : List (Option TermList) :=
  (MatchingUtils.matchList (ArrayStoringBinder.bind vars) baseLit.args alit.args
    (List.replicate vars.length none)).getD (List.replicate vars.length none)

/-- The bindings written by the two calls of `matchTerms` that match the
arguments of the base literal crosswise. -/
def reversedBindings (vars : List Nat) (baseLit alit : Literal) : List (Option TermList) :=
  match baseLit.args, alit.args with
  | [b0, b1], [i0, i1] =>
    (MatchingUtils.matchList (ArrayStoringBinder.bind vars) [b0, b1] [i1, i0]
      (List.replicate vars.length none)).getD (List.replicate vars.length none)
  | _, _ => List.replicate vars.length none

/-- The alternatives that the loop of `createLiteralBindings` over `alts`
creates for one literal `alit`. -/
def altsOfLiteral (baseLit : Literal) (vars : List Nat) (instCl : Clause)
    (resolvedLit : Option Literal) (alit : Literal) : Run (List AltBinding) :=
  if some alit = resolvedLit then .ok []
  else if alit.isEquality then
    match altRecord instCl resolvedLit alit with
    | .fault f =>
      if MatchingUtils.matchArgs baseLit alit || MatchingUtils.matchReversedArgs baseLit alit
      then .fault f else .ok []
    | .ok r =>
      .ok ((if MatchingUtils.matchArgs baseLit alit then [⟨argBindings vars baseLit alit, r⟩]
            else []) ++
          (if MatchingUtils.matchReversedArgs baseLit alit
            then [⟨reversedBindings vars baseLit alit, r⟩] else []))
  else
    match
      (if vars.length ≠ 0 then
        MatchingUtils.matchList (ArrayStoringBinder.bind vars) baseLit.args alit.args
          (List.replicate vars.length none)
      else some []) with
    | none => .fault .assertion
    | some b =>
      match altRecord instCl resolvedLit alit with
      | .fault f => .fault f
      | .ok r => .ok [⟨b, r⟩]

/-- The loop of `createLiteralBindings` over the list `alts`. -/
def altsOfList (baseLit : Literal) (vars : List Nat) (instCl : Clause)
    (resolvedLit : Option Literal) : List Literal → Run (List AltBinding)
  | [] => .ok []
  | alit :: rest =>
    match altsOfLiteral baseLit vars instCl resolvedLit alit with
    | .fault f => .fault f
    | .ok l1 =>
      match altsOfList baseLit vars instCl resolvedLit rest with
      | .fault f => .fault f
      | .ok l2 => .ok (l1 ++ l2)

/-- The end of `createLiteralBindings`: the alternatives, with record index
1, that match the base literal against the resolved literal. -/
def altsOfResolved (baseLit : Literal) (vars : List Nat) (resolvedLit : Option Literal) :
    List AltBinding :=
  match resolvedLit with
  | none => []
  | some r =>
    if r.complementaryHeader = baseLit.header then
      (if baseLit.arity = 0 || MatchingUtils.matchArgs baseLit r then
        [⟨if vars.length ≠ 0 then argBindings vars baseLit r else [], 1⟩]
      else []) ++
      (if baseLit.isEquality && MatchingUtils.matchReversedArgs baseLit r then
        [⟨reversedBindings vars baseLit r, 1⟩]
      else [])
    else []

/-- The function `createLiteralBindings`: the variables stored in
`boundVarData` and the alternatives stored through `altBindingPtrs`. -/
def createLiteralBindings (baseLit : Literal) (alts : List Literal) (instCl : Clause)
    (resolvedLit : Option Literal) : Run (List Nat × List AltBinding) :=
  match altsOfList baseLit (boundVars baseLit) instCl resolvedLit alts with
  | .fault f => .fault f
  | .ok l => .ok (boundVars baseLit, l ++ altsOfResolved baseLit (boundVars baseLit) resolvedLit)

/-- The struct `MatchingData`. The field `varCnts` is not kept: `varCnts[b]`
is the length of `boundVarNums[b]`. A null pointer in `boundVarNums` or
`intersections` is `none`. -/
structure MatchingData where
  len : Nat
  boundVarNums : Nat → Option (List Nat)
  altBindings : Nat → List AltBinding
  remaining : Nat → Nat → Nat
  nextAlts : Nat → Nat
  intersections : Nat → Nat → Option (List (Nat × Nat))
  bases : List Literal
  alts : List (List Literal)
  instCl : Clause
  resolvedLit : Option Literal

/-- The result of `ensureInit`. -/
inductive InitResult where
  | OK
  | MUST_BACKTRACK
  | NO_ALTERNATIVE
deriving DecidableEq

/-- Set one entry of an array indexed by base literal. -/
def setAt {α : Type} (f : Nat → α) (i : Nat) (v : α) : Nat → α :=
  fun k => if k = i then v else f k

/-- Set one entry of a triangular array. -/
def setAt2 {α : Type} (f : Nat → Nat → α) (i j : Nat) (v : α) : Nat → Nat → α :=
  fun k l => if k = i ∧ l = j then v else f k l

/-- The method `getRemainingInCurrent`. -/
def MatchingData.getRemainingInCurrent (md : MatchingData) (bi : Nat) : Nat :=
  md.remaining bi bi

/-- The method `getAltRecordIndex`. -/
def MatchingData.getAltRecordIndex (md : MatchingData) (bi alti : Nat) : Run Nat :=
  match (md.altBindings bi).get? alti with
  | none => .fault .outOfBounds
  | some a => .ok a.record

/-- The method `isInitialized`. -/
def MatchingData.isInitialized (md : MatchingData) (bIndex : Nat) : Bool :=
  (md.boundVarNums bIndex).isSome

/-- The loop of `compatible` over the intersection info `iinfo`: the two
binding arrays hold the same term at every pair of positions. -/
def compatibleBindings (iinfo : List (Nat × Nat)) (i1Bindings i2Bindings : List (Option TermList)) :
    Bool :=
  iinfo.all (fun p => decide (i1Bindings.get? p.1 = i2Bindings.get? p.2))

/-- The method `compatible`. -/
def MatchingData.compatible (md : MatchingData) (i1Bindings : List (Option TermList))
    (b2Index i2AltIndex : Nat) (iinfo : List (Nat × Nat)) : Run Bool :=
  match (md.altBindings b2Index).get? i2AltIndex with
  | none => .fault .outOfBounds
  | some a => .ok (compatibleBindings iinfo i1Bindings a.bindings)

/-- The loop of `getIntersectInfo` over the two ascending arrays of variables:
the pairs of positions at which the same variable stands. The third argument
bounds the number of passes. -/
def intersectLoop : Nat → List Nat → List Nat → Nat → Nat → List (Nat × Nat)
  | 0, _, _, _, _ => []
  | _ + 1, [], _, _, _ => []
  | _ + 1, _ :: _, [], _, _ => []
  | n + 1, a :: as, b :: bs, i, j =>
    if a < b then intersectLoop n as (b :: bs) (i + 1) j
    else if a > b then intersectLoop n (a :: as) bs i (j + 1)
    else (i, j) :: intersectLoop n as bs (i + 1) (j + 1)

/-- The intersection info of two arrays of variables; the end of the list
stands for the entry with first component -1. -/
def intersectInfo (b1vn b2vn : List Nat) : List (Nat × Nat) :=
  intersectLoop (b1vn.length + b2vn.length) b1vn b2vn 0 0

/-- The method `getIntersectInfo(b1, b2)`, for `b1 < b2`: the cached list if
there is one, otherwise the list is computed and cached. -/
def MatchingData.getIntersectInfo (md : MatchingData) (b1 b2 : Nat) :
    Run (List (Nat × Nat) × MatchingData) :=
  match md.intersections b2 b1 with
  | some res => .ok (res, md)
  | none =>
    match md.boundVarNums b1, md.boundVarNums b2 with
    | some b1vn, some b2vn =>
      .ok (intersectInfo b1vn b2vn,
        { md with intersections := setAt2 md.intersections b2 b1 (some (intersectInfo b1vn b2vn)) })
    | _, _ => .fault .outOfBounds

/-- Exchange two entries of an array. -/
def swapAt {α : Type} (l : List α) (i j : Nat) : List α :=
  match l.get? i, l.get? j with
  | some a, some b => (l.set i b).set j a
  | _, _ => l

/-- The loop that `ensureInit` and `bindAlt` run over the first `remAlts`
alternatives of a base literal: an alternative that is not compatible with the
bindings `curBindings` is exchanged with the last of them and `remAlts` goes
down by one. The first argument is the number of passes still possible. -/
def pruneAlts (curBindings : List (Option TermList)) (iinfo : List (Nat × Nat)) :
    Nat → List AltBinding → Nat → Nat → Run (List AltBinding × Nat)
  | 0, arr, _, remAlts => .ok (arr, remAlts)
  | n + 1, arr, ai, remAlts =>
    if ai < remAlts then
      match arr.get? ai with
      | none => .fault .outOfBounds
      | some a =>
        if compatibleBindings iinfo curBindings a.bindings then
          pruneAlts curBindings iinfo n arr (ai + 1) remAlts
        else
          match arr.get? (remAlts - 1) with
          | none => .fault .outOfBounds
          | some _ => pruneAlts curBindings iinfo n (swapAt arr ai (remAlts - 1)) ai (remAlts - 1)
    else .ok (arr, remAlts)

/-- The loop of `bindAlt` from the base literal `i` on; the first argument is
`len - i`. The matching data comes back also with the result false: the
exchanges made so far stay. -/
def MatchingData.bindAltLoop (bIndex : Nat) (curBindings : List (Option TermList)) :
    Nat → Nat → MatchingData → Run (Bool × MatchingData)
  | 0, _, md => .ok (true, md)
  | n + 1, i, md =>
    if !md.isInitialized i then .ok (true, md)
    else
      match md.getIntersectInfo bIndex i with
      | .fault f => .fault f
      | .ok (iinfo, md1) =>
        match
          (if iinfo ≠ [] then
            pruneAlts curBindings iinfo (md1.remaining i bIndex) (md1.altBindings i) 0
              (md1.remaining i bIndex)
          else .ok (md1.altBindings i, md1.remaining i bIndex)) with
        | .fault f => .fault f
        | .ok (arr, remAlts) =>
          if remAlts = 0 then .ok (false, { md1 with altBindings := setAt md1.altBindings i arr })
          else
            MatchingData.bindAltLoop bIndex curBindings n (i + 1)
              { md1 with altBindings := setAt md1.altBindings i arr,
                         remaining := setAt2 md1.remaining i (bIndex + 1) remAlts }

/-- The method `bindAlt`. -/
def MatchingData.bindAlt (md : MatchingData) (bIndex altIndex : Nat) : Run (Bool × MatchingData) :=
  match (md.altBindings bIndex).get? altIndex with
  | none => .fault .outOfBounds
  | some cur =>
    MatchingData.bindAltLoop bIndex cur.bindings (md.len - (bIndex + 1)) (bIndex + 1) md

/-- The loop of `ensureInit` over the base literals `pbi` before `bIndex`;
the first argument is `bIndex - pbi`, the result holds the last value of
`remAlts`. -/
def MatchingData.ensureInitLoop (bIndex : Nat) :
    Nat → Nat → Nat → MatchingData → Run (Nat × MatchingData)
  | 0, _, remAlts, md => .ok (remAlts, md)
  | n + 1, pbi, _, md =>
    match md.getIntersectInfo pbi bIndex with
    | .fault f => .fault f
    | .ok (iinfo, md1) =>
      match
        (if iinfo ≠ [] then
          match md1.nextAlts pbi with
          | 0 => .fault .outOfBounds
          | k + 1 =>
            match (md1.altBindings pbi).get? k with
            | none => .fault .outOfBounds
            | some pb =>
              pruneAlts pb.bindings iinfo (md1.remaining bIndex pbi) (md1.altBindings bIndex) 0
                (md1.remaining bIndex pbi)
        else .ok (md1.altBindings bIndex, md1.remaining bIndex pbi) :
          Run (List AltBinding × Nat)) with
      | .fault f => .fault f
      | .ok (arr, remAlts) =>
        MatchingData.ensureInitLoop bIndex n (pbi + 1) remAlts
          { md1 with altBindings := setAt md1.altBindings bIndex arr,
                     remaining := setAt2 md1.remaining bIndex (pbi + 1) remAlts }

/-- The method `ensureInit`. -/
def MatchingData.ensureInit (md : MatchingData) (bIndex : Nat) : Run (InitResult × MatchingData) :=
  if md.isInitialized bIndex then .ok (.OK, md)
  else
    match md.bases.get? bIndex, md.alts.get? bIndex with
    | some base, some alts =>
      match createLiteralBindings base alts md.instCl md.resolvedLit with
      | .fault f => .fault f
      | .ok (vars, abs) =>
        if abs.length = 0 then
          .ok (.NO_ALTERNATIVE,
            { md with boundVarNums := setAt md.boundVarNums bIndex (some vars),
                      altBindings := setAt md.altBindings bIndex abs })
        else
          match MatchingData.ensureInitLoop bIndex bIndex 0 0
              { md with boundVarNums := setAt md.boundVarNums bIndex (some vars),
                        altBindings := setAt md.altBindings bIndex abs,
                        remaining := setAt2 md.remaining bIndex 0 abs.length } with
          | .fault f => .fault f
          | .ok (remAlts, md1) =>
            if bIndex > 0 ∧ remAlts = 0 then .ok (.MUST_BACKTRACK, md1) else .ok (.OK, md1)
    | _, _ => .fault .outOfBounds

/-- The count `currAltCnt` of `getMatchingData`: the literals of a list of
alternatives, a commutative one counted twice. -/
def countAlts : List Literal → Nat
  | [] => 0
  | l :: ls => (if l.commutative then 2 else 1) + countAlts ls

/-- The variables of the reordering loop of `getMatchingData`, with the two
arrays `s_baseLits` and `s_altsArr`. -/
structure Reorder where
  baseLits : List Literal
  altsArr : List (List Literal)
  zeroAlts : Nat
  singleAlts : Nat
  mostDistVarsLit : Nat
  mostDistVarsCnt : Nat

/-- The helper `swapLits` of `getMatchingData`. -/
def Reorder.swapLits (st : Reorder) (i j : Nat) : Reorder :=
  { st with baseLits := swapAt st.baseLits i j, altsArr := swapAt st.altsArr i j }

/-- One pass of the reordering loop of `getMatchingData`. -/
def Reorder.step (resolvedLit : Option Literal) (st : Reorder) (i : Nat) : Run Reorder :=
  match st.baseLits.get? i, st.altsArr.get? i with
  | some lit, some alts =>
    if countAlts alts = 0 then
      .ok { (if st.zeroAlts ≠ i then
              { ((if st.singleAlts ≠ st.zeroAlts then st.swapLits st.singleAlts st.zeroAlts
                  else st).swapLits i st.zeroAlts) with
                mostDistVarsLit :=
                  if st.mostDistVarsLit = st.singleAlts then i else st.mostDistVarsLit }
            else st) with
            zeroAlts := st.zeroAlts + 1, singleAlts := st.singleAlts + 1 }
    else if countAlts alts = 1 ∧
        (match resolvedLit with
          | some r => r.couldBeInstanceOf lit true
          | none => false) = false then
      .ok { (if st.singleAlts ≠ i then
              { (st.swapLits i st.singleAlts) with
                mostDistVarsLit :=
                  if st.mostDistVarsLit = st.singleAlts then i else st.mostDistVarsLit }
            else st) with
            singleAlts := st.singleAlts + 1 }
    else if i > 0 ∧ st.mostDistVarsCnt < lit.getDistinctVars then
      .ok { st with mostDistVarsLit := i, mostDistVarsCnt := lit.getDistinctVars }
    else .ok st
  | _, _ => .fault .outOfBounds

/-- The reordering loop of `getMatchingData` from index `i` on; the first
argument is `baseLen - i`. -/
def Reorder.loop (resolvedLit : Option Literal) : Nat → Nat → Reorder → Run Reorder
  | 0, _, st => .ok st
  | n + 1, i, st =>
    match st.step resolvedLit i with
    | .fault f => .fault f
    | .ok st1 => Reorder.loop resolvedLit n (i + 1) st1

/-- The arrays `s_baseLits` and `s_altsArr` as `getMatchingData` leaves
them. -/
def reorderLits (baseLits0 : List Literal) (alts : List (List Literal))
    (resolvedLit : Option Literal) : Run (List Literal × List (List Literal)) :=
  match baseLits0 with
  | [] => .fault .outOfBounds
  | first :: _ =>
    match Reorder.loop resolvedLit baseLits0.length 0
        ⟨baseLits0, alts.take baseLits0.length, 0, 0, 0, first.getDistinctVars⟩ with
    | .fault f => .fault f
    | .ok st =>
      if st.mostDistVarsLit > st.singleAlts then
        .ok ((st.swapLits st.mostDistVarsLit st.singleAlts).baseLits,
          (st.swapLits st.mostDistVarsLit st.singleAlts).altsArr)
      else .ok (st.baseLits, st.altsArr)

/-- The function `getMatchingData`. The arrays `altBindings`, `remaining` and
`nextAlts` are taken over as they are; every entry is written before it is
read, so they start here with arbitrary content. -/
def getMatchingData (baseLits0 : List Literal) (instCl : Clause) (alts : List (List Literal))
    (resolvedLit : Option Literal) : Run MatchingData :=
  match reorderLits baseLits0 alts resolvedLit with
  | .fault f => .fault f
  | .ok (bs, as) =>
    .ok { len := baseLits0.length,
          boundVarNums := fun _ => none,
          altBindings := fun _ => [],
          remaining := fun _ _ => 0,
          nextAlts := fun _ => 0,
          intersections := fun _ _ => none,
          bases := bs,
          alts := as,
          instCl := instCl,
          resolvedLit := resolvedLit }

/-- The local state of `MLMatcher::canBeMatched`; `checks` counts the
consultations of the time limit made so far. -/
structure SearchState where
  md : MatchingData
  matchRecord : List Nat
  currBLit : Nat
  counter : Nat
  checks : Nat

/-- How a call of `canBeMatched` ends: it returns a boolean, or it throws
`TimeLimitExceededException`; `fault` is for a failed assertion, an access out
of bounds, or fuel that did not suffice. -/
inductive Outcome where
  | result (b : Bool)
  | timeLimitExceeded
  | fault (f : Fault)
deriving DecidableEq

/-- The value 0xFFFFFFFF of an entry of the match record that no base literal
claims. -/
def unclaimed : Nat := 0xFFFFFFFF

/-- The first test of the inner loop of `canBeMatched`: in multiset mode the
entry of the match record for the alternative under the cursor is below
`currBLit`. -/
def altTaken (multiset : Bool) (matchRecord : List Nat) (currBLit : Nat) (md : MatchingData) :
    Run Bool :=
  if multiset then
    match md.getAltRecordIndex currBLit (md.nextAlts currBLit) with
    | .fault f => .fault f
    | .ok idx =>
      match matchRecord.get? idx with
      | none => .fault .outOfBounds
      | some v => .ok (decide (v < currBLit))
  else .ok false

/-- The inner loop of `canBeMatched`, which moves `nextAlts[currBLit]` to the
first alternative below `maxAlt` that is neither taken by an earlier base
literal (in multiset mode) nor refused by `bindAlt`. The first argument is
`maxAlt - nextAlts[currBLit]`. -/
def scanAlts (multiset : Bool) (matchRecord : List Nat) (currBLit maxAlt : Nat) :
    Nat → MatchingData → Run MatchingData
  | 0, md => .ok md
  | n + 1, md =>
    if md.nextAlts currBLit < maxAlt then
      match altTaken multiset matchRecord currBLit md with
      | .fault f => .fault f
      | .ok true =>
        scanAlts multiset matchRecord currBLit maxAlt n
          { md with nextAlts := setAt md.nextAlts currBLit (md.nextAlts currBLit + 1) }
      | .ok false =>
        match md.bindAlt currBLit (md.nextAlts currBLit) with
        | .fault f => .fault f
        | .ok (true, md1) => .ok md1
        | .ok (false, md1) =>
          scanAlts multiset matchRecord currBLit maxAlt n
            { md1 with nextAlts := setAt md1.nextAlts currBLit (md1.nextAlts currBLit + 1) }
    else .ok md

/-- The update of the match record when `currBLit` commits to an alternative
with record index `matchRecordIndex`. -/
def commitRecord (matchRecord : List Nat) (currBLit matchRecordIndex : Nat) : Run (List Nat) :=
  match (matchRecord.map (fun v => if v = currBLit then unclaimed else v)).get? matchRecordIndex with
  | none => .fault .outOfBounds
  | some v =>
    if v > currBLit then
      .ok ((matchRecord.map (fun v => if v = currBLit then unclaimed else v)).set
        matchRecordIndex currBLit)
    else .ok (matchRecord.map (fun v => if v = currBLit then unclaimed else v))

/-- How one pass through the body of the outer loop of `canBeMatched` ends:
with a `return`, back at the head of the loop without having reached the
counter (the `continue` after MUST_BACKTRACK, or the `goto binding_start`), or
at the statement `counter++`. -/
inductive BodyResult where
  | ret (b : Bool)
  | again (s : SearchState)
  | completed (s : SearchState)

/-- What follows the loop when all base literals are matched: with a resolved
literal whose entry of the match record is not below `matchedLen` the search
goes on, otherwise the result is true. -/
def finalCheck (s : SearchState) : Run BodyResult :=
  match s.md.resolvedLit with
  | none => .ok (.ret true)
  | some _ =>
    match s.matchRecord.get? 1 with
    | none => .fault .outOfBounds
    | some v =>
      if v ≥ s.md.len then .ok (.again { s with currBLit := s.currBLit - 1 })
      else .ok (.ret true)

/-- The body of the outer loop of `canBeMatched` up to the statement
`counter++`. -/
def loopBody (multiset : Bool) (s : SearchState) : Run BodyResult :=
  match s.md.ensureInit s.currBLit with
  | .fault f => .fault f
  | .ok (.MUST_BACKTRACK, md1) => .ok (.again { s with md := md1, currBLit := s.currBLit - 1 })
  | .ok (.NO_ALTERNATIVE, _) => .ok (.ret false)
  | .ok (.OK, md1) =>
    match scanAlts multiset s.matchRecord s.currBLit (md1.getRemainingInCurrent s.currBLit)
        (md1.getRemainingInCurrent s.currBLit - md1.nextAlts s.currBLit) md1 with
    | .fault f => .fault f
    | .ok md2 =>
      if md2.nextAlts s.currBLit < md1.getRemainingInCurrent s.currBLit then
        match md2.getAltRecordIndex s.currBLit (md2.nextAlts s.currBLit) with
        | .fault f => .fault f
        | .ok matchRecordIndex =>
          match commitRecord s.matchRecord s.currBLit matchRecordIndex with
          | .fault f => .fault f
          | .ok rec1 =>
            if s.currBLit + 1 = md2.len then
              finalCheck { s with
                md := { md2 with nextAlts := setAt md2.nextAlts s.currBLit (md2.nextAlts s.currBLit + 1) },
                matchRecord := rec1, currBLit := s.currBLit + 1 }
            else
              .ok (.completed { s with
                md := { md2 with
                  nextAlts := setAt (setAt md2.nextAlts s.currBLit (md2.nextAlts s.currBLit + 1))
                    (s.currBLit + 1) 0 },
                matchRecord := rec1, currBLit := s.currBLit + 1 })
      else if s.currBLit = 0 then .ok (.ret false)
      else .ok (.completed { s with md := md2, currBLit := s.currBLit - 1 })

/-- How one pass of the outer loop of `canBeMatched` ends. -/
inductive StepResult where
  | done (o : Outcome)
  | next (s : SearchState)

/-- The end of the body of the outer loop: `counter++` and, at 50000, the
consultation of the time limit. -/
def tick (timeLimitReached : Nat → Bool) (s : SearchState) : StepResult :=
  if s.counter + 1 = 50000 then
    if timeLimitReached s.checks then .done .timeLimitExceeded
    else .next { s with counter := 0, checks := s.checks + 1 }
  else .next { s with counter := s.counter + 1 }

/-- One pass of the outer loop of `canBeMatched`. -/
def step (multiset : Bool) (timeLimitReached : Nat → Bool) (s : SearchState) : StepResult :=
  match loopBody multiset s with
  | .fault f => .done (.fault f)
  | .ok (.ret b) => .done (.result b)
  | .ok (.again s1) => .next s1
  | .ok (.completed s1) => tick timeLimitReached s1

/-- The outer loop of `canBeMatched`. -/
def searchLoop (multiset : Bool) (timeLimitReached : Nat → Bool) : Nat → SearchState → Outcome
  | 0, _ => .fault .outOfFuel
  | fuel + 1, s =>
    match step multiset timeLimitReached s with
    | .done o => o
    | .next s1 => searchLoop multiset timeLimitReached fuel s1

/-- The state in which `canBeMatched` enters its loop. -/
def initialState (md : MatchingData) (instCl : Clause) : SearchState :=
  { md := { md with nextAlts := setAt md.nextAlts 0 0 },
    matchRecord := List.replicate (if md.resolvedLit.isSome then 2 else instCl.length) unclaimed,
    currBLit := 0,
    counter := 0,
    checks := 0 }

/-- The method `MLMatcher::canBeMatched`; `baseLen` is the length of
`baseLits`. -/
def MLMatcher.canBeMatched (fuel : Nat) (timeLimitReached : Nat → Bool) (baseLits : List Literal)
    (instCl : Clause) (alts : List (List Literal)) (resolvedLit : Option Literal)
    (multiset : Bool) : Outcome :=
  if resolvedLit.isSome ∧ multiset = true then .fault .assertion
  else
    match getMatchingData baseLits instCl alts resolvedLit with
    | .fault f => .fault f
    | .ok md => searchLoop multiset timeLimitReached fuel (initialState md instCl)

end Kernel


namespace Kernel

open Indexing (Run Fault)

/-- The alternative to which the base literal `t` is committed: the one just
before the cursor `nextAlts[t]`. -/
def MatchingData.committed (md : MatchingData) (t : Nat) : Option AltBinding :=
  match md.nextAlts t with
  | 0 => none
  | k + 1 => (md.altBindings t).get? k

/-- The alternative `a` of the base literal `i` is compatible, in the sense of
`compatible`, with the alternatives `cm` chosen for all base literals before
`j`. -/
def CompatBelow (V : Nat → List Nat) (cm : Nat → Option AltBinding) (j i : Nat)
    (a : AltBinding) : Prop :=
  ∀ t, t < j → ∃ ct, cm t = some ct ∧
    compatibleBindings (intersectInfo (V t) (V i)) ct.bindings a.bindings = true

/-- The first `r` alternatives of the array `arr` of the base literal `i` are
exactly its alternatives that are compatible with the choices made for the
base literals before `j`. -/
def Pruned (V : Nat → List Nat) (cm : Nat → Option AltBinding) (arr : List AltBinding)
    (r j i : Nat) : Prop :=
  r ≤ arr.length ∧ (∀ a ∈ arr.take r, CompatBelow V cm j i a) ∧
    (∀ a ∈ arr.drop r, ¬ CompatBelow V cm j i a)

/-- The array `arr1` comes from `arr` by a rearrangement of its first `r`
entries. -/
def PrefixPerm (arr1 arr : List AltBinding) (r : Nat) : Prop :=
  ∃ q, arr1 = q ++ arr.drop r ∧ q.Perm (arr.take r)

/-- The outcome `arr1`, `r1` of the pruning loop run over the first `r`
entries of `arr` with the test `ok`: these entries are rearranged, the `r1`
that pass the test first. -/
def PruneRes (ok : AltBinding → Bool) (arr : List AltBinding) (r : Nat)
    (arr1 : List AltBinding) (r1 : Nat) : Prop :=
  ∃ pre mid, arr1 = pre ++ mid ++ arr.drop r ∧ (pre ++ mid).Perm (arr.take r) ∧
    pre.length = r1 ∧ (∀ a ∈ pre, ok a = true) ∧ (∀ a ∈ mid, ok a = false)

/-- The variables `V i` and the alternatives `A i` are what
`createLiteralBindings` yields for the base literal `i`, and every record
index is inside the match record. -/
def Created (md : MatchingData) (V : Nat → List Nat) (A : Nat → List AltBinding) : Prop :=
  ∀ i, i < md.len → ∃ b as, md.bases.get? i = some b ∧ md.alts.get? i = some as ∧
    createLiteralBindings b as md.instCl md.resolvedLit = .ok (V i, A i)

/-- The parts of the matching data that the search never changes. -/
def Static (md0 md : MatchingData) : Prop :=
  md.len = md0.len ∧ md.bases = md0.bases ∧ md.alts = md0.alts ∧ md.instCl = md0.instCl ∧
    md.resolvedLit = md0.resolvedLit

/-- Every cached intersection info is the one of the two arrays of
variables. -/
def CacheOK (V : Nat → List Nat) (md : MatchingData) : Prop :=
  ∀ i j x, md.intersections j i = some x → x = intersectInfo (V i) (V j)

/-- What `bindAlt` for the base literal `b`, having gone through the base
literals before `i`, leaves as it was: all but the cache, the arrays of
alternatives from `i` on, which are rearranged within their entries compatible
with the choices before `b`, and the entries of `remaining` for the level
`b + 1`. -/
def BindFrame (i b : Nat) (md md1 : MatchingData) : Prop :=
  Static md md1 ∧ md1.boundVarNums = md.boundVarNums ∧ md1.nextAlts = md.nextAlts ∧
    (∀ k, k < i → md1.altBindings k = md.altBindings k) ∧
    (∀ k, PrefixPerm (md1.altBindings k) (md.altBindings k) (md.remaining k b)) ∧
    (∀ k j, (j ≠ b + 1 ∨ k < i) → md1.remaining k j = md.remaining k j)

/-- What the loop of `ensureInit` for the base literal `b`, having gone
through the levels before `pbi`, leaves as it was: all but the cache, the
array of alternatives of `b`, and the entries of `remaining` of `b` for the
levels after `pbi`. -/
def InitFrame (pbi b : Nat) (md md1 : MatchingData) : Prop :=
  Static md md1 ∧ md1.boundVarNums = md.boundVarNums ∧ md1.nextAlts = md.nextAlts ∧
    (∀ k, k ≠ b → md1.altBindings k = md.altBindings k) ∧
    (md1.altBindings b).Perm (md.altBindings b) ∧
    (∀ k j, (k ≠ b ∨ j ≤ pbi) → md1.remaining k j = md.remaining k j)

/-- The record index of the alternative `a` is the one of an alternative
chosen for a base literal before `c`. -/
def Taken (cm : Nat → Option AltBinding) (c : Nat) (a : AltBinding) : Prop :=
  ∃ t ct, t < c ∧ cm t = some ct ∧ ct.record = a.record

/-- The alternative `x` of the base literal `c` cannot be chosen next to the
choices `cm` made before `c`: in multiset mode its record index is taken, or
some initialised base literal after `c` has no alternative compatible with
these choices and with `x`. -/
def Refused (multiset : Bool) (V : Nat → List Nat) (A : Nat → List AltBinding)
    (cm : Nat → Option AltBinding) (c m : Nat) (x : AltBinding) : Prop :=
  (multiset = true ∧ Taken cm c x) ∨
    ∃ i, c < i ∧ i < m ∧ ∀ a ∈ A i, ¬ CompatBelow V (setAt cm c (some x)) (c + 1) i a

/-- What the inner loop of `canBeMatched` at the base literal `c` keeps true
of the matching data: the initialised base literals after `c` stay pruned for
the level `c`, and the array of `c` stays as it is. -/
structure ScanInv (V : Nat → List Nat) (A : Nat → List AltBinding)
    (cm : Nat → Option AltBinding) (c m : Nat) (arrc : List AltBinding)
    (md : MatchingData) : Prop where
  init : ∀ k, md.boundVarNums k = if k < m then some (V k) else none
  cache : CacheOK V md
  perm : ∀ i, c < i → i < m → (md.altBindings i).Perm (A i)
  pruned : ∀ i, c < i → i < m → Pruned V cm (md.altBindings i) (md.remaining i c) c i
  arrc : md.altBindings c = arrc

/-- What the inner loop of `canBeMatched` at the base literal `c` leaves as it
was: all but the cache, the cursor of `c`, which only moves forward, the
arrays of alternatives after `c`, which are rearranged within their entries
compatible with the choices before `c`, and the entries of `remaining` for the
level `c + 1`. -/
def ScanFrame (c : Nat) (md md2 : MatchingData) : Prop :=
  Static md md2 ∧ md2.boundVarNums = md.boundVarNums ∧
    (∀ t, t ≠ c → md2.nextAlts t = md.nextAlts t) ∧ md.nextAlts c ≤ md2.nextAlts c ∧
    (∀ k, k ≤ c → md2.altBindings k = md.altBindings k) ∧
    (∀ k, PrefixPerm (md2.altBindings k) (md.altBindings k) (md.remaining k c)) ∧
    (∀ k j, j ≠ c + 1 → md2.remaining k j = md.remaining k j)

/-- The invariant of the matching data while the search stands at the base
literal `c` and the base literals before `m` are initialised. -/
structure MDInv (V : Nat → List Nat) (A : Nat → List AltBinding) (m c : Nat)
    (md : MatchingData) : Prop where
  init : ∀ i, md.boundVarNums i = if i < m then some (V i) else none
  perm : ∀ i, i < m → (md.altBindings i).Perm (A i)
  cache : ∀ i j x, md.intersections j i = some x → x = intersectInfo (V i) (V j)
  rem : ∀ i j, i < m → j ≤ c → j ≤ i →
    Pruned V md.committed (md.altBindings i) (md.remaining i j) j i
  commit : ∀ t, t < c → 1 ≤ md.nextAlts t ∧ md.nextAlts t ≤ md.remaining t t

/-- The invariant of the match record while the search stands at the base
literal `c`: an entry below `c` names a base literal committed to an
alternative with this record index, the entry for the record index of a
committed alternative is not above its base literal, and in multiset mode no
two committed alternatives have the same record index. -/
structure RecInv (multiset : Bool) (recLen : Nat) (md : MatchingData) (c : Nat)
    (matchRecord : List Nat) : Prop where
  hlen : matchRecord.length = recLen
  rec1 : ∀ p t, t < c → matchRecord.get? p = some t →
    ∃ ct, md.committed t = some ct ∧ ct.record = p
  rec2 : ∀ t ct, t < c → md.committed t = some ct →
    ∃ v, matchRecord.get? ct.record = some v ∧ v ≤ t
  inj : multiset = true → ∀ t1 t2 c1 c2, t1 < t2 → t2 < c →
    md.committed t1 = some c1 → md.committed t2 = some c2 → c1.record ≠ c2.record

/-- The invariant of the search at the head of the outer loop of
`canBeMatched`. -/
structure SInv (multiset : Bool) (V : Nat → List Nat) (A : Nat → List AltBinding)
    (recLen m : Nat) (s : SearchState) : Prop where
  md : MDInv V A m s.currBLit s.md
  hc : s.currBLit < s.md.len
  hcm : s.currBLit ≤ m
  hm : m ≤ s.md.len
  cur1 : s.currBLit < m → s.md.nextAlts s.currBLit ≤ s.md.remaining s.currBLit s.currBLit
  cur2 : s.currBLit = m → s.md.nextAlts s.currBLit = 0
  hrec : RecInv multiset recLen s.md s.currBLit s.matchRecord
  counter : s.counter < 50000

/-- A choice of one alternative for every base literal that the search looks
for: the chosen alternatives are compatible with one another, in multiset mode
no two of them have the same record index, and with a resolved literal one of
them has the record index 1. -/
def IsSolution (multiset resolved : Bool) (len : Nat) (V : Nat → List Nat)
    (A : Nat → List AltBinding) (σ : Nat → AltBinding) : Prop :=
  (∀ i, i < len → σ i ∈ A i) ∧
  (∀ t i, t < i → i < len →
    compatibleBindings (intersectInfo (V t) (V i)) (σ t).bindings (σ i).bindings = true) ∧
  (multiset = true → ∀ t i, t < i → i < len → (σ t).record ≠ (σ i).record) ∧
  (resolved = true → ∃ i, i < len ∧ (σ i).record = 1)

/-- No solution has been passed over: every solution leaves the committed
alternatives at some base literal up to the current one `c`, and does so with
an alternative that the cursor of this base literal has not reached yet. -/
def CompleteAt (multiset resolved : Bool) (V : Nat → List Nat) (A : Nat → List AltBinding)
    (m : Nat) (md : MatchingData) (c : Nat) : Prop :=
  ∀ σ, IsSolution multiset resolved md.len V A σ →
    ∃ j, j ≤ c ∧ (∀ t, t < j → md.committed t = some (σ t)) ∧
      σ j ∈ (if j < m then md.altBindings j else A j).drop (md.nextAlts j)

/-- An upper bound for the passes of the outer loop that a search through the
base literals with the given numbers of alternatives can make. -/
def searchSize : List Nat → Nat
  | [] => 1
  | n :: rest => n * searchSize rest + 2

/-- An upper bound for the passes of the outer loop that the search can make
from the base literal `i` on, whose number of alternatives is `N i`. -/
def sizeFrom (N : Nat → Nat) (len i : Nat) : Nat :=
  searchSize ((List.range (len - i)).map (fun d => N (i + d)))

/-- The passes of the outer loop that may still be to come: for each of the
`k` base literals from `j` on, the alternatives behind its cursor with all
that can follow them, and one pass to leave it. -/
def workLeft (N : Nat → Nat) (len : Nat) (cursor : Nat → Nat) : Nat → Nat → Nat
  | 0, _ => 0
  | k + 1, j => (N j - cursor j) * sizeFrom N len (j + 1) + 1 + workLeft N len cursor k (j + 1)

/-- The measure of a state of the search. -/
def SearchState.measure (A : Nat → List AltBinding) (s : SearchState) : Nat :=
  workLeft (fun i => (A i).length) s.md.len s.md.nextAlts (s.currBLit + 1) 0

/-- The state `s1` follows the state `s` in the search: the invariant and the
completeness hold again, the measure is smaller, and neither the counter nor
the number of consultations of the time limit has changed. -/
def Follows (multiset resolved : Bool) (V : Nat → List Nat) (A : Nat → List AltBinding)
    (recLen : Nat) (s s1 : SearchState) : Prop :=
  (∃ m1, SInv multiset V A recLen m1 s1 ∧
    CompleteAt multiset resolved V A m1 s1.md s1.currBLit) ∧
  Static s.md s1.md ∧ s1.measure A < s.measure A ∧ s1.counter = s.counter ∧
  s1.checks = s.checks

/-- A state of the search in which everything the proof of correctness needs
holds: the invariant and the completeness, the alternatives are the ones
created for the base literals, their record indices lie inside the match
record, and the number of base literals fits an unsigned number. -/
def Good (multiset resolved : Bool) (V : Nat → List Nat) (A : Nat → List AltBinding)
    (recLen : Nat) (s : SearchState) : Prop :=
  (∃ m, SInv multiset V A recLen m s ∧ CompleteAt multiset resolved V A m s.md s.currBLit) ∧
  Created s.md V A ∧ (∀ i, i < s.md.len → ∀ a ∈ A i, a.record < recLen) ∧
  s.md.len ≤ unclaimed ∧ s.md.resolvedLit.isSome = resolved ∧ (resolved = true → 1 < recLen)

/-- The two arrays `bl`, `al` are the arrays `B0`, `A0` read through one and
the same permutation of the indices. -/
def SamePerm (B0 : List Literal) (A0 : List (List Literal)) (bl : List Literal)
    (al : List (List Literal)) : Prop :=
  bl.length = B0.length ∧ al.length = B0.length ∧
    ∃ π : Equiv.Perm Nat, ∀ k, bl.get? k = B0.get? (π k) ∧ al.get? k = A0.get? (π k)

/-- The variables and the alternatives that `createLiteralBindings` yields for
the base literal `i` of the array `bases` with the list `i` of `alts`. -/
def slotOf (instCl : Clause) (resolvedLit : Option Literal) (bases : List Literal)
    (alts : List (List Literal)) (i : Nat) : List Nat × List AltBinding :=
  match bases.get? i, alts.get? i with
  | some b, some as =>
    match createLiteralBindings b as instCl resolvedLit with
    | .ok r => r
    | .fault _ => ([], [])
  | _, _ => ([], [])

/-- Whether `createLiteralBindings` succeeds for every base literal with its
list of alternatives: no assertion fails, which is so when every alternative
is a literal of the instance clause and has the shape of the base literal. -/
def properAlts (instCl : Clause) (resolvedLit : Option Literal) (baseLits : List Literal)
    (alts : List (List Literal)) : Bool :=
  (baseLits.zip alts).all (fun p =>
    match createLiteralBindings p.1 p.2 instCl resolvedLit with
    | .ok _ => true
    | .fault _ => false)

/-- The cell of the binding array of an alternative of the base literal `b`
that belongs to the variable `x`. -/
def AltBinding.valueOf (a : AltBinding) (b : Literal) (x : Nat) : Option (Option TermList) :=
  a.bindings.get? (variablePosition (boundVars b) x)

/-- The alternative `a1` of the base literal `b1` and the alternative `a2` of
the base literal `b2` bind every variable that occurs in both base literals to
the same term. -/
def Agree (b1 : Literal) (a1 : AltBinding) (b2 : Literal) (a2 : AltBinding) : Prop :=
  ∀ x, x ∈ b1.varOccs → x ∈ b2.varOccs → a1.valueOf b1 x = a2.valueOf b2 x

/-- A choice `σ` of one alternative for every base literal, in the order in
which the base literals are given: any two chosen alternatives agree on the
shared variables, in multiset mode no two of them have the same record index,
and with a resolved literal one of them has the record index 1. -/
def Matching (multiset : Bool) (instCl : Clause) (resolvedLit : Option Literal)
    (baseLits : List Literal) (alts : List (List Literal)) (σ : Nat → AltBinding) : Prop :=
  (∀ i, i < baseLits.length → σ i ∈ (slotOf instCl resolvedLit baseLits alts i).2) ∧
  (∀ i j b1 b2, baseLits.get? i = some b1 → baseLits.get? j = some b2 → i ≠ j →
    Agree b1 (σ i) b2 (σ j)) ∧
  (multiset = true → ∀ i j, i < baseLits.length → j < baseLits.length → i ≠ j →
    (σ i).record ≠ (σ j).record) ∧
  (resolvedLit.isSome = true → ∃ i, i < baseLits.length ∧ (σ i).record = 1)

/-- The number of passes of the outer loop of `canBeMatched` from the state
`s` that reach the statement `counter++`, when the time limit is never
reached. -/
def completedPasses (multiset : Bool) : Nat → SearchState → Nat
  | 0, _ => 0
  | fuel + 1, s =>
    match loopBody multiset s with
    | .ok (.again s1) => completedPasses multiset fuel s1
    | .ok (.completed s1) =>
      match tick (fun _ => false) s1 with
      | .next s2 => completedPasses multiset fuel s2 + 1
      | .done _ => 1
    | _ => 0

/-- The number of passes of the outer loop that reach the statement
`counter++` in a call of `canBeMatched` whose time limit is never reached. -/
def MLMatcher.completedIterations (fuel : Nat) (baseLits : List Literal) (instCl : Clause)
    (alts : List (List Literal)) (resolvedLit : Option Literal) (multiset : Bool) : Nat :=
  if resolvedLit.isSome ∧ multiset = true then 0
  else
    match getMatchingData baseLits instCl alts resolvedLit with
    | .fault _ => 0
    | .ok md => completedPasses multiset fuel (initialState md instCl)

/-- The state of the search after a number of passes of the outer loop. -/
def stateAfter (multiset : Bool) (timeLimitReached : Nat → Bool) :
    Nat → SearchState → Option SearchState
  | 0, s => some s
  | n + 1, s =>
    match step multiset timeLimitReached s with
    | .next s1 => stateAfter multiset timeLimitReached n s1
    | .done _ => none

/-- The current base literal and the cursors `nextAlts` of all base literals
after a number of passes of the outer loop of a call of `canBeMatched`. -/
def MLMatcher.cursorsAfter (n : Nat) (timeLimitReached : Nat → Bool) (baseLits : List Literal)
    (instCl : Clause) (alts : List (List Literal)) (resolvedLit : Option Literal)
    (multiset : Bool) : Option (Nat × List Nat) :=
  match getMatchingData baseLits instCl alts resolvedLit with
  | .fault _ => none
  | .ok md =>
    match stateAfter multiset timeLimitReached n (initialState md instCl) with
    | none => none
    | some s => some (s.currBLit, (List.range s.md.len).map s.md.nextAlts)

/-- The variable X of the examples. -/
def Example.X : TermList := .var 0

/-- The variable Y of the examples. -/
def Example.Y : TermList := .var 1

/-- The constant a of the examples. -/
def Example.a : TermList := .term 10 []

/-- The constant b of the examples. -/
def Example.b : TermList := .term 11 []

/-- The constant c of the examples. -/
def Example.c : TermList := .term 12 []

/-- A positive literal with the predicate P of the examples. -/
def Example.P (args : List TermList) : Literal := ⟨1, true, args⟩

/-- A positive literal with the predicate Q of the examples. -/
def Example.Q (args : List TermList) : Literal := ⟨2, true, args⟩

/-- A positive literal with the predicate R of the examples. -/
def Example.R (args : List TermList) : Literal := ⟨3, true, args⟩

/-- A negative literal with the predicate P of the examples. -/
def Example.notP (args : List TermList) : Literal := ⟨1, false, args⟩

/-- A negative literal with the predicate Q of the examples. -/
def Example.notQ (args : List TermList) : Literal := ⟨2, false, args⟩

end Kernel


namespace Indexing

open Kernel

/-- The loop of `ClauseCodeTree::compile` over the literals of the clause:
before the instructions of each literal a NEXT_LIT is pushed; the variable map
and the next variable number are carried from literal to literal. -/
def ClauseCodeTree.compileLits :
    List Literal → CodeStack × VarMap × Nat → CodeStack × VarMap × Nat
  | [], st => st
  | lit :: rest, st =>
    ClauseCodeTree.compileLits rest
      (CodeTree.compile lit.header lit.args (st.1 ++ [OpCode.mk0 .NEXT_LIT]) st.2.1 st.2.2)

/-- The method `ClauseCodeTree::compile(Clause* c, code)`: returns the code
stack and the tree with its variable count updated. -/
def ClauseCodeTree.compile (tree : CodeTree) (c : Clause) (code : CodeStack) :
    CodeStack × CodeTree :=
  ((ClauseCodeTree.compileLits c (code, [], 0)).1 ++ [OpCode.mk0 (.SUCCESS 0)],
    if (ClauseCodeTree.compileLits c (code, [], 0)).2.2 > tree._maxVarCnt then
      { tree with _maxVarCnt := (ClauseCodeTree.compileLits c (code, [], 0)).2.2 }
    else tree)

/-- What is compiled into a code tree: a term or a clause. -/
inductive Pattern where
  | term (t : TermList)
  | clause (c : Clause)

/-- Compile a pattern on an empty code stack, with `TermCodeTree::compile` or
with `ClauseCodeTree::compile`. -/
def CodeTree.compilePattern (tree : CodeTree) : Pattern → CodeStack × CodeTree
  | .term t => TermCodeTree.compile tree t []
  | .clause c => ClauseCodeTree.compile tree c []

/-- Insert one pattern: `compile` on an empty code stack followed by
`incorporate`. -/
def CodeTree.insertPattern (tree : CodeTree) (pat : Pattern) : Run CodeTree :=
  CodeTree.incorporate (tree.compilePattern pat).2 (tree.compilePattern pat).1

/-- Insert a list of patterns one after the other. -/
def CodeTree.insertPatterns : CodeTree → List Pattern → Run CodeTree
  | tree, [] => .ok tree
  | tree, pat :: pats =>
    match tree.insertPattern pat with
    | .fault f => .fault f
    | .ok tree1 => CodeTree.insertPatterns tree1 pats

/-- Number of instructions of a tree that have an alternative: the branch
points. -/
def numLinks (mem : List CodeBlock) : Nat :=
  (mem.flatten.filter (fun op => op.alternative.isSome)).length

/-- The cursor of a walk through the tree that starts at `p` stands at `q`
after the instructions `code`: the walk goes along alternative links and, past
each instruction of `code`, to the next instruction of the block. The cursor
may stand one past the end of a block. -/
inductive PathTo (mem : List CodeBlock) : Ptr → List Instruction → Ptr → Prop where
  | here (p : Ptr) : PathTo mem p [] p
  | step (p : Ptr) (i : Instruction) (alt : Option Ptr) (rest : List Instruction) (q : Ptr) :
      deref mem p = .ok ⟨i, alt⟩ → PathTo mem ⟨p.blk, p.ofs + 1⟩ rest q →
      PathTo mem p (i :: rest) q
  | alt (p a : Ptr) (i : Instruction) (code : List Instruction) (q : Ptr) :
      deref mem p = .ok ⟨i, some a⟩ → PathTo mem a code q → PathTo mem p code q

/-- The slots that the ASSIGN_VAR instructions of a sequence write, in this
order. -/
def assignedSlots : List Instruction → List Nat
  | [] => []
  | .ASSIGN_VAR v :: rest => v :: assignedSlots rest
  | _ :: rest => assignedSlots rest

/-- The variable slot that an instruction reads or writes is below `n`. -/
def Instruction.slotBelow (n : Nat) : Instruction → Prop
  | .ASSIGN_VAR v => v < n
  | .CHECK_VAR v => v < n
  | _ => True

/-- The instructions that the specification asks of `CodeTree::compile` for
the subterms `subs` in traversal order, where `seen` lists the distinct
variables met so far in the order of their first occurrence: a non-variable
subterm gives CHECK_FUN with its functor, the first occurrence of a variable
gives ASSIGN_VAR with the next free slot (the number of distinct variables met
so far), a later occurrence gives CHECK_VAR with the slot of the variable (its
place in `seen`). The second component is `seen` at the end. -/
def specCompile (seen : List Nat) : List TermList → List Instruction × List Nat
  | [] => ([], seen)
  | .var v :: rest =>
    if v ∈ seen then
      (.CHECK_VAR (seen.indexOf v) :: (specCompile seen rest).1, (specCompile seen rest).2)
    else
      (.ASSIGN_VAR seen.length :: (specCompile (seen ++ [v]) rest).1,
        (specCompile (seen ++ [v]) rest).2)
  | .term g _ :: rest => (.CHECK_FUN g :: (specCompile seen rest).1, (specCompile seen rest).2)

/-- The instructions that the specification asks of `ClauseCodeTree::compile`
for the literals of a clause: for each literal a NEXT_LIT, the CHECK_FUN of
its header and the instructions of its subterms, with one list `seen` of
variables for the whole clause. -/
def specClause (seen : List Nat) : List Literal → List Instruction × List Nat
  | [] => ([], seen)
  | lit :: rest =>
    (.NEXT_LIT :: .CHECK_FUN lit.header ::
        ((specCompile seen (TermList.subtermsOfArgs lit.args)).1 ++
          (specClause (specCompile seen (TermList.subtermsOfArgs lit.args)).2 rest).1),
      (specClause (specCompile seen (TermList.subtermsOfArgs lit.args)).2 rest).2)

/-- The variable map and the next variable number of `CodeTree::compile` hold
the numbering of the variables `seen`: the variable at place `k` of `seen` has
the slot `k`. -/
def Numbered (vm : VarMap) (n : Nat) (seen : List Nat) : Prop :=
  n = seen.length ∧ seen.Nodup ∧
    ∀ v, vm.lookup v = if v ∈ seen then some (seen.indexOf v) else none

/-- The contexts with which the loop of `TermCodeTree::next` starts a pass, in
the calls of `next` that follow `init`: the first pass of the first call, the
pass after a pass that did not return, and the first pass of a call that
resumes at the choice point on top of the stack. -/
inductive Visits (mem : List CodeBlock) (ctx0 : EContext) : EContext → Prop where
  | start : Visits mem ctx0 { ctx0 with fresh := false }
  | again (c c1 : EContext) (res : Nat) :
      Visits mem ctx0 c → TermCodeTree.loopBody mem c res = .ok (.again c1) → Visits mem ctx0 c1
  | resume (c c1 c2 : EContext) (res r : Nat) :
      Visits mem ctx0 c → TermCodeTree.loopBody mem c res = .ok (.ret true r c1) →
      c1.backtrack = some c2 → Visits mem ctx0 { c2 with fresh := false }

/-- The choice points of a backtrack stack are sound for the bindings `b`:
each of them is reached from the root by a walk over instructions `code1`,
a beginning of the instructions walked over to reach the choice point above it
(or the current instruction), whose execution on the query from the bindings
`b0` leads to the query position of the choice point, and the bindings `b`
agree with the bindings of this execution on all slots assigned by it. -/
def StackOK (mem : List CodeBlock) (root : Ptr) (ft : List FlatTerm.Entry) (b0 : Bindings) :
    List Instruction → List BTPoint → Bindings → Prop
  | _, [], _ => True
  | code, bp :: rest, b =>
    ∃ code1 b1, code1 <+: code ∧ PathTo mem root code1 bp.op ∧
      execCode ft code1 0 b0 = .ok (some (bp.tp, b1)) ∧
      Bindings.agreeBelow (levelAfter 0 code1) b b1 ∧ StackOK mem root ft b0 code1 rest b

/-- The instruction sequence that `compile` pushes for a pattern (it does not
depend on the tree). -/
def Pattern.code (pat : Pattern) : List Instruction :=
  instrsOf (CodeTree.empty.compilePattern pat).1

/-- The number of variable slots that the compiled sequence of a pattern
uses: the value of `nextVarNum` at the end of `compile`. -/
def Pattern.varCnt (pat : Pattern) : Nat :=
  (CodeTree.empty.compilePattern pat).2._maxVarCnt

/-- The pointer `p` addresses an instruction of the memory. -/
def validPtr (mem : List CodeBlock) (p : Ptr) : Prop := ∃ op, deref mem p = .ok op

/-- The invariant of a tree built by insertions of compiled patterns: every
block holds instructions that do not end a path, with variable slots below
`_maxVarCnt`, followed by one SUCCESS; every alternative link points to the
first instruction of a block; the root is a block. -/
def TreeOK (tree : CodeTree) : Prop :=
  (∀ is ∈ tree.mem.map instrsOf, ∃ body, is = body ++ [Instruction.SUCCESS 0] ∧
    ∀ i ∈ body, i.terminal = false ∧ i.slotBelow tree._maxVarCnt) ∧
  (∀ x op a, deref tree.mem x = .ok op → op.alternative = some a →
    a.ofs = 0 ∧ a.blk < tree.mem.length) ∧
  (∀ root, tree._data = some root → root < tree.mem.length)

/-- The context that a pass through the body of the loop of `next` leaves. -/
def LoopStep.ctx : LoopStep → EContext
  | .ret _ _ c => c
  | .again c => c

/-- A context is in order for a memory and a number `n` of slots: its bindings
table has `n` entries, and its instruction pointer and the instruction
pointers kept on its backtrack stack address instructions of the memory. -/
def CtxOK (mem : List CodeBlock) (n : Nat) (c : EContext) : Prop :=
  c.bindings.length = n ∧ validPtr mem c.op ∧ ∀ bp ∈ c.btStack, validPtr mem bp.op

/-- The state of a context of a query on a term tree: the instruction
pointer is reached from the root by a walk over instructions `code` that obey
the slot discipline, the execution of `code` on the query from the bindings
`b0` leads to the query position of the context, the bindings of the context
agree with the bindings of this execution on all slots assigned by `code`, and
the choice points of the stack are sound. -/
def RunOK (mem : List CodeBlock) (root : Ptr) (ft : List FlatTerm.Entry) (b0 : Bindings)
    (c : EContext) : Prop :=
  c.ft = ft ∧ ∃ code b1, (∃ w, Disc 0 (code ++ w)) ∧ PathTo mem root code c.op ∧
    execCode ft code 0 b0 = .ok (some (c.tp, b1)) ∧
    Bindings.agreeBelow (levelAfter 0 code) c.bindings b1 ∧
    StackOK mem root ft b0 code c.btStack c.bindings

end Indexing

namespace Kernel

/-- The permutation of the indices that moves every index up by one and keeps
0. -/
def consPerm (π : Equiv.Perm Nat) : Equiv.Perm Nat where
  toFun := fun k => match k with | 0 => 0 | k + 1 => π k + 1
  invFun := fun k => match k with | 0 => 0 | k + 1 => π.symm k + 1
  left_inv := by
    intro k
    cases k with
    | zero => rfl
    | succ k => simp
  right_inv := by
    intro k
    cases k with
    | zero => rfl
    | succ k => simp

end Kernel


namespace Indexing

open Kernel

/-- Modelled from the spec: the tag of an instruction in the bit-packed word
of an `OpCode` (its declaration is not part of the sources at hand). The code
fixes that SUCCESS is the tag whose two low bits are zero (`(data&3)==0`,
`instr()&3`); the other tags have a low bit set. -/
def Instruction.tag : Instruction → Nat
  | .SUCCESS _ => 0
  | .CHECK_FUN _ => 1
  | .ASSIGN_VAR _ => 2
  | .CHECK_VAR _ => 3
  | .FAIL => 5
  | .NEXT_LIT => 6

/-- The operand of an instruction: the functor or the slot, for SUCCESS the
payload; FAIL and NEXT_LIT have none. -/
def Instruction.operand : Instruction → Nat
  | .SUCCESS r => r
  | .CHECK_FUN a => a
  | .ASSIGN_VAR a => a
  | .CHECK_VAR a => a
  | .FAIL => 0
  | .NEXT_LIT => 0

/-- The operand fits its bit field: 29 bits for a functor or a slot; the
payload of SUCCESS is a pointer aligned to four bytes, kept here divided by
four. -/
def Instruction.fits : Instruction → Prop
  | .SUCCESS r => r < 2 ^ 62
  | i => i.operand < 2 ^ 29

/-- Modelled from the spec: the 64-bit word `data` of an `OpCode`. For SUCCESS
it is the result pointer, all 64 bits initialised. For the other instructions
the first 32 bits hold the tag (3 bits) and the operand (29 bits), and the
other 32 bits are not initialised: they hold whatever `hi` was there. -/
def Instruction.data (hi : Nat) : Instruction → Nat
  | .SUCCESS r => 4 * r
  | .CHECK_FUN a => 1 + 8 * a + 2 ^ 32 * hi
  | .ASSIGN_VAR a => 2 + 8 * a + 2 ^ 32 * hi
  | .CHECK_VAR a => 3 + 8 * a + 2 ^ 32 * hi
  | .FAIL => 5 + 2 ^ 32 * hi
  | .NEXT_LIT => 6 + 2 ^ 32 * hi

/-- The body of `OpCode::eqModAlt` for ARCH_X64, on the words `data` of the
two instructions: a SUCCESS word is compared in all its bits, any other in its
first 32 bits. -/
def eqModAltData (data odata : Nat) : Bool :=
  if data % 4 = 0 then decide (data = odata)
  else decide (data % 2 ^ 32 = odata % 2 ^ 32)

end Indexing

namespace Kernel

open Indexing (Run Fault)

/-- The state of the search at the head of the outer loop of a call of
`canBeMatched`, after a number of passes of the loop. -/
def MLMatcher.stateAt (n : Nat) (timeLimitReached : Nat → Bool) (baseLits : List Literal)
    (instCl : Clause) (alts : List (List Literal)) (resolvedLit : Option Literal)
    (multiset : Bool) : Option SearchState :=
  if resolvedLit.isSome ∧ multiset = true then none
  else
    match getMatchingData baseLits instCl alts resolvedLit with
    | .fault _ => none
    | .ok md => stateAfter multiset timeLimitReached n (initialState md instCl)

/-- The result that a call of `ensureInit` signals. -/
def initResultOf (r : Run (InitResult × MatchingData)) : Option InitResult :=
  match r with
  | .ok (res, _) => some res
  | .fault _ => none

/-- The test of the first two branches of the reordering loop of
`getMatchingData` on a base literal with its list of alternatives: the count
of alternatives is 0, or it is 1 and the base literal could not be an
instance of the complement of the resolved literal. -/
def forcedSlot (resolvedLit : Option Literal) (lit : Literal) (lits : List Literal) : Bool :=
  decide (countAlts lits = 0) ||
    (decide (countAlts lits = 1) &&
      !(match resolvedLit with
        | some r => r.couldBeInstanceOf lit true
        | none => false))

/-- What the reordering loop of `getMatchingData` keeps true before the pass
for the index `i`: among the base literals before `i`, the ones that took one
of the first two branches are exactly the ones that stand before the index
`singleAlts`. -/
def Reorder.Inv (resolvedLit : Option Literal) (len : Nat) (st : Reorder) (i : Nat) : Prop :=
  st.baseLits.length = len ∧ st.altsArr.length = len ∧ st.zeroAlts ≤ st.singleAlts ∧
    st.singleAlts ≤ i ∧
    ∀ k lit lits, k < i → st.baseLits.get? k = some lit → st.altsArr.get? k = some lits →
      (forcedSlot resolvedLit lit lits = true ↔ k < st.singleAlts)

end Kernel


namespace Kernel

open Indexing (Run Fault)

/-- The entries that `getIntersectInfo` writes to `intersectionStorage` for
the pairs it finds: the pairs in the order in which they are found, then one
entry whose first component is -1 and whose second component is not
written. -/
def storedEntries (info : List (Nat × Nat)) : List (Int × Option Int) :=
  info.map (fun p => ((p.1 : Int), some (p.2 : Int))) ++ [(-1, none)]

/-- The numbering of the variables of a base literal in the words of the
specification: the distinct variables in the order of their first
occurrence. -/
def specVarOrder (occs : List Nat) : List Nat :=
  occs.foldl (fun seen v => if v ∈ seen then seen else seen ++ [v]) []

/-- What the reordering loop of `getMatchingData` keeps true of its candidate
before the pass for the index `i`, once the base literal at index 0 has gone
through the third branch: `mostDistVarsLit` is the index of a base literal
behind the forced ones that has `mostDistVarsCnt` distinct variables, and no
base literal between `singleAlts` and `i` has more. -/
def Reorder.Most (st : Reorder) (i : Nat) : Prop :=
  st.singleAlts ≤ st.mostDistVarsLit ∧ st.mostDistVarsLit < i ∧
    (∃ lit, st.baseLits.get? st.mostDistVarsLit = some lit ∧
      lit.getDistinctVars = st.mostDistVarsCnt) ∧
    ∀ k lit, st.singleAlts ≤ k → k < i → st.baseLits.get? k = some lit →
      lit.getDistinctVars ≤ st.mostDistVarsCnt

end Kernel

namespace Indexing

open Kernel

/-- The positions of the flattened query that the method for an instruction
reads with the context `ctx` are inside the flat term: `doCheckFun` reads the
entry at `tp`; `doAssignVar` reads it and, when it is a FUN entry, the two
entries behind it; `doCheckVar` reads it and, when it is a FUN entry, the entry
behind it, and the next one when the binding is the term found there. -/
def ReadsInside (ctx : EContext) : Instruction → Prop
  | .CHECK_FUN _ => ctx.tp < ctx.ft.length
  | .ASSIGN_VAR _ =>
    ctx.tp < ctx.ft.length ∧
      ∀ n, ctx.ft.get? ctx.tp = some (.FUN n) → ctx.tp + 2 < ctx.ft.length
  | .CHECK_VAR v =>
    ctx.tp < ctx.ft.length ∧
      ∀ n, ctx.ft.get? ctx.tp = some (.FUN n) → ctx.tp + 1 < ctx.ft.length ∧
        ∀ t, ctx.ft.get? (ctx.tp + 1) = some (.FUN_TERM_PTR t) →
          ctx.bindings.get? v = some (some t) → ctx.tp + 2 < ctx.ft.length
  | _ => True

end Indexing


namespace Indexing

open Kernel

theorem prepend_nil (r : List (Ptr × Bindings) × List Ptr × Option Fault) :
    prepend [] [] r = r := by
  simp [prepend]

theorem prepend_prepend (l1 l2 : List (Ptr × Bindings)) (t1 t2 : List Ptr)
    (r : List (Ptr × Bindings) × List Ptr × Option Fault) :
    prepend l1 t1 (prepend l2 t2 r) = prepend (l1 ++ l2) (t1 ++ t2) r := by
  simp [prepend]

theorem prepend_afterRun (l : List (Ptr × Bindings)) (tr : List Ptr)
    (r : List (Ptr × Bindings) × List Ptr × Run Bindings)
    (rest : Bindings → List (Ptr × Bindings) × List Ptr × Option Fault) :
    prepend l tr (afterRun r rest) = afterRun (l ++ r.1, tr ++ r.2.1, r.2.2) rest := by
  unfold afterRun
  cases r.2.2 with
  | fault e => simp [prepend]
  | ok b2 => simp [prepend_prepend]

theorem loopBody_eq (mem : List CodeBlock) (ctx : EContext) (res : Nat) (i : Instruction)
    (alt : Option Ptr) (h : deref mem ctx.op = .ok ⟨i, alt⟩) :
    TermCodeTree.loopBody mem ctx res = loopBodySpec ctx res i alt := by
  unfold TermCodeTree.loopBody loopBodySpec EContext.pushAlt
  rw [h]
  cases i with
  | SUCCESS r => rfl
  | NEXT_LIT => rfl
  | FAIL => cases alt <;> rfl
  | CHECK_FUN f =>
    simp only [execInstr, checkFun, EContext.doCheckFun]
    cases alt <;> simp only [] <;>
    · cases hg : ctx.ft.get? ctx.tp with
      | none => rfl
      | some e =>
        cases e with
        | FUN n => by_cases hn : n = f <;> simp [hn]
        | VAR n => rfl
        | FUN_TERM_PTR t => rfl
        | FUN_RIGHT_OFS k => rfl
  | ASSIGN_VAR v =>
    simp only [execInstr, termAt, EContext.doAssignVar, EContext.setBinding]
    cases alt <;> simp only [] <;>
    · cases hg : ctx.ft.get? ctx.tp with
      | none => rfl
      | some e =>
        cases e with
        | VAR n => by_cases hv : v < ctx.bindings.length <;> simp [hv]
        | FUN n =>
          simp only []
          cases hg1 : ctx.ft.get? (ctx.tp + 1) with
          | none => rfl
          | some e1 =>
            cases e1 with
            | FUN_TERM_PTR t =>
              by_cases hv : v < ctx.bindings.length
              · simp only [hv, if_true]
                cases hg2 : ctx.ft.get? (ctx.tp + 2) with
                | none => rfl
                | some e2 => cases e2 <;> rfl
              · simp [hv]
            | FUN n => rfl
            | VAR n => rfl
            | FUN_RIGHT_OFS k => rfl
        | FUN_TERM_PTR t => rfl
        | FUN_RIGHT_OFS k => rfl
  | CHECK_VAR v =>
    simp only [execInstr, termAt, EContext.doCheckVar, EContext.getBinding]
    cases alt <;> simp only [] <;>
    · cases hg : ctx.ft.get? ctx.tp with
      | none => rfl
      | some e =>
        cases e with
        | VAR n =>
          simp only []
          cases hb : ctx.bindings.get? v with
          | none => rfl
          | some ob =>
            cases ob with
            | none => rfl
            | some u => by_cases hu : u = TermList.var n <;> simp [hu]
        | FUN n =>
          simp only []
          cases hg1 : ctx.ft.get? (ctx.tp + 1) with
          | none => rfl
          | some e1 =>
            cases e1 with
            | FUN_TERM_PTR t =>
              simp only []
              cases hb : ctx.bindings.get? v with
              | none => rfl
              | some ob =>
                cases ob with
                | none => rfl
                | some u =>
                  by_cases hu : u = t
                  · simp only [hu, ne_eq, not_true_eq_false, if_false]
                    cases hg2 : ctx.ft.get? (ctx.tp + 2) with
                    | none => rfl
                    | some e2 => cases e2 <;> rfl
                  · simp [hu]
            | FUN n => rfl
            | VAR n => rfl
            | FUN_RIGHT_OFS k => rfl
        | FUN_TERM_PTR t => rfl
        | FUN_RIGHT_OFS k => rfl

end Indexing


namespace Indexing

open Kernel

theorem backtrack_pushAlt (ctx : EContext) (alt : Option Ptr) :
    (ctx.pushAlt alt).btStack = pushStack alt ctx.tp ctx.btStack := by
  cases alt <;> rfl

theorem pushAlt_fields (ctx : EContext) (alt : Option Ptr) :
    (ctx.pushAlt alt).fresh = ctx.fresh ∧ (ctx.pushAlt alt).tp = ctx.tp ∧
      (ctx.pushAlt alt).op = ctx.op ∧ (ctx.pushAlt alt).bindings = ctx.bindings ∧
      (ctx.pushAlt alt).ft = ctx.ft := by
  cases alt <;> simp [EContext.pushAlt]

/-- One iteration at a failing instruction: the run resumes from the stack. -/
theorem drive_fail (mem : List CodeBlock) (fuel : Nat) (ctx : EContext) (i : Instruction)
    (alt : Option Ptr) (h : deref mem ctx.op = .ok ⟨i, alt⟩) (hf : ctx.fresh = false)
    (hi : ∀ r, i ≠ .SUCCESS r)
    (he : execInstr ctx.ft i ctx.tp ctx.bindings = .ok none) :
    drive mem (fuel + 1) ctx =
      prepend [] [ctx.op]
        (resume mem fuel (pushStack alt ctx.tp ctx.btStack) ctx.bindings ctx.ft) := by
  have hn : i ≠ .NEXT_LIT := by
    intro hc; rw [hc] at he; simp [execInstr] at he
  rw [drive, loopBody_eq mem ctx 0 i alt h]
  have hl : loopBodySpec ctx 0 i alt = .ok (TermCodeTree.afterInstr 0 (false, ctx.pushAlt alt)) := by
    cases i with
    | SUCCESS r => exact absurd rfl (hi r)
    | NEXT_LIT => exact absurd rfl hn
    | FAIL => simp [loopBodySpec, he]
    | CHECK_FUN f => simp [loopBodySpec, he]
    | ASSIGN_VAR v => simp [loopBodySpec, he]
    | CHECK_VAR v => simp [loopBodySpec, he]
  rw [hl]
  obtain ⟨h1, h2, h3, h4, h5⟩ := pushAlt_fields ctx alt
  have hs := backtrack_pushAlt ctx alt
  simp only [TermCodeTree.afterInstr, EContext.backtrack]
  cases hst : (ctx.pushAlt alt).btStack with
  | nil =>
    rw [← hs, hst]
    simp [resume, prepend]
  | cons bp rest =>
    rw [← hs, hst]
    simp only [resume, Bool.false_eq_true, if_false, prepend]
    rw [h1, h4, h5, hf]
    simp

/-- One iteration at an instruction that succeeds: the run goes on with the
next instruction of the block. -/
theorem drive_step (mem : List CodeBlock) (fuel : Nat) (ctx : EContext) (i : Instruction)
    (alt : Option Ptr) (h : deref mem ctx.op = .ok ⟨i, alt⟩) (hf : ctx.fresh = false)
    (hi : ∀ r, i ≠ .SUCCESS r) (tp1 : Nat) (b1 : Bindings)
    (he : execInstr ctx.ft i ctx.tp ctx.bindings = .ok (some (tp1, b1))) :
    drive mem (fuel + 1) ctx =
      prepend [] [ctx.op]
        (drive mem fuel ⟨false, tp1, ⟨ctx.op.blk, ctx.op.ofs + 1⟩,
          pushStack alt ctx.tp ctx.btStack, b1, ctx.ft⟩) := by
  have hn : i ≠ .NEXT_LIT := by
    intro hc; rw [hc] at he; simp [execInstr] at he
  rw [drive, loopBody_eq mem ctx 0 i alt h]
  have hl : loopBodySpec ctx 0 i alt =
      .ok (TermCodeTree.afterInstr 0 (true, { ctx.pushAlt alt with tp := tp1, bindings := b1 })) := by
    cases i with
    | SUCCESS r => exact absurd rfl (hi r)
    | NEXT_LIT => exact absurd rfl hn
    | FAIL => simp [execInstr] at he
    | CHECK_FUN f => simp [loopBodySpec, he]
    | ASSIGN_VAR v => simp [loopBodySpec, he]
    | CHECK_VAR v => simp [loopBodySpec, he]
  rw [hl]
  obtain ⟨h1, h2, h3, h4, h5⟩ := pushAlt_fields ctx alt
  have hs := backtrack_pushAlt ctx alt
  simp only [TermCodeTree.afterInstr, if_true, prepend]
  rw [h1, h3, hs, h5, hf]
  simp

/-- One iteration at a SUCCESS instruction: a match is recorded and the run
resumes from the stack. -/
theorem drive_success (mem : List CodeBlock) (fuel : Nat) (ctx : EContext) (r : Nat)
    (alt : Option Ptr) (h : deref mem ctx.op = .ok ⟨.SUCCESS r, alt⟩) (hf : ctx.fresh = false) :
    drive mem (fuel + 1) ctx =
      prepend [(ctx.op, ctx.bindings)] [ctx.op]
        (resume mem fuel (pushStack alt ctx.tp ctx.btStack) ctx.bindings ctx.ft) := by
  rw [drive, loopBody_eq mem ctx 0 _ alt h]
  obtain ⟨h1, h2, h3, h4, h5⟩ := pushAlt_fields ctx alt
  have hs := backtrack_pushAlt ctx alt
  simp only [loopBodySpec, EContext.backtrack]
  cases hst : (ctx.pushAlt alt).btStack with
  | nil =>
    rw [← hs, hst]
    simp [resume, prepend, h3, h4]
  | cons bp rest =>
    rw [← hs, hst]
    simp only [resume, prepend]
    rw [h1, h4, h5, hf, h3]
    simp

theorem drive_fault (mem : List CodeBlock) (fuel : Nat) (ctx : EContext) (i : Instruction)
    (alt : Option Ptr) (h : deref mem ctx.op = .ok ⟨i, alt⟩) (hi : ∀ r, i ≠ .SUCCESS r) (e : Fault)
    (he : execInstr ctx.ft i ctx.tp ctx.bindings = .fault e) :
    drive mem (fuel + 1) ctx = ([], [ctx.op], some e) := by
  rw [drive, loopBody_eq mem ctx 0 i alt h]
  have hl : loopBodySpec ctx 0 i alt = .fault e := by
    cases i with
    | SUCCESS r => exact absurd rfl (hi r)
    | NEXT_LIT => simp [execInstr] at he; simp [loopBodySpec, he]
    | FAIL => simp [execInstr] at he
    | CHECK_FUN f => simp [loopBodySpec, he]
    | ASSIGN_VAR v => simp [loopBodySpec, he]
    | CHECK_VAR v => simp [loopBodySpec, he]
  rw [hl]

end Indexing


namespace Indexing

open Kernel

theorem run_node_other (ft : List FlatTerm.Entry) (p : Ptr) (i : Instruction) (c a : Trie)
    (tp : Nat) (b : Bindings) (hi : ∀ r, i ≠ .SUCCESS r) :
    Trie.run ft (.node p i c a) tp b = runOther ft p i c a tp b := by
  cases i with
  | SUCCESS r => exact absurd rfl (hi r)
  | NEXT_LIT => rfl
  | FAIL => rfl
  | CHECK_FUN f => rfl
  | ASSIGN_VAR v => rfl
  | CHECK_VAR v => rfl

theorem resume_alt (mem : List CodeBlock) (ft : List FlatTerm.Entry) (a : Trie) (alt : Option Ptr)
    (hrep : Rep mem a alt) (ih : DriveOK mem ft a) (tp : Nat) (b : Bindings) (s : List BTPoint)
    (fuel : Nat) :
    resume mem (fuel + (Trie.run ft a tp b).2.1.length) (pushStack alt tp s) b ft =
      afterRun (Trie.run ft a tp b) (fun b2 => resume mem fuel s b2 ft) := by
  cases a with
  | nil =>
    have halt : alt = none := hrep
    subst halt
    simp [Trie.run, pushStack, afterRun, prepend]
  | node q i c a1 =>
    have halt : alt = some q := hrep.1
    subst halt
    exact ih q tp b s hrep fuel

theorem driveOK_all (mem : List CodeBlock) (ft : List FlatTerm.Entry) (t : Trie) :
    DriveOK mem ft t := by
  induction t with
  | nil =>
    intro p tp b s hrep
    exact absurd hrep (by simp [Rep])
  | node p i c a ihc iha =>
    intro p1 tp b s hrep fuel
    obtain ⟨hp, alt, hd, hra, _, hcond⟩ := hrep
    have hp1 : p1 = p := Option.some.inj hp
    subst hp1
    have hA := fun tp b s fuel => resume_alt mem ft a alt hra iha tp b s fuel
    by_cases hsucc : ∃ r, i = .SUCCESS r
    · obtain ⟨r, hr⟩ := hsucc
      subst hr
      have hrun : Trie.run ft (.node p1 (.SUCCESS r) c a) tp b =
          ((p1, b) :: (Trie.run ft a tp b).1, p1 :: (Trie.run ft a tp b).2.1,
            (Trie.run ft a tp b).2.2) := rfl
      rw [hrun]
      simp only [List.length_cons]
      rw [← Nat.add_assoc, drive_success mem _ ⟨false, tp, p1, s, b, ft⟩ r alt hd rfl]
      simp only []
      rw [hA, prepend_afterRun]
      rfl
    · have hi : ∀ r, i ≠ .SUCCESS r := fun r hr => hsucc ⟨r, hr⟩
      have hterm : i.terminal = true → i = .FAIL := by
        intro ht
        cases i with
        | SUCCESS r => exact absurd rfl (hi r)
        | FAIL => rfl
        | NEXT_LIT => simp [Instruction.terminal] at ht
        | CHECK_FUN f => simp [Instruction.terminal] at ht
        | ASSIGN_VAR v => simp [Instruction.terminal] at ht
        | CHECK_VAR v => simp [Instruction.terminal] at ht
      rw [run_node_other ft p1 i c a tp b hi]
      unfold runOther
      cases hex : execInstr ft i tp b with
      | fault e =>
        simp only [List.length_singleton]
        rw [drive_fault mem fuel ⟨false, tp, p1, s, b, ft⟩ i alt hd hi e hex]
        rfl
      | ok o =>
        cases o with
        | none =>
          simp only [List.length_cons]
          rw [← Nat.add_assoc, drive_fail mem _ ⟨false, tp, p1, s, b, ft⟩ i alt hd rfl hi hex]
          simp only []
          rw [hA, prepend_afterRun]
          rfl
        | some v =>
          obtain ⟨tp1, b1⟩ := v
          have hnt : i.terminal = false := by
            cases hti : i.terminal with
            | false => rfl
            | true =>
              have := hterm hti
              subst this
              simp [execInstr] at hex
          rw [hnt] at hcond
          simp only [Bool.false_eq_true, if_false] at hcond
          have hC := ihc ⟨p1.blk, p1.ofs + 1⟩ tp1 b1 (pushStack alt tp s) hcond
          simp only []
          cases hrc : (Trie.run ft c tp1 b1).2.2 with
          | fault e =>
            simp only [List.length_cons]
            rw [← Nat.add_assoc,
              drive_step mem _ ⟨false, tp, p1, s, b, ft⟩ i alt hd rfl hi tp1 b1 hex]
            simp only []
            rw [hC]
            simp [afterRun, hrc, prepend]
          | ok b2 =>
            simp only [List.length_cons, List.length_append]
            have e1 : fuel + ((Trie.run ft c tp1 b1).2.1.length + (Trie.run ft a tp b2).2.1.length + 1)
                = (fuel + (Trie.run ft a tp b2).2.1.length) + (Trie.run ft c tp1 b1).2.1.length + 1 := by
              omega
            rw [e1, drive_step mem _ ⟨false, tp, p1, s, b, ft⟩ i alt hd rfl hi tp1 b1 hex]
            simp only []
            rw [hC]
            simp only [afterRun, hrc]
            rw [hA tp b2 s fuel]
            simp only [afterRun]
            cases (Trie.run ft a tp b2).2.2 with
            | fault e => simp [prepend]
            | ok b3 => simp [prepend]

/-- The instructions interpreted by a run over a trie are nodes of the trie,
each interpreted once, in the order of the depth-first traversal. -/
theorem run_trace_sublist (ft : List FlatTerm.Entry) (t : Trie) :
    ∀ (tp : Nat) (b : Bindings), (Trie.run ft t tp b).2.1.Sublist t.ptrs := by
  induction t with
  | nil => intro tp b; simp [Trie.run, Trie.ptrs]
  | node p i c a ihc iha =>
    intro tp b
    by_cases hsucc : ∃ r, i = .SUCCESS r
    · obtain ⟨r, hr⟩ := hsucc
      subst hr
      simp only [Trie.run, Trie.ptrs]
      exact List.Sublist.cons₂ _ ((iha tp b).trans (List.sublist_append_right _ _))
    · have hi : ∀ r, i ≠ .SUCCESS r := fun r hr => hsucc ⟨r, hr⟩
      rw [run_node_other ft p i c a tp b hi]
      unfold runOther
      simp only [Trie.ptrs]
      cases hex : execInstr ft i tp b with
      | fault e => simp
      | ok o =>
        cases o with
        | none =>
          exact List.Sublist.cons₂ _ ((iha tp b).trans (List.sublist_append_right _ _))
        | some v =>
          obtain ⟨tp1, b1⟩ := v
          simp only []
          cases hrc : (Trie.run ft c tp1 b1).2.2 with
          | fault e =>
            exact List.Sublist.cons₂ _ ((ihc tp1 b1).trans (List.sublist_append_left _ _))
          | ok b2 =>
            exact List.Sublist.cons₂ _ (List.Sublist.append (ihc tp1 b1) (iha tp b2))

/-- Every match found by a run over a trie is a SUCCESS node of the trie, and
each SUCCESS node yields at most one match. -/
theorem run_matches_le (ft : List FlatTerm.Entry) (t : Trie) :
    ∀ (tp : Nat) (b : Bindings), (Trie.run ft t tp b).1.length ≤ t.successes := by
  induction t with
  | nil => intro tp b; simp [Trie.run]
  | node p i c a ihc iha =>
    intro tp b
    by_cases hsucc : ∃ r, i = .SUCCESS r
    · obtain ⟨r, hr⟩ := hsucc
      subst hr
      simp only [Trie.run, Trie.successes, List.length_cons]
      have := iha tp b
      omega
    · have hi : ∀ r, i ≠ .SUCCESS r := fun r hr => hsucc ⟨r, hr⟩
      rw [run_node_other ft p i c a tp b hi]
      unfold runOther
      simp only [Trie.successes]
      cases hex : execInstr ft i tp b with
      | fault e => simp
      | ok o =>
        cases o with
        | none =>
          have := iha tp b
          simp only []
          omega
        | some v =>
          obtain ⟨tp1, b1⟩ := v
          simp only []
          cases hrc : (Trie.run ft c tp1 b1).2.2 with
          | fault e =>
            have := ihc tp1 b1
            simp only []
            omega
          | ok b2 =>
            have h1 := ihc tp1 b1
            have h2 := iha tp b2
            simp only [List.length_append]
            omega

end Indexing


namespace Indexing

open Kernel

theorem afterInstr_fresh (res : Nat) (b : Bool) (c : EContext) (f0 : Bool) (hc : c.fresh = f0) :
    (∀ f r c1, TermCodeTree.afterInstr res (b, c) = .ret f r c1 → c1.fresh = f0) ∧
    (∀ c1, TermCodeTree.afterInstr res (b, c) = .again c1 → c1.fresh = f0) := by
  unfold TermCodeTree.afterInstr
  cases b with
  | true =>
    constructor
    · intro f r c1 h; simp at h
    · intro c1 h
      simp only [if_true, LoopStep.again.injEq] at h
      rw [← h]; exact hc
  | false =>
    simp only [Bool.false_eq_true, if_false]
    cases hb : c.backtrack with
    | none =>
      constructor
      · intro f r c1 h
        simp only [LoopStep.ret.injEq] at h
        rw [← h.2.2]; exact hc
      · intro c1 h; simp at h
    | some c2 =>
      constructor
      · intro f r c1 h; simp at h
      · intro c1 h
        simp only [LoopStep.again.injEq] at h
        subst h
        unfold EContext.backtrack at hb
        cases hs : c.btStack with
        | nil => rw [hs] at hb; simp at hb
        | cons bp rest => rw [hs] at hb; simp at hb; rw [← hb]; exact hc

theorem loopBody_fresh (mem : List CodeBlock) (ctx : EContext) (res : Nat) :
    (∀ f r c1, TermCodeTree.loopBody mem ctx res = .ok (.ret f r c1) → c1.fresh = ctx.fresh) ∧
    (∀ c1, TermCodeTree.loopBody mem ctx res = .ok (.again c1) → c1.fresh = ctx.fresh) := by
  cases hd : deref mem ctx.op with
  | fault e =>
    simp [TermCodeTree.loopBody, hd]
  | ok op =>
    obtain ⟨i, alt⟩ := op
    rw [loopBody_eq mem ctx res i alt hd]
    have hp := (pushAlt_fields ctx alt).1
    cases i with
    | SUCCESS r =>
      simp only [loopBodySpec, Run.ok.injEq, LoopStep.ret.injEq, and_imp, reduceCtorEq, false_implies,
        implies_true, and_true]
      intro f r1 c1 _ _ h
      rw [← h, hp]
    | NEXT_LIT => simp [loopBodySpec]
    | FAIL =>
      simp only [loopBodySpec, execInstr, Run.ok.injEq]
      exact afterInstr_fresh res false (ctx.pushAlt alt) ctx.fresh hp
    | CHECK_FUN f =>
      simp only [loopBodySpec]
      cases execInstr ctx.ft (.CHECK_FUN f) ctx.tp ctx.bindings with
      | fault e => simp
      | ok o =>
        cases o with
        | none =>
          simp only [Run.ok.injEq]
          exact afterInstr_fresh res false (ctx.pushAlt alt) ctx.fresh hp
        | some v =>
          simp only [Run.ok.injEq]
          exact afterInstr_fresh res true { ctx.pushAlt alt with tp := v.1, bindings := v.2 }
            ctx.fresh hp
    | ASSIGN_VAR f =>
      simp only [loopBodySpec]
      cases execInstr ctx.ft (.ASSIGN_VAR f) ctx.tp ctx.bindings with
      | fault e => simp
      | ok o =>
        cases o with
        | none =>
          simp only [Run.ok.injEq]
          exact afterInstr_fresh res false (ctx.pushAlt alt) ctx.fresh hp
        | some v =>
          simp only [Run.ok.injEq]
          exact afterInstr_fresh res true { ctx.pushAlt alt with tp := v.1, bindings := v.2 }
            ctx.fresh hp
    | CHECK_VAR f =>
      simp only [loopBodySpec]
      cases execInstr ctx.ft (.CHECK_VAR f) ctx.tp ctx.bindings with
      | fault e => simp
      | ok o =>
        cases o with
        | none =>
          simp only [Run.ok.injEq]
          exact afterInstr_fresh res false (ctx.pushAlt alt) ctx.fresh hp
        | some v =>
          simp only [Run.ok.injEq]
          exact afterInstr_fresh res true { ctx.pushAlt alt with tp := v.1, bindings := v.2 }
            ctx.fresh hp

theorem loopBody_ret_false_res (mem : List CodeBlock) (ctx : EContext) (res r : Nat) (c1 : EContext)
    (h : TermCodeTree.loopBody mem ctx res = .ok (.ret false r c1)) : r = res := by
  cases hd : deref mem ctx.op with
  | fault e => simp [TermCodeTree.loopBody, hd] at h
  | ok op =>
    obtain ⟨i, alt⟩ := op
    rw [loopBody_eq mem ctx res i alt hd] at h
    have key : ∀ b c, TermCodeTree.afterInstr res (b, c) = .ret false r c1 → r = res := by
      intro b c hh
      unfold TermCodeTree.afterInstr at hh
      cases b with
      | true => simp at hh
      | false =>
        simp only [Bool.false_eq_true, if_false] at hh
        cases hb : c.backtrack with
        | none => rw [hb] at hh; simp at hh; exact hh.1.symm
        | some c2 => rw [hb] at hh; simp at hh
    cases i with
    | SUCCESS r0 => simp [loopBodySpec] at h
    | NEXT_LIT => simp [loopBodySpec] at h
    | FAIL => simp only [loopBodySpec, execInstr, Run.ok.injEq] at h; exact key _ _ h
    | CHECK_FUN f =>
      simp only [loopBodySpec] at h
      cases hx : execInstr ctx.ft (.CHECK_FUN f) ctx.tp ctx.bindings with
      | fault e => rw [hx] at h; simp at h
      | ok o =>
        rw [hx] at h
        cases o with
        | none => simp only [Run.ok.injEq] at h; exact key _ _ h
        | some v => simp only [Run.ok.injEq] at h; exact key _ _ h
    | ASSIGN_VAR f =>
      simp only [loopBodySpec] at h
      cases hx : execInstr ctx.ft (.ASSIGN_VAR f) ctx.tp ctx.bindings with
      | fault e => rw [hx] at h; simp at h
      | ok o =>
        rw [hx] at h
        cases o with
        | none => simp only [Run.ok.injEq] at h; exact key _ _ h
        | some v => simp only [Run.ok.injEq] at h; exact key _ _ h
    | CHECK_VAR f =>
      simp only [loopBodySpec] at h
      cases hx : execInstr ctx.ft (.CHECK_VAR f) ctx.tp ctx.bindings with
      | fault e => rw [hx] at h; simp at h
      | ok o =>
        rw [hx] at h
        cases o with
        | none => simp only [Run.ok.injEq] at h; exact key _ _ h
        | some v => simp only [Run.ok.injEq] at h; exact key _ _ h

theorem nextLoop_mono (mem : List CodeBlock) (k : Nat) :
    ∀ (ctx : EContext) (res : Nat), TermCodeTree.nextLoop mem k ctx res ≠ .fault .outOfFuel →
      ∀ d, TermCodeTree.nextLoop mem (k + d) ctx res = TermCodeTree.nextLoop mem k ctx res := by
  induction k with
  | zero => intro ctx res h; simp [TermCodeTree.nextLoop] at h
  | succ k ih =>
    intro ctx res h d
    have e : k + 1 + d = (k + d) + 1 := by omega
    rw [e]
    simp only [TermCodeTree.nextLoop] at h ⊢
    cases hb : TermCodeTree.loopBody mem ctx res with
    | fault f => rfl
    | ok s =>
      rw [hb] at h
      cases s with
      | ret b r1 c => rfl
      | again c => exact ih c res h d

theorem drive_mono (mem : List CodeBlock) (k : Nat) :
    ∀ (ctx : EContext), (drive mem k ctx).2.2 ≠ some .outOfFuel →
      ∀ d, drive mem (k + d) ctx = drive mem k ctx := by
  induction k with
  | zero => intro ctx h; simp [drive] at h
  | succ k ih =>
    intro ctx h d
    have e : k + 1 + d = (k + d) + 1 := by omega
    rw [e]
    simp only [drive] at h ⊢
    cases hb : TermCodeTree.loopBody mem ctx 0 with
    | fault f => rfl
    | ok s =>
      rw [hb] at h
      cases s with
      | ret b r1 c =>
        cases b with
        | false => rfl
        | true =>
          simp only [] at h ⊢
          cases hbt : c.backtrack with
          | none => rfl
          | some c1 =>
            rw [hbt] at h
            simp only [] at h ⊢
            rw [ih c1 h d]
      | again c =>
        simp only [] at h ⊢
        rw [ih c h d]

/-- The first call of the loop of `next` finds the first match of the
exhaustive run; the rest of the run is what backtracking from there gives. -/
theorem nextLoop_of_drive (mem : List CodeBlock) (k : Nat) :
    ∀ (ctx : EContext), (drive mem k ctx).2.2 ≠ some .outOfFuel →
      ((drive mem k ctx).1 = [] →
        ((drive mem k ctx).2.2 = none → ∃ c, TermCodeTree.nextLoop mem k ctx 0 = .ok (false, 0, c)) ∧
        (∀ f, (drive mem k ctx).2.2 = some f → TermCodeTree.nextLoop mem k ctx 0 = .fault f)) ∧
      (∀ x l1, (drive mem k ctx).1 = x :: l1 →
        ∃ r c, TermCodeTree.nextLoop mem k ctx 0 = .ok (true, r, c) ∧
          c.op = x.1 ∧ c.bindings = x.2 ∧ c.fresh = ctx.fresh ∧
          ((c.backtrack = none ∧ l1 = [] ∧ (drive mem k ctx).2.2 = none) ∨
            ∃ c1, c.backtrack = some c1 ∧ (drive mem k c1).1 = l1 ∧
              (drive mem k c1).2.2 = (drive mem k ctx).2.2)) := by
  induction k with
  | zero => intro ctx h; simp [drive] at h
  | succ k ih =>
    intro ctx h
    rw [drive] at h ⊢
    rw [TermCodeTree.nextLoop]
    cases hb : TermCodeTree.loopBody mem ctx 0 with
    | fault f =>
      simp only []
      refine ⟨fun _ => ⟨fun hn => ?_, fun f1 hf1 => ?_⟩, fun x l1 hx => ?_⟩
      · exact absurd hn (by simp)
      · have : f = f1 := Option.some.inj hf1
        rw [this]
      · exact absurd hx (by simp)
    | ok s =>
      rw [hb] at h
      cases s with
      | ret b r1 c =>
        cases b with
        | false =>
          have := loopBody_ret_false_res mem ctx 0 r1 c hb
          subst this
          simp only [] at h ⊢
          refine ⟨fun _ => ⟨fun _ => ⟨c, rfl⟩, fun f1 hf1 => ?_⟩, fun x l1 hx => ?_⟩
          · exact absurd hf1 (by simp)
          · exact absurd hx (by simp)
        | true =>
          have hfr := (loopBody_fresh mem ctx 0).1 true r1 c hb
          simp only [] at h ⊢
          cases hbt : c.backtrack with
          | none =>
            simp only []
            refine ⟨fun hn => absurd hn (by simp), fun x l1 hx => ?_⟩
            simp only [List.cons.injEq] at hx
            obtain ⟨hx1, hx2⟩ := hx
            subst hx1; subst hx2
            exact ⟨r1, c, rfl, rfl, rfl, hfr, Or.inl ⟨hbt, rfl, trivial⟩⟩
          | some c1 =>
            rw [hbt] at h
            simp only [] at h ⊢
            refine ⟨fun hn => absurd hn (by simp), fun x l1 hx => ?_⟩
            simp only [List.cons.injEq] at hx
            obtain ⟨hx1, hx2⟩ := hx
            subst hx1
            refine ⟨r1, c, rfl, rfl, rfl, hfr, Or.inr ⟨c1, hbt, ?_, ?_⟩⟩
            · rw [drive_mono mem k c1 h 1]; exact hx2
            · rw [drive_mono mem k c1 h 1]
      | again c =>
        simp only [] at h ⊢
        have hfr := (loopBody_fresh mem ctx 0).2 c hb
        obtain ⟨h1, h2⟩ := ih c h
        refine ⟨h1, ?_⟩
        intro x l1 hx
        obtain ⟨r, c2, hn, ho, hbd, hf, hrest⟩ := h2 x l1 hx
        refine ⟨r, c2, hn, ho, hbd, hf.trans hfr, ?_⟩
        rcases hrest with hA | ⟨c3, hc3, hd3, he3⟩
        · exact Or.inl hA
        · refine Or.inr ⟨c3, hc3, ?_, ?_⟩
          · rw [← he3] at h
            rw [drive_mono mem k c3 h 1]; exact hd3
          · rw [← he3] at h
            rw [drive_mono mem k c3 h 1]; exact he3

theorem setFresh_eq (c : EContext) (h : c.fresh = false) : { c with fresh := false } = c := by
  cases c; simp at h; simp [h]

theorem backtrack_fresh (c c1 : EContext) (h : c.backtrack = some c1) : c1.fresh = c.fresh := by
  unfold EContext.backtrack at h
  cases hs : c.btStack with
  | nil => rw [hs] at h; simp at h
  | cons bp rest => rw [hs] at h; simp at h; rw [← h]

/-- Repeated calls of `next` on a context that has already returned a match
enumerate what the exhaustive run from its backtrack point enumerates. -/
theorem collect_of_drive (tree : CodeTree) (k : Nat) :
    ∀ (l : List (Ptr × Bindings)) (e : Option Fault) (c : EContext), c.fresh = false →
      e ≠ some .outOfFuel →
      ((c.backtrack = none ∧ l = [] ∧ e = none) ∨
        ∃ c1, c.backtrack = some c1 ∧ (drive tree.mem k c1).1 = l ∧ (drive tree.mem k c1).2.2 = e) →
      ∀ n, l.length < n →
        TermCodeTree.collect tree k n c = (l.map Prod.fst, Ending.ofFault e) := by
  intro l
  induction l with
  | nil =>
    intro e c hf he hc n hn
    cases n with
    | zero => omega
    | succ n =>
      rw [TermCodeTree.collect, TermCodeTree.next]
      simp only [hf, Bool.false_eq_true, if_false]
      rcases hc with ⟨hA, _, hE⟩ | ⟨c1, hc1, hd, hde⟩
      · rw [hA, hE]; rfl
      · rw [hc1]
        simp only []
        have hf1 : c1.fresh = false := (backtrack_fresh c c1 hc1).trans hf
        rw [setFresh_eq c1 hf1]
        have hne : (drive tree.mem k c1).2.2 ≠ some .outOfFuel := by rw [hde]; exact he
        obtain ⟨h1, h2⟩ := (nextLoop_of_drive tree.mem k c1 hne).1 hd
        cases e with
        | none =>
          obtain ⟨c2, hc2⟩ := h1 hde
          rw [hc2]
          rfl
        | some f =>
          rw [h2 f hde]
          rfl
  | cons x l ih =>
    intro e c hf he hc n hn
    cases n with
    | zero => omega
    | succ n =>
      rw [TermCodeTree.collect, TermCodeTree.next]
      simp only [hf, Bool.false_eq_true, if_false]
      rcases hc with ⟨_, hA, _⟩ | ⟨c1, hc1, hd, hde⟩
      · simp at hA
      · rw [hc1]
        simp only []
        have hf1 : c1.fresh = false := (backtrack_fresh c c1 hc1).trans hf
        rw [setFresh_eq c1 hf1]
        have hne : (drive tree.mem k c1).2.2 ≠ some .outOfFuel := by rw [hde]; exact he
        obtain ⟨r, c2, hn2, ho, hb, hfr, hrest⟩ := (nextLoop_of_drive tree.mem k c1 hne).2 x l hd
        rw [hn2]
        simp only []
        have hlen : l.length < n := by simp at hn; omega
        rw [hde] at hrest
        rw [ih e c2 (hfr.trans hf1) he hrest n hlen]
        simp [ho]

/-- Repeated calls of `next` on a fresh context enumerate what the exhaustive
run from the root enumerates. -/
theorem collect_fresh_of_drive (tree : CodeTree) (k : Nat) (c : EContext) (hf : c.fresh = true)
    (he : (drive tree.mem k { c with fresh := false }).2.2 ≠ some .outOfFuel) (n : Nat)
    (hn : (drive tree.mem k { c with fresh := false }).1.length < n) :
    TermCodeTree.collect tree k n c =
      ((drive tree.mem k { c with fresh := false }).1.map Prod.fst,
        Ending.ofFault (drive tree.mem k { c with fresh := false }).2.2) := by
  cases n with
  | zero => omega
  | succ n =>
    rw [TermCodeTree.collect, TermCodeTree.next]
    simp only [hf, if_true]
    obtain ⟨h1, h2⟩ := nextLoop_of_drive tree.mem k _ he
    cases hl : (drive tree.mem k { c with fresh := false }).1 with
    | nil =>
      obtain ⟨h3, h4⟩ := h1 hl
      cases hde : (drive tree.mem k { c with fresh := false }).2.2 with
      | none =>
        obtain ⟨c2, hc2⟩ := h3 hde
        rw [hc2]
        rfl
      | some f =>
        rw [h4 f hde]
        rfl
    | cons x l =>
      obtain ⟨r, c2, hn2, ho, hb, hfr, hrest⟩ := h2 x l hl
      rw [hn2]
      simp only []
      have hlen : l.length < n := by rw [hl] at hn; simp at hn; omega
      rw [collect_of_drive tree k l _ c2 hfr he hrest n hlen]
      simp [ho]

end Indexing


namespace Indexing

open Kernel

theorem agreeBelow_refl (j : Nat) (b : Bindings) : Bindings.agreeBelow j b b :=
  ⟨rfl, fun _ _ => rfl⟩

theorem agreeBelow_symm {j : Nat} {b1 b2 : Bindings} (h : Bindings.agreeBelow j b1 b2) :
    Bindings.agreeBelow j b2 b1 :=
  ⟨h.1.symm, fun i hi => (h.2 i hi).symm⟩

theorem agreeBelow_trans {j : Nat} {b1 b2 b3 : Bindings} (h1 : Bindings.agreeBelow j b1 b2)
    (h2 : Bindings.agreeBelow j b2 b3) : Bindings.agreeBelow j b1 b3 :=
  ⟨h1.1.trans h2.1, fun i hi => (h1.2 i hi).trans (h2.2 i hi)⟩

theorem agreeBelow_mono {j j1 : Nat} {b1 b2 : Bindings} (h : Bindings.agreeBelow j1 b1 b2)
    (hj : j ≤ j1) : Bindings.agreeBelow j b1 b2 :=
  ⟨h.1, fun i hi => h.2 i (Nat.lt_of_lt_of_le hi hj)⟩

theorem bump_ge (i : Instruction) (j : Nat) : j ≤ i.bump j := by
  cases i <;> simp [Instruction.bump]

/-- An instruction that succeeds leaves the slots below its level alone. -/
theorem execInstr_agree_self (ft : List FlatTerm.Entry) (i : Instruction) (j tp : Nat)
    (b : Bindings) (hd : i.disc j) (tp1 : Nat) (b1 : Bindings)
    (h : execInstr ft i tp b = .ok (some (tp1, b1))) : Bindings.agreeBelow j b1 b := by
  cases i with
  | SUCCESS r => simp [execInstr] at h; rw [← h.2]; exact agreeBelow_refl _ _
  | FAIL => simp [execInstr] at h
  | NEXT_LIT => simp [execInstr] at h
  | CHECK_FUN f =>
    simp only [execInstr] at h
    cases hc : checkFun ft tp f with
    | fault e => rw [hc] at h; simp at h
    | ok o =>
      rw [hc] at h
      cases o with
      | none => simp at h
      | some v => simp at h; rw [← h.2]; exact agreeBelow_refl _ _
  | ASSIGN_VAR v =>
    simp only [execInstr] at h
    cases hc : termAt ft tp with
    | fault e => rw [hc] at h; simp at h
    | ok o =>
      obtain ⟨t, nxt⟩ := o
      rw [hc] at h
      simp only [] at h
      by_cases hv : v < b.length
      · simp only [hv, if_true] at h
        cases nxt with
        | fault e => simp at h
        | ok tp2 =>
          simp only [Run.ok.injEq, Option.some.injEq, Prod.mk.injEq] at h
          rw [← h.2]
          have hvj : v = j := hd
          refine ⟨by simp, fun k hk => ?_⟩
          rw [List.get?_eq_getElem?, List.get?_eq_getElem?, List.getElem?_set_ne]
          omega
      · simp [hv] at h
  | CHECK_VAR v =>
    simp only [execInstr] at h
    cases hc : termAt ft tp with
    | fault e => rw [hc] at h; simp at h
    | ok o =>
      obtain ⟨t, nxt⟩ := o
      rw [hc] at h
      simp only [] at h
      cases hb : b.get? v with
      | none => rw [hb] at h; simp at h
      | some ob =>
        rw [hb] at h
        cases ob with
        | none => simp at h
        | some u =>
          simp only [] at h
          by_cases hu : u = t
          · simp only [hu, ne_eq, not_true_eq_false, if_false] at h
            cases nxt with
            | fault e => simp at h
            | ok tp2 =>
              simp only [Run.ok.injEq, Option.some.injEq, Prod.mk.injEq] at h
              rw [← h.2]; exact agreeBelow_refl _ _
          · simp [hu] at h

/-- The outcome of an instruction depends on the slots below its level only. -/
theorem execInstr_agree (ft : List FlatTerm.Entry) (i : Instruction) (j tp : Nat)
    (b b1 : Bindings) (hd : i.disc j) (hab : Bindings.agreeBelow j b1 b) :
    (execInstr ft i tp b = .ok none → execInstr ft i tp b1 = .ok none) ∧
    (∀ tp1 b2, execInstr ft i tp b = .ok (some (tp1, b2)) →
      ∃ b3, execInstr ft i tp b1 = .ok (some (tp1, b3)) ∧ Bindings.agreeBelow (i.bump j) b3 b2) := by
  cases i with
  | SUCCESS r =>
    simp only [execInstr, reduceCtorEq, false_implies, true_and, Run.ok.injEq, Option.some.injEq,
      Prod.mk.injEq, and_imp]
    intro tp1 b2 h1 h2
    subst h1; subst h2
    exact ⟨b1, ⟨rfl, rfl⟩, hab⟩
  | FAIL => simp [execInstr]
  | NEXT_LIT => simp [execInstr]
  | CHECK_FUN f =>
    simp only [execInstr]
    cases hc : checkFun ft tp f with
    | fault e => simp
    | ok o =>
      cases o with
      | none => simp
      | some v =>
        simp only [reduceCtorEq, false_implies, true_and, Run.ok.injEq, Option.some.injEq,
          Prod.mk.injEq, and_imp]
        intro tp1 b2 h1 h2
        subst h1; subst h2
        exact ⟨b1, ⟨rfl, rfl⟩, hab⟩
  | ASSIGN_VAR v =>
    simp only [execInstr]
    cases hc : termAt ft tp with
    | fault e => simp
    | ok o =>
      obtain ⟨t, nxt⟩ := o
      simp only []
      rw [hab.1]
      by_cases hv : v < b.length
      · simp only [hv, if_true]
        cases nxt with
        | fault e => simp
        | ok tp2 =>
          simp only [reduceCtorEq, false_implies, true_and, Run.ok.injEq, Option.some.injEq,
            Prod.mk.injEq, and_imp]
          intro tp1 b2 h1 h2
          subst h1; subst h2
          refine ⟨_, ⟨rfl, rfl⟩, ?_⟩
          have hvj : v = j := hd
          refine ⟨by simp [hab.1], fun k hk => ?_⟩
          simp only [Instruction.bump] at hk
          rw [List.get?_eq_getElem?, List.get?_eq_getElem?]
          by_cases hkv : v = k
          · subst hkv
            rw [List.getElem?_set_self hv, List.getElem?_set_self (by rw [hab.1]; exact hv)]
          · rw [List.getElem?_set_ne hkv, List.getElem?_set_ne hkv]
            have := hab.2 k (by omega)
            rw [List.get?_eq_getElem?, List.get?_eq_getElem?] at this
            exact this
      · simp [hv]
  | CHECK_VAR v =>
    simp only [execInstr]
    cases hc : termAt ft tp with
    | fault e => simp
    | ok o =>
      obtain ⟨t, nxt⟩ := o
      simp only []
      have hvj : v < j := hd
      rw [hab.2 v hvj]
      cases hb : b.get? v with
      | none => simp
      | some ob =>
        cases ob with
        | none => simp
        | some u =>
          simp only []
          by_cases hu : u = t
          · simp only [hu, ne_eq, not_true_eq_false, if_false]
            cases nxt with
            | fault e => simp
            | ok tp2 =>
              simp only [reduceCtorEq, false_implies, true_and, Run.ok.injEq, Option.some.injEq,
                Prod.mk.injEq, and_imp]
              intro tp1 b2 h1 h2
              subst h1; subst h2
              exact ⟨b1, ⟨rfl, rfl⟩, hab⟩
          · simp [hu]

/-- Bindings that already hold what an instruction wrote are left unchanged
by executing it again. -/
theorem execInstr_fix (ft : List FlatTerm.Entry) (i : Instruction) (j tp : Nat)
    (b b0 : Bindings) (hd : i.disc j) (tp1 : Nat) (b1 : Bindings)
    (h : execInstr ft i tp b = .ok (some (tp1, b1)))
    (hab : Bindings.agreeBelow (i.bump j) b0 b1) :
    execInstr ft i tp b0 = .ok (some (tp1, b0)) := by
  have hself := execInstr_agree_self ft i j tp b hd tp1 b1 h
  have hab0 : Bindings.agreeBelow j b0 b :=
    agreeBelow_trans (agreeBelow_mono hab (bump_ge i j)) hself
  obtain ⟨b3, h3, hag3⟩ := (execInstr_agree ft i j tp b b0 hd hab0).2 tp1 b1 h
  rw [h3]
  suffices hb : b3 = b0 by rw [hb]
  cases i with
  | SUCCESS r => simp [execInstr] at h3; exact h3.2.symm
  | FAIL => simp [execInstr] at h3
  | NEXT_LIT => simp [execInstr] at h3
  | CHECK_FUN f =>
    simp only [execInstr] at h3
    cases hc : checkFun ft tp f with
    | fault e => rw [hc] at h3; simp at h3
    | ok o =>
      rw [hc] at h3
      cases o with
      | none => simp at h3
      | some v => simp at h3; exact h3.2.symm
  | ASSIGN_VAR v =>
    have hvj : v = j := hd
    simp only [execInstr] at h3 h
    cases hc : termAt ft tp with
    | fault e => rw [hc] at h3; simp at h3
    | ok o =>
      obtain ⟨t, nxt⟩ := o
      rw [hc] at h3 h
      simp only [] at h3 h
      by_cases hv : v < b0.length
      · have hv2 : v < b.length := by rw [← hab0.1]; exact hv
        simp only [hv, hv2, if_true] at h3 h
        cases nxt with
        | fault e => simp at h3
        | ok tp2 =>
          simp only [Run.ok.injEq, Option.some.injEq, Prod.mk.injEq] at h3 h
          rw [← h3.2]
          have hb0v : b0.get? v = b1.get? v := hab.2 v (by simp [Instruction.bump]; omega)
          rw [← h.2] at hb0v
          rw [List.get?_eq_getElem?, List.get?_eq_getElem?, List.getElem?_set_self hv2] at hb0v
          apply List.ext_getElem?
          intro k
          by_cases hkv : v = k
          · subst hkv
            rw [List.getElem?_set_self hv, hb0v]
          · rw [List.getElem?_set_ne hkv]
      · simp [hv] at h3
  | CHECK_VAR v =>
    simp only [execInstr] at h3
    cases hc : termAt ft tp with
    | fault e => rw [hc] at h3; simp at h3
    | ok o =>
      obtain ⟨t, nxt⟩ := o
      rw [hc] at h3
      simp only [] at h3
      cases hb : b0.get? v with
      | none => rw [hb] at h3; simp at h3
      | some ob =>
        rw [hb] at h3
        cases ob with
        | none => simp at h3
        | some u =>
          simp only [] at h3
          by_cases hu : u = t
          · simp only [hu, ne_eq, not_true_eq_false, if_false] at h3
            cases nxt with
            | fault e => simp at h3
            | ok tp2 =>
              simp only [Run.ok.injEq, Option.some.injEq, Prod.mk.injEq] at h3
              exact h3.2.symm
          · simp [hu] at h3

end Indexing


namespace Indexing

open Kernel

theorem paths_node_other (p : Ptr) (i : Instruction) (c a : Trie) (hs : ∀ r, i ≠ .SUCCESS r)
    (hf : i ≠ .FAIL) :
    (Trie.node p i c a).paths = c.paths.map (fun sq => (i :: sq.1, sq.2)) ++ a.paths := by
  cases i with
  | SUCCESS r => exact absurd rfl (hs r)
  | FAIL => exact absurd rfl hf
  | NEXT_LIT => rfl
  | CHECK_FUN f => rfl
  | ASSIGN_VAR v => rfl
  | CHECK_VAR v => rfl

theorem terminal_iff (i : Instruction) : i.terminal = true ↔ (∃ r, i = .SUCCESS r) ∨ i = .FAIL := by
  cases i <;> simp [Instruction.terminal]

theorem paths_ne_nil (t : Trie) : t.termOnly → t.shaped → t ≠ .nil → t.paths ≠ [] := by
  induction t with
  | nil => intro _ _ h; exact absurd rfl h
  | node p i c a ihc _ =>
    intro hto hsh _
    obtain ⟨hnf, hnn, hcto, _⟩ := hto
    obtain ⟨_, hs2, hcsh, _⟩ := hsh
    by_cases hsucc : ∃ r, i = .SUCCESS r
    · obtain ⟨r, hr⟩ := hsucc
      subst hr
      simp [Trie.paths]
    · have hs : ∀ r, i ≠ .SUCCESS r := fun r hr => hsucc ⟨r, hr⟩
      rw [paths_node_other p i c a hs hnf]
      have hnt : i.terminal = false := by
        cases hti : i.terminal with
        | false => rfl
        | true =>
          rcases (terminal_iff i).1 hti with h | h
          · exact absurd h hsucc
          · exact absurd h hnf
      have := ihc hcto hcsh (hs2 hnt)
      intro hcontra
      simp only [List.append_eq_nil, List.map_eq_nil_iff] at hcontra
      exact this hcontra.1

theorem execCode_cons (ft : List FlatTerm.Entry) (i : Instruction) (s : List Instruction)
    (tp : Nat) (b : Bindings) :
    execCode ft (i :: s) tp b =
      (match execInstr ft i tp b with
        | .fault e => .fault e
        | .ok none => .ok none
        | .ok (some (tp1, b1)) => execCode ft s tp1 b1) := rfl

theorem runSpec_all (ft : List FlatTerm.Entry) (t : Trie) :
    ∀ (tp : Nat) (b : Bindings) (j : Nat), t.termOnly → t.shaped →
      (∀ sq ∈ t.paths, Disc j sq.1) →
      (∀ sq ∈ t.paths, ∃ r, execCode ft sq.1 tp b = .ok r) → RunSpec ft t tp b j := by
  induction t with
  | nil =>
    intro tp b j _ _ _ _ b1 hab
    exact ⟨b1, rfl, hab, rfl, fun x hx => by simp [Trie.run] at hx⟩
  | node p i c a ihc iha =>
    intro tp b j hto hsh hdisc hnf b1 hab
    obtain ⟨hnfail, hnn, hcto, hato⟩ := hto
    obtain ⟨_, hs2, hcsh, hash⟩ := hsh
    by_cases hsucc : ∃ r, i = .SUCCESS r
    · obtain ⟨r, hr⟩ := hsucc
      subst hr
      have hpa : (Trie.node p (.SUCCESS r) c a).paths = ([.SUCCESS r], p) :: a.paths := rfl
      have hA := iha tp b j hato hash
        (fun sq hsq => hdisc sq (by rw [hpa]; exact List.mem_cons_of_mem _ hsq))
        (fun sq hsq => hnf sq (by rw [hpa]; exact List.mem_cons_of_mem _ hsq)) b1 hab
      obtain ⟨b2, hrun, hab2, hmap, hall⟩ := hA
      have hrn : Trie.run ft (.node p (.SUCCESS r) c a) tp b1 =
          ((p, b1) :: (Trie.run ft a tp b1).1, p :: (Trie.run ft a tp b1).2.1,
            (Trie.run ft a tp b1).2.2) := rfl
      rw [hrn]
      refine ⟨b2, hrun, hab2, ?_, ?_⟩
      · rw [hpa]
        simp [List.filter_cons, succeeds, execCode, execInstr, hmap]
      · intro x hx
        rcases List.mem_cons.1 hx with hx | hx
        · subst hx
          exact ⟨[.SUCCESS r], b1, tp, by rw [hpa]; exact List.mem_cons_self _ _, hab,
            by simp [execCode, execInstr]⟩
        · obtain ⟨s, b0, tp1, hm, hab0, hex⟩ := hall x hx
          exact ⟨s, b0, tp1, by rw [hpa]; exact List.mem_cons_of_mem _ hm, hab0, hex⟩
    · have hs : ∀ r, i ≠ .SUCCESS r := fun r hr => hsucc ⟨r, hr⟩
      have hpa := paths_node_other p i c a hs hnfail
      have hnt : i.terminal = false := by
        cases hti : i.terminal with
        | false => rfl
        | true =>
          rcases (terminal_iff i).1 hti with h | h
          · exact absurd h hsucc
          · exact absurd h hnfail
      have hcne := paths_ne_nil c hcto hcsh (hs2 hnt)
      obtain ⟨sq0, hsq0⟩ := List.exists_mem_of_ne_nil _ hcne
      have hmem0 : (i :: sq0.1, sq0.2) ∈ (Trie.node p i c a).paths := by
        rw [hpa]
        exact List.mem_append_left _ (List.mem_map.2 ⟨sq0, hsq0, rfl⟩)
      have hid : i.disc j := (hdisc _ hmem0).1
      obtain ⟨r0, hr0⟩ := hnf _ hmem0
      have hApaths : ∀ sq ∈ a.paths, sq ∈ (Trie.node p i c a).paths := fun sq hsq => by
        rw [hpa]; exact List.mem_append_right _ hsq
      have hCpaths : ∀ sq ∈ c.paths, (i :: sq.1, sq.2) ∈ (Trie.node p i c a).paths :=
        fun sq hsq => by
          rw [hpa]; exact List.mem_append_left _ (List.mem_map.2 ⟨sq, hsq, rfl⟩)
      have hA := iha tp b j hato hash (fun sq hsq => hdisc sq (hApaths sq hsq))
        (fun sq hsq => hnf sq (hApaths sq hsq))
      rw [run_node_other ft p i c a tp b1 hs]
      simp only [execCode_cons] at hr0
      cases hex : execInstr ft i tp b with
      | fault e => rw [hex] at hr0; simp at hr0
      | ok o =>
        cases o with
        | none =>
          have hex1 := (execInstr_agree ft i j tp b b1 hid hab).1 hex
          obtain ⟨b2, hrun, hab2, hmap, hall⟩ := hA b1 hab
          simp only [runOther, hex1]
          refine ⟨b2, hrun, hab2, ?_, ?_⟩
          · rw [hpa, List.filter_append, List.map_append, hmap, List.filter_map]
            have : List.filter ((fun sq => succeeds (execCode ft sq.1 tp b)) ∘
                fun sq : List Instruction × Ptr => (i :: sq.1, sq.2)) c.paths = [] := by
              rw [List.filter_eq_nil_iff]
              intro sq _
              simp [execCode_cons, hex, succeeds]
            rw [this]
            simp
          · intro x hx
            obtain ⟨s, b0, tp1, hm, hab0, hex0⟩ := hall x hx
            exact ⟨s, b0, tp1, hApaths _ hm, hab0, hex0⟩
        | some v =>
          obtain ⟨tp1, b1x⟩ := v
          obtain ⟨b3, hex1, hab3⟩ := (execInstr_agree ft i j tp b b1 hid hab).2 tp1 b1x hex
          have hself := execInstr_agree_self ft i j tp b hid tp1 b1x hex
          have hC := ihc tp1 b1x (i.bump j) hcto hcsh
            (fun sq hsq => (hdisc _ (hCpaths sq hsq)).2.2)
            (fun sq hsq => by
              obtain ⟨r, hr⟩ := hnf _ (hCpaths sq hsq)
              simp only [execCode_cons, hex] at hr
              exact ⟨r, hr⟩)
          obtain ⟨b2, hrun1, hab2, hmap1, hall1⟩ := hC b3 hab3
          have hab2j : Bindings.agreeBelow j b2 b :=
            agreeBelow_trans (agreeBelow_mono hab2 (bump_ge i j)) hself
          obtain ⟨b4, hrun2, hab4, hmap2, hall2⟩ := hA b2 hab2j
          simp only [runOther, hex1, hrun1]
          refine ⟨b4, hrun2, hab4, ?_, ?_⟩
          · rw [hpa, List.filter_append, List.map_append, List.map_append, hmap1, hmap2,
              List.filter_map, List.map_map]
            congr 1
            have hfe : ((fun sq => succeeds (execCode ft sq.1 tp b)) ∘
                fun sq : List Instruction × Ptr => (i :: sq.1, sq.2)) =
                (fun sq => succeeds (execCode ft sq.1 tp1 b1x)) := by
              funext sq
              simp [execCode_cons, hex]
            rw [hfe]
            rfl
          · intro x hx
            rcases List.mem_append.1 hx with hx | hx
            · obtain ⟨s, b0, tp2, hm, hab0, hex0⟩ := hall1 x hx
              refine ⟨i :: s, b0, tp2, hCpaths _ hm,
                agreeBelow_trans (agreeBelow_mono hab0 (bump_ge i j)) hself, ?_⟩
              rw [execCode_cons, execInstr_fix ft i j tp b b0 hid tp1 b1x hex hab0]
              exact hex0
            · obtain ⟨s, b0, tp2, hm, hab0, hex0⟩ := hall2 x hx
              exact ⟨s, b0, tp2, hApaths _ hm, hab0, hex0⟩

end Indexing


namespace Indexing

open Kernel

/-! ### The flat term and the compiled code, by recursion on the term -/

mutual
theorem flatten_subterms (t : TermList) :
    FlatTerm.headEntries t ++ (t.subterms.map FlatTerm.headEntries).flatten = FlatTerm.flat t := by
  cases t with
  | var n => simp [FlatTerm.headEntries, TermList.subterms, FlatTerm.flat]
  | term f args =>
    have := flatten_subtermsOfArgs args
    simp only [FlatTerm.headEntries, TermList.subterms, FlatTerm.flat, FlatTerm.getEntryCount, this]
theorem flatten_subtermsOfArgs (ts : List TermList) :
    ((TermList.subtermsOfArgs ts).map FlatTerm.headEntries).flatten = FlatTerm.flatArgs ts := by
  cases ts with
  | nil => simp [TermList.subtermsOfArgs, FlatTerm.flatArgs]
  | cons t ts =>
    have h1 := flatten_subterms t
    have h2 := flatten_subtermsOfArgs ts
    simp only [TermList.subtermsOfArgs, FlatTerm.flatArgs, List.map_cons, List.map_append,
      List.flatten_cons, List.flatten_append, h2, ← h1, List.append_assoc]
end

theorem create_eq_flat (t : TermList) : FlatTerm.create t = FlatTerm.flat t :=
  flatten_subterms t

mutual
theorem flat_length (t : TermList) : (FlatTerm.flat t).length = FlatTerm.getEntryCount t := by
  cases t with
  | var n => simp [FlatTerm.flat, FlatTerm.getEntryCount]
  | term f args =>
    have := flatArgs_length args
    simp only [FlatTerm.flat, FlatTerm.getEntryCount, List.length_append, this,
      FlatTerm.functionEntryCount]
    simp
theorem flatArgs_length (ts : List TermList) :
    (FlatTerm.flatArgs ts).length = FlatTerm.getEntryCountOfArgs ts := by
  cases ts with
  | nil => simp [FlatTerm.flatArgs, FlatTerm.getEntryCountOfArgs]
  | cons t ts =>
    have h1 := flat_length t
    have h2 := flatArgs_length ts
    simp [FlatTerm.flatArgs, FlatTerm.getEntryCountOfArgs, h1, h2]
end

theorem foldl_compileStep_code (l : List TermList) :
    ∀ (code : CodeStack) (vm : VarMap) (n : Nat),
      l.foldl CodeTree.compileStep (code, vm, n) =
        (code ++ (l.foldl CodeTree.compileStep ([], vm, n)).1,
          (l.foldl CodeTree.compileStep ([], vm, n)).2) := by
  induction l with
  | nil => intro code vm n; simp
  | cons s l ih =>
    intro code vm n
    simp only [List.foldl_cons]
    cases s with
    | var v =>
      simp only [CodeTree.compileStep]
      cases hl : vm.lookup v with
      | none =>
        simp only []
        rw [ih (code ++ _), ih ([] ++ _)]
        simp
      | some k =>
        simp only []
        rw [ih (code ++ _), ih ([] ++ _)]
        simp
    | term f args =>
      simp only [CodeTree.compileStep]
      rw [ih (code ++ _), ih ([] ++ _)]
      simp

mutual
theorem fold_compArg (t : TermList) (vm : VarMap) (n : Nat) :
    (t :: t.subterms).foldl CodeTree.compileStep ([], vm, n) =
      ((compArg t (vm, n)).1.map OpCode.mk0, (compArg t (vm, n)).2) := by
  cases t with
  | var v =>
    simp only [TermList.subterms, List.foldl_cons, List.foldl_nil, CodeTree.compileStep, compArg]
    cases hl : vm.lookup v <;> simp
  | term f args =>
    simp only [TermList.subterms, List.foldl_cons, CodeTree.compileStep, compArg]
    rw [foldl_compileStep_code, fold_compArgs args vm n]
    simp
theorem fold_compArgs (ts : List TermList) (vm : VarMap) (n : Nat) :
    (TermList.subtermsOfArgs ts).foldl CodeTree.compileStep ([], vm, n) =
      ((compArgs ts (vm, n)).1.map OpCode.mk0, (compArgs ts (vm, n)).2) := by
  cases ts with
  | nil => simp [TermList.subtermsOfArgs, compArgs]
  | cons t ts =>
    have h1 := fold_compArg t vm n
    simp only [TermList.subtermsOfArgs, compArgs]
    rw [← List.cons_append, List.foldl_append, h1]
    rw [foldl_compileStep_code]
    have h2 := fold_compArgs ts (compArg t (vm, n)).2.1 (compArg t (vm, n)).2.2
    simp only [Prod.mk.eta] at h2
    rw [h2]
    simp
end

/-- The code `TermCodeTree::compile` pushes for a pattern is the code of the
pattern by recursion on the term, with no alternative set. -/
theorem compile_code (tree : CodeTree) (p : TermList) :
    (TermCodeTree.compile tree p []).1 = (patternCode p).map OpCode.mk0 := by
  cases p with
  | var v =>
    simp [TermCodeTree.compile, patternCode, patternBody, compArg, List.lookup]
  | term f args =>
    simp only [TermCodeTree.compile, CodeTree.compile, patternCode, patternBody, compArg]
    rw [foldl_compileStep_code, fold_compArgs]
    simp

end Indexing


namespace Indexing

open Kernel

theorem get?_append_at {α : Type} (pre rest : List α) (k : Nat) :
    (pre ++ rest).get? (pre.length + k) = rest.get? k := by
  rw [List.get?_eq_getElem?, List.get?_eq_getElem?, List.getElem?_append_right (by omega)]
  congr 1
  omega

theorem termAt_flat (pre post : List FlatTerm.Entry) (t : TermList) :
    termAt (pre ++ FlatTerm.flat t ++ post) pre.length
      = .ok (t, .ok (pre.length + (FlatTerm.flat t).length)) := by
  have h0 : ∀ k, (pre ++ FlatTerm.flat t ++ post).get? (pre.length + k)
      = (FlatTerm.flat t ++ post).get? k := by
    intro k; rw [List.append_assoc]; exact get?_append_at _ _ k
  have h00 := h0 0
  simp only [Nat.add_zero] at h00
  unfold termAt
  rw [h00, h0 1, h0 2]
  cases t with
  | var n => simp [FlatTerm.flat]
  | term f args =>
    simp [FlatTerm.flat, flatArgs_length, FlatTerm.functionEntryCount]
    omega

theorem checkFun_flat (pre post : List FlatTerm.Entry) (t : TermList) (f : Nat) :
    checkFun (pre ++ FlatTerm.flat t ++ post) pre.length f =
      (match t with
        | .var _ => .ok none
        | .term g _ => if g ≠ f then .ok none else .ok (some (pre.length + 3))) := by
  have h0 : ∀ k, (pre ++ FlatTerm.flat t ++ post).get? (pre.length + k)
      = (FlatTerm.flat t ++ post).get? k := by
    intro k; rw [List.append_assoc]; exact get?_append_at _ _ k
  have h00 := h0 0
  simp only [Nat.add_zero] at h00
  unfold checkFun
  rw [h00]
  cases t with
  | var n => simp [FlatTerm.flat]
  | term g args => simp [FlatTerm.flat, FlatTerm.functionEntryCount]

theorem execCode_append (ft : List FlatTerm.Entry) (c1 c2 : List Instruction) :
    ∀ (tp : Nat) (b : Bindings), execCode ft (c1 ++ c2) tp b =
      (match execCode ft c1 tp b with
        | .fault e => .fault e
        | .ok none => .ok none
        | .ok (some (tp1, b1)) => execCode ft c2 tp1 b1) := by
  induction c1 with
  | nil => intro tp b; simp [execCode]
  | cons i c1 ih =>
    intro tp b
    simp only [List.cons_append, execCode_cons]
    cases execInstr ft i tp b with
    | fault e => rfl
    | ok o =>
      cases o with
      | none => rfl
      | some v => exact ih v.1 v.2

mutual
theorem compArg_props (t : TermList) (vm : VarMap) (n : Nat) (h : vmBelow vm n) :
    n ≤ (compArg t (vm, n)).2.2 ∧ vmBelow (compArg t (vm, n)).2.1 (compArg t (vm, n)).2.2 ∧
      (∀ x k, vm.lookup x = some k → (compArg t (vm, n)).2.1.lookup x = some k) := by
  cases t with
  | var v =>
    simp only [compArg]
    cases hl : vm.lookup v with
    | none =>
      dsimp only
      refine ⟨by simp, ?_, ?_⟩
      · intro x k hx
        simp only [List.lookup_cons] at hx
        by_cases hxv : x = v
        · subst hxv; simp at hx; omega
        · have : (x == v) = false := by simpa using hxv
          rw [this] at hx
          have := h x k hx
          simp; omega
      · intro x k hx
        simp only [List.lookup_cons]
        by_cases hxv : x = v
        · subst hxv; rw [hl] at hx; simp at hx
        · have : (x == v) = false := by simpa using hxv
          rw [this]; exact hx
    | some k => dsimp only; exact ⟨Nat.le_refl _, h, fun x k hx => hx⟩
  | term f args =>
    simp only [compArg]
    exact compArgs_props args vm n h
theorem compArgs_props (ts : List TermList) (vm : VarMap) (n : Nat) (h : vmBelow vm n) :
    n ≤ (compArgs ts (vm, n)).2.2 ∧ vmBelow (compArgs ts (vm, n)).2.1 (compArgs ts (vm, n)).2.2 ∧
      (∀ x k, vm.lookup x = some k → (compArgs ts (vm, n)).2.1.lookup x = some k) := by
  cases ts with
  | nil => exact ⟨Nat.le_refl _, h, fun x k hx => hx⟩
  | cons t ts =>
    obtain ⟨h1, h2, h3⟩ := compArg_props t vm n h
    obtain ⟨h4, h5, h6⟩ := compArgs_props ts (compArg t (vm, n)).2.1 (compArg t (vm, n)).2.2 h2
    simp only [compArgs, Prod.mk.eta] at h4 h5 h6 ⊢
    exact ⟨Nat.le_trans h1 h4, h5, fun x k hx => h6 x k (h3 x k hx)⟩
end

end Indexing


namespace Indexing

open Kernel

theorem exec_assign (pre post : List FlatTerm.Entry) (t : TermList) (n : Nat) (b : Bindings)
    (h : n < b.length) :
    execCode (pre ++ FlatTerm.flat t ++ post) [.ASSIGN_VAR n] pre.length b
      = .ok (some (pre.length + (FlatTerm.flat t).length, b.set n (some t))) := by
  simp only [execCode, execInstr, termAt_flat, h, if_true]

theorem exec_checkVar (pre post : List FlatTerm.Entry) (t u : TermList) (k : Nat) (b : Bindings)
    (h : b.get? k = some (some u)) :
    execCode (pre ++ FlatTerm.flat t ++ post) [.CHECK_VAR k] pre.length b
      = if u ≠ t then .ok none else .ok (some (pre.length + (FlatTerm.flat t).length, b)) := by
  simp only [execCode, execInstr, termAt_flat, h]
  by_cases hu : u = t <;> simp [hu]

theorem exec_checkFun (pre post : List FlatTerm.Entry) (t : TermList) (f : Nat)
    (c : List Instruction) (b : Bindings) :
    execCode (pre ++ FlatTerm.flat t ++ post) (.CHECK_FUN f :: c) pre.length b =
      (match t with
        | .var _ => .ok none
        | .term g _ =>
          if g ≠ f then .ok none
          else execCode (pre ++ FlatTerm.flat t ++ post) c (pre.length + 3) b) := by
  simp only [execCode_cons, execInstr, checkFun_flat]
  cases t with
  | var y => rfl
  | term g bs => by_cases hg : g = f <;> simp [hg]

theorem matchSpec_var (x : Nat) (t : TermList) : MatchSpec (.var x) t := by
  intro vm n b pre post hvb hib hlen
  cases hl : vm.lookup x with
  | none =>
    have hc : compArg (.var x) (vm, n) = ([.ASSIGN_VAR n], (x, n) :: vm, n + 1) := by
      simp [compArg, hl]
    rw [hc] at hlen ⊢
    simp only [] at hlen ⊢
    have hn : n < b.length := by omega
    right
    refine ⟨b.set n (some t), exec_assign pre post t n b hn, ?_, ?_, ?_, ?_⟩
    · refine ⟨by simp, fun i hi => ?_⟩
      rw [List.get?_eq_getElem?, List.get?_eq_getElem?, List.getElem?_set_ne (by omega)]
    · intro k hk
      by_cases hkn : k = n
      · subst hkn
        exact ⟨t, by rw [List.get?_eq_getElem?, List.getElem?_set_self hn]⟩
      · obtain ⟨u, hu⟩ := hib k (by omega)
        refine ⟨u, ?_⟩
        rw [List.get?_eq_getElem?, List.getElem?_set_ne (by omega), ← List.get?_eq_getElem?]
        exact hu
    · intro σ hσ
      have := hσ x n (by simp [List.lookup_cons])
      rw [List.get?_eq_getElem?, List.getElem?_set_self hn] at this
      simp only [Option.some.injEq] at this
      simp only [TermList.subst]
      exact this.symm
    · intro σ hσ hsub y k hy
      simp only [TermList.subst] at hsub
      simp only [List.lookup_cons] at hy
      by_cases hyx : y = x
      · subst hyx
        simp only [beq_self_eq_true, Option.some.injEq] at hy
        subst hy
        rw [List.get?_eq_getElem?, List.getElem?_set_self hn, hsub]
      · have hb : (y == x) = false := by simpa using hyx
        rw [hb] at hy
        have hk := hvb y k hy
        rw [List.get?_eq_getElem?, List.getElem?_set_ne (by omega), ← List.get?_eq_getElem?]
        exact hσ y k hy
  | some k =>
    have hc : compArg (.var x) (vm, n) = ([.CHECK_VAR k], vm, n) := by
      simp [compArg, hl]
    rw [hc] at hlen ⊢
    simp only [] at hlen ⊢
    obtain ⟨u, hu⟩ := hib k (hvb x k hl)
    rw [exec_checkVar pre post t u k b hu]
    by_cases hut : u = t
    · right
      refine ⟨b, by simp [hut], agreeBelow_refl _ _, hib, ?_, fun σ hσ _ => hσ⟩
      intro σ hσ
      have := hσ x k hl
      rw [hu] at this
      simp only [Option.some.injEq] at this
      simp only [TermList.subst]
      rw [← this, hut]
    · left
      refine ⟨by simp [hut], ?_⟩
      rintro ⟨σ, hσ, hsub⟩
      have := hσ x k hl
      rw [hu] at this
      simp only [Option.some.injEq] at this
      simp only [TermList.subst] at hsub
      exact hut (this.trans hsub)

theorem matchSpec_term (f : Nat) (args : List TermList) (t : TermList)
    (hargs : ∀ g bs, t = .term g bs → g = f → MatchSpecArgs args bs) :
    MatchSpec (.term f args) t := by
  intro vm n b pre post hvb hib hlen
  have hc : compArg (.term f args) (vm, n)
      = (.CHECK_FUN f :: (compArgs args (vm, n)).1, (compArgs args (vm, n)).2) := by
    simp [compArg]
  rw [hc] at hlen ⊢
  simp only [] at hlen ⊢
  rw [exec_checkFun]
  cases t with
  | var y =>
    left
    refine ⟨rfl, ?_⟩
    rintro ⟨σ, _, hsub⟩
    simp [TermList.subst] at hsub
  | term g bs =>
    by_cases hg : g = f
    · subst hg
      simp only [ne_eq, not_true_eq_false, if_false]
      have hA := hargs g bs rfl rfl vm n b
        (pre ++ [FlatTerm.Entry.FUN g, FlatTerm.Entry.FUN_TERM_PTR (.term g bs),
          FlatTerm.Entry.FUN_RIGHT_OFS (FlatTerm.functionEntryCount + FlatTerm.getEntryCountOfArgs bs)])
        post hvb hib hlen
      have hft : pre ++ FlatTerm.flat (.term g bs) ++ post =
          pre ++ [FlatTerm.Entry.FUN g, FlatTerm.Entry.FUN_TERM_PTR (.term g bs),
            FlatTerm.Entry.FUN_RIGHT_OFS (FlatTerm.functionEntryCount + FlatTerm.getEntryCountOfArgs bs)]
            ++ FlatTerm.flatArgs bs ++ post := by
        simp [FlatTerm.flat]
      have hl3 : (pre ++ [FlatTerm.Entry.FUN g, FlatTerm.Entry.FUN_TERM_PTR (.term g bs),
            FlatTerm.Entry.FUN_RIGHT_OFS (FlatTerm.functionEntryCount + FlatTerm.getEntryCountOfArgs bs)]).length
            = pre.length + 3 := by simp
      rw [← hft, hl3] at hA
      have hfl : (FlatTerm.flat (.term g bs)).length = 3 + (FlatTerm.flatArgs bs).length := by
        simp [FlatTerm.flat]; omega
      have hsub : ∀ σ, (TermList.term g args).subst σ = .term g bs ↔
          TermList.substArgs σ args = bs := by
        intro σ; simp [TermList.subst]
      rcases hA with ⟨h1, h2⟩ | ⟨b1, h1, h2, h3, h4, h5⟩
      · left
        refine ⟨h1, ?_⟩
        rintro ⟨σ, hσ, hs⟩
        exact h2 ⟨σ, hσ, (hsub σ).1 hs⟩
      · right
        refine ⟨b1, ?_, h2, h3, fun σ hσ => (hsub σ).2 (h4 σ hσ),
          fun σ hσ hs => h5 σ hσ ((hsub σ).1 hs)⟩
        rw [h1, hfl]
        congr 3
        omega
    · left
      simp only [ne_eq, hg, not_false_eq_true, if_true, true_and]
      rintro ⟨σ, _, hsub⟩
      simp only [TermList.subst, TermList.term.injEq] at hsub
      exact hg hsub.1.symm

theorem matchSpecArgs_nil : MatchSpecArgs [] [] := by
  intro vm n b pre post hvb hib hlen
  right
  refine ⟨b, by simp [compArgs, execCode, FlatTerm.flatArgs], agreeBelow_refl _ _, hib,
    fun σ _ => by simp [TermList.substArgs], fun σ hσ _ => hσ⟩

theorem matchSpecArgs_cons (p t : TermList) (ps ts : List TermList) (h1 : MatchSpec p t)
    (h2 : MatchSpecArgs ps ts) : MatchSpecArgs (p :: ps) (t :: ts) := by
  intro vm n b pre post hvb hib hlen
  have hc : compArgs (p :: ps) (vm, n) =
      ((compArg p (vm, n)).1 ++ (compArgs ps (compArg p (vm, n)).2).1,
        (compArgs ps (compArg p (vm, n)).2).2) := by
    simp [compArgs]
  rw [hc] at hlen ⊢
  simp only [] at hlen ⊢
  obtain ⟨hn1, hvb1, hext1⟩ := compArg_props p vm n hvb
  have hst : (compArg p (vm, n)).2 = ((compArg p (vm, n)).2.1, (compArg p (vm, n)).2.2) := rfl
  have hn2 : (compArg p (vm, n)).2.2 ≤ (compArgs ps (compArg p (vm, n)).2).2.2 := by
    rw [hst]; exact (compArgs_props ps _ _ hvb1).1
  have hext2 : ∀ x k, (compArg p (vm, n)).2.1.lookup x = some k →
      (compArgs ps (compArg p (vm, n)).2).2.1.lookup x = some k := by
    rw [hst]; exact (compArgs_props ps _ _ hvb1).2.2
  have hft : pre ++ FlatTerm.flatArgs (t :: ts) ++ post =
      pre ++ FlatTerm.flat t ++ (FlatTerm.flatArgs ts ++ post) := by
    simp [FlatTerm.flatArgs]
  have hft2 : pre ++ FlatTerm.flatArgs (t :: ts) ++ post =
      (pre ++ FlatTerm.flat t) ++ FlatTerm.flatArgs ts ++ post := by
    simp [FlatTerm.flatArgs]
  have hsub : ∀ σ, TermList.substArgs σ (p :: ps) = t :: ts ↔
      p.subst σ = t ∧ TermList.substArgs σ ps = ts := by
    intro σ; simp [TermList.substArgs]
  rw [execCode_append]
  rcases h1 vm n b pre (FlatTerm.flatArgs ts ++ post) hvb hib (Nat.le_trans hn2 hlen) with
    ⟨e1, e2⟩ | ⟨b1, e1, e2, e3, e4, e5⟩
  · left
    rw [hft, e1]
    refine ⟨rfl, ?_⟩
    rintro ⟨σ, hσ, hs⟩
    exact e2 ⟨σ, hσ, ((hsub σ).1 hs).1⟩
  · rw [hft, e1]
    simp only []
    rw [← hft, hft2]
    have hlen1 : (compArgs ps ((compArg p (vm, n)).2.1, (compArg p (vm, n)).2.2)).2.2 ≤ b1.length := by
      rw [e2.1]; exact hlen
    have hpl : (pre ++ FlatTerm.flat t).length = pre.length + (FlatTerm.flat t).length := by simp
    rcases h2 (compArg p (vm, n)).2.1 (compArg p (vm, n)).2.2 b1 (pre ++ FlatTerm.flat t) post
        hvb1 e3 hlen1 with ⟨f1, f2⟩ | ⟨b2, f1, f2, f3, f4, f5⟩
    · left
      rw [hpl] at f1
      refine ⟨f1, ?_⟩
      rintro ⟨σ, hσ, hs⟩
      obtain ⟨hs1, hs2⟩ := (hsub σ).1 hs
      exact f2 ⟨σ, e5 σ hσ hs1, hs2⟩
    · right
      rw [hpl] at f1
      refine ⟨b2, ?_, agreeBelow_trans (agreeBelow_mono f2 hn1) e2, f3, ?_, ?_⟩
      · rw [f1]
        simp [FlatTerm.flatArgs, Nat.add_assoc]
      · intro σ hσ
        refine (hsub σ).2 ⟨e4 σ ?_, f4 σ hσ⟩
        intro x k hx
        have hk := hvb1 x k hx
        have := hσ x k (hext2 x k hx)
        rw [← f2.2 k hk]
        exact this
      · intro σ hσ hs
        obtain ⟨hs1, hs2⟩ := (hsub σ).1 hs
        exact f5 σ (e5 σ hσ hs1) hs2

mutual
theorem matchSpec_compat (p t : TermList) (h : shapeCompat p t) : MatchSpec p t := by
  cases p with
  | var x => exact matchSpec_var x t
  | term f args =>
    apply matchSpec_term
    intro g bs htg hgf
    subst htg
    simp only [shapeCompat] at h
    obtain ⟨h1, h2⟩ := h hgf.symm
    exact matchSpecArgs_compat args bs h2 h1
theorem matchSpecArgs_compat (ps ts : List TermList) (h : shapeCompatArgs ps ts)
    (hlen : ps.length = ts.length) : MatchSpecArgs ps ts := by
  cases ps with
  | nil =>
    cases ts with
    | nil => exact matchSpecArgs_nil
    | cons t ts => simp at hlen
  | cons p ps =>
    cases ts with
    | nil => simp at hlen
    | cons t ts =>
      simp only [shapeCompatArgs] at h
      exact matchSpecArgs_cons p t ps ts (matchSpec_compat p t h.1)
        (matchSpecArgs_compat ps ts h.2 (by simpa using hlen))
end

mutual
theorem shapeCompat_of_wf (ar : Nat → Nat) (p t : TermList) (hp : p.wellFormed ar = true)
    (ht : t.wellFormed ar = true) : shapeCompat p t := by
  cases p with
  | var x => simp [shapeCompat]
  | term f args =>
    cases t with
    | var y => simp [shapeCompat]
    | term g bs =>
      simp only [shapeCompat]
      intro hfg
      simp only [TermList.wellFormed, Bool.and_eq_true, decide_eq_true_eq] at hp ht
      exact ⟨by rw [hp.1, ht.1, hfg], shapeCompatArgs_of_wf ar args bs hp.2 ht.2⟩
theorem shapeCompatArgs_of_wf (ar : Nat → Nat) (ps ts : List TermList)
    (hp : TermList.wellFormedArgs ar ps = true) (ht : TermList.wellFormedArgs ar ts = true) :
    shapeCompatArgs ps ts := by
  cases ps with
  | nil => simp [shapeCompatArgs]
  | cons p ps =>
    cases ts with
    | nil => simp [shapeCompatArgs]
    | cons t ts =>
      simp only [TermList.wellFormedArgs, Bool.and_eq_true] at hp ht
      simp only [shapeCompatArgs]
      exact ⟨shapeCompat_of_wf ar p t hp.1 ht.1, shapeCompatArgs_of_wf ar ps ts hp.2 ht.2⟩
end

mutual
theorem shapeCompat_self (p : TermList) : shapeCompat p p := by
  cases p with
  | var x => simp [shapeCompat]
  | term f args =>
    rw [shapeCompat]
    exact fun _ => ⟨rfl, shapeCompatArgs_self args⟩
theorem shapeCompatArgs_self (ps : List TermList) : shapeCompatArgs ps ps := by
  cases ps with
  | nil => simp [shapeCompatArgs]
  | cons p ps =>
    rw [shapeCompatArgs]
    exact ⟨shapeCompat_self p, shapeCompatArgs_self ps⟩
end

mutual
theorem subst_var_id (p : TermList) : p.subst TermList.var = p := by
  cases p with
  | var x => rfl
  | term f args =>
    simp only [TermList.subst]
    rw [substArgs_var_id args]
theorem substArgs_var_id (ps : List TermList) : TermList.substArgs TermList.var ps = ps := by
  cases ps with
  | nil => rfl
  | cons p ps =>
    simp only [TermList.substArgs]
    rw [subst_var_id p, substArgs_var_id ps]
end

theorem generalises_self (p : TermList) : p.generalises p := ⟨TermList.var, subst_var_id p⟩

end Indexing


namespace Indexing

open Kernel

theorem disc_append (c1 c2 : List Instruction) :
    ∀ j, Disc j c1 → (∀ i ∈ c1, i.terminal = false) → Disc (levelAfter j c1) c2 →
      Disc j (c1 ++ c2) := by
  induction c1 with
  | nil => intro j _ _ h; simpa [levelAfter] using h
  | cons i c1 ih =>
    intro j h1 h2 h3
    obtain ⟨ha, _, hc⟩ := h1
    have hi := h2 i (List.mem_cons_self _ _)
    refine ⟨ha, fun ht => by rw [hi] at ht; simp at ht, ?_⟩
    exact ih (i.bump j) hc (fun x hx => h2 x (List.mem_cons_of_mem _ hx))
      (by simpa [levelAfter] using h3)

theorem levelAfter_append (c1 c2 : List Instruction) (j : Nat) :
    levelAfter j (c1 ++ c2) = levelAfter (levelAfter j c1) c2 := by
  simp [levelAfter, List.foldl_append]

mutual
theorem compArg_disc (t : TermList) (vm : VarMap) (n : Nat) (h : vmBelow vm n) :
    Disc n (compArg t (vm, n)).1 ∧ (∀ i ∈ (compArg t (vm, n)).1, i.terminal = false) ∧
      levelAfter n (compArg t (vm, n)).1 = (compArg t (vm, n)).2.2 := by
  cases t with
  | var v =>
    simp only [compArg]
    cases hl : vm.lookup v with
    | none =>
      dsimp only
      simp [Disc, Instruction.disc, Instruction.terminal, levelAfter, Instruction.bump]
    | some k =>
      dsimp only
      have := h v k hl
      simp [Disc, Instruction.disc, Instruction.terminal, levelAfter, Instruction.bump, this]
  | term f args =>
    obtain ⟨h1, h2, h3⟩ := compArgs_disc args vm n h
    simp only [compArg]
    refine ⟨⟨trivial, by simp [Instruction.terminal], by simpa [Instruction.bump] using h1⟩, ?_, ?_⟩
    · intro i hi
      rcases List.mem_cons.1 hi with hi | hi
      · subst hi; rfl
      · exact h2 i hi
    · simpa [levelAfter, Instruction.bump] using h3
theorem compArgs_disc (ts : List TermList) (vm : VarMap) (n : Nat) (h : vmBelow vm n) :
    Disc n (compArgs ts (vm, n)).1 ∧ (∀ i ∈ (compArgs ts (vm, n)).1, i.terminal = false) ∧
      levelAfter n (compArgs ts (vm, n)).1 = (compArgs ts (vm, n)).2.2 := by
  cases ts with
  | nil => simp [compArgs, Disc, levelAfter]
  | cons t ts =>
    obtain ⟨h1, h2, h3⟩ := compArg_disc t vm n h
    obtain ⟨_, hvb1, _⟩ := compArg_props t vm n h
    obtain ⟨h4, h5, h6⟩ := compArgs_disc ts (compArg t (vm, n)).2.1 (compArg t (vm, n)).2.2 hvb1
    simp only [compArgs, Prod.mk.eta] at h4 h5 h6 ⊢
    refine ⟨disc_append _ _ n h1 h2 (by rw [h3]; exact h4), ?_, ?_⟩
    · intro i hi
      rcases List.mem_append.1 hi with hi | hi
      · exact h2 i hi
      · exact h5 i hi
    · rw [levelAfter_append, h3, h6]
end

theorem vmBelow_nil : vmBelow [] 0 := by
  intro x k h; simp at h

/-- The code of a term pattern obeys the slot discipline from level 0. -/
theorem patternCode_disc (p : TermList) : Disc 0 (patternCode p) := by
  obtain ⟨h1, h2, _⟩ := compArg_disc p [] 0 vmBelow_nil
  refine disc_append _ _ 0 h1 h2 ?_
  simp [Disc, Instruction.disc]

theorem patternCode_ne_nil (p : TermList) : patternCode p ≠ [] := by
  simp [patternCode]

/-- What executing the code of a well-formed pattern on the flat term of a
well-formed query does, whatever the binding table holds at the start. -/
theorem patternCode_exec (p t : TermList) (hc : shapeCompat p t) (b : Bindings)
    (hb : patternVarCnt p ≤ b.length) :
    (execCode (FlatTerm.create t) (patternCode p) 0 b = .ok none ∧ ¬ p.generalises t) ∨
    (∃ b1, execCode (FlatTerm.create t) (patternCode p) 0 b
        = .ok (some ((FlatTerm.create t).length, b1)) ∧
      p.subst (bindingSubst (patternVarMap p) b1) = t) := by
  have hm := matchSpec_compat p t hc [] 0 b [] [] vmBelow_nil
    (fun k hk => absurd hk (Nat.not_lt_zero k)) hb
  simp only [List.nil_append, List.append_nil, List.length_nil, Nat.zero_add] at hm
  rw [create_eq_flat]
  unfold patternCode patternBody
  rw [execCode_append]
  rcases hm with ⟨h1, h2⟩ | ⟨b1, h1, _, h3, h4, _⟩
  · left
    rw [h1]
    refine ⟨rfl, ?_⟩
    rintro ⟨σ, hσ⟩
    exact h2 ⟨σ, fun x k hx => by simp at hx, hσ⟩
  · right
    rw [h1]
    refine ⟨b1, by simp [execCode, execInstr], ?_⟩
    apply h4
    intro x k hx
    obtain ⟨_, hvb, _⟩ := compArg_props p [] 0 vmBelow_nil
    obtain ⟨u, hu⟩ := h3 k (hvb x k hx)
    rw [hu]
    simp only [bindingSubst, patternVarMap, hx, hu]

/-- Executing the code of a well-formed pattern on a well-formed query
succeeds exactly when the pattern generalises the query. -/
theorem patternCode_succeeds (p t : TermList) (hc : shapeCompat p t) (b : Bindings)
    (hb : patternVarCnt p ≤ b.length) :
    succeeds (execCode (FlatTerm.create t) (patternCode p) 0 b) = true ↔ p.generalises t := by
  rcases patternCode_exec p t hc b hb with ⟨h1, h2⟩ | ⟨b1, h1, h2⟩
  · rw [h1]
    simp [succeeds, h2]
  · rw [h1]
    simp only [succeeds, true_iff]
    exact ⟨_, h2⟩

end Indexing


namespace Indexing

open Kernel

/-! ### Memory lemmas -/

/-- The instruction at an address, if there is one. -/
theorem deref_eq (mem : List CodeBlock) (p : Ptr) :
    deref mem p = Run.ofOption ((mem[p.blk]?).bind (fun b => b[p.ofs]?)) := by
  unfold deref Run.ofOption
  simp only [List.get?_eq_getElem?]
  cases mem[p.blk]? with
  | none => rfl
  | some b =>
    simp only [Option.some_bind]
    try (cases b[p.ofs]? <;> rfl)

theorem deref_append (mem : List CodeBlock) (blk : CodeBlock) (x : Ptr) (h : x.blk < mem.length) :
    deref (mem ++ [blk]) x = deref mem x := by
  rw [deref_eq, deref_eq, List.getElem?_append_left h]

theorem deref_append_new (mem : List CodeBlock) (blk : CodeBlock) (k : Nat) :
    deref (mem ++ [blk]) ⟨mem.length, k⟩ = Run.ofOption blk[k]? := by
  rw [deref_eq]
  simp

theorem setAlternative_get (mem : List CodeBlock) (q x new : Ptr) :
    ((setAlternative mem q new)[x.blk]?).bind (fun b => b[x.ofs]?) =
      ((mem[x.blk]?).bind (fun b => b[x.ofs]?)).map
        (fun op => if x = q then { op with alternative := some new } else op) := by
  unfold setAlternative
  rw [List.getElem?_modify]
  by_cases hb : q.blk = x.blk
  · simp only [hb, if_true]
    cases hm : mem[x.blk]? with
    | none => simp
    | some b =>
      simp only [Option.map_eq_map, Option.map_some', Option.some_bind]
      rw [List.getElem?_modify]
      by_cases ho : q.ofs = x.ofs
      · have hxq : x = q := by cases x; cases q; simp_all
        simp only [ho, if_true, hxq]
        cases b[q.ofs]? <;> simp
      · have hxq : x ≠ q := by
          intro hxq; apply ho; rw [hxq]
        simp only [ho, if_false, hxq]
        cases b[x.ofs]? <;> simp
  · have hxq : x ≠ q := by
      intro hxq; apply hb; rw [hxq]
    simp only [hb, if_false, hxq]
    cases mem[x.blk]? with
    | none => rfl
    | some b =>
      show b[x.ofs]? = Option.map (fun op => op) b[x.ofs]?
      cases b[x.ofs]? <;> rfl

theorem deref_setAlternative_ne (mem : List CodeBlock) (q x new : Ptr) (h : x ≠ q) :
    deref (setAlternative mem q new) x = deref mem x := by
  rw [deref_eq, deref_eq, setAlternative_get]
  simp only [h, if_false]
  generalize (mem[x.blk]?).bind (fun b => b[x.ofs]?) = o
  cases o <;> rfl

theorem deref_setAlternative_eq (mem : List CodeBlock) (q new : Ptr) (op : OpCode)
    (h : deref mem q = .ok op) :
    deref (setAlternative mem q new) q = .ok { op with alternative := some new } := by
  rw [deref_eq] at h ⊢
  rw [setAlternative_get]
  cases hm : (mem[q.blk]?).bind (fun b => b[q.ofs]?) with
  | none => rw [hm] at h; simp [Run.ofOption] at h
  | some op1 =>
    rw [hm] at h
    simp only [Run.ofOption, Run.ok.injEq] at h
    subst h
    simp [Run.ofOption]

theorem deref_setAlternative_oob (mem : List CodeBlock) (q x new : Ptr)
    (h : deref mem x = .fault .outOfBounds) :
    deref (setAlternative mem q new) x = .fault .outOfBounds := by
  rw [deref_eq] at h ⊢
  rw [setAlternative_get]
  cases hm : (mem[x.blk]?).bind (fun b => b[x.ofs]?) with
  | none => simp [Run.ofOption]
  | some op1 => rw [hm] at h; simp [Run.ofOption] at h

theorem deref_append_oob (mem : List CodeBlock) (blk : CodeBlock) (x : Ptr)
    (hx : x.blk < mem.length) (h : deref mem x = .fault .outOfBounds) :
    deref (mem ++ [blk]) x = .fault .outOfBounds := by
  rw [deref_append mem blk x hx]; exact h

/-- A trie that does not contain the instruction whose link is set is still
held by the memory after `incorporate` has added its block and its link. -/
theorem rep_frame (mem : List CodeBlock) (blk : CodeBlock) (q : Ptr) (t : Trie) :
    ∀ (r : Option Ptr), Rep mem t r → (∀ x ∈ t.ptrs, x.blk < mem.length) → q ∉ t.ptrs →
      Rep (setAlternative (mem ++ [blk]) q ⟨mem.length, 0⟩) t r := by
  induction t with
  | nil => intro r h _ _; exact h
  | node p i c a ihc iha =>
    intro r h hr hq
    obtain ⟨hp, alt, hd, hra, hmono, hcond⟩ := h
    simp only [Trie.ptrs, List.mem_cons, List.mem_append, not_or] at hq
    have hpr : p.blk < mem.length := hr p (by simp [Trie.ptrs])
    have hrc : ∀ x ∈ c.ptrs, x.blk < mem.length := fun x hx => hr x (by simp [Trie.ptrs, hx])
    have hra2 : ∀ x ∈ a.ptrs, x.blk < mem.length := fun x hx => hr x (by simp [Trie.ptrs, hx])
    refine ⟨hp, alt, ?_, iha alt hra hra2 hq.2.2, hmono, ?_⟩
    · rw [deref_setAlternative_ne _ _ _ _ (fun h => hq.1 h.symm), deref_append mem blk p hpr]
      exact hd
    · by_cases ht : i.terminal = true
      · simp only [ht, if_true] at hcond ⊢
        refine ⟨hcond.1, ?_⟩
        apply deref_setAlternative_oob
        exact deref_append_oob mem blk _ hpr hcond.2
      · simp only [ht, Bool.false_eq_true, if_false] at hcond ⊢
        exact ihc _ hcond hrc hq.2.1

end Indexing


namespace Indexing

open Kernel

/-! ### The trie after an insertion -/

theorem plain_not_terminal (i : Instruction) (h : i.plain = true) :
    i.terminal = false ∧ i ≠ .FAIL ∧ i ≠ .NEXT_LIT ∧ ∀ r, i ≠ .SUCCESS r := by
  cases i <;> simp [Instruction.plain, Instruction.terminal] at h ⊢

theorem codeOK_cons_cons (i i2 : Instruction) (rest : List Instruction) :
    codeOK (i :: i2 :: rest) ↔ i.plain = true ∧ codeOK (i2 :: rest) := by
  simp [codeOK]

theorem codeOK_single (i : Instruction) : codeOK [i] ↔ ∃ r, i = .SUCCESS r := by
  simp [codeOK]

theorem linear_ptrs (b : Nat) (code : List Instruction) :
    ∀ o, (∀ x ∈ (Trie.linear b o code).ptrs, x.blk = b ∧ o ≤ x.ofs) ∧
      (Trie.linear b o code).ptrs.Nodup := by
  induction code with
  | nil => intro o; simp [Trie.linear, Trie.ptrs]
  | cons i rest ih =>
    intro o
    by_cases ht : i.terminal = true
    · simp [Trie.linear, Trie.ptrs, ht]
    · simp only [Trie.linear, ht, Bool.false_eq_true, if_false, Trie.ptrs, List.append_nil,
        List.mem_cons, List.nodup_cons]
      obtain ⟨h1, h2⟩ := ih (o + 1)
      refine ⟨?_, ?_, h2⟩
      · intro x hx
        rcases hx with hx | hx
        · subst hx; simp
        · have := h1 x hx
          exact ⟨this.1, by omega⟩
      · intro hmem
        have := (h1 _ hmem).2
        simp at this

theorem linear_shaped (b : Nat) (code : List Instruction) :
    ∀ o, codeOK code → (Trie.linear b o code).shaped ∧ (Trie.linear b o code).termOnly ∧
      (Trie.linear b o code).paths = [(code, ⟨b, o + code.length - 1⟩)] ∧
      Trie.linear b o code ≠ .nil := by
  induction code with
  | nil => intro o h; simp [codeOK] at h
  | cons i rest ih =>
    intro o h
    cases rest with
    | nil =>
      obtain ⟨r, hr⟩ := (codeOK_single i).1 h
      subst hr
      simp [Trie.linear, Trie.shaped, Trie.termOnly, Trie.paths, Instruction.terminal]
    | cons i2 rest =>
      obtain ⟨hp, hrest⟩ := (codeOK_cons_cons i i2 rest).1 h
      obtain ⟨hnt, hnf, hnn, hns⟩ := plain_not_terminal i hp
      obtain ⟨h1, h2, h3, h4⟩ := ih (o + 1) hrest
      have hl : Trie.linear b o (i :: i2 :: rest)
          = .node ⟨b, o⟩ i (Trie.linear b (o + 1) (i2 :: rest)) .nil := by
        simp [Trie.linear, hnt]
      rw [hl]
      refine ⟨⟨by simp [hnt], fun _ => h4, h1, trivial⟩, ⟨hnf, hnn, h2, trivial⟩, ?_, by simp⟩
      rw [paths_node_other _ _ _ _ hns hnf, h3]
      simp [Trie.paths]
      omega

theorem paths_node_split (p : Ptr) (i : Instruction) (c : Trie) :
    ∃ X, ∀ a, (Trie.node p i c a).paths = X ++ a.paths := by
  cases i with
  | SUCCESS r => exact ⟨[([.SUCCESS r], p)], fun a => rfl⟩
  | FAIL => exact ⟨[], fun a => rfl⟩
  | NEXT_LIT => exact ⟨_, fun a => rfl⟩
  | CHECK_FUN f => exact ⟨_, fun a => rfl⟩
  | ASSIGN_VAR v => exact ⟨_, fun a => rfl⟩
  | CHECK_VAR v => exact ⟨_, fun a => rfl⟩

/-- A successful insertion keeps the shape of the trie, adds one path that
spells the inserted code, and adds only addresses of the new block. -/
theorem insert_some (newBlk : Nat) (t : Trie) :
    ∀ (code : List Instruction) (t1 : Trie), codeOK code → t.shaped → t.termOnly →
      Trie.insert newBlk t code = some t1 →
      t1.shaped ∧ t1.termOnly ∧ t1 ≠ .nil ∧
      (∃ q, t1.paths.Perm (t.paths ++ [(code, q)])) ∧
      (∃ l, t1.ptrs.Perm (t.ptrs ++ l) ∧ (∀ x ∈ l, x.blk = newBlk) ∧ l.Nodup) := by
  induction t with
  | nil => intro code t1 _ _ _ h; simp [Trie.insert] at h
  | node p i c a ihc iha =>
    intro code t1 hok hsh hto h
    obtain ⟨hs1, hs2, hcsh, hash⟩ := hsh
    obtain ⟨hnf, hnn, hcto, hato⟩ := hto
    cases code with
    | nil => simp [codeOK] at hok
    | cons c0 rest =>
      simp only [Trie.insert] at h
      by_cases hc0 : c0 = i
      · simp only [hc0, if_true] at h
        cases rest with
        | nil => simp at h
        | cons c1 rest =>
          simp only [] at h
          obtain ⟨hp, hrest⟩ := (codeOK_cons_cons c0 c1 rest).1 hok
          rw [hc0] at hp
          obtain ⟨hnt, _, _, hns⟩ := plain_not_terminal i hp
          cases hins : Trie.insert newBlk c (c1 :: rest) with
          | none => rw [hins] at h; simp at h
          | some c2 =>
            rw [hins] at h
            simp only [Option.some.injEq] at h
            subst h
            obtain ⟨k1, k2, k3, ⟨q, k4⟩, ⟨l, k5, k6, k7⟩⟩ := ihc (c1 :: rest) c2 hrest hcsh hcto hins
            refine ⟨⟨fun ht => by rw [hnt] at ht; simp at ht, fun _ => k3, k1, hash⟩,
              ⟨hnf, hnn, k2, hato⟩, by simp, ⟨q, ?_⟩, ⟨l, ?_, k6, k7⟩⟩
            · rw [paths_node_other _ _ _ _ hns hnf, paths_node_other _ _ _ _ hns hnf, hc0]
              have := (k4.map (fun sq : List Instruction × Ptr => (i :: sq.1, sq.2))).append_right
                a.paths
              refine this.trans ?_
              simp only [List.map_append, List.map_cons, List.map_nil, List.append_assoc]
              exact List.Perm.append_left _ List.perm_append_comm
            · show (p :: (c2.ptrs ++ a.ptrs)).Perm (p :: ((c.ptrs ++ a.ptrs) ++ l))
              refine List.Perm.cons _ ?_
              refine (k5.append_right a.ptrs).trans ?_
              rw [List.append_assoc, List.append_assoc]
              exact List.Perm.append_left _ List.perm_append_comm
      · simp only [hc0, if_false] at h
        obtain ⟨X, hX⟩ := paths_node_split p i c
        cases a with
        | nil =>
          simp only [Option.some.injEq] at h
          subst h
          obtain ⟨l1, l2, l3, l4⟩ := linear_shaped newBlk (c0 :: rest) 0 hok
          obtain ⟨l5, l6⟩ := linear_ptrs newBlk (c0 :: rest) 0
          refine ⟨⟨hs1, hs2, hcsh, l1⟩, ⟨hnf, hnn, hcto, l2⟩, by simp,
            ⟨⟨newBlk, 0 + (c0 :: rest).length - 1⟩, ?_⟩,
            ⟨(Trie.linear newBlk 0 (c0 :: rest)).ptrs, ?_, fun x hx => (l5 x hx).1, l6⟩⟩
          · rw [hX, hX, l3]
            simp [Trie.paths]
          · simp [Trie.ptrs]
        | node p2 i2 c2 a2 =>
          simp only [] at h
          cases hins : Trie.insert newBlk (Trie.node p2 i2 c2 a2) (c0 :: rest) with
          | none => rw [hins] at h; simp at h
          | some a3 =>
            rw [hins] at h
            simp only [Option.some.injEq] at h
            subst h
            obtain ⟨k1, k2, k3, ⟨q, k4⟩, ⟨l, k5, k6, k7⟩⟩ :=
              iha (c0 :: rest) a3 hok hash hato hins
            refine ⟨⟨hs1, hs2, hcsh, k1⟩, ⟨hnf, hnn, hcto, k2⟩, by simp, ⟨q, ?_⟩, ⟨l, ?_, k6, k7⟩⟩
            · rw [hX, hX]
              refine (List.Perm.append_left X k4).trans ?_
              simp [List.append_assoc]
            · show (p :: (c.ptrs ++ a3.ptrs)).Perm
                  (p :: ((c.ptrs ++ (Trie.node p2 i2 c2 a2).ptrs) ++ l))
              refine List.Perm.cons _ ?_
              refine (List.Perm.append_left c.ptrs k5).trans ?_
              rw [List.append_assoc]

/-- The walk matches the whole code only when the code is already a path of
the trie. -/
theorem insert_none (newBlk : Nat) (t : Trie) :
    ∀ (code : List Instruction), codeOK code → t.shaped → t ≠ .nil →
      Trie.insert newBlk t code = none → code ∈ t.paths.map Prod.fst := by
  induction t with
  | nil => intro code _ _ h; exact absurd rfl h
  | node p i c a ihc iha =>
    intro code hok hsh _ h
    obtain ⟨hs1, hs2, hcsh, hash⟩ := hsh
    cases code with
    | nil => simp [codeOK] at hok
    | cons c0 rest =>
      simp only [Trie.insert] at h
      by_cases hc0 : c0 = i
      · simp only [hc0, if_true] at h
        cases rest with
        | nil =>
          obtain ⟨r, hr⟩ := (codeOK_single c0).1 hok
          rw [hc0] at hr
          subst hr
          subst hc0
          simp [Trie.paths]
        | cons c1 rest =>
          simp only [] at h
          obtain ⟨hp, hrest⟩ := (codeOK_cons_cons c0 c1 rest).1 hok
          rw [hc0] at hp
          obtain ⟨hnt, hnf, _, hns⟩ := plain_not_terminal i hp
          cases hins : Trie.insert newBlk c (c1 :: rest) with
          | some c2 => rw [hins] at h; simp at h
          | none =>
            have := ihc (c1 :: rest) hrest hcsh (hs2 hnt) hins
            rw [paths_node_other _ _ _ _ hns hnf, hc0]
            simp only [List.map_append, List.map_map, List.mem_append, List.mem_map,
              Function.comp_apply]
            left
            obtain ⟨sq, hsq, hfst⟩ := List.mem_map.1 this
            exact ⟨sq, hsq, by rw [hfst]⟩
      · simp only [hc0, if_false] at h
        obtain ⟨X, hX⟩ := paths_node_split p i c
        cases a with
        | nil => simp at h
        | node p2 i2 c2 a2 =>
          simp only [] at h
          cases hins : Trie.insert newBlk (Trie.node p2 i2 c2 a2) (c0 :: rest) with
          | some a3 => rw [hins] at h; simp at h
          | none =>
            have := iha (c0 :: rest) hok hash (by simp) hins
            rw [hX]
            simp only [List.map_append, List.mem_append]
            right
            exact this

theorem insert_node_last (newBlk : Nat) (p : Ptr) (i : Instruction) (c a : Trie) :
    Trie.insert newBlk (.node p i c a) [i] = none := by
  simp [Trie.insert]

theorem insert_node_eq (newBlk : Nat) (p : Ptr) (i : Instruction) (c a : Trie) (c1 : Instruction)
    (rest : List Instruction) :
    Trie.insert newBlk (.node p i c a) (i :: c1 :: rest) =
      (Trie.insert newBlk c (c1 :: rest)).map (fun c2 => .node p i c2 a) := by
  simp only [Trie.insert, if_true]
  cases Trie.insert newBlk c (c1 :: rest) <;> rfl

theorem insert_node_ne_nil (newBlk : Nat) (p : Ptr) (i : Instruction) (c : Trie) (c0 : Instruction)
    (rest : List Instruction) (h : c0 ≠ i) :
    Trie.insert newBlk (.node p i c .nil) (c0 :: rest) =
      some (.node p i c (Trie.linear newBlk 0 (c0 :: rest))) := by
  simp only [Trie.insert, h, if_false]

theorem insert_node_ne_node (newBlk : Nat) (p : Ptr) (i : Instruction) (c : Trie) (p2 : Ptr)
    (i2 : Instruction) (c2 a2 : Trie) (c0 : Instruction) (rest : List Instruction) (h : c0 ≠ i) :
    Trie.insert newBlk (.node p i c (.node p2 i2 c2 a2)) (c0 :: rest) =
      (Trie.insert newBlk (.node p2 i2 c2 a2) (c0 :: rest)).map (fun a1 => .node p i c a1) := by
  generalize hg : Trie.node p2 i2 c2 a2 = a
  conv => lhs; simp only [Trie.insert, h, if_false]
  subst hg
  simp only []
  cases Trie.insert newBlk (.node p2 i2 c2 a2) (c0 :: rest) <;> rfl

end Indexing


namespace Indexing

open Kernel

theorem instrsOf_cons (c : OpCode) (rest : List OpCode) :
    instrsOf (c :: rest) = c.instr :: instrsOf rest := rfl

theorem deref_new_block (mem : List CodeBlock) (q : Ptr) (hq : q.blk < mem.length)
    (blk : CodeBlock) (k : Nat) :
    deref (setAlternative (mem ++ [blk]) q ⟨mem.length, 0⟩) ⟨mem.length, k⟩ =
      Run.ofOption blk[k]? := by
  have hne : (⟨mem.length, k⟩ : Ptr) ≠ q := by
    intro h
    have : mem.length = q.blk := by rw [← h]
    omega
  rw [deref_setAlternative_ne _ _ _ _ hne, deref_append_new]

/-- The freshly built block is held by the memory as a single path. -/
theorem rep_linear (mem : List CodeBlock) (q : Ptr) (hq : q.blk < mem.length)
    (rest : List OpCode) :
    ∀ (pre : List OpCode), codeOK (instrsOf rest) → (∀ op ∈ rest, op.alternative = none) →
      Rep (setAlternative (mem ++ [pre ++ rest]) q ⟨mem.length, 0⟩)
        (Trie.linear mem.length pre.length (instrsOf rest)) (some ⟨mem.length, pre.length⟩) := by
  induction rest with
  | nil => intro pre h _; simp [instrsOf, codeOK] at h
  | cons op rest ih =>
    intro pre hok halt
    have hop : op.alternative = none := halt op (List.mem_cons_self _ _)
    have hd : deref (setAlternative (mem ++ [pre ++ op :: rest]) q ⟨mem.length, 0⟩)
        ⟨mem.length, pre.length⟩ = .ok ⟨op.instr, none⟩ := by
      rw [deref_new_block mem q hq]
      have : (pre ++ op :: rest)[pre.length]? = some op := by
        rw [List.getElem?_append_right (Nat.le_refl _)]
        simp
      rw [this]
      cases op
      simp at hop
      simp [hop, Run.ofOption]
    rw [instrsOf_cons]
    cases rest with
    | nil =>
      rw [instrsOf_cons] at hok
      obtain ⟨r, hr⟩ := (codeOK_single op.instr).1 hok
      simp only [instrsOf, List.map_nil, Trie.linear, hr, Instruction.terminal, if_true]
      refine ⟨rfl, none, by rw [← hr]; exact hd, rfl, fun q1 h => by simp at h, ?_⟩
      simp only [Instruction.terminal, if_true, true_and]
      rw [deref_new_block mem q hq]
      have : (pre ++ [op])[pre.length + 1]? = none := by simp
      rw [this]
      rfl
    | cons op2 rest =>
      rw [instrsOf_cons, instrsOf_cons] at hok
      obtain ⟨hp, hrest⟩ := (codeOK_cons_cons _ _ _).1 hok
      obtain ⟨hnt, _, _, _⟩ := plain_not_terminal _ hp
      have hl : Trie.linear mem.length pre.length (op.instr :: instrsOf (op2 :: rest))
          = .node ⟨mem.length, pre.length⟩ op.instr
              (Trie.linear mem.length (pre.length + 1) (instrsOf (op2 :: rest))) .nil := by
        simp [Trie.linear, hnt, instrsOf]
      rw [hl]
      refine ⟨rfl, none, hd, rfl, fun q1 h => by simp at h, ?_⟩
      simp only [hnt, Bool.false_eq_true, if_false]
      have := ih (pre ++ [op]) (by rw [instrsOf_cons]; exact hrest)
        (fun o ho => halt o (List.mem_cons_of_mem _ ho))
      simp only [List.append_assoc, List.singleton_append, List.length_append, List.length_singleton]
        at this
      exact this

theorem buildBlock_suffix (pre rest : List OpCode) (h : ∀ op ∈ pre ++ rest, op.alternative = none) :
    CodeTree.buildBlock (pre ++ rest) rest.length = .ok rest := by
  unfold CodeTree.buildBlock
  have h1 : rest.length ≤ (pre ++ rest).length := by simp
  have h2 : (pre ++ rest).drop ((pre ++ rest).length - rest.length) = rest := by
    have : (pre ++ rest).length - rest.length = pre.length := by simp
    rw [this]
    simp
  simp only [h1, if_true, h2]
  have h3 : rest.all (fun op => op.alternative.isNone) = true := by
    rw [List.all_eq_true]
    intro op hop
    rw [h op (List.mem_append_right _ hop)]
    rfl
  simp [h3]

theorem skipAlternatives_eq (mem : List CodeBlock) (c : OpCode) (fuel : Nat) (p : Ptr)
    (i : Instruction) (alt : Option Ptr) (h : deref mem p = .ok ⟨i, alt⟩) (hc : c.instr = i) :
    CodeTree.skipAlternatives mem c (fuel + 1) p = .ok p := by
  rw [CodeTree.skipAlternatives, h]
  simp [OpCode.eqModAlt, hc]

theorem skipAlternatives_none (mem : List CodeBlock) (c : OpCode) (fuel : Nat) (p : Ptr)
    (i : Instruction) (h : deref mem p = .ok ⟨i, none⟩) (hc : c.instr ≠ i) :
    CodeTree.skipAlternatives mem c (fuel + 1) p = .ok p := by
  rw [CodeTree.skipAlternatives, h]
  simp [OpCode.eqModAlt, hc]

theorem skipAlternatives_some (mem : List CodeBlock) (c : OpCode) (fuel : Nat) (p a : Ptr)
    (i : Instruction) (h : deref mem p = .ok ⟨i, some a⟩) (hc : c.instr ≠ i) :
    CodeTree.skipAlternatives mem c (fuel + 1) p = CodeTree.skipAlternatives mem c fuel a := by
  rw [CodeTree.skipAlternatives, h]
  simp [OpCode.eqModAlt, hc]

theorem incBody_ok (mem : List CodeBlock) (code : CodeStack) (c : OpCode) (rest : List OpCode)
    (p : Ptr) (i : Instruction) (alt : Option Ptr) (h : deref mem p = .ok ⟨i, alt⟩) :
    incBody mem code c rest (.ok p) =
      if c.instr = i then CodeTree.incorporateLoop mem code rest ⟨p.blk, p.ofs + 1⟩
      else
        match CodeTree.buildBlock code (rest.length + 1) with
        | .fault f => .fault f
        | .ok rem => .ok (setAlternative (mem ++ [rem]) p ⟨mem.length, 0⟩) := by
  simp only [incBody, h]
  by_cases hc : c.instr = i
  · simp [OpCode.eqModAlt, hc]
  · simp only [OpCode.eqModAlt, hc, decide_False, Bool.not_false, if_true, if_false]
    try rfl

theorem incorporateLoop_cons (mem : List CodeBlock) (code : CodeStack) (c : OpCode)
    (rest : List OpCode) (p : Ptr) :
    CodeTree.incorporateLoop mem code (c :: rest) p =
      incBody mem code c rest (CodeTree.skipAlternatives mem c (mem.length + 1) p) := by
  rw [CodeTree.incorporateLoop]
  cases CodeTree.skipAlternatives mem c (mem.length + 1) p with
  | fault f => rfl
  | ok q => rfl

theorem incSpec_all (mem : List CodeBlock) (code : CodeStack) (t : Trie) :
    IncSpec mem code t := by
  induction t with
  | nil =>
    intro p c rest pre fuel hrep
    exact absurd hrep (by simp [Rep])
  | node p0 i tc ta ihc iha =>
    intro p cop rest pre fuel hrep hsh hrange hnd hok hcode halt hfuel
    obtain ⟨hp, alt, hd, hra, hmono, hcond⟩ := hrep
    have hp1 : p = p0 := Option.some.inj hp
    subst hp1
    obtain ⟨hs1, hs2, hcsh, hash⟩ := hsh
    have hpr : p.blk < mem.length := hrange p (by simp [Trie.ptrs])
    have hrc : ∀ x ∈ tc.ptrs, x.blk < mem.length := fun x hx => hrange x (by simp [Trie.ptrs, hx])
    have hra2 : ∀ x ∈ ta.ptrs, x.blk < mem.length := fun x hx => hrange x (by simp [Trie.ptrs, hx])
    simp only [Trie.ptrs, List.nodup_cons, List.mem_append, not_or, List.nodup_append] at hnd
    obtain ⟨⟨hpc, hpa⟩, hndc, hnda, hdisj⟩ := hnd
    cases fuel with
    | zero => omega
    | succ f =>
      rw [instrsOf_cons]
      by_cases hc0 : cop.instr = i
      · rw [skipAlternatives_eq mem cop f p i alt hd hc0]
        rw [incBody_ok mem code cop rest p i alt hd]
        simp only [hc0, if_true]
        cases rest with
        | nil =>
          left
          rw [instrsOf_cons] at hok
          obtain ⟨r, hr⟩ := (codeOK_single _).1 hok
          rw [hc0] at hr
          subst hr
          simp only [Instruction.terminal, if_true] at hcond
          refine ⟨by simp [Trie.insert, instrsOf], ?_⟩
          rw [CodeTree.incorporateLoop, hcond.2]
        | cons c1 rest =>
          rw [instrsOf_cons, instrsOf_cons] at hok
          obtain ⟨hpl, hrest⟩ := (codeOK_cons_cons _ _ _).1 hok
          rw [hc0] at hpl
          obtain ⟨hnt, _, _, _⟩ := plain_not_terminal i hpl
          simp only [hnt, Bool.false_eq_true, if_false] at hcond
          rw [incorporateLoop_cons]
          have hI := ihc ⟨p.blk, p.ofs + 1⟩ c1 rest (pre ++ [cop]) (mem.length + 1) hcond hcsh hrc hndc
            (by rw [instrsOf_cons]; exact hrest) (by rw [hcode]; simp) halt (by omega)
          rw [instrsOf_cons, insert_node_eq, ← instrsOf_cons]
          rcases hI with ⟨h1, h2⟩ | ⟨t1, q, blk, h1, h2, h3, h4⟩
          · left
            rw [h1]
            exact ⟨rfl, h2⟩
          · right
            rw [h1]
            refine ⟨_, q, blk, rfl, by simp [Trie.ptrs, h2], h3, ?_⟩
            have hqp : p ≠ q := fun h => hpc (h ▸ h2)
            refine ⟨rfl, alt, ?_, rep_frame mem blk q ta alt hra hra2 (fun h => hdisj h2 h), hmono, ?_⟩
            · rw [deref_setAlternative_ne _ _ _ _ hqp, deref_append mem blk p hpr]
              exact hd
            · simp only [hnt, Bool.false_eq_true, if_false]
              exact h4
      · have hcondFrame : ∀ (q : Ptr) (blk : CodeBlock), q ∉ tc.ptrs →
            (if i.terminal then tc = .nil ∧
                deref (setAlternative (mem ++ [blk]) q ⟨mem.length, 0⟩) ⟨p.blk, p.ofs + 1⟩
                  = .fault .outOfBounds
              else Rep (setAlternative (mem ++ [blk]) q ⟨mem.length, 0⟩) tc
                (some ⟨p.blk, p.ofs + 1⟩)) := by
          intro q blk hq
          by_cases ht : i.terminal = true
          · simp only [ht, if_true] at hcond ⊢
            exact ⟨hcond.1, deref_setAlternative_oob _ _ _ _
              (deref_append_oob mem blk _ hpr hcond.2)⟩
          · simp only [ht, Bool.false_eq_true, if_false] at hcond ⊢
            exact rep_frame mem blk q tc _ hcond hrc hq
        cases ta with
        | nil =>
          have halt0 : alt = none := hra
          subst halt0
          rw [insert_node_ne_nil _ _ _ _ _ _ hc0]
          right
          rw [skipAlternatives_none mem cop f p i hd hc0]
          rw [incBody_ok mem code cop rest p i none hd]
          simp only [hc0, if_false]
          have hbb : CodeTree.buildBlock code (rest.length + 1) = .ok (cop :: rest) := by
            rw [hcode]
            exact buildBlock_suffix pre (cop :: rest) (by rw [← hcode]; exact halt)
          rw [hbb]
          refine ⟨_, p, cop :: rest, rfl, by simp [Trie.ptrs], rfl, ?_⟩
          refine ⟨rfl, some ⟨mem.length, 0⟩, ?_, ?_, ?_, hcondFrame p (cop :: rest) hpc⟩
          · have := deref_setAlternative_eq (mem ++ [cop :: rest]) p ⟨mem.length, 0⟩ ⟨i, none⟩
              (by rw [deref_append mem _ p hpr]; exact hd)
            exact this
          · have := rep_linear mem p hpr (cop :: rest) [] (by rw [instrsOf_cons]; exact hok)
              (fun op hop => halt op (by rw [hcode]; exact List.mem_append_right _ hop))
            simpa [instrsOf] using this
          · intro q1 hq1
            simp only [Option.some.injEq] at hq1
            subst hq1
            exact ⟨hpr, rfl⟩
        | node p2 i2 c2 a2 =>
          have halt0 : alt = some p2 := hra.1
          subst halt0
          rw [insert_node_ne_node _ _ _ _ _ _ _ _ _ _ hc0]
          rw [skipAlternatives_some mem cop f p p2 i hd hc0]
          obtain ⟨hm1, hm2⟩ := hmono p2 rfl
          have hI := iha p2 cop rest pre f hra hash hra2 hnda
            (by rw [instrsOf_cons]; exact hok) hcode halt (by omega)
          rw [instrsOf_cons] at hI
          rcases hI with ⟨h1, h2⟩ | ⟨t1, q, blk, h1, h2, h3, h4⟩
          · left
            rw [h1]
            exact ⟨rfl, h2⟩
          · right
            rw [h1]
            refine ⟨_, q, blk, rfl, ?_, h3, ?_⟩
            · show q ∈ p :: (tc.ptrs ++ (Trie.node p2 i2 c2 a2).ptrs)
              exact List.mem_cons_of_mem _ (List.mem_append_right _ h2)
            have hqp : p ≠ q := fun h => hpa (h ▸ h2)
            refine ⟨rfl, some p2, ?_, h4, hmono, hcondFrame q blk (fun h => hdisj h h2)⟩
            rw [deref_setAlternative_ne _ _ _ _ hqp, deref_append mem blk p hpr]
            exact hd

end Indexing


namespace Indexing

open Kernel

/-- A block that the memory holds at address `b` is held as a single path. -/
theorem rep_linear_gen (m : List CodeBlock) (b : Nat) (blk : CodeBlock)
    (hm : ∀ k, deref m ⟨b, k⟩ = Run.ofOption blk[k]?) (rest : List OpCode) :
    ∀ (pre : List OpCode), blk = pre ++ rest → codeOK (instrsOf rest) →
      (∀ op ∈ rest, op.alternative = none) →
      Rep m (Trie.linear b pre.length (instrsOf rest)) (some ⟨b, pre.length⟩) := by
  induction rest with
  | nil => intro pre _ h _; simp [instrsOf, codeOK] at h
  | cons op rest ih =>
    intro pre hblk hok halt
    have hop : op.alternative = none := halt op (List.mem_cons_self _ _)
    have hd : deref m ⟨b, pre.length⟩ = .ok ⟨op.instr, none⟩ := by
      rw [hm, hblk]
      have : (pre ++ op :: rest)[pre.length]? = some op := by
        rw [List.getElem?_append_right (Nat.le_refl _)]
        simp
      rw [this]
      cases op
      simp at hop
      simp [hop, Run.ofOption]
    rw [instrsOf_cons]
    cases rest with
    | nil =>
      rw [instrsOf_cons] at hok
      obtain ⟨r, hr⟩ := (codeOK_single op.instr).1 hok
      simp only [instrsOf, List.map_nil, Trie.linear, hr, Instruction.terminal, if_true]
      refine ⟨rfl, none, by rw [← hr]; exact hd, rfl, fun q1 h => by simp at h, ?_⟩
      simp only [Instruction.terminal, if_true, true_and]
      rw [hm, hblk]
      have : (pre ++ [op])[pre.length + 1]? = none := by simp
      rw [this]
      rfl
    | cons op2 rest =>
      rw [instrsOf_cons, instrsOf_cons] at hok
      obtain ⟨hp, hrest⟩ := (codeOK_cons_cons _ _ _).1 hok
      obtain ⟨hnt, _, _, _⟩ := plain_not_terminal _ hp
      have hl : Trie.linear b pre.length (op.instr :: instrsOf (op2 :: rest))
          = .node ⟨b, pre.length⟩ op.instr
              (Trie.linear b (pre.length + 1) (instrsOf (op2 :: rest))) .nil := by
        simp [Trie.linear, hnt, instrsOf]
      rw [hl]
      refine ⟨rfl, none, hd, rfl, fun q1 h => by simp at h, ?_⟩
      simp only [hnt, Bool.false_eq_true, if_false]
      have := ih (pre ++ [op]) (by rw [hblk]; simp) (by rw [instrsOf_cons]; exact hrest)
        (fun o ho => halt o (List.mem_cons_of_mem _ ho))
      simp only [List.length_append, List.length_singleton] at this
      exact this

mutual
theorem compArg_plain (t : TermList) (st : VarMap × Nat) :
    ∀ i ∈ (compArg t st).1, i.plain = true := by
  cases t with
  | var v =>
    simp only [compArg]
    cases hl : st.1.lookup v with
    | none => dsimp only; simp [Instruction.plain]
    | some k => dsimp only; simp [Instruction.plain]
  | term f args =>
    simp only [compArg]
    intro i hi
    rcases List.mem_cons.1 hi with hi | hi
    · subst hi; rfl
    · exact compArgs_plain args st i hi
theorem compArgs_plain (ts : List TermList) (st : VarMap × Nat) :
    ∀ i ∈ (compArgs ts st).1, i.plain = true := by
  cases ts with
  | nil => simp [compArgs]
  | cons t ts =>
    simp only [compArgs]
    intro i hi
    rcases List.mem_append.1 hi with hi | hi
    · exact compArg_plain t st i hi
    · exact compArgs_plain ts _ i hi
end

theorem codeOK_append_success (body : List Instruction) (r : Nat)
    (h : ∀ i ∈ body, i.plain = true) : codeOK (body ++ [.SUCCESS r]) := by
  induction body with
  | nil => simp [codeOK]
  | cons i body ih =>
    have ih1 := ih (fun x hx => h x (List.mem_cons_of_mem _ hx))
    cases hb : body ++ [Instruction.SUCCESS r] with
    | nil => simp at hb
    | cons i2 rest2 =>
      rw [List.cons_append, hb, codeOK_cons_cons, ← hb]
      exact ⟨h i (List.mem_cons_self _ _), ih1⟩

theorem patternCode_ok (p : TermList) : codeOK (patternCode p) :=
  codeOK_append_success _ 0 (compArg_plain p ([], 0))

theorem compile_tree (tree : CodeTree) (p : TermList) :
    (TermCodeTree.compile tree p []).2.mem = tree.mem ∧
    (TermCodeTree.compile tree p []).2._data = tree._data ∧
    (TermCodeTree.compile tree p []).2._maxVarCnt = max tree._maxVarCnt (patternVarCnt p) := by
  have hv : ∀ (n : Nat), ((if n > tree._maxVarCnt then { tree with _maxVarCnt := n } else tree).mem
      = tree.mem) ∧ ((if n > tree._maxVarCnt then { tree with _maxVarCnt := n } else tree)._data
      = tree._data) ∧ ((if n > tree._maxVarCnt then { tree with _maxVarCnt := n } else tree)._maxVarCnt
      = max tree._maxVarCnt n) := by
    intro n
    by_cases h : n > tree._maxVarCnt
    · simp only [h, if_true, true_and]
      omega
    · simp only [h, if_false, true_and]
      omega
  cases p with
  | var v =>
    have : patternVarCnt (.var v) = 1 := by simp [patternVarCnt, compArg]
    rw [this]
    exact hv 1
  | term f args =>
    have : patternVarCnt (.term f args) = (compArgs args ([], 0)).2.2 := by
      simp [patternVarCnt, compArg]
    rw [this]
    have h2 : (CodeTree.compile f args [] [] 0).2.2 = (compArgs args ([], 0)).2.2 := by
      simp only [CodeTree.compile]
      rw [foldl_compileStep_code, fold_compArgs]
    have := hv (compArgs args ([], 0)).2.2
    simp only [TermCodeTree.compile, h2]
    exact this

theorem instrsOf_map_mk0 (l : List Instruction) : instrsOf (l.map OpCode.mk0) = l := by
  simp [instrsOf, OpCode.mk0, Function.comp_def]

theorem setAlternative_length (mem : List CodeBlock) (q new : Ptr) :
    (setAlternative mem q new).length = mem.length := by
  simp [setAlternative]

end Indexing


namespace Indexing

open Kernel

theorem mk0_alt (l : List Instruction) : ∀ op ∈ l.map OpCode.mk0, op.alternative = none := by
  intro op hop
  obtain ⟨i, _, hi⟩ := List.mem_map.1 hop
  rw [← hi]
  rfl

theorem treeInv_perm (tree : CodeTree) (ps qs : List TermList) (t : Trie) (h : ps.Perm qs)
    (hinv : TreeInv tree ps t) : TreeInv tree qs t := by
  obtain ⟨h1, h2⟩ := hinv
  refine ⟨fun p hp => h1 p (h.mem_iff.2 hp), ?_⟩
  cases hd : tree._data with
  | none =>
    rw [hd] at h2
    simp only [] at h2 ⊢
    obtain ⟨hps, ht⟩ := h2
    subst hps
    exact ⟨h.nil_eq.symm, ht⟩
  | some root =>
    rw [hd] at h2
    simp only [] at h2 ⊢
    obtain ⟨a1, a2, a3, a4, a5, a6⟩ := h2
    exact ⟨a1, a2, a3, a4, a5, a6.trans (h.map _)⟩

/-- Inserting a pattern keeps the invariant of the tree; the insertion goes
through whenever the code of the pattern is not yet in the tree, and the only
fault it can end in is an access out of bounds, which happens only when the
code is already there. -/
theorem insert_inv (tree : CodeTree) (ps : List TermList) (t : Trie) (p : TermList)
    (hinv : TreeInv tree ps t) :
    (∀ tree1, TermCodeTree.insert tree p = .ok tree1 →
      ∃ t1, TreeInv tree1 (p :: ps) t1 ∧ tree1._data ≠ none) ∧
    (patternCode p ∉ ps.map patternCode → ∃ tree1, TermCodeTree.insert tree p = .ok tree1) ∧
    (∀ f, TermCodeTree.insert tree p = .fault f →
      f = .outOfBounds ∧ patternCode p ∈ ps.map patternCode) := by
  obtain ⟨hmax, hshape⟩ := hinv
  obtain ⟨hc1, hc2, hc3⟩ := compile_tree tree p
  have hcode := compile_code tree p
  have hok := patternCode_ok p
  have hvar : ∀ q ∈ p :: ps, patternVarCnt q ≤ max tree._maxVarCnt (patternVarCnt p) := by
    intro q hq
    rcases List.mem_cons.1 hq with hq | hq
    · subst hq; exact Nat.le_max_right _ _
    · exact Nat.le_trans (hmax q hq) (Nat.le_max_left _ _)
  unfold TermCodeTree.insert
  simp only []
  unfold CodeTree.incorporate
  rw [hc2, hcode, hc1]
  cases hd : tree._data with
  | none =>
    rw [hd] at hshape
    simp only [] at hshape ⊢
    obtain ⟨hps, _⟩ := hshape
    subst hps
    have hbb : CodeTree.buildBlock ((patternCode p).map OpCode.mk0)
        ((patternCode p).map OpCode.mk0).length = .ok ((patternCode p).map OpCode.mk0) := by
      have := buildBlock_suffix [] ((patternCode p).map OpCode.mk0)
        (by simpa using mk0_alt (patternCode p))
      simpa using this
    rw [hbb]
    simp only [Run.ok.injEq, reduceCtorEq, false_implies, implies_true, and_true,
      List.map_nil, List.not_mem_nil, not_false_eq_true, true_implies, exists_eq']
    intro tree1 htree
    subst htree
    refine ⟨Trie.linear tree.mem.length 0 (patternCode p), ⟨?_, ?_⟩, by simp⟩
    · intro q hq
      simp only [hc3]
      exact hvar q hq
    · simp only []
      obtain ⟨l1, l2, l3, _⟩ := linear_shaped tree.mem.length (patternCode p) 0 hok
      obtain ⟨l5, l6⟩ := linear_ptrs tree.mem.length (patternCode p) 0
      refine ⟨?_, l1, l2, ?_, l6, ?_⟩
      · have := rep_linear_gen (tree.mem ++ [(patternCode p).map OpCode.mk0]) tree.mem.length
          ((patternCode p).map OpCode.mk0) (fun k => deref_append_new _ _ k)
          ((patternCode p).map OpCode.mk0) [] (by simp)
          (by rw [instrsOf_map_mk0]; exact hok) (mk0_alt _)
        rw [instrsOf_map_mk0] at this
        exact this
      · intro x hx
        rw [(l5 x hx).1]
        simp
      · rw [l3]
        simp
  | some root =>
    rw [hd] at hshape
    simp only [] at hshape ⊢
    obtain ⟨hrep, hsh, hto, hrange, hnd, hperm⟩ := hshape
    have hne : t ≠ .nil := by
      intro h
      subst h
      simp [Rep] at hrep
    cases hops : (patternCode p).map OpCode.mk0 with
    | nil =>
      have := patternCode_ne_nil p
      simp at hops
      exact absurd hops this
    | cons c rest =>
      have hinstr : instrsOf (c :: rest) = patternCode p := by
        rw [← hops, instrsOf_map_mk0]
      have hI := incSpec_all tree.mem (c :: rest) t ⟨root, 0⟩ c rest [] (tree.mem.length + 1)
        hrep hsh hrange hnd (by rw [hinstr]; exact hok) (by simp)
        (by rw [← hops]; exact mk0_alt _) (by simp)
      rw [incorporateLoop_cons]
      rw [hinstr] at hI
      rcases hI with ⟨h1, h2⟩ | ⟨t1, q, blk, h1, h2, h3, h4⟩
      · rw [h2]
        have hmem := insert_none tree.mem.length t (patternCode p) hok hsh hne h1
        have hmem2 : patternCode p ∈ ps.map patternCode := hperm.mem_iff.1 hmem
        refine ⟨fun tree1 h => by simp at h, fun h => absurd hmem2 h, fun f hf => ?_⟩
        simp only [Run.fault.injEq] at hf
        exact ⟨hf.symm, hmem2⟩
      · rw [h3]
        simp only [Run.ok.injEq, reduceCtorEq, false_implies, implies_true, and_true, exists_eq']
        intro tree1 htree
        subst htree
        obtain ⟨k1, k2, k3, ⟨q2, k4⟩, ⟨l, k5, k6, k7⟩⟩ :=
          insert_some tree.mem.length t (patternCode p) t1 hok hsh hto h1
        refine ⟨t1, ⟨?_, ?_⟩, by simp [hd]⟩
        · intro x hx
          simp only [hc3]
          exact hvar x hx
        · simp only [hd]
          refine ⟨h4, k1, k2, ?_, ?_, ?_⟩
          · intro x hx
            rw [setAlternative_length, List.length_append, List.length_singleton]
            rcases List.mem_append.1 (k5.mem_iff.1 hx) with hx | hx
            · have := hrange x hx
              omega
            · rw [k6 x hx]
              omega
          · rw [k5.nodup_iff, List.nodup_append]
            refine ⟨hnd, k7, ?_⟩
            intro x hx1 hx2
            have := hrange x hx1
            rw [k6 x hx2] at this
            omega
          · refine (k4.map Prod.fst).trans ?_
            simp only [List.map_append, List.map_cons, List.map_nil]
            refine (List.perm_append_comm).trans ?_
            simp only [List.singleton_append]
            exact List.Perm.cons _ hperm

theorem treeInv_empty : TreeInv CodeTree.empty [] .nil := by
  refine ⟨fun p hp => by simp at hp, ?_⟩
  simp [CodeTree.empty]

/-- Successful insertions keep the invariant. -/
theorem insertAll_inv (qs : List TermList) :
    ∀ (tree : CodeTree) (ps : List TermList) (t : Trie) (tree1 : CodeTree),
      TreeInv tree ps t → TermCodeTree.insertAll tree qs = .ok tree1 →
      ∃ t1, TreeInv tree1 (qs ++ ps) t1 ∧ (qs ≠ [] → tree1._data ≠ none) := by
  induction qs with
  | nil =>
    intro tree ps t tree1 hinv h
    simp only [TermCodeTree.insertAll, Run.ok.injEq] at h
    subst h
    exact ⟨t, hinv, fun h => absurd rfl h⟩
  | cons q qs ih =>
    intro tree ps t tree1 hinv h
    simp only [TermCodeTree.insertAll] at h
    cases hins : TermCodeTree.insert tree q with
    | fault f => rw [hins] at h; simp at h
    | ok tree2 =>
      rw [hins] at h
      simp only [] at h
      obtain ⟨t2, hinv2, hd2⟩ := (insert_inv tree ps t q hinv).1 tree2 hins
      obtain ⟨t3, hinv3, _⟩ := ih tree2 (q :: ps) t2 tree1 hinv2 h
      refine ⟨t3, treeInv_perm tree1 _ _ t3 ?_ hinv3, fun _ => ?_⟩
      · simp only [List.cons_append]
        exact List.perm_middle
      · intro hnone
        obtain ⟨_, hsh⟩ := hinv3
        rw [hnone] at hsh
        simp at hsh

/-- Patterns with pairwise distinct codes can all be inserted. -/
theorem insertAll_ok (qs : List TermList) :
    ∀ (tree : CodeTree) (ps : List TermList) (t : Trie),
      TreeInv tree ps t → ((qs ++ ps).map patternCode).Nodup →
      ∃ tree1, TermCodeTree.insertAll tree qs = .ok tree1 := by
  induction qs with
  | nil => intro tree ps t _ _; exact ⟨tree, rfl⟩
  | cons q qs ih =>
    intro tree ps t hinv hnd
    simp only [List.cons_append, List.map_cons, List.nodup_cons] at hnd
    have hq : patternCode q ∉ ps.map patternCode := by
      intro h
      apply hnd.1
      simp only [List.map_append, List.mem_append]
      exact Or.inr h
    obtain ⟨tree2, hins⟩ := (insert_inv tree ps t q hinv).2.1 hq
    obtain ⟨t2, hinv2, _⟩ := (insert_inv tree ps t q hinv).1 tree2 hins
    have hnd2 : ((qs ++ q :: ps).map patternCode).Nodup := by
      have : (qs ++ q :: ps).Perm (q :: (qs ++ ps)) := List.perm_middle
      rw [(this.map patternCode).nodup_iff]
      simp only [List.map_cons, List.nodup_cons]
      exact hnd
    obtain ⟨tree1, h1⟩ := ih tree2 (q :: ps) t2 hinv2 hnd2
    exact ⟨tree1, by simp only [TermCodeTree.insertAll, hins, h1]⟩

end Indexing


namespace Indexing

open Kernel

theorem compiledCode_eq (p : TermList) : compiledCode p = patternCode p := by
  unfold compiledCode
  rw [compile_code, instrsOf_map_mk0]

theorem paths_fst_ne_nil (t : Trie) : ∀ sq ∈ t.paths, sq.1 ≠ [] := by
  induction t with
  | nil => intro sq h; simp [Trie.paths] at h
  | node p i c a _ iha =>
    intro sq h
    obtain ⟨X, hX⟩ := paths_node_split p i c
    cases i with
    | SUCCESS r =>
      simp only [Trie.paths, List.singleton_append, List.mem_cons] at h
      rcases h with h | h
      · rw [h]; simp
      · exact iha sq h
    | FAIL =>
      simp only [Trie.paths, List.nil_append] at h
      exact iha sq h
    | NEXT_LIT =>
      simp only [Trie.paths, List.mem_append, List.mem_map] at h
      rcases h with ⟨s, _, hs⟩ | h
      · rw [← hs]; simp
      · exact iha sq h
    | CHECK_FUN f =>
      simp only [Trie.paths, List.mem_append, List.mem_map] at h
      rcases h with ⟨s, _, hs⟩ | h
      · rw [← hs]; simp
      · exact iha sq h
    | ASSIGN_VAR f =>
      simp only [Trie.paths, List.mem_append, List.mem_map] at h
      rcases h with ⟨s, _, hs⟩ | h
      · rw [← hs]; simp
      · exact iha sq h
    | CHECK_VAR f =>
      simp only [Trie.paths, List.mem_append, List.mem_map] at h
      rcases h with ⟨s, _, hs⟩ | h
      · rw [← hs]; simp
      · exact iha sq h

/-- A path of the trie is spelled in memory from the root of the trie. -/
theorem isPath_of_paths (mem : List CodeBlock) (t : Trie) :
    ∀ (p : Ptr), Rep mem t (some p) → ∀ sq ∈ t.paths, IsPath mem p sq.1 sq.2 := by
  induction t with
  | nil => intro p h; simp [Rep] at h
  | node p0 i c a ihc iha =>
    intro p hrep sq hsq
    obtain ⟨hp, alt, hd, hra, _, hcond⟩ := hrep
    have hp1 : p = p0 := Option.some.inj hp
    subst hp1
    have halt : ∀ sq ∈ a.paths, IsPath mem p sq.1 sq.2 := by
      intro sq hsq
      cases a with
      | nil => simp [Trie.paths] at hsq
      | node p2 i2 c2 a2 =>
        have h2 : alt = some p2 := hra.1
        subst h2
        exact IsPath.alt p p2 i sq.1 sq.2 hd (iha p2 hra sq hsq)
    have hchild : i.terminal = false → ∀ sq ∈ c.paths, IsPath mem p (i :: sq.1) sq.2 := by
      intro hnt sq hsq
      simp only [hnt, Bool.false_eq_true, if_false] at hcond
      exact IsPath.step p i alt sq.1 sq.2 hd (paths_fst_ne_nil c sq hsq) (ihc _ hcond sq hsq)
    cases i with
    | SUCCESS r =>
      simp only [Trie.paths, List.singleton_append, List.mem_cons] at hsq
      rcases hsq with h | h
      · rw [h]; exact IsPath.last p _ alt hd
      · exact halt sq h
    | FAIL =>
      simp only [Trie.paths, List.nil_append] at hsq
      exact halt sq hsq
    | NEXT_LIT =>
      simp only [Trie.paths, List.mem_append, List.mem_map] at hsq
      rcases hsq with ⟨s, hs1, hs⟩ | h
      · rw [← hs]; exact hchild rfl s hs1
      · exact halt sq h
    | CHECK_FUN f =>
      simp only [Trie.paths, List.mem_append, List.mem_map] at hsq
      rcases hsq with ⟨s, hs1, hs⟩ | h
      · rw [← hs]; exact hchild rfl s hs1
      · exact halt sq h
    | ASSIGN_VAR f =>
      simp only [Trie.paths, List.mem_append, List.mem_map] at hsq
      rcases hsq with ⟨s, hs1, hs⟩ | h
      · rw [← hs]; exact hchild rfl s hs1
      · exact halt sq h
    | CHECK_VAR f =>
      simp only [Trie.paths, List.mem_append, List.mem_map] at hsq
      rcases hsq with ⟨s, hs1, hs⟩ | h
      · rw [← hs]; exact hchild rfl s hs1
      · exact halt sq h

/-- The final instructions of the paths are distinct nodes of the trie. -/
theorem paths_snd_sublist (t : Trie) : (t.paths.map Prod.snd).Sublist t.ptrs := by
  induction t with
  | nil => simp [Trie.paths, Trie.ptrs]
  | node p i c a ihc iha =>
    have hother : ((c.paths.map (fun sq => (i :: sq.1, sq.2)) ++ a.paths).map Prod.snd).Sublist
        (p :: (c.ptrs ++ a.ptrs)) := by
      rw [List.map_append, List.map_map]
      have : (Prod.snd ∘ fun sq : List Instruction × Ptr => (i :: sq.1, sq.2)) = Prod.snd := by
        funext sq; rfl
      rw [this]
      exact List.Sublist.cons _ (List.Sublist.append ihc iha)
    cases i with
    | SUCCESS r =>
      simp only [Trie.paths, Trie.ptrs, List.singleton_append, List.map_cons]
      exact List.Sublist.cons₂ _ (iha.trans (List.sublist_append_right _ _))
    | FAIL =>
      simp only [Trie.paths, Trie.ptrs, List.nil_append]
      exact List.Sublist.cons _ (iha.trans (List.sublist_append_right _ _))
    | NEXT_LIT => exact hother
    | CHECK_FUN f => exact hother
    | ASSIGN_VAR f => exact hother
    | CHECK_VAR f => exact hother

theorem treeInv_paths (tree : CodeTree) (ps : List TermList) (t : Trie) (root : Nat)
    (hinv : TreeInv tree ps t) (hroot : tree._data = some root) :
    Rep tree.mem t (some ⟨root, 0⟩) ∧ t.shaped ∧ t.termOnly ∧
      (∀ x ∈ t.ptrs, x.blk < tree.mem.length) ∧ t.ptrs.Nodup ∧
      (t.paths.map Prod.fst).Perm (ps.map patternCode) ∧
      (∀ p ∈ ps, patternVarCnt p ≤ tree._maxVarCnt) := by
  obtain ⟨h1, h2⟩ := hinv
  rw [hroot] at h2
  simp only [] at h2
  obtain ⟨a1, a2, a3, a4, a5, a6⟩ := h2
  exact ⟨a1, a2, a3, a4, a5, a6, h1⟩

theorem paths_pattern (ps : List TermList) (t : Trie)
    (hperm : (t.paths.map Prod.fst).Perm (ps.map patternCode)) :
    (∀ sq ∈ t.paths, ∃ p ∈ ps, sq.1 = patternCode p) ∧
    (∀ p ∈ ps, ∃ q, (patternCode p, q) ∈ t.paths) := by
  constructor
  · intro sq hsq
    have : sq.1 ∈ t.paths.map Prod.fst := List.mem_map.2 ⟨sq, hsq, rfl⟩
    obtain ⟨p, hp, hpe⟩ := List.mem_map.1 (hperm.mem_iff.1 this)
    exact ⟨p, hp, hpe.symm⟩
  · intro p hp
    have : patternCode p ∈ ps.map patternCode := List.mem_map.2 ⟨p, hp, rfl⟩
    obtain ⟨sq, hsq, hsqe⟩ := List.mem_map.1 (hperm.mem_iff.2 this)
    exact ⟨sq.2, by rw [← hsqe]; exact hsq⟩

/-- The exhaustive run of a query on a tree that holds the patterns `ps`:
it ends without a fault after interpreting each instruction at most once, its
matches are the final instructions of the codes that execute successfully on
the query, in the order of the tree, and every match is sound. -/
theorem enumerate (tree : CodeTree) (ps : List TermList) (t : Trie) (q : TermList) (root : Nat)
    (hinv : TreeInv tree ps t) (hroot : tree._data = some root)
    (hcompat : ∀ p ∈ ps, shapeCompat p q) :
    ∃ l tr,
      (∀ fuel, drive tree.mem (fuel + tr.length)
        ⟨false, 0, ⟨root, 0⟩, [], List.replicate tree._maxVarCnt none, FlatTerm.create q⟩
          = (l, tr, none)) ∧
      tr.Sublist t.ptrs ∧
      l.map Prod.fst = ((t.paths.filter (fun sq => succeeds (execCode (FlatTerm.create q) sq.1 0
        (List.replicate tree._maxVarCnt none)))).map Prod.snd) ∧
      (∀ x ∈ l, GoodMatch tree root ps q x) := by
  obtain ⟨hrep, hsh, hto, hrange, hnd, hperm, hmax⟩ := treeInv_paths tree ps t root hinv hroot
  obtain ⟨hpp, _⟩ := paths_pattern ps t hperm
  have hspec := runSpec_all (FlatTerm.create q) t 0 (List.replicate tree._maxVarCnt none) 0 hto hsh
    (fun sq hsq => by
      obtain ⟨p, _, hpe⟩ := hpp sq hsq
      rw [hpe]; exact patternCode_disc p)
    (fun sq hsq => by
      obtain ⟨p, hp, hpe⟩ := hpp sq hsq
      rw [hpe]
      rcases patternCode_exec p q (hcompat p hp) (List.replicate tree._maxVarCnt none)
        (by simpa using hmax p hp) with ⟨h1, _⟩ | ⟨b1, h1, _⟩
      · exact ⟨_, h1⟩
      · exact ⟨_, h1⟩)
  obtain ⟨b2, hrun, _, hmap, hall⟩ := hspec _ (agreeBelow_refl _ _)
  have hdrive := driveOK_all tree.mem (FlatTerm.create q) t ⟨root, 0⟩ 0
    (List.replicate tree._maxVarCnt none) [] hrep
  refine ⟨(Trie.run (FlatTerm.create q) t 0 (List.replicate tree._maxVarCnt none)).1,
    (Trie.run (FlatTerm.create q) t 0 (List.replicate tree._maxVarCnt none)).2.1, ?_,
    run_trace_sublist _ t 0 _, hmap, ?_⟩
  · intro fuel
    rw [hdrive fuel]
    simp [afterRun, hrun, prepend, resume]
  · intro x hx
    obtain ⟨s, b0, tp1, hm, hab0, hex0⟩ := hall x hx
    obtain ⟨p, hp, hpe⟩ := hpp _ hm
    simp only [] at hpe
    refine ⟨p, hp, ?_, ?_⟩
    · rw [compiledCode_eq, ← hpe]
      exact isPath_of_paths tree.mem t _ hrep _ hm
    · rw [hpe] at hex0
      rcases patternCode_exec p q (hcompat p hp) b0
        (by rw [hab0.1]; simpa using hmax p hp) with ⟨h1, _⟩ | ⟨b1, h1, h2⟩
      · rw [h1] at hex0; simp at hex0
      · rw [h1] at hex0
        simp only [Run.ok.injEq, Option.some.injEq, Prod.mk.injEq] at hex0
        rw [← hex0.2]
        exact h2

end Indexing


namespace Indexing

open Kernel

theorem afterInstr_res (res : Nat) (r : Bool × EContext) :
    .ok (TermCodeTree.afterInstr res r) = LoopStep.withRes res (.ok (TermCodeTree.afterInstr 0 r)) := by
  unfold TermCodeTree.afterInstr
  cases r.1 with
  | true => rfl
  | false =>
    simp only [Bool.false_eq_true, if_false]
    cases r.2.backtrack <;> rfl

theorem loopBody_res (mem : List CodeBlock) (ctx : EContext) (res : Nat) :
    TermCodeTree.loopBody mem ctx res = LoopStep.withRes res (TermCodeTree.loopBody mem ctx 0) := by
  cases hd : deref mem ctx.op with
  | fault e => simp [TermCodeTree.loopBody, hd, LoopStep.withRes]
  | ok op =>
    obtain ⟨i, alt⟩ := op
    rw [loopBody_eq mem ctx res i alt hd, loopBody_eq mem ctx 0 i alt hd]
    cases i with
    | SUCCESS r => rfl
    | NEXT_LIT => rfl
    | FAIL => simp only [loopBodySpec, execInstr]; exact afterInstr_res res _
    | CHECK_FUN f =>
      simp only [loopBodySpec]
      cases execInstr ctx.ft (.CHECK_FUN f) ctx.tp ctx.bindings with
      | fault e => rfl
      | ok o =>
        cases o with
        | none => exact afterInstr_res res _
        | some v => exact afterInstr_res res _
    | ASSIGN_VAR f =>
      simp only [loopBodySpec]
      cases execInstr ctx.ft (.ASSIGN_VAR f) ctx.tp ctx.bindings with
      | fault e => rfl
      | ok o =>
        cases o with
        | none => exact afterInstr_res res _
        | some v => exact afterInstr_res res _
    | CHECK_VAR f =>
      simp only [loopBodySpec]
      cases execInstr ctx.ft (.CHECK_VAR f) ctx.tp ctx.bindings with
      | fault e => rfl
      | ok o =>
        cases o with
        | none => exact afterInstr_res res _
        | some v => exact afterInstr_res res _

theorem nextLoop_res (mem : List CodeBlock) (k : Nat) :
    ∀ (ctx : EContext) (res : Nat),
      TermCodeTree.nextLoop mem k ctx res = withRes res (TermCodeTree.nextLoop mem k ctx 0) := by
  induction k with
  | zero => intro ctx res; rfl
  | succ k ih =>
    intro ctx res
    simp only [TermCodeTree.nextLoop]
    rw [loopBody_res mem ctx res]
    cases hb : TermCodeTree.loopBody mem ctx 0 with
    | fault f => rfl
    | ok s =>
      cases s with
      | ret b r c =>
        cases b with
        | false => rfl
        | true => rfl
      | again c =>
        simp only [LoopStep.withRes]
        exact ih c res

/-- A call of the loop of `next` that returns true, with whatever fuel and
whatever `res`, returns the first match of the exhaustive run. -/
theorem next_step (tree : CodeTree) (k fuel res r : Nat) (c c1 : EContext)
    (he : (drive tree.mem k c).2.2 ≠ some .outOfFuel)
    (h : TermCodeTree.nextLoop tree.mem fuel c res = .ok (true, r, c1)) :
    ∃ x l1, (drive tree.mem k c).1 = x :: l1 ∧ c1.op = x.1 ∧ c1.bindings = x.2 ∧
      c1.fresh = c.fresh ∧ RestOf tree c1 k l1 (drive tree.mem k c).2.2 := by
  have h0 : TermCodeTree.nextLoop tree.mem fuel c 0 = .ok (true, r, c1) := by
    rw [nextLoop_res] at h
    cases hn : TermCodeTree.nextLoop tree.mem fuel c 0 with
    | fault f => rw [hn] at h; simp [withRes] at h
    | ok v =>
      obtain ⟨b, r2, c2⟩ := v
      rw [hn] at h
      cases b with
      | false => simp [withRes] at h
      | true => simpa [withRes] using h
  have hmono1 := nextLoop_mono tree.mem fuel c 0 (by rw [h0]; simp) k
  obtain ⟨h1, h2⟩ := nextLoop_of_drive tree.mem k c he
  cases hl : (drive tree.mem k c).1 with
  | nil =>
    exfalso
    obtain ⟨h3, h4⟩ := h1 hl
    cases hde : (drive tree.mem k c).2.2 with
    | none =>
      obtain ⟨c2, hc2⟩ := h3 hde
      have hmono2 := nextLoop_mono tree.mem k c 0 (by rw [hc2]; simp) fuel
      rw [Nat.add_comm, hmono1, h0, hc2] at hmono2
      simp at hmono2
    | some f =>
      have hf := h4 f hde
      have hfne : f ≠ .outOfFuel := by
        intro hf2; apply he; rw [hde, hf2]
      have hmono2 := nextLoop_mono tree.mem k c 0 (by rw [hf]; simpa using hfne) fuel
      rw [Nat.add_comm, hmono1, h0, hf] at hmono2
      simp at hmono2
  | cons x l1 =>
    obtain ⟨r2, c2, hn2, ho, hb, hfr, hrest⟩ := h2 x l1 hl
    have hmono2 := nextLoop_mono tree.mem k c 0 (by rw [hn2]; simp) fuel
    rw [Nat.add_comm, hmono1, h0, hn2] at hmono2
    simp only [Run.ok.injEq, Prod.mk.injEq, true_and] at hmono2
    obtain ⟨_, hc⟩ := hmono2
    subst hc
    exact ⟨x, l1, rfl, ho, hb, hfr, hrest⟩

/-- A call of `next` that returns true on a context whose remaining run is
known returns the first of the remaining matches. -/
theorem next_rest (tree : CodeTree) (k fuel res r : Nat) (c c1 : EContext)
    (l : List (Ptr × Bindings)) (e : Option Fault) (hf : c.fresh = false)
    (he : e ≠ some .outOfFuel) (hrest : RestOf tree c k l e)
    (h : TermCodeTree.next tree fuel c res = .ok (true, r, c1)) :
    ∃ x l1, l = x :: l1 ∧ c1.op = x.1 ∧ c1.bindings = x.2 ∧ c1.fresh = false ∧
      RestOf tree c1 k l1 e := by
  unfold TermCodeTree.next at h
  simp only [hf, Bool.false_eq_true, if_false] at h
  rcases hrest with ⟨hA, _, _⟩ | ⟨c2, hc2, hd, hde⟩
  · rw [hA] at h; simp at h
  · rw [hc2] at h
    simp only [] at h
    have hf2 : c2.fresh = false := (backtrack_fresh c c2 hc2).trans hf
    rw [setFresh_eq c2 hf2] at h
    obtain ⟨x, l1, h1, h2, h3, h4, h5⟩ := next_step tree k fuel res r c2 c1 (by rw [hde]; exact he) h
    rw [hd] at h1
    rw [hde] at h5
    exact ⟨x, l1, h1, h2, h3, h4.trans hf2, h5⟩

end Indexing


namespace Indexing

open Kernel

theorem eq_of_snd_eq {α β : Type} (l : List (α × β)) (h : (l.map Prod.snd).Nodup) (a b : α × β)
    (ha : a ∈ l) (hb : b ∈ l) (hab : a.2 = b.2) : a = b :=
  List.inj_on_of_nodup_map h ha hb hab

theorem eq_of_fst_eq {α β : Type} (l : List (α × β)) (h : (l.map Prod.fst).Nodup) (a b : α × β)
    (ha : a ∈ l) (hb : b ∈ l) (hab : a.1 = b.1) : a = b :=
  List.inj_on_of_nodup_map h ha hb hab

theorem init_ok (tree : CodeTree) (q : TermList) (root : Nat) (h : tree._data = some root) :
    TermCodeTree.init tree q =
      .ok ⟨true, 0, ⟨root, 0⟩, [], List.replicate tree._maxVarCnt none, FlatTerm.create q⟩ := by
  simp [TermCodeTree.init, h]

/-- The analysis of a query on a tree built from patterns with pairwise
distinct codes. -/
theorem retrieval (tree : CodeTree) (ps : List TermList) (t : Trie) (q : TermList) (root : Nat)
    (hinv : TreeInv tree ps t) (hroot : tree._data = some root)
    (hcompat : ∀ p ∈ ps, shapeCompat p q) (hnd : (ps.map patternCode).Nodup) :
    ∃ (loc : TermList → Ptr) (l : List Ptr) (fuel : Nat),
      (∀ p ∈ ps, IsPath tree.mem ⟨root, 0⟩ (compiledCode p) (loc p)) ∧
      (∀ p1 ∈ ps, ∀ p2 ∈ ps, loc p1 = loc p2 → p1 = p2) ∧
      (∀ n, l.length < n →
        TermCodeTree.collect tree fuel n
          ⟨true, 0, ⟨root, 0⟩, [], List.replicate tree._maxVarCnt none, FlatTerm.create q⟩
            = (l, .exhausted)) ∧
      l.Nodup ∧
      (∀ p ∈ ps, (loc p ∈ l ↔ p.generalises q)) ∧
      (∀ x ∈ l, ∃ p ∈ ps, loc p = x) := by
  classical
  obtain ⟨hrep, hsh, hto, hrange, hndp, hperm, hmax⟩ := treeInv_paths tree ps t root hinv hroot
  obtain ⟨hpp1, hpp2⟩ := paths_pattern ps t hperm
  obtain ⟨l0, tr, hdrive, _, hmap, _⟩ := enumerate tree ps t q root hinv hroot hcompat
  have hsnd : (t.paths.map Prod.snd).Nodup := (paths_snd_sublist t).nodup hndp
  have hfst : (t.paths.map Prod.fst).Nodup := hperm.nodup_iff.2 hnd
  let loc : TermList → Ptr := fun p =>
    if h : ∃ x, (patternCode p, x) ∈ t.paths then Classical.choose h else ⟨0, 0⟩
  have hloc : ∀ p ∈ ps, (patternCode p, loc p) ∈ t.paths := by
    intro p hp
    have h := hpp2 p hp
    simp only [loc, h, dif_pos]
    exact Classical.choose_spec h
  have hsuc : ∀ p ∈ ps, (succeeds (execCode (FlatTerm.create q) (patternCode p) 0
      (List.replicate tree._maxVarCnt none)) = true ↔ p.generalises q) := fun p hp =>
    patternCode_succeeds p q (hcompat p hp) _ (by simpa using hmax p hp)
  refine ⟨loc, l0.map Prod.fst, tr.length, ?_, ?_, ?_, ?_, ?_, ?_⟩
  · intro p hp
    rw [compiledCode_eq]
    exact isPath_of_paths tree.mem t _ hrep _ (hloc p hp)
  · intro p1 hp1 p2 hp2 h12
    have := eq_of_snd_eq t.paths hsnd _ _ (hloc p1 hp1) (hloc p2 hp2) h12
    have hcode : patternCode p1 = patternCode p2 := congrArg Prod.fst this
    exact List.inj_on_of_nodup_map hnd hp1 hp2 hcode
  · intro n hn
    have hd0 := hdrive 0
    simp only [Nat.zero_add] at hd0
    have := collect_fresh_of_drive tree tr.length
      ⟨true, 0, ⟨root, 0⟩, [], List.replicate tree._maxVarCnt none, FlatTerm.create q⟩ rfl
      (by simp only []; rw [hd0]; simp) n (by simp only []; rw [hd0]; simpa using hn)
    simp only [] at this
    rw [hd0] at this
    exact this
  · rw [hmap]
    exact (List.Sublist.map _ (List.filter_sublist _)).nodup hsnd
  · intro p hp
    rw [hmap, ← hsuc p hp]
    constructor
    · intro h
      obtain ⟨sq, hsq, hsqe⟩ := List.mem_map.1 h
      obtain ⟨hsq1, hsq2⟩ := List.mem_filter.1 hsq
      have := eq_of_snd_eq t.paths hsnd _ _ hsq1 (hloc p hp) hsqe
      rw [this] at hsq2
      simpa using hsq2
    · intro h
      exact List.mem_map.2 ⟨(patternCode p, loc p),
        List.mem_filter.2 ⟨hloc p hp, by simpa using h⟩, rfl⟩
  · intro x hx
    rw [hmap] at hx
    obtain ⟨sq, hsq, hsqe⟩ := List.mem_map.1 hx
    obtain ⟨hsq1, _⟩ := List.mem_filter.1 hsq
    obtain ⟨p, hp, hpe⟩ := hpp1 sq hsq1
    refine ⟨p, hp, ?_⟩
    have := eq_of_fst_eq t.paths hfst _ _ (hloc p hp) hsq1 hpe.symm
    rw [← hsqe, ← this]

/-- Claim C1 (generalisation retrieval). Term patterns over one signature whose
compiled codes are pairwise distinct can all be inserted into the empty tree
by `compile` and `incorporate`; every pattern `p` then has its own SUCCESS
instruction `loc p` at the end of its code in the tree, and for every query
over the signature the calls of `next` on a freshly initialised context return
true at the instructions `l` and then false, where `l` has no repetition and
consists exactly of the `loc p` of the inserted patterns `p` that generalise
the query. -/
theorem C1_generalisation_retrieval (ar : Nat → Nat) (ps : List TermList) (q : TermList)
    (hne : ps ≠ []) (hps : ∀ p ∈ ps, p.wellFormed ar = true) (hq : q.wellFormed ar = true)
    (hnd : (ps.map compiledCode).Nodup) :
    ∃ tree root ctx, TermCodeTree.insertAll CodeTree.empty ps = .ok tree ∧
      tree._data = some root ∧ TermCodeTree.init tree q = .ok ctx ∧
      ∃ (loc : TermList → Ptr) (l : List Ptr) (fuel : Nat),
        (∀ p ∈ ps, IsPath tree.mem ⟨root, 0⟩ (compiledCode p) (loc p)) ∧
        (∀ p1 ∈ ps, ∀ p2 ∈ ps, loc p1 = loc p2 → p1 = p2) ∧
        (∀ n, l.length < n → TermCodeTree.collect tree fuel n ctx = (l, .exhausted)) ∧
        l.Nodup ∧
        (∀ p ∈ ps, (loc p ∈ l ↔ p.generalises q)) ∧
        (∀ x ∈ l, ∃ p ∈ ps, loc p = x) := by
  have hnd2 : (ps.map patternCode).Nodup := by
    have : ps.map compiledCode = ps.map patternCode :=
      List.map_congr_left (fun p _ => compiledCode_eq p)
    rw [← this]; exact hnd
  obtain ⟨tree, htree⟩ := insertAll_ok ps CodeTree.empty [] .nil treeInv_empty (by simpa using hnd2)
  obtain ⟨t, hinv, hdata⟩ := insertAll_inv ps CodeTree.empty [] .nil tree treeInv_empty htree
  simp only [List.append_nil] at hinv
  cases hroot : tree._data with
  | none => exact absurd hroot (hdata hne)
  | some root =>
    refine ⟨tree, root, _, htree, hroot, init_ok tree q root hroot, ?_⟩
    exact retrieval tree ps t q root hinv hroot
      (fun p hp => shapeCompat_of_wf ar p q (hps p hp) hq) hnd2

/-- Witness of **C1**: the patterns f(X), f(a), g(Y) and the query f(a), over
the signature in which f and g are unary and a is a constant. -/
theorem C1_generalisation_retrieval_witness :
    ([TermList.term 0 [.var 7], .term 0 [.term 1 []], .term 2 [.var 3]] ≠ []) ∧
    (∀ p ∈ [TermList.term 0 [.var 7], .term 0 [.term 1 []], .term 2 [.var 3]],
      p.wellFormed (fun f => if f = 1 then 0 else 1) = true) ∧
    ((TermList.term 0 [.term 1 []]).wellFormed (fun f => if f = 1 then 0 else 1) = true) ∧
    (([TermList.term 0 [.var 7], .term 0 [.term 1 []], .term 2 [.var 3]].map compiledCode).Nodup) ∧
    ∃ tree root ctx,
      TermCodeTree.insertAll CodeTree.empty
        [TermList.term 0 [.var 7], .term 0 [.term 1 []], .term 2 [.var 3]] = .ok tree ∧
      tree._data = some root ∧ TermCodeTree.init tree (.term 0 [.term 1 []]) = .ok ctx ∧
      ∃ (loc : TermList → Ptr) (l : List Ptr) (fuel : Nat),
        (∀ p ∈ [TermList.term 0 [.var 7], .term 0 [.term 1 []], .term 2 [.var 3]],
          IsPath tree.mem ⟨root, 0⟩ (compiledCode p) (loc p)) ∧
        (∀ p1 ∈ [TermList.term 0 [.var 7], .term 0 [.term 1 []], .term 2 [.var 3]],
          ∀ p2 ∈ [TermList.term 0 [.var 7], .term 0 [.term 1 []], .term 2 [.var 3]],
            loc p1 = loc p2 → p1 = p2) ∧
        (∀ n, l.length < n → TermCodeTree.collect tree fuel n ctx = (l, .exhausted)) ∧
        l.Nodup ∧
        (∀ p ∈ [TermList.term 0 [.var 7], .term 0 [.term 1 []], .term 2 [.var 3]],
          (loc p ∈ l ↔ p.generalises (.term 0 [.term 1 []]))) ∧
        (∀ x ∈ l, ∃ p ∈ [TermList.term 0 [.var 7], .term 0 [.term 1 []], .term 2 [.var 3]],
          loc p = x) :=
  ⟨by decide, by decide, by decide, by decide,
    C1_generalisation_retrieval (fun f => if f = 1 then 0 else 1)
      [TermList.term 0 [.var 7], .term 0 [.term 1 []], .term 2 [.var 3]] (.term 0 [.term 1 []])
      (by decide) (by decide) (by decide) (by decide)⟩

end Indexing


namespace Indexing

open Kernel

/-- Every context reached by calls of `next` that returned true is either the
fresh one or holds a sound match, with only sound matches still to come. -/
theorem reached_inv (tree : CodeTree) (ps : List TermList) (t : Trie) (q : TermList) (root : Nat)
    (hinv : TreeInv tree ps t) (hroot : tree._data = some root)
    (hcompat : ∀ p ∈ ps, shapeCompat p q) (c : EContext)
    (hr : Reached tree
      ⟨true, 0, ⟨root, 0⟩, [], List.replicate tree._maxVarCnt none, FlatTerm.create q⟩ c) :
    c = ⟨true, 0, ⟨root, 0⟩, [], List.replicate tree._maxVarCnt none, FlatTerm.create q⟩ ∨
    (c.fresh = false ∧ GoodMatch tree root ps q (c.op, c.bindings) ∧
      ∃ k l, RestOf tree c k l none ∧ ∀ x ∈ l, GoodMatch tree root ps q x) := by
  obtain ⟨l0, tr, hdrive, _, _, hgood⟩ := enumerate tree ps t q root hinv hroot hcompat
  have hd0 := hdrive 0
  simp only [Nat.zero_add] at hd0
  induction hr with
  | start => exact Or.inl rfl
  | call c c1 fuel res r _ hnext ih =>
    right
    rcases ih with h0 | ⟨hf, _, k, l, hrest, hl⟩
    · subst h0
      unfold TermCodeTree.next at hnext
      simp only [if_true] at hnext
      obtain ⟨x, l1, h1, h2, h3, h4, h5⟩ := next_step tree tr.length fuel res r _ c1
        (by rw [hd0]; simp) hnext
      rw [hd0] at h1 h5
      simp only [] at h1 h5
      have hx : x ∈ l0 := by rw [h1]; exact List.mem_cons_self _ _
      refine ⟨h4, ?_, tr.length, l1, h5, fun y hy => hgood y (by rw [h1]; exact List.mem_cons_of_mem _ hy)⟩
      rw [h2, h3]
      exact hgood x hx
    · obtain ⟨x, l1, h1, h2, h3, h4, h5⟩ := next_rest tree k fuel res r c c1 l none hf (by simp)
        hrest hnext
      refine ⟨h4, ?_, k, l1, h5, fun y hy => hl y (by rw [h1]; exact List.mem_cons_of_mem _ hy)⟩
      rw [h2, h3]
      exact hl x (by rw [h1]; exact List.mem_cons_self _ _)

/-- Claim C2 (soundness of a match). In a tree built from term patterns over one
signature, for a query over the signature: whenever a call of `next`, made on
the freshly initialised context or after any number of calls that returned
true, returns true, the instruction it stopped at ends the compiled code of
one of the inserted patterns, and replacing in this pattern every variable by
the binding of the slot it was compiled to gives exactly the query. -/
theorem C2_match_soundness (ar : Nat → Nat) (ps : List TermList) (q : TermList)
    (tree : CodeTree) (root : Nat) (ctx0 c c1 : EContext) (fuel res r : Nat)
    (hps : ∀ p ∈ ps, p.wellFormed ar = true) (hq : q.wellFormed ar = true)
    (htree : TermCodeTree.insertAll CodeTree.empty ps = .ok tree)
    (hroot : tree._data = some root)
    (hinit : TermCodeTree.init tree q = .ok ctx0)
    (hreach : Reached tree ctx0 c)
    (hnext : TermCodeTree.next tree fuel c res = .ok (true, r, c1)) :
    ∃ p ∈ ps, IsPath tree.mem ⟨root, 0⟩ (compiledCode p) c1.op ∧
      p.subst (bindingSubst (patternVarMap p) c1.bindings) = q := by
  obtain ⟨t, hinv, _⟩ := insertAll_inv ps CodeTree.empty [] .nil tree treeInv_empty htree
  simp only [List.append_nil] at hinv
  rw [init_ok tree q root hroot] at hinit
  simp only [Run.ok.injEq] at hinit
  subst hinit
  have hcompat : ∀ p ∈ ps, shapeCompat p q := fun p hp => shapeCompat_of_wf ar p q (hps p hp) hq
  have h1 := reached_inv tree ps t q root hinv hroot hcompat c1
    (Reached.call c c1 fuel res r hreach hnext)
  rcases h1 with h0 | ⟨_, hg, _⟩
  · exfalso
    have h2 := reached_inv tree ps t q root hinv hroot hcompat c hreach
    rcases h2 with hc | ⟨hf, _, k, l, hrest, _⟩
    · subst hc
      unfold TermCodeTree.next at hnext
      simp only [if_true] at hnext
      obtain ⟨l0, tr, hdrive, _, _, _⟩ := enumerate tree ps t q root hinv hroot hcompat
      have hd0 := hdrive 0
      simp only [Nat.zero_add] at hd0
      obtain ⟨x, l1, _, _, _, h4, _⟩ := next_step tree tr.length fuel res r _ c1
        (by rw [hd0]; simp) hnext
      rw [h0] at h4
      simp at h4
    · obtain ⟨x, l1, _, _, _, h4, _⟩ := next_rest tree k fuel res r c c1 l none hf (by simp)
        hrest hnext
      rw [h0] at h4
      simp at h4
  · exact hg

/-- Witness of **C2**: the patterns f(X), f(a), g(Y), the query f(a) and the
first call of `next`. -/
theorem C2_match_soundness_witness :
    ∃ p ∈ [TermList.term 0 [.var 7], .term 0 [.term 1 []], .term 2 [.var 3]],
      IsPath
        [[⟨.CHECK_FUN 0, some ⟨2, 0⟩⟩, ⟨.ASSIGN_VAR 0, some ⟨1, 0⟩⟩, ⟨.SUCCESS 0, none⟩],
          [⟨.CHECK_FUN 1, none⟩, ⟨.SUCCESS 0, none⟩],
          [⟨.CHECK_FUN 2, none⟩, ⟨.ASSIGN_VAR 0, none⟩, ⟨.SUCCESS 0, none⟩]]
        ⟨0, 0⟩ (compiledCode p) ⟨0, 2⟩ ∧
      p.subst (bindingSubst (patternVarMap p) [some (.term 1 [])]) = .term 0 [.term 1 []] :=
  C2_match_soundness (fun f => if f = 1 then 0 else 1)
    [TermList.term 0 [.var 7], .term 0 [.term 1 []], .term 2 [.var 3]] (.term 0 [.term 1 []])
    ⟨1, some 0,
      [[⟨.CHECK_FUN 0, some ⟨2, 0⟩⟩, ⟨.ASSIGN_VAR 0, some ⟨1, 0⟩⟩, ⟨.SUCCESS 0, none⟩],
        [⟨.CHECK_FUN 1, none⟩, ⟨.SUCCESS 0, none⟩],
        [⟨.CHECK_FUN 2, none⟩, ⟨.ASSIGN_VAR 0, none⟩, ⟨.SUCCESS 0, none⟩]]⟩
    0
    ⟨true, 0, ⟨0, 0⟩, [], [none], FlatTerm.create (.term 0 [.term 1 []])⟩
    ⟨true, 0, ⟨0, 0⟩, [], [none], FlatTerm.create (.term 0 [.term 1 []])⟩
    ⟨false, 6, ⟨0, 2⟩, [⟨3, ⟨1, 0⟩⟩, ⟨0, ⟨2, 0⟩⟩], [some (.term 1 [])],
      FlatTerm.create (.term 0 [.term 1 []])⟩
    10 0 0 (by decide) (by decide) (by decide) (by decide) (by decide) Reached.start (by decide)

/-- Claim C6 (round trip). For every term pattern, after compiling it and
incorporating it into the empty tree, the first call of `next` on a fresh
context whose query is the pattern itself returns true, at the instruction
that ends the code of the pattern. -/
theorem C6_round_trip (p : TermList) :
    ∃ tree root ctx fuel r c, TermCodeTree.insert CodeTree.empty p = .ok tree ∧
      tree._data = some root ∧ TermCodeTree.init tree p = .ok ctx ∧
      TermCodeTree.next tree fuel ctx 0 = .ok (true, r, c) ∧
      IsPath tree.mem ⟨root, 0⟩ (compiledCode p) c.op := by
  obtain ⟨tree, htree⟩ := (insert_inv CodeTree.empty [] .nil p treeInv_empty).2.1 (by simp)
  obtain ⟨t, hinv, hdata⟩ := (insert_inv CodeTree.empty [] .nil p treeInv_empty).1 tree htree
  cases hroot : tree._data with
  | none => exact absurd hroot hdata
  | some root =>
    have hcompat : ∀ p1 ∈ [p], shapeCompat p1 p := by
      intro p1 hp1
      simp only [List.mem_singleton] at hp1
      subst hp1
      exact shapeCompat_self p1
    obtain ⟨hrep, _, _, _, _, hperm, hmax⟩ := treeInv_paths tree [p] t root hinv hroot
    obtain ⟨l0, tr, hdrive, _, hmap, hgood⟩ := enumerate tree [p] t p root hinv hroot hcompat
    have hd0 := hdrive 0
    simp only [Nat.zero_add] at hd0
    obtain ⟨_, hpp2⟩ := paths_pattern [p] t hperm
    obtain ⟨x, hx⟩ := hpp2 p (List.mem_singleton_self p)
    have hsuc := (patternCode_succeeds p p (shapeCompat_self p)
      (List.replicate tree._maxVarCnt none)
      (by simpa using hmax p (List.mem_singleton_self p))).2 (generalises_self p)
    have hne : l0 ≠ [] := by
      intro h
      rw [h] at hmap
      have : x ∈ (t.paths.filter (fun sq => succeeds (execCode (FlatTerm.create p) sq.1 0
          (List.replicate tree._maxVarCnt none)))).map Prod.snd :=
        List.mem_map.2 ⟨(patternCode p, x), List.mem_filter.2 ⟨hx, by simpa using hsuc⟩, rfl⟩
      rw [← hmap] at this
      simp at this
    cases hl : l0 with
    | nil => exact absurd hl hne
    | cons y l1 =>
      obtain ⟨_, h2⟩ := nextLoop_of_drive tree.mem tr.length
        ⟨false, 0, ⟨root, 0⟩, [], List.replicate tree._maxVarCnt none, FlatTerm.create p⟩
        (by rw [hd0]; simp)
      obtain ⟨r, c, hn, ho, hb, _, _⟩ := h2 y l1 (by rw [hd0]; exact hl)
      refine ⟨tree, root, _, tr.length, r, c, htree, hroot, init_ok tree p root hroot, ?_, ?_⟩
      · unfold TermCodeTree.next
        simp only [if_true]
        exact hn
      · obtain ⟨p1, hp1, hpath, _⟩ := hgood y (by rw [hl]; exact List.mem_cons_self _ _)
        simp only [List.mem_singleton] at hp1
        subst hp1
        rw [ho]
        exact hpath

end Indexing


namespace Indexing

open Kernel

/-- In a trie that stores a single instruction sequence, the walk of
`incorporate` for this very sequence matches all of it. -/
theorem insert_single (newBlk : Nat) (t : Trie) :
    t.shaped → t.termOnly → ∀ code, t.paths.map Prod.fst = [code] →
      Trie.insert newBlk t code = none := by
  induction t with
  | nil => intro _ _ code _; rfl
  | node p i c a ihc _ =>
    intro hsh hto code hp
    obtain ⟨_, hs2, hcsh, _⟩ := hsh
    obtain ⟨hnf, hnl, hcto, _⟩ := hto
    have key : ∀ (hs : ∀ r, i ≠ .SUCCESS r) (ht : i.terminal = false),
        Trie.insert newBlk (.node p i c a) code = none := by
      intro hs ht
      rw [paths_node_other p i c a hs hnf] at hp
      have hc := paths_ne_nil c hcto hcsh (hs2 ht)
      cases hcp : c.paths with
      | nil => exact absurd hcp hc
      | cons sq l =>
        rw [hcp] at hp
        simp only [List.map_cons, List.cons_append, List.cons.injEq, List.map_append,
          List.append_eq_nil, List.map_eq_nil_iff] at hp
        obtain ⟨hcode, hl, _⟩ := hp
        subst hl
        have hne := paths_fst_ne_nil c sq (by rw [hcp]; exact List.mem_cons_self _ _)
        have hins := ihc hcsh hcto sq.1 (by rw [hcp]; rfl)
        rw [← hcode]
        cases hsq : sq.1 with
        | nil => exact absurd hsq hne
        | cons x xs =>
          rw [hsq] at hins
          simp only [Trie.insert, if_true, hins]
    cases i with
    | SUCCESS r =>
      simp only [Trie.paths, List.singleton_append, List.map_cons, List.cons.injEq] at hp
      rw [← hp.1]
      exact insert_node_last newBlk p _ c a
    | FAIL => exact absurd rfl hnf
    | NEXT_LIT => exact absurd rfl hnl
    | CHECK_FUN f => exact key (fun r => by simp) rfl
    | ASSIGN_VAR v => exact key (fun r => by simp) rfl
    | CHECK_VAR v => exact key (fun r => by simp) rfl

/-- Incorporating a code whose walk through the trie matches all of it ends in
a read past the end of a block. -/
theorem insert_matched (tree : CodeTree) (ps : List TermList) (t : Trie) (p : TermList)
    (root : Nat) (hinv : TreeInv tree ps t) (hroot : tree._data = some root)
    (hins : Trie.insert tree.mem.length t (patternCode p) = none) :
    TermCodeTree.insert tree p = .fault .outOfBounds := by
  obtain ⟨_, hshape⟩ := hinv
  obtain ⟨hc1, hc2, _⟩ := compile_tree tree p
  have hcode := compile_code tree p
  have hok := patternCode_ok p
  unfold TermCodeTree.insert
  simp only []
  unfold CodeTree.incorporate
  rw [hc2, hcode, hc1, hroot]
  rw [hroot] at hshape
  simp only [] at hshape ⊢
  obtain ⟨hrep, hsh, _, hrange, hnd, _⟩ := hshape
  cases hops : (patternCode p).map OpCode.mk0 with
  | nil =>
    have := patternCode_ne_nil p
    simp at hops
    exact absurd hops this
  | cons c rest =>
    have hinstr : instrsOf (c :: rest) = patternCode p := by
      rw [← hops, instrsOf_map_mk0]
    have hI := incSpec_all tree.mem (c :: rest) t ⟨root, 0⟩ c rest [] (tree.mem.length + 1)
      hrep hsh hrange hnd (by rw [hinstr]; exact hok) (by simp)
      (by rw [← hops]; exact mk0_alt _) (by simp)
    rw [incorporateLoop_cons]
    rw [hinstr] at hI
    rcases hI with ⟨_, h2⟩ | ⟨t1, q, blk, h1, _, _, _⟩
    · rw [h2]
    · rw [hins] at h1
      simp at h1

/-- Claim C5 (duplicate insertion), as the code behaves: for every term pattern,
compiling and incorporating it twice into the empty tree does not give a tree
that yields two matches. The second call of `incorporate` walks along the
whole code of the first, steps past the final SUCCESS of the block and reads
the instruction behind the end of the block. -/
theorem C5_duplicate_insertion_faults (p : TermList) :
    TermCodeTree.insertAll CodeTree.empty [p, p] = .fault .outOfBounds := by
  obtain ⟨tree, htree⟩ := (insert_inv CodeTree.empty [] .nil p treeInv_empty).2.1 (by simp)
  obtain ⟨t, hinv, hdata⟩ := (insert_inv CodeTree.empty [] .nil p treeInv_empty).1 tree htree
  cases hroot : tree._data with
  | none => exact absurd hroot hdata
  | some root =>
    obtain ⟨_, hsh, hto, _, _, hperm, _⟩ := treeInv_paths tree [p] t root hinv hroot
    have hp : t.paths.map Prod.fst = [patternCode p] := by
      have := hperm.symm
      simp only [List.map_cons, List.map_nil] at this
      exact (List.singleton_perm.1 this).symm
    have hins := insert_single tree.mem.length t hsh hto (patternCode p) hp
    have hf := insert_matched tree [p] t p root hinv hroot hins
    simp only [TermCodeTree.insertAll, htree, hf]

end Indexing


namespace Indexing

open Kernel

/-- Pairwise distinct positions of a list whose elements all satisfy `P` are
at most as many as the elements that satisfy `P`. -/
theorem count_indices {α : Type} (P : α → Bool) (b : List α) :
    ∀ (I : List Nat), I.Nodup → (∀ i ∈ I, ∃ x, b[i]? = some x ∧ P x = true) →
      I.length ≤ (b.filter P).length := by
  induction b with
  | nil =>
    intro I _ h
    cases I with
    | nil => simp
    | cons i I =>
      obtain ⟨x, hx, _⟩ := h i (List.mem_cons_self _ _)
      simp at hx
  | cons x xs ih =>
    intro I hn h
    have hsplit := List.length_eq_length_filter_add (l := I) (fun i => decide (i = 0))
    have h0 : (I.filter (fun i => decide (i = 0))).length ≤ (if P x = true then 1 else 0) := by
      have hnd : (I.filter (fun i => decide (i = 0))).Nodup := hn.filter _
      cases hf : I.filter (fun i => decide (i = 0)) with
      | nil => simp
      | cons a l =>
        have ha : a ∈ I.filter (fun i => decide (i = 0)) := by rw [hf]; exact List.mem_cons_self _ _
        obtain ⟨haI, ha0⟩ := List.mem_filter.1 ha
        simp only [decide_eq_true_eq] at ha0
        subst ha0
        obtain ⟨y, hy, hP⟩ := h 0 haI
        simp only [List.getElem?_cons_zero, Option.some.injEq] at hy
        subst hy
        simp only [hP, if_true]
        cases l with
        | nil => simp
        | cons a2 l2 =>
          have ha2 : a2 ∈ I.filter (fun i => decide (i = 0)) := by
            rw [hf]; exact List.mem_cons_of_mem _ (List.mem_cons_self _ _)
          have := (List.mem_filter.1 ha2).2
          simp only [decide_eq_true_eq] at this
          subst this
          rw [hf] at hnd
          simp at hnd
    have h1 : (I.filter (fun i => !decide (i = 0))).length ≤ (xs.filter P).length := by
      have := ih ((I.filter (fun i => !decide (i = 0))).map Nat.pred) ?_ ?_
      · simpa using this
      · refine List.Nodup.map_on ?_ (hn.filter _)
        intro a ha c hc hac
        have ha0 := (List.mem_filter.1 ha).2
        have hc0 := (List.mem_filter.1 hc).2
        simp only [Bool.not_eq_true', decide_eq_false_iff_not] at ha0 hc0
        cases a with
        | zero => exact absurd rfl ha0
        | succ a =>
          cases c with
          | zero => exact absurd rfl hc0
          | succ c => simpa using hac
      · intro j hj
        obtain ⟨a, ha, haj⟩ := List.mem_map.1 hj
        obtain ⟨haI, ha0⟩ := List.mem_filter.1 ha
        simp only [Bool.not_eq_true', decide_eq_false_iff_not] at ha0
        cases a with
        | zero => exact absurd rfl ha0
        | succ a =>
          obtain ⟨y, hy, hP⟩ := h (a + 1) haI
          simp only [List.getElem?_cons_succ] at hy
          simp only [Nat.pred_succ] at haj
          subst haj
          exact ⟨y, hy, hP⟩
    have hlen : ((x :: xs).filter P).length = (if P x = true then 1 else 0) + (xs.filter P).length := by
      by_cases hP : P x = true
      · simp [List.filter, hP]; omega
      · simp [List.filter, hP]
    omega

/-- Pairwise distinct instruction pointers whose instructions all satisfy `P`
are at most as many as the instructions of the memory that satisfy `P`. -/
theorem count_ptrs (P : OpCode → Bool) (mem : List CodeBlock) :
    ∀ (L : List Ptr), L.Nodup → (∀ p ∈ L, ∃ op, deref mem p = .ok op ∧ P op = true) →
      L.length ≤ (mem.flatten.filter P).length := by
  induction mem with
  | nil =>
    intro L _ h
    cases L with
    | nil => simp
    | cons p L =>
      obtain ⟨x, hx, _⟩ := h p (List.mem_cons_self _ _)
      simp [deref] at hx
  | cons b rest ih =>
    intro L hn h
    have hsplit := List.length_eq_length_filter_add (l := L) (fun p => decide (p.blk = 0))
    have h0 : (L.filter (fun p => decide (p.blk = 0))).length ≤ (b.filter P).length := by
      have := count_indices P b ((L.filter (fun p => decide (p.blk = 0))).map (fun p => p.ofs)) ?_ ?_
      · simpa using this
      · refine List.Nodup.map_on ?_ (hn.filter _)
        intro a ha c hc hac
        have ha0 := (List.mem_filter.1 ha).2
        have hc0 := (List.mem_filter.1 hc).2
        simp only [decide_eq_true_eq] at ha0 hc0
        cases a; cases c
        simp only [] at ha0 hc0 hac
        subst ha0; subst hc0; subst hac
        rfl
      · intro j hj
        obtain ⟨a, ha, haj⟩ := List.mem_map.1 hj
        obtain ⟨haL, ha0⟩ := List.mem_filter.1 ha
        simp only [decide_eq_true_eq] at ha0
        obtain ⟨op, hop, hP⟩ := h a haL
        rw [deref_eq, ha0] at hop
        simp only [List.getElem?_cons_zero, Option.some_bind] at hop
        subst haj
        cases hb : b[a.ofs]? with
        | none => rw [hb] at hop; simp [Run.ofOption] at hop
        | some y =>
          rw [hb] at hop
          simp only [Run.ofOption, Run.ok.injEq] at hop
          subst hop
          exact ⟨y, rfl, hP⟩
    have h1 : (L.filter (fun p => !decide (p.blk = 0))).length ≤ (rest.flatten.filter P).length := by
      have := ih ((L.filter (fun p => !decide (p.blk = 0))).map (fun p => ⟨p.blk - 1, p.ofs⟩)) ?_ ?_
      · simpa using this
      · refine List.Nodup.map_on ?_ (hn.filter _)
        intro a ha c hc hac
        have ha0 := (List.mem_filter.1 ha).2
        have hc0 := (List.mem_filter.1 hc).2
        simp only [Bool.not_eq_true', decide_eq_false_iff_not] at ha0 hc0
        cases a; cases c
        simp only [Ptr.mk.injEq] at ha0 hc0 hac ⊢
        omega
      · intro j hj
        obtain ⟨a, ha, haj⟩ := List.mem_map.1 hj
        obtain ⟨haL, ha0⟩ := List.mem_filter.1 ha
        simp only [Bool.not_eq_true', decide_eq_false_iff_not] at ha0
        obtain ⟨op, hop, hP⟩ := h a haL
        refine ⟨op, ?_, hP⟩
        rw [← haj, deref_eq]
        rw [deref_eq] at hop
        cases hk : a.blk with
        | zero => exact absurd hk ha0
        | succ k =>
          rw [hk] at hop
          simpa using hop
    simp only [List.flatten_cons, List.filter_append, List.length_append]
    omega

end Indexing


namespace Indexing

open Kernel

theorem checkFun_no_fuel (ft : List FlatTerm.Entry) (tp f : Nat) :
    checkFun ft tp f ≠ .fault .outOfFuel := by
  unfold checkFun
  cases ft.get? tp with
  | none => simp
  | some en =>
    cases en with
    | FUN n => by_cases h : n ≠ f <;> simp [h]
    | VAR n => simp
    | FUN_TERM_PTR t => simp
    | FUN_RIGHT_OFS k => simp

theorem termAt_no_fuel (ft : List FlatTerm.Entry) (tp : Nat) :
    termAt ft tp ≠ .fault .outOfFuel ∧ ∀ t, termAt ft tp ≠ .ok (t, .fault .outOfFuel) := by
  unfold termAt
  cases ft.get? tp with
  | none => simp
  | some en =>
    cases en with
    | VAR n => simp
    | FUN_TERM_PTR t => simp
    | FUN_RIGHT_OFS k => simp
    | FUN n =>
      simp only []
      cases ft.get? (tp + 1) with
      | none => simp
      | some en1 =>
        cases en1 with
        | VAR n => simp
        | FUN n => simp
        | FUN_RIGHT_OFS k => simp
        | FUN_TERM_PTR t =>
          simp only []
          cases ft.get? (tp + 2) with
          | none => simp
          | some en2 => cases en2 <;> simp

theorem execInstr_no_fuel (ft : List FlatTerm.Entry) (i : Instruction) (tp : Nat) (b : Bindings) :
    execInstr ft i tp b ≠ .fault .outOfFuel := by
  cases i with
  | SUCCESS r => simp [execInstr]
  | FAIL => simp [execInstr]
  | NEXT_LIT => simp [execInstr]
  | CHECK_FUN f =>
    have := checkFun_no_fuel ft tp f
    simp only [execInstr]
    cases hc : checkFun ft tp f with
    | fault e => rw [hc] at this; simpa using this
    | ok o => cases o <;> simp
  | ASSIGN_VAR v =>
    obtain ⟨h1, h2⟩ := termAt_no_fuel ft tp
    simp only [execInstr]
    cases hc : termAt ft tp with
    | fault e => rw [hc] at h1; simpa using h1
    | ok o =>
      obtain ⟨t, nxt⟩ := o
      simp only []
      by_cases hv : v < b.length
      · simp only [hv, if_true]
        cases nxt with
        | fault e =>
          have := h2 t
          rw [hc] at this
          simpa using this
        | ok tp1 => simp
      · simp [hv]
  | CHECK_VAR v =>
    obtain ⟨h1, h2⟩ := termAt_no_fuel ft tp
    simp only [execInstr]
    cases hc : termAt ft tp with
    | fault e => rw [hc] at h1; simpa using h1
    | ok o =>
      obtain ⟨t, nxt⟩ := o
      simp only []
      cases b.get? v with
      | none => simp
      | some o2 =>
        cases o2 with
        | none => simp
        | some u =>
          simp only []
          by_cases hu : u ≠ t
          · simp [hu]
          · simp only [hu, if_false]
            cases nxt with
            | fault e =>
              have := h2 t
              rw [hc] at this
              simpa using this
            | ok tp1 => simp

/-- A run over a trie never ends for want of fuel: it has none to run out
of. -/
theorem run_no_fuel (ft : List FlatTerm.Entry) (t : Trie) :
    ∀ (tp : Nat) (b : Bindings), (Trie.run ft t tp b).2.2 ≠ .fault .outOfFuel := by
  induction t with
  | nil => intro tp b; simp [Trie.run]
  | node p i c a ihc iha =>
    intro tp b
    by_cases hsucc : ∃ r, i = .SUCCESS r
    · obtain ⟨r, hr⟩ := hsucc
      subst hr
      simp only [Trie.run]
      exact iha tp b
    · rw [run_node_other ft p i c a tp b (fun r hr => hsucc ⟨r, hr⟩)]
      unfold runOther
      cases he : execInstr ft i tp b with
      | fault e =>
        simp only [ne_eq, Run.fault.injEq]
        intro h
        rw [h] at he
        exact execInstr_no_fuel ft i tp b he
      | ok o =>
        cases o with
        | none => exact iha tp b
        | some v =>
          obtain ⟨tp1, b1⟩ := v
          simp only []
          cases hc : (Trie.run ft c tp1 b1).2.2 with
          | fault e =>
            simp only [ne_eq, Run.fault.injEq]
            intro h
            rw [h] at hc
            exact ihc tp1 b1 hc
          | ok b2 => exact iha tp b2

/-- Every match of a run over a trie is the end of a stored instruction
sequence, and each of these ends is reported at most once. -/
theorem run_matches_paths (ft : List FlatTerm.Entry) (t : Trie) :
    ∀ (tp : Nat) (b : Bindings),
      ((Trie.run ft t tp b).1.map Prod.fst).Sublist (t.paths.map Prod.snd) := by
  induction t with
  | nil => intro tp b; simp [Trie.run, Trie.paths]
  | node p i c a ihc iha =>
    intro tp b
    by_cases hsucc : ∃ r, i = .SUCCESS r
    · obtain ⟨r, hr⟩ := hsucc
      subst hr
      simp only [Trie.run, Trie.paths, List.map_cons, List.singleton_append]
      exact (iha tp b).cons₂ _
    · rw [run_node_other ft p i c a tp b (fun r hr => hsucc ⟨r, hr⟩)]
      obtain ⟨X, hX⟩ := paths_node_split p i c
      have hfail : i = .FAIL → (Trie.node p i c a).paths = a.paths := by
        intro h; subst h; rfl
      have hother : i ≠ .FAIL → (Trie.node p i c a).paths.map Prod.snd =
          c.paths.map Prod.snd ++ a.paths.map Prod.snd := by
        intro h
        rw [paths_node_other p i c a (fun r hr => hsucc ⟨r, hr⟩) h]
        simp [List.map_append, Function.comp_def]
      have ha : ∀ tp2 b2, ((Trie.run ft a tp2 b2).1.map Prod.fst).Sublist
          ((Trie.node p i c a).paths.map Prod.snd) := by
        intro tp2 b2
        rw [hX a, List.map_append]
        exact (iha tp2 b2).trans (List.sublist_append_right _ _)
      unfold runOther
      cases he : execInstr ft i tp b with
      | fault e => simp
      | ok o =>
        cases o with
        | none => exact ha tp b
        | some v =>
          obtain ⟨tp1, b1⟩ := v
          simp only []
          have hnf : i ≠ .FAIL := by
            intro h; subst h; simp [execInstr] at he
          rw [hother hnf]
          cases hc : (Trie.run ft c tp1 b1).2.2 with
          | fault e =>
            simp only []
            exact (ihc tp1 b1).trans (List.sublist_append_left _ _)
          | ok b2 =>
            simp only [List.map_append]
            exact (ihc tp1 b1).append (iha tp b2)

/-- Every node of a trie held by the memory is an instruction of the
memory. -/
theorem rep_ptrs (mem : List CodeBlock) (t : Trie) :
    ∀ q, Rep mem t q → ∀ x ∈ t.ptrs, ∃ op, deref mem x = .ok op := by
  induction t with
  | nil => intro q _ x hx; simp [Trie.ptrs] at hx
  | node p i c a ihc iha =>
    intro q hrep x hx
    obtain ⟨_, alt, hd, hra, _, hcond⟩ := hrep
    simp only [Trie.ptrs, List.mem_cons, List.mem_append] at hx
    rcases hx with hx | hx | hx
    · subst hx; exact ⟨_, hd⟩
    · by_cases ht : i.terminal = true
      · simp only [ht, if_true] at hcond
        rw [hcond.1] at hx
        simp [Trie.ptrs] at hx
      · simp only [ht] at hcond
        exact ihc _ hcond x hx
    · exact iha alt hra x hx

/-- The end of every instruction sequence stored in a trie held by the memory
is a SUCCESS instruction of the memory. -/
theorem rep_paths_success (mem : List CodeBlock) (t : Trie) :
    ∀ q, Rep mem t q → ∀ sq ∈ t.paths, ∃ r alt, deref mem sq.2 = .ok ⟨.SUCCESS r, alt⟩ := by
  induction t with
  | nil => intro q _ x hx; simp [Trie.paths] at hx
  | node p i c a ihc iha =>
    intro q hrep sq hsq
    obtain ⟨_, alt, hd, hra, _, hcond⟩ := hrep
    by_cases hsucc : ∃ r, i = .SUCCESS r
    · obtain ⟨r, hr⟩ := hsucc
      subst hr
      simp only [Trie.paths, List.singleton_append, List.mem_cons] at hsq
      rcases hsq with hsq | hsq
      · rw [hsq]; exact ⟨r, alt, hd⟩
      · exact iha alt hra sq hsq
    · by_cases hf : i = .FAIL
      · subst hf
        simp only [Trie.paths, List.nil_append] at hsq
        exact iha alt hra sq hsq
      · rw [paths_node_other p i c a (fun r hr => hsucc ⟨r, hr⟩) hf] at hsq
        rcases List.mem_append.1 hsq with hsq | hsq
        · obtain ⟨sq1, hsq1, he⟩ := List.mem_map.1 hsq
          have ht : ¬ i.terminal = true := by
            intro ht
            rcases (terminal_iff i).1 ht with h | h
            · exact hsucc h
            · exact hf h
          simp only [ht] at hcond
          rw [← he]
          exact ihc _ hcond sq1 hsq1
        · exact iha alt hra sq hsq

end Indexing


namespace Indexing

open Kernel

theorem rep_root (mem : List CodeBlock) (t : Trie) (q : Ptr) (h : Rep mem t (some q)) :
    q ∈ t.ptrs := by
  cases t with
  | nil => simp [Rep] at h
  | node p i c a =>
    obtain ⟨hq, _⟩ := h
    simp only [Option.some.injEq] at hq
    subst hq
    simp [Trie.ptrs]

theorem linkAt_eq (mem : List CodeBlock) (p : Ptr) (i : Instruction) (alt : Option Ptr)
    (h : deref mem p = .ok ⟨i, alt⟩) : linkAt mem p = alt := by
  simp [linkAt, h]

/-- The alternative links held by the nodes of a trie lead to pairwise
distinct nodes of the trie, none of them its root. -/
theorem links_nodup (mem : List CodeBlock) (t : Trie) :
    ∀ q, Rep mem t q → t.ptrs.Nodup →
      (t.ptrs.filterMap (linkAt mem)).Nodup ∧
      ∀ x ∈ t.ptrs.filterMap (linkAt mem), x ∈ t.ptrs ∧ some x ≠ q := by
  induction t with
  | nil => intro q _ _; simp [Trie.ptrs]
  | node p i c a ihc iha =>
    intro q hrep hnd
    obtain ⟨hq, alt, hd, hra, _, hcond⟩ := hrep
    simp only [Trie.ptrs, List.nodup_cons, List.mem_append, not_or, List.nodup_append] at hnd
    obtain ⟨⟨hpc, hpa⟩, hcn, han, hdisj⟩ := hnd
    obtain ⟨ha1, ha2⟩ := iha alt hra han
    have hc : (c.ptrs.filterMap (linkAt mem)).Nodup ∧
        ∀ x ∈ c.ptrs.filterMap (linkAt mem), x ∈ c.ptrs := by
      by_cases ht : i.terminal = true
      · simp only [ht, if_true] at hcond
        rw [hcond.1]
        simp [Trie.ptrs]
      · simp only [ht] at hcond
        obtain ⟨h1, h2⟩ := ihc _ hcond hcn
        exact ⟨h1, fun x hx => (h2 x hx).1⟩
    obtain ⟨hc1, hc2⟩ := hc
    have hrest : ((c.ptrs ++ a.ptrs).filterMap (linkAt mem)).Nodup := by
      rw [List.filterMap_append, List.nodup_append]
      refine ⟨hc1, ha1, ?_⟩
      intro x hx1 hx2
      exact hdisj (hc2 x hx1) (ha2 x hx2).1
    have hmem : ∀ x ∈ (c.ptrs ++ a.ptrs).filterMap (linkAt mem),
        (x ∈ c.ptrs ∨ x ∈ a.ptrs) ∧ some x ≠ alt := by
      intro x hx
      rw [List.filterMap_append, List.mem_append] at hx
      rcases hx with hx | hx
      · refine ⟨Or.inl (hc2 x hx), ?_⟩
        intro he
        rw [← he] at hra
        exact hdisj (hc2 x hx) (rep_root mem a x hra)
      · exact ⟨Or.inr (ha2 x hx).1, (ha2 x hx).2⟩
    have hne : ∀ x, (x ∈ c.ptrs ∨ x ∈ a.ptrs) → some x ≠ q := by
      intro x hx he
      rw [hq] at he
      simp only [Option.some.injEq] at he
      subst he
      rcases hx with hx | hx
      · exact hpc hx
      · exact hpa hx
    have hlink := linkAt_eq mem p i alt hd
    cases halt : alt with
    | none =>
      rw [halt] at hlink
      simp only [Trie.ptrs, List.filterMap_cons, hlink]
      refine ⟨hrest, fun x hx => ?_⟩
      obtain ⟨h1, _⟩ := hmem x hx
      exact ⟨List.mem_cons_of_mem _ (List.mem_append.2 h1), hne x h1⟩
    | some q1 =>
      rw [halt] at hlink
      simp only [Trie.ptrs, List.filterMap_cons, hlink, List.nodup_cons, List.mem_cons]
      have hq1 : q1 ∈ a.ptrs := rep_root mem a q1 (by rw [← halt]; exact hra)
      refine ⟨⟨fun hx => ?_, hrest⟩, fun x hx => ?_⟩
      · exact (hmem q1 hx).2 halt.symm
      · rcases hx with hx | hx
        · subst hx
          exact ⟨Or.inr (List.mem_append.2 (Or.inr hq1)), hne x (Or.inr hq1)⟩
        · obtain ⟨h1, _⟩ := hmem x hx
          exact ⟨Or.inr (List.mem_append.2 h1), hne x h1⟩

/-- Claim C8 (the match stream is finite). For every tree built by inserting
term patterns and every query, the series of calls of `next` on the freshly
initialised context comes to an end: with enough fuel for as many passes of
the loop as the tree has instructions, every call returns, the calls that
return true are followed by one that returns false or stops at a fault, and
there are at most as many of them as the tree has SUCCESS instructions. Over
the whole series every instruction is interpreted at most once, hence every
alternative link is pushed on the backtrack stack at most once, and the
matches are pairwise distinct SUCCESS instructions of the tree. -/
theorem C8_finite_match_stream (ps : List TermList) (tree : CodeTree) (q : TermList)
    (ctx : EContext) (htree : TermCodeTree.insertAll CodeTree.empty ps = .ok tree)
    (hinit : TermCodeTree.init tree q = .ok ctx) :
    ∃ (l : List (Ptr × Bindings)) (tr : List Ptr) (e : Option Fault),
      e ≠ some .outOfFuel ∧
      (∀ fuel, tr.length ≤ fuel → drive tree.mem fuel { ctx with fresh := false } = (l, tr, e)) ∧
      (∀ fuel n, numInstr tree.mem ≤ fuel → numSuccess tree.mem < n →
        TermCodeTree.collect tree fuel n ctx = (l.map Prod.fst, Ending.ofFault e)) ∧
      tr.Nodup ∧ (tr.filterMap (linkAt tree.mem)).Nodup ∧
      (∀ x ∈ tr, ∃ op, deref tree.mem x = .ok op) ∧ tr.length ≤ numInstr tree.mem ∧
      (l.map Prod.fst).Nodup ∧
      (∀ x ∈ l, ∃ r alt, deref tree.mem x.1 = .ok ⟨.SUCCESS r, alt⟩) ∧
      l.length ≤ numSuccess tree.mem := by
  obtain ⟨t, hinv, _⟩ := insertAll_inv ps CodeTree.empty [] .nil tree treeInv_empty htree
  cases hroot : tree._data with
  | none => simp [TermCodeTree.init, hroot] at hinit
  | some root =>
    rw [init_ok tree q root hroot] at hinit
    simp only [Run.ok.injEq] at hinit
    subst hinit
    obtain ⟨hrep, _, _, _, hnd, _, _⟩ := treeInv_paths tree _ t root hinv hroot
    have hdrive := driveOK_all tree.mem (FlatTerm.create q) t ⟨root, 0⟩ 0
      (List.replicate tree._maxVarCnt none) [] hrep 0
    have hnf := run_no_fuel (FlatTerm.create q) t 0 (List.replicate tree._maxVarCnt none)
    have htr := run_trace_sublist (FlatTerm.create q) t 0 (List.replicate tree._maxVarCnt none)
    have hml := run_matches_paths (FlatTerm.create q) t 0 (List.replicate tree._maxVarCnt none)
    generalize Trie.run (FlatTerm.create q) t 0 (List.replicate tree._maxVarCnt none) = R
      at hdrive hnf htr hml
    obtain ⟨l, tr, rb⟩ := R
    simp only [Nat.zero_add] at hdrive hnf htr hml
    have hlinks := (links_nodup tree.mem t _ hrep hnd).1
    have hptr := rep_ptrs tree.mem t _ hrep
    have hsucc := rep_paths_success tree.mem t _ hrep
    have hpnd : (t.paths.map Prod.snd).Nodup := (paths_snd_sublist t).nodup hnd
    have htrnd : tr.Nodup := htr.nodup hnd
    have htrlen : tr.length ≤ numInstr tree.mem := by
      have := count_ptrs (fun _ => true) tree.mem tr htrnd
        (fun p hp => by
          obtain ⟨op, hop⟩ := hptr p (htr.subset hp)
          exact ⟨op, hop, rfl⟩)
      rw [List.filter_true] at this
      exact this
    have hlnd : (l.map Prod.fst).Nodup := hml.nodup hpnd
    have hls : ∀ x ∈ l, ∃ r alt, deref tree.mem x.1 = .ok ⟨.SUCCESS r, alt⟩ := by
      intro x hx
      have h1 : x.1 ∈ t.paths.map Prod.snd := hml.subset (List.mem_map_of_mem _ hx)
      obtain ⟨sq, hsq, he⟩ := List.mem_map.1 h1
      rw [← he]
      exact hsucc sq hsq
    have hllen : l.length ≤ numSuccess tree.mem := by
      have := count_ptrs (fun op => op.instr.isSuccess) tree.mem (l.map Prod.fst) hlnd
        (fun p hp => by
          obtain ⟨x, hx, he⟩ := List.mem_map.1 hp
          obtain ⟨r, alt, hd⟩ := hls x hx
          rw [← he]
          exact ⟨_, hd, rfl⟩)
      simpa [numSuccess] using this
    have key : ∃ e, e ≠ some Fault.outOfFuel ∧ drive tree.mem tr.length
        ⟨false, 0, ⟨root, 0⟩, [], List.replicate tree._maxVarCnt none, FlatTerm.create q⟩
          = (l, tr, e) := by
      cases rb with
      | fault f =>
        refine ⟨some f, ?_, ?_⟩
        · intro h
          simp only [Option.some.injEq] at h
          subst h
          exact hnf rfl
        · rw [hdrive]; rfl
      | ok b2 =>
        refine ⟨none, by simp, ?_⟩
        rw [hdrive]
        simp [afterRun, prepend, resume]
    obtain ⟨e, he, hd0⟩ := key
    have hdall : ∀ fuel, tr.length ≤ fuel → drive tree.mem fuel
        ⟨false, 0, ⟨root, 0⟩, [], List.replicate tree._maxVarCnt none, FlatTerm.create q⟩
          = (l, tr, e) := by
      intro fuel hf
      have := drive_mono tree.mem tr.length _ (by rw [hd0]; exact he) (fuel - tr.length)
      rw [← hd0, ← this]
      congr 1
      omega
    refine ⟨l, tr, e, he, hdall, ?_, htrnd, htr.filterMap _ |>.nodup hlinks, ?_, htrlen, hlnd,
      hls, hllen⟩
    · intro fuel n hfuel hn
      have hdf := hdall fuel (by omega)
      have := collect_fresh_of_drive tree fuel
        ⟨true, 0, ⟨root, 0⟩, [], List.replicate tree._maxVarCnt none, FlatTerm.create q⟩ rfl
        (by rw [hdf]; exact he) n (by rw [hdf]; simp only []; omega)
      rw [this, hdf]
    · intro x hx
      exact hptr x (htr.subset hx)

/-- Witness of **C8**: the tree of the patterns f(X), f(a), g(Y) and the
query f(a). -/
theorem C8_finite_match_stream_witness :
    ∃ (l : List (Ptr × Bindings)) (tr : List Ptr) (e : Option Fault),
      e ≠ some .outOfFuel ∧
      (∀ fuel, tr.length ≤ fuel → drive
        [[⟨.CHECK_FUN 0, some ⟨2, 0⟩⟩, ⟨.ASSIGN_VAR 0, some ⟨1, 0⟩⟩, ⟨.SUCCESS 0, none⟩],
          [⟨.CHECK_FUN 1, none⟩, ⟨.SUCCESS 0, none⟩],
          [⟨.CHECK_FUN 2, none⟩, ⟨.ASSIGN_VAR 0, none⟩, ⟨.SUCCESS 0, none⟩]] fuel
        ⟨false, 0, ⟨0, 0⟩, [], [none], FlatTerm.create (.term 0 [.term 1 []])⟩ = (l, tr, e)) ∧
      (∀ fuel n, 8 ≤ fuel → 3 < n →
        TermCodeTree.collect
          ⟨1, some 0,
            [[⟨.CHECK_FUN 0, some ⟨2, 0⟩⟩, ⟨.ASSIGN_VAR 0, some ⟨1, 0⟩⟩, ⟨.SUCCESS 0, none⟩],
              [⟨.CHECK_FUN 1, none⟩, ⟨.SUCCESS 0, none⟩],
              [⟨.CHECK_FUN 2, none⟩, ⟨.ASSIGN_VAR 0, none⟩, ⟨.SUCCESS 0, none⟩]]⟩ fuel n
          ⟨true, 0, ⟨0, 0⟩, [], [none], FlatTerm.create (.term 0 [.term 1 []])⟩
          = (l.map Prod.fst, Ending.ofFault e)) ∧
      tr.Nodup ∧
      (tr.filterMap (linkAt
        [[⟨.CHECK_FUN 0, some ⟨2, 0⟩⟩, ⟨.ASSIGN_VAR 0, some ⟨1, 0⟩⟩, ⟨.SUCCESS 0, none⟩],
          [⟨.CHECK_FUN 1, none⟩, ⟨.SUCCESS 0, none⟩],
          [⟨.CHECK_FUN 2, none⟩, ⟨.ASSIGN_VAR 0, none⟩, ⟨.SUCCESS 0, none⟩]])).Nodup ∧
      (∀ x ∈ tr, ∃ op, deref
        [[⟨.CHECK_FUN 0, some ⟨2, 0⟩⟩, ⟨.ASSIGN_VAR 0, some ⟨1, 0⟩⟩, ⟨.SUCCESS 0, none⟩],
          [⟨.CHECK_FUN 1, none⟩, ⟨.SUCCESS 0, none⟩],
          [⟨.CHECK_FUN 2, none⟩, ⟨.ASSIGN_VAR 0, none⟩, ⟨.SUCCESS 0, none⟩]] x = .ok op) ∧
      tr.length ≤ 8 ∧ (l.map Prod.fst).Nodup ∧
      (∀ x ∈ l, ∃ r alt, deref
        [[⟨.CHECK_FUN 0, some ⟨2, 0⟩⟩, ⟨.ASSIGN_VAR 0, some ⟨1, 0⟩⟩, ⟨.SUCCESS 0, none⟩],
          [⟨.CHECK_FUN 1, none⟩, ⟨.SUCCESS 0, none⟩],
          [⟨.CHECK_FUN 2, none⟩, ⟨.ASSIGN_VAR 0, none⟩, ⟨.SUCCESS 0, none⟩]] x.1
          = .ok ⟨.SUCCESS r, alt⟩) ∧
      l.length ≤ 3 :=
  C8_finite_match_stream
    [TermList.term 0 [.var 7], .term 0 [.term 1 []], .term 2 [.var 3]]
    ⟨1, some 0,
      [[⟨.CHECK_FUN 0, some ⟨2, 0⟩⟩, ⟨.ASSIGN_VAR 0, some ⟨1, 0⟩⟩, ⟨.SUCCESS 0, none⟩],
        [⟨.CHECK_FUN 1, none⟩, ⟨.SUCCESS 0, none⟩],
        [⟨.CHECK_FUN 2, none⟩, ⟨.ASSIGN_VAR 0, none⟩, ⟨.SUCCESS 0, none⟩]]⟩
    (.term 0 [.term 1 []])
    ⟨true, 0, ⟨0, 0⟩, [], [none], FlatTerm.create (.term 0 [.term 1 []])⟩
    (by decide) (by decide)

end Indexing


namespace Kernel

open Indexing (Run Fault)

theorem setAt_same {α : Type} (f : Nat → α) (i : Nat) (v : α) : setAt f i v i = v := by
  simp [setAt]

theorem setAt_ne {α : Type} (f : Nat → α) (i k : Nat) (v : α) (h : k ≠ i) :
    setAt f i v k = f k := by
  simp [setAt, h]

theorem setAt2_same {α : Type} (f : Nat → Nat → α) (i j : Nat) (v : α) :
    setAt2 f i j v i j = v := by
  simp [setAt2]

theorem setAt2_ne {α : Type} (f : Nat → Nat → α) (i j k l : Nat) (v : α) (h : k ≠ i ∨ l ≠ j) :
    setAt2 f i j v k l = f k l := by
  unfold setAt2
  rcases h with h | h
  · simp [h]
  · simp [h]

theorem swapAt_self {α : Type} (l : List α) (i : Nat) : swapAt l i i = l := by
  unfold swapAt
  simp only [List.get?_eq_getElem?]
  cases h : l[i]? with
  | none => rfl
  | some a =>
    simp only []
    have hi : i < l.length := by
      by_contra hc
      rw [List.getElem?_eq_none (by omega)] at h
      exact absurd h (by simp)
    have ha : l[i] = a := by
      rw [List.getElem?_eq_getElem hi] at h
      exact Option.some.inj h
    apply List.ext_getElem?
    intro k
    by_cases hk : k = i
    · subst hk
      simp [hi, ha]
    · rw [List.getElem?_set_ne (Ne.symm hk), List.getElem?_set_ne (Ne.symm hk)]

theorem getElem?_mid {α : Type} (pre post : List α) (a : α) (k : Nat) (hk : k = pre.length) :
    (pre ++ a :: post)[k]? = some a := by
  subst hk
  rw [List.getElem?_append_right (Nat.le_refl _), Nat.sub_self]
  simp

theorem get?_mid {α : Type} (pre post : List α) (a : α) (k : Nat) (hk : k = pre.length) :
    (pre ++ a :: post).get? k = some a := by
  rw [List.get?_eq_getElem?]
  exact getElem?_mid pre post a k hk

theorem swapAt_split {α : Type} (pre mid post : List α) (a z : α) :
    swapAt (pre ++ a :: mid ++ z :: post) pre.length (pre.length + 1 + mid.length) =
      pre ++ z :: mid ++ a :: post := by
  unfold swapAt
  have h1 : (pre ++ a :: mid ++ z :: post).get? pre.length = some a := by
    have e : pre ++ a :: mid ++ z :: post = pre ++ a :: (mid ++ z :: post) := by simp
    rw [e]
    exact get?_mid _ _ _ _ rfl
  have h2 : (pre ++ a :: mid ++ z :: post).get? (pre.length + 1 + mid.length) = some z := by
    have e : pre ++ a :: mid ++ z :: post = (pre ++ a :: mid) ++ z :: post := by simp
    rw [e]
    exact get?_mid _ _ _ _ (by simp; omega)
  rw [h1, h2]
  simp only []
  apply List.ext_getElem?
  intro k
  have e1 : pre ++ a :: mid ++ z :: post = pre ++ (a :: (mid ++ z :: post)) := by simp
  have e2 : pre ++ z :: mid ++ a :: post = pre ++ (z :: (mid ++ a :: post)) := by simp
  by_cases hk1 : k = pre.length
  · subst hk1
    rw [List.getElem?_set_ne (by omega)]
    rw [List.getElem?_set_self (by simp)]
    rw [e2]
    exact (getElem?_mid _ _ _ _ rfl).symm
  · by_cases hk2 : k = pre.length + 1 + mid.length
    · subst hk2
      rw [List.getElem?_set_self (by simp; omega)]
      have e3 : pre ++ z :: mid ++ a :: post = (pre ++ z :: mid) ++ a :: post := by simp
      rw [e3]
      exact (getElem?_mid _ _ _ _ (by simp; omega)).symm
    · rw [List.getElem?_set_ne (Ne.symm hk2), List.getElem?_set_ne (Ne.symm hk1)]
      rw [e1, e2]
      by_cases hk3 : k < pre.length
      · rw [List.getElem?_append_left hk3, List.getElem?_append_left hk3]
      · rw [List.getElem?_append_right (by omega), List.getElem?_append_right (by omega)]
        have hk4 : k - pre.length = (k - pre.length - 1) + 1 := by omega
        rw [hk4, List.getElem?_cons_succ, List.getElem?_cons_succ]
        by_cases hk5 : k - pre.length - 1 < mid.length
        · rw [List.getElem?_append_left hk5, List.getElem?_append_left hk5]
        · rw [List.getElem?_append_right (by omega), List.getElem?_append_right (by omega)]
          have hk6 : k - pre.length - 1 - mid.length = (k - pre.length - 1 - mid.length - 1) + 1 := by
            omega
          rw [hk6, List.getElem?_cons_succ, List.getElem?_cons_succ]

/-- What the pruning loop does to the part of the array that it has still to
look at: the compatible alternatives come first, the others behind them. -/
theorem pruneAlts_loop (cur : List (Option TermList)) (iinfo : List (Nat × Nat)) :
    ∀ (n : Nat) (pre todo mid tail : List AltBinding), todo.length ≤ n →
      ∃ pre1 mid1,
        pruneAlts cur iinfo n (pre ++ todo ++ mid ++ tail) pre.length (pre.length + todo.length)
          = .ok (pre ++ pre1 ++ mid1 ++ mid ++ tail, pre.length + pre1.length) ∧
        (pre1 ++ mid1).Perm todo ∧
        (∀ a ∈ pre1, compatibleBindings iinfo cur a.bindings = true) ∧
        (∀ a ∈ mid1, compatibleBindings iinfo cur a.bindings = false) := by
  intro n
  induction n with
  | zero =>
    intro pre todo mid tail h
    have : todo = [] := List.length_eq_zero.1 (by omega)
    subst this
    exact ⟨[], [], by simp [pruneAlts], by simp, by simp, by simp⟩
  | succ n ih =>
    intro pre todo mid tail h
    cases todo with
    | nil => exact ⟨[], [], by simp [pruneAlts], by simp, by simp, by simp⟩
    | cons a rest =>
      have hlt : pre.length < pre.length + (a :: rest).length := by simp
      have hget : (pre ++ a :: rest ++ mid ++ tail).get? pre.length = some a := by
        have e : pre ++ a :: rest ++ mid ++ tail = pre ++ a :: (rest ++ mid ++ tail) := by simp
        rw [e]
        exact get?_mid _ _ _ _ rfl
      rw [pruneAlts]
      simp only [hlt, if_true, hget]
      by_cases hok : compatibleBindings iinfo cur a.bindings = true
      · simp only [hok, if_true]
        obtain ⟨pre1, mid1, h1, h2, h3, h4⟩ := ih (pre ++ [a]) rest mid tail (by simpa using h)
        refine ⟨a :: pre1, mid1, ?_, ?_, ?_, h4⟩
        · have e1 : pre ++ a :: rest ++ mid ++ tail = pre ++ [a] ++ rest ++ mid ++ tail := by simp
          have e2 : pre.length + 1 = (pre ++ [a]).length := by simp
          have e3 : pre.length + (a :: rest).length = (pre ++ [a]).length + rest.length := by
            simp; omega
          rw [e1, e2, e3, h1]
          simp
          omega
        · simpa using h2
        · intro x hx
          rcases List.mem_cons.1 hx with hx | hx
          · rw [hx]; exact hok
          · exact h3 x hx
      · simp only [hok, Bool.false_eq_true, if_false]
        have hokf : compatibleBindings iinfo cur a.bindings = false := by
          simpa using hok
        rcases List.eq_nil_or_concat rest with hr | ⟨rest1, z, hr⟩
        · subst hr
          have e0 : pre.length + [a].length - 1 = pre.length := by
            simp only [List.length_singleton]; omega
          rw [e0, hget]
          simp only [swapAt_self]
          obtain ⟨pre1, mid1, h1, h2, h3, h4⟩ := ih pre [] (a :: mid) tail (by simp)
          have hp : pre1 = [] ∧ mid1 = [] := by
            have := h2.length_eq
            simp only [List.length_append, List.length_nil] at this
            exact ⟨List.length_eq_zero.1 (by omega), List.length_eq_zero.1 (by omega)⟩
          obtain ⟨hp1, hp2⟩ := hp
          subst hp1; subst hp2
          refine ⟨[], [a], ?_, by simp, by simp, by simpa using hokf⟩
          have e1 : pre ++ [a] ++ mid ++ tail = pre ++ [] ++ (a :: mid) ++ tail := by simp
          have e2 : pre.length = pre.length + ([] : List AltBinding).length := by simp
          rw [e1]
          nth_rewrite 2 [e2]
          rw [h1]
          simp
        · rw [List.concat_eq_append] at hr
          subst hr
          have e0 : pre.length + (a :: (rest1 ++ [z])).length - 1 = pre.length + 1 + rest1.length := by
            simp; omega
          have e1 : pre ++ a :: (rest1 ++ [z]) ++ mid ++ tail
              = pre ++ a :: rest1 ++ z :: (mid ++ tail) := by simp
          have hget2 : (pre ++ a :: (rest1 ++ [z]) ++ mid ++ tail).get? (pre.length + 1 + rest1.length)
              = some z := by
            rw [e1]
            have e : pre ++ a :: rest1 ++ z :: (mid ++ tail) = (pre ++ a :: rest1) ++ z :: (mid ++ tail) := by
              simp
            rw [e]
            exact get?_mid _ _ _ _ (by simp; omega)
          rw [e0, hget2]
          simp only []
          rw [e1, swapAt_split]
          obtain ⟨pre1, mid1, h1, h2, h3, h4⟩ := ih pre (z :: rest1) (a :: mid) tail
            (by simp at h ⊢; omega)
          refine ⟨pre1, mid1 ++ [a], ?_, ?_, h3, ?_⟩
          · have e2 : pre ++ z :: rest1 ++ a :: (mid ++ tail) = pre ++ (z :: rest1) ++ (a :: mid) ++ tail := by
              simp
            have e3 : pre.length + 1 + rest1.length = pre.length + (z :: rest1).length := by
              simp; omega
            rw [e2, e3, h1]
            simp
          · have : (pre1 ++ (mid1 ++ [a])).Perm ((z :: rest1) ++ [a]) := by
              rw [← List.append_assoc]
              exact h2.append_right [a]
            refine this.trans ?_
            have : ((z :: rest1) ++ [a]).Perm (a :: (z :: rest1)) := List.perm_append_singleton a _
            refine this.trans ?_
            refine List.Perm.cons a ?_
            exact (List.perm_append_singleton z rest1).symm
          · intro x hx
            rcases List.mem_append.1 hx with hx | hx
            · exact h4 x hx
            · simp only [List.mem_singleton] at hx
              rw [hx]; exact hokf

end Kernel


namespace Kernel

open Indexing (Run Fault)

theorem compatibleBindings_nil (x y : List (Option TermList)) : compatibleBindings [] x y = true := by
  simp [compatibleBindings]

/-- The pruning loop run over the first `r` entries of an array. -/
theorem pruneAlts_spec (cur : List (Option TermList)) (iinfo : List (Nat × Nat))
    (arr : List AltBinding) (r : Nat) (hr : r ≤ arr.length) :
    ∃ arr1 r1, pruneAlts cur iinfo r arr 0 r = .ok (arr1, r1) ∧
      PruneRes (fun a => compatibleBindings iinfo cur a.bindings) arr r arr1 r1 := by
  obtain ⟨pre1, mid1, h1, h2, h3, h4⟩ := pruneAlts_loop cur iinfo r [] (arr.take r) [] (arr.drop r)
    (by simp)
  have hl : (arr.take r).length = r := by simp; omega
  simp only [List.nil_append, List.append_nil, List.length_nil, Nat.zero_add, hl,
    List.take_append_drop] at h1
  exact ⟨_, _, h1, pre1, mid1, by simp, h2, rfl, h3, h4⟩

/-- The pruning step of `ensureInit` and `bindAlt`, which runs the loop only
when the intersection info is not empty. -/
theorem pruneStep_spec (cur : List (Option TermList)) (iinfo : List (Nat × Nat))
    (arr : List AltBinding) (r : Nat) (hr : r ≤ arr.length) :
    ∃ arr1 r1,
      (if iinfo ≠ [] then pruneAlts cur iinfo r arr 0 r else .ok (arr, r)) = .ok (arr1, r1) ∧
      PruneRes (fun a => compatibleBindings iinfo cur a.bindings) arr r arr1 r1 := by
  by_cases h : iinfo = []
  · subst h
    refine ⟨arr, r, by simp, arr.take r, [], by simp, by simp, by simp; omega, ?_, by simp⟩
    intro a _
    exact compatibleBindings_nil _ _
  · simp only [ne_eq, h, not_false_eq_true, if_true]
    exact pruneAlts_spec cur iinfo arr r hr

theorem pruneRes_prefixPerm (ok : AltBinding → Bool) (arr arr1 : List AltBinding) (r r1 : Nat)
    (h : PruneRes ok arr r arr1 r1) : PrefixPerm arr1 arr r := by
  obtain ⟨pre, mid, h1, h2, _⟩ := h
  exact ⟨pre ++ mid, h1, h2⟩

theorem prefixPerm_refl (arr : List AltBinding) (r : Nat) : PrefixPerm arr arr r :=
  ⟨arr.take r, by simp, List.Perm.refl _⟩

theorem prefixPerm_perm (arr1 arr : List AltBinding) (r : Nat) (h : PrefixPerm arr1 arr r) :
    arr1.Perm arr := by
  obtain ⟨q, h1, h2⟩ := h
  rw [h1]
  have := h2.append_right (arr.drop r)
  rwa [List.take_append_drop] at this

theorem prefixPerm_take_drop (arr1 arr : List AltBinding) (r r2 : Nat) (h : PrefixPerm arr1 arr r)
    (hr : r ≤ r2) : (arr1.take r2).Perm (arr.take r2) ∧ arr1.drop r2 = arr.drop r2 := by
  obtain ⟨q, h1, h2⟩ := h
  obtain ⟨d, rfl⟩ : ∃ d, r2 = r + d := ⟨r2 - r, by omega⟩
  by_cases hl : r ≤ arr.length
  · have hq : q.length = r := by
      rw [h2.length_eq]; simp; omega
    constructor
    · have e1 : (q ++ arr.drop r).take (r + d) = q ++ (arr.drop r).take d := by
        rw [List.take_append_eq_append_take, hq, List.take_of_length_le (by omega)]
        have : r + d - r = d := by omega
        rw [this]
      have e2 : arr.take (r + d) = arr.take r ++ (arr.drop r).take d := List.take_add arr r d
      rw [h1, e1, e2]
      exact h2.append_right _
    · have e1 : (q ++ arr.drop r).drop (r + d) = (arr.drop r).drop d := by
        rw [List.drop_append_eq_append_drop, hq, List.drop_of_length_le (by omega)]
        have : r + d - r = d := by omega
        rw [this, List.nil_append]
      have e2 : arr.drop (r + d) = (arr.drop r).drop d := by
        rw [List.drop_drop]
      rw [h1, e1, e2]
  · have hd : arr.drop r = [] := List.drop_of_length_le (by omega)
    have ht : arr.take r = arr := List.take_of_length_le (by omega)
    rw [hd, List.append_nil] at h1
    rw [ht] at h2
    subst h1
    have hlen := h2.length_eq
    rw [List.take_of_length_le (by omega), List.take_of_length_le (by omega),
      List.drop_of_length_le (by omega), List.drop_of_length_le (by omega)]
    exact ⟨h2, rfl⟩

theorem compatBelow_congr (V : Nat → List Nat) (cm cm1 : Nat → Option AltBinding) (j i : Nat)
    (a : AltBinding) (h : ∀ t, t < j → cm1 t = cm t) :
    CompatBelow V cm1 j i a ↔ CompatBelow V cm j i a := by
  constructor
  · intro hc t ht
    obtain ⟨ct, h1, h2⟩ := hc t ht
    exact ⟨ct, by rw [← h t ht]; exact h1, h2⟩
  · intro hc t ht
    obtain ⟨ct, h1, h2⟩ := hc t ht
    exact ⟨ct, by rw [h t ht]; exact h1, h2⟩

theorem pruned_congr (V : Nat → List Nat) (cm cm1 : Nat → Option AltBinding)
    (arr : List AltBinding) (r j i : Nat) (h : ∀ t, t < j → cm1 t = cm t)
    (hp : Pruned V cm arr r j i) : Pruned V cm1 arr r j i := by
  obtain ⟨h1, h2, h3⟩ := hp
  exact ⟨h1, fun a ha => (compatBelow_congr V cm cm1 j i a h).2 (h2 a ha),
    fun a ha hc => h3 a ha ((compatBelow_congr V cm cm1 j i a h).1 hc)⟩

theorem compatBelow_mono (V : Nat → List Nat) (cm : Nat → Option AltBinding) (j1 j2 i : Nat)
    (a : AltBinding) (h : j2 ≤ j1) (hc : CompatBelow V cm j1 i a) : CompatBelow V cm j2 i a :=
  fun t ht => hc t (by omega)

theorem compatBelow_succ (V : Nat → List Nat) (cm : Nat → Option AltBinding) (b i : Nat)
    (a cand : AltBinding) (hb : cm b = some cand) :
    CompatBelow V cm (b + 1) i a ↔ CompatBelow V cm b i a ∧
      compatibleBindings (intersectInfo (V b) (V i)) cand.bindings a.bindings = true := by
  constructor
  · intro hc
    refine ⟨fun t ht => hc t (by omega), ?_⟩
    obtain ⟨ct, h1, h2⟩ := hc b (by omega)
    rw [hb] at h1
    simp only [Option.some.injEq] at h1
    rw [h1]; exact h2
  · intro ⟨h1, h2⟩ t ht
    by_cases htb : t = b
    · subst htb
      exact ⟨cand, hb, h2⟩
    · exact h1 t (by omega)

/-- The cut-off of a higher level is not behind the cut-off of a lower
level. -/
theorem pruned_mono (V : Nat → List Nat) (cm : Nat → Option AltBinding) (arr : List AltBinding)
    (r1 r2 j1 j2 i : Nat) (h : j2 ≤ j1) (h1 : Pruned V cm arr r1 j1 i)
    (h2 : Pruned V cm arr r2 j2 i) : r1 ≤ r2 := by
  by_contra hc
  have hr2 : r2 < arr.length := by have := h1.1; omega
  have hmem1 : arr[r2] ∈ arr.take r1 := by
    rw [List.mem_take_iff_getElem]
    exact ⟨r2, by omega, rfl⟩
  have hmem2 : arr[r2] ∈ arr.drop r2 := by
    rw [List.mem_drop_iff_getElem]
    exact ⟨0, by simpa using hr2, by simp⟩
  exact h2.2.2 _ hmem2 (compatBelow_mono V cm j1 j2 i _ h (h1.2.1 _ hmem1))

/-- A rearrangement of the first entries of an array below the cut-off of a
level keeps the array pruned at this level. -/
theorem pruned_prefixPerm (V : Nat → List Nat) (cm : Nat → Option AltBinding)
    (arr arr1 : List AltBinding) (r rj j i : Nat) (hp : Pruned V cm arr rj j i)
    (hq : PrefixPerm arr1 arr r) (hr : r ≤ rj) : Pruned V cm arr1 rj j i := by
  obtain ⟨h1, h2, h3⟩ := hp
  obtain ⟨ht, hd⟩ := prefixPerm_take_drop arr1 arr r rj hq hr
  refine ⟨by rw [(prefixPerm_perm arr1 arr r hq).length_eq]; exact h1, ?_, ?_⟩
  · intro a ha
    exact h2 a (ht.mem_iff.1 ha)
  · intro a ha
    rw [hd] at ha
    exact h3 a ha

/-- One pruning step takes an array pruned at level `b` to one pruned at level
`b + 1`, for the choice `cand` at the base literal `b`. -/
theorem pruned_step (V : Nat → List Nat) (cm : Nat → Option AltBinding) (arr arr1 : List AltBinding)
    (r r1 b i : Nat) (cand : AltBinding) (hb : cm b = some cand) (hp : Pruned V cm arr r b i)
    (hres : PruneRes (fun a => compatibleBindings (intersectInfo (V b) (V i)) cand.bindings a.bindings)
      arr r arr1 r1) :
    Pruned V cm arr1 r1 (b + 1) i ∧ r1 ≤ r ∧
      (r1 = 0 → ∀ a ∈ arr, ¬ CompatBelow V cm (b + 1) i a) := by
  obtain ⟨h1, h2, h3⟩ := hp
  obtain ⟨pre, mid, e, hperm, hlen, hok, hnok⟩ := hres
  have hlt : (arr.take r).length = r := by simp; omega
  have hpm : (pre ++ mid).length = r := by rw [hperm.length_eq, hlt]
  have hr1 : r1 ≤ r := by
    rw [← hlen, ← hpm]; simp
  have htake : arr1.take r1 = pre := by
    rw [e, ← hlen, List.append_assoc, List.take_left]
  have hdrop : arr1.drop r1 = mid ++ arr.drop r := by
    rw [e, ← hlen, List.append_assoc, List.drop_left]
  refine ⟨⟨?_, ?_, ?_⟩, hr1, ?_⟩
  · rw [e, ← hlen]; simp
  · intro a ha
    rw [htake] at ha
    refine (compatBelow_succ V cm b i a cand hb).2 ⟨?_, hok a ha⟩
    exact h2 a (hperm.mem_iff.1 (List.mem_append_left _ ha))
  · intro a ha hc
    rw [hdrop] at ha
    obtain ⟨hc1, hc2⟩ := (compatBelow_succ V cm b i a cand hb).1 hc
    rcases List.mem_append.1 ha with ha | ha
    · have := hnok a ha
      simp only [] at this
      rw [hc2] at this
      exact absurd this (by simp)
    · exact h3 a ha hc1
  · intro h0 a ha hc
    obtain ⟨hc1, hc2⟩ := (compatBelow_succ V cm b i a cand hb).1 hc
    have hpre : pre = [] := List.length_eq_zero.1 (by omega)
    rw [← List.take_append_drop r arr] at ha
    rcases List.mem_append.1 ha with ha | ha
    · have hm := hperm.mem_iff.2 ha
      rw [hpre, List.nil_append] at hm
      have := hnok a hm
      simp only [] at this
      rw [hc2] at this
      exact absurd this (by simp)
    · exact h3 a ha hc1

end Kernel


namespace Kernel

open Indexing (Run Fault)

theorem static_refl (md : MatchingData) : Static md md := ⟨rfl, rfl, rfl, rfl, rfl⟩

theorem static_trans (a b c : MatchingData) (h1 : Static a b) (h2 : Static b c) : Static a c := by
  obtain ⟨a1, a2, a3, a4, a5⟩ := h1
  obtain ⟨b1, b2, b3, b4, b5⟩ := h2
  exact ⟨b1.trans a1, b2.trans a2, b3.trans a3, b4.trans a4, b5.trans a5⟩

/-- The method `getIntersectInfo` on two initialised base literals returns
the intersection info of their variables and changes the cache only. -/
theorem getIntersectInfo_spec (V : Nat → List Nat) (md : MatchingData) (b1 b2 : Nat)
    (hc : CacheOK V md) (h1 : md.boundVarNums b1 = some (V b1))
    (h2 : md.boundVarNums b2 = some (V b2)) :
    ∃ c1, md.getIntersectInfo b1 b2
        = .ok (intersectInfo (V b1) (V b2), { md with intersections := c1 }) ∧
      CacheOK V { md with intersections := c1 } := by
  unfold MatchingData.getIntersectInfo
  cases hi : md.intersections b2 b1 with
  | some res =>
    have := hc b1 b2 res hi
    subst this
    exact ⟨md.intersections, rfl, hc⟩
  | none =>
    simp only [h1, h2]
    refine ⟨_, rfl, ?_⟩
    intro i j x hx
    simp only [setAt2] at hx
    by_cases h : j = b2 ∧ i = b1
    · simp only [h, and_self, if_true, Option.some.injEq] at hx
      rw [← hx, h.1, h.2]
    · simp only [h, if_false] at hx
      exact hc i j x hx

/-- The loop of `bindAlt`: with the result true every initialised base
literal from `i` on is pruned for the level `b + 1` and has an alternative
left; with the result false one of them has no alternative compatible with the
choices up to `b`. -/
theorem bindAltLoop_spec (V : Nat → List Nat) (cm : Nat → Option AltBinding) (b m : Nat)
    (cand : AltBinding) (hcm : cm b = some cand) :
    ∀ (n i : Nat) (md : MatchingData), i + n = md.len → b < i → m ≤ md.len →
      (∀ k, md.boundVarNums k = if k < m then some (V k) else none) → b < m → CacheOK V md →
      (∀ k, i ≤ k → k < m → Pruned V cm (md.altBindings k) (md.remaining k b) b k) →
      ∃ res md1, MatchingData.bindAltLoop b cand.bindings n i md = .ok (res, md1) ∧
        BindFrame i b md md1 ∧ CacheOK V md1 ∧
        (res = true → ∀ k, i ≤ k → k < m →
          Pruned V cm (md1.altBindings k) (md1.remaining k (b + 1)) (b + 1) k ∧
            0 < md1.remaining k (b + 1)) ∧
        (res = false → ∃ k, i ≤ k ∧ k < m ∧
          ∀ a ∈ md.altBindings k, ¬ CompatBelow V cm (b + 1) k a) := by
  intro n
  induction n with
  | zero =>
    intro i md hlen hbi hm hinit hbm hcache hpr
    refine ⟨true, md, rfl, ⟨static_refl md, rfl, rfl, fun _ _ => rfl,
      fun k => prefixPerm_refl _ _, fun _ _ _ => rfl⟩, hcache, ?_, by simp⟩
    intro _ k hk1 hk2
    omega
  | succ n ih =>
    intro i md hlen hbi hm hinit hbm hcache hpr
    rw [MatchingData.bindAltLoop]
    by_cases hi : i < m
    · have hini : md.isInitialized i = true := by
        simp [MatchingData.isInitialized, hinit i, hi]
      simp only [hini, Bool.not_true, Bool.false_eq_true, if_false]
      obtain ⟨c1, hg, hc1⟩ := getIntersectInfo_spec V md b i hcache
        (by rw [hinit b]; simp [hbm]) (by rw [hinit i]; simp [hi])
      rw [hg]
      simp only []
      have hpi := hpr i (Nat.le_refl _) hi
      obtain ⟨arr1, r1, hps, hres⟩ := pruneStep_spec cand.bindings (intersectInfo (V b) (V i))
        (md.altBindings i) (md.remaining i b) hpi.1
      rw [hps]
      simp only []
      obtain ⟨hp1, hr1, hzero⟩ := pruned_step V cm (md.altBindings i) arr1 (md.remaining i b) r1 b i
        cand hcm hpi hres
      have hpp := pruneRes_prefixPerm _ _ _ _ _ hres
      by_cases h0 : r1 = 0
      · simp only [h0, if_true]
        refine ⟨false, _, rfl, ⟨⟨rfl, rfl, rfl, rfl, rfl⟩, rfl, rfl, ?_, ?_, ?_⟩, hc1, by simp, ?_⟩
        · intro k hk
          simp only [setAt]
          have : k ≠ i := by omega
          simp [this]
        · intro k
          simp only [setAt]
          by_cases hk : k = i
          · simp only [hk, if_true]; exact hpp
          · simp only [hk, if_false]; exact prefixPerm_refl _ _
        · intro k j _
          rfl
        · intro _
          exact ⟨i, Nat.le_refl _, hi, hzero h0⟩
      · simp only [h0, if_false]
        have hlen2 : i + 1 + n = md.len := by omega
        obtain ⟨res, md3, hloop, hfr, hc3, ht, hf⟩ := ih (i + 1)
          { md with intersections := c1, altBindings := setAt md.altBindings i arr1,
                    remaining := setAt2 md.remaining i (b + 1) r1 }
          hlen2 (by omega) hm hinit hbm hc1
          (by
            intro k hk1 hk2
            simp only []
            have hki : k ≠ i := by omega
            rw [setAt_ne _ _ _ _ hki, setAt2_ne _ _ _ _ _ _ (Or.inl hki)]
            exact hpr k (by omega) hk2)
        obtain ⟨f1, f2, f3, f4, f5, f6⟩ := hfr
        simp only [] at hloop f1 f2 f3 f4 f5 f6 ht hf
        refine ⟨res, md3, hloop, ⟨?_, f2, f3, ?_, ?_, ?_⟩, hc3, ?_, ?_⟩
        · exact static_trans md _ _ ⟨rfl, rfl, rfl, rfl, rfl⟩ f1
        · intro k hk
          rw [f4 k (by omega), setAt_ne _ _ _ _ (by omega)]
        · intro k
          by_cases hk : k = i
          · subst hk
            rw [f4 k (by omega), setAt_same]
            exact hpp
          · have := f5 k
            rw [setAt_ne _ _ _ _ hk, setAt2_ne _ _ _ _ _ _ (Or.inl hk)] at this
            exact this
        · intro k j hkj
          have h1 : md3.remaining k j = setAt2 md.remaining i (b + 1) r1 k j :=
            f6 k j (by rcases hkj with h | h; exact Or.inl h; exact Or.inr (by omega))
          rw [h1, setAt2_ne]
          rcases hkj with h | h
          · exact Or.inr h
          · exact Or.inl (by omega)
        · intro hres k hk1 hk2
          by_cases hk : k = i
          · subst hk
            rw [f4 k (by omega), setAt_same, f6 k (b + 1) (Or.inr (by omega)), setAt2_same]
            exact ⟨hp1, by omega⟩
          · exact ht hres k (by omega) hk2
        · intro hres
          obtain ⟨k, hk1, hk2, hk3⟩ := hf hres
          refine ⟨k, by omega, hk2, ?_⟩
          rw [setAt_ne _ _ _ _ (by omega)] at hk3
          exact hk3
    · have hini : md.isInitialized i = false := by
        simp [MatchingData.isInitialized, hinit i, hi]
      simp only [hini, Bool.not_false, if_true]
      refine ⟨true, md, rfl, ⟨static_refl md, rfl, rfl, fun _ _ => rfl,
        fun k => prefixPerm_refl _ _, fun _ _ _ => rfl⟩, hcache, ?_, by simp⟩
      intro _ k hk1 hk2
      omega

end Kernel


namespace Kernel

open Indexing (Run Fault)

theorem committed_congr (md md1 : MatchingData) (t : Nat) (h1 : md1.nextAlts t = md.nextAlts t)
    (h2 : md1.altBindings t = md.altBindings t) : md1.committed t = md.committed t := by
  simp only [MatchingData.committed, h1, h2]

theorem committed_some (md : MatchingData) (t : Nat) (ct : AltBinding)
    (h : md.committed t = some ct) :
    ∃ k, md.nextAlts t = k + 1 ∧ (md.altBindings t).get? k = some ct := by
  unfold MatchingData.committed at h
  cases hn : md.nextAlts t with
  | zero => rw [hn] at h; simp at h
  | succ k => rw [hn] at h; exact ⟨k, rfl, h⟩

/-- The loop of `ensureInit`: it prunes the array of the new base literal `b`
for all levels up to `b`. -/
theorem ensureInitLoop_spec (V : Nat → List Nat) (b m : Nat) (hbm : b < m) :
    ∀ (n pbi r0 : Nat) (md : MatchingData), pbi + n = b →
      (∀ k, md.boundVarNums k = if k < m then some (V k) else none) → CacheOK V md →
      (∀ t, t < b → ∃ ct, md.committed t = some ct) →
      (∀ j, j ≤ pbi → Pruned V md.committed (md.altBindings b) (md.remaining b j) j b) →
      ∃ r md1, MatchingData.ensureInitLoop b n pbi r0 md = .ok (r, md1) ∧
        InitFrame pbi b md md1 ∧ CacheOK V md1 ∧
        (∀ j, j ≤ b → Pruned V md.committed (md1.altBindings b) (md1.remaining b j) j b) ∧
        (n = 0 → r = r0) ∧ (0 < n → r = md1.remaining b b) := by
  intro n
  induction n with
  | zero =>
    intro pbi r0 md hlen hinit hcache hcom hpr
    refine ⟨r0, md, rfl, ⟨static_refl md, rfl, rfl, fun _ _ => rfl, List.Perm.refl _,
      fun _ _ _ => rfl⟩, hcache, ?_, fun _ => rfl, fun h => absurd h (by omega)⟩
    intro j hj
    exact hpr j (by omega)
  | succ n ih =>
    intro pbi r0 md hlen hinit hcache hcom hpr
    rw [MatchingData.ensureInitLoop]
    have hpb : pbi < b := by omega
    obtain ⟨c1, hg, hc1⟩ := getIntersectInfo_spec V md pbi b hcache
      (by rw [hinit pbi]; simp; omega) (by rw [hinit b]; simp [hbm])
    rw [hg]
    simp only []
    obtain ⟨ct, hct⟩ := hcom pbi hpb
    obtain ⟨k, hk1, hk2⟩ := committed_some md pbi ct hct
    have hpi := hpr pbi (Nat.le_refl _)
    obtain ⟨arr1, r1, hps, hres⟩ := pruneStep_spec ct.bindings (intersectInfo (V pbi) (V b))
      (md.altBindings b) (md.remaining b pbi) hpi.1
    rw [hk1]
    simp only [hk2]
    rw [hps]
    simp only []
    obtain ⟨hp1, hr1, _⟩ := pruned_step V md.committed (md.altBindings b) arr1 (md.remaining b pbi)
      r1 pbi b ct hct hpi hres
    have hpp := pruneRes_prefixPerm _ _ _ _ _ hres
    have hcomm2 : ∀ t, t < b →
        ({ md with intersections := c1, altBindings := setAt md.altBindings b arr1,
                   remaining := setAt2 md.remaining b (pbi + 1) r1 } : MatchingData).committed t
          = md.committed t := by
      intro t ht
      apply committed_congr
      · rfl
      · exact setAt_ne _ _ _ _ (by omega)
    obtain ⟨r, md3, hloop, hfr, hc3, hp3, hr0, hrn⟩ := ih (pbi + 1) r1
      { md with intersections := c1, altBindings := setAt md.altBindings b arr1,
                remaining := setAt2 md.remaining b (pbi + 1) r1 }
      (by omega) hinit hc1
      (by
        intro t ht
        rw [hcomm2 t ht]
        exact hcom t ht)
      (by
        intro j hj
        apply pruned_congr V md.committed _ _ _ _ _ (fun t ht => hcomm2 t (by omega))
        simp only [setAt_same]
        by_cases hjp : j = pbi + 1
        · subst hjp
          rw [setAt2_same]
          exact hp1
        · rw [setAt2_ne _ _ _ _ _ _ (Or.inr hjp)]
          have hj2 : j ≤ pbi := by omega
          exact pruned_prefixPerm V md.committed _ _ _ _ _ _ (hpr j hj2) hpp
            (pruned_mono V md.committed _ _ _ _ _ _ hj2 hpi (hpr j hj2)))
    obtain ⟨f1, f2, f3, f4, f5, f6⟩ := hfr
    simp only [] at hloop f1 f2 f3 f4 f5 f6 hp3 hrn
    refine ⟨r, md3, hloop, ⟨?_, f2, f3, ?_, ?_, ?_⟩, hc3, ?_, fun h => absurd h (by omega), ?_⟩
    · exact static_trans md _ _ ⟨rfl, rfl, rfl, rfl, rfl⟩ f1
    · intro k hk
      rw [f4 k hk, setAt_ne _ _ _ _ hk]
    · rw [setAt_same] at f5
      exact f5.trans (prefixPerm_perm _ _ _ hpp)
    · intro k j hkj
      have h1 : md3.remaining k j = setAt2 md.remaining b (pbi + 1) r1 k j :=
        f6 k j (by rcases hkj with h | h; exact Or.inl h; exact Or.inr (by omega))
      rw [h1, setAt2_ne]
      rcases hkj with h | h
      · exact Or.inl h
      · exact Or.inr (by omega)
    · intro j hj
      exact pruned_congr V _ md.committed _ _ _ _ (fun t ht => (hcomm2 t (by omega)).symm)
        (hp3 j hj)
    · intro _
      by_cases hn : n = 0
      · have hb : b = pbi + 1 := by omega
        rw [hr0 hn, f6 b b (Or.inr (by omega)), hb, setAt2_same]
      · exact hrn (by omega)

end Kernel


namespace Kernel

open Indexing (Run Fault)

/-- Every base literal before the current one is committed to an alternative
among those that the pruning for its own level has left. -/
theorem committed_exists (V : Nat → List Nat) (A : Nat → List AltBinding) (m c : Nat)
    (md : MatchingData) (hinv : MDInv V A m c md) (hcm : c ≤ m) (t : Nat) (ht : t < c) :
    ∃ ct, md.committed t = some ct ∧ ct ∈ (md.altBindings t).take (md.remaining t t) := by
  obtain ⟨h1, h2⟩ := hinv.commit t ht
  have hp := hinv.rem t t (by omega) (by omega) (Nat.le_refl _)
  have hl := hp.1
  obtain ⟨k, hk⟩ : ∃ k, md.nextAlts t = k + 1 := ⟨md.nextAlts t - 1, by omega⟩
  have hkl : k < (md.altBindings t).length := by omega
  refine ⟨(md.altBindings t)[k], ?_, ?_⟩
  · unfold MatchingData.committed
    rw [hk]
    simp only [List.get?_eq_getElem?]
    exact List.getElem?_eq_getElem hkl
  · rw [List.mem_take_iff_getElem]
    exact ⟨k, by rw [Nat.min_def]; split <;> omega, rfl⟩

theorem pruned_zero (V : Nat → List Nat) (cm : Nat → Option AltBinding) (arr : List AltBinding)
    (i : Nat) : Pruned V cm arr arr.length 0 i := by
  refine ⟨Nat.le_refl _, ?_, ?_⟩
  · intro a _ t ht
    omega
  · intro a ha
    simp at ha

/-- The method `ensureInit` at the current base literal `c`: nothing happens
when `c` is initialised; otherwise its alternatives are created and pruned for
all levels up to `c`, and the result tells whether any alternative exists and
whether any is left. -/
theorem ensureInit_spec (V : Nat → List Nat) (A : Nat → List AltBinding) (m c : Nat)
    (md : MatchingData) (hinv : MDInv V A m c md) (hcr : Created md V A) (hc : c < md.len)
    (hcm : c ≤ m) :
    ∃ res md1, md.ensureInit c = .ok (res, md1) ∧ Static md md1 ∧ md1.nextAlts = md.nextAlts ∧
      (∀ k, k ≠ c → md1.altBindings k = md.altBindings k) ∧
      (c < m → md1 = md ∧ res = .OK) ∧
      (c = m →
        (res = .NO_ALTERNATIVE → A c = []) ∧
        (res ≠ .NO_ALTERNATIVE → (md1.altBindings c).Perm (A c) ∧ MDInv V A (m + 1) c md1 ∧
          (res = .MUST_BACKTRACK → 0 < c ∧ md1.remaining c c = 0) ∧
          (res = .OK → 0 < md1.remaining c c))) := by
  unfold MatchingData.ensureInit
  by_cases hlt : c < m
  · have hini : md.isInitialized c = true := by
      simp [MatchingData.isInitialized, hinv.init c, hlt]
    simp only [hini, if_true]
    exact ⟨.OK, md, rfl, static_refl md, rfl, fun _ _ => rfl, fun _ => ⟨rfl, rfl⟩,
      fun h => absurd h (by omega)⟩
  · have hceq : c = m := by omega
    subst hceq
    have hini : md.isInitialized c = false := by
      simp [MatchingData.isInitialized, hinv.init c]
    simp only [hini, Bool.false_eq_true, if_false]
    obtain ⟨base, alts, hb, ha, hcreate⟩ := hcr c hc
    rw [hb, ha]
    simp only [hcreate]
    by_cases hempty : (A c).length = 0
    · simp only [hempty, if_true]
      refine ⟨.NO_ALTERNATIVE, _, rfl, ⟨rfl, rfl, rfl, rfl, rfl⟩, rfl, ?_, fun h => absurd h (by omega),
        fun _ => ⟨fun _ => List.length_eq_zero.1 hempty, fun h => absurd rfl h⟩⟩
      intro k hk
      exact setAt_ne _ _ _ _ hk
    · simp only [hempty, if_false]
      have hinit0 : ∀ k, (setAt md.boundVarNums c (some (V c))) k
          = if k < c + 1 then some (V k) else none := by
        intro k
        by_cases hk : k = c
        · subst hk; simp [setAt]
        · rw [setAt_ne _ _ _ _ hk, hinv.init k]
          by_cases hk2 : k < c
          · have : k < c + 1 := by omega
            simp [hk2, this]
          · have : ¬ k < c + 1 := by omega
            simp [hk2, this]
      have hcomm0 : ∀ t, t < c →
          ({ md with boundVarNums := setAt md.boundVarNums c (some (V c)),
                     altBindings := setAt md.altBindings c (A c),
                     remaining := setAt2 md.remaining c 0 (A c).length } : MatchingData).committed t
            = md.committed t := by
        intro t ht
        apply committed_congr
        · rfl
        · exact setAt_ne _ _ _ _ (by omega)
      obtain ⟨r, md1, hloop, hfr, hc1, hp1, hr0, hrn⟩ := ensureInitLoop_spec V c (c + 1) (by omega)
        c 0 0
        { md with boundVarNums := setAt md.boundVarNums c (some (V c)),
                  altBindings := setAt md.altBindings c (A c),
                  remaining := setAt2 md.remaining c 0 (A c).length }
        (by omega) hinit0 hinv.cache
        (by
          intro t ht
          rw [hcomm0 t ht]
          obtain ⟨ct, h1, _⟩ := committed_exists V A c c md hinv hcm t ht
          exact ⟨ct, h1⟩)
        (by
          intro j hj
          have hj0 : j = 0 := by omega
          subst hj0
          simp only [setAt_same, setAt2_same]
          exact pruned_zero V _ _ _)
      rw [hloop]
      simp only []
      obtain ⟨f1, f2, f3, f4, f5, f6⟩ := hfr
      simp only [] at f1 f2 f3 f4 f5 f6 hp1
      rw [setAt_same] at f5
      have hcomm1 : ∀ t, t < c → md1.committed t = md.committed t := by
        intro t ht
        apply committed_congr
        · rw [f3]
        · rw [f4 t (by omega)]
          exact setAt_ne _ _ _ _ (by omega)
      have hinv1 : MDInv V A (c + 1) c md1 := by
        refine ⟨?_, ?_, hc1, ?_, ?_⟩
        · intro k; rw [f2]; exact hinit0 k
        · intro i hi
          by_cases hic : i = c
          · subst hic; exact f5
          · rw [f4 i hic, setAt_ne _ _ _ _ hic]
            exact hinv.perm i (by omega)
        · intro i j hi hj hji
          by_cases hic : i = c
          · subst hic
            exact pruned_congr V _ _ _ _ _ _ (fun t ht => (hcomm1 t (by omega)).trans
              (hcomm0 t (by omega)).symm) (hp1 j hj)
          · rw [f4 i hic, setAt_ne _ _ _ _ hic, f6 i j (Or.inl hic),
              setAt2_ne _ _ _ _ _ _ (Or.inl hic)]
            exact pruned_congr V _ _ _ _ _ _ (fun t ht => hcomm1 t (by omega))
              (hinv.rem i j (by omega) hj hji)
        · intro t ht
          rw [f3, f6 t t (Or.inl (by omega)), setAt2_ne _ _ _ _ _ _ (Or.inl (by omega))]
          exact hinv.commit t ht
      have hrem0 : c = 0 → md1.remaining c c = (A c).length := by
        intro h0
        rw [f6 c c (Or.inr (by omega))]
        simp only [h0, setAt2_same]
      by_cases hmb : c > 0 ∧ r = 0
      · rw [if_pos hmb]
        refine ⟨.MUST_BACKTRACK, md1, rfl, static_trans md _ _ ⟨rfl, rfl, rfl, rfl, rfl⟩ f1, f3, ?_,
          fun h => absurd h (by omega), fun _ => ⟨fun h => by simp at h, fun _ => ⟨f5, hinv1, ?_, ?_⟩⟩⟩
        · intro k hk
          rw [f4 k hk]; exact setAt_ne _ _ _ _ hk
        · intro _
          exact ⟨hmb.1, by rw [← hrn hmb.1]; exact hmb.2⟩
        · intro h; simp at h
      · rw [if_neg hmb]
        refine ⟨.OK, md1, rfl, static_trans md _ _ ⟨rfl, rfl, rfl, rfl, rfl⟩ f1, f3, ?_,
          fun h => absurd h (by omega), fun _ => ⟨fun h => by simp at h, fun _ => ⟨f5, hinv1, ?_, ?_⟩⟩⟩
        · intro k hk
          rw [f4 k hk]; exact setAt_ne _ _ _ _ hk
        · intro h; simp at h
        · intro _
          by_cases h0 : c = 0
          · rw [hrem0 h0]; omega
          · rw [← hrn (by omega)]
            omega

end Kernel


namespace Kernel

open Indexing (Run Fault)

theorem prefixPerm_trans_same (a b c : List AltBinding) (r : Nat) (h1 : PrefixPerm b a r)
    (h2 : PrefixPerm c b r) : PrefixPerm c a r := by
  obtain ⟨ht, hd⟩ := prefixPerm_take_drop b a r r h1 (Nat.le_refl _)
  obtain ⟨q, e, hq⟩ := h2
  exact ⟨q, by rw [e, hd], hq.trans ht⟩

theorem scanInv_of_bindFrame (V : Nat → List Nat) (A : Nat → List AltBinding)
    (cm : Nat → Option AltBinding) (c m : Nat) (arrc : List AltBinding) (md md1 : MatchingData)
    (h : ScanInv V A cm c m arrc md) (hf : BindFrame (c + 1) c md md1) (hc : CacheOK V md1) :
    ScanInv V A cm c m arrc md1 := by
  obtain ⟨f1, f2, f3, f4, f5, f6⟩ := hf
  refine ⟨?_, hc, ?_, ?_, ?_⟩
  · intro k; rw [f2]; exact h.init k
  · intro i h1 h2
    exact (prefixPerm_perm _ _ _ (f5 i)).trans (h.perm i h1 h2)
  · intro i h1 h2
    rw [f6 i c (Or.inl (by omega))]
    exact pruned_prefixPerm V cm _ _ _ _ _ _ (h.pruned i h1 h2) (f5 i) (Nat.le_refl _)
  · rw [f4 c (by omega)]; exact h.arrc

theorem scanInv_nextAlts (V : Nat → List Nat) (A : Nat → List AltBinding)
    (cm : Nat → Option AltBinding) (c m : Nat) (arrc : List AltBinding) (md : MatchingData)
    (h : ScanInv V A cm c m arrc md) (f : Nat → Nat) :
    ScanInv V A cm c m arrc { md with nextAlts := f } :=
  ⟨h.init, h.cache, h.perm, h.pruned, h.arrc⟩

/-- The inner loop of `canBeMatched` at the base literal `c`: every
alternative that the cursor passes is refused, and the alternative at which it
stops below `maxAlt` is free and leaves every initialised base literal after
`c` with an alternative. -/
theorem scanAlts_spec (multiset : Bool) (matchRecord : List Nat) (V : Nat → List Nat)
    (A : Nat → List AltBinding) (cm : Nat → Option AltBinding) (c m maxAlt : Nat)
    (arrc : List AltBinding) (hcm : c < m) (hmax : maxAlt ≤ arrc.length)
    (hrec : ∀ a ∈ arrc, ∃ v, matchRecord.get? a.record = some v ∧ (v < c ↔ Taken cm c a)) :
    ∀ (n : Nat) (md : MatchingData), md.nextAlts c + n = maxAlt → m ≤ md.len →
      ScanInv V A cm c m arrc md →
      ∃ md2, scanAlts multiset matchRecord c maxAlt n md = .ok md2 ∧ ScanFrame c md md2 ∧
        ScanInv V A cm c m arrc md2 ∧ md2.nextAlts c ≤ maxAlt ∧
        (∀ x ∈ (arrc.drop (md.nextAlts c)).take (md2.nextAlts c - md.nextAlts c),
          Refused multiset V A cm c m x) ∧
        (md2.nextAlts c < maxAlt → ∃ cand, arrc.get? (md2.nextAlts c) = some cand ∧
          (multiset = true → ¬ Taken cm c cand) ∧
          ∀ i, c < i → i < m →
            Pruned V (setAt cm c (some cand)) (md2.altBindings i) (md2.remaining i (c + 1))
              (c + 1) i ∧ 0 < md2.remaining i (c + 1)) := by
  intro n
  induction n with
  | zero =>
    intro md hn hm hinv
    refine ⟨md, rfl, ⟨static_refl md, rfl, fun _ _ => rfl, Nat.le_refl _, fun _ _ => rfl,
      fun k => prefixPerm_refl _ _, fun _ _ _ => rfl⟩, hinv, by omega, ?_, fun h => absurd h (by omega)⟩
    intro x hx
    simp at hx
  | succ n ih =>
    intro md hn hm hinv
    have hlt : md.nextAlts c < maxAlt := by omega
    have hkl : md.nextAlts c < arrc.length := by omega
    have hget : (md.altBindings c).get? (md.nextAlts c) = some arrc[md.nextAlts c] := by
      rw [hinv.arrc, List.get?_eq_getElem?]
      exact List.getElem?_eq_getElem hkl
    have hxmem : arrc[md.nextAlts c] ∈ arrc := List.getElem_mem _
    obtain ⟨v, hv, hvt⟩ := hrec _ hxmem
    have hdrop : arrc.drop (md.nextAlts c) = arrc[md.nextAlts c] :: arrc.drop (md.nextAlts c + 1) :=
      List.drop_eq_getElem_cons hkl
    -- what the recursive call gives, when the cursor has moved past the alternative
    have hskip : ∀ (md1 : MatchingData), m ≤ md1.len → ScanInv V A cm c m arrc md1 →
        md1.nextAlts c = md.nextAlts c → ScanFrame c md md1 →
        Refused multiset V A cm c m arrc[md.nextAlts c] →
        ∃ md2, scanAlts multiset matchRecord c maxAlt n
            { md1 with nextAlts := setAt md1.nextAlts c (md1.nextAlts c + 1) } = .ok md2 ∧
          ScanFrame c md md2 ∧ ScanInv V A cm c m arrc md2 ∧ md2.nextAlts c ≤ maxAlt ∧
          (∀ x ∈ (arrc.drop (md.nextAlts c)).take (md2.nextAlts c - md.nextAlts c),
            Refused multiset V A cm c m x) ∧
          (md2.nextAlts c < maxAlt → ∃ cand, arrc.get? (md2.nextAlts c) = some cand ∧
            (multiset = true → ¬ Taken cm c cand) ∧
            ∀ i, c < i → i < m →
              Pruned V (setAt cm c (some cand)) (md2.altBindings i) (md2.remaining i (c + 1))
                (c + 1) i ∧ 0 < md2.remaining i (c + 1)) := by
      intro md1 hm1 hinv1 hna hfr href
      obtain ⟨md2, h1, h2, h3, h4, h5, h6⟩ := ih
        { md1 with nextAlts := setAt md1.nextAlts c (md1.nextAlts c + 1) }
        (by simp only [setAt_same]; omega) hm1 (scanInv_nextAlts V A cm c m arrc md1 hinv1 _)
      obtain ⟨g1, g2, g3, g4, g5, g6, g7⟩ := h2
      obtain ⟨e1, e2, e3, e4, e5, e6, e7⟩ := hfr
      simp only [setAt_same] at g4 h5
      rw [hna] at g4 h5
      simp only [] at g1 g2 g3 g5 g6 g7
      refine ⟨md2, h1, ⟨static_trans _ _ _ e1 g1, g2.trans e2, ?_, by omega, ?_, ?_, ?_⟩, h3, h4, ?_, h6⟩
      · intro t ht
        rw [g3 t ht, setAt_ne _ _ _ _ ht, e3 t ht]
      · intro k hk
        rw [g5 k hk, e5 k hk]
      · intro k
        have := g6 k
        rw [e7 k c (by omega)] at this
        exact prefixPerm_trans_same _ _ _ _ (e6 k) this
      · intro k j hj
        rw [g7 k j hj, e7 k j hj]
      · intro x hx
        rw [hdrop] at hx
        have h7 : md2.nextAlts c - md.nextAlts c = (md2.nextAlts c - (md.nextAlts c + 1)) + 1 := by
          omega
        rw [h7, List.take_succ_cons, List.mem_cons] at hx
        rcases hx with hx | hx
        · rw [hx]; exact href
        · exact h5 x hx
    have hcheck : altTaken multiset matchRecord c md = .ok (multiset && decide (v < c)) := by
      unfold altTaken
      cases multiset with
      | true => simp only [if_true, MatchingData.getAltRecordIndex, hget, hv, Bool.true_and]
      | false => simp
    rw [scanAlts]
    simp only [hlt, if_true]
    rw [hcheck]
    by_cases htaken : multiset = true ∧ v < c
    · -- the record index is taken
      have : (multiset && decide (v < c)) = true := by simp [htaken.1, htaken.2]
      rw [this]
      simp only []
      exact hskip md hm hinv rfl ⟨static_refl md, rfl, fun _ _ => rfl, Nat.le_refl _, fun _ _ => rfl,
        fun k => prefixPerm_refl _ _, fun _ _ _ => rfl⟩ (Or.inl ⟨htaken.1, hvt.1 htaken.2⟩)
    · have : (multiset && decide (v < c)) = false := by
        cases hms : multiset with
        | true =>
          have : ¬ v < c := fun h => htaken ⟨hms, h⟩
          simp [this]
        | false => simp
      rw [this]
      simp only []
      unfold MatchingData.bindAlt
      rw [hget]
      simp only []
      obtain ⟨res, md1, hb, hfr, hc1, ht, hf⟩ := bindAltLoop_spec V
        (setAt cm c (some arrc[md.nextAlts c])) c m arrc[md.nextAlts c] (setAt_same _ _ _)
        (md.len - (c + 1)) (c + 1) md (by omega) (by omega) hm hinv.init hcm hinv.cache
        (by
          intro k hk1 hk2
          exact pruned_congr V cm _ _ _ _ _ (fun t ht => setAt_ne _ _ _ _ (by omega))
            (hinv.pruned k (by omega) hk2))
      rw [hb]
      have hinv1 := scanInv_of_bindFrame V A cm c m arrc md md1 hinv hfr hc1
      obtain ⟨f1, f2, f3, f4, f5, f6⟩ := hfr
      have hfr1 : ScanFrame c md md1 := ⟨f1, f2, fun t _ => by rw [f3], by rw [f3],
        fun k hk => f4 k (by omega), f5, fun k j hj => f6 k j (Or.inl hj)⟩
      cases res with
      | true =>
        simp only []
        refine ⟨md1, rfl, hfr1, hinv1, by rw [f3]; omega, ?_, ?_⟩
        · intro x hx
          rw [f3] at hx
          simp at hx
        · intro _
          rw [f3]
          refine ⟨arrc[md.nextAlts c], ?_, ?_, ?_⟩
          · rw [List.get?_eq_getElem?]; exact List.getElem?_eq_getElem hkl
          · intro hms htk
            exact htaken ⟨hms, hvt.2 htk⟩
          · intro i hi1 hi2
            exact ht rfl i (by omega) hi2
      | false =>
        simp only []
        obtain ⟨k, hk1, hk2, hk3⟩ := hf rfl
        exact hskip md1 (by rw [f1.1]; exact hm) hinv1 (by rw [f3]) hfr1
          (Or.inr ⟨k, by omega, hk2, fun a ha =>
            hk3 a ((hinv.perm k (by omega) hk2).mem_iff.2 ha)⟩)

end Kernel


namespace Kernel

open Indexing (Run Fault)

theorem mdInv_lower (V : Nat → List Nat) (A : Nat → List AltBinding) (m c c1 : Nat)
    (md : MatchingData) (h : MDInv V A m c md) (hc : c1 ≤ c) : MDInv V A m c1 md :=
  ⟨h.init, h.perm, h.cache, fun i j hi hj hji => h.rem i j hi (by omega) hji,
    fun t ht => h.commit t (by omega)⟩

theorem recInv_lower (multiset : Bool) (recLen : Nat) (md : MatchingData) (c c1 : Nat)
    (rec : List Nat) (h : RecInv multiset recLen md c rec) (hc : c1 ≤ c) :
    RecInv multiset recLen md c1 rec :=
  ⟨h.hlen, fun p t ht => h.rec1 p t (by omega), fun t ct ht => h.rec2 t ct (by omega),
    fun hm t1 t2 c3 c4 h1 h2 => h.inj hm t1 t2 c3 c4 h1 (by omega)⟩

theorem recInv_congr (multiset : Bool) (recLen : Nat) (md md1 : MatchingData) (c : Nat)
    (rec : List Nat) (h : RecInv multiset recLen md c rec)
    (hcm : ∀ t, t < c → md1.committed t = md.committed t) : RecInv multiset recLen md1 c rec := by
  refine ⟨h.hlen, ?_, ?_, ?_⟩
  · intro p t ht hp
    rw [hcm t ht]; exact h.rec1 p t ht hp
  · intro t ct ht hct
    rw [hcm t ht] at hct; exact h.rec2 t ct ht hct
  · intro hm t1 t2 c1 c2 h1 h2 h3 h4
    rw [hcm t1 (by omega)] at h3
    rw [hcm t2 h2] at h4
    exact h.inj hm t1 t2 c1 c2 h1 h2 h3 h4

/-- The test of the inner loop on the match record tells whether the record
index of an alternative is taken by an earlier base literal. -/
theorem recInv_taken (multiset : Bool) (recLen : Nat) (md : MatchingData) (c : Nat)
    (rec : List Nat) (h : RecInv multiset recLen md c rec) (a : AltBinding)
    (ha : a.record < recLen) :
    ∃ v, rec.get? a.record = some v ∧ (v < c ↔ Taken md.committed c a) := by
  have hl : a.record < rec.length := by rw [h.hlen]; exact ha
  refine ⟨rec[a.record], by rw [List.get?_eq_getElem?]; exact List.getElem?_eq_getElem hl, ?_⟩
  constructor
  · intro hv
    obtain ⟨ct, h1, h2⟩ := h.rec1 a.record rec[a.record] hv
      (by rw [List.get?_eq_getElem?]; exact List.getElem?_eq_getElem hl)
    exact ⟨_, ct, hv, h1, h2⟩
  · intro ⟨t, ct, ht, h1, h2⟩
    obtain ⟨v, hv1, hv2⟩ := h.rec2 t ct ht h1
    rw [h2, List.get?_eq_getElem?, List.getElem?_eq_getElem hl] at hv1
    simp only [Option.some.injEq] at hv1
    omega

/-- The update of the match record at a commitment keeps the invariant of
the match record, now with the base literal `c` committed as well. -/
theorem commitRecord_spec (multiset : Bool) (recLen : Nat) (md md3 : MatchingData) (c : Nat)
    (rec : List Nat) (cand : AltBinding) (h : RecInv multiset recLen md c rec)
    (hr : cand.record < recLen) (hc : c < unclaimed)
    (hcm : ∀ t, t < c → md3.committed t = md.committed t)
    (hcc : md3.committed c = some cand)
    (hfree : multiset = true → ¬ Taken md.committed c cand) :
    ∃ rec1, commitRecord rec c cand.record = .ok rec1 ∧
      RecInv multiset recLen md3 (c + 1) rec1 := by
  have hl : cand.record < rec.length := by rw [h.hlen]; exact hr
  have hmapget : ∀ p, (rec.map (fun v => if v = c then unclaimed else v)).get? p
      = (rec.get? p).map (fun v => if v = c then unclaimed else v) := by
    intro p
    simp [List.get?_eq_getElem?]
  -- the invariant of the record after the entries `c` have been cleared
  have hclear1 : ∀ p t, t < c + 1 →
      (rec.map (fun v => if v = c then unclaimed else v)).get? p = some t →
      t < c ∧ rec.get? p = some t := by
    intro p t ht hp
    rw [hmapget] at hp
    cases hg : rec.get? p with
    | none => rw [hg] at hp; simp at hp
    | some v =>
      rw [hg] at hp
      simp only [Option.map_some', Option.some.injEq] at hp
      by_cases hv : v = c
      · simp only [hv, if_true] at hp
        omega
      · simp only [hv, if_false] at hp
        subst hp
        exact ⟨by omega, rfl⟩
  have hclear2 : ∀ p v, v < c → rec.get? p = some v →
      (rec.map (fun v => if v = c then unclaimed else v)).get? p = some v := by
    intro p v hv hp
    rw [hmapget, hp]
    simp only [Option.map_some', Option.some.injEq]
    have : v ≠ c := by omega
    simp [this]
  have hcget : ∃ v0, (rec.map (fun v => if v = c then unclaimed else v)).get? cand.record = some v0 ∧
      v0 ≠ c := by
    rw [hmapget, List.get?_eq_getElem?, List.getElem?_eq_getElem hl]
    simp only [Option.map_some', Option.some.injEq, exists_eq_left']
    by_cases hv : rec[cand.record] = c
    · simp only [hv, if_true]; omega
    · simp only [hv, if_false]; exact hv
  obtain ⟨v0, hv0, hv0c⟩ := hcget
  unfold commitRecord
  rw [hv0]
  simp only []
  have hinj : multiset = true → ∀ t1 t2 c1 c2, t1 < t2 → t2 < c + 1 →
      md3.committed t1 = some c1 → md3.committed t2 = some c2 → c1.record ≠ c2.record := by
    intro hm t1 t2 c1 c2 h1 h2 h3 h4
    by_cases ht2 : t2 = c
    · subst ht2
      rw [hcc] at h4
      simp only [Option.some.injEq] at h4
      subst h4
      rw [hcm t1 h1] at h3
      intro he
      exact hfree hm ⟨t1, c1, h1, h3, he⟩
    · rw [hcm t1 (by omega)] at h3
      rw [hcm t2 (by omega)] at h4
      exact h.inj hm t1 t2 c1 c2 h1 (by omega) h3 h4
  by_cases hgt : v0 > c
  · simp only [hgt, if_true]
    have hsetget : ∀ p, ((rec.map (fun v => if v = c then unclaimed else v)).set cand.record c).get? p
        = if p = cand.record then some c
          else (rec.map (fun v => if v = c then unclaimed else v)).get? p := by
      intro p
      by_cases hp : p = cand.record
      · subst hp
        simp only [if_true, List.get?_eq_getElem?]
        rw [List.getElem?_set_self (by simpa using hl)]
      · simp only [hp, if_false, List.get?_eq_getElem?]
        rw [List.getElem?_set_ne (Ne.symm hp)]
    refine ⟨_, rfl, ⟨by simp [h.hlen], ?_, ?_, hinj⟩⟩
    · intro p t ht hp
      rw [hsetget] at hp
      by_cases hpr : p = cand.record
      · simp only [hpr, if_true, Option.some.injEq] at hp
        subst hp
        exact ⟨cand, hcc, hpr.symm⟩
      · simp only [hpr, if_false] at hp
        obtain ⟨h1, h2⟩ := hclear1 p t ht hp
        rw [hcm t h1]
        exact h.rec1 p t h1 h2
    · intro t ct ht hct
      rw [hsetget]
      by_cases htc : t = c
      · subst htc
        rw [hcc] at hct
        simp only [Option.some.injEq] at hct
        subst hct
        exact ⟨t, by simp, Nat.le_refl _⟩
      · rw [hcm t (by omega)] at hct
        obtain ⟨v, h1, h2⟩ := h.rec2 t ct (by omega) hct
        by_cases hpr : ct.record = cand.record
        · exfalso
          have := hclear2 ct.record v (by omega) h1
          rw [hpr, hv0] at this
          simp only [Option.some.injEq] at this
          omega
        · simp only [hpr, if_false]
          exact ⟨v, hclear2 _ v (by omega) h1, h2⟩
  · simp only [hgt, if_false]
    refine ⟨_, rfl, ⟨by simp [h.hlen], ?_, ?_, hinj⟩⟩
    · intro p t ht hp
      obtain ⟨h1, h2⟩ := hclear1 p t ht hp
      rw [hcm t h1]
      exact h.rec1 p t h1 h2
    · intro t ct ht hct
      by_cases htc : t = c
      · subst htc
        rw [hcc] at hct
        simp only [Option.some.injEq] at hct
        subst hct
        exact ⟨v0, hv0, by omega⟩
      · rw [hcm t (by omega)] at hct
        obtain ⟨v, h1, h2⟩ := h.rec2 t ct (by omega) hct
        exact ⟨v, hclear2 _ v (by omega) h1, h2⟩

end Kernel


namespace Kernel

open Indexing (Run Fault)

theorem mem_drop_split {α : Type} (l : List α) (a b : Nat) (x : α) (hab : a ≤ b)
    (hx : x ∈ l.drop a) : x ∈ (l.drop a).take (b - a) ∨ x ∈ l.drop b := by
  have e : l.drop b = (l.drop a).drop (b - a) := by
    rw [List.drop_drop]
    congr 1
    omega
  rw [e]
  rw [← List.take_append_drop (b - a) (l.drop a)] at hx
  exact List.mem_append.1 hx

/-- The matching data after the inner loop satisfies the invariant of the
level `c` again. -/
theorem mdInv_scan (V : Nat → List Nat) (A : Nat → List AltBinding) (m c : Nat)
    (md1 md2 : MatchingData) (h : MDInv V A m c md1) (hf : ScanFrame c md1 md2)
    (hc : CacheOK V md2) : MDInv V A m c md2 := by
  obtain ⟨f1, f2, f3, f4, f5, f6, f7⟩ := hf
  have hcomm : ∀ t, t < c → md2.committed t = md1.committed t := fun t ht =>
    committed_congr md1 md2 t (f3 t (by omega)) (f5 t (by omega))
  refine ⟨?_, ?_, hc, ?_, ?_⟩
  · intro i; rw [f2]; exact h.init i
  · intro i hi
    exact (prefixPerm_perm _ _ _ (f6 i)).trans (h.perm i hi)
  · intro i j hi hj hji
    rw [f7 i j (by omega)]
    apply pruned_congr V md1.committed _ _ _ _ _ (fun t ht => hcomm t (by omega))
    by_cases hic : i < c
    · rw [f5 i (by omega)]
      exact h.rem i j hi hj hji
    · have hpc := h.rem i c hi (Nat.le_refl _) (by omega)
      have hpj := h.rem i j hi hj hji
      exact pruned_prefixPerm V md1.committed _ _ _ _ _ _ hpj (f6 i)
        (pruned_mono V md1.committed _ _ _ _ _ _ hj hpc hpj)
  · intro t ht
    rw [f3 t (by omega), f7 t t (by omega)]
    exact h.commit t ht

/-- The matching data when the base literal `c` commits to the alternative
under its cursor satisfies the invariant of the level `c + 1`. -/
theorem mdInv_commit (V : Nat → List Nat) (A : Nat → List AltBinding) (m c : Nat)
    (md2 : MatchingData) (cand : AltBinding) (f : Nat → Nat) (h : MDInv V A m c md2)
    (hk : md2.nextAlts c < md2.remaining c c)
    (hcand : (md2.altBindings c).get? (md2.nextAlts c) = some cand)
    (hp : ∀ i, c < i → i < m →
      Pruned V (setAt md2.committed c (some cand)) (md2.altBindings i) (md2.remaining i (c + 1))
        (c + 1) i)
    (hfc : f c = md2.nextAlts c + 1) (hft : ∀ t, t < c → f t = md2.nextAlts t) :
    MDInv V A m (c + 1) { md2 with nextAlts := f } ∧
      ({ md2 with nextAlts := f } : MatchingData).committed c = some cand ∧
      ∀ t, t < c → ({ md2 with nextAlts := f } : MatchingData).committed t = md2.committed t := by
  have hcomm : ∀ t, t < c →
      ({ md2 with nextAlts := f } : MatchingData).committed t = md2.committed t := fun t ht =>
    committed_congr md2 _ t (hft t ht) rfl
  have hcc : ({ md2 with nextAlts := f } : MatchingData).committed c = some cand := by
    simp only [MatchingData.committed, hfc]
    exact hcand
  refine ⟨⟨h.init, h.perm, h.cache, ?_, ?_⟩, hcc, hcomm⟩
  · intro i j hi hj hji
    by_cases hjc : j ≤ c
    · exact pruned_congr V md2.committed _ _ _ _ _ (fun t ht => hcomm t (by omega))
        (h.rem i j hi hjc hji)
    · have hj1 : j = c + 1 := by omega
      subst hj1
      apply pruned_congr V (setAt md2.committed c (some cand)) _ _ _ _ _ _ (hp i (by omega) hi)
      intro t ht
      by_cases htc : t = c
      · subst htc
        rw [hcc, setAt_same]
      · rw [hcomm t (by omega), setAt_ne _ _ _ _ htc]
  · intro t ht
    by_cases htc : t = c
    · subst htc
      simp only [hfc]
      omega
    · simp only [hft t (by omega)]
      exact h.commit t (by omega)

/-- A solution that follows the committed alternatives up to the current
base literal `c` does not go on with an alternative behind the cut-off of
`c`. -/
theorem complete_current (multiset resolved : Bool) (V : Nat → List Nat)
    (A : Nat → List AltBinding) (m c : Nat) (md : MatchingData) (h : MDInv V A m c md)
    (hcm : c < m) (hlen : c < md.len) (σ : Nat → AltBinding)
    (hs : IsSolution multiset resolved md.len V A σ)
    (hag : ∀ t, t < c → md.committed t = some (σ t)) :
    σ c ∉ (md.altBindings c).drop (md.remaining c c) := by
  intro hmem
  have hp := h.rem c c hcm (Nat.le_refl _) (Nat.le_refl _)
  apply hp.2.2 _ hmem
  intro t ht
  exact ⟨σ t, hag t ht, hs.2.1 t c ht hlen⟩

/-- When the cursor of the current base literal has reached its cut-off,
every solution leaves the committed alternatives before the current base
literal. -/
theorem complete_exhausted (multiset resolved : Bool) (V : Nat → List Nat)
    (A : Nat → List AltBinding) (m c : Nat) (md : MatchingData) (h : MDInv V A m c md)
    (hcm : c < m) (hlen : c < md.len) (hcomp : CompleteAt multiset resolved V A m md c)
    (hex : md.remaining c c ≤ md.nextAlts c) (σ : Nat → AltBinding)
    (hs : IsSolution multiset resolved md.len V A σ) :
    ∃ j, j < c ∧ (∀ t, t < j → md.committed t = some (σ t)) ∧
      σ j ∈ (if j < m then md.altBindings j else A j).drop (md.nextAlts j) := by
  obtain ⟨j, hj, hag, hmem⟩ := hcomp σ hs
  by_cases hjc : j = c
  · subst hjc
    exfalso
    simp only [hcm, if_true] at hmem
    apply complete_current multiset resolved V A m j md h hcm hlen σ hs hag
    obtain ⟨d, hd⟩ : ∃ d, md.nextAlts j = md.remaining j j + d := ⟨_, (Nat.add_sub_cancel' hex).symm⟩
    rw [hd, ← List.drop_drop] at hmem
    exact List.mem_of_mem_drop hmem
  · exact ⟨j, by omega, hag, hmem⟩

/-- Completeness after `ensureInit` has initialised the current base
literal. -/
theorem complete_ensure (multiset resolved : Bool) (V : Nat → List Nat)
    (A : Nat → List AltBinding) (c : Nat) (md md1 : MatchingData)
    (hcomp : CompleteAt multiset resolved V A c md c) (hst : Static md md1)
    (hna : md1.nextAlts = md.nextAlts) (hab : ∀ k, k ≠ c → md1.altBindings k = md.altBindings k)
    (hperm : (md1.altBindings c).Perm (A c)) (hcur : md.nextAlts c = 0) :
    CompleteAt multiset resolved V A (c + 1) md1 c := by
  intro σ hs
  rw [hst.1] at hs
  obtain ⟨j, hj, hag, hmem⟩ := hcomp σ hs
  refine ⟨j, hj, ?_, ?_⟩
  · intro t ht
    rw [committed_congr md md1 t (by rw [hna]) (hab t (by omega))]
    exact hag t ht
  · by_cases hjc : j = c
    · subst hjc
      simp only [Nat.lt_irrefl, if_false, hcur, List.drop_zero] at hmem
      simp only [Nat.lt_succ_self, if_true, hna, hcur, List.drop_zero]
      exact hperm.mem_iff.2 hmem
    · have h1 : j < c := by omega
      have h2 : j < c + 1 := by omega
      simp only [h1, if_true] at hmem
      simp only [h2, if_true, hna, hab j hjc]
      exact hmem

/-- Completeness after the inner loop: the alternatives that the cursor has
passed are in no solution that follows the committed alternatives. -/
theorem complete_scan (multiset resolved : Bool) (V : Nat → List Nat)
    (A : Nat → List AltBinding) (m c : Nat) (md md2 : MatchingData)
    (hcomp : CompleteAt multiset resolved V A m md c) (hcm : c < m) (hm : m ≤ md.len)
    (hf : ScanFrame c md md2)
    (href : ∀ x ∈ ((md.altBindings c).drop (md.nextAlts c)).take (md2.nextAlts c - md.nextAlts c),
      Refused multiset V A md.committed c m x) :
    CompleteAt multiset resolved V A m md2 c := by
  obtain ⟨f1, f2, f3, f4, f5, f6, f7⟩ := hf
  have hcomm : ∀ t, t < c → md2.committed t = md.committed t := fun t ht =>
    committed_congr md md2 t (f3 t (by omega)) (f5 t (by omega))
  intro σ hs
  rw [f1.1] at hs
  obtain ⟨j, hj, hag, hmem⟩ := hcomp σ hs
  refine ⟨j, hj, fun t ht => by rw [hcomm t (by omega)]; exact hag t ht, ?_⟩
  by_cases hjc : j = c
  · subst hjc
    simp only [hcm, if_true] at hmem ⊢
    rw [f5 j (Nat.le_refl _)]
    rcases mem_drop_split _ _ _ _ f4 hmem with h1 | h1
    · exfalso
      rcases href _ h1 with ⟨hms, t, ct, ht, hct, hrec⟩ | ⟨i, hi1, hi2, hno⟩
      · rw [hag t ht] at hct
        simp only [Option.some.injEq] at hct
        subst hct
        exact hs.2.2.1 hms t j ht (by omega) hrec
      · apply hno (σ i) (hs.1 i (by omega))
        intro t ht
        by_cases htj : t = j
        · subst htj
          exact ⟨σ t, setAt_same _ _ _, hs.2.1 t i hi1 (by omega)⟩
        · exact ⟨σ t, by rw [setAt_ne _ _ _ _ htj]; exact hag t (by omega),
            hs.2.1 t i (by omega) (by omega)⟩
    · exact h1
  · have hjm : j < m := by omega
    simp only [hjm, if_true] at hmem ⊢
    rw [f5 j hj, f3 j hjc]
    exact hmem

/-- Completeness after a commitment that is not the last one: the search
stands at the next base literal with its cursor at the start. -/
theorem complete_commit (multiset resolved : Bool) (V : Nat → List Nat)
    (A : Nat → List AltBinding) (m c : Nat) (md2 : MatchingData) (cand : AltBinding)
    (f : Nat → Nat) (hcomp : CompleteAt multiset resolved V A m md2 c) (hcm : c < m)
    (hlen : c + 1 < md2.len)
    (hperm : c + 1 < m → (md2.altBindings (c + 1)).Perm (A (c + 1)))
    (hcand : (md2.altBindings c).get? (md2.nextAlts c) = some cand)
    (hfc : f c = md2.nextAlts c + 1) (hfn : f (c + 1) = 0)
    (hft : ∀ t, t < c → f t = md2.nextAlts t) :
    CompleteAt multiset resolved V A m { md2 with nextAlts := f } (c + 1) := by
  have hcomm : ∀ t, t < c →
      ({ md2 with nextAlts := f } : MatchingData).committed t = md2.committed t := fun t ht =>
    committed_congr md2 _ t (hft t ht) rfl
  have hcc : ({ md2 with nextAlts := f } : MatchingData).committed c = some cand := by
    simp only [MatchingData.committed, hfc]
    exact hcand
  intro σ hs
  obtain ⟨j, hj, hag, hmem⟩ := hcomp σ hs
  by_cases hjc : j = c
  · subst hjc
    simp only [hcm, if_true] at hmem
    have hkl : md2.nextAlts j < (md2.altBindings j).length := by
      rw [List.get?_eq_getElem?] at hcand
      by_contra hc
      rw [List.getElem?_eq_none (by omega)] at hcand
      simp at hcand
    have hce : (md2.altBindings j)[md2.nextAlts j] = cand := by
      rw [List.get?_eq_getElem?, List.getElem?_eq_getElem hkl] at hcand
      exact Option.some.inj hcand
    rw [List.drop_eq_getElem_cons hkl, List.mem_cons, hce] at hmem
    rcases hmem with h1 | h1
    · refine ⟨j + 1, Nat.le_refl _, ?_, ?_⟩
      · intro t ht
        by_cases htj : t = j
        · subst htj; rw [hcc, h1]
        · rw [hcomm t (by omega)]; exact hag t (by omega)
      · simp only [hfn, List.drop_zero]
        by_cases hi : j + 1 < m
        · simp only [hi, if_true]
          exact (hperm hi).mem_iff.2 (hs.1 (j + 1) hlen)
        · simp only [hi, if_false]
          exact hs.1 (j + 1) hlen
    · refine ⟨j, by omega, fun t ht => by rw [hcomm t ht]; exact hag t ht, ?_⟩
      simp only [hcm, if_true, hfc]
      exact h1
  · refine ⟨j, by omega, fun t ht => by rw [hcomm t (by omega)]; exact hag t ht, ?_⟩
    have hjm : j < m := by omega
    simp only [hjm, if_true] at hmem ⊢
    rw [hft j (by omega)]
    exact hmem

/-- Completeness after the last commitment when the committed alternatives are
no solution: the search stands at the last base literal again, its cursor
behind the alternative just tried. -/
theorem complete_retry (multiset resolved : Bool) (V : Nat → List Nat)
    (A : Nat → List AltBinding) (m c : Nat) (md2 : MatchingData) (cand : AltBinding)
    (f : Nat → Nat) (hcomp : CompleteAt multiset resolved V A m md2 c) (hcm : c < m)
    (hlen : c + 1 = md2.len)
    (hcand : (md2.altBindings c).get? (md2.nextAlts c) = some cand)
    (hfc : f c = md2.nextAlts c + 1) (hft : ∀ t, t < c → f t = md2.nextAlts t)
    (hno : ∀ σ, IsSolution multiset resolved md2.len V A σ →
      ¬ ∀ t, t < md2.len → ({ md2 with nextAlts := f } : MatchingData).committed t = some (σ t)) :
    CompleteAt multiset resolved V A m { md2 with nextAlts := f } c := by
  have hcomm : ∀ t, t < c →
      ({ md2 with nextAlts := f } : MatchingData).committed t = md2.committed t := fun t ht =>
    committed_congr md2 _ t (hft t ht) rfl
  have hcc : ({ md2 with nextAlts := f } : MatchingData).committed c = some cand := by
    simp only [MatchingData.committed, hfc]
    exact hcand
  intro σ hs
  obtain ⟨j, hj, hag, hmem⟩ := hcomp σ hs
  by_cases hjc : j = c
  · subst hjc
    simp only [hcm, if_true] at hmem
    have hkl : md2.nextAlts j < (md2.altBindings j).length := by
      rw [List.get?_eq_getElem?] at hcand
      by_contra hc
      rw [List.getElem?_eq_none (by omega)] at hcand
      simp at hcand
    have hce : (md2.altBindings j)[md2.nextAlts j] = cand := by
      rw [List.get?_eq_getElem?, List.getElem?_eq_getElem hkl] at hcand
      exact Option.some.inj hcand
    rw [List.drop_eq_getElem_cons hkl, List.mem_cons, hce] at hmem
    rcases hmem with h1 | h1
    · exfalso
      apply hno σ hs
      intro t ht
      by_cases htj : t = j
      · subst htj; rw [hcc, h1]
      · rw [hcomm t (by omega)]; exact hag t (by omega)
    · refine ⟨j, Nat.le_refl _, fun t ht => by rw [hcomm t ht]; exact hag t ht, ?_⟩
      simp only [hcm, if_true, hfc]
      exact h1
  · refine ⟨j, by omega, fun t ht => by rw [hcomm t (by omega)]; exact hag t ht, ?_⟩
    have hjm : j < m := by omega
    simp only [hjm, if_true] at hmem ⊢
    rw [hft j (by omega)]
    exact hmem

end Kernel


namespace Kernel

open Indexing (Run Fault)

theorem searchSize_pos (l : List Nat) : 0 < searchSize l := by
  cases l with
  | nil => simp [searchSize]
  | cons n rest => simp [searchSize]

theorem sizeFrom_pos (N : Nat → Nat) (len i : Nat) : 0 < sizeFrom N len i :=
  searchSize_pos _

theorem sizeFrom_step (N : Nat → Nat) (len i : Nat) (h : i < len) :
    sizeFrom N len i = N i * sizeFrom N len (i + 1) + 2 := by
  unfold sizeFrom
  obtain ⟨d, hd⟩ : ∃ d, len - i = d + 1 := ⟨len - i - 1, by omega⟩
  have hd2 : len - (i + 1) = d := by omega
  rw [hd, hd2, List.range_succ_eq_map]
  simp only [List.map_cons, List.map_map, Nat.add_zero, searchSize]
  have : ((fun d => N (i + d)) ∘ Nat.succ) = fun d => N (i + 1 + d) := by
    funext x
    simp only [Function.comp_apply, Nat.succ_eq_add_one]
    congr 1
    omega
  rw [this]

theorem workLeft_congr (N : Nat → Nat) (len : Nat) (cur cur1 : Nat → Nat) :
    ∀ (k j : Nat), (∀ t, j ≤ t → t < j + k → cur1 t = cur t) →
      workLeft N len cur1 k j = workLeft N len cur k j := by
  intro k
  induction k with
  | zero => intro j _; rfl
  | succ k ih =>
    intro j h
    simp only [workLeft]
    rw [h j (Nat.le_refl _) (by omega), ih (j + 1) (fun t h1 h2 => h t (by omega) (by omega))]

theorem workLeft_last (N : Nat → Nat) (len : Nat) (cur : Nat → Nat) :
    ∀ (k j : Nat), workLeft N len cur (k + 1) j =
      workLeft N len cur k j + ((N (j + k) - cur (j + k)) * sizeFrom N len (j + k + 1) + 1) := by
  intro k
  induction k with
  | zero => intro j; simp [workLeft]
  | succ k ih =>
    intro j
    rw [workLeft, ih (j + 1)]
    simp only [workLeft]
    have e : j + 1 + k = j + (k + 1) := by omega
    rw [e]
    omega

/-- A step back to the base literal before makes the measure smaller. -/
theorem measure_back (N : Nat → Nat) (len : Nat) (cur cur1 : Nat → Nat) (c : Nat)
    (h : ∀ t, t < c → cur1 t = cur t) :
    workLeft N len cur1 c 0 < workLeft N len cur (c + 1) 0 := by
  rw [workLeft_last, workLeft_congr N len cur cur1 c 0 (fun t _ ht => h t (by omega))]
  omega

/-- A commitment followed by a step to the next base literal makes the measure
smaller. -/
theorem measure_commit (N : Nat → Nat) (len : Nat) (cur cur1 : Nat → Nat) (c k : Nat)
    (hlen : c + 1 < len) (h : ∀ t, t < c → cur1 t = cur t) (hc : cur1 c = k + 1)
    (hn : cur1 (c + 1) = 0) (hk1 : cur c ≤ k) (hk2 : k < N c) :
    workLeft N len cur1 (c + 2) 0 < workLeft N len cur (c + 1) 0 := by
  rw [workLeft_last N len cur1 (c + 1) 0, workLeft_last N len cur1 c 0, workLeft_last N len cur c 0,
    workLeft_congr N len cur cur1 c 0 (fun t _ ht => h t (by omega))]
  simp only [Nat.zero_add, hc, hn, Nat.sub_zero]
  rw [sizeFrom_step N len (c + 1) hlen]
  have h1 : (N c - (k + 1)) * (N (c + 1) * sizeFrom N len (c + 1 + 1) + 2)
      + (N (c + 1) * sizeFrom N len (c + 1 + 1) + 2)
      = (N c - k) * (N (c + 1) * sizeFrom N len (c + 1 + 1) + 2) := by
    have : N c - k = (N c - (k + 1)) + 1 := by omega
    rw [this, Nat.add_mul, Nat.one_mul]
  have h2 : (N c - k) * (N (c + 1) * sizeFrom N len (c + 1 + 1) + 2)
      ≤ (N c - cur c) * (N (c + 1) * sizeFrom N len (c + 1 + 1) + 2) :=
    Nat.mul_le_mul_right _ (by omega)
  omega

/-- A commitment after which the search stays at the same base literal makes
the measure smaller. -/
theorem measure_retry (N : Nat → Nat) (len : Nat) (cur cur1 : Nat → Nat) (c k : Nat)
    (h : ∀ t, t < c → cur1 t = cur t) (hc : cur1 c = k + 1) (hk1 : cur c ≤ k) (hk2 : k < N c) :
    workLeft N len cur1 (c + 1) 0 < workLeft N len cur (c + 1) 0 := by
  rw [workLeft_last N len cur1 c 0, workLeft_last N len cur c 0,
    workLeft_congr N len cur cur1 c 0 (fun t _ ht => h t (by omega))]
  simp only [Nat.zero_add, hc]
  have hpos := sizeFrom_pos N len (c + 1)
  have h1 : (N c - (k + 1)) * sizeFrom N len (c + 1) + sizeFrom N len (c + 1)
      = (N c - k) * sizeFrom N len (c + 1) := by
    have : N c - k = (N c - (k + 1)) + 1 := by omega
    rw [this, Nat.add_mul, Nat.one_mul]
  have h2 : (N c - k) * sizeFrom N len (c + 1) ≤ (N c - cur c) * sizeFrom N len (c + 1) :=
    Nat.mul_le_mul_right _ (by omega)
  omega

/-- The measure of the state in which the search starts. -/
theorem measure_initial (N : Nat → Nat) (len : Nat) (cur : Nat → Nat) (h0 : cur 0 = 0)
    (hlen : 0 < len) : workLeft N len cur 1 0 + 1 = sizeFrom N len 0 := by
  rw [sizeFrom_step N len 0 hlen]
  simp [workLeft, h0]

end Kernel


namespace Kernel

open Indexing (Run Fault)

/-- When all base literals are committed, the committed alternatives are a
solution, provided that with a resolved literal one of them has the record
index 1. -/
theorem solution_of_commits (multiset resolved : Bool) (V : Nat → List Nat)
    (A : Nat → List AltBinding) (recLen : Nat) (md : MatchingData) (rec : List Nat)
    (hinv : MDInv V A md.len md.len md) (hrec : RecInv multiset recLen md md.len rec)
    (hres : resolved = true → ∃ t ct, t < md.len ∧ md.committed t = some ct ∧ ct.record = 1) :
    ∃ σ, IsSolution multiset resolved md.len V A σ := by
  have hex : ∀ t, t < md.len → ∃ ct, md.committed t = some ct ∧
      ct ∈ (md.altBindings t).take (md.remaining t t) :=
    fun t ht => committed_exists V A md.len md.len md hinv (Nat.le_refl _) t ht
  refine ⟨fun t => (md.committed t).getD ⟨[], 0⟩, ?_, ?_, ?_, ?_⟩
  · intro i hi
    obtain ⟨ct, h1, h2⟩ := hex i hi
    simp only [h1, Option.getD_some]
    exact (hinv.perm i hi).mem_iff.1 (List.mem_of_mem_take h2)
  · intro t i hti hi
    obtain ⟨ci, h1, h2⟩ := hex i hi
    obtain ⟨ct, h3, _⟩ := hex t (by omega)
    simp only [h1, h3, Option.getD_some]
    have hp := hinv.rem i i hi (by omega) (Nat.le_refl _)
    obtain ⟨ct2, h4, h5⟩ := hp.2.1 ci h2 t hti
    rw [h3] at h4
    simp only [Option.some.injEq] at h4
    rw [h4]
    exact h5
  · intro hm t i hti hi
    obtain ⟨ci, h1, _⟩ := hex i hi
    obtain ⟨ct, h3, _⟩ := hex t (by omega)
    simp only [h1, h3, Option.getD_some]
    exact hrec.inj hm t i ct ci hti hi h3 h1
  · intro hr
    obtain ⟨t, ct, ht, h1, h2⟩ := hres hr
    exact ⟨t, ht, by simp only [h1, Option.getD_some]; exact h2⟩

/-- The step back from the base literal `c`, whose cursor has reached its
cut-off, to the base literal before. -/
theorem follows_back (multiset resolved : Bool) (V : Nat → List Nat) (A : Nat → List AltBinding)
    (recLen m1 : Nat) (s : SearchState) (md2 : MatchingData)
    (hinv2 : MDInv V A m1 s.currBLit md2) (hcm1 : s.currBLit < m1) (hm1 : m1 ≤ md2.len)
    (hst : Static s.md md2) (hrec2 : RecInv multiset recLen md2 s.currBLit s.matchRecord)
    (hcomp2 : CompleteAt multiset resolved V A m1 md2 s.currBLit)
    (hex : md2.remaining s.currBLit s.currBLit ≤ md2.nextAlts s.currBLit)
    (hc0 : 0 < s.currBLit) (hna : ∀ t, t < s.currBLit → md2.nextAlts t = s.md.nextAlts t)
    (hcount : s.counter < 50000) :
    Follows multiset resolved V A recLen s { s with md := md2, currBLit := s.currBLit - 1 } := by
  refine ⟨⟨m1, ⟨?_, ?_, ?_, hm1, ?_, ?_, ?_, hcount⟩, ?_⟩, hst, ?_, rfl, rfl⟩
  · exact mdInv_lower V A m1 _ _ md2 hinv2 (by simp only []; omega)
  · simp only []; omega
  · simp only []; omega
  · intro _
    simp only []
    exact (hinv2.commit (s.currBLit - 1) (by omega)).2
  · intro h
    simp only [] at h
    omega
  · exact recInv_lower multiset recLen md2 _ _ _ hrec2 (by simp only []; omega)
  · intro σ hs
    obtain ⟨j, hj, hag, hmem⟩ := complete_exhausted multiset resolved V A m1 s.currBLit md2 hinv2
      hcm1 (by omega) hcomp2 hex σ hs
    exact ⟨j, by simp only []; omega, hag, hmem⟩
  · simp only [SearchState.measure]
    rw [hst.1]
    have e : s.currBLit - 1 + 1 = s.currBLit := by omega
    rw [e]
    exact measure_back _ _ _ _ _ hna

/-- No solution exists when the cursor of the first base literal has reached
its cut-off. -/
theorem none_of_exhausted (multiset resolved : Bool) (V : Nat → List Nat)
    (A : Nat → List AltBinding) (m1 : Nat) (md2 : MatchingData)
    (hinv2 : MDInv V A m1 0 md2) (hcm1 : 0 < m1) (hm1 : m1 ≤ md2.len)
    (hcomp2 : CompleteAt multiset resolved V A m1 md2 0)
    (hex : md2.remaining 0 0 ≤ md2.nextAlts 0) :
    ¬ ∃ σ, IsSolution multiset resolved md2.len V A σ := by
  intro ⟨σ, hs⟩
  obtain ⟨j, hj, _, _⟩ := complete_exhausted multiset resolved V A m1 0 md2 hinv2
    hcm1 (by omega) hcomp2 hex σ hs
  omega

/-- The commitment of the base literal `c` followed by the step to the next
base literal. -/
theorem follows_commit (multiset resolved : Bool) (V : Nat → List Nat)
    (A : Nat → List AltBinding) (recLen m1 : Nat) (s : SearchState) (md2 : MatchingData)
    (cand : AltBinding) (rec1 : List Nat)
    (hinv2 : MDInv V A m1 s.currBLit md2) (hcm1 : s.currBLit < m1) (hm1 : m1 ≤ md2.len)
    (hst : Static s.md md2)
    (hcomp2 : CompleteAt multiset resolved V A m1 md2 s.currBLit)
    (hk : md2.nextAlts s.currBLit < md2.remaining s.currBLit s.currBLit)
    (hcand : (md2.altBindings s.currBLit).get? (md2.nextAlts s.currBLit) = some cand)
    (hp : ∀ i, s.currBLit < i → i < m1 →
      Pruned V (setAt md2.committed s.currBLit (some cand)) (md2.altBindings i)
        (md2.remaining i (s.currBLit + 1)) (s.currBLit + 1) i)
    (hlen : s.currBLit + 1 < md2.len)
    (hna : ∀ t, t < s.currBLit → md2.nextAlts t = s.md.nextAlts t)
    (hnc : s.md.nextAlts s.currBLit ≤ md2.nextAlts s.currBLit)
    (hrec3 : RecInv multiset recLen
      { md2 with
        nextAlts := setAt (setAt md2.nextAlts s.currBLit (md2.nextAlts s.currBLit + 1))
          (s.currBLit + 1) 0 } (s.currBLit + 1) rec1)
    (hcount : s.counter < 50000) :
    Follows multiset resolved V A recLen s
      { s with
        md := { md2 with
          nextAlts := setAt (setAt md2.nextAlts s.currBLit (md2.nextAlts s.currBLit + 1))
            (s.currBLit + 1) 0 },
        matchRecord := rec1, currBLit := s.currBLit + 1 } := by
  have hfc : setAt (setAt md2.nextAlts s.currBLit (md2.nextAlts s.currBLit + 1))
      (s.currBLit + 1) 0 s.currBLit = md2.nextAlts s.currBLit + 1 := by
    rw [setAt_ne _ _ _ _ (by omega), setAt_same]
  have hfn : setAt (setAt md2.nextAlts s.currBLit (md2.nextAlts s.currBLit + 1))
      (s.currBLit + 1) 0 (s.currBLit + 1) = 0 := setAt_same _ _ _
  have hft : ∀ t, t < s.currBLit →
      setAt (setAt md2.nextAlts s.currBLit (md2.nextAlts s.currBLit + 1))
        (s.currBLit + 1) 0 t = md2.nextAlts t := by
    intro t ht
    rw [setAt_ne _ _ _ _ (by omega), setAt_ne _ _ _ _ (by omega)]
  obtain ⟨hinv3, _, _⟩ := mdInv_commit V A m1 s.currBLit md2 cand _ hinv2 hk hcand hp hfc hft
  have hkl : md2.nextAlts s.currBLit < (A s.currBLit).length := by
    have := (hinv2.rem s.currBLit s.currBLit hcm1 (Nat.le_refl _) (Nat.le_refl _)).1
    rw [(hinv2.perm s.currBLit hcm1).length_eq] at this
    omega
  refine ⟨⟨m1, ⟨hinv3, hlen, by simp only []; omega, hm1, ?_, ?_, hrec3, hcount⟩, ?_⟩,
    ⟨hst.1, hst.2.1, hst.2.2.1, hst.2.2.2.1, hst.2.2.2.2⟩, ?_, rfl, rfl⟩
  · intro _
    simp only [hfn]
    omega
  · intro _
    simp only [hfn]
  · exact complete_commit multiset resolved V A m1 s.currBLit md2 cand _ hcomp2 hcm1 hlen
      (fun h => hinv2.perm _ h) hcand hfc hfn hft
  · simp only [SearchState.measure]
    rw [hst.1]
    exact measure_commit _ _ _ _ _ (md2.nextAlts s.currBLit) (by rw [← hst.1]; exact hlen)
      (fun t ht => by rw [hft t ht, hna t ht]) hfc hfn hnc hkl

/-- The commitment of the last base literal when the committed alternatives
are no solution: the search stays at the last base literal. -/
theorem follows_retry (multiset resolved : Bool) (V : Nat → List Nat)
    (A : Nat → List AltBinding) (recLen m1 : Nat) (s : SearchState) (md2 : MatchingData)
    (cand : AltBinding) (rec1 : List Nat)
    (hinv2 : MDInv V A m1 s.currBLit md2) (hcm1 : s.currBLit < m1) (hm1 : m1 ≤ md2.len)
    (hst : Static s.md md2)
    (hcomp2 : CompleteAt multiset resolved V A m1 md2 s.currBLit)
    (hk : md2.nextAlts s.currBLit < md2.remaining s.currBLit s.currBLit)
    (hcand : (md2.altBindings s.currBLit).get? (md2.nextAlts s.currBLit) = some cand)
    (hp : ∀ i, s.currBLit < i → i < m1 →
      Pruned V (setAt md2.committed s.currBLit (some cand)) (md2.altBindings i)
        (md2.remaining i (s.currBLit + 1)) (s.currBLit + 1) i)
    (hlen : s.currBLit + 1 = md2.len)
    (hna : ∀ t, t < s.currBLit → md2.nextAlts t = s.md.nextAlts t)
    (hnc : s.md.nextAlts s.currBLit ≤ md2.nextAlts s.currBLit)
    (hrec3 : RecInv multiset recLen
      { md2 with nextAlts := setAt md2.nextAlts s.currBLit (md2.nextAlts s.currBLit + 1) }
      (s.currBLit + 1) rec1)
    (hno : ∀ σ, IsSolution multiset resolved md2.len V A σ →
      ¬ ∀ t, t < md2.len →
        ({ md2 with nextAlts := setAt md2.nextAlts s.currBLit (md2.nextAlts s.currBLit + 1) } :
          MatchingData).committed t = some (σ t))
    (hcount : s.counter < 50000) :
    Follows multiset resolved V A recLen s
      { s with
        md := { md2 with
          nextAlts := setAt md2.nextAlts s.currBLit (md2.nextAlts s.currBLit + 1) },
        matchRecord := rec1, currBLit := s.currBLit + 1 - 1 } := by
  have hfc : setAt md2.nextAlts s.currBLit (md2.nextAlts s.currBLit + 1) s.currBLit
      = md2.nextAlts s.currBLit + 1 := setAt_same _ _ _
  have hft : ∀ t, t < s.currBLit →
      setAt md2.nextAlts s.currBLit (md2.nextAlts s.currBLit + 1) t = md2.nextAlts t := by
    intro t ht
    rw [setAt_ne _ _ _ _ (by omega)]
  obtain ⟨hinv3, _, _⟩ := mdInv_commit V A m1 s.currBLit md2 cand _ hinv2 hk hcand hp hfc hft
  have hkl : md2.nextAlts s.currBLit < (A s.currBLit).length := by
    have := (hinv2.rem s.currBLit s.currBLit hcm1 (Nat.le_refl _) (Nat.le_refl _)).1
    rw [(hinv2.perm s.currBLit hcm1).length_eq] at this
    omega
  have e : s.currBLit + 1 - 1 = s.currBLit := by omega
  rw [e]
  refine ⟨⟨m1, ⟨mdInv_lower V A m1 _ _ _ hinv3 (by simp only []; omega), ?_, by simp only []; omega,
    hm1, ?_, ?_, recInv_lower multiset recLen _ _ _ _ hrec3 (by simp only []; omega), hcount⟩, ?_⟩,
    ⟨hst.1, hst.2.1, hst.2.2.1, hst.2.2.2.1, hst.2.2.2.2⟩, ?_, rfl, rfl⟩
  · simp only []; omega
  · intro _
    simp only [hfc]
    omega
  · intro h
    simp only [] at h
    omega
  · exact complete_retry multiset resolved V A m1 s.currBLit md2 cand _ hcomp2 hcm1 hlen
      hcand hfc hft hno
  · simp only [SearchState.measure]
    rw [hst.1]
    exact measure_retry _ _ _ _ _ (md2.nextAlts s.currBLit)
      (fun t ht => by rw [hft t ht, hna t ht]) hfc hnc hkl

end Kernel


namespace Kernel

open Indexing (Run Fault)

theorem taken_congr (cm cm1 : Nat → Option AltBinding) (c : Nat) (a : AltBinding)
    (h : ∀ t, t < c → cm1 t = cm t) : Taken cm1 c a ↔ Taken cm c a := by
  constructor
  · intro ⟨t, ct, ht, h1, h2⟩
    exact ⟨t, ct, ht, by rw [← h t ht]; exact h1, h2⟩
  · intro ⟨t, ct, ht, h1, h2⟩
    exact ⟨t, ct, ht, by rw [h t ht]; exact h1, h2⟩

theorem finalCheck_none (s : SearchState) (h : s.md.resolvedLit = none) :
    finalCheck s = .ok (.ret true) := by
  unfold finalCheck
  rw [h]

theorem finalCheck_some (s : SearchState) (r : Literal) (v : Nat) (h : s.md.resolvedLit = some r)
    (hv : s.matchRecord.get? 1 = some v) :
    finalCheck s = if v ≥ s.md.len then .ok (.again { s with currBLit := s.currBLit - 1 })
      else .ok (.ret true) := by
  unfold finalCheck
  rw [h, hv]

/-- What the current base literal is like once `ensureInit` has returned OK:
it is initialised, pruned, and its cursor is not behind its cut-off. -/
theorem ready_of_ensureInit (multiset resolved : Bool) (V : Nat → List Nat)
    (A : Nat → List AltBinding) (recLen m : Nat) (s : SearchState) (md1 : MatchingData)
    (hinv : SInv multiset V A recLen m s)
    (hcomp : CompleteAt multiset resolved V A m s.md s.currBLit)
    (hst1 : Static s.md md1) (hna1 : md1.nextAlts = s.md.nextAlts)
    (hab1 : ∀ k, k ≠ s.currBLit → md1.altBindings k = s.md.altBindings k)
    (hlt : s.currBLit < m → md1 = s.md)
    (heq : s.currBLit = m → (md1.altBindings s.currBLit).Perm (A s.currBLit) ∧
      MDInv V A (m + 1) s.currBLit md1) :
    ∃ m1, MDInv V A m1 s.currBLit md1 ∧ s.currBLit < m1 ∧ m1 ≤ md1.len ∧
      md1.nextAlts s.currBLit ≤ md1.remaining s.currBLit s.currBLit ∧
      CompleteAt multiset resolved V A m1 md1 s.currBLit ∧
      RecInv multiset recLen md1 s.currBLit s.matchRecord := by
  have hcomm1 : ∀ t, t < s.currBLit → md1.committed t = s.md.committed t := fun t ht =>
    committed_congr s.md md1 t (by rw [hna1]) (hab1 t (by omega))
  have hrec1 := recInv_congr multiset recLen s.md md1 s.currBLit s.matchRecord hinv.hrec hcomm1
  by_cases hc : s.currBLit < m
  · have := hlt hc
    subst this
    exact ⟨m, hinv.md, hc, hinv.hm, hinv.cur1 hc, hcomp, hrec1⟩
  · have hcm : s.currBLit = m := by have := hinv.hcm; omega
    obtain ⟨hperm, hinv1⟩ := heq hcm
    have hcur := hinv.cur2 hcm
    refine ⟨m + 1, hinv1, by omega, by rw [hst1.1]; have := hinv.hc; omega, ?_, ?_, hrec1⟩
    · rw [hna1, hcur]; omega
    · have := complete_ensure multiset resolved V A s.currBLit s.md md1
        (by rw [← hcm] at hcomp; exact hcomp) hst1 hna1 hab1 hperm hcur
      rw [← hcm]
      exact this

/-- One pass through the body of the outer loop of `canBeMatched`, from a
state that satisfies the invariant: it returns true only if there is a
solution and false only if there is none, and otherwise it leads to a state
that follows. -/
theorem loopBody_spec (multiset resolved : Bool) (V : Nat → List Nat)
    (A : Nat → List AltBinding) (recLen m : Nat) (s : SearchState)
    (hinv : SInv multiset V A recLen m s)
    (hcomp : CompleteAt multiset resolved V A m s.md s.currBLit)
    (hcr : Created s.md V A)
    (hrecs : ∀ i, i < s.md.len → ∀ a ∈ A i, a.record < recLen)
    (h32 : s.md.len ≤ unclaimed)
    (hres : s.md.resolvedLit.isSome = resolved)
    (hrl : resolved = true → 1 < recLen) :
    (∃ b, loopBody multiset s = .ok (.ret b) ∧
      (b = true ↔ ∃ σ, IsSolution multiset resolved s.md.len V A σ)) ∨
    (∃ s1, (loopBody multiset s = .ok (.again s1) ∨ loopBody multiset s = .ok (.completed s1)) ∧
      Follows multiset resolved V A recLen s s1) := by
  obtain ⟨res, md1, hens, hst1, hna1, hab1, hlt, heq⟩ :=
    ensureInit_spec V A m s.currBLit s.md hinv.md hcr hinv.hc hinv.hcm
  have hcomm1 : ∀ t, t < s.currBLit → md1.committed t = s.md.committed t := fun t ht =>
    committed_congr s.md md1 t (by rw [hna1]) (hab1 t (by omega))
  unfold loopBody
  rw [hens]
  cases res with
  | NO_ALTERNATIVE =>
    simp only []
    left
    refine ⟨false, rfl, ?_⟩
    have hcm : s.currBLit = m := by
      by_contra hne
      have := (hlt (by have := hinv.hcm; omega)).2
      simp at this
    have hA := (heq hcm).1 rfl
    constructor
    · intro h; simp at h
    · intro ⟨σ, hs⟩
      have := hs.1 s.currBLit hinv.hc
      rw [hA] at this
      simp at this
  | MUST_BACKTRACK =>
    simp only []
    right
    have hcm : s.currBLit = m := by
      by_contra hne
      have := (hlt (by have := hinv.hcm; omega)).2
      simp at this
    obtain ⟨hperm, hinv1, hmb, _⟩ := (heq hcm).2 (by simp)
    obtain ⟨hc0, hzero⟩ := hmb rfl
    obtain ⟨m1, hi1, hcm1, hm1, hcur1, hcomp1, hrec1⟩ := ready_of_ensureInit multiset resolved V A
      recLen m s md1 hinv hcomp hst1 hna1 hab1 (fun h => (hlt h).1)
      (fun h => ⟨hperm, hinv1⟩)
    refine ⟨_, Or.inl rfl, ?_⟩
    exact follows_back multiset resolved V A recLen m1 s md1 hi1 hcm1 hm1 hst1 hrec1 hcomp1
      (by rw [hzero]; omega) hc0 (fun t _ => by rw [hna1]) hinv.counter
  | OK =>
    simp only []
    have hready : ∃ m1, MDInv V A m1 s.currBLit md1 ∧ s.currBLit < m1 ∧ m1 ≤ md1.len ∧
        md1.nextAlts s.currBLit ≤ md1.remaining s.currBLit s.currBLit ∧
        CompleteAt multiset resolved V A m1 md1 s.currBLit ∧
        RecInv multiset recLen md1 s.currBLit s.matchRecord := by
      apply ready_of_ensureInit multiset resolved V A recLen m s md1 hinv hcomp hst1 hna1 hab1
        (fun h => (hlt h).1)
      intro hcm
      obtain ⟨hperm, hinv1, _, _⟩ := (heq hcm).2 (by simp)
      exact ⟨hperm, hinv1⟩
    obtain ⟨m1, hi1, hcm1, hm1, hcur1, hcomp1, hrec1⟩ := hready
    have hpc := hi1.rem s.currBLit s.currBLit hcm1 (Nat.le_refl _) (Nat.le_refl _)
    have hlen1 : md1.len = s.md.len := hst1.1
    -- the inner loop
    obtain ⟨md2, hscan, hfr, hsi2, hle2, href, hacc⟩ := scanAlts_spec multiset s.matchRecord V A
      md1.committed s.currBLit m1 (md1.remaining s.currBLit s.currBLit) (md1.altBindings s.currBLit)
      hcm1 hpc.1
      (fun a ha => recInv_taken multiset recLen md1 s.currBLit s.matchRecord hrec1 a
        (hrecs s.currBLit hinv.hc a ((hi1.perm s.currBLit hcm1).mem_iff.1 ha)))
      (md1.remaining s.currBLit s.currBLit - md1.nextAlts s.currBLit) md1 (by omega) hm1
      ⟨hi1.init, hi1.cache, fun i _ h2 => hi1.perm i h2,
        fun i h1 h2 => hi1.rem i s.currBLit h2 (Nat.le_refl _) (by omega), rfl⟩
    unfold MatchingData.getRemainingInCurrent
    rw [hscan]
    simp only []
    have hi2 := mdInv_scan V A m1 s.currBLit md1 md2 hi1 hfr hsi2.cache
    have hcomp2 := complete_scan multiset resolved V A m1 s.currBLit md1 md2 hcomp1 hcm1 hm1 hfr href
    obtain ⟨f1, f2, f3, f4, f5, f6, f7⟩ := hfr
    have hcomm2 : ∀ t, t < s.currBLit → md2.committed t = md1.committed t := fun t ht =>
      committed_congr md1 md2 t (f3 t (by omega)) (f5 t (by omega))
    have hrec2 := recInv_congr multiset recLen md1 md2 s.currBLit s.matchRecord hrec1 hcomm2
    have hst2 : Static s.md md2 := static_trans _ _ _ hst1 f1
    have hrem2 : md2.remaining s.currBLit s.currBLit = md1.remaining s.currBLit s.currBLit :=
      f7 _ _ (by omega)
    have hm2 : m1 ≤ md2.len := by rw [f1.1]; exact hm1
    have hna2 : ∀ t, t < s.currBLit → md2.nextAlts t = s.md.nextAlts t := by
      intro t ht
      rw [f3 t (by omega), hna1]
    have hnc2 : s.md.nextAlts s.currBLit ≤ md2.nextAlts s.currBLit := by
      rw [← hna1]; exact f4
    by_cases hfound : md2.nextAlts s.currBLit < md1.remaining s.currBLit s.currBLit
    · -- an alternative is found: commit
      simp only [hfound, if_true]
      obtain ⟨cand, hcand, hfree, hp⟩ := hacc hfound
      have hcand2 : (md2.altBindings s.currBLit).get? (md2.nextAlts s.currBLit) = some cand := by
        rw [hsi2.arrc]; exact hcand
      have hk2 : md2.nextAlts s.currBLit < md2.remaining s.currBLit s.currBLit := by
        rw [hrem2]; exact hfound
      have hp2 : ∀ i, s.currBLit < i → i < m1 →
          Pruned V (setAt md2.committed s.currBLit (some cand)) (md2.altBindings i)
            (md2.remaining i (s.currBLit + 1)) (s.currBLit + 1) i := by
        intro i h1 h2
        apply pruned_congr V (setAt md1.committed s.currBLit (some cand)) _ _ _ _ _ _ (hp i h1 h2).1
        intro t ht
        by_cases htc : t = s.currBLit
        · rw [htc, setAt_same, setAt_same]
        · rw [setAt_ne _ _ _ _ htc, setAt_ne _ _ _ _ htc, hcomm2 t (by omega)]
      have hcandmem : cand ∈ md2.altBindings s.currBLit := by
        rw [List.get?_eq_getElem?] at hcand2
        exact List.mem_iff_getElem?.2 ⟨_, hcand2⟩
      have hcr2 : cand.record < recLen :=
        hrecs s.currBLit hinv.hc cand ((hi2.perm s.currBLit hcm1).mem_iff.1 hcandmem)
      have hgi : md2.getAltRecordIndex s.currBLit (md2.nextAlts s.currBLit) = .ok cand.record := by
        simp only [MatchingData.getAltRecordIndex, hcand2]
      rw [hgi]
      simp only []
      have hfree2 : multiset = true → ¬ Taken md2.committed s.currBLit cand := by
        intro hm ht
        exact hfree hm ((taken_congr md1.committed md2.committed s.currBLit cand hcomm2).1 ht)
      have hc32 : s.currBLit < unclaimed := by have := hinv.hc; omega
      by_cases hlast : s.currBLit + 1 = md2.len
      · -- the last base literal
        simp only [if_pos hlast]
        obtain ⟨hi3, hcc3, hcm3⟩ := mdInv_commit V A m1 s.currBLit md2 cand
          (setAt md2.nextAlts s.currBLit (md2.nextAlts s.currBLit + 1)) hi2 hk2 hcand2 hp2
          (setAt_same _ _ _) (fun t ht => setAt_ne _ _ _ _ (by omega))
        obtain ⟨rec1, hcr1, hrec3⟩ := commitRecord_spec multiset recLen md2 _ s.currBLit
          s.matchRecord cand hrec2 hcr2 hc32 hcm3 hcc3 hfree2
        rw [hcr1]
        simp only []
        have hm1len : m1 = md2.len := by omega
        have hi3len : MDInv V A md2.len md2.len
            { md2 with nextAlts := setAt md2.nextAlts s.currBLit (md2.nextAlts s.currBLit + 1) } := by
          have := hi3
          rw [hlast, hm1len] at this
          exact this
        have hrec3len : RecInv multiset recLen
            { md2 with nextAlts := setAt md2.nextAlts s.currBLit (md2.nextAlts s.currBLit + 1) }
            md2.len rec1 := by
          have := hrec3
          rw [hlast] at this
          exact this
        have hcases : md2.resolvedLit = none ∨ ∃ r, md2.resolvedLit = some r := by
          cases md2.resolvedLit with
          | none => exact Or.inl rfl
          | some r => exact Or.inr ⟨r, rfl⟩
        rcases hcases with hrl2 | ⟨r, hrl2⟩
        · rw [finalCheck_none _ hrl2]
          left
          refine ⟨true, rfl, ?_⟩
          have hrf : resolved = false := by
            rw [← hres, ← hst2.2.2.2.2, hrl2]; rfl
          rw [← hst2.1]
          simp only [true_iff]
          exact solution_of_commits multiset resolved V A recLen
            { md2 with nextAlts := setAt md2.nextAlts s.currBLit (md2.nextAlts s.currBLit + 1) }
            rec1 hi3len hrec3len (fun h => by rw [hrf] at h; simp at h)
        · have hrt : resolved = true := by
            rw [← hres, ← hst2.2.2.2.2, hrl2]; rfl
          have h1l : 1 < rec1.length := by rw [hrec3.hlen]; exact hrl hrt
          have hg1 : rec1.get? 1 = some rec1[1] := by
            rw [List.get?_eq_getElem?]; exact List.getElem?_eq_getElem h1l
          rw [finalCheck_some _ r rec1[1] hrl2 hg1]
          by_cases hv : rec1[1] ≥ md2.len
          · rw [if_pos hv]
            right
            refine ⟨_, Or.inl rfl, ?_⟩
            apply follows_retry multiset resolved V A recLen m1 s md2 cand rec1 hi2 hcm1 hm2 hst2
              hcomp2 hk2 hcand2 hp2 hlast hna2 hnc2 hrec3 _ hinv.counter
            intro σ hs hall
            obtain ⟨i, hi, hri⟩ := hs.2.2.2 hrt
            obtain ⟨v, hv1, hv2⟩ := hrec3.rec2 i (σ i) (by omega) (hall i hi)
            rw [hri, hg1] at hv1
            simp only [Option.some.injEq] at hv1
            omega
          · rw [if_neg hv]
            left
            refine ⟨true, rfl, ?_⟩
            rw [← hst2.1]
            simp only [true_iff]
            apply solution_of_commits multiset resolved V A recLen
              { md2 with nextAlts := setAt md2.nextAlts s.currBLit (md2.nextAlts s.currBLit + 1) }
              rec1 hi3len hrec3len
            intro _
            obtain ⟨ct, h1, h2⟩ := hrec3.rec1 1 rec1[1] (by omega) hg1
            exact ⟨rec1[1], ct, by simp only []; omega, h1, h2⟩
      · -- not the last base literal
        simp only [if_neg hlast]
        have hlen2 : s.currBLit + 1 < md2.len := by
          have h1 := hinv.hc
          have h2 := hst2.1
          omega
        obtain ⟨hi3, hcc3, hcm3⟩ := mdInv_commit V A m1 s.currBLit md2 cand
          (setAt (setAt md2.nextAlts s.currBLit (md2.nextAlts s.currBLit + 1)) (s.currBLit + 1) 0)
          hi2 hk2 hcand2 hp2
          (by rw [setAt_ne _ _ _ _ (by omega), setAt_same])
          (fun t ht => by rw [setAt_ne _ _ _ _ (by omega), setAt_ne _ _ _ _ (by omega)])
        obtain ⟨rec1, hcr1, hrec3⟩ := commitRecord_spec multiset recLen md2 _ s.currBLit
          s.matchRecord cand hrec2 hcr2 hc32 hcm3 hcc3 hfree2
        rw [hcr1]
        simp only []
        right
        refine ⟨_, Or.inr rfl, ?_⟩
        exact follows_commit multiset resolved V A recLen m1 s md2 cand rec1 hi2 hcm1 hm2 hst2
          hcomp2 hk2 hcand2 hp2 hlen2 hna2 hnc2 hrec3 hinv.counter
    · -- no alternative is left
      simp only [hfound, if_false]
      have hex : md2.remaining s.currBLit s.currBLit ≤ md2.nextAlts s.currBLit := by
        rw [hrem2]; omega
      by_cases hc0 : s.currBLit = 0
      · simp only [hc0, if_true]
        left
        refine ⟨false, rfl, ?_⟩
        constructor
        · intro h; simp at h
        · intro hσ
          exfalso
          rw [hc0] at hi2 hcomp2 hex hcm1
          rw [← hst2.1] at hσ
          exact none_of_exhausted multiset resolved V A m1 md2 hi2 hcm1 hm2 hcomp2 hex hσ
      · simp only [hc0, if_false]
        right
        refine ⟨_, Or.inr rfl, ?_⟩
        exact follows_back multiset resolved V A recLen m1 s md2 hi2 hcm1 hm2 hst2 hrec2 hcomp2
          hex (by omega) hna2 hinv.counter

end Kernel


namespace Kernel

open Indexing (Run Fault)

theorem created_static (V : Nat → List Nat) (A : Nat → List AltBinding) (md md1 : MatchingData)
    (h : Created md V A) (hst : Static md md1) : Created md1 V A := by
  obtain ⟨h1, h2, h3, h4, h5⟩ := hst
  intro i hi
  rw [h1] at hi
  obtain ⟨b, as, e1, e2, e3⟩ := h i hi
  exact ⟨b, as, by rw [h2]; exact e1, by rw [h3]; exact e2, by rw [h4, h5]; exact e3⟩

theorem good_follows (multiset resolved : Bool) (V : Nat → List Nat) (A : Nat → List AltBinding)
    (recLen : Nat) (s s1 : SearchState) (h : Good multiset resolved V A recLen s)
    (hf : Follows multiset resolved V A recLen s s1) : Good multiset resolved V A recLen s1 := by
  obtain ⟨_, hcr, hrecs, h32, hres, hrl⟩ := h
  obtain ⟨hinv, hst, _, _, _⟩ := hf
  refine ⟨hinv, created_static V A _ _ hcr hst, ?_, ?_, ?_, hrl⟩
  · rw [hst.1]; exact hrecs
  · rw [hst.1]; exact h32
  · rw [hst.2.2.2.2]; exact hres

/-- The end of the body of the outer loop either raises the time limit or
goes on with the same search, the counter below 50000. -/
theorem tick_spec (multiset resolved : Bool) (V : Nat → List Nat) (A : Nat → List AltBinding)
    (recLen : Nat) (tl : Nat → Bool) (s : SearchState)
    (h : Good multiset resolved V A recLen s) :
    (tick tl s = .done .timeLimitExceeded ∧ s.counter + 1 = 50000 ∧ tl s.checks = true) ∨
    (∃ s1, tick tl s = .next s1 ∧ Good multiset resolved V A recLen s1 ∧
      s1.measure A = s.measure A ∧ s1.md = s.md ∧
      (s.counter + 1 = 50000 → tl s.checks = false)) := by
  obtain ⟨⟨m, hinv, hcomp⟩, hcr, hrecs, h32, hres, hrl⟩ := h
  unfold tick
  by_cases hc : s.counter + 1 = 50000
  · simp only [hc, if_true]
    by_cases ht : tl s.checks = true
    · simp only [ht, if_true]
      exact Or.inl ⟨trivial, trivial, trivial⟩
    · simp only [ht, Bool.false_eq_true, if_false]
      right
      refine ⟨_, rfl, ⟨⟨m, ⟨hinv.md, hinv.hc, hinv.hcm, hinv.hm, hinv.cur1, hinv.cur2, hinv.hrec,
        by simp only []; omega⟩, hcomp⟩, hcr, hrecs, h32, hres, hrl⟩, rfl, rfl, ?_⟩
      intro _
      trivial
  · simp only [hc, if_false]
    right
    have := hinv.counter
    exact ⟨_, rfl, ⟨⟨m, ⟨hinv.md, hinv.hc, hinv.hcm, hinv.hm, hinv.cur1, hinv.cur2, hinv.hrec,
      by simp only []; omega⟩, hcomp⟩, hcr, hrecs, h32, hres, hrl⟩, rfl, rfl,
      fun h => h.elim⟩

/-- One pass of the outer loop of `canBeMatched` from a good state: it ends
the search with the right answer, or raises the time limit, or leads to a good
state of smaller measure. -/
theorem step_spec (multiset resolved : Bool) (V : Nat → List Nat) (A : Nat → List AltBinding)
    (recLen : Nat) (tl : Nat → Bool) (s : SearchState)
    (h : Good multiset resolved V A recLen s) :
    (∃ b, step multiset tl s = .done (.result b) ∧
      (b = true ↔ ∃ σ, IsSolution multiset resolved s.md.len V A σ)) ∨
    step multiset tl s = .done .timeLimitExceeded ∨
    (∃ s1, step multiset tl s = .next s1 ∧ Good multiset resolved V A recLen s1 ∧
      s1.measure A < s.measure A ∧ s1.md.len = s.md.len) := by
  obtain ⟨⟨m, hinv, hcomp⟩, hcr, hrecs, h32, hres, hrl⟩ := h
  have hgood : Good multiset resolved V A recLen s :=
    ⟨⟨m, hinv, hcomp⟩, hcr, hrecs, h32, hres, hrl⟩
  unfold step
  rcases loopBody_spec multiset resolved V A recLen m s hinv hcomp hcr hrecs h32 hres hrl with
    ⟨b, hb, hiff⟩ | ⟨s1, hs1, hf⟩
  · rw [hb]
    exact Or.inl ⟨b, rfl, hiff⟩
  · have hg1 := good_follows multiset resolved V A recLen s s1 hgood hf
    rcases hs1 with hs1 | hs1
    · rw [hs1]
      exact Or.inr (Or.inr ⟨s1, rfl, hg1, hf.2.2.1, hf.2.1.1⟩)
    · rw [hs1]
      simp only []
      rcases tick_spec multiset resolved V A recLen tl s1 hg1 with ⟨ht, _, _⟩ | ⟨s2, ht, hg2, hm2, hmd, _⟩
      · exact Or.inr (Or.inl ht)
      · refine Or.inr (Or.inr ⟨s2, ht, hg2, ?_, ?_⟩)
        · rw [hm2]; exact hf.2.2.1
        · rw [hmd]; exact hf.2.1.1

/-- The outer loop of `canBeMatched` from a good state, with fuel above the
measure of the state: it returns true if there is a solution and false if
there is none, unless the time limit is raised. -/
theorem searchLoop_spec (multiset resolved : Bool) (V : Nat → List Nat)
    (A : Nat → List AltBinding) (recLen : Nat) (tl : Nat → Bool) :
    ∀ (fuel : Nat) (s : SearchState), Good multiset resolved V A recLen s →
      s.measure A < fuel →
      (∃ b, searchLoop multiset tl fuel s = .result b ∧
        (b = true ↔ ∃ σ, IsSolution multiset resolved s.md.len V A σ)) ∨
      searchLoop multiset tl fuel s = .timeLimitExceeded := by
  intro fuel
  induction fuel with
  | zero => intro s _ h; omega
  | succ fuel ih =>
    intro s hg hm
    rw [searchLoop]
    rcases step_spec multiset resolved V A recLen tl s hg with
      ⟨b, hb, hiff⟩ | ht | ⟨s1, hs1, hg1, hm1, hl1⟩
    · rw [hb]
      exact Or.inl ⟨b, rfl, hiff⟩
    · rw [ht]
      exact Or.inr rfl
    · rw [hs1]
      simp only []
      have := ih s1 hg1 (by omega)
      rw [hl1] at this
      exact this

/-- With a time limit that is never reached the outer loop does not raise
it. -/
theorem searchLoop_never (multiset : Bool) :
    ∀ (fuel : Nat) (s : SearchState),
      searchLoop multiset (fun _ => false) fuel s ≠ .timeLimitExceeded := by
  intro fuel
  induction fuel with
  | zero => intro s; simp [searchLoop]
  | succ fuel ih =>
    intro s
    rw [searchLoop]
    unfold step
    cases hb : loopBody multiset s with
    | fault f => simp
    | ok r =>
      cases r with
      | ret b => simp
      | again s1 => exact ih s1
      | completed s1 =>
        simp only [tick, Bool.false_eq_true, if_false]
        by_cases hc : s1.counter + 1 = 50000
        · simp only [hc, if_true]
          exact ih _
        · simp only [hc, if_false]
          exact ih _

end Kernel


namespace Kernel

open Indexing (Run Fault)

/-- The loop of `getIntersectInfo` over two strictly ascending arrays yields
exactly the pairs of positions at which the same variable stands. -/
theorem intersectLoop_mem : ∀ (n : Nat) (as bs : List Nat) (i j : Nat),
    as.length + bs.length ≤ n → as.Pairwise (fun x y => x < y) →
    bs.Pairwise (fun x y => x < y) → ∀ p q,
    ((p, q) ∈ intersectLoop n as bs i j ↔
      ∃ d e x, p = i + d ∧ q = j + e ∧ as.get? d = some x ∧ bs.get? e = some x) := by
  intro n
  induction n with
  | zero =>
    intro as bs i j hlen _ _ p q
    have h1 : as = [] := List.length_eq_zero.1 (by omega)
    subst h1
    simp [intersectLoop]
  | succ n ih =>
    intro as bs i j hlen has hbs p q
    cases as with
    | nil => simp [intersectLoop]
    | cons a as1 =>
      cases bs with
      | nil => simp [intersectLoop]
      | cons b bs1 =>
        have ha1 := (List.pairwise_cons.1 has)
        have hb1 := (List.pairwise_cons.1 hbs)
        simp only [List.length_cons] at hlen
        rw [intersectLoop]
        by_cases hab : a < b
        · rw [if_pos hab, ih as1 (b :: bs1) (i + 1) j (by simp only [List.length_cons]; omega)
            ha1.2 hbs p q]
          constructor
          · rintro ⟨d, e, x, h1, h2, h3, h4⟩
            exact ⟨d + 1, e, x, by omega, h2, by simpa using h3, h4⟩
          · rintro ⟨d, e, x, h1, h2, h3, h4⟩
            cases d with
            | zero =>
              exfalso
              simp only [List.get?_cons_zero, Option.some.injEq] at h3
              subst h3
              cases e with
              | zero =>
                simp only [List.get?_cons_zero, Option.some.injEq] at h4
                omega
              | succ e =>
                simp only [List.get?_cons_succ] at h4
                have := hb1.1 a (List.get?_mem h4)
                omega
            | succ d =>
              exact ⟨d, e, x, by omega, h2, by simpa using h3, h4⟩
        · rw [if_neg hab]
          by_cases hba : a > b
          · rw [if_pos hba, ih (a :: as1) bs1 i (j + 1) (by simp only [List.length_cons]; omega)
              has hb1.2 p q]
            constructor
            · rintro ⟨d, e, x, h1, h2, h3, h4⟩
              exact ⟨d, e + 1, x, h1, by omega, h3, by simpa using h4⟩
            · rintro ⟨d, e, x, h1, h2, h3, h4⟩
              cases e with
              | zero =>
                exfalso
                simp only [List.get?_cons_zero, Option.some.injEq] at h4
                subst h4
                cases d with
                | zero =>
                  simp only [List.get?_cons_zero, Option.some.injEq] at h3
                  omega
                | succ d =>
                  simp only [List.get?_cons_succ] at h3
                  have := ha1.1 b (List.get?_mem h3)
                  omega
              | succ e =>
                exact ⟨d, e, x, h1, by omega, h3, by simpa using h4⟩
          · rw [if_neg hba]
            have heq : a = b := by omega
            subst heq
            rw [List.mem_cons, ih as1 bs1 (i + 1) (j + 1) (by omega) ha1.2 hb1.2 p q]
            constructor
            · rintro (h | ⟨d, e, x, h1, h2, h3, h4⟩)
              · simp only [Prod.mk.injEq] at h
                exact ⟨0, 0, a, by omega, by omega, rfl, rfl⟩
              · exact ⟨d + 1, e + 1, x, by omega, by omega, by simpa using h3, by simpa using h4⟩
            · rintro ⟨d, e, x, h1, h2, h3, h4⟩
              cases d with
              | zero =>
                simp only [List.get?_cons_zero, Option.some.injEq] at h3
                subst h3
                cases e with
                | zero =>
                  left
                  simp only [Prod.mk.injEq]
                  omega
                | succ e =>
                  exfalso
                  simp only [List.get?_cons_succ] at h4
                  have := hb1.1 a (List.get?_mem h4)
                  omega
              | succ d =>
                simp only [List.get?_cons_succ] at h3
                cases e with
                | zero =>
                  exfalso
                  simp only [List.get?_cons_zero, Option.some.injEq] at h4
                  subst h4
                  have := ha1.1 a (List.get?_mem h3)
                  omega
                | succ e =>
                  right
                  exact ⟨d, e, x, by omega, by omega, h3, by simpa using h4⟩

/-- The position of a variable in a duplicate-free array is the index at
which it stands. -/
theorem variablePosition_eq (v : List Nat) (hv : v.Nodup) (d x : Nat)
    (h : v.get? d = some x) : variablePosition v x = d := by
  unfold variablePosition
  obtain ⟨hd, hx⟩ := List.get?_eq_some.1 h
  have := List.get_indexOf hv ⟨d, hd⟩
  rw [hx] at this
  exact this

/-- The test of `compatible` with the intersection info of two strictly
ascending arrays of variables: the two binding arrays hold the same term for
every variable that stands in both arrays. -/
theorem compatible_iff (v1 v2 : List Nat) (h1 : v1.Pairwise (fun x y => x < y))
    (h2 : v2.Pairwise (fun x y => x < y)) (b1 b2 : List (Option TermList)) :
    compatibleBindings (intersectInfo v1 v2) b1 b2 = true ↔
      ∀ x, x ∈ v1 → x ∈ v2 →
        b1.get? (variablePosition v1 x) = b2.get? (variablePosition v2 x) := by
  have hn1 : v1.Nodup := h1.imp (fun h => Nat.ne_of_lt h)
  have hn2 : v2.Nodup := h2.imp (fun h => Nat.ne_of_lt h)
  unfold compatibleBindings intersectInfo
  rw [List.all_eq_true]
  constructor
  · intro h x hx1 hx2
    have g1 := List.indexOf_get? hx1
    have g2 := List.indexOf_get? hx2
    have hmem := (intersectLoop_mem (v1.length + v2.length) v1 v2 0 0 (Nat.le_refl _) h1 h2
      (List.indexOf x v1) (List.indexOf x v2)).2
      ⟨_, _, x, (Nat.zero_add _).symm, (Nat.zero_add _).symm, g1, g2⟩
    have := h _ hmem
    simpa [variablePosition] using this
  · intro h pq hpq
    obtain ⟨p, q⟩ := pq
    obtain ⟨d, e, x, hp, hq, g1, g2⟩ :=
      (intersectLoop_mem (v1.length + v2.length) v1 v2 0 0 (Nat.le_refl _) h1 h2 p q).1 hpq
    have := h x (List.get?_mem g1) (List.get?_mem g2)
    rw [variablePosition_eq v1 hn1 d x g1, variablePosition_eq v2 hn2 e x g2] at this
    simp only [Nat.zero_add] at hp hq
    subst hp hq
    simpa using this

theorem orderedInsert_eq (v : Nat) (l : List Nat) :
    orderedInsert v l = List.orderedInsert (fun x y => x ≤ y) v l := by
  induction l with
  | nil => rfl
  | cons x xs ih =>
    simp only [orderedInsert, List.orderedInsert]
    by_cases h : v ≤ x
    · rw [if_pos h, if_pos h]
    · rw [if_neg h, if_neg h, ih]

theorem heapOrder_eq (l : List Nat) : heapOrder l = List.insertionSort (fun x y => x ≤ y) l := by
  induction l with
  | nil => rfl
  | cons x xs ih => simp only [heapOrder, List.insertionSort, ih, orderedInsert_eq]

/-- The loop that empties the heap appends to the stored variables those of
the heap that are not stored yet, in ascending order. -/
theorem collectVars_spec : ∀ (l : List Nat) (last : Option Nat) (acc : List Nat),
    l.Pairwise (fun x y => x ≤ y) → acc.Pairwise (fun x y => x < y) →
    (∀ a ∈ acc, ∀ x ∈ l, a ≤ x) → (∀ v, last = some v → v ∈ acc) →
    (collectVars l last acc).Pairwise (fun x y => x < y) ∧
      ∀ x, x ∈ collectVars l last acc ↔ x ∈ acc ∨ x ∈ l := by
  intro l
  induction l with
  | nil =>
    intro last acc _ hacc _ _
    simp [collectVars, hacc]
  | cons v rest ih =>
    intro last acc hl hacc hle hlast
    have hl1 := List.pairwise_cons.1 hl
    rw [collectVars]
    by_cases h1 : last = some v
    · rw [if_pos h1]
      have hv := hlast v h1
      obtain ⟨g1, g2⟩ := ih last acc hl1.2 hacc
        (fun a ha x hx => hle a ha x (List.mem_cons_of_mem _ hx)) hlast
      refine ⟨g1, fun x => ?_⟩
      rw [g2 x, List.mem_cons]
      constructor
      · rintro (h | h)
        · exact Or.inl h
        · exact Or.inr (Or.inr h)
      · rintro (h | h | h)
        · exact Or.inl h
        · exact Or.inl (h ▸ hv)
        · exact Or.inr h
    · rw [if_neg h1]
      by_cases h2 : v ∈ acc
      · rw [if_pos h2]
        obtain ⟨g1, g2⟩ := ih (some v) acc hl1.2 hacc
          (fun a ha x hx => hle a ha x (List.mem_cons_of_mem _ hx))
          (fun w hw => by cases hw; exact h2)
        refine ⟨g1, fun x => ?_⟩
        rw [g2 x, List.mem_cons]
        constructor
        · rintro (h | h)
          · exact Or.inl h
          · exact Or.inr (Or.inr h)
        · rintro (h | h | h)
          · exact Or.inl h
          · exact Or.inl (h ▸ h2)
          · exact Or.inr h
      · rw [if_neg h2]
        have hacc1 : (acc ++ [v]).Pairwise (fun x y => x < y) := by
          rw [List.pairwise_append]
          refine ⟨hacc, List.pairwise_singleton _ _, ?_⟩
          intro a ha b hb
          rw [List.mem_singleton] at hb
          subst hb
          have := hle a ha b (List.mem_cons_self _ _)
          have hne : a ≠ b := fun h => h2 (h ▸ ha)
          omega
        obtain ⟨g1, g2⟩ := ih (some v) (acc ++ [v]) hl1.2 hacc1
          (fun a ha x hx => by
            rw [List.mem_append, List.mem_singleton] at ha
            rcases ha with ha | ha
            · exact hle a ha x (List.mem_cons_of_mem _ hx)
            · subst ha; exact hl1.1 x hx)
          (fun w hw => by cases hw; simp)
        refine ⟨g1, fun x => ?_⟩
        rw [g2 x, List.mem_append, List.mem_singleton, List.mem_cons]
        tauto

/-- The variables stored by `createLiteralBindings` are strictly ascending. -/
theorem boundVars_sorted (b : Literal) : (boundVars b).Pairwise (fun x y => x < y) := by
  unfold boundVars
  refine (collectVars_spec _ none [] ?_ List.Pairwise.nil ?_ ?_).1
  · rw [heapOrder_eq]
    exact List.sorted_insertionSort (fun x y => x ≤ y) _
  · intro a ha; cases ha
  · intro v hv; cases hv

/-- The variables stored by `createLiteralBindings` are the variables of the
base literal. -/
theorem mem_boundVars (b : Literal) (x : Nat) : x ∈ boundVars b ↔ x ∈ b.varOccs := by
  unfold boundVars
  have h := (collectVars_spec (heapOrder b.varOccs) none [] (by
    rw [heapOrder_eq]
    exact List.sorted_insertionSort (fun x y => x ≤ y) _) List.Pairwise.nil
    (by intro a ha; cases ha) (by intro v hv; cases hv)).2 x
  rw [h, heapOrder_eq, (List.perm_insertionSort (fun x y => x ≤ y) b.varOccs).mem_iff]
  simp

theorem getLiteralPosition_lt : ∀ (cl : Clause) (lit : Literal) (n : Nat),
    Clause.getLiteralPosition cl lit = .ok n → n < cl.length := by
  intro cl
  induction cl with
  | nil => intro lit n h; simp [Clause.getLiteralPosition] at h
  | cons l ls ih =>
    intro lit n h
    rw [Clause.getLiteralPosition] at h
    by_cases hl : l = lit
    · rw [if_pos hl] at h
      cases h
      simp
    · rw [if_neg hl] at h
      cases hp : Clause.getLiteralPosition ls lit with
      | fault f => rw [hp] at h; cases h
      | ok m =>
        rw [hp] at h
        cases h
        have := ih lit m hp
        simp only [List.length_cons]
        omega

theorem altRecord_lt (instCl : Clause) (resolvedLit : Option Literal) (alit : Literal) (r : Nat)
    (h : altRecord instCl resolvedLit alit = .ok r) :
    r < (if resolvedLit.isSome then 2 else instCl.length) := by
  unfold altRecord at h
  cases resolvedLit with
  | none =>
    simp only at h
    simpa using getLiteralPosition_lt instCl alit r h
  | some x =>
    simp only at h
    cases h
    simp

theorem altsOfLiteral_record (baseLit : Literal) (vars : List Nat) (instCl : Clause)
    (resolvedLit : Option Literal) (alit : Literal) (l : List AltBinding)
    (h : altsOfLiteral baseLit vars instCl resolvedLit alit = .ok l) :
    ∀ a ∈ l, a.record < (if resolvedLit.isSome then 2 else instCl.length) := by
  unfold altsOfLiteral at h
  by_cases h1 : some alit = resolvedLit
  · rw [if_pos h1] at h
    cases h
    intro a ha
    cases ha
  · rw [if_neg h1] at h
    by_cases h2 : alit.isEquality = true
    · rw [if_pos h2] at h
      cases hr : altRecord instCl resolvedLit alit with
      | fault f =>
        rw [hr] at h
        simp only at h
        split at h
        · cases h
        · cases h
          intro a ha
          cases ha
      | ok r =>
        rw [hr] at h
        simp only at h
        cases h
        have hlt := altRecord_lt instCl resolvedLit alit r hr
        intro a ha
        rw [List.mem_append] at ha
        rcases ha with ha | ha
        · split at ha
          · rw [List.mem_singleton] at ha
            subst ha
            exact hlt
          · cases ha
        · split at ha
          · rw [List.mem_singleton] at ha
            subst ha
            exact hlt
          · cases ha
    · rw [if_neg h2] at h
      split at h
      · cases h
      · cases hr : altRecord instCl resolvedLit alit with
        | fault f =>
          rw [hr] at h
          cases h
        | ok r =>
          rw [hr] at h
          simp only at h
          cases h
          have hlt := altRecord_lt instCl resolvedLit alit r hr
          intro a ha
          rw [List.mem_singleton] at ha
          subst ha
          exact hlt

theorem altsOfList_record (baseLit : Literal) (vars : List Nat) (instCl : Clause)
    (resolvedLit : Option Literal) : ∀ (alts : List Literal) (l : List AltBinding),
    altsOfList baseLit vars instCl resolvedLit alts = .ok l →
    ∀ a ∈ l, a.record < (if resolvedLit.isSome then 2 else instCl.length) := by
  intro alts
  induction alts with
  | nil =>
    intro l h a ha
    rw [altsOfList] at h
    cases h
    cases ha
  | cons alit rest ih =>
    intro l h a ha
    rw [altsOfList] at h
    cases h1 : altsOfLiteral baseLit vars instCl resolvedLit alit with
    | fault f => rw [h1] at h; cases h
    | ok l1 =>
      rw [h1] at h
      simp only at h
      cases h2 : altsOfList baseLit vars instCl resolvedLit rest with
      | fault f => rw [h2] at h; cases h
      | ok l2 =>
        rw [h2] at h
        simp only at h
        cases h
        rw [List.mem_append] at ha
        rcases ha with ha | ha
        · exact altsOfLiteral_record baseLit vars instCl resolvedLit alit l1 h1 a ha
        · exact ih l2 h2 a ha

theorem altsOfResolved_record (baseLit : Literal) (vars : List Nat) (instCl : Clause)
    (resolvedLit : Option Literal) :
    ∀ a ∈ altsOfResolved baseLit vars resolvedLit,
      a.record < (if resolvedLit.isSome then 2 else instCl.length) := by
  intro a ha
  unfold altsOfResolved at ha
  cases resolvedLit with
  | none => cases ha
  | some r =>
    simp only at ha
    split at ha
    · rw [List.mem_append] at ha
      rcases ha with ha | ha
      · split at ha
        · rw [List.mem_singleton] at ha
          subst ha
          simp
        · cases ha
      · split at ha
        · rw [List.mem_singleton] at ha
          subst ha
          simp
        · cases ha
    · cases ha

/-- What `createLiteralBindings` yields: the variables of the base literal in
ascending order, and alternatives whose record indices lie inside the match
record. -/
theorem createLiteralBindings_spec (baseLit : Literal) (alts : List Literal) (instCl : Clause)
    (resolvedLit : Option Literal) (r : List Nat × List AltBinding)
    (h : createLiteralBindings baseLit alts instCl resolvedLit = .ok r) :
    r.1 = boundVars baseLit ∧
      ∀ a ∈ r.2, a.record < (if resolvedLit.isSome then 2 else instCl.length) := by
  unfold createLiteralBindings at h
  cases h1 : altsOfList baseLit (boundVars baseLit) instCl resolvedLit alts with
  | fault f => rw [h1] at h; cases h
  | ok l =>
    rw [h1] at h
    simp only at h
    cases h
    refine ⟨rfl, fun a ha => ?_⟩
    rw [List.mem_append] at ha
    rcases ha with ha | ha
    · exact altsOfList_record baseLit _ instCl resolvedLit alts l h1 a ha
    · exact altsOfResolved_record baseLit _ instCl resolvedLit a ha

end Kernel


namespace Kernel

open Indexing (Run Fault)

theorem swapAt_length {α : Type} (l : List α) (i j : Nat) : (swapAt l i j).length = l.length := by
  unfold swapAt
  cases l.get? i with
  | none => rfl
  | some a =>
    cases l.get? j with
    | none => rfl
    | some b => simp

/-- An exchange of two entries of an array is the array read through a
transposition of the indices. -/
theorem swapAt_get {α : Type} (l : List α) (i j : Nat) (hi : i < l.length) (hj : j < l.length)
    (k : Nat) : (swapAt l i j).get? k = l.get? (Equiv.swap i j k) := by
  unfold swapAt
  have h1 : l.get? i = some l[i] := by simp [hi]
  have h2 : l.get? j = some l[j] := by simp [hj]
  rw [h1, h2]
  simp only [List.get?_eq_getElem?]
  by_cases hki : k = i
  · subst hki
    rw [Equiv.swap_apply_left]
    by_cases hij : k = j
    · subst hij
      simp [hi]
    · rw [List.getElem?_set_ne (Ne.symm hij)]
      simp [hi, hj]
  · by_cases hkj : k = j
    · subst hkj
      rw [Equiv.swap_apply_right]
      simp [hi, hj]
    · rw [Equiv.swap_apply_of_ne_of_ne hki hkj, List.getElem?_set_ne (Ne.symm hkj),
        List.getElem?_set_ne (Ne.symm hki)]

theorem swapAt_out {α : Type} (l : List α) (i j : Nat) (h : ¬ (i < l.length ∧ j < l.length)) :
    swapAt l i j = l := by
  unfold swapAt
  by_cases hi : i < l.length
  · have hj : ¬ j < l.length := fun hj => h ⟨hi, hj⟩
    have : l.get? j = none := by simp; omega
    rw [this]
    cases l.get? i <;> rfl
  · have : l.get? i = none := by simp; omega
    rw [this]

theorem samePerm_swap (B0 : List Literal) (A0 : List (List Literal)) (st : Reorder) (i j : Nat)
    (h : SamePerm B0 A0 st.baseLits st.altsArr) :
    SamePerm B0 A0 (st.swapLits i j).baseLits (st.swapLits i j).altsArr := by
  obtain ⟨h1, h2, π, hπ⟩ := h
  show SamePerm B0 A0 (swapAt st.baseLits i j) (swapAt st.altsArr i j)
  refine ⟨by rw [swapAt_length]; exact h1, by rw [swapAt_length]; exact h2, ?_⟩
  by_cases hr : i < B0.length ∧ j < B0.length
  · refine ⟨(Equiv.swap i j).trans π, fun k => ?_⟩
    rw [swapAt_get _ i j (by omega) (by omega), swapAt_get _ i j (by omega) (by omega)]
    exact hπ _
  · rw [swapAt_out _ i j (by rw [h1]; exact hr), swapAt_out _ i j (by rw [h2]; exact hr)]
    exact ⟨π, hπ⟩

theorem step_samePerm (B0 : List Literal) (A0 : List (List Literal))
    (resolvedLit : Option Literal) (st : Reorder) (i : Nat)
    (h : SamePerm B0 A0 st.baseLits st.altsArr) (hi : i < B0.length) :
    ∃ st1, st.step resolvedLit i = .ok st1 ∧ SamePerm B0 A0 st1.baseLits st1.altsArr := by
  have g1 : ∃ lit, st.baseLits.get? i = some lit :=
    ⟨_, List.get?_eq_get (by rw [h.1]; exact hi)⟩
  have g2 : ∃ as, st.altsArr.get? i = some as :=
    ⟨_, List.get?_eq_get (by rw [h.2.1]; exact hi)⟩
  obtain ⟨lit, g1⟩ := g1
  obtain ⟨as, g2⟩ := g2
  unfold Reorder.step
  rw [g1, g2]
  simp only []
  by_cases c1 : countAlts as = 0
  · rw [if_pos c1]
    refine ⟨_, rfl, ?_⟩
    by_cases c2 : st.zeroAlts ≠ i
    · rw [if_pos c2]
      by_cases c3 : st.singleAlts ≠ st.zeroAlts
      · rw [if_pos c3]
        exact samePerm_swap B0 A0 _ _ _ (samePerm_swap B0 A0 _ _ _ h)
      · rw [if_neg c3]
        exact samePerm_swap B0 A0 _ _ _ h
    · rw [if_neg c2]
      exact h
  · rw [if_neg c1]
    split
    · refine ⟨_, rfl, ?_⟩
      by_cases c2 : st.singleAlts ≠ i
      · rw [if_pos c2]
        exact samePerm_swap B0 A0 _ _ _ h
      · rw [if_neg c2]
        exact h
    · split
      · exact ⟨_, rfl, h⟩
      · exact ⟨_, rfl, h⟩

theorem loop_samePerm (B0 : List Literal) (A0 : List (List Literal))
    (resolvedLit : Option Literal) : ∀ (n i : Nat) (st : Reorder),
    SamePerm B0 A0 st.baseLits st.altsArr → i + n = B0.length →
    ∃ st1, Reorder.loop resolvedLit n i st = .ok st1 ∧
      SamePerm B0 A0 st1.baseLits st1.altsArr := by
  intro n
  induction n with
  | zero =>
    intro i st h _
    exact ⟨st, rfl, h⟩
  | succ n ih =>
    intro i st h hn
    obtain ⟨st1, hs, h1⟩ := step_samePerm B0 A0 resolvedLit st i h (by omega)
    rw [Reorder.loop, hs]
    exact ih (i + 1) st1 h1 (by omega)

/-- The reordering of `getMatchingData` applies one and the same permutation
to the base literals and to their lists of alternatives. -/
theorem reorderLits_spec (baseLits0 : List Literal) (alts : List (List Literal))
    (resolvedLit : Option Literal) (hne : baseLits0 ≠ [])
    (hlen : baseLits0.length ≤ alts.length) :
    ∃ bs as, reorderLits baseLits0 alts resolvedLit = .ok (bs, as) ∧
      SamePerm baseLits0 (alts.take baseLits0.length) bs as := by
  unfold reorderLits
  cases hb : baseLits0 with
  | nil => exact absurd hb hne
  | cons first rest =>
    simp only []
    rw [← hb]
    have h0 : SamePerm baseLits0 (alts.take baseLits0.length) baseLits0
        (alts.take baseLits0.length) :=
      ⟨rfl, by rw [List.length_take]; omega, Equiv.refl _, fun k => ⟨rfl, rfl⟩⟩
    obtain ⟨st1, hs, h1⟩ := loop_samePerm baseLits0 (alts.take baseLits0.length) resolvedLit
      baseLits0.length 0 ⟨baseLits0, alts.take baseLits0.length, 0, 0, 0, first.getDistinctVars⟩
      h0 (by omega)
    rw [hs]
    simp only []
    split
    · exact ⟨_, _, rfl, samePerm_swap _ _ _ _ _ h1⟩
    · exact ⟨_, _, rfl, h1⟩

end Kernel


namespace Kernel

open Indexing (Run Fault)

theorem properAlts_get (instCl : Clause) (r : Option Literal) (baseLits : List Literal)
    (alts : List (List Literal)) (h : properAlts instCl r baseLits alts = true) (i : Nat)
    (b : Literal) (as : List Literal) (hb : baseLits.get? i = some b)
    (ha : alts.get? i = some as) : ∃ res, createLiteralBindings b as instCl r = .ok res := by
  unfold properAlts at h
  rw [List.all_eq_true] at h
  have hm : (b, as) ∈ baseLits.zip alts :=
    List.get?_mem ((List.get?_zip_eq_some _ _ _ _).2 ⟨hb, ha⟩)
  have := h _ hm
  cases hc : createLiteralBindings b as instCl r with
  | ok res => exact ⟨res, rfl⟩
  | fault f =>
    simp only [hc] at this
    cases this

theorem slotOf_some (instCl : Clause) (r : Option Literal) (bases : List Literal)
    (alts : List (List Literal)) (i : Nat) (b : Literal) (as : List Literal)
    (res : List Nat × List AltBinding) (hb : bases.get? i = some b)
    (ha : alts.get? i = some as) (hc : createLiteralBindings b as instCl r = .ok res) :
    slotOf instCl r bases alts i = res := by
  unfold slotOf
  rw [hb, ha]
  simp only [hc]

/-- The slots of the reordered arrays are the slots of the given arrays, read
through the permutation. -/
theorem slotOf_perm (instCl : Clause) (r : Option Literal) (B bs : List Literal)
    (A as : List (List Literal)) (π : Equiv.Perm Nat)
    (hπ : ∀ k, bs.get? k = B.get? (π k) ∧ as.get? k = (A.take B.length).get? (π k)) (k : Nat) :
    slotOf instCl r bs as k = slotOf instCl r B A (π k) := by
  unfold slotOf
  rw [(hπ k).1, (hπ k).2]
  cases hB : B.get? (π k) with
  | none => rfl
  | some b =>
    have hlt : π k < B.length := (List.get?_eq_some.1 hB).1
    simp only [List.get?_eq_getElem?]
    rw [List.getElem?_take_of_lt hlt]

/-- A choice of alternatives for an arrangement of the base literals is, read
through the permutation, a choice for any other arrangement. -/
theorem matching_perm (multiset : Bool) (instCl : Clause) (r : Option Literal)
    (l1 l2 : List Literal) (a1 a2 : List (List Literal)) (π : Equiv.Perm Nat)
    (hget : ∀ k, l1.get? k = l2.get? (π k))
    (hslot : ∀ k, slotOf instCl r l1 a1 k = slotOf instCl r l2 a2 (π k))
    (σ : Nat → AltBinding) (h : Matching multiset instCl r l1 a1 σ) :
    Matching multiset instCl r l2 a2 (fun j => σ (π.symm j)) := by
  have hlt : ∀ j, j < l2.length → π.symm j < l1.length := by
    intro j hj
    have h1 := hget (π.symm j)
    rw [Equiv.apply_symm_apply] at h1
    rw [List.get?_eq_get hj] at h1
    exact (List.get?_eq_some.1 h1).1
  have hlt2 : ∀ k, k < l1.length → π k < l2.length := by
    intro k hk
    have h1 := hget k
    rw [List.get?_eq_get hk] at h1
    exact (List.get?_eq_some.1 h1.symm).1
  obtain ⟨m1, m2, m3, m4⟩ := h
  refine ⟨?_, ?_, ?_, ?_⟩
  · intro j hj
    have := m1 _ (hlt j hj)
    rw [hslot, Equiv.apply_symm_apply] at this
    exact this
  · intro i j b1 b2 hi hj hij
    refine m2 (π.symm i) (π.symm j) b1 b2 ?_ ?_ ?_
    · rw [hget, Equiv.apply_symm_apply]; exact hi
    · rw [hget, Equiv.apply_symm_apply]; exact hj
    · intro hc
      exact hij (π.symm.injective hc)
  · intro hm i j hi hj hij
    exact m3 hm _ _ (hlt i hi) (hlt j hj) (fun hc => hij (π.symm.injective hc))
  · intro hr
    obtain ⟨i, hi, hrec⟩ := m4 hr
    refine ⟨π i, hlt2 i hi, ?_⟩
    simp only [Equiv.symm_apply_apply]
    exact hrec

theorem agree_symm (b1 b2 : Literal) (x1 x2 : AltBinding) (h : Agree b1 x1 b2 x2) :
    Agree b2 x2 b1 x1 :=
  fun x h2 h1 => (h x h1 h2).symm

theorem agree_iff (b1 b2 : Literal) (x1 x2 : AltBinding) :
    compatibleBindings (intersectInfo (boundVars b1) (boundVars b2)) x1.bindings x2.bindings
      = true ↔ Agree b1 x1 b2 x2 := by
  rw [compatible_iff _ _ (boundVars_sorted b1) (boundVars_sorted b2)]
  unfold Agree AltBinding.valueOf
  constructor
  · intro h x h1 h2
    exact h x ((mem_boundVars b1 x).2 h1) ((mem_boundVars b2 x).2 h2)
  · intro h x h1 h2
    exact h x ((mem_boundVars b1 x).1 h1) ((mem_boundVars b2 x).1 h2)

/-- The solutions that the search looks for are the choices of alternatives
with agreement on the shared variables. -/
theorem isSolution_iff (multiset : Bool) (instCl : Clause) (r : Option Literal)
    (bs : List Literal) (as : List (List Literal))
    (hvars : ∀ i b, bs.get? i = some b → (slotOf instCl r bs as i).1 = boundVars b)
    (σ : Nat → AltBinding) :
    IsSolution multiset r.isSome bs.length (fun i => (slotOf instCl r bs as i).1)
      (fun i => (slotOf instCl r bs as i).2) σ ↔ Matching multiset instCl r bs as σ := by
  unfold IsSolution Matching
  constructor
  · rintro ⟨s1, s2, s3, s4⟩
    refine ⟨s1, ?_, ?_, s4⟩
    · intro i j b1 b2 hi hj hij
      have hi1 := (List.get?_eq_some.1 hi).1
      have hj1 := (List.get?_eq_some.1 hj).1
      rcases Nat.lt_or_gt_of_ne hij with h | h
      · have := s2 i j h hj1
        simp only [hvars i b1 hi, hvars j b2 hj] at this
        exact (agree_iff b1 b2 _ _).1 this
      · have := s2 j i h hi1
        simp only [hvars i b1 hi, hvars j b2 hj] at this
        exact agree_symm _ _ _ _ ((agree_iff b2 b1 _ _).1 this)
    · intro hm i j hi hj hij
      rcases Nat.lt_or_gt_of_ne hij with h | h
      · exact s3 hm i j h hj
      · exact fun hc => s3 hm j i h hi hc.symm
  · rintro ⟨m1, m2, m3, m4⟩
    refine ⟨m1, ?_, ?_, m4⟩
    · intro t i hti hi
      have ht : t < bs.length := by omega
      have g1 : bs.get? t = some (bs.get ⟨t, ht⟩) := List.get?_eq_get ht
      have g2 : bs.get? i = some (bs.get ⟨i, hi⟩) := List.get?_eq_get hi
      simp only [hvars t _ g1, hvars i _ g2]
      exact (agree_iff _ _ _ _).2 (m2 t i _ _ g1 g2 (by omega))
    · intro hm t i hti hi
      exact m3 hm t i (by omega) hi (by omega)

/-- The state in which `canBeMatched` enters its loop has all that the proof
of correctness needs. -/
theorem initial_good (multiset : Bool) (instCl : Clause) (r : Option Literal)
    (bs : List Literal) (as : List (List Literal)) (len : Nat) (hb : bs.length = len)
    (ha : as.length = len) (hpos : 0 < len) (h32 : len ≤ unclaimed)
    (hproper : ∀ i b a, bs.get? i = some b → as.get? i = some a →
      ∃ res, createLiteralBindings b a instCl r = .ok res)
    (md : MatchingData)
    (hmd : md = { len := len, boundVarNums := fun _ => none, altBindings := fun _ => [],
                  remaining := fun _ _ => 0, nextAlts := fun _ => 0,
                  intersections := fun _ _ => none, bases := bs, alts := as,
                  instCl := instCl, resolvedLit := r }) :
    Good multiset r.isSome (fun i => (slotOf instCl r bs as i).1)
      (fun i => (slotOf instCl r bs as i).2) (if r.isSome then 2 else instCl.length)
      (initialState md instCl) := by
  subst hmd
  have hcr : ∀ i, i < len → ∃ b a, bs.get? i = some b ∧ as.get? i = some a ∧
      createLiteralBindings b a instCl r = .ok (slotOf instCl r bs as i) := by
    intro i hi
    have g1 : bs.get? i = some (bs.get ⟨i, by omega⟩) := List.get?_eq_get (by omega)
    have g2 : as.get? i = some (as.get ⟨i, by omega⟩) := List.get?_eq_get (by omega)
    obtain ⟨res, hres⟩ := hproper i _ _ g1 g2
    refine ⟨_, _, g1, g2, ?_⟩
    rw [slotOf_some instCl r bs as i _ _ res g1 g2 hres]
    exact hres
  refine ⟨⟨0, ?_, ?_⟩, ?_, ?_, h32, rfl, ?_⟩
  · refine ⟨⟨?_, ?_, ?_, ?_, ?_⟩, hpos, Nat.le_refl _, Nat.zero_le _, ?_, ?_, ⟨?_, ?_, ?_, ?_⟩, ?_⟩
    · intro i; simp [initialState]
    · intro i hi; omega
    · intro i j x hx; simp [initialState] at hx
    · intro i j hi; omega
    · intro t ht; simp [initialState] at ht
    · intro h; simp [initialState] at h
    · intro _; simp [initialState, setAt]
    · simp [initialState]
    · intro p t ht; simp [initialState] at ht
    · intro t ct ht; simp [initialState] at ht
    · intro _ t1 t2 c1 c2 _ ht; simp [initialState] at ht
    · simp [initialState]
  · intro σ hσ
    refine ⟨0, Nat.le_refl _, fun t ht => absurd ht (Nat.not_lt_zero _), ?_⟩
    have := hσ.1 0 hpos
    simpa [initialState, setAt] using this
  · intro i hi
    obtain ⟨b, a, g1, g2, g3⟩ := hcr i hi
    exact ⟨b, a, g1, g2, g3⟩
  · intro i hi a hmem
    obtain ⟨b, a1, g1, g2, g3⟩ := hcr i hi
    exact (createLiteralBindings_spec b a1 instCl r _ g3).2 a hmem
  · intro hr
    rw [if_pos hr]
    omega

end Kernel


namespace Kernel

open Indexing (Run Fault)

theorem getMatchingData_eq (baseLits : List Literal) (instCl : Clause)
    (alts : List (List Literal)) (resolvedLit : Option Literal) (bs : List Literal)
    (as : List (List Literal)) (h : reorderLits baseLits alts resolvedLit = .ok (bs, as)) :
    getMatchingData baseLits instCl alts resolvedLit =
      .ok { len := baseLits.length, boundVarNums := fun _ => none, altBindings := fun _ => [],
            remaining := fun _ _ => 0, nextAlts := fun _ => 0,
            intersections := fun _ _ => none, bases := bs, alts := as,
            instCl := instCl, resolvedLit := resolvedLit } := by
  unfold getMatchingData
  rw [h]

/-- The method `canBeMatched` on proper input with enough fuel: it returns true
if there is a choice of alternatives with agreement on the shared variables
and false if there is none, unless the time limit is raised. The fuel that is
enough is the bound `searchSize` of the numbers of alternatives of the base
literals in the order in which `getMatchingData` arranges them. -/
theorem canBeMatched_bound (baseLits : List Literal) (instCl : Clause)
    (alts : List (List Literal)) (resolvedLit : Option Literal) (multiset : Bool)
    (hne : baseLits ≠ []) (hlen : baseLits.length ≤ alts.length)
    (h32 : baseLits.length ≤ unclaimed)
    (hproper : properAlts instCl resolvedLit baseLits alts = true)
    (hass : ¬ (resolvedLit.isSome ∧ multiset = true)) :
    ∃ bs as, reorderLits baseLits alts resolvedLit = .ok (bs, as) ∧
    ∀ (tl : Nat → Bool) (fuel : Nat),
      searchSize ((List.range baseLits.length).map
        (fun i => (slotOf instCl resolvedLit bs as i).2.length)) ≤ fuel →
      (∃ b, MLMatcher.canBeMatched fuel tl baseLits instCl alts resolvedLit multiset = .result b ∧
        (b = true ↔ ∃ σ, Matching multiset instCl resolvedLit baseLits alts σ)) ∨
      MLMatcher.canBeMatched fuel tl baseLits instCl alts resolvedLit multiset
        = .timeLimitExceeded := by
  obtain ⟨bs, as, hre, hb, ha, π, hπ⟩ := reorderLits_spec baseLits alts resolvedLit hne hlen
  have hpos : 0 < baseLits.length := List.length_pos.2 hne
  have hproper1 : ∀ i b a, bs.get? i = some b → as.get? i = some a →
      ∃ res, createLiteralBindings b a instCl resolvedLit = .ok res := by
    intro i b a g1 g2
    rw [(hπ i).1] at g1
    rw [(hπ i).2] at g2
    have hlt : π i < baseLits.length := (List.get?_eq_some.1 g1).1
    simp only [List.get?_eq_getElem?] at g2
    rw [List.getElem?_take_of_lt hlt] at g2
    exact properAlts_get instCl resolvedLit baseLits alts hproper (π i) b a g1
      (by simpa using g2)
  have hvars : ∀ i b, bs.get? i = some b →
      (slotOf instCl resolvedLit bs as i).1 = boundVars b := by
    intro i b g1
    have hi : i < as.length := by rw [ha, ← hb]; exact (List.get?_eq_some.1 g1).1
    have g2 : as.get? i = some (as.get ⟨i, hi⟩) := List.get?_eq_get hi
    obtain ⟨res, hres⟩ := hproper1 i b _ g1 g2
    rw [slotOf_some instCl resolvedLit bs as i b _ res g1 g2 hres]
    exact (createLiteralBindings_spec b _ instCl resolvedLit res hres).1
  have hgood := initial_good multiset instCl resolvedLit bs as baseLits.length hb ha hpos h32
    hproper1 _ rfl
  have hiff : (∃ σ, IsSolution multiset resolvedLit.isSome baseLits.length
      (fun i => (slotOf instCl resolvedLit bs as i).1)
      (fun i => (slotOf instCl resolvedLit bs as i).2) σ) ↔
      ∃ σ, Matching multiset instCl resolvedLit baseLits alts σ := by
    have hslot := slotOf_perm instCl resolvedLit baseLits bs alts as π hπ
    constructor
    · rintro ⟨σ, hσ⟩
      rw [← hb] at hσ
      have hm := (isSolution_iff multiset instCl resolvedLit bs as hvars σ).1 hσ
      exact ⟨_, matching_perm multiset instCl resolvedLit bs baseLits as alts π
        (fun k => (hπ k).1) hslot σ hm⟩
    · rintro ⟨σ, hσ⟩
      have hm := matching_perm multiset instCl resolvedLit baseLits bs alts as π.symm
        (fun k => by rw [(hπ (π.symm k)).1, Equiv.apply_symm_apply])
        (fun k => by rw [hslot (π.symm k), Equiv.apply_symm_apply]) σ hσ
      refine ⟨fun j => σ (π.symm.symm j), ?_⟩
      rw [← hb]
      exact (isSolution_iff multiset instCl resolvedLit bs as hvars _).2 hm
  refine ⟨bs, as, hre, fun tl fuel hfuel => ?_⟩
  have hmeas : SearchState.measure (fun i => (slotOf instCl resolvedLit bs as i).2)
      (initialState
        { len := baseLits.length, boundVarNums := fun _ => none, altBindings := fun _ => [],
          remaining := fun _ _ => 0, nextAlts := fun _ => 0,
          intersections := fun _ _ => none, bases := bs, alts := as,
          instCl := instCl, resolvedLit := resolvedLit } instCl) + 1 =
      searchSize ((List.range baseLits.length).map
        (fun i => (slotOf instCl resolvedLit bs as i).2.length)) := by
    have := measure_initial (fun i => (slotOf instCl resolvedLit bs as i).2.length)
      baseLits.length (setAt (fun _ => 0) 0 0) (by simp [setAt]) hpos
    simp only [sizeFrom, Nat.sub_zero, Nat.zero_add] at this
    exact this
  unfold MLMatcher.canBeMatched
  rw [if_neg hass, getMatchingData_eq baseLits instCl alts resolvedLit bs as hre]
  simp only []
  rcases searchLoop_spec multiset resolvedLit.isSome _ _ _ tl fuel _ hgood (by omega) with
    ⟨b, h1, h2⟩ | h1
  · left
    refine ⟨b, h1, ?_⟩
    rw [h2]
    exact hiff
  · exact Or.inr h1

/-- The method `canBeMatched` on proper input returns the right boolean or
raises the time limit, whenever the fuel is above a bound that depends on the
input only. -/
theorem canBeMatched_correct (baseLits : List Literal) (instCl : Clause)
    (alts : List (List Literal)) (resolvedLit : Option Literal) (multiset : Bool)
    (hne : baseLits ≠ []) (hlen : baseLits.length ≤ alts.length)
    (h32 : baseLits.length ≤ unclaimed)
    (hproper : properAlts instCl resolvedLit baseLits alts = true)
    (hass : ¬ (resolvedLit.isSome ∧ multiset = true)) :
    ∃ n, ∀ (tl : Nat → Bool) (fuel : Nat), n ≤ fuel →
      (∃ b, MLMatcher.canBeMatched fuel tl baseLits instCl alts resolvedLit multiset = .result b ∧
        (b = true ↔ ∃ σ, Matching multiset instCl resolvedLit baseLits alts σ)) ∨
      MLMatcher.canBeMatched fuel tl baseLits instCl alts resolvedLit multiset
        = .timeLimitExceeded := by
  obtain ⟨bs, as, _, h⟩ := canBeMatched_bound baseLits instCl alts resolvedLit multiset hne hlen
    h32 hproper hass
  exact ⟨_, h⟩

/-- With a time limit that is never reached `canBeMatched` does not raise
it. -/
theorem canBeMatched_never (fuel : Nat) (baseLits : List Literal) (instCl : Clause)
    (alts : List (List Literal)) (resolvedLit : Option Literal) (multiset : Bool) :
    MLMatcher.canBeMatched fuel (fun _ => false) baseLits instCl alts resolvedLit multiset
      ≠ .timeLimitExceeded := by
  unfold MLMatcher.canBeMatched
  split
  · simp
  · split
    · simp
    · exact searchLoop_never multiset fuel _

/-- More fuel does not change a result of the outer loop. -/
theorem searchLoop_mono (multiset : Bool) (tl : Nat → Bool) :
    ∀ (fuel : Nat) (s : SearchState) (o : Outcome),
      searchLoop multiset tl fuel s = o → o ≠ .fault .outOfFuel →
      ∀ k, searchLoop multiset tl (fuel + k) s = o := by
  intro fuel
  induction fuel with
  | zero =>
    intro s o h hne
    rw [searchLoop] at h
    exact absurd h.symm hne
  | succ fuel ih =>
    intro s o h hne k
    rw [Nat.add_right_comm, searchLoop]
    rw [searchLoop] at h
    cases hs : step multiset tl s with
    | done o1 =>
      rw [hs] at h
      exact h
    | next s1 =>
      rw [hs] at h
      exact ih s1 o h hne k

/-- More fuel does not change a boolean that `canBeMatched` returns. -/
theorem canBeMatched_mono (fuel fuel1 : Nat) (hle : fuel ≤ fuel1) (tl : Nat → Bool)
    (baseLits : List Literal) (instCl : Clause) (alts : List (List Literal))
    (resolvedLit : Option Literal) (multiset : Bool) (b : Bool)
    (h : MLMatcher.canBeMatched fuel tl baseLits instCl alts resolvedLit multiset = .result b) :
    MLMatcher.canBeMatched fuel1 tl baseLits instCl alts resolvedLit multiset = .result b := by
  obtain ⟨k, rfl⟩ : ∃ k, fuel1 = fuel + k := ⟨fuel1 - fuel, by omega⟩
  unfold MLMatcher.canBeMatched at h ⊢
  split
  · rename_i hc
    rw [if_pos hc] at h
    exact h
  · rename_i hc
    rw [if_neg hc] at h
    cases hg : getMatchingData baseLits instCl alts resolvedLit with
    | fault f =>
      rw [hg] at h
      exact h
    | ok md =>
      rw [hg] at h
      exact searchLoop_mono multiset tl fuel _ _ h (by simp) k

theorem finalCheck_counter (s : SearchState) (r : BodyResult) (h : finalCheck s = .ok r)
    (s1 : SearchState) (hr : r = .again s1 ∨ r = .completed s1) :
    s1.counter = s.counter ∧ s1.checks = s.checks := by
  unfold finalCheck at h
  split at h
  · cases h; rcases hr with hr | hr <;> cases hr
  · split at h
    · cases h
    · split at h
      · cases h
        rcases hr with hr | hr <;> cases hr
        exact ⟨rfl, rfl⟩
      · cases h; rcases hr with hr | hr <;> cases hr

/-- The body of the outer loop changes neither the counter nor the number of
consultations of the time limit. -/
theorem loopBody_counter (multiset : Bool) (s : SearchState) (r : BodyResult)
    (h : loopBody multiset s = .ok r) (s1 : SearchState)
    (hr : r = .again s1 ∨ r = .completed s1) :
    s1.counter = s.counter ∧ s1.checks = s.checks := by
  unfold loopBody at h
  split at h
  · cases h
  · cases h
    rcases hr with hr | hr <;> cases hr
    exact ⟨rfl, rfl⟩
  · cases h; rcases hr with hr | hr <;> cases hr
  · split at h
    · cases h
    · split at h
      · split at h
        · cases h
        · split at h
          · cases h
          · split at h
            · exact finalCheck_counter _ r h s1 hr
            · cases h
              rcases hr with hr | hr <;> cases hr
              exact ⟨rfl, rfl⟩
      · split at h
        · cases h; rcases hr with hr | hr <;> cases hr
        · cases h
          rcases hr with hr | hr <;> cases hr
          exact ⟨rfl, rfl⟩

theorem range_any_succ (n : Nat) (f : Nat → Bool) :
    (List.range (n + 1)).any f = (f 0 || (List.range n).any (fun j => f (j + 1))) := by
  rw [List.range_succ_eq_map, List.any_cons, List.any_map]
  rfl

/-- The outer loop under a time limit: the time limit is raised if and only if
it is reached at one of the consultations, which come after every 50000th
pass that reaches the counter; otherwise the loop ends as it does when the
time limit is never reached. -/
theorem searchLoop_timeout (multiset : Bool) (tl : Nat → Bool) :
    ∀ (fuel : Nat) (s : SearchState), s.counter < 50000 →
      searchLoop multiset tl fuel s =
        if (List.range ((completedPasses multiset fuel s + s.counter) / 50000)).any
            (fun j => tl (s.checks + j)) then .timeLimitExceeded
        else searchLoop multiset (fun _ => false) fuel s := by
  intro fuel
  induction fuel with
  | zero =>
    intro s hs
    have : (completedPasses multiset 0 s + s.counter) / 50000 = 0 := by
      rw [completedPasses]
      exact Nat.div_eq_of_lt (by omega)
    rw [this]
    rfl
  | succ fuel ih =>
    intro s hs
    have hdiv : (0 + s.counter) / 50000 = 0 := Nat.div_eq_of_lt (by omega)
    rw [searchLoop, searchLoop, completedPasses]
    unfold step
    cases hb : loopBody multiset s with
    | fault f =>
      simp only []
      rw [hdiv]
      rfl
    | ok r =>
      cases r with
      | ret b =>
        simp only []
        rw [hdiv]
        rfl
      | again s1 =>
        have hcnt := loopBody_counter multiset s _ hb s1 (Or.inl rfl)
        simp only []
        rw [ih s1 (by omega), hcnt.1, hcnt.2]
      | completed s1 =>
        have hcnt := loopBody_counter multiset s _ hb s1 (Or.inr rfl)
        simp only []
        by_cases hc : s1.counter + 1 = 50000
        · have ht0 : tick (fun _ => false) s1
              = .next { s1 with counter := 0, checks := s1.checks + 1 } := by
            simp [tick, hc]
          rw [ht0]
          simp only []
          have hd : (completedPasses multiset fuel
              { s1 with counter := 0, checks := s1.checks + 1 } + 1 + s.counter) / 50000 =
              completedPasses multiset fuel
                { s1 with counter := 0, checks := s1.checks + 1 } / 50000 + 1 := by
            omega
          rw [hd, range_any_succ]
          by_cases ht : tl s1.checks = true
          · have ht1 : tick tl s1 = .done .timeLimitExceeded := by
              simp [tick, hc, ht]
            rw [ht1]
            simp only [Nat.add_zero, ← hcnt.2, ht, Bool.true_or, if_true]
          · have ht1 : tick tl s1 = .next { s1 with counter := 0, checks := s1.checks + 1 } := by
              simp [tick, hc, ht]
            rw [ht1]
            simp only []
            rw [ih _ (by simp)]
            simp only [Nat.add_zero, ← hcnt.2, ht, Bool.false_or]
            have : (fun j => tl (s1.checks + 1 + j)) = (fun j => tl (s1.checks + (j + 1))) := by
              funext j
              rw [Nat.add_assoc, Nat.add_comm 1 j]
            rw [this]
        · have ht0 : tick (fun _ => false) s1 = .next { s1 with counter := s1.counter + 1 } := by
            simp [tick, hc]
          have ht1 : tick tl s1 = .next { s1 with counter := s1.counter + 1 } := by
            simp [tick, hc]
          rw [ht0, ht1]
          simp only []
          rw [ih _ (by simp only []; omega)]
          simp only []
          have hd : completedPasses multiset fuel { s1 with counter := s1.counter + 1 } +
              (s1.counter + 1) = completedPasses multiset fuel
                { s1 with counter := s1.counter + 1 } + 1 + s.counter := by
            omega
          rw [hd, hcnt.2]

end Kernel


namespace Kernel

open Indexing (Run Fault)
open Example

/-- With a time limit that is never reached `canBeMatched` on proper input
returns, given enough fuel, the boolean that tells whether there is a choice
of alternatives. -/
theorem canBeMatched_decides (baseLits : List Literal) (instCl : Clause)
    (alts : List (List Literal)) (resolvedLit : Option Literal) (multiset : Bool)
    (hne : baseLits ≠ []) (hlen : baseLits.length ≤ alts.length)
    (h32 : baseLits.length ≤ unclaimed)
    (hproper : properAlts instCl resolvedLit baseLits alts = true)
    (hass : ¬ (resolvedLit.isSome ∧ multiset = true)) :
    ∃ n, ∀ fuel, n ≤ fuel →
      ∃ b, MLMatcher.canBeMatched fuel (fun _ => false) baseLits instCl alts resolvedLit multiset
          = .result b ∧
        (b = true ↔ ∃ σ, Matching multiset instCl resolvedLit baseLits alts σ) := by
  obtain ⟨n, hn⟩ := canBeMatched_correct baseLits instCl alts resolvedLit multiset hne hlen h32
    hproper hass
  refine ⟨n, fun fuel hfuel => ?_⟩
  rcases hn (fun _ => false) fuel hfuel with h | h
  · exact h
  · exact absurd h (canBeMatched_never fuel baseLits instCl alts resolvedLit multiset)

/-- Claim C3: for at least one base literal, no resolved literal, multiset =
false and a time limit that is never reached, `canBeMatched` on proper input
(a list of alternatives for every base literal on which
`createLiteralBindings` raises no assertion, fewer than 2^32 base literals)
returns, given enough fuel, a boolean that is true if and only if one
alternative can be chosen for every base literal such that any two chosen
alternatives bind every variable shared by their two base literals to the same
term. The base {P(X,Y)} with the single alternative X ↦ a, Y ↦ b gives true;
the base {P(X), Q(X)} gives false against {P(a), Q(b)} and true against
{P(a), Q(a)}. -/
theorem C3_shared_variable_matching :
    (∀ (baseLits : List Literal) (instCl : Clause) (alts : List (List Literal)),
      baseLits ≠ [] → baseLits.length ≤ alts.length → baseLits.length ≤ unclaimed →
      properAlts instCl none baseLits alts = true →
      ∃ n, ∀ fuel, n ≤ fuel →
        ∃ b, MLMatcher.canBeMatched fuel (fun _ => false) baseLits instCl alts none false
            = .result b ∧
          (b = true ↔ ∃ σ : Nat → AltBinding,
            (∀ i, i < baseLits.length → σ i ∈ (slotOf instCl none baseLits alts i).2) ∧
            (∀ i j b1 b2, baseLits.get? i = some b1 → baseLits.get? j = some b2 → i ≠ j →
              Agree b1 (σ i) b2 (σ j)))) ∧
    createLiteralBindings (P [X, Y]) [P [a, b]] [P [a, b]] none
      = .ok ([0, 1], [⟨[some a, some b], 0⟩]) ∧
    (∀ fuel, 1 ≤ fuel →
      MLMatcher.canBeMatched fuel (fun _ => false) [P [X, Y]] [P [a, b]] [[P [a, b]]] none false
        = .result true) ∧
    (∀ fuel, 3 ≤ fuel →
      MLMatcher.canBeMatched fuel (fun _ => false) [P [X], Q [X]] [P [a], Q [b]]
        [[P [a]], [Q [b]]] none false = .result false) ∧
    (∀ fuel, 2 ≤ fuel →
      MLMatcher.canBeMatched fuel (fun _ => false) [P [X], Q [X]] [P [a], Q [a]]
        [[P [a]], [Q [a]]] none false = .result true) := by
  refine ⟨?_, by decide, ?_, ?_, ?_⟩
  · intro baseLits instCl alts hne hlen h32 hproper
    obtain ⟨n, hn⟩ := canBeMatched_decides baseLits instCl alts none false hne hlen h32 hproper
      (by simp)
    refine ⟨n, fun fuel hfuel => ?_⟩
    obtain ⟨b, hb, hiff⟩ := hn fuel hfuel
    refine ⟨b, hb, hiff.trans ?_⟩
    constructor
    · rintro ⟨σ, m1, m2, _, _⟩
      exact ⟨σ, m1, m2⟩
    · rintro ⟨σ, m1, m2⟩
      exact ⟨σ, m1, m2, fun h => absurd h (by simp), fun h => absurd h (by simp)⟩
  · intro fuel hfuel
    exact canBeMatched_mono 1 fuel hfuel _ _ _ _ _ _ _ (by decide)
  · intro fuel hfuel
    exact canBeMatched_mono 3 fuel hfuel _ _ _ _ _ _ _ (by decide)
  · intro fuel hfuel
    exact canBeMatched_mono 2 fuel hfuel _ _ _ _ _ _ _ (by decide)

/-- The general statement of C3 at the base {P(X), Q(X)} with the candidate
{P(a), Q(b)}. -/
theorem C3_shared_variable_matching_witness :
    ∃ n, ∀ fuel, n ≤ fuel →
      ∃ res, MLMatcher.canBeMatched fuel (fun _ => false) [P [X], Q [X]] [P [a], Q [b]]
          [[P [a]], [Q [b]]] none false = .result res ∧
        (res = true ↔ ∃ σ : Nat → AltBinding,
          (∀ i, i < [P [X], Q [X]].length →
            σ i ∈ (slotOf [P [a], Q [b]] none [P [X], Q [X]] [[P [a]], [Q [b]]] i).2) ∧
          (∀ i j b1 b2, [P [X], Q [X]].get? i = some b1 → [P [X], Q [X]].get? j = some b2 →
            i ≠ j → Agree b1 (σ i) b2 (σ j))) :=
  C3_shared_variable_matching.1 [P [X], Q [X]] [P [a], Q [b]] [[P [a]], [Q [b]]]
    (by decide) (by decide) (by decide) (by decide)

/-- Claim C4: with multiset = true, no resolved literal and a time limit that
is never reached, `canBeMatched` on proper input returns, given enough fuel, a
boolean that is true if and only if there is a choice of one alternative for
every base literal that agrees on all shared variables and in which no two
base literals have alternatives with the same record index, the position of
the matched literal in the candidate clause. The base {P(X), P(Y)} against the
candidate {P(a)} gives false in multiset mode and true in non-multiset
mode. -/
theorem C4_multiset_injective :
    (∀ (baseLits : List Literal) (instCl : Clause) (alts : List (List Literal)),
      baseLits ≠ [] → baseLits.length ≤ alts.length → baseLits.length ≤ unclaimed →
      properAlts instCl none baseLits alts = true →
      ∃ n, ∀ fuel, n ≤ fuel →
        ∃ b, MLMatcher.canBeMatched fuel (fun _ => false) baseLits instCl alts none true
            = .result b ∧
          (b = true ↔ ∃ σ : Nat → AltBinding,
            (∀ i, i < baseLits.length → σ i ∈ (slotOf instCl none baseLits alts i).2) ∧
            (∀ i j b1 b2, baseLits.get? i = some b1 → baseLits.get? j = some b2 → i ≠ j →
              Agree b1 (σ i) b2 (σ j)) ∧
            (∀ i j, i < baseLits.length → j < baseLits.length → i ≠ j →
              (σ i).record ≠ (σ j).record))) ∧
    (∀ (instCl : Clause) (alit : Literal) (r : Nat),
      altRecord instCl none alit = .ok r → instCl.get? r = some alit) ∧
    (∀ fuel, 3 ≤ fuel →
      MLMatcher.canBeMatched fuel (fun _ => false) [P [X], P [Y]] [P [a]] [[P [a]], [P [a]]]
        none true = .result false) ∧
    (∀ fuel, 2 ≤ fuel →
      MLMatcher.canBeMatched fuel (fun _ => false) [P [X], P [Y]] [P [a]] [[P [a]], [P [a]]]
        none false = .result true) := by
  refine ⟨?_, ?_, ?_, ?_⟩
  · intro baseLits instCl alts hne hlen h32 hproper
    obtain ⟨n, hn⟩ := canBeMatched_decides baseLits instCl alts none true hne hlen h32 hproper
      (by simp)
    refine ⟨n, fun fuel hfuel => ?_⟩
    obtain ⟨b, hb, hiff⟩ := hn fuel hfuel
    refine ⟨b, hb, hiff.trans ?_⟩
    constructor
    · rintro ⟨σ, m1, m2, m3, _⟩
      exact ⟨σ, m1, m2, m3 rfl⟩
    · rintro ⟨σ, m1, m2, m3⟩
      exact ⟨σ, m1, m2, fun _ => m3, fun h => absurd h (by simp)⟩
  · intro instCl
    induction instCl with
    | nil =>
      intro alit r h
      simp [altRecord, Clause.getLiteralPosition] at h
    | cons l ls ih =>
      intro alit r h
      simp only [altRecord] at h ih
      rw [Clause.getLiteralPosition] at h
      by_cases hl : l = alit
      · rw [if_pos hl] at h
        cases h
        simp [hl]
      · rw [if_neg hl] at h
        cases hp : Clause.getLiteralPosition ls alit with
        | fault f => rw [hp] at h; cases h
        | ok m =>
          rw [hp] at h
          cases h
          simpa using ih alit m hp
  · intro fuel hfuel
    exact canBeMatched_mono 3 fuel hfuel _ _ _ _ _ _ _ (by decide)
  · intro fuel hfuel
    exact canBeMatched_mono 2 fuel hfuel _ _ _ _ _ _ _ (by decide)

/-- The general statement of C4 at the base {P(X), P(Y)} with the candidate
{P(a)}. -/
theorem C4_multiset_injective_witness :
    ∃ n, ∀ fuel, n ≤ fuel →
      ∃ res, MLMatcher.canBeMatched fuel (fun _ => false) [P [X], P [Y]] [P [a]]
          [[P [a]], [P [a]]] none true = .result res ∧
        (res = true ↔ ∃ σ : Nat → AltBinding,
          (∀ i, i < [P [X], P [Y]].length →
            σ i ∈ (slotOf [P [a]] none [P [X], P [Y]] [[P [a]], [P [a]]] i).2) ∧
          (∀ i j b1 b2, [P [X], P [Y]].get? i = some b1 → [P [X], P [Y]].get? j = some b2 →
            i ≠ j → Agree b1 (σ i) b2 (σ j)) ∧
          (∀ i j, i < [P [X], P [Y]].length → j < [P [X], P [Y]].length → i ≠ j →
            (σ i).record ≠ (σ j).record)) :=
  C4_multiset_injective.1 [P [X], P [Y]] [P [a]] [[P [a]], [P [a]]]
    (by decide) (by decide) (by decide) (by decide)

/-- Claim C7, counterexample: with the base {P(X)}, no ordinary alternative and
the resolved literal ¬P(a), the only alternative has the record index 1, so
the complete assignment claims `matchRecord[1]`, and `canBeMatched` returns
true; with the base {P(X)}, the alternative P(a) and the resolved literal
¬Q(a), the only alternative has the record index 0, so `matchRecord[1]` stays
unclaimed, and `canBeMatched` returns false. -/
theorem C7_unclaimed_entry_counterexample :
    createLiteralBindings (P [X]) [] [] (some (notP [a])) = .ok ([0], [⟨[some a], 1⟩]) ∧
    MLMatcher.canBeMatched 1 (fun _ => false) [P [X]] [] [[]] (some (notP [a])) false
      = .result true ∧
    createLiteralBindings (P [X]) [P [a]] [P [a]] (some (notQ [a]))
      = .ok ([0], [⟨[some a], 0⟩]) ∧
    MLMatcher.canBeMatched 2 (fun _ => false) [P [X]] [P [a]] [[P [a]]] (some (notQ [a])) false
      = .result false := by
  refine ⟨by decide, by decide, by decide, by decide⟩

/-- Claim C7, amended: when a resolved literal is supplied and all base
literals are committed, `canBeMatched` returns true if the entry
`matchRecord[1]` is claimed by a base literal (it is below the number of base
literals), and otherwise takes back the last commitment and goes on with the
search. So with a time limit that is never reached `canBeMatched` on proper
input returns, given enough fuel, a boolean that is true if and only if there
is a choice of alternatives, agreeing on the shared variables, one of which
has the record index 1. -/
theorem C7_claimed_entry_accepts :
    (∀ (s : SearchState) (r : Literal) (v : Nat), s.md.resolvedLit = some r →
      s.matchRecord.get? 1 = some v →
      (v < s.md.len → finalCheck s = .ok (.ret true)) ∧
      (s.md.len ≤ v → finalCheck s = .ok (.again { s with currBLit := s.currBLit - 1 }))) ∧
    (∀ (baseLits : List Literal) (instCl : Clause) (alts : List (List Literal)) (r : Literal),
      baseLits ≠ [] → baseLits.length ≤ alts.length → baseLits.length ≤ unclaimed →
      properAlts instCl (some r) baseLits alts = true →
      ∃ n, ∀ fuel, n ≤ fuel →
        ∃ b, MLMatcher.canBeMatched fuel (fun _ => false) baseLits instCl alts (some r) false
            = .result b ∧
          (b = true ↔ ∃ σ : Nat → AltBinding,
            (∀ i, i < baseLits.length → σ i ∈ (slotOf instCl (some r) baseLits alts i).2) ∧
            (∀ i j b1 b2, baseLits.get? i = some b1 → baseLits.get? j = some b2 → i ≠ j →
              Agree b1 (σ i) b2 (σ j)) ∧
            ∃ i, i < baseLits.length ∧ (σ i).record = 1)) := by
  refine ⟨?_, ?_⟩
  · intro s r v hr hv
    unfold finalCheck
    rw [hr]
    simp only [hv]
    constructor
    · intro h
      rw [if_neg (by omega)]
    · intro h
      rw [if_pos (by omega)]
  · intro baseLits instCl alts r hne hlen h32 hproper
    obtain ⟨n, hn⟩ := canBeMatched_decides baseLits instCl alts (some r) false hne hlen h32
      hproper (by simp)
    refine ⟨n, fun fuel hfuel => ?_⟩
    obtain ⟨b, hb, hiff⟩ := hn fuel hfuel
    refine ⟨b, hb, hiff.trans ?_⟩
    constructor
    · rintro ⟨σ, m1, m2, _, m4⟩
      exact ⟨σ, m1, m2, m4 rfl⟩
    · rintro ⟨σ, m1, m2, m4⟩
      exact ⟨σ, m1, m2, fun h => absurd h (by simp), fun _ => m4⟩

/-- The general statement of the amended C7 at the base {P(X)} with the
alternative P(a) and the resolved literal ¬P(a). -/
theorem C7_claimed_entry_accepts_witness :
    ∃ n, ∀ fuel, n ≤ fuel →
      ∃ res, MLMatcher.canBeMatched fuel (fun _ => false) [P [X]] [P [a]] [[P [a]]]
          (some (notP [a])) false = .result res ∧
        (res = true ↔ ∃ σ : Nat → AltBinding,
          (∀ i, i < [P [X]].length →
            σ i ∈ (slotOf [P [a]] (some (notP [a])) [P [X]] [[P [a]]] i).2) ∧
          (∀ i j b1 b2, [P [X]].get? i = some b1 → [P [X]].get? j = some b2 → i ≠ j →
            Agree b1 (σ i) b2 (σ j)) ∧
          ∃ i, i < [P [X]].length ∧ (σ i).record = 1) :=
  C7_claimed_entry_accepts.2 [P [X]] [P [a]] [[P [a]]] (notP [a])
    (by decide) (by decide) (by decide) (by decide)

/-- Claim C9, counterexample: with the base {P(X), Q(Y), R(X,Y)} and the
candidate {P(a), Q(b), R(c,c)} the third pass of the loop goes back from the
base literal 2 to the base literal 1 and the fourth from the base literal 1 to
the base literal 0, and neither changes a cursor `nextAlts`. -/
theorem C9_backtrack_keeps_cursors :
    MLMatcher.cursorsAfter 2 (fun _ => false) [P [X], Q [Y], R [X, Y]]
      [P [a], Q [b], R [c, c]] [[P [a]], [Q [b]], [R [c, c]]] none false
        = some (2, [1, 1, 0]) ∧
    MLMatcher.cursorsAfter 3 (fun _ => false) [P [X], Q [Y], R [X, Y]]
      [P [a], Q [b], R [c, c]] [[P [a]], [Q [b]], [R [c, c]]] none false
        = some (1, [1, 1, 0]) ∧
    MLMatcher.cursorsAfter 4 (fun _ => false) [P [X], Q [Y], R [X, Y]]
      [P [a], Q [b], R [c, c]] [[P [a]], [Q [b]], [R [c, c]]] none false
        = some (0, [1, 1, 0]) := by
  refine ⟨by decide, by decide, by decide⟩

/-- Claim C9, amended: for every proper input with at least one base literal
and every time-limit oracle, `canBeMatched` ends in one of three outcomes: it
returns true, returns false, or raises the time limit. The loop cannot run
forever: the fuel `searchSize` of the numbers of alternatives of the base
literals, in the order in which `getMatchingData` arranges them, is enough for
every oracle, and with an oracle that never fires the outcome is a boolean. -/
theorem C9_three_outcomes (baseLits : List Literal) (instCl : Clause)
    (alts : List (List Literal)) (resolvedLit : Option Literal) (multiset : Bool)
    (hne : baseLits ≠ []) (hlen : baseLits.length ≤ alts.length)
    (h32 : baseLits.length ≤ unclaimed)
    (hproper : properAlts instCl resolvedLit baseLits alts = true)
    (hass : ¬ (resolvedLit.isSome ∧ multiset = true)) :
    ∃ bs as, reorderLits baseLits alts resolvedLit = .ok (bs, as) ∧
      ∀ fuel, searchSize ((List.range baseLits.length).map
          (fun i => (slotOf instCl resolvedLit bs as i).2.length)) ≤ fuel →
        (∀ tl : Nat → Bool,
          MLMatcher.canBeMatched fuel tl baseLits instCl alts resolvedLit multiset
            = .result true ∨
          MLMatcher.canBeMatched fuel tl baseLits instCl alts resolvedLit multiset
            = .result false ∨
          MLMatcher.canBeMatched fuel tl baseLits instCl alts resolvedLit multiset
            = .timeLimitExceeded) ∧
        ∃ b, MLMatcher.canBeMatched fuel (fun _ => false) baseLits instCl alts resolvedLit
          multiset = .result b := by
  obtain ⟨bs, as, hre, h⟩ := canBeMatched_bound baseLits instCl alts resolvedLit multiset hne
    hlen h32 hproper hass
  refine ⟨bs, as, hre, fun fuel hfuel => ⟨fun tl => ?_, ?_⟩⟩
  · rcases h tl fuel hfuel with ⟨b, hb, _⟩ | h1
    · cases b
      · exact Or.inr (Or.inl hb)
      · exact Or.inl hb
    · exact Or.inr (Or.inr h1)
  · rcases h (fun _ => false) fuel hfuel with ⟨b, hb, _⟩ | h1
    · exact ⟨b, hb⟩
    · exact absurd h1 (canBeMatched_never fuel baseLits instCl alts resolvedLit multiset)

/-- The amended C9 at the base {P(X), Q(Y), R(X,Y)} with the candidate
{P(a), Q(b), R(c,c)}. -/
theorem C9_three_outcomes_witness :
    ∃ bs as, reorderLits [P [X], Q [Y], R [X, Y]] [[P [a]], [Q [b]], [R [c, c]]] none
        = .ok (bs, as) ∧
      ∀ fuel, searchSize ((List.range [P [X], Q [Y], R [X, Y]].length).map
          (fun i => (slotOf [P [a], Q [b], R [c, c]] none bs as i).2.length)) ≤ fuel →
        (∀ tl : Nat → Bool,
          MLMatcher.canBeMatched fuel tl [P [X], Q [Y], R [X, Y]] [P [a], Q [b], R [c, c]]
            [[P [a]], [Q [b]], [R [c, c]]] none false = .result true ∨
          MLMatcher.canBeMatched fuel tl [P [X], Q [Y], R [X, Y]] [P [a], Q [b], R [c, c]]
            [[P [a]], [Q [b]], [R [c, c]]] none false = .result false ∨
          MLMatcher.canBeMatched fuel tl [P [X], Q [Y], R [X, Y]] [P [a], Q [b], R [c, c]]
            [[P [a]], [Q [b]], [R [c, c]]] none false = .timeLimitExceeded) ∧
        ∃ res, MLMatcher.canBeMatched fuel (fun _ => false) [P [X], Q [Y], R [X, Y]]
          [P [a], Q [b], R [c, c]] [[P [a]], [Q [b]], [R [c, c]]] none false = .result res :=
  C9_three_outcomes [P [X], Q [Y], R [X, Y]] [P [a], Q [b], R [c, c]]
    [[P [a]], [Q [b]], [R [c, c]]] none false
    (by decide) (by decide) (by decide) (by decide) (by decide)

/-- Claim C10: `canBeMatched` consults the time limit only after every
50000th pass of the loop that reaches the statement `counter++`, and raises
`TimeLimitExceededException` exactly when the time limit is reached at such a
consultation: if the search with a time limit that is never reached makes `N`
such passes, the call raises the time limit if the oracle fires at one of its
first `N / 50000` consultations, and otherwise ends as the search without time
limit does. -/
theorem C10_cooperative_timeout (fuel : Nat) (tl : Nat → Bool) (baseLits : List Literal)
    (instCl : Clause) (alts : List (List Literal)) (resolvedLit : Option Literal)
    (multiset : Bool) :
    MLMatcher.canBeMatched fuel tl baseLits instCl alts resolvedLit multiset =
      if (List.range (MLMatcher.completedIterations fuel baseLits instCl alts resolvedLit
          multiset / 50000)).any tl then .timeLimitExceeded
      else MLMatcher.canBeMatched fuel (fun _ => false) baseLits instCl alts resolvedLit
        multiset := by
  unfold MLMatcher.canBeMatched MLMatcher.completedIterations
  by_cases hc : resolvedLit.isSome ∧ multiset = true
  · rw [if_pos hc, if_pos hc, if_pos hc]
    simp
  · rw [if_neg hc, if_neg hc, if_neg hc]
    cases hg : getMatchingData baseLits instCl alts resolvedLit with
    | fault f => simp
    | ok md =>
      simp only []
      rw [searchLoop_timeout multiset tl fuel (initialState md instCl) (by simp [initialState])]
      have h1 : (initialState md instCl).counter = 0 := rfl
      have h2 : (initialState md instCl).checks = 0 := rfl
      simp only [h1, h2, Nat.add_zero, Nat.zero_add]

end Kernel


namespace Indexing

open Kernel

/-- A walk goes on along the alternative link of the instruction under the
cursor. -/
theorem pathTo_alt_end (mem : List CodeBlock) (r p a : Ptr) (code : List Instruction)
    (i : Instruction) (h : PathTo mem r code p) (hd : deref mem p = .ok ⟨i, some a⟩) :
    PathTo mem r code a := by
  induction h with
  | here p => exact PathTo.alt p a i [] a hd (PathTo.here a)
  | step p0 i0 alt0 rest q h0 _ ih => exact PathTo.step p0 i0 alt0 rest a h0 (ih hd)
  | alt p0 a0 i0 code q h0 _ ih => exact PathTo.alt p0 a0 i0 code a h0 (ih hd)

/-- A walk goes on past the instruction under the cursor. -/
theorem pathTo_step_end (mem : List CodeBlock) (r p : Ptr) (code : List Instruction)
    (i : Instruction) (alt : Option Ptr) (h : PathTo mem r code p)
    (hd : deref mem p = .ok ⟨i, alt⟩) : PathTo mem r (code ++ [i]) ⟨p.blk, p.ofs + 1⟩ := by
  induction h with
  | here p => exact PathTo.step p i alt [] _ hd (PathTo.here _)
  | step p0 i0 alt0 rest q h0 _ ih => exact PathTo.step p0 i0 alt0 _ _ h0 (ih hd)
  | alt p0 a0 i0 code q h0 _ ih => exact PathTo.alt p0 a0 i0 _ _ h0 (ih hd)

/-- Where the inner loop of `incorporate` stops: at an instruction of the
alternative chain that equals the given one or has no alternative. -/
theorem skipAlternatives_spec (mem : List CodeBlock) (c : OpCode) :
    ∀ (fuel : Nat) (p0 p : Ptr), CodeTree.skipAlternatives mem c fuel p0 = .ok p →
      ∃ op, deref mem p = .ok op ∧ (c.instr = op.instr ∨ op.alternative = none) ∧
        ∀ r code, PathTo mem r code p0 → PathTo mem r code p := by
  intro fuel
  induction fuel with
  | zero => intro p0 p h; simp [CodeTree.skipAlternatives] at h
  | succ fuel ih =>
    intro p0 p h
    rw [CodeTree.skipAlternatives] at h
    cases hd : deref mem p0 with
    | fault f => rw [hd] at h; cases h
    | ok op =>
      rw [hd] at h
      simp only [] at h
      by_cases he : c.instr = op.instr
      · have : c.eqModAlt op = true := by simp [OpCode.eqModAlt, he]
        rw [this] at h
        simp only [Bool.not_true, Bool.false_eq_true, if_false] at h
        cases h
        exact ⟨op, hd, Or.inl he, fun r code hp => hp⟩
      · have : c.eqModAlt op = false := by simp [OpCode.eqModAlt, he]
        rw [this] at h
        simp only [Bool.not_false, if_true] at h
        cases ha : op.alternative with
        | none =>
          rw [ha] at h
          cases h
          exact ⟨op, hd, Or.inr ha, fun r code hp => hp⟩
        | some a =>
          rw [ha] at h
          obtain ⟨op1, h1, h2, h3⟩ := ih a p h
          refine ⟨op1, h1, h2, fun r code hp => h3 r code ?_⟩
          exact pathTo_alt_end mem r p0 a code op.instr hp (by rw [hd, ← ha])

/-- Where the last loop of `incorporate` stops: at an instruction of the
alternative chain that has no alternative. -/
theorem lastAlternative_spec (mem : List CodeBlock) :
    ∀ (fuel : Nat) (p0 p : Ptr), CodeTree.lastAlternative mem fuel p0 = .ok p →
      ∃ i, deref mem p = .ok ⟨i, none⟩ ∧ ∀ r code, PathTo mem r code p0 → PathTo mem r code p := by
  intro fuel
  induction fuel with
  | zero => intro p0 p h; simp [CodeTree.lastAlternative] at h
  | succ fuel ih =>
    intro p0 p h
    rw [CodeTree.lastAlternative] at h
    cases hd : deref mem p0 with
    | fault f => rw [hd] at h; cases h
    | ok op =>
      rw [hd] at h
      simp only [] at h
      cases ha : op.alternative with
      | none =>
        rw [ha] at h
        cases h
        exact ⟨op.instr, by rw [hd, ← ha], fun r code hp => hp⟩
      | some a =>
        rw [ha] at h
        obtain ⟨i, h1, h3⟩ := ih a p h
        refine ⟨i, h1, fun r code hp => h3 r code ?_⟩
        exact pathTo_alt_end mem r p0 a code op.instr hp (by rw [hd, ← ha])

/-- What `buildBlock` returns: the last `cnt` instructions of the code stack,
none of which has an alternative. -/
theorem buildBlock_ok (code : CodeStack) (cnt : Nat) (blk : CodeBlock)
    (h : CodeTree.buildBlock code cnt = .ok blk) :
    cnt ≤ code.length ∧ blk = code.drop (code.length - cnt) ∧ blk.length = cnt ∧
      ∀ op ∈ blk, op.alternative = none := by
  unfold CodeTree.buildBlock at h
  by_cases hc : cnt ≤ code.length
  · rw [if_pos hc] at h
    simp only [] at h
    split at h
    · rename_i hall
      cases h
      refine ⟨hc, rfl, by rw [List.length_drop]; omega, fun op hop => ?_⟩
      rw [List.all_eq_true] at hall
      have := hall op hop
      simpa using this
    · cases h
  · rw [if_neg hc] at h
    cases h

/-- What a successful run of the main loop of `incorporate` does: after a walk
over the first `j` of the remaining instructions it hangs one new block at an
instruction `q` that had no alternative. Either the walk stopped at an
instruction that differs from the next instruction of the code, and the block
holds the instructions from this one on, or the walk went over all the code,
found SUCCESS under the cursor, and the block holds the last instruction of
the code. -/
theorem incorporateLoop_shape (mem : List CodeBlock) (code : CodeStack) :
    ∀ (rest : List OpCode) (root : Ptr) (pre : List Instruction) (p0 : Ptr)
      (mem1 : List CodeBlock), PathTo mem root pre p0 →
      CodeTree.incorporateLoop mem code rest p0 = .ok mem1 →
      ∃ (j : Nat) (q : Ptr) (i : Instruction) (blk : CodeBlock),
        j ≤ rest.length ∧ PathTo mem root (pre ++ instrsOf (rest.take j)) q ∧
        deref mem q = .ok ⟨i, none⟩ ∧
        mem1 = setAlternative (mem ++ [blk]) q ⟨mem.length, 0⟩ ∧
        ((j < rest.length ∧ (∀ c, rest.get? j = some c → c.instr ≠ i) ∧
            CodeTree.buildBlock code (rest.length - j) = .ok blk) ∨
          (j = rest.length ∧
            (∃ q1 r alt, PathTo mem root (pre ++ instrsOf rest) q1 ∧
              deref mem q1 = .ok ⟨.SUCCESS r, alt⟩) ∧
            CodeTree.buildBlock code 1 = .ok blk)) := by
  intro rest
  induction rest with
  | nil =>
    intro root pre p0 mem1 hp h
    rw [CodeTree.incorporateLoop] at h
    cases hd : deref mem p0 with
    | fault f => rw [hd] at h; cases h
    | ok op =>
      rw [hd] at h
      simp only [] at h
      cases hi : op.instr with
      | SUCCESS r =>
        rw [hi] at h
        simp only [] at h
        cases hl : CodeTree.lastAlternative mem (mem.length + 1) p0 with
        | fault f => rw [hl] at h; cases h
        | ok last =>
          rw [hl] at h
          simp only [] at h
          cases hb : CodeTree.buildBlock code 1 with
          | fault f => rw [hb] at h; cases h
          | ok rem =>
            rw [hb] at h
            simp only [] at h
            cases h
            obtain ⟨i, h1, h2⟩ := lastAlternative_spec mem _ p0 last hl
            refine ⟨0, last, i, rem, Nat.le_refl _, ?_, h1, rfl, Or.inr ⟨rfl, ?_, rfl⟩⟩
            · simpa [instrsOf] using h2 root pre hp
            · refine ⟨p0, r, op.alternative, by simpa [instrsOf] using hp, ?_⟩
              rw [hd, ← hi]
      | CHECK_FUN _ => rw [hi] at h; cases h
      | ASSIGN_VAR _ => rw [hi] at h; cases h
      | CHECK_VAR _ => rw [hi] at h; cases h
      | FAIL => rw [hi] at h; cases h
      | NEXT_LIT => rw [hi] at h; cases h
  | cons c rest ih =>
    intro root pre p0 mem1 hp h
    rw [CodeTree.incorporateLoop] at h
    cases hs : CodeTree.skipAlternatives mem c (mem.length + 1) p0 with
    | fault f => rw [hs] at h; cases h
    | ok p =>
      rw [hs] at h
      simp only [] at h
      obtain ⟨op, hd, hor, hpath⟩ := skipAlternatives_spec mem c _ p0 p hs
      rw [hd] at h
      simp only [] at h
      by_cases he : c.instr = op.instr
      · have : c.eqModAlt op = true := by simp [OpCode.eqModAlt, he]
        rw [this] at h
        simp only [Bool.not_true, Bool.false_eq_true, if_false] at h
        have hp1 := pathTo_step_end mem root p pre op.instr op.alternative (hpath root pre hp) hd
        obtain ⟨j, q, i, blk, hj, hq, hdq, hm, hcase⟩ := ih root _ _ mem1 hp1 h
        refine ⟨j + 1, q, i, blk, by simp only [List.length_cons]; omega, ?_, hdq, hm, ?_⟩
        · simpa [instrsOf, he] using hq
        · rcases hcase with ⟨h1, h2, h3⟩ | ⟨h1, h2, h3⟩
          · left
            refine ⟨by simp only [List.length_cons]; omega, ?_, ?_⟩
            · intro c1 hc1
              exact h2 c1 (by simpa using hc1)
            · simpa using h3
          · right
            refine ⟨by simp only [List.length_cons]; omega, ?_, h3⟩
            obtain ⟨q1, r, alt, g1, g2⟩ := h2
            exact ⟨q1, r, alt, by simpa [instrsOf, he] using g1, g2⟩
      · have : c.eqModAlt op = false := by simp [OpCode.eqModAlt, he]
        rw [this] at h
        simp only [Bool.not_false, if_true] at h
        cases hb : CodeTree.buildBlock code (rest.length + 1) with
        | fault f => rw [hb] at h; cases h
        | ok rem =>
          rw [hb] at h
          simp only [] at h
          cases h
          have hnone : op.alternative = none := by
            rcases hor with h1 | h1
            · exact absurd h1 he
            · exact h1
          refine ⟨0, p, op.instr, rem, Nat.zero_le _, ?_, by rw [hd, ← hnone], rfl,
            Or.inl ⟨by simp, ?_, by simpa using hb⟩⟩
          · simpa [instrsOf] using hpath root pre hp
          · intro c1 hc1
            simp only [List.get?_cons_zero, Option.some.injEq] at hc1
            subst hc1
            exact he

end Indexing


namespace Indexing

open Kernel

/-- A walk that starts at a cursor outside the memory stays there. -/
theorem pathTo_fault (mem : List CodeBlock) (p q : Ptr) (code : List Instruction) (f : Fault)
    (hd : deref mem p = .fault f) (h : PathTo mem p code q) : code = [] ∧ q = p := by
  cases h with
  | here => exact ⟨rfl, rfl⟩
  | step =>
    rename_i h0 _
    rw [hd] at h0
    cases h0
  | alt =>
    rename_i h0 _
    rw [hd] at h0
    cases h0

/-- The sequences stored in the alternative subtrie are stored in the trie. -/
theorem paths_alt_mem (p : Ptr) (i : Instruction) (c a : Trie) (sq : List Instruction × Ptr)
    (h : sq ∈ a.paths) : sq ∈ (Trie.node p i c a).paths := by
  simp only [Trie.paths, List.mem_append]
  exact Or.inr h

/-- An instruction under the cursor of a walk through a well-shaped trie of
term patterns is a node of the trie, and the instructions walked over,
followed by this instruction, begin one of the stored sequences. -/
theorem pathTo_paths (mem : List CodeBlock) (p0 q : Ptr) (code : List Instruction)
    (h : PathTo mem p0 code q) :
    ∀ (t : Trie), Rep mem t (some p0) → t.shaped → t.termOnly →
      ∀ i alt, deref mem q = .ok ⟨i, alt⟩ →
        q ∈ t.ptrs ∧ ∃ sq ∈ t.paths, (code ++ [i]) <+: sq.1 := by
  induction h with
  | here p =>
    intro t hrep hsh hto i alt hd
    cases t with
    | nil => simp [Rep] at hrep
    | node p1 i1 c a =>
      obtain ⟨hq, alt1, hd1, _, _, hc⟩ := hrep
      cases hq
      rw [hd1] at hd
      cases hd
      refine ⟨by simp [Trie.ptrs], ?_⟩
      obtain ⟨_, hs2, hcsh, _⟩ := hsh
      obtain ⟨hnf, hnl, hcto, _⟩ := hto
      have key : ∀ (hs : ∀ r, i ≠ .SUCCESS r) (ht : i.terminal = false),
          ∃ sq ∈ (Trie.node p i c a).paths, ([] ++ [i]) <+: sq.1 := by
        intro hs ht
        rw [paths_node_other p i c a hs hnf]
        have hne := paths_ne_nil c hcto hcsh (hs2 ht)
        cases hcp : c.paths with
        | nil => exact absurd hcp hne
        | cons sq l =>
          refine ⟨(i :: sq.1, sq.2), by simp, ?_⟩
          exact ⟨sq.1, rfl⟩
      cases i with
      | SUCCESS r => exact ⟨([.SUCCESS r], p), by simp [Trie.paths], List.prefix_refl _⟩
      | FAIL => exact absurd rfl hnf
      | NEXT_LIT => exact absurd rfl hnl
      | CHECK_FUN f => exact key (fun r => by simp) rfl
      | ASSIGN_VAR v => exact key (fun r => by simp) rfl
      | CHECK_VAR v => exact key (fun r => by simp) rfl
  | step p i0 alt0 rest q h0 hsub ih =>
    intro t hrep hsh hto i alt hd
    cases t with
    | nil => simp [Rep] at hrep
    | node p1 i1 c a =>
      obtain ⟨hq, alt1, hd1, _, _, hc⟩ := hrep
      cases hq
      rw [hd1] at h0
      cases h0
      obtain ⟨_, hs2, hcsh, _⟩ := hsh
      obtain ⟨hnf, hnl, hcto, _⟩ := hto
      by_cases ht : i0.terminal = true
      · rw [if_pos ht] at hc
        obtain ⟨hrest, hq2⟩ := pathTo_fault mem _ q rest _ hc.2 hsub
        subst hq2
        rw [hc.2] at hd
        cases hd
      · rw [if_neg ht] at hc
        obtain ⟨g1, sq, g2, g3⟩ := ih c hc hcsh hcto i alt hd
        refine ⟨by simp [Trie.ptrs, g1], ?_⟩
        have hs : ∀ r, i0 ≠ .SUCCESS r := by
          intro r hr
          subst hr
          exact ht rfl
        rw [paths_node_other p i0 c a hs hnf]
        refine ⟨(i0 :: sq.1, sq.2), ?_, ?_⟩
        · simp only [List.mem_append, List.mem_map]
          exact Or.inl ⟨sq, g2, rfl⟩
        · obtain ⟨w, hw⟩ := g3
          exact ⟨w, by simp [← hw]⟩
  | alt p a0 i0 code q h0 hsub ih =>
    intro t hrep hsh hto i alt hd
    cases t with
    | nil => simp [Rep] at hrep
    | node p1 i1 c a =>
      obtain ⟨hq, alt1, hd1, hra, _, _⟩ := hrep
      cases hq
      rw [hd1] at h0
      cases h0
      obtain ⟨_, _, _, hash⟩ := hsh
      obtain ⟨_, _, _, hato⟩ := hto
      obtain ⟨g1, sq, g2, g3⟩ := ih a hra hash hato i alt hd
      exact ⟨by simp [Trie.ptrs, g1], sq, paths_alt_mem p i0 c a sq g2, g3⟩

/-- The slot discipline of a sequence holds for the instruction at each of its
places. -/
theorem disc_at (c1 : List Instruction) :
    ∀ (j : Nat) (i : Instruction) (c2 : List Instruction), Disc j (c1 ++ i :: c2) →
      i.disc (levelAfter j c1) := by
  induction c1 with
  | nil => intro j i c2 h; exact h.1
  | cons x xs ih =>
    intro j i c2 h
    simp only [List.cons_append, Disc] at h
    exact ih (x.bump j) i c2 h.2.2

/-- In a sequence with slot discipline a terminal instruction stands at the
end only. -/
theorem disc_terminal (c1 : List Instruction) :
    ∀ (j : Nat) (i : Instruction) (c2 : List Instruction), Disc j (c1 ++ i :: c2) →
      i.terminal = true → c2 = [] := by
  induction c1 with
  | nil => intro j i c2 h ht; exact h.2.1 ht
  | cons x xs ih =>
    intro j i c2 h ht
    simp only [List.cons_append, Disc] at h
    exact ih (x.bump j) i c2 h.2.2 ht

/-- The slots assigned by a sequence with slot discipline from level `j` on
are `j`, `j + 1`, ... up to the level after the sequence. -/
theorem disc_assigned (code : List Instruction) :
    ∀ (j : Nat) (c2 : List Instruction), Disc j (code ++ c2) →
      j ≤ levelAfter j code ∧
      assignedSlots code = (List.range (levelAfter j code - j)).map (fun d => j + d) := by
  induction code with
  | nil =>
    intro j c2 _
    simp [levelAfter, assignedSlots]
  | cons x xs ih =>
    intro j c2 h
    simp only [List.cons_append, Disc] at h
    obtain ⟨g1, g2⟩ := ih (x.bump j) c2 h.2.2
    have hl : levelAfter j (x :: xs) = levelAfter (x.bump j) xs := rfl
    rw [hl]
    cases x with
    | ASSIGN_VAR v =>
      have hv : v = j := h.1
      subst hv
      simp only [Instruction.bump] at g1 g2 ⊢
      refine ⟨by omega, ?_⟩
      simp only [assignedSlots, g2]
      obtain ⟨d, hd⟩ : ∃ d, levelAfter (v + 1) xs = v + 1 + d := ⟨_, (Nat.add_sub_cancel' g1).symm⟩
      rw [hd]
      have e1 : v + 1 + d - (v + 1) = d := by omega
      have e2 : v + 1 + d - v = d + 1 := by omega
      rw [e1, e2, List.range_succ_eq_map]
      simp only [List.map_cons, List.map_map, Nat.add_zero, List.cons.injEq, true_and]
      apply List.map_congr_left
      intro a _
      simp only [Function.comp]
      omega
    | SUCCESS r => exact ⟨g1, by simpa [assignedSlots, Instruction.bump] using g2⟩
    | CHECK_FUN f => exact ⟨g1, by simpa [assignedSlots, Instruction.bump] using g2⟩
    | CHECK_VAR v => exact ⟨g1, by simpa [assignedSlots, Instruction.bump] using g2⟩
    | FAIL => exact ⟨g1, by simpa [assignedSlots, Instruction.bump] using g2⟩
    | NEXT_LIT => exact ⟨g1, by simpa [assignedSlots, Instruction.bump] using g2⟩

theorem mem_assignedSlots (code : List Instruction) (v : Nat) :
    v ∈ assignedSlots code ↔ Instruction.ASSIGN_VAR v ∈ code := by
  induction code with
  | nil => simp [assignedSlots]
  | cons x xs ih =>
    cases x <;> simp [assignedSlots, ih]

/-- The level grows along a sequence. -/
theorem levelAfter_ge (code : List Instruction) : ∀ j, j ≤ levelAfter j code := by
  induction code with
  | nil => intro j; exact Nat.le_refl _
  | cons x xs ih =>
    intro j
    have h1 := bump_ge x j
    have h2 := ih (x.bump j)
    have hl : levelAfter j (x :: xs) = levelAfter (x.bump j) xs := rfl
    omega

/-- The level after a beginning of a sequence is not above the level after
the sequence. -/
theorem levelAfter_initial (c1 c : List Instruction) (j : Nat) (h : c1 <+: c) :
    levelAfter j c1 ≤ levelAfter j c := by
  obtain ⟨w, rfl⟩ := h
  rw [levelAfter_append]
  exact levelAfter_ge w _

/-- A beginning of a sequence with slot discipline has slot discipline up to
the condition on the end. -/
theorem disc_prefix_append (c1 c2 c3 : List Instruction) (j : Nat)
    (h : Disc j ((c1 ++ c2) ++ c3)) : Disc j (c1 ++ (c2 ++ c3)) := by
  rw [← List.append_assoc]
  exact h

end Indexing


namespace Indexing

open Kernel

theorem numbered_nil : Numbered [] 0 [] :=
  ⟨rfl, List.nodup_nil, fun v => by simp⟩

/-- The numbering after the first occurrence of a variable. -/
theorem numbered_snoc (vm : VarMap) (n : Nat) (seen : List Nat) (v : Nat)
    (h : Numbered vm n seen) (hv : v ∉ seen) : Numbered ((v, n) :: vm) (n + 1) (seen ++ [v]) := by
  obtain ⟨h1, h2, h3⟩ := h
  refine ⟨by simp [h1], ?_, fun w => ?_⟩
  · rw [List.nodup_append]
    refine ⟨h2, List.nodup_singleton v, ?_⟩
    intro a ha hb
    rw [List.mem_singleton] at hb
    subst hb
    exact hv ha
  · by_cases hw : w = v
    · subst hw
      have : w ∈ seen ++ [w] := by simp
      rw [if_pos this]
      simp only [List.lookup, beq_self_eq_true]
      rw [List.indexOf_append_of_not_mem hv]
      simp [h1]
    · have hb : (w == v) = false := by simpa using hw
      simp only [List.lookup, hb]
      rw [h3 w]
      by_cases hs : w ∈ seen
      · have : w ∈ seen ++ [v] := by simp [hs]
        rw [if_pos hs, if_pos this, List.indexOf_append_of_mem hs]
      · have : w ∉ seen ++ [v] := by simp [hs, hw]
        rw [if_neg hs, if_neg this]

/-- The loop of `CodeTree::compile` emits what the specification asks. -/
theorem foldl_compileStep_spec :
    ∀ (subs : List TermList) (code : CodeStack) (vm : VarMap) (n : Nat) (seen : List Nat),
      Numbered vm n seen →
      (subs.foldl CodeTree.compileStep (code, vm, n)).1 =
          code ++ (specCompile seen subs).1.map OpCode.mk0 ∧
        Numbered (subs.foldl CodeTree.compileStep (code, vm, n)).2.1
          (subs.foldl CodeTree.compileStep (code, vm, n)).2.2 (specCompile seen subs).2 := by
  intro subs
  induction subs with
  | nil =>
    intro code vm n seen h
    simpa [specCompile] using h
  | cons s rest ih =>
    intro code vm n seen h
    rw [List.foldl_cons]
    cases s with
    | var v =>
      by_cases hv : v ∈ seen
      · have hl : vm.lookup v = some (seen.indexOf v) := by rw [h.2.2 v, if_pos hv]
        have hstep : CodeTree.compileStep (code, vm, n) (.var v) =
            (code ++ [OpCode.mk0 (.CHECK_VAR (seen.indexOf v))], vm, n) := by
          simp only [CodeTree.compileStep, hl]
        rw [hstep]
        obtain ⟨g1, g2⟩ := ih (code ++ [OpCode.mk0 (.CHECK_VAR (seen.indexOf v))]) vm n seen h
        simp only [specCompile, if_pos hv]
        exact ⟨by rw [g1]; simp, g2⟩
      · have hl : vm.lookup v = none := by rw [h.2.2 v, if_neg hv]
        have hstep : CodeTree.compileStep (code, vm, n) (.var v) =
            (code ++ [OpCode.mk0 (.ASSIGN_VAR n)], (v, n) :: vm, n + 1) := by
          simp only [CodeTree.compileStep, hl]
        rw [hstep]
        obtain ⟨g1, g2⟩ := ih (code ++ [OpCode.mk0 (.ASSIGN_VAR n)]) ((v, n) :: vm) (n + 1)
          (seen ++ [v]) (numbered_snoc vm n seen v h hv)
        simp only [specCompile, if_neg hv]
        refine ⟨?_, g2⟩
        rw [g1, h.1]
        simp
    | term g as =>
      have hstep : CodeTree.compileStep (code, vm, n) (.term g as) =
          (code ++ [OpCode.mk0 (.CHECK_FUN g)], vm, n) := rfl
      rw [hstep]
      obtain ⟨g1, g2⟩ := ih (code ++ [OpCode.mk0 (.CHECK_FUN g)]) vm n seen h
      simp only [specCompile]
      exact ⟨by rw [g1]; simp, g2⟩

/-- The list of variables met grows at its end, and holds at the end the
variables met before and the variables among the subterms. -/
theorem specCompile_seen :
    ∀ (subs : List TermList) (seen : List Nat),
      seen <+: (specCompile seen subs).2 ∧
        ∀ v, v ∈ (specCompile seen subs).2 ↔ v ∈ seen ∨ TermList.var v ∈ subs := by
  intro subs
  induction subs with
  | nil => intro seen; simp [specCompile]
  | cons s rest ih =>
    intro seen
    cases s with
    | var w =>
      by_cases hw : w ∈ seen
      · simp only [specCompile, if_pos hw]
        obtain ⟨g1, g2⟩ := ih seen
        refine ⟨g1, fun v => ?_⟩
        rw [g2 v]
        simp only [List.mem_cons, TermList.var.injEq]
        constructor
        · rintro (h | h)
          · exact Or.inl h
          · exact Or.inr (Or.inr h)
        · rintro (h | h | h)
          · exact Or.inl h
          · exact Or.inl (h ▸ hw)
          · exact Or.inr h
      · simp only [specCompile, if_neg hw]
        obtain ⟨g1, g2⟩ := ih (seen ++ [w])
        refine ⟨(List.prefix_append seen [w]).trans g1, fun v => ?_⟩
        rw [g2 v]
        simp only [List.mem_append, List.mem_singleton, List.mem_cons, TermList.var.injEq]
        tauto
    | term g as =>
      simp only [specCompile]
      obtain ⟨g1, g2⟩ := ih seen
      refine ⟨g1, fun v => ?_⟩
      rw [g2 v]
      simp

/-- The place of a variable in a list is its place in every list that begins
with this list. -/
theorem indexOf_initial (l1 l2 : List Nat) (v : Nat) (h : l1 <+: l2) (hv : v ∈ l1) :
    l2.indexOf v = l1.indexOf v := by
  obtain ⟨w, rfl⟩ := h
  exact List.indexOf_append_of_mem hv

/-- The instructions that the specification asks for are CHECK_FUN,
ASSIGN_VAR and CHECK_VAR, with slots below the number of variables met in
all. -/
theorem specCompile_instrs :
    ∀ (subs : List TermList) (seen : List Nat),
      ∀ i ∈ (specCompile seen subs).1,
        i.plain = true ∧ i.slotBelow (specCompile seen subs).2.length := by
  intro subs
  induction subs with
  | nil => intro seen i hi; simp [specCompile] at hi
  | cons s rest ih =>
    intro seen i hi
    cases s with
    | var w =>
      by_cases hw : w ∈ seen
      · simp only [specCompile, if_pos hw, List.mem_cons] at hi ⊢
        rcases hi with hi | hi
        · subst hi
          refine ⟨rfl, ?_⟩
          have h1 := List.indexOf_lt_length.2 hw
          have h2 := (specCompile_seen rest seen).1.length_le
          exact Nat.lt_of_lt_of_le h1 h2
        · exact ih seen i hi
      · simp only [specCompile, if_neg hw, List.mem_cons] at hi ⊢
        rcases hi with hi | hi
        · subst hi
          refine ⟨rfl, ?_⟩
          have h2 := (specCompile_seen rest (seen ++ [w])).1.length_le
          simp only [List.length_append, List.length_singleton] at h2
          exact h2
        · exact ih (seen ++ [w]) i hi
    | term g as =>
      simp only [specCompile, List.mem_cons] at hi ⊢
      rcases hi with hi | hi
      · subst hi
        exact ⟨rfl, trivial⟩
      · exact ih seen i hi

/-- An occurrence of a variable that was met before gives CHECK_VAR with the
place of the variable. -/
theorem specCompile_get :
    ∀ (subs : List TermList) (seen0 seen : List Nat) (j v : Nat), seen0 <+: seen →
      v ∈ seen0 → subs.get? j = some (.var v) →
      (specCompile seen subs).1.get? j = some (.CHECK_VAR (seen0.indexOf v)) := by
  intro subs
  induction subs with
  | nil => intro seen0 seen j v _ _ h; simp at h
  | cons s rest ih =>
    intro seen0 seen j v hpre hv hj
    have hvs : v ∈ seen := hpre.subset hv
    cases j with
    | zero =>
      simp only [List.get?_cons_zero, Option.some.injEq] at hj
      subst hj
      simp only [specCompile, if_pos hvs, List.get?_cons_zero, indexOf_initial seen0 seen v hpre hv]
    | succ j =>
      simp only [List.get?_cons_succ] at hj
      cases s with
      | var w =>
        by_cases hw : w ∈ seen
        · simp only [specCompile, if_pos hw, List.get?_cons_succ]
          exact ih seen0 seen j v hpre hv hj
        · simp only [specCompile, if_neg hw, List.get?_cons_succ]
          exact ih seen0 (seen ++ [w]) j v (hpre.trans (List.prefix_append seen [w])) hv hj
      | term g as =>
        simp only [specCompile, List.get?_cons_succ]
        exact ih seen0 seen j v hpre hv hj

/-- The number of distinct variables stays duplicate-free. -/
theorem specCompile_nodup :
    ∀ (subs : List TermList) (seen : List Nat), seen.Nodup → (specCompile seen subs).2.Nodup := by
  intro subs
  induction subs with
  | nil => intro seen h; exact h
  | cons s rest ih =>
    intro seen h
    cases s with
    | var w =>
      by_cases hw : w ∈ seen
      · simp only [specCompile, if_pos hw]
        exact ih seen h
      · simp only [specCompile, if_neg hw]
        refine ih (seen ++ [w]) ?_
        rw [List.nodup_append]
        refine ⟨h, List.nodup_singleton w, ?_⟩
        intro a ha hb
        rw [List.mem_singleton] at hb
        subst hb
        exact hw ha
    | term g as =>
      simp only [specCompile]
      exact ih seen h

/-- Claim C13: in every sequence produced by `CodeTree::compile`, started with
a variable map that numbers the variables `seen` met before by their places,
the head emits CHECK_FUN with its functor and the subterms, in traversal
order, emit what the specification asks: a non-variable subterm CHECK_FUN with
its functor, the first occurrence of a variable ASSIGN_VAR with the next free
slot, every later occurrence CHECK_VAR with the slot of the variable. After
the call the variable map numbers the distinct variables met, in the order of
their first occurrence, by their places: the k-th distinct variable has the
slot k counting from 0. -/
theorem C13_compile_numbering (vm : VarMap) (n : Nat) (seen : List Nat)
    (h : Numbered vm n seen) (functor : Nat) (args : List TermList) (code : CodeStack) :
    (CodeTree.compile functor args code vm n).1 =
        code ++ (Instruction.CHECK_FUN functor ::
          (specCompile seen (TermList.subtermsOfArgs args)).1).map OpCode.mk0 ∧
      Numbered (CodeTree.compile functor args code vm n).2.1
        (CodeTree.compile functor args code vm n).2.2
        (specCompile seen (TermList.subtermsOfArgs args)).2 ∧
      seen <+: (specCompile seen (TermList.subtermsOfArgs args)).2 ∧
      (∀ v, v ∈ (specCompile seen (TermList.subtermsOfArgs args)).2 ↔
        v ∈ seen ∨ TermList.var v ∈ TermList.subtermsOfArgs args) ∧
      (∀ j v, v ∈ seen → (TermList.subtermsOfArgs args).get? j = some (.var v) →
        (specCompile seen (TermList.subtermsOfArgs args)).1.get? j
          = some (.CHECK_VAR (seen.indexOf v))) := by
  obtain ⟨g1, g2⟩ := foldl_compileStep_spec (TermList.subtermsOfArgs args)
    (code ++ [OpCode.mk0 (.CHECK_FUN functor)]) vm n seen h
  refine ⟨?_, g2, (specCompile_seen _ seen).1, (specCompile_seen _ seen).2, ?_⟩
  · unfold CodeTree.compile
    rw [g1]
    simp
  · intro j v hv hj
    exact specCompile_get _ seen seen j v (List.prefix_refl _) hv hj

/-- The statement of C13 for the term f(X, g(Y, X), Y) compiled from
scratch: the sequence is CHECK_FUN f, ASSIGN_VAR 0, CHECK_FUN g, ASSIGN_VAR 1,
CHECK_VAR 0, CHECK_VAR 1. -/
theorem C13_compile_numbering_witness :
    Numbered [] 0 [] ∧
    (CodeTree.compile 0 [.var 5, .term 1 [.var 3, .var 5], .var 3] [] [] 0).1 =
      [OpCode.mk0 (.CHECK_FUN 0), OpCode.mk0 (.ASSIGN_VAR 0), OpCode.mk0 (.CHECK_FUN 1),
        OpCode.mk0 (.ASSIGN_VAR 1), OpCode.mk0 (.CHECK_VAR 0), OpCode.mk0 (.CHECK_VAR 1)] ∧
    Numbered (CodeTree.compile 0 [.var 5, .term 1 [.var 3, .var 5], .var 3] [] [] 0).2.1
      (CodeTree.compile 0 [.var 5, .term 1 [.var 3, .var 5], .var 3] [] [] 0).2.2 [5, 3] := by
  have h := C13_compile_numbering [] 0 [] ⟨rfl, List.nodup_nil, fun v => by simp⟩ 0
    [.var 5, .term 1 [.var 3, .var 5], .var 3] []
  exact ⟨⟨rfl, List.nodup_nil, fun v => by simp⟩, by decide, h.2.1⟩

/-- The loop of `ClauseCodeTree::compile` emits what the specification
asks. -/
theorem compileLits_spec :
    ∀ (lits : List Literal) (code : CodeStack) (vm : VarMap) (n : Nat) (seen : List Nat),
      Numbered vm n seen →
      (ClauseCodeTree.compileLits lits (code, vm, n)).1 =
          code ++ (specClause seen lits).1.map OpCode.mk0 ∧
        Numbered (ClauseCodeTree.compileLits lits (code, vm, n)).2.1
          (ClauseCodeTree.compileLits lits (code, vm, n)).2.2 (specClause seen lits).2 := by
  intro lits
  induction lits with
  | nil =>
    intro code vm n seen h
    simpa [specClause, ClauseCodeTree.compileLits] using h
  | cons lit rest ih =>
    intro code vm n seen h
    rw [ClauseCodeTree.compileLits]
    obtain ⟨g1, g2⟩ := foldl_compileStep_spec (TermList.subtermsOfArgs lit.args)
      (code ++ [OpCode.mk0 .NEXT_LIT] ++ [OpCode.mk0 (.CHECK_FUN lit.header)]) vm n seen h
    have hc : CodeTree.compile lit.header lit.args (code ++ [OpCode.mk0 .NEXT_LIT]) vm n =
        ((TermList.subtermsOfArgs lit.args).foldl CodeTree.compileStep
          (code ++ [OpCode.mk0 .NEXT_LIT] ++ [OpCode.mk0 (.CHECK_FUN lit.header)], vm, n)) := rfl
    simp only [hc]
    obtain ⟨k1, k2⟩ := ih _ _ _ _ g2
    rw [show ((TermList.subtermsOfArgs lit.args).foldl CodeTree.compileStep
          (code ++ [OpCode.mk0 .NEXT_LIT] ++ [OpCode.mk0 (.CHECK_FUN lit.header)], vm, n)) =
        (((TermList.subtermsOfArgs lit.args).foldl CodeTree.compileStep
          (code ++ [OpCode.mk0 .NEXT_LIT] ++ [OpCode.mk0 (.CHECK_FUN lit.header)], vm, n)).1,
         ((TermList.subtermsOfArgs lit.args).foldl CodeTree.compileStep
          (code ++ [OpCode.mk0 .NEXT_LIT] ++ [OpCode.mk0 (.CHECK_FUN lit.header)], vm, n)).2.1,
         ((TermList.subtermsOfArgs lit.args).foldl CodeTree.compileStep
          (code ++ [OpCode.mk0 .NEXT_LIT] ++ [OpCode.mk0 (.CHECK_FUN lit.header)], vm, n)).2.2)
        from rfl]
    refine ⟨?_, k2⟩
    rw [k1, g1]
    simp [specClause]

/-- The instructions asked for a clause that is split in two: those of the
first part, then those of the second part with the variables met in the
first. -/
theorem specClause_append :
    ∀ (pre post : List Literal) (seen : List Nat),
      (specClause seen (pre ++ post)).1 =
          (specClause seen pre).1 ++ (specClause (specClause seen pre).2 post).1 ∧
        (specClause seen (pre ++ post)).2 = (specClause (specClause seen pre).2 post).2 := by
  intro pre
  induction pre with
  | nil => intro post seen; simp [specClause]
  | cons lit rest ih =>
    intro post seen
    obtain ⟨g1, g2⟩ := ih post (specCompile seen (TermList.subtermsOfArgs lit.args)).2
    simp only [List.cons_append, specClause, List.append_eq, g1, g2, List.append_assoc, and_self]

/-- The instructions asked for a clause hold one NEXT_LIT for each literal. -/
theorem specClause_nextLit :
    ∀ (lits : List Literal) (seen : List Nat),
      ((specClause seen lits).1.filter (fun i => decide (i = .NEXT_LIT))).length = lits.length := by
  intro lits
  induction lits with
  | nil => intro seen; rfl
  | cons lit rest ih =>
    intro seen
    have h1 : ((specCompile seen (TermList.subtermsOfArgs lit.args)).1.filter
        (fun i => decide (i = .NEXT_LIT))) = [] := by
      rw [List.filter_eq_nil_iff]
      intro i hi
      have := (specCompile_instrs _ seen i hi).1
      cases i <;> simp_all [Instruction.plain]
    simp [specClause, List.filter_append, h1, ih]

/-- The variables met in a clause. -/
theorem specClause_seen :
    ∀ (lits : List Literal) (seen : List Nat),
      seen <+: (specClause seen lits).2 ∧
        ∀ v, v ∈ (specClause seen lits).2 ↔
          v ∈ seen ∨ ∃ lit ∈ lits, TermList.var v ∈ TermList.subtermsOfArgs lit.args := by
  intro lits
  induction lits with
  | nil => intro seen; simp [specClause]
  | cons lit rest ih =>
    intro seen
    obtain ⟨g1, g2⟩ := ih (specCompile seen (TermList.subtermsOfArgs lit.args)).2
    obtain ⟨k1, k2⟩ := specCompile_seen (TermList.subtermsOfArgs lit.args) seen
    simp only [specClause]
    refine ⟨k1.trans g1, fun v => ?_⟩
    rw [g2 v, k2 v]
    simp only [List.mem_cons, exists_eq_or_imp]
    tauto

/-- Claim C15: `ClauseCodeTree::compile` of a clause emits, for each literal in
order, one NEXT_LIT, then CHECK_FUN of the header of the literal, then the
instructions of its subterms, and at the end SUCCESS; the sequence holds as
many NEXT_LIT as the clause has literals; one list of variables is used for
the whole clause, so a variable met in an earlier literal compiles in a later
literal to CHECK_VAR with the slot it has from its first occurrence. The
clause {P(X), Q(X,Y)} compiles to NEXT_LIT, CHECK_FUN P, ASSIGN_VAR 0,
NEXT_LIT, CHECK_FUN Q, CHECK_VAR 0, ASSIGN_VAR 1, SUCCESS. -/
theorem C15_clause_compile :
    (∀ (tree : CodeTree) (c : Clause) (code : CodeStack),
      (ClauseCodeTree.compile tree c code).1 =
        code ++ ((specClause [] c).1 ++ [Instruction.SUCCESS 0]).map OpCode.mk0) ∧
    (∀ (c : Clause),
      ((specClause [] c).1.filter (fun i => decide (i = .NEXT_LIT))).length = c.length) ∧
    (∀ (pre post : List Literal) (lit : Literal),
      (specClause [] (pre ++ lit :: post)).1 =
        (specClause [] pre).1 ++ (.NEXT_LIT :: .CHECK_FUN lit.header ::
          (specCompile (specClause [] pre).2 (TermList.subtermsOfArgs lit.args)).1) ++
        (specClause (specCompile (specClause [] pre).2 (TermList.subtermsOfArgs lit.args)).2
          post).1) ∧
    (∀ (pre : List Literal) (v : Nat), v ∈ (specClause [] pre).2 ↔
      ∃ lit ∈ pre, TermList.var v ∈ TermList.subtermsOfArgs lit.args) ∧
    (∀ (pre post : List Literal) (lit : Literal) (j v : Nat), v ∈ (specClause [] pre).2 →
      (TermList.subtermsOfArgs lit.args).get? j = some (.var v) →
      (specCompile (specClause [] pre).2 (TermList.subtermsOfArgs lit.args)).1.get? j =
          some (.CHECK_VAR ((specClause [] pre).2.indexOf v)) ∧
        (specClause [] (pre ++ lit :: post)).2.indexOf v = (specClause [] pre).2.indexOf v) ∧
    (ClauseCodeTree.compile CodeTree.empty [Example.P [Example.X],
        Example.Q [Example.X, Example.Y]] []).1 =
      [OpCode.mk0 .NEXT_LIT, OpCode.mk0 (.CHECK_FUN 3), OpCode.mk0 (.ASSIGN_VAR 0),
        OpCode.mk0 .NEXT_LIT, OpCode.mk0 (.CHECK_FUN 5), OpCode.mk0 (.CHECK_VAR 0),
        OpCode.mk0 (.ASSIGN_VAR 1), OpCode.mk0 (.SUCCESS 0)] := by
  refine ⟨?_, fun c => specClause_nextLit c [], ?_, ?_, ?_, by decide⟩
  · intro tree c code
    obtain ⟨g1, _⟩ := compileLits_spec c code [] 0 [] numbered_nil
    simp only [ClauseCodeTree.compile, g1, List.map_append, List.append_assoc, List.map_cons,
      List.map_nil]
  · intro pre post lit
    obtain ⟨g1, _⟩ := specClause_append pre (lit :: post) []
    rw [g1]
    simp only [specClause, List.append_assoc, List.cons_append]
  · intro pre v
    rw [(specClause_seen pre []).2 v]
    simp
  · intro pre post lit j v hv hj
    refine ⟨specCompile_get _ _ _ j v (List.prefix_refl _) hv hj, ?_⟩
    apply indexOf_initial _ _ v _ hv
    obtain ⟨_, g2⟩ := specClause_append pre (lit :: post) []
    rw [g2]
    exact (specClause_seen (lit :: post) _).1

end Indexing


namespace Indexing

open Kernel

/-- The tail of the loop body of `next` never returns true. -/
theorem afterInstr_not_true (res : Nat) (x : Bool × EContext) (r : Nat) (c : EContext) :
    TermCodeTree.afterInstr res x ≠ .ret true r c := by
  unfold TermCodeTree.afterInstr
  split
  · simp
  · split <;> simp

/-- A pass of the loop of `next` returns true only at a SUCCESS instruction,
with the payload of this instruction. -/
theorem loopBody_ret_true (mem : List CodeBlock) (ctx : EContext) (res r : Nat) (c1 : EContext)
    (h : TermCodeTree.loopBody mem ctx res = .ok (.ret true r c1)) :
    ∃ alt, deref mem ctx.op = .ok ⟨.SUCCESS r, alt⟩ ∧ c1 = ctx.pushAlt alt := by
  cases hd : deref mem ctx.op with
  | fault f =>
    unfold TermCodeTree.loopBody at h
    rw [hd] at h
    cases h
  | ok op =>
    obtain ⟨i, alt⟩ := op
    rw [loopBody_eq mem ctx res i alt hd] at h
    unfold loopBodySpec at h
    cases i with
    | SUCCESS r0 =>
      simp only [Run.ok.injEq, LoopStep.ret.injEq, true_and] at h
      obtain ⟨h1, h2⟩ := h
      subst h1
      exact ⟨alt, rfl, h2.symm⟩
    | NEXT_LIT => cases h
    | CHECK_FUN f =>
      simp only [] at h
      split at h
      · cases h
      · exact absurd (Run.ok.inj h) (afterInstr_not_true _ _ _ _)
      · exact absurd (Run.ok.inj h) (afterInstr_not_true _ _ _ _)
    | ASSIGN_VAR v =>
      simp only [] at h
      split at h
      · cases h
      · exact absurd (Run.ok.inj h) (afterInstr_not_true _ _ _ _)
      · exact absurd (Run.ok.inj h) (afterInstr_not_true _ _ _ _)
    | CHECK_VAR v =>
      simp only [] at h
      split at h
      · cases h
      · exact absurd (Run.ok.inj h) (afterInstr_not_true _ _ _ _)
      · exact absurd (Run.ok.inj h) (afterInstr_not_true _ _ _ _)
    | FAIL =>
      simp only [] at h
      split at h
      · cases h
      · exact absurd (Run.ok.inj h) (afterInstr_not_true _ _ _ _)
      · exact absurd (Run.ok.inj h) (afterInstr_not_true _ _ _ _)

/-- The loop of `next` returns true only at a SUCCESS instruction, with the
payload of this instruction. -/
theorem nextLoop_payload (mem : List CodeBlock) :
    ∀ (fuel : Nat) (ctx : EContext) (res r : Nat) (c1 : EContext),
      TermCodeTree.nextLoop mem fuel ctx res = .ok (true, r, c1) →
      ∃ alt, deref mem c1.op = .ok ⟨.SUCCESS r, alt⟩ := by
  intro fuel
  induction fuel with
  | zero => intro ctx res r c1 h; simp [TermCodeTree.nextLoop] at h
  | succ fuel ih =>
    intro ctx res r c1 h
    rw [TermCodeTree.nextLoop] at h
    cases hb : TermCodeTree.loopBody mem ctx res with
    | fault f => rw [hb] at h; cases h
    | ok st =>
      rw [hb] at h
      cases st with
      | again c => exact ih c res r c1 h
      | ret b r0 c =>
        simp only [Run.ok.injEq, Prod.mk.injEq] at h
        obtain ⟨h1, h2, h3⟩ := h
        subst h1 h2 h3
        obtain ⟨alt, g1, g2⟩ := loopBody_ret_true mem ctx res r0 c hb
        refine ⟨alt, ?_⟩
        rw [g2, (pushAlt_fields ctx alt).2.2.1]
        exact g1

/-- Claim C14, counterexample: the sequences that `TermCodeTree::compile`
produces for the different terms f(a) and g, and the sequence that
`ClauseCodeTree::compile` produces for the clause {P(X)}, all end with one and
the same SUCCESS instruction, whose payload is 0: the payload does not tell
the originating term or clause. -/
theorem C14_payload_counterexample :
    (TermCodeTree.compile CodeTree.empty (.term 0 [.term 1 []]) []).1.getLast?
      = some (OpCode.mk0 (.SUCCESS 0)) ∧
    (TermCodeTree.compile CodeTree.empty (.term 2 []) []).1.getLast?
      = some (OpCode.mk0 (.SUCCESS 0)) ∧
    (ClauseCodeTree.compile CodeTree.empty [Example.P [Example.X]] []).1.getLast?
      = some (OpCode.mk0 (.SUCCESS 0)) ∧
    TermList.term 0 [.term 1 []] ≠ TermList.term 2 [] := by
  refine ⟨by decide, by decide, by decide, by decide⟩

/-- Claim C14, amended: every sequence produced by `TermCodeTree::compile` or
`ClauseCodeTree::compile` ends with the SUCCESS instruction that the
constructor `OpCode(SUCCESS)` builds, the same for every pattern (its payload
is not set by `compile`); and when `next` reports a match, the value it stores
in `res` is the payload of the SUCCESS instruction at which it stopped. -/
theorem C14_success_payload :
    (∀ (tree : CodeTree) (t : TermList) (code : CodeStack),
      (TermCodeTree.compile tree t code).1.getLast? = some (OpCode.mk0 (.SUCCESS 0))) ∧
    (∀ (tree : CodeTree) (c : Clause) (code : CodeStack),
      (ClauseCodeTree.compile tree c code).1.getLast? = some (OpCode.mk0 (.SUCCESS 0))) ∧
    (∀ (tree : CodeTree) (fuel : Nat) (ctx : EContext) (res r : Nat) (c1 : EContext),
      TermCodeTree.next tree fuel ctx res = .ok (true, r, c1) →
      ∃ alt, deref tree.mem c1.op = .ok ⟨.SUCCESS r, alt⟩) := by
  refine ⟨?_, ?_, ?_⟩
  · intro tree t code
    simp [TermCodeTree.compile]
  · intro tree c code
    simp [ClauseCodeTree.compile]
  · intro tree fuel ctx res r c1 h
    unfold TermCodeTree.next at h
    split at h
    · exact nextLoop_payload tree.mem fuel _ res r c1 h
    · split at h
      · simp at h
      · exact nextLoop_payload tree.mem fuel _ res r c1 h

/-- The amended C14 at the tree that holds f(X), f(a) and g(Y), queried with
f(a): the first match stores in `res` the payload 0 of the SUCCESS
instruction at which `next` stops. -/
theorem C14_success_payload_witness :
    ∃ alt, deref
      [[⟨.CHECK_FUN 0, some ⟨2, 0⟩⟩, ⟨.ASSIGN_VAR 0, some ⟨1, 0⟩⟩, ⟨.SUCCESS 0, none⟩],
        [⟨.CHECK_FUN 1, none⟩, ⟨.SUCCESS 0, none⟩],
        [⟨.CHECK_FUN 2, none⟩, ⟨.ASSIGN_VAR 0, none⟩, ⟨.SUCCESS 0, none⟩]]
      (⟨0, 2⟩ : Ptr) = .ok ⟨.SUCCESS 0, alt⟩ :=
  C14_success_payload.2.2
    ⟨1, some 0,
      [[⟨.CHECK_FUN 0, some ⟨2, 0⟩⟩, ⟨.ASSIGN_VAR 0, some ⟨1, 0⟩⟩, ⟨.SUCCESS 0, none⟩],
        [⟨.CHECK_FUN 1, none⟩, ⟨.SUCCESS 0, none⟩],
        [⟨.CHECK_FUN 2, none⟩, ⟨.ASSIGN_VAR 0, none⟩, ⟨.SUCCESS 0, none⟩]]⟩
    5 ⟨true, 0, ⟨0, 0⟩, [], [none], FlatTerm.create (.term 0 [.term 1 []])⟩ 7 0
    ⟨false, 6, ⟨0, 2⟩, [⟨3, ⟨1, 0⟩⟩, ⟨0, ⟨2, 0⟩⟩], [some (.term 1 [])],
      FlatTerm.create (.term 0 [.term 1 []])⟩
    (by decide)

end Indexing


namespace Indexing

open Kernel

/-- Changing one entry of a list splits the list around this entry. -/
theorem modify_split {α : Type} (f : α → α) :
    ∀ (l : List α) (k : Nat) (x : α), l[k]? = some x →
      ∃ l1 l2, l = l1 ++ x :: l2 ∧ l1.length = k ∧ l.modify f k = l1 ++ f x :: l2 := by
  intro l
  induction l with
  | nil => intro k x h; simp at h
  | cons a as ih =>
    intro k x h
    cases k with
    | zero =>
      simp only [List.getElem?_cons_zero, Option.some.injEq] at h
      subst h
      exact ⟨[], as, rfl, rfl, by simp⟩
    | succ k =>
      simp only [List.getElem?_cons_succ] at h
      obtain ⟨l1, l2, h1, h2, h3⟩ := ih k x h
      refine ⟨a :: l1, l2, by rw [h1]; rfl, by simp [h2], ?_⟩
      rw [List.modify_succ_cons, h3]
      rfl

/-- An instruction that can be read lies in a block of the memory. -/
theorem deref_ok_get (mem : List CodeBlock) (q : Ptr) (op : OpCode)
    (h : deref mem q = .ok op) : ∃ b, mem[q.blk]? = some b ∧ b[q.ofs]? = some op := by
  rw [deref_eq] at h
  cases hm : mem[q.blk]? with
  | none => rw [hm] at h; cases h
  | some b =>
    rw [hm] at h
    simp only [Option.some_bind] at h
    cases hb : b[q.ofs]? with
    | none => rw [hb] at h; cases h
    | some x =>
      rw [hb] at h
      cases h
      exact ⟨b, rfl, hb⟩

theorem deref_blk_lt (mem : List CodeBlock) (q : Ptr) (op : OpCode)
    (h : deref mem q = .ok op) : q.blk < mem.length := by
  obtain ⟨b, h1, _⟩ := deref_ok_get mem q op h
  by_contra hc
  rw [List.getElem?_eq_none (by omega)] at h1
  cases h1

/-- Setting the alternative of an instruction changes this instruction only,
and leaves it where it is. -/
theorem setAlternative_split (mem : List CodeBlock) (q a : Ptr) (op : OpCode)
    (h : deref mem q = .ok op) :
    ∃ m1 m2 b1 b2, mem = m1 ++ (b1 ++ op :: b2) :: m2 ∧ m1.length = q.blk ∧
      b1.length = q.ofs ∧
      setAlternative mem q a = m1 ++ (b1 ++ { op with alternative := some a } :: b2) :: m2 := by
  obtain ⟨b, h1, h2⟩ := deref_ok_get mem q op h
  obtain ⟨m1, m2, g1, g2, g3⟩ := modify_split
    (fun b => b.modify (fun op => { op with alternative := some a }) q.ofs) mem q.blk b h1
  obtain ⟨b1, b2, k1, k2, k3⟩ := modify_split
    (fun op : OpCode => { op with alternative := some a }) b q.ofs op h2
  refine ⟨m1, m2, b1, b2, by rw [g1, k1], g2, k2, ?_⟩
  unfold setAlternative
  rw [g3]
  simp only [k3]

/-- Setting an alternative changes no instruction tag and no operand. -/
theorem setAlternative_instrs (mem : List CodeBlock) (q a : Ptr) (op : OpCode)
    (h : deref mem q = .ok op) :
    (setAlternative mem q a).map instrsOf = mem.map instrsOf := by
  obtain ⟨m1, m2, b1, b2, h1, _, _, h2⟩ := setAlternative_split mem q a op h
  rw [h2, h1]
  simp [instrsOf]

theorem numInstr_eq (mem : List CodeBlock) :
    numInstr mem = ((mem.map instrsOf).map List.length).sum := by
  unfold numInstr
  rw [List.length_flatten, List.map_map]
  congr 1
  apply List.map_congr_left
  intro b _
  simp [instrsOf]

/-- Hanging a new block at an instruction without alternative: the old
instructions stay, those of the block are new, and there is one link more. -/
theorem hang_counts (mem : List CodeBlock) (blk : CodeBlock) (q : Ptr) (i : Instruction)
    (h : deref mem q = .ok ⟨i, none⟩) (hblk : ∀ op ∈ blk, op.alternative = none) :
    (setAlternative (mem ++ [blk]) q ⟨mem.length, 0⟩).map instrsOf =
        mem.map instrsOf ++ [instrsOf blk] ∧
      numInstr (setAlternative (mem ++ [blk]) q ⟨mem.length, 0⟩) = numInstr mem + blk.length ∧
      numLinks (setAlternative (mem ++ [blk]) q ⟨mem.length, 0⟩) = numLinks mem + 1 := by
  have hq := deref_blk_lt mem q _ h
  have h1 : deref (mem ++ [blk]) q = .ok ⟨i, none⟩ := by rw [deref_append mem blk q hq]; exact h
  have e1 := setAlternative_instrs (mem ++ [blk]) q ⟨mem.length, 0⟩ _ h1
  refine ⟨by rw [e1]; simp, ?_, ?_⟩
  · rw [numInstr_eq, e1, numInstr_eq]
    simp [instrsOf]
  · obtain ⟨m1, m2, b1, b2, g1, _, _, g2⟩ :=
      setAlternative_split (mem ++ [blk]) q ⟨mem.length, 0⟩ _ h1
    have hb : blk.filter (fun op => op.alternative.isSome) = [] := by
      rw [List.filter_eq_nil_iff]
      intro op hop
      simp [hblk op hop]
    have e2 : numLinks (mem ++ [blk]) = numLinks mem := by
      unfold numLinks
      simp [List.filter_append, hb]
    rw [← e2, g2]
    unfold numLinks
    rw [g1]
    simp [List.filter_append]
    omega

end Indexing


namespace Indexing

open Kernel

/-- The main loop of `incorporate` reads the instruction at which it
starts. -/
theorem incorporateLoop_root (mem : List CodeBlock) (code : CodeStack) (rest : List OpCode)
    (p0 : Ptr) (mem1 : List CodeBlock)
    (h : CodeTree.incorporateLoop mem code rest p0 = .ok mem1) : ∃ op, deref mem p0 = .ok op := by
  cases hd : deref mem p0 with
  | ok op => exact ⟨op, rfl⟩
  | fault f =>
    exfalso
    cases rest with
    | nil =>
      rw [CodeTree.incorporateLoop, hd] at h
      cases h
    | cons c rest =>
      rw [CodeTree.incorporateLoop, CodeTree.skipAlternatives, hd] at h
      cases h

/-- What a successful `incorporate` on a non-empty tree does to the memory:
one new block, not empty, is hung at an instruction that had no alternative;
nothing else changes. -/
theorem incorporate_shape (tree tree1 : CodeTree) (code : CodeStack) (root : Nat)
    (hroot : tree._data = some root) (h : CodeTree.incorporate tree code = .ok tree1) :
    tree1._data = some root ∧ tree1._maxVarCnt = tree._maxVarCnt ∧
    ∃ (j : Nat) (q : Ptr) (i : Instruction) (blk : CodeBlock),
      j ≤ code.length ∧ PathTo tree.mem ⟨root, 0⟩ (instrsOf (code.take j)) q ∧
      deref tree.mem q = .ok ⟨i, none⟩ ∧
      tree1.mem = setAlternative (tree.mem ++ [blk]) q ⟨tree.mem.length, 0⟩ ∧
      ((j < code.length ∧ (∀ c, code.get? j = some c → c.instr ≠ i) ∧ blk = code.drop j) ∨
        (j = code.length ∧
          (∃ q1 r alt, PathTo tree.mem ⟨root, 0⟩ (instrsOf code) q1 ∧
            deref tree.mem q1 = .ok ⟨.SUCCESS r, alt⟩) ∧
          1 ≤ code.length ∧ blk = code.drop (code.length - 1))) ∧
      blk ≠ [] ∧ (∀ op ∈ blk, op.alternative = none) := by
  unfold CodeTree.incorporate at h
  rw [hroot] at h
  simp only [] at h
  cases hl : CodeTree.incorporateLoop tree.mem code code ⟨root, 0⟩ with
  | fault f => rw [hl] at h; cases h
  | ok mem1 =>
    rw [hl] at h
    simp only [Run.ok.injEq] at h
    subst h
    refine ⟨rfl, rfl, ?_⟩
    obtain ⟨j, q, i, blk, hj, hq, hdq, hm, hcase⟩ :=
      incorporateLoop_shape tree.mem code code ⟨root, 0⟩ [] ⟨root, 0⟩ mem1 (PathTo.here _) hl
    simp only [List.nil_append] at hq hcase
    refine ⟨j, q, i, blk, hj, hq, hdq, hm, ?_, ?_, ?_⟩
    · rcases hcase with ⟨h1, h2, h3⟩ | ⟨h1, h2, h3⟩
      · left
        obtain ⟨g1, g2, _, _⟩ := buildBlock_ok code _ blk h3
        refine ⟨h1, h2, ?_⟩
        rw [g2]
        congr 1
        omega
      · right
        obtain ⟨g1, g2, _, _⟩ := buildBlock_ok code _ blk h3
        exact ⟨h1, h2, g1, g2⟩
    · rcases hcase with ⟨h1, _, h3⟩ | ⟨_, _, h3⟩
      · obtain ⟨_, _, g3, _⟩ := buildBlock_ok code _ blk h3
        intro hb
        rw [hb] at g3
        simp only [List.length_nil] at g3
        omega
      · obtain ⟨_, _, g3, _⟩ := buildBlock_ok code _ blk h3
        intro hb
        rw [hb] at g3
        cases g3
    · rcases hcase with ⟨_, _, h3⟩ | ⟨_, _, h3⟩
      · exact (buildBlock_ok code _ blk h3).2.2.2
      · exact (buildBlock_ok code _ blk h3).2.2.2

/-- Claim C17: insertion is append-only. After a successful `incorporate` on
a non-empty tree the root is the same; one block, not empty, has been added
at the end of the memory; every instruction that was there keeps its tag and
operand; every alternative link that was there is unchanged, except that one
instruction `q` whose alternative was null now points to the first instruction
of the new block. -/
theorem C17_append_only (tree tree1 : CodeTree) (code : CodeStack) (root : Nat)
    (hroot : tree._data = some root) (h : CodeTree.incorporate tree code = .ok tree1) :
    tree1._data = some root ∧ tree1._maxVarCnt = tree._maxVarCnt ∧
    ∃ (q : Ptr) (i : Instruction) (blk : CodeBlock) (first : OpCode),
      deref tree.mem q = .ok ⟨i, none⟩ ∧
      tree1.mem = setAlternative (tree.mem ++ [blk]) q ⟨tree.mem.length, 0⟩ ∧
      deref tree1.mem q = .ok ⟨i, some ⟨tree.mem.length, 0⟩⟩ ∧
      blk.head? = some first ∧ deref tree1.mem ⟨tree.mem.length, 0⟩ = .ok first ∧
      (∀ x op, x ≠ q → deref tree.mem x = .ok op → deref tree1.mem x = .ok op) ∧
      (∀ x op, deref tree.mem x = .ok op →
        ∃ op1, deref tree1.mem x = .ok op1 ∧ op1.instr = op.instr) ∧
      (∃ i0 a0 a1, deref tree.mem ⟨root, 0⟩ = .ok ⟨i0, a0⟩ ∧
        deref tree1.mem ⟨root, 0⟩ = .ok ⟨i0, a1⟩) ∧
      tree1.mem.map instrsOf = tree.mem.map instrsOf ++ [instrsOf blk] := by
  obtain ⟨h1, h2, j, q, i, blk, _, _, hdq, hm, _, hne, halt⟩ :=
    incorporate_shape tree tree1 code root hroot h
  refine ⟨h1, h2, ?_⟩
  have hq := deref_blk_lt tree.mem q _ hdq
  have hdq1 : deref (tree.mem ++ [blk]) q = .ok ⟨i, none⟩ := by
    rw [deref_append tree.mem blk q hq]; exact hdq
  have hold : ∀ x op, x ≠ q → deref tree.mem x = .ok op → deref tree1.mem x = .ok op := by
    intro x op hx hd
    rw [hm, deref_setAlternative_ne _ _ _ _ hx, deref_append _ _ _ (deref_blk_lt _ _ _ hd)]
    exact hd
  have hqnew : deref tree1.mem q = .ok ⟨i, some ⟨tree.mem.length, 0⟩⟩ := by
    rw [hm, deref_setAlternative_eq _ q _ _ hdq1]
  have hinstr : ∀ x op, deref tree.mem x = .ok op →
      ∃ op1, deref tree1.mem x = .ok op1 ∧ op1.instr = op.instr := by
    intro x op hd
    by_cases hx : x = q
    · subst hx
      rw [hdq] at hd
      cases hd
      exact ⟨_, hqnew, rfl⟩
    · exact ⟨op, hold x op hx hd, rfl⟩
  cases hb : blk with
  | nil => exact absurd hb hne
  | cons first rest =>
    refine ⟨q, i, first :: rest, first, hdq, by rw [hm, hb], hqnew, rfl, ?_, hold, hinstr, ?_, ?_⟩
    · rw [hm, deref_new_block tree.mem q hq blk 0, hb]
      simp [Run.ofOption]
    · unfold CodeTree.incorporate at h
      rw [hroot] at h
      simp only [] at h
      cases hl : CodeTree.incorporateLoop tree.mem code code ⟨root, 0⟩ with
      | fault f => rw [hl] at h; cases h
      | ok mem1 =>
        obtain ⟨op, hop⟩ := incorporateLoop_root tree.mem code code ⟨root, 0⟩ mem1 hl
        obtain ⟨op1, g1, g2⟩ := hinstr _ op hop
        refine ⟨op.instr, op.alternative, op1.alternative, hop, ?_⟩
        rw [g1, ← g2]
    · rw [hm, (hang_counts tree.mem blk q i hdq halt).1, hb]

/-- The statement of C17 at the tree that holds f(X,a), into which the
sequence of f(X,b) is incorporated. -/
theorem C17_append_only_witness :
    ∃ (q : Ptr) (i : Instruction) (blk : CodeBlock) (first : OpCode),
      deref [[⟨.CHECK_FUN 0, none⟩, ⟨.ASSIGN_VAR 0, none⟩, ⟨.CHECK_FUN 1, none⟩,
        ⟨.SUCCESS 0, none⟩]] q = .ok ⟨i, none⟩ ∧
      [[⟨.CHECK_FUN 0, none⟩, ⟨.ASSIGN_VAR 0, none⟩, ⟨.CHECK_FUN 1, some ⟨1, 0⟩⟩,
          ⟨.SUCCESS 0, none⟩],
        [⟨.CHECK_FUN 2, none⟩, ⟨.SUCCESS 0, none⟩]] =
        setAlternative ([[⟨.CHECK_FUN 0, none⟩, ⟨.ASSIGN_VAR 0, none⟩, ⟨.CHECK_FUN 1, none⟩,
          ⟨.SUCCESS 0, none⟩]] ++ [blk]) q ⟨1, 0⟩ ∧
      deref [[⟨.CHECK_FUN 0, none⟩, ⟨.ASSIGN_VAR 0, none⟩, ⟨.CHECK_FUN 1, some ⟨1, 0⟩⟩,
          ⟨.SUCCESS 0, none⟩],
        [⟨.CHECK_FUN 2, none⟩, ⟨.SUCCESS 0, none⟩]] q = .ok ⟨i, some ⟨1, 0⟩⟩ ∧
      blk.head? = some first :=
  (C17_append_only
    ⟨1, some 0, [[⟨.CHECK_FUN 0, none⟩, ⟨.ASSIGN_VAR 0, none⟩, ⟨.CHECK_FUN 1, none⟩,
      ⟨.SUCCESS 0, none⟩]]⟩
    ⟨1, some 0, [[⟨.CHECK_FUN 0, none⟩, ⟨.ASSIGN_VAR 0, none⟩, ⟨.CHECK_FUN 1, some ⟨1, 0⟩⟩,
        ⟨.SUCCESS 0, none⟩],
      [⟨.CHECK_FUN 2, none⟩, ⟨.SUCCESS 0, none⟩]]⟩
    [⟨.CHECK_FUN 0, none⟩, ⟨.ASSIGN_VAR 0, none⟩, ⟨.CHECK_FUN 2, none⟩, ⟨.SUCCESS 0, none⟩]
    0 (by decide) (by decide)).2.2.imp fun q hq => hq.imp fun i hi => hi.imp fun blk hb =>
      hb.imp fun first hf => ⟨hf.1, hf.2.1, hf.2.2.1, hf.2.2.2.1⟩

end Indexing


namespace Indexing

open Kernel

/-- In a tree of term patterns no walk over the whole code of a pattern ends
with a SUCCESS under the cursor: the cursor stands past the end of a block. -/
theorem no_success_after (tree : CodeTree) (ps : List TermList) (t : Trie) (root : Nat)
    (hinv : TreeInv tree ps t) (hroot : tree._data = some root) (p : TermList) (q1 : Ptr)
    (r : Nat) (alt : Option Ptr)
    (hp : PathTo tree.mem ⟨root, 0⟩ (patternCode p) q1)
    (hd : deref tree.mem q1 = .ok ⟨.SUCCESS r, alt⟩) : False := by
  obtain ⟨hrep, hsh, hto, _, _, hperm, _⟩ := treeInv_paths tree ps t root hinv hroot
  obtain ⟨_, sq, hsq, hpre⟩ := pathTo_paths tree.mem _ q1 _ hp t hrep hsh hto _ alt hd
  obtain ⟨p1, _, hp1⟩ := (paths_pattern ps t hperm).1 sq hsq
  have hdisc := patternCode_disc p1
  obtain ⟨w, hw⟩ := hpre
  rw [← hp1, ← hw] at hdisc
  unfold patternCode at hdisc
  have : (patternBody p ++ [Instruction.SUCCESS 0] ++ [Instruction.SUCCESS r] ++ w) =
      patternBody p ++ Instruction.SUCCESS 0 :: (Instruction.SUCCESS r :: w) := by simp
  rw [this] at hdisc
  have := disc_terminal (patternBody p) 0 (.SUCCESS 0) _ hdisc rfl
  cases this

/-- What a successful insertion of a term pattern into a tree of term
patterns does: the walk of `incorporate` matches the first `j` instructions of
the code, stops at an instruction `q` without alternative that differs from
the next instruction of the code, and hangs the rest of the code at `q`. -/
theorem insert_shape (tree tree1 : CodeTree) (ps : List TermList) (t : Trie) (root : Nat)
    (hinv : TreeInv tree ps t) (hroot : tree._data = some root) (p : TermList)
    (hins : TermCodeTree.insert tree p = .ok tree1) :
    tree1._data = some root ∧ tree1._maxVarCnt = max tree._maxVarCnt (patternVarCnt p) ∧
    ∃ (j : Nat) (q : Ptr) (i : Instruction),
      j < (patternCode p).length ∧ PathTo tree.mem ⟨root, 0⟩ ((patternCode p).take j) q ∧
      deref tree.mem q = .ok ⟨i, none⟩ ∧ (patternCode p).get? j ≠ some i ∧
      tree1.mem = setAlternative (tree.mem ++ [((patternCode p).drop j).map OpCode.mk0]) q
        ⟨tree.mem.length, 0⟩ := by
  obtain ⟨hc1, hc2, hc3⟩ := compile_tree tree p
  have hcode := compile_code tree p
  unfold TermCodeTree.insert at hins
  simp only [] at hins
  obtain ⟨h1, h2, j, q, i, blk, hj, hq, hdq, hm, hcase, _, _⟩ :=
    incorporate_shape _ tree1 _ root (by rw [hc2]; exact hroot) hins
  rw [hc1] at hq hdq hm hcase
  rw [hcode] at hq hcase hj
  rw [hc3] at h2
  refine ⟨h1, h2, ?_⟩
  rcases hcase with ⟨g1, g2, g3⟩ | ⟨g1, ⟨q1, r, alt, k1, k2⟩, _⟩
  · refine ⟨j, q, i, by simpa using g1, ?_, hdq, ?_, ?_⟩
    · simpa [instrsOf, ← List.map_take, Function.comp_def, OpCode.mk0] using hq
    · intro hc
      have := g2 (OpCode.mk0 i) (by
        rw [List.get?_eq_getElem?, List.getElem?_map, ← List.get?_eq_getElem?, hc]
        rfl)
      exact this rfl
    · rw [hm, g3, List.map_drop]
  · exfalso
    rw [instrsOf_map_mk0] at k1
    exact no_success_after tree ps t root hinv hroot p q1 r alt k1 k2

/-- Claim C12: prefix sharing. When a term pattern is inserted with success
into a non-empty tree built by insertions, the walk of `incorporate` matches
the first `i` instructions of the compiled sequence, of length `n`, against
instructions of the tree and stops at an instruction `q` that has no
alternative and differs from the instruction at position `i < n`; one new
block with the `n - i` instructions from position `i` on is added, so the tree
has `n - i` instructions more, and one new alternative link, at `q`, is
created. Inserting f(X,a) and then f(X,b) gives a tree of 6 instructions with
a single branch point. -/
theorem C12_prefix_sharing :
    (∀ (ps : List TermList) (p : TermList) (tree tree1 : CodeTree) (root : Nat),
      TermCodeTree.insertAll CodeTree.empty ps = .ok tree → tree._data = some root →
      TermCodeTree.insert tree p = .ok tree1 →
      ∃ (i : Nat) (q : Ptr) (instr : Instruction),
        i < (compiledCode p).length ∧
        PathTo tree.mem ⟨root, 0⟩ ((compiledCode p).take i) q ∧
        deref tree.mem q = .ok ⟨instr, none⟩ ∧ (compiledCode p).get? i ≠ some instr ∧
        tree1.mem = setAlternative (tree.mem ++ [((compiledCode p).drop i).map OpCode.mk0]) q
          ⟨tree.mem.length, 0⟩ ∧
        numInstr tree1.mem = numInstr tree.mem + ((compiledCode p).length - i) ∧
        numLinks tree1.mem = numLinks tree.mem + 1) ∧
    (∃ tree, TermCodeTree.insertAll CodeTree.empty
        [.term 0 [.var 0, .term 1 []], .term 0 [.var 0, .term 2 []]] = .ok tree ∧
      tree.mem =
        [[⟨.CHECK_FUN 0, none⟩, ⟨.ASSIGN_VAR 0, none⟩, ⟨.CHECK_FUN 1, some ⟨1, 0⟩⟩,
            ⟨.SUCCESS 0, none⟩],
          [⟨.CHECK_FUN 2, none⟩, ⟨.SUCCESS 0, none⟩]] ∧
      numInstr tree.mem = 6 ∧ numLinks tree.mem = 1) := by
  refine ⟨?_, ⟨⟨1, some 0,
    [[⟨.CHECK_FUN 0, none⟩, ⟨.ASSIGN_VAR 0, none⟩, ⟨.CHECK_FUN 1, some ⟨1, 0⟩⟩,
        ⟨.SUCCESS 0, none⟩],
      [⟨.CHECK_FUN 2, none⟩, ⟨.SUCCESS 0, none⟩]]⟩, by decide, rfl, by decide, by decide⟩⟩
  intro ps p tree tree1 root htree hroot hins
  obtain ⟨t, hinv, _⟩ := insertAll_inv ps CodeTree.empty [] .nil tree treeInv_empty htree
  obtain ⟨_, _, j, q, i, hj, hq, hdq, hne, hm⟩ :=
    insert_shape tree tree1 (ps ++ []) t root hinv hroot p hins
  rw [compiledCode_eq]
  refine ⟨j, q, i, hj, hq, hdq, hne, hm, ?_, ?_⟩
  · rw [hm, (hang_counts tree.mem _ q i hdq (mk0_alt _)).2.1]
    simp
  · rw [hm, (hang_counts tree.mem _ q i hdq (mk0_alt _)).2.2]

/-- The general statement of C12 at the tree that holds f(X,a), into which
f(X,b) is inserted. -/
theorem C12_prefix_sharing_witness :
    ∃ (i : Nat) (q : Ptr) (instr : Instruction),
      i < (compiledCode (.term 0 [.var 0, .term 2 []])).length ∧
      PathTo [[⟨.CHECK_FUN 0, none⟩, ⟨.ASSIGN_VAR 0, none⟩, ⟨.CHECK_FUN 1, none⟩,
        ⟨.SUCCESS 0, none⟩]] ⟨0, 0⟩ ((compiledCode (.term 0 [.var 0, .term 2 []])).take i) q ∧
      deref [[⟨.CHECK_FUN 0, none⟩, ⟨.ASSIGN_VAR 0, none⟩, ⟨.CHECK_FUN 1, none⟩,
        ⟨.SUCCESS 0, none⟩]] q = .ok ⟨instr, none⟩ ∧
      (compiledCode (.term 0 [.var 0, .term 2 []])).get? i ≠ some instr ∧
      [[⟨.CHECK_FUN 0, none⟩, ⟨.ASSIGN_VAR 0, none⟩, ⟨.CHECK_FUN 1, some ⟨1, 0⟩⟩,
          ⟨.SUCCESS 0, none⟩],
        [⟨.CHECK_FUN 2, none⟩, ⟨.SUCCESS 0, none⟩]] =
        setAlternative ([[⟨.CHECK_FUN 0, none⟩, ⟨.ASSIGN_VAR 0, none⟩, ⟨.CHECK_FUN 1, none⟩,
          ⟨.SUCCESS 0, none⟩]] ++
            [((compiledCode (.term 0 [.var 0, .term 2 []])).drop i).map OpCode.mk0]) q ⟨1, 0⟩ ∧
      numInstr [[⟨.CHECK_FUN 0, none⟩, ⟨.ASSIGN_VAR 0, none⟩, ⟨.CHECK_FUN 1, some ⟨1, 0⟩⟩,
          ⟨.SUCCESS 0, none⟩],
        [⟨.CHECK_FUN 2, none⟩, ⟨.SUCCESS 0, none⟩]] =
        numInstr [[⟨.CHECK_FUN 0, none⟩, ⟨.ASSIGN_VAR 0, none⟩, ⟨.CHECK_FUN 1, none⟩,
          ⟨.SUCCESS 0, none⟩]] + ((compiledCode (.term 0 [.var 0, .term 2 []])).length - i) ∧
      numLinks [[⟨.CHECK_FUN 0, none⟩, ⟨.ASSIGN_VAR 0, none⟩, ⟨.CHECK_FUN 1, some ⟨1, 0⟩⟩,
          ⟨.SUCCESS 0, none⟩],
        [⟨.CHECK_FUN 2, none⟩, ⟨.SUCCESS 0, none⟩]] =
        numLinks [[⟨.CHECK_FUN 0, none⟩, ⟨.ASSIGN_VAR 0, none⟩, ⟨.CHECK_FUN 1, none⟩,
          ⟨.SUCCESS 0, none⟩]] + 1 :=
  C12_prefix_sharing.1 [.term 0 [.var 0, .term 1 []]] (.term 0 [.var 0, .term 2 []])
    ⟨1, some 0, [[⟨.CHECK_FUN 0, none⟩, ⟨.ASSIGN_VAR 0, none⟩, ⟨.CHECK_FUN 1, none⟩,
      ⟨.SUCCESS 0, none⟩]]⟩
    ⟨1, some 0, [[⟨.CHECK_FUN 0, none⟩, ⟨.ASSIGN_VAR 0, none⟩, ⟨.CHECK_FUN 1, some ⟨1, 0⟩⟩,
        ⟨.SUCCESS 0, none⟩],
      [⟨.CHECK_FUN 2, none⟩, ⟨.SUCCESS 0, none⟩]]⟩
    0 (by decide) (by decide) (by decide)

end Indexing


namespace Indexing

open Kernel

theorem slotBelow_mono (i : Instruction) (n m : Nat) (h : i.slotBelow n) (hnm : n ≤ m) :
    i.slotBelow m := by
  cases i with
  | ASSIGN_VAR v => exact Nat.lt_of_lt_of_le h hnm
  | CHECK_VAR v => exact Nat.lt_of_lt_of_le h hnm
  | SUCCESS r => trivial
  | CHECK_FUN f => trivial
  | FAIL => trivial
  | NEXT_LIT => trivial

/-- The instructions asked for a clause do not end a path, and their slots are
below the number of variables met in all. -/
theorem specClause_instrs :
    ∀ (lits : List Literal) (seen : List Nat),
      ∀ i ∈ (specClause seen lits).1,
        i.terminal = false ∧ i.slotBelow (specClause seen lits).2.length := by
  intro lits
  induction lits with
  | nil => intro seen i hi; simp [specClause] at hi
  | cons lit rest ih =>
    intro seen i hi
    simp only [specClause, List.mem_cons, List.mem_append] at hi ⊢
    rcases hi with hi | hi | hi | hi
    · subst hi; exact ⟨rfl, trivial⟩
    · subst hi; exact ⟨rfl, trivial⟩
    · obtain ⟨g1, g2⟩ := specCompile_instrs _ seen i hi
      refine ⟨(plain_not_terminal i g1).1, slotBelow_mono i _ _ g2 ?_⟩
      exact (specClause_seen rest _).1.length_le
    · exact ih _ i hi

/-- The sequence that `compile` pushes for a pattern: instructions that do not
end a path, with slots below the number of slots of the pattern, followed by
one SUCCESS. -/
theorem compile_props (pat : Pattern) :
    ∃ body, (CodeTree.empty.compilePattern pat).1 =
        (body ++ [Instruction.SUCCESS 0]).map OpCode.mk0 ∧
      ∀ i ∈ body, i.terminal = false ∧ i.slotBelow pat.varCnt := by
  cases pat with
  | term t =>
    cases t with
    | var x =>
      refine ⟨[.ASSIGN_VAR 0], rfl, ?_⟩
      intro i hi
      rw [List.mem_singleton] at hi
      subst hi
      exact ⟨rfl, show (0 : Nat) < 1 from Nat.zero_lt_one⟩
    | term f args =>
      obtain ⟨g1, g2⟩ := foldl_compileStep_spec (TermList.subtermsOfArgs args)
        ([] ++ [OpCode.mk0 (.CHECK_FUN f)]) [] 0 [] numbered_nil
      have hc : CodeTree.compile f args [] [] 0 =
          (TermList.subtermsOfArgs args).foldl CodeTree.compileStep
            ([] ++ [OpCode.mk0 (.CHECK_FUN f)], [], 0) := rfl
      refine ⟨.CHECK_FUN f :: (specCompile [] (TermList.subtermsOfArgs args)).1, ?_, ?_⟩
      · simp only [CodeTree.compilePattern, TermCodeTree.compile, hc, g1]
        simp
      · have hv : Pattern.varCnt (.term (.term f args)) =
            (specCompile [] (TermList.subtermsOfArgs args)).2.length := by
          simp only [Pattern.varCnt, CodeTree.compilePattern, TermCodeTree.compile, hc, g2.1]
          split
          · rfl
          · rename_i hlt
            simp only [CodeTree.empty] at hlt ⊢
            omega
        rw [hv]
        intro i hi
        rw [List.mem_cons] at hi
        rcases hi with hi | hi
        · subst hi; exact ⟨rfl, trivial⟩
        · obtain ⟨k1, k2⟩ := specCompile_instrs _ [] i hi
          exact ⟨(plain_not_terminal i k1).1, k2⟩
  | clause c =>
    obtain ⟨g1, g2⟩ := compileLits_spec c [] [] 0 [] numbered_nil
    refine ⟨(specClause [] c).1, ?_, ?_⟩
    · simp only [CodeTree.compilePattern, ClauseCodeTree.compile, g1]
      simp
    · have hv : Pattern.varCnt (.clause c) = (specClause [] c).2.length := by
        simp only [Pattern.varCnt, CodeTree.compilePattern, ClauseCodeTree.compile, g2.1]
        split
        · rfl
        · rename_i hlt
          simp only [CodeTree.empty] at hlt ⊢
          omega
      rw [hv]
      exact specClause_instrs c []

/-- The tree after `compile` has raised `_maxVarCnt` to `n` where needed. -/
theorem raise_maxVarCnt (tree : CodeTree) (n : Nat) :
    (if n > tree._maxVarCnt then { tree with _maxVarCnt := n } else tree).mem = tree.mem ∧
    (if n > tree._maxVarCnt then { tree with _maxVarCnt := n } else tree)._data = tree._data ∧
    (if n > tree._maxVarCnt then { tree with _maxVarCnt := n } else tree)._maxVarCnt =
      max tree._maxVarCnt n := by
  split
  · refine ⟨rfl, rfl, ?_⟩
    simp only []
    omega
  · refine ⟨rfl, rfl, ?_⟩
    omega

/-- What `compile` does to the tree: the code does not depend on the tree, and
`_maxVarCnt` becomes the greater of its value and the number of slots of the
pattern. -/
theorem compilePattern_tree (tree : CodeTree) (pat : Pattern) :
    (tree.compilePattern pat).1 = (CodeTree.empty.compilePattern pat).1 ∧
    (tree.compilePattern pat).2.mem = tree.mem ∧
    (tree.compilePattern pat).2._data = tree._data ∧
    (tree.compilePattern pat).2._maxVarCnt = max tree._maxVarCnt pat.varCnt := by
  have key : ∃ n, ∀ tr : CodeTree, (tr.compilePattern pat).2 =
      if n > tr._maxVarCnt then { tr with _maxVarCnt := n } else tr := by
    cases pat with
    | term t => exact ⟨_, fun _ => rfl⟩
    | clause c => exact ⟨_, fun _ => rfl⟩
  obtain ⟨n, hn⟩ := key
  have hv : pat.varCnt = n := by
    unfold Pattern.varCnt
    rw [hn]
    obtain ⟨_, _, g⟩ := raise_maxVarCnt CodeTree.empty n
    rw [g]
    simp [CodeTree.empty]
  have h1 : (tree.compilePattern pat).1 = (CodeTree.empty.compilePattern pat).1 := by
    cases pat <;> rfl
  rw [hn, hv]
  exact ⟨h1, raise_maxVarCnt tree n⟩

/-- The alternative links of a memory to which a block without links has been
added. -/
theorem links_append (mem : List CodeBlock) (blk : CodeBlock)
    (hl : ∀ x op a, deref mem x = .ok op → op.alternative = some a →
      a.ofs = 0 ∧ a.blk < mem.length)
    (hblk : ∀ op ∈ blk, op.alternative = none) :
    ∀ x op a, deref (mem ++ [blk]) x = .ok op → op.alternative = some a →
      a.ofs = 0 ∧ a.blk < mem.length + 1 := by
  intro x op a hd ha
  by_cases hx : x.blk < mem.length
  · rw [deref_append mem blk x hx] at hd
    obtain ⟨g1, g2⟩ := hl x op a hd ha
    exact ⟨g1, by omega⟩
  · exfalso
    have h1 := deref_blk_lt _ _ _ hd
    simp only [List.length_append, List.length_singleton] at h1
    have h2 : x = ⟨mem.length, x.ofs⟩ := by
      cases x
      simp only [Ptr.mk.injEq, and_true] at hx h1 ⊢
      omega
    rw [h2, deref_append_new] at hd
    cases hb : blk[x.ofs]? with
    | none => rw [hb] at hd; cases hd
    | some y =>
      rw [hb] at hd
      cases hd
      have := hblk op (List.getElem?_mem hb)
      rw [this] at ha
      cases ha

/-- A beginning cut off a sequence that ends with SUCCESS, not all of it. -/
theorem drop_body (body : List Instruction) (j : Nat)
    (hj : j < (body ++ [Instruction.SUCCESS 0]).length) :
    instrsOf (((body ++ [Instruction.SUCCESS 0]).map OpCode.mk0).drop j) =
      body.drop j ++ [Instruction.SUCCESS 0] := by
  rw [← List.map_drop, instrsOf_map_mk0]
  simp only [List.length_append, List.length_singleton] at hj
  rw [List.drop_append_of_le_length (by omega)]

/-- The invariant of the trees built by insertions holds again after an
insertion, and `_maxVarCnt` covers the inserted pattern. -/
theorem insertPattern_ok (tree tree1 : CodeTree) (pat : Pattern) (hinv : TreeOK tree)
    (h : tree.insertPattern pat = .ok tree1) :
    TreeOK tree1 ∧ tree._maxVarCnt ≤ tree1._maxVarCnt ∧ pat.varCnt ≤ tree1._maxVarCnt := by
  obtain ⟨hc1, hc2, hc3, hc4⟩ := compilePattern_tree tree pat
  obtain ⟨body, hbody, hprops⟩ := compile_props pat
  obtain ⟨hblocks, hlinks, hrootok⟩ := hinv
  unfold CodeTree.insertPattern at h
  rw [hc1, hbody] at h
  have hold : ∀ is ∈ tree.mem.map instrsOf, ∃ body, is = body ++ [Instruction.SUCCESS 0] ∧
      ∀ i ∈ body, i.terminal = false ∧
        i.slotBelow (max tree._maxVarCnt pat.varCnt) := by
    intro is his
    obtain ⟨b, g1, g2⟩ := hblocks is his
    exact ⟨b, g1, fun i hi => ⟨(g2 i hi).1, slotBelow_mono i _ _ (g2 i hi).2 (Nat.le_max_left _ _)⟩⟩
  have hnew : ∀ j, j < (body ++ [Instruction.SUCCESS 0]).length →
      ∃ b, instrsOf (((body ++ [Instruction.SUCCESS 0]).map OpCode.mk0).drop j) =
          b ++ [Instruction.SUCCESS 0] ∧
        ∀ i ∈ b, i.terminal = false ∧ i.slotBelow (max tree._maxVarCnt pat.varCnt) := by
    intro j hj
    refine ⟨body.drop j, drop_body body j hj, fun i hi => ?_⟩
    have := hprops i (List.mem_of_mem_drop hi)
    exact ⟨this.1, slotBelow_mono i _ _ this.2 (Nat.le_max_right _ _)⟩
  cases hd : tree._data with
  | none =>
    unfold CodeTree.incorporate at h
    rw [hc3, hd] at h
    simp only [] at h
    cases hb : CodeTree.buildBlock ((body ++ [Instruction.SUCCESS 0]).map OpCode.mk0)
        ((body ++ [Instruction.SUCCESS 0]).map OpCode.mk0).length with
    | fault f => rw [hb] at h; cases h
    | ok blk =>
      rw [hb] at h
      simp only [Run.ok.injEq] at h
      subst h
      obtain ⟨_, g2, _, g4⟩ := buildBlock_ok _ _ blk hb
      simp only [Nat.sub_self, List.drop_zero] at g2
      simp only [hc2, hc4]
      refine ⟨⟨?_, ?_, ?_⟩, Nat.le_max_left _ _, Nat.le_max_right _ _⟩
      · intro is his
        simp only [List.map_append, List.map_cons, List.map_nil, List.mem_append,
          List.mem_singleton] at his
        rcases his with his | his
        · exact hold is (by simpa using his)
        · obtain ⟨b, k1, k2⟩ := hnew 0 (by simp)
          rw [List.drop_zero] at k1
          exact ⟨b, by rw [his, g2, k1], k2⟩
      · intro x op a hx ha
        have := links_append tree.mem blk hlinks g4 x op a hx ha
        simpa using this
      · intro root hr
        cases hr
        simp
  | some root =>
    obtain ⟨_, h2, j, q, i, blk, hj, _, hdq, hm, hcase, _, halt⟩ :=
      incorporate_shape _ tree1 _ root (by rw [hc3]; exact hd) h
    rw [hc2] at hdq hm hcase
    rw [hc4] at h2
    have hq := deref_blk_lt tree.mem q _ hdq
    have hlen : tree1.mem.length = tree.mem.length + 1 := by
      rw [hm, setAlternative_length]
      simp
    refine ⟨⟨?_, ?_, ?_⟩, by rw [h2]; exact Nat.le_max_left _ _,
      by rw [h2]; exact Nat.le_max_right _ _⟩
    · intro is his
      rw [hm, (hang_counts tree.mem blk q i hdq halt).1] at his
      rw [h2]
      simp only [List.mem_append, List.mem_singleton] at his
      rcases his with his | his
      · exact hold is his
      · rcases hcase with ⟨g1, _, g3⟩ | ⟨_, _, g2, g3⟩
        · obtain ⟨b, k1, k2⟩ := hnew j (by simpa using g1)
          exact ⟨b, by rw [his, g3, k1], k2⟩
        · obtain ⟨b, k1, k2⟩ := hnew (((body ++ [Instruction.SUCCESS 0]).map OpCode.mk0).length - 1)
            (by simp)
          exact ⟨b, by rw [his, g3, k1], k2⟩
    · intro x op a hx ha
      rw [hlen]
      by_cases hxq : x = q
      · subst hxq
        have hdq1 : deref (tree.mem ++ [blk]) x = .ok ⟨i, none⟩ := by
          rw [deref_append tree.mem blk x hq]; exact hdq
        rw [hm, deref_setAlternative_eq _ x _ _ hdq1] at hx
        cases hx
        simp only [Option.some.injEq] at ha
        subst ha
        exact ⟨rfl, by simp⟩
      · rw [hm, deref_setAlternative_ne _ _ _ _ hxq] at hx
        exact links_append tree.mem blk hlinks halt x op a hx ha
    · intro r hr
      have hroot1 : tree1._data = some root := by
        have := (incorporate_shape _ tree1 _ root (by rw [hc3]; exact hd) h).1
        exact this
      rw [hroot1] at hr
      cases hr
      have := hrootok root hd
      omega

theorem treeOK_empty : TreeOK CodeTree.empty := by
  refine ⟨?_, ?_, ?_⟩
  · intro is his
    simp [CodeTree.empty] at his
  · intro x op a hx
    simp [CodeTree.empty, deref] at hx
  · intro root hr
    simp [CodeTree.empty] at hr

/-- The invariant of the trees built by insertions holds after a series of
insertions, and `_maxVarCnt` covers all the inserted patterns. -/
theorem insertPatterns_ok :
    ∀ (pats : List Pattern) (tree tree1 : CodeTree), TreeOK tree →
      CodeTree.insertPatterns tree pats = .ok tree1 →
      TreeOK tree1 ∧ tree._maxVarCnt ≤ tree1._maxVarCnt ∧
        ∀ pat ∈ pats, pat.varCnt ≤ tree1._maxVarCnt := by
  intro pats
  induction pats with
  | nil =>
    intro tree tree1 hinv h
    rw [CodeTree.insertPatterns] at h
    cases h
    exact ⟨hinv, Nat.le_refl _, fun pat hp => by cases hp⟩
  | cons pat rest ih =>
    intro tree tree1 hinv h
    rw [CodeTree.insertPatterns] at h
    cases hi : tree.insertPattern pat with
    | fault f => rw [hi] at h; cases h
    | ok tree2 =>
      rw [hi] at h
      simp only [] at h
      obtain ⟨g1, g2, g3⟩ := insertPattern_ok tree tree2 pat hinv hi
      obtain ⟨k1, k2, k3⟩ := ih tree2 tree1 g1 h
      refine ⟨k1, by omega, fun p hp => ?_⟩
      rw [List.mem_cons] at hp
      rcases hp with hp | hp
      · subst hp; omega
      · exact k3 p hp

end Indexing


namespace Indexing

open Kernel

/-- A block of a tree built by insertions. -/
theorem treeOK_block (tree : CodeTree) (hinv : TreeOK tree) (k : Nat) (blk : CodeBlock)
    (hk : tree.mem[k]? = some blk) :
    ∃ body, instrsOf blk = body ++ [Instruction.SUCCESS 0] ∧
      ∀ i ∈ body, i.terminal = false ∧ i.slotBelow tree._maxVarCnt := by
  apply hinv.1
  rw [List.mem_map]
  exact ⟨blk, List.getElem?_mem hk, rfl⟩

theorem instrsOf_get (blk : CodeBlock) (k : Nat) (op : OpCode) (h : blk[k]? = some op) :
    (instrsOf blk)[k]? = some op.instr := by
  simp [instrsOf, h]

theorem instrsOf_length (blk : CodeBlock) : (instrsOf blk).length = blk.length := by
  simp [instrsOf]

/-- The first instruction of every block exists. -/
theorem treeOK_first (tree : CodeTree) (hinv : TreeOK tree) (k : Nat) (hk : k < tree.mem.length) :
    validPtr tree.mem ⟨k, 0⟩ := by
  have hget : tree.mem[k]? = some tree.mem[k] := List.getElem?_eq_getElem hk
  obtain ⟨body, hb, _⟩ := treeOK_block tree hinv k _ hget
  have hlen : 0 < (tree.mem[k]).length := by
    rw [← instrsOf_length, hb]
    simp
  refine ⟨(tree.mem[k])[0], ?_⟩
  rw [deref_eq]
  simp only [hget, Option.some_bind]
  rw [List.getElem?_eq_getElem hlen]
  rfl

/-- An instruction that is neither SUCCESS nor FAIL is followed by an
instruction in its block, and its slot is below `_maxVarCnt`. -/
theorem treeOK_next (tree : CodeTree) (hinv : TreeOK tree) (p : Ptr) (op : OpCode)
    (hd : deref tree.mem p = .ok op) :
    op.instr.slotBelow tree._maxVarCnt ∧
    (op.instr.terminal = false → validPtr tree.mem ⟨p.blk, p.ofs + 1⟩) := by
  obtain ⟨blk, h1, h2⟩ := deref_ok_get tree.mem p op hd
  obtain ⟨body, hb, hprops⟩ := treeOK_block tree hinv p.blk blk h1
  have hi := instrsOf_get blk p.ofs op h2
  rw [hb] at hi
  have hlen : blk.length = body.length + 1 := by
    rw [← instrsOf_length, hb]
    simp
  by_cases hlt : p.ofs < body.length
  · rw [List.getElem?_append_left hlt] at hi
    have hmem := List.getElem?_mem hi
    refine ⟨(hprops _ hmem).2, fun _ => ?_⟩
    have hlt1 : p.ofs + 1 < blk.length := by omega
    refine ⟨blk[p.ofs + 1], ?_⟩
    rw [deref_eq]
    simp only [h1, Option.some_bind]
    rw [List.getElem?_eq_getElem hlt1]
    rfl
  · have hofs : p.ofs < blk.length := by
      by_contra hc
      rw [List.getElem?_eq_none (by omega)] at h2
      cases h2
    have heq : p.ofs = body.length := by omega
    rw [heq, List.getElem?_append_right (Nat.le_refl _)] at hi
    simp only [Nat.sub_self, List.getElem?_cons_zero, Option.some.injEq] at hi
    rw [← hi]
    exact ⟨trivial, fun h => by cases h⟩

/-- An alternative link leads to an instruction. -/
theorem treeOK_link (tree : CodeTree) (hinv : TreeOK tree) (x : Ptr) (op : OpCode) (a : Ptr)
    (hd : deref tree.mem x = .ok op) (ha : op.alternative = some a) : validPtr tree.mem a := by
  obtain ⟨g1, g2⟩ := hinv.2.1 x op a hd ha
  have := treeOK_first tree hinv a.blk g2
  have ha2 : a = ⟨a.blk, 0⟩ := by
    cases a
    simp only [Ptr.mk.injEq, true_and] at g1 ⊢
    exact g1
  rw [ha2]
  exact this

/-- An instruction that does not fail keeps the size of the bindings table. -/
theorem execInstr_length (ft : List FlatTerm.Entry) (i : Instruction) (tp : Nat) (b : Bindings)
    (tp1 : Nat) (b1 : Bindings) (h : execInstr ft i tp b = .ok (some (tp1, b1))) :
    b1.length = b.length := by
  cases i with
  | SUCCESS r => exact (execInstr_agree_self ft (.SUCCESS r) 0 tp b trivial tp1 b1 h).1
  | CHECK_FUN f => exact (execInstr_agree_self ft (.CHECK_FUN f) 0 tp b trivial tp1 b1 h).1
  | ASSIGN_VAR v => exact (execInstr_agree_self ft (.ASSIGN_VAR v) v tp b rfl tp1 b1 h).1
  | CHECK_VAR v =>
    exact (execInstr_agree_self ft (.CHECK_VAR v) (v + 1) tp b (Nat.lt_succ_self v) tp1 b1 h).1
  | FAIL => simp [execInstr] at h
  | NEXT_LIT => simp [execInstr] at h

/-- The push of the alternative keeps a context in order. -/
theorem pushAlt_ctxOK (mem : List CodeBlock) (n : Nat) (c : EContext) (alt : Option Ptr)
    (hc : CtxOK mem n c) (ha : ∀ a, alt = some a → validPtr mem a) :
    CtxOK mem n (c.pushAlt alt) := by
  cases alt with
  | none => exact hc
  | some a =>
    refine ⟨hc.1, hc.2.1, ?_⟩
    intro bp hbp
    simp only [EContext.pushAlt, List.mem_cons] at hbp
    rcases hbp with hbp | hbp
    · subst hbp; exact ha a rfl
    · exact hc.2.2 bp hbp

/-- The tail of the loop body keeps a context in order when the instruction
pointer can be advanced after an instruction that did not fail. -/
theorem afterInstr_ctxOK (mem : List CodeBlock) (n res : Nat) (r : Bool × EContext)
    (hc : CtxOK mem n r.2)
    (hop : r.1 = true → validPtr mem ⟨r.2.op.blk, r.2.op.ofs + 1⟩) :
    CtxOK mem n (TermCodeTree.afterInstr res r).ctx := by
  unfold TermCodeTree.afterInstr
  cases h1 : r.1 with
  | true =>
    simp only [if_true, LoopStep.ctx]
    exact ⟨hc.1, hop h1, hc.2.2⟩
  | false =>
    simp only [Bool.false_eq_true, if_false]
    cases hs : r.2.btStack with
    | nil =>
      simp only [EContext.backtrack, hs, LoopStep.ctx]
      exact hc
    | cons bp rest =>
      simp only [EContext.backtrack, hs, LoopStep.ctx]
      refine ⟨hc.1, hc.2.2 bp (by rw [hs]; exact List.mem_cons_self _ _), ?_⟩
      intro x hx
      exact hc.2.2 x (by rw [hs]; exact List.mem_cons_of_mem _ hx)

/-- One pass through the body of the loop of `next` keeps a context in order:
the bindings table keeps its size, and the instruction pointer and the choice
points address instructions. -/
theorem loopBody_ctxOK (tree : CodeTree) (hinv : TreeOK tree) (n : Nat) (c : EContext)
    (res : Nat) (step : LoopStep) (hc : CtxOK tree.mem n c)
    (h : TermCodeTree.loopBody tree.mem c res = .ok step) : CtxOK tree.mem n step.ctx := by
  obtain ⟨op, hd⟩ := hc.2.1
  obtain ⟨i, alt⟩ := op
  have hnext := (treeOK_next tree hinv c.op _ hd).2
  have hpush : CtxOK tree.mem n (c.pushAlt alt) :=
    pushAlt_ctxOK tree.mem n c alt hc (fun a ha => treeOK_link tree hinv c.op _ a hd ha)
  obtain ⟨f1, f2, f3, f4, f5⟩ := pushAlt_fields c alt
  rw [loopBody_eq tree.mem c res i alt hd] at h
  have hgen : ∀ (j : Instruction), j.terminal = false → i = j →
      (match execInstr c.ft j c.tp c.bindings with
        | .fault e => Run.fault e
        | .ok none => .ok (TermCodeTree.afterInstr res (false, c.pushAlt alt))
        | .ok (some (tp1, b1)) =>
          .ok (TermCodeTree.afterInstr res
            (true, { c.pushAlt alt with tp := tp1, bindings := b1 }))) = .ok step →
      CtxOK tree.mem n step.ctx := by
    intro j hj hij h
    cases he : execInstr c.ft j c.tp c.bindings with
    | fault e => rw [he] at h; cases h
    | ok o =>
      rw [he] at h
      cases o with
      | none =>
        simp only [Run.ok.injEq] at h
        rw [← h]
        exact afterInstr_ctxOK tree.mem n res _ hpush (fun hf => by cases hf)
      | some x =>
        obtain ⟨tp1, b1⟩ := x
        simp only [Run.ok.injEq] at h
        rw [← h]
        apply afterInstr_ctxOK
        · refine ⟨?_, hpush.2.1, hpush.2.2⟩
          show b1.length = n
          rw [execInstr_length c.ft j c.tp c.bindings tp1 b1 he]
          exact hc.1
        · intro _
          show validPtr tree.mem ⟨(c.pushAlt alt).op.blk, (c.pushAlt alt).op.ofs + 1⟩
          rw [f3]
          exact hnext (by rw [hij]; exact hj)
  cases i with
  | SUCCESS r =>
    simp only [loopBodySpec, Run.ok.injEq] at h
    rw [← h]
    exact hpush
  | NEXT_LIT => simp [loopBodySpec] at h
  | FAIL =>
    simp only [loopBodySpec, execInstr, Run.ok.injEq] at h
    rw [← h]
    exact afterInstr_ctxOK tree.mem n res _ hpush (fun hf => by cases hf)
  | CHECK_FUN f => exact hgen (.CHECK_FUN f) rfl rfl h
  | ASSIGN_VAR v => exact hgen (.ASSIGN_VAR v) rfl rfl h
  | CHECK_VAR v => exact hgen (.CHECK_VAR v) rfl rfl h

/-- The context that `init` gives is in order. -/
theorem init_ctxOK (tree : CodeTree) (hinv : TreeOK tree) (t : TermList) (ctx0 : EContext)
    (h : TermCodeTree.init tree t = .ok ctx0) :
    CtxOK tree.mem tree._maxVarCnt ctx0 := by
  unfold TermCodeTree.init at h
  cases hd : tree._data with
  | none => rw [hd] at h; cases h
  | some root =>
    rw [hd] at h
    simp only [Run.ok.injEq] at h
    subst h
    refine ⟨by simp, treeOK_first tree hinv root (hinv.2.2 root hd), ?_⟩
    intro bp hbp
    cases hbp

/-- Every context at the head of the loop of `next` is in order. -/
theorem visits_ctxOK (tree : CodeTree) (hinv : TreeOK tree) (n : Nat) (ctx0 : EContext)
    (h0 : CtxOK tree.mem n ctx0) (c : EContext) (hv : Visits tree.mem ctx0 c) :
    CtxOK tree.mem n c := by
  induction hv with
  | start => exact h0
  | again c c1 res _ hl ih => exact loopBody_ctxOK tree hinv n c res _ ih hl
  | resume c c1 c2 res r _ hl hb ih =>
    have h1 : CtxOK tree.mem n c1 := loopBody_ctxOK tree hinv n c res _ ih hl
    unfold EContext.backtrack at hb
    cases hs : c1.btStack with
    | nil => rw [hs] at hb; cases hb
    | cons bp rest =>
      rw [hs] at hb
      simp only [Option.some.injEq] at hb
      subst hb
      refine ⟨h1.1, h1.2.2 bp (by rw [hs]; exact List.mem_cons_self _ _), ?_⟩
      intro x hx
      exact h1.2.2 x (by rw [hs]; exact List.mem_cons_of_mem _ hx)

end Indexing


namespace Indexing

open Kernel

/-- The instructions of the compiled sequence of a pattern use slots below the
number of slots of the pattern. -/
theorem code_slotBelow (pat : Pattern) : ∀ i ∈ pat.code, i.slotBelow pat.varCnt := by
  obtain ⟨body, hb, hprops⟩ := compile_props pat
  intro i hi
  unfold Pattern.code at hi
  rw [hb, instrsOf_map_mk0, List.mem_append, List.mem_singleton] at hi
  rcases hi with hi | hi
  · exact (hprops i hi).2
  · subst hi; trivial

/-- With a table of at least `v + 1` entries, writing slot `v` succeeds and
reading it does not leave the table. -/
theorem binding_in_range (c : EContext) (v : Nat) (hv : v < c.bindings.length) :
    (∀ u, ∃ c1, c.setBinding v u = .ok c1) ∧ c.getBinding v ≠ .fault .outOfBounds := by
  constructor
  · intro u
    unfold EContext.setBinding
    rw [if_pos hv]
    exact ⟨_, rfl⟩
  · unfold EContext.getBinding
    rw [List.get?_eq_getElem?, List.getElem?_eq_getElem hv]
    cases c.bindings[v] <;> simp

/-- A pass of the loop body that goes on either has advanced the instruction
pointer by one after a CHECK_FUN, ASSIGN_VAR or CHECK_VAR, or has resumed at
the choice point on top of the stack. -/
theorem loopBody_again_cases (mem : List CodeBlock) (c : EContext) (res : Nat) (c1 : EContext)
    (i : Instruction) (alt : Option Ptr) (hd : deref mem c.op = .ok ⟨i, alt⟩)
    (h : TermCodeTree.loopBody mem c res = .ok (.again c1)) :
    (i.plain = true ∧ c1.op = ⟨c.op.blk, c.op.ofs + 1⟩) ∨
    (∃ bp rest, (c.pushAlt alt).btStack = bp :: rest ∧ c1.op = bp.op ∧ c1.btStack = rest) := by
  obtain ⟨f1, f2, f3, f4, f5⟩ := pushAlt_fields c alt
  rw [loopBody_eq mem c res i alt hd] at h
  have hfail : ∀ x : EContext, x.btStack = (c.pushAlt alt).btStack →
      TermCodeTree.afterInstr res (false, x) = .again c1 →
      ∃ bp rest, (c.pushAlt alt).btStack = bp :: rest ∧ c1.op = bp.op ∧ c1.btStack = rest := by
    intro x hx hs
    unfold TermCodeTree.afterInstr at hs
    simp only [Bool.false_eq_true, if_false] at hs
    unfold EContext.backtrack at hs
    rw [hx] at hs
    cases hst : (c.pushAlt alt).btStack with
    | nil => rw [hst] at hs; cases hs
    | cons bp rest =>
      rw [hst] at hs
      simp only [LoopStep.again.injEq] at hs
      subst hs
      exact ⟨bp, rest, rfl, rfl, rfl⟩
  have hgen : ∀ (j : Instruction), j.plain = true → i = j →
      (match execInstr c.ft j c.tp c.bindings with
        | .fault e => Run.fault e
        | .ok none => .ok (TermCodeTree.afterInstr res (false, c.pushAlt alt))
        | .ok (some (tp1, b1)) =>
          .ok (TermCodeTree.afterInstr res
            (true, { c.pushAlt alt with tp := tp1, bindings := b1 }))) = .ok (.again c1) →
      (i.plain = true ∧ c1.op = ⟨c.op.blk, c.op.ofs + 1⟩) ∨
      (∃ bp rest, (c.pushAlt alt).btStack = bp :: rest ∧ c1.op = bp.op ∧ c1.btStack = rest) := by
    intro j hj hij h
    cases he : execInstr c.ft j c.tp c.bindings with
    | fault e => rw [he] at h; cases h
    | ok o =>
      rw [he] at h
      cases o with
      | none =>
        simp only [Run.ok.injEq] at h
        exact Or.inr (hfail _ rfl h)
      | some x =>
        obtain ⟨tp1, b1⟩ := x
        simp only [Run.ok.injEq] at h
        left
        refine ⟨by rw [hij]; exact hj, ?_⟩
        unfold TermCodeTree.afterInstr at h
        simp only [if_true, LoopStep.again.injEq] at h
        rw [← h]
        show (⟨(c.pushAlt alt).op.blk, (c.pushAlt alt).op.ofs + 1⟩ : Ptr) = _
        rw [f3]
  cases i with
  | SUCCESS r => simp [loopBodySpec] at h
  | NEXT_LIT => simp [loopBodySpec] at h
  | FAIL =>
    simp only [loopBodySpec, execInstr, Run.ok.injEq] at h
    exact Or.inr (hfail _ rfl h)
  | CHECK_FUN f => exact hgen (.CHECK_FUN f) rfl rfl h
  | ASSIGN_VAR v => exact hgen (.ASSIGN_VAR v) rfl rfl h
  | CHECK_VAR v => exact hgen (.CHECK_VAR v) rfl rfl h

/-- The last instruction of a block of a tree built by insertions. -/
theorem treeOK_last (tree : CodeTree) (hinv : TreeOK tree) (blk : CodeBlock)
    (hblk : blk ∈ tree.mem) : ∃ op, blk.getLast? = some op ∧ op.instr = .SUCCESS 0 := by
  obtain ⟨k, hk⟩ := List.getElem?_of_mem hblk
  obtain ⟨body, hb, _⟩ := treeOK_block tree hinv k blk hk
  have hlen : blk.length = body.length + 1 := by
    rw [← instrsOf_length, hb]
    simp
  have hlt : blk.length - 1 < blk.length := by omega
  refine ⟨blk[blk.length - 1], ?_, ?_⟩
  · rw [List.getLast?_eq_getElem?, List.getElem?_eq_getElem hlt]
  · have := instrsOf_get blk (blk.length - 1) _ (List.getElem?_eq_getElem hlt)
    rw [hb] at this
    have hidx : blk.length - 1 = body.length := by omega
    generalize blk[blk.length - 1] = x at this
    rw [hidx, List.getElem?_append_right (Nat.le_refl _)] at this
    simp only [Nat.sub_self, List.getElem?_cons_zero, Option.some.injEq] at this
    exact this.symm

/-- Claim C16: in a tree built by compiling and incorporating patterns,
`_maxVarCnt` is at least the number of variable slots of every compiled
sequence (whose ASSIGN_VAR and CHECK_VAR operands are below that number), so
that every ASSIGN_VAR or CHECK_VAR operand in the tree is below `_maxVarCnt`;
the context that `init` gives has a bindings table of `_maxVarCnt` entries,
the table keeps this size in every context that the loop of `next` comes to,
and at an ASSIGN_VAR or CHECK_VAR there the write of `doAssignVar` succeeds
and the read of `doCheckVar` stays inside the table. -/
theorem C16_bindings_table_covers_slots (pats : List Pattern) (tree : CodeTree)
    (h : CodeTree.insertPatterns CodeTree.empty pats = .ok tree) :
    (∀ pat ∈ pats, pat.varCnt ≤ tree._maxVarCnt ∧ ∀ i ∈ pat.code, i.slotBelow pat.varCnt) ∧
    (∀ p op v, deref tree.mem p = .ok op →
      (op.instr = .ASSIGN_VAR v ∨ op.instr = .CHECK_VAR v) → v < tree._maxVarCnt) ∧
    (∀ t ctx0, TermCodeTree.init tree t = .ok ctx0 →
      ctx0.bindings.length = tree._maxVarCnt ∧
      ∀ c, Visits tree.mem ctx0 c →
        c.bindings.length = tree._maxVarCnt ∧
        ∀ v alt, (deref tree.mem c.op = .ok ⟨.ASSIGN_VAR v, alt⟩ ∨
            deref tree.mem c.op = .ok ⟨.CHECK_VAR v, alt⟩) →
          (∀ u, ∃ c1, (c.pushAlt alt).setBinding v u = .ok c1) ∧
          (c.pushAlt alt).getBinding v ≠ .fault .outOfBounds) := by
  obtain ⟨hinv, _, hcov⟩ := insertPatterns_ok pats CodeTree.empty tree treeOK_empty h
  have hslot : ∀ p op v, deref tree.mem p = .ok op →
      (op.instr = .ASSIGN_VAR v ∨ op.instr = .CHECK_VAR v) → v < tree._maxVarCnt := by
    intro p op v hd hv
    have := (treeOK_next tree hinv p op hd).1
    rcases hv with hv | hv <;> (rw [hv] at this; exact this)
  refine ⟨fun pat hp => ⟨hcov pat hp, code_slotBelow pat⟩, hslot, ?_⟩
  intro t ctx0 hi
  have h0 := init_ctxOK tree hinv t ctx0 hi
  refine ⟨h0.1, fun c hv => ?_⟩
  have hc := visits_ctxOK tree hinv _ ctx0 h0 c hv
  refine ⟨hc.1, fun v alt hd => ?_⟩
  have hlt : v < (c.pushAlt alt).bindings.length := by
    rw [(pushAlt_fields c alt).2.2.2.1, hc.1]
    rcases hd with hd | hd
    · exact hslot c.op _ v hd (Or.inl rfl)
    · exact hslot c.op _ v hd (Or.inr rfl)
  exact binding_in_range _ v hlt

/-- Claim C19: in a tree built by compiling and incorporating patterns the
last instruction of every block is SUCCESS or FAIL, and an instruction that is
neither is followed by an instruction in its block; every context that the
loop of `next` comes to has its instruction pointer at an instruction, and
when a pass goes on, either the pointer was advanced by one after a CHECK_FUN,
ASSIGN_VAR or CHECK_VAR and lies in the same block, or execution resumed at a
choice point; in both cases the pointer is at an instruction again. -/
theorem C19_block_invariant (pats : List Pattern) (tree : CodeTree)
    (h : CodeTree.insertPatterns CodeTree.empty pats = .ok tree) :
    (∀ blk ∈ tree.mem, ∃ op, blk.getLast? = some op ∧
      ((∃ r, op.instr = .SUCCESS r) ∨ op.instr = .FAIL)) ∧
    (∀ p op, deref tree.mem p = .ok op → op.instr.terminal = false →
      validPtr tree.mem ⟨p.blk, p.ofs + 1⟩) ∧
    (∀ t ctx0, TermCodeTree.init tree t = .ok ctx0 → ∀ c, Visits tree.mem ctx0 c →
      validPtr tree.mem c.op ∧
      ∀ res c1 i alt, deref tree.mem c.op = .ok ⟨i, alt⟩ →
        TermCodeTree.loopBody tree.mem c res = .ok (.again c1) →
        validPtr tree.mem c1.op ∧
        ((i.plain = true ∧ c1.op = ⟨c.op.blk, c.op.ofs + 1⟩) ∨
          (∃ bp rest, (c.pushAlt alt).btStack = bp :: rest ∧ c1.op = bp.op ∧
            c1.btStack = rest))) := by
  obtain ⟨hinv, _, _⟩ := insertPatterns_ok pats CodeTree.empty tree treeOK_empty h
  refine ⟨?_, fun p op hd => (treeOK_next tree hinv p op hd).2, ?_⟩
  · intro blk hblk
    obtain ⟨op, g1, g2⟩ := treeOK_last tree hinv blk hblk
    exact ⟨op, g1, Or.inl ⟨0, g2⟩⟩
  · intro t ctx0 hi c hv
    have h0 := init_ctxOK tree hinv t ctx0 hi
    have hc := visits_ctxOK tree hinv _ ctx0 h0 c hv
    refine ⟨hc.2.1, fun res c1 i alt hd hl => ?_⟩
    have h1 := loopBody_ctxOK tree hinv _ c res _ hc hl
    exact ⟨h1.2.1, loopBody_again_cases tree.mem c res c1 i alt hd hl⟩

/-- The statement of C16 at the tree of f(X,Y) and f(X,X): both patterns are
covered by `_maxVarCnt = 2`, and every variable operand in the tree is below
2. -/
theorem C16_bindings_table_covers_slots_witness :
    CodeTree.insertPatterns CodeTree.empty
        [.term (.term 0 [.var 0, .var 1]), .term (.term 0 [.var 0, .var 0])] =
      .ok ⟨2, some 0,
        [[⟨.CHECK_FUN 0, none⟩, ⟨.ASSIGN_VAR 0, none⟩, ⟨.ASSIGN_VAR 1, some ⟨1, 0⟩⟩,
            ⟨.SUCCESS 0, none⟩],
          [⟨.CHECK_VAR 0, none⟩, ⟨.SUCCESS 0, none⟩]]⟩ ∧
    (∀ pat ∈ [Pattern.term (.term 0 [.var 0, .var 1]), Pattern.term (.term 0 [.var 0, .var 0])],
      pat.varCnt ≤ 2 ∧ ∀ i ∈ pat.code, i.slotBelow pat.varCnt) ∧
    (∀ p op v,
      deref [[⟨.CHECK_FUN 0, none⟩, ⟨.ASSIGN_VAR 0, none⟩, ⟨.ASSIGN_VAR 1, some ⟨1, 0⟩⟩,
            ⟨.SUCCESS 0, none⟩],
          [⟨.CHECK_VAR 0, none⟩, ⟨.SUCCESS 0, none⟩]] p = .ok op →
      (op.instr = .ASSIGN_VAR v ∨ op.instr = .CHECK_VAR v) → v < 2) :=
  ⟨by decide,
    (C16_bindings_table_covers_slots
      [.term (.term 0 [.var 0, .var 1]), .term (.term 0 [.var 0, .var 0])]
      ⟨2, some 0,
        [[⟨.CHECK_FUN 0, none⟩, ⟨.ASSIGN_VAR 0, none⟩, ⟨.ASSIGN_VAR 1, some ⟨1, 0⟩⟩,
            ⟨.SUCCESS 0, none⟩],
          [⟨.CHECK_VAR 0, none⟩, ⟨.SUCCESS 0, none⟩]]⟩ (by decide)).1,
    (C16_bindings_table_covers_slots
      [.term (.term 0 [.var 0, .var 1]), .term (.term 0 [.var 0, .var 0])]
      ⟨2, some 0,
        [[⟨.CHECK_FUN 0, none⟩, ⟨.ASSIGN_VAR 0, none⟩, ⟨.ASSIGN_VAR 1, some ⟨1, 0⟩⟩,
            ⟨.SUCCESS 0, none⟩],
          [⟨.CHECK_VAR 0, none⟩, ⟨.SUCCESS 0, none⟩]]⟩ (by decide)).2.1⟩

/-- The statement of C19 at the tree of f(X,Y) and f(X,X): both blocks end
with SUCCESS, and the instructions before it are followed by an instruction
of their block. -/
theorem C19_block_invariant_witness :
    CodeTree.insertPatterns CodeTree.empty
        [.term (.term 0 [.var 0, .var 1]), .term (.term 0 [.var 0, .var 0])] =
      .ok ⟨2, some 0,
        [[⟨.CHECK_FUN 0, none⟩, ⟨.ASSIGN_VAR 0, none⟩, ⟨.ASSIGN_VAR 1, some ⟨1, 0⟩⟩,
            ⟨.SUCCESS 0, none⟩],
          [⟨.CHECK_VAR 0, none⟩, ⟨.SUCCESS 0, none⟩]]⟩ ∧
    (∀ blk ∈ ([[⟨.CHECK_FUN 0, none⟩, ⟨.ASSIGN_VAR 0, none⟩, ⟨.ASSIGN_VAR 1, some ⟨1, 0⟩⟩,
            ⟨.SUCCESS 0, none⟩],
          [⟨.CHECK_VAR 0, none⟩, ⟨.SUCCESS 0, none⟩]] : List CodeBlock),
      ∃ op, blk.getLast? = some op ∧ ((∃ r, op.instr = .SUCCESS r) ∨ op.instr = .FAIL)) ∧
    (∀ p op,
      deref [[⟨.CHECK_FUN 0, none⟩, ⟨.ASSIGN_VAR 0, none⟩, ⟨.ASSIGN_VAR 1, some ⟨1, 0⟩⟩,
            ⟨.SUCCESS 0, none⟩],
          [⟨.CHECK_VAR 0, none⟩, ⟨.SUCCESS 0, none⟩]] p = .ok op →
      op.instr.terminal = false →
      validPtr [[⟨.CHECK_FUN 0, none⟩, ⟨.ASSIGN_VAR 0, none⟩, ⟨.ASSIGN_VAR 1, some ⟨1, 0⟩⟩,
            ⟨.SUCCESS 0, none⟩],
          [⟨.CHECK_VAR 0, none⟩, ⟨.SUCCESS 0, none⟩]] ⟨p.blk, p.ofs + 1⟩) :=
  ⟨by decide,
    (C19_block_invariant
      [.term (.term 0 [.var 0, .var 1]), .term (.term 0 [.var 0, .var 0])]
      ⟨2, some 0,
        [[⟨.CHECK_FUN 0, none⟩, ⟨.ASSIGN_VAR 0, none⟩, ⟨.ASSIGN_VAR 1, some ⟨1, 0⟩⟩,
            ⟨.SUCCESS 0, none⟩],
          [⟨.CHECK_VAR 0, none⟩, ⟨.SUCCESS 0, none⟩]]⟩ (by decide)).1,
    (C19_block_invariant
      [.term (.term 0 [.var 0, .var 1]), .term (.term 0 [.var 0, .var 0])]
      ⟨2, some 0,
        [[⟨.CHECK_FUN 0, none⟩, ⟨.ASSIGN_VAR 0, none⟩, ⟨.ASSIGN_VAR 1, some ⟨1, 0⟩⟩,
            ⟨.SUCCESS 0, none⟩],
          [⟨.CHECK_VAR 0, none⟩, ⟨.SUCCESS 0, none⟩]]⟩ (by decide)).2.1⟩

end Indexing


namespace Indexing

open Kernel

/-- The choice points stay sound when the walk goes on. -/
theorem stackOK_mono (mem : List CodeBlock) (root : Ptr) (ft : List FlatTerm.Entry)
    (b0 : Bindings) (code code2 : List Instruction) (s : List BTPoint) (b : Bindings)
    (hpre : code <+: code2) (h : StackOK mem root ft b0 code s b) :
    StackOK mem root ft b0 code2 s b := by
  cases s with
  | nil => trivial
  | cons bp rest =>
    obtain ⟨code1, b1, g1, g2, g3, g4, g5⟩ := h
    exact ⟨code1, b1, g1.trans hpre, g2, g3, g4, g5⟩

/-- The choice points stay sound when slots at or above the level of the walk
are written. -/
theorem stackOK_bindings (mem : List CodeBlock) (root : Ptr) (ft : List FlatTerm.Entry)
    (b0 : Bindings) (s : List BTPoint) :
    ∀ (code : List Instruction) (b b2 : Bindings),
      Bindings.agreeBelow (levelAfter 0 code) b2 b → StackOK mem root ft b0 code s b →
      StackOK mem root ft b0 code s b2 := by
  induction s with
  | nil => intro code b b2 _ _; trivial
  | cons bp rest ih =>
    intro code b b2 hab h
    obtain ⟨code1, b1, g1, g2, g3, g4, g5⟩ := h
    have hab1 : Bindings.agreeBelow (levelAfter 0 code1) b2 b :=
      agreeBelow_mono hab (levelAfter_initial code1 code 0 g1)
    exact ⟨code1, b1, g1, g2, g3, agreeBelow_trans hab1 g4, ih code1 b b2 hab1 g5⟩

/-- Every choice point of a sound stack: the walk to it, its execution, and
the agreement of the bindings. -/
theorem stackOK_mem (mem : List CodeBlock) (root : Ptr) (ft : List FlatTerm.Entry)
    (b0 : Bindings) (s : List BTPoint) :
    ∀ (code : List Instruction) (b : Bindings), StackOK mem root ft b0 code s b →
      ∀ bp ∈ s, ∃ code1 b1, code1 <+: code ∧ PathTo mem root code1 bp.op ∧
        execCode ft code1 0 b0 = .ok (some (bp.tp, b1)) ∧
        Bindings.agreeBelow (levelAfter 0 code1) b b1 := by
  induction s with
  | nil => intro code b _ bp hbp; cases hbp
  | cons x rest ih =>
    intro code b h bp hbp
    obtain ⟨code1, b1, g1, g2, g3, g4, g5⟩ := h
    rw [List.mem_cons] at hbp
    rcases hbp with hbp | hbp
    · subst hbp
      exact ⟨code1, b1, g1, g2, g3, g4⟩
    · obtain ⟨code2, b2, k1, k2, k3, k4⟩ := ih code1 b g5 bp hbp
      exact ⟨code2, b2, k1.trans g1, k2, k3, k4⟩

/-- A beginning of a beginning of a sequence with slot discipline. -/
theorem disc_of_initial (code1 code : List Instruction) (h : code1 <+: code)
    (hd : ∃ w, Disc 0 (code ++ w)) : ∃ w, Disc 0 (code1 ++ w) := by
  obtain ⟨u, rfl⟩ := h
  obtain ⟨w, hw⟩ := hd
  exact ⟨u ++ w, by rw [← List.append_assoc]; exact hw⟩

/-- The slots assigned by a beginning of a sequence with slot discipline are
the slots below its level. -/
theorem assigned_below (code : List Instruction) (hd : ∃ w, Disc 0 (code ++ w)) (v : Nat) :
    v ∈ assignedSlots code ↔ v < levelAfter 0 code := by
  obtain ⟨w, hw⟩ := hd
  obtain ⟨_, h2⟩ := disc_assigned code 0 w hw
  rw [h2]
  simp

/-- The instructions on a walk from the root of a term tree, with the
instruction under the cursor, begin the code of an inserted pattern. -/
theorem path_disc (tree : CodeTree) (ps : List TermList) (t : Trie) (root : Nat)
    (hinv : TreeInv tree ps t) (hroot : tree._data = some root) (code : List Instruction)
    (q : Ptr) (i : Instruction) (alt : Option Ptr)
    (hp : PathTo tree.mem ⟨root, 0⟩ code q) (hd : deref tree.mem q = .ok ⟨i, alt⟩) :
    ∃ w, Disc 0 ((code ++ [i]) ++ w) := by
  obtain ⟨hrep, hsh, hto, _, _, hperm, _⟩ := treeInv_paths tree ps t root hinv hroot
  obtain ⟨_, sq, hsq, hpre⟩ := pathTo_paths tree.mem _ q _ hp t hrep hsh hto _ alt hd
  obtain ⟨p1, _, hp1⟩ := (paths_pattern ps t hperm).1 sq hsq
  obtain ⟨w, hw⟩ := hpre
  refine ⟨w, ?_⟩
  rw [hw, hp1]
  exact patternCode_disc p1

/-- Slot discipline in terms of the instructions of a sequence: no slot is
assigned twice, and a variable check is preceded by the assignment of its
slot. -/
theorem disc_static (code : List Instruction) (hd : ∃ w, Disc 0 (code ++ w)) :
    (assignedSlots code).Nodup ∧
    ∀ c1 v c2, code = c1 ++ Instruction.CHECK_VAR v :: c2 → Instruction.ASSIGN_VAR v ∈ c1 := by
  constructor
  · obtain ⟨w, hw⟩ := hd
    obtain ⟨_, h2⟩ := disc_assigned code 0 w hw
    rw [h2]
    simp only [Nat.zero_add, List.map_id', Nat.sub_zero]
    exact List.nodup_range _
  · intro c1 v c2 hc
    obtain ⟨w, hw⟩ := hd
    rw [hc, List.append_assoc, List.cons_append] at hw
    have h1 : v < levelAfter 0 c1 := disc_at c1 0 _ _ hw
    rw [← mem_assignedSlots]
    exact (assigned_below c1 ⟨_, hw⟩ v).2 h1

/-- Backtracking into a sound stack gives a context in order. -/
theorem backtrack_runOK (mem : List CodeBlock) (root : Ptr) (ft : List FlatTerm.Entry)
    (b0 : Bindings) (code : List Instruction) (x c2 : EContext) (hft : x.ft = ft)
    (hdisc : ∃ w, Disc 0 (code ++ w))
    (hst : StackOK mem root ft b0 code x.btStack x.bindings)
    (hb : x.backtrack = some c2) : RunOK mem root ft b0 c2 := by
  unfold EContext.backtrack at hb
  cases hs : x.btStack with
  | nil => rw [hs] at hb; cases hb
  | cons bp rest =>
    rw [hs] at hb hst
    simp only [Option.some.injEq] at hb
    subst hb
    obtain ⟨code1, b1, g1, g2, g3, g4, g5⟩ := hst
    exact ⟨hft, code1, b1, disc_of_initial code1 code g1 hdisc, g2, g3, g4, g5⟩

/-- The stack after the push of the alternative is sound. -/
theorem pushAlt_stackOK (mem : List CodeBlock) (root : Ptr) (ft : List FlatTerm.Entry)
    (b0 : Bindings) (code : List Instruction) (c : EContext) (i : Instruction)
    (alt : Option Ptr) (b1 : Bindings) (hd : deref mem c.op = .ok ⟨i, alt⟩)
    (hp : PathTo mem root code c.op)
    (he : execCode ft code 0 b0 = .ok (some (c.tp, b1)))
    (hab : Bindings.agreeBelow (levelAfter 0 code) c.bindings b1)
    (hst : StackOK mem root ft b0 code c.btStack c.bindings) :
    StackOK mem root ft b0 code (c.pushAlt alt).btStack c.bindings := by
  cases alt with
  | none => exact hst
  | some a =>
    exact ⟨code, b1, List.prefix_refl _, pathTo_alt_end mem root c.op a code i hp hd, he, hab, hst⟩

/-- One pass through the body of the loop of `next` on a term tree keeps the
state of the context in order, and writes no slot assigned on the walk to the
instruction. -/
theorem loopBody_runOK (tree : CodeTree) (ps : List TermList) (t : Trie) (root : Nat)
    (hinv : TreeInv tree ps t) (hroot : tree._data = some root) (ft : List FlatTerm.Entry)
    (b0 : Bindings) (c : EContext) (res : Nat) (step : LoopStep)
    (code : List Instruction) (b1 : Bindings) (hft : c.ft = ft)
    (hp : PathTo tree.mem ⟨root, 0⟩ code c.op)
    (he : execCode ft code 0 b0 = .ok (some (c.tp, b1)))
    (hab : Bindings.agreeBelow (levelAfter 0 code) c.bindings b1)
    (hst : StackOK tree.mem ⟨root, 0⟩ ft b0 code c.btStack c.bindings)
    (h : TermCodeTree.loopBody tree.mem c res = .ok step) :
    Bindings.agreeBelow (levelAfter 0 code) step.ctx.bindings c.bindings ∧
    (∀ c1, step = .again c1 → RunOK tree.mem ⟨root, 0⟩ ft b0 c1) ∧
    (∀ r c1 c2, step = .ret true r c1 → c1.backtrack = some c2 →
      RunOK tree.mem ⟨root, 0⟩ ft b0 c2) := by
  cases hd : deref tree.mem c.op with
  | fault f =>
    unfold TermCodeTree.loopBody at h
    rw [hd] at h
    cases h
  | ok op =>
    obtain ⟨i, alt⟩ := op
    obtain ⟨w, hw⟩ := path_disc tree ps t root hinv hroot code c.op i alt hp hd
    have hdisc0 : ∃ w, Disc 0 (code ++ w) := ⟨[i] ++ w, by rw [← List.append_assoc]; exact hw⟩
    have hdi : i.disc (levelAfter 0 code) := by
      rw [List.append_assoc, List.singleton_append] at hw
      exact disc_at code 0 i w hw
    obtain ⟨f1, f2, f3, f4, f5⟩ := pushAlt_fields c alt
    have hpst := pushAlt_stackOK tree.mem ⟨root, 0⟩ ft b0 code c i alt b1 hd hp he hab hst
    have hpft : (c.pushAlt alt).ft = ft := by rw [f5]; exact hft
    rw [loopBody_eq tree.mem c res i alt hd] at h
    -- a failing instruction
    have hfail : TermCodeTree.afterInstr res (false, c.pushAlt alt) = step →
        Bindings.agreeBelow (levelAfter 0 code) step.ctx.bindings c.bindings ∧
        (∀ c1, step = .again c1 → RunOK tree.mem ⟨root, 0⟩ ft b0 c1) ∧
        (∀ r c1 c2, step = .ret true r c1 → c1.backtrack = some c2 →
          RunOK tree.mem ⟨root, 0⟩ ft b0 c2) := by
      intro hs
      unfold TermCodeTree.afterInstr at hs
      simp only [Bool.false_eq_true, if_false] at hs
      cases hb : (c.pushAlt alt).backtrack with
      | none =>
        rw [hb] at hs
        simp only [] at hs
        subst hs
        refine ⟨?_, fun c1 h1 => (by cases h1), fun r c1 c2 h1 => by cases h1⟩
        show Bindings.agreeBelow _ (c.pushAlt alt).bindings c.bindings
        rw [f4]
        exact agreeBelow_refl _ _
      | some c2 =>
        rw [hb] at hs
        simp only [] at hs
        subst hs
        have hb2 : c2.bindings = c.bindings := by
          unfold EContext.backtrack at hb
          cases hst2 : (c.pushAlt alt).btStack with
          | nil => rw [hst2] at hb; cases hb
          | cons bp rest =>
            rw [hst2] at hb
            simp only [Option.some.injEq] at hb
            rw [← hb]
            exact f4
        refine ⟨?_, fun c1 h1 => ?_, fun r c1 c3 h1 => by cases h1⟩
        · show Bindings.agreeBelow _ c2.bindings c.bindings
          rw [hb2]
          exact agreeBelow_refl _ _
        · simp only [LoopStep.again.injEq] at h1
          subst h1
          exact backtrack_runOK tree.mem ⟨root, 0⟩ ft b0 code (c.pushAlt alt) _ hpft hdisc0
            (by rw [f4]; exact hpst) hb
    have hgen : ∀ (j : Instruction), i = j →
        (match execInstr c.ft j c.tp c.bindings with
          | .fault e => Run.fault e
          | .ok none => .ok (TermCodeTree.afterInstr res (false, c.pushAlt alt))
          | .ok (some (tp1, b2)) =>
            .ok (TermCodeTree.afterInstr res
              (true, { c.pushAlt alt with tp := tp1, bindings := b2 }))) = .ok step →
        Bindings.agreeBelow (levelAfter 0 code) step.ctx.bindings c.bindings ∧
        (∀ c1, step = .again c1 → RunOK tree.mem ⟨root, 0⟩ ft b0 c1) ∧
        (∀ r c1 c2, step = .ret true r c1 → c1.backtrack = some c2 →
          RunOK tree.mem ⟨root, 0⟩ ft b0 c2) := by
      intro j hij h
      subst hij
      cases hex : execInstr c.ft i c.tp c.bindings with
      | fault e => rw [hex] at h; cases h
      | ok o =>
        rw [hex] at h
        cases o with
        | none =>
          simp only [Run.ok.injEq] at h
          exact hfail h
        | some x =>
          obtain ⟨tp1, b2⟩ := x
          simp only [Run.ok.injEq] at h
          unfold TermCodeTree.afterInstr at h
          simp only [if_true] at h
          subst h
          have hself := execInstr_agree_self c.ft i _ c.tp c.bindings hdi tp1 b2 hex
          refine ⟨hself, fun c1 h1 => ?_, fun r c1 c3 h1 => by cases h1⟩
          simp only [LoopStep.again.injEq] at h1
          subst h1
          rw [hft] at hex
          obtain ⟨b3, h3, hag3⟩ := (execInstr_agree ft i _ c.tp c.bindings b1 hdi
            (agreeBelow_symm hab)).2 tp1 b2 hex
          refine ⟨hpft, code ++ [i], b3, ⟨w, hw⟩, ?_, ?_, ?_, ?_⟩
          · show PathTo tree.mem ⟨root, 0⟩ (code ++ [i])
              ⟨(c.pushAlt alt).op.blk, (c.pushAlt alt).op.ofs + 1⟩
            rw [f3]
            exact pathTo_step_end tree.mem ⟨root, 0⟩ c.op code i alt hp hd
          · rw [execCode_append, he]
            simp only [execCode_cons, h3, execCode]
          · show Bindings.agreeBelow (levelAfter 0 (code ++ [i])) b2 b3
            rw [levelAfter_append]
            exact agreeBelow_symm hag3
          · show StackOK tree.mem ⟨root, 0⟩ ft b0 (code ++ [i]) (c.pushAlt alt).btStack b2
            apply stackOK_mono tree.mem ⟨root, 0⟩ ft b0 code _ _ b2 (List.prefix_append _ _)
            exact stackOK_bindings tree.mem ⟨root, 0⟩ ft b0 _ code c.bindings b2 hself hpst
    cases i with
    | SUCCESS r =>
      simp only [loopBodySpec, Run.ok.injEq] at h
      subst h
      refine ⟨?_, fun c1 h1 => (by cases h1), fun r1 c1 c2 h1 hb => ?_⟩
      · show Bindings.agreeBelow _ (c.pushAlt alt).bindings c.bindings
        rw [f4]
        exact agreeBelow_refl _ _
      · simp only [LoopStep.ret.injEq, true_and] at h1
        obtain ⟨_, h1⟩ := h1
        subst h1
        exact backtrack_runOK tree.mem ⟨root, 0⟩ ft b0 code (c.pushAlt alt) _ hpft hdisc0
          (by rw [f4]; exact hpst) hb
    | NEXT_LIT => simp [loopBodySpec] at h
    | FAIL =>
      simp only [loopBodySpec, execInstr, Run.ok.injEq] at h
      exact hfail h
    | CHECK_FUN f => exact hgen (.CHECK_FUN f) rfl h
    | ASSIGN_VAR v => exact hgen (.ASSIGN_VAR v) rfl h
    | CHECK_VAR v => exact hgen (.CHECK_VAR v) rfl h

end Indexing


namespace Indexing

open Kernel

/-- Every context at the head of the loop of `next` on a term tree is in
order with respect to the query and the table that `init` gave. -/
theorem visits_runOK (tree : CodeTree) (ps : List TermList) (t : Trie) (root : Nat)
    (hinv : TreeInv tree ps t) (hroot : tree._data = some root) (q : TermList) (ctx0 : EContext)
    (hi : TermCodeTree.init tree q = .ok ctx0) (c : EContext)
    (hv : Visits tree.mem ctx0 c) :
    RunOK tree.mem ⟨root, 0⟩ ctx0.ft ctx0.bindings c := by
  induction hv with
  | start =>
    unfold TermCodeTree.init at hi
    rw [hroot] at hi
    simp only [Run.ok.injEq] at hi
    subst hi
    exact ⟨rfl, [], _, ⟨[], trivial⟩, PathTo.here _, rfl, agreeBelow_refl _ _, trivial⟩
  | again c c1 res _ hl ih =>
    obtain ⟨hft, code, b1, _, hp, he, hab, hst⟩ := ih
    exact (loopBody_runOK tree ps t root hinv hroot _ _ c res _ code b1 hft hp he hab hst hl).2.1
      c1 rfl
  | resume c c1 c2 res r _ hl hb ih =>
    obtain ⟨hft, code, b1, _, hp, he, hab, hst⟩ := ih
    exact (loopBody_runOK tree ps t root hinv hroot _ _ c res _ code b1 hft hp he hab hst hl).2.2
      r c1 c2 rfl hb

/-- Claim C20: in a tree built by inserting term patterns, on every walk from
the root to an instruction no slot is assigned by two ASSIGN_VAR instructions
and every CHECK_VAR(v) comes after an ASSIGN_VAR(v); and in every context that
the loop of `next` comes to (the contexts that resume at a choice point among
them) the instruction pointer is reached by a walk from the root whose
straight execution on the query from the table of `init` leads to the query
position of the context, and every slot assigned on this walk holds the value
that this execution gave it; the same holds for every choice point that waits
on the stack; and a pass through the loop body changes no slot assigned on the
walk to its instruction. -/
theorem C20_bindings_survive_backtracking (ps : List TermList) (tree : CodeTree) (root : Nat)
    (h : TermCodeTree.insertAll CodeTree.empty ps = .ok tree)
    (hroot : tree._data = some root) :
    (∀ code q i alt, PathTo tree.mem ⟨root, 0⟩ code q → deref tree.mem q = .ok ⟨i, alt⟩ →
      (assignedSlots (code ++ [i])).Nodup ∧
      ∀ c1 v c2, code ++ [i] = c1 ++ Instruction.CHECK_VAR v :: c2 →
        Instruction.ASSIGN_VAR v ∈ c1) ∧
    (∀ t ctx0, TermCodeTree.init tree t = .ok ctx0 → ∀ c, Visits tree.mem ctx0 c →
      ∃ code b1, PathTo tree.mem ⟨root, 0⟩ code c.op ∧
        execCode ctx0.ft code 0 ctx0.bindings = .ok (some (c.tp, b1)) ∧
        (∀ v ∈ assignedSlots code, c.bindings.get? v = b1.get? v) ∧
        (∀ res step, TermCodeTree.loopBody tree.mem c res = .ok step →
          ∀ v ∈ assignedSlots code, step.ctx.bindings.get? v = c.bindings.get? v) ∧
        (∀ bp ∈ c.btStack, ∃ code1 b2, PathTo tree.mem ⟨root, 0⟩ code1 bp.op ∧
          execCode ctx0.ft code1 0 ctx0.bindings = .ok (some (bp.tp, b2)) ∧
          ∀ v ∈ assignedSlots code1, c.bindings.get? v = b2.get? v)) := by
  obtain ⟨t, hinv, _⟩ := insertAll_inv ps CodeTree.empty [] .nil tree treeInv_empty h
  constructor
  · intro code q i alt hp hd
    exact disc_static _ (path_disc tree _ t root hinv hroot code q i alt hp hd)
  · intro q ctx0 hi c hv
    obtain ⟨hft, code, b1, hdisc, hp, he, hab, hst⟩ :=
      visits_runOK tree _ t root hinv hroot q ctx0 hi c hv
    refine ⟨code, b1, hp, he, ?_, ?_, ?_⟩
    · intro v hv1
      exact hab.2 v ((assigned_below code hdisc v).1 hv1)
    · intro res step hl v hv1
      exact (loopBody_runOK tree _ t root hinv hroot _ _ c res step code b1 hft hp he hab hst
        hl).1.2 v ((assigned_below code hdisc v).1 hv1)
    · intro bp hbp
      obtain ⟨code1, b2, g1, g2, g3, g4⟩ :=
        stackOK_mem tree.mem ⟨root, 0⟩ _ _ c.btStack code c.bindings hst bp hbp
      refine ⟨code1, b2, g2, g3, fun v hv1 => ?_⟩
      exact g4.2 v ((assigned_below code1 (disc_of_initial code1 code g1 hdisc) v).1 hv1)

/-- The statement of C20 at the tree of f(X,Y) and f(X,X), for the walks from
its root. -/
theorem C20_bindings_survive_backtracking_witness :
    TermCodeTree.insertAll CodeTree.empty [.term 0 [.var 0, .var 1], .term 0 [.var 0, .var 0]] =
      .ok ⟨2, some 0,
        [[⟨.CHECK_FUN 0, none⟩, ⟨.ASSIGN_VAR 0, none⟩, ⟨.ASSIGN_VAR 1, some ⟨1, 0⟩⟩,
            ⟨.SUCCESS 0, none⟩],
          [⟨.CHECK_VAR 0, none⟩, ⟨.SUCCESS 0, none⟩]]⟩ ∧
    (∀ code q i alt,
      PathTo [[⟨.CHECK_FUN 0, none⟩, ⟨.ASSIGN_VAR 0, none⟩, ⟨.ASSIGN_VAR 1, some ⟨1, 0⟩⟩,
            ⟨.SUCCESS 0, none⟩],
          [⟨.CHECK_VAR 0, none⟩, ⟨.SUCCESS 0, none⟩]] ⟨0, 0⟩ code q →
      deref [[⟨.CHECK_FUN 0, none⟩, ⟨.ASSIGN_VAR 0, none⟩, ⟨.ASSIGN_VAR 1, some ⟨1, 0⟩⟩,
            ⟨.SUCCESS 0, none⟩],
          [⟨.CHECK_VAR 0, none⟩, ⟨.SUCCESS 0, none⟩]] q = .ok ⟨i, alt⟩ →
      (assignedSlots (code ++ [i])).Nodup ∧
      ∀ c1 v c2, code ++ [i] = c1 ++ Instruction.CHECK_VAR v :: c2 →
        Instruction.ASSIGN_VAR v ∈ c1) :=
  ⟨by decide,
    (C20_bindings_survive_backtracking [.term 0 [.var 0, .var 1], .term 0 [.var 0, .var 0]]
      ⟨2, some 0,
        [[⟨.CHECK_FUN 0, none⟩, ⟨.ASSIGN_VAR 0, none⟩, ⟨.ASSIGN_VAR 1, some ⟨1, 0⟩⟩,
            ⟨.SUCCESS 0, none⟩],
          [⟨.CHECK_VAR 0, none⟩, ⟨.SUCCESS 0, none⟩]]⟩ 0 (by decide) rfl).1⟩

end Indexing


namespace Kernel

open Indexing (Run Fault)
open Example

/-- Two arrangements of the same entries differ by a permutation of the
indices. -/
theorem perm_get {α : Type} (l1 l2 : List α) (h : l1.Perm l2) :
    ∃ π : Equiv.Perm Nat, ∀ k, l1.get? k = l2.get? (π k) := by
  induction h with
  | nil => exact ⟨Equiv.refl _, fun _ => rfl⟩
  | cons x _ ih =>
    obtain ⟨π, hπ⟩ := ih
    refine ⟨consPerm π, fun k => ?_⟩
    cases k with
    | zero => rfl
    | succ k =>
      show _ = List.get? _ (π k + 1)
      simp only [List.get?_cons_succ]
      exact hπ k
  | swap x y l =>
    refine ⟨Equiv.swap 0 1, fun k => ?_⟩
    match k with
    | 0 => rfl
    | 1 => rfl
    | k + 2 =>
      rw [Equiv.swap_apply_of_ne_of_ne (by omega) (by omega)]
      rfl
  | trans _ _ ih1 ih2 =>
    obtain ⟨π1, h1⟩ := ih1
    obtain ⟨π2, h2⟩ := ih2
    exact ⟨π1.trans π2, fun k => by rw [h1, h2]; rfl⟩

/-- The base literals and the lists of alternatives of two arrangements of the
same pairs, read through a permutation of the indices. -/
theorem zip_perm_get (l1 l2 : List Literal) (a1 a2 : List (List Literal))
    (hlen1 : a1.length = l1.length) (hlen2 : a2.length = l2.length)
    (h : (l1.zip a1).Perm (l2.zip a2)) :
    ∃ π : Equiv.Perm Nat, ∀ k, l1.get? k = l2.get? (π k) ∧ a1.get? k = a2.get? (π k) := by
  obtain ⟨π, hπ⟩ := perm_get _ _ h
  refine ⟨π, fun k => ⟨?_, ?_⟩⟩
  · have e1 : l1 = (l1.zip a1).map Prod.fst := (List.map_fst_zip _ _ (by omega)).symm
    have e2 : l2 = (l2.zip a2).map Prod.fst := (List.map_fst_zip _ _ (by omega)).symm
    have hk := hπ k
    simp only [List.get?_eq_getElem?] at hk ⊢
    rw [e1, e2, List.getElem?_map, List.getElem?_map, hk]
  · have e1 : a1 = (l1.zip a1).map Prod.snd := (List.map_snd_zip _ _ (by omega)).symm
    have e2 : a2 = (l2.zip a2).map Prod.snd := (List.map_snd_zip _ _ (by omega)).symm
    have hk := hπ k
    simp only [List.get?_eq_getElem?] at hk ⊢
    rw [e1, e2, List.getElem?_map, List.getElem?_map, hk]

/-- Whether there is a choice of alternatives does not depend on the
arrangement of the base literals with their lists of alternatives. -/
theorem matching_arrangement (multiset : Bool) (instCl : Clause) (r : Option Literal)
    (l1 l2 : List Literal) (a1 a2 : List (List Literal))
    (hlen1 : a1.length = l1.length) (hlen2 : a2.length = l2.length)
    (h : (l1.zip a1).Perm (l2.zip a2)) :
    (∃ σ, Matching multiset instCl r l1 a1 σ) ↔ (∃ σ, Matching multiset instCl r l2 a2 σ) := by
  obtain ⟨π, hπ⟩ := zip_perm_get l1 l2 a1 a2 hlen1 hlen2 h
  have hs : ∀ k, slotOf instCl r l1 a1 k = slotOf instCl r l2 a2 (π k) := by
    intro k
    unfold slotOf
    rw [(hπ k).1, (hπ k).2]
  have hπ2 : ∀ k, l2.get? k = l1.get? (π.symm k) := by
    intro k
    rw [(hπ (π.symm k)).1, Equiv.apply_symm_apply]
  have hs2 : ∀ k, slotOf instCl r l2 a2 k = slotOf instCl r l1 a1 (π.symm k) := by
    intro k
    rw [hs (π.symm k), Equiv.apply_symm_apply]
  constructor
  · rintro ⟨σ, hσ⟩
    exact ⟨_, matching_perm multiset instCl r l1 l2 a1 a2 π (fun k => (hπ k).1) hs σ hσ⟩
  · rintro ⟨σ, hσ⟩
    exact ⟨_, matching_perm multiset instCl r l2 l1 a2 a1 π.symm hπ2 hs2 σ hσ⟩

/-- Proper input stays proper in any arrangement. -/
theorem properAlts_perm (instCl : Clause) (r : Option Literal) (l1 l2 : List Literal)
    (a1 a2 : List (List Literal)) (h : (l1.zip a1).Perm (l2.zip a2))
    (hp : properAlts instCl r l2 a2 = true) : properAlts instCl r l1 a1 = true := by
  unfold properAlts at hp ⊢
  rw [List.all_eq_true] at hp ⊢
  intro x hx
  exact hp x (h.mem_iff.1 hx)

/-- A boolean that `canBeMatched` returns on proper input tells whether there
is a choice of alternatives, whatever the fuel and the time limit. -/
theorem canBeMatched_result (baseLits : List Literal) (instCl : Clause)
    (alts : List (List Literal)) (resolvedLit : Option Literal) (multiset : Bool)
    (hne : baseLits ≠ []) (hlen : baseLits.length ≤ alts.length)
    (h32 : baseLits.length ≤ unclaimed)
    (hproper : properAlts instCl resolvedLit baseLits alts = true)
    (hass : ¬ (resolvedLit.isSome ∧ multiset = true)) (tl : Nat → Bool) (fuel : Nat) (b : Bool)
    (h : MLMatcher.canBeMatched fuel tl baseLits instCl alts resolvedLit multiset = .result b) :
    b = true ↔ ∃ σ, Matching multiset instCl resolvedLit baseLits alts σ := by
  obtain ⟨n, hn⟩ := canBeMatched_correct baseLits instCl alts resolvedLit multiset hne hlen h32
    hproper hass
  have h1 := canBeMatched_mono fuel (max fuel n) (Nat.le_max_left _ _) tl baseLits instCl alts
    resolvedLit multiset b h
  rcases hn tl (max fuel n) (Nat.le_max_right _ _) with ⟨b1, g1, g2⟩ | g
  · rw [h1] at g1
    cases g1
    exact g2
  · rw [h1] at g
    cases g

/-- Claim C11: on proper input (at least one and fewer than 2^32 base
literals, a list of alternatives for each on which `createLiteralBindings`
raises no assertion, not both a resolved literal and multiset mode) the result
of `canBeMatched` does not depend on the order of the base literals: for any
arrangement of the pairs of a base literal and its list of alternatives, with
enough fuel and a time limit that is never reached both calls return the same
boolean, and with any fuel and any time limit two booleans that the calls
return are equal. -/
theorem C11_order_independence (baseLits baseLits1 : List Literal) (instCl : Clause)
    (alts alts1 : List (List Literal)) (resolvedLit : Option Literal) (multiset : Bool)
    (hne : baseLits ≠ []) (hlen : alts.length = baseLits.length)
    (hlen1 : alts1.length = baseLits1.length) (h32 : baseLits.length ≤ unclaimed)
    (hproper : properAlts instCl resolvedLit baseLits alts = true)
    (hass : ¬ (resolvedLit.isSome ∧ multiset = true))
    (hperm : (baseLits1.zip alts1).Perm (baseLits.zip alts)) :
    (∃ n, ∀ fuel, n ≤ fuel →
      ∃ res,
        MLMatcher.canBeMatched fuel (fun _ => false) baseLits instCl alts resolvedLit multiset
          = .result res ∧
        MLMatcher.canBeMatched fuel (fun _ => false) baseLits1 instCl alts1 resolvedLit multiset
          = .result res) ∧
    (∀ (tl tl1 : Nat → Bool) (fuel fuel1 : Nat) (res res1 : Bool),
      MLMatcher.canBeMatched fuel tl baseLits instCl alts resolvedLit multiset = .result res →
      MLMatcher.canBeMatched fuel1 tl1 baseLits1 instCl alts1 resolvedLit multiset
        = .result res1 →
      res = res1) := by
  have hl : baseLits1.length = baseLits.length := by
    have := hperm.length_eq
    simp only [List.length_zip, hlen, hlen1, Nat.min_self] at this
    exact this
  have hne1 : baseLits1 ≠ [] := by
    intro hc
    rw [hc] at hl
    exact hne (List.length_eq_zero.1 hl.symm)
  have hproper1 := properAlts_perm instCl resolvedLit baseLits1 baseLits alts1 alts hperm hproper
  have hiff := matching_arrangement multiset instCl resolvedLit baseLits1 baseLits alts1 alts
    hlen1 hlen hperm
  have key : ∀ (tl tl1 : Nat → Bool) (fuel fuel1 : Nat) (res res1 : Bool),
      MLMatcher.canBeMatched fuel tl baseLits instCl alts resolvedLit multiset = .result res →
      MLMatcher.canBeMatched fuel1 tl1 baseLits1 instCl alts1 resolvedLit multiset
        = .result res1 →
      res = res1 := by
    intro tl tl1 fuel fuel1 res res1 h1 h2
    have g1 := canBeMatched_result baseLits instCl alts resolvedLit multiset hne
      (by omega) h32 hproper hass tl fuel res h1
    have g2 := canBeMatched_result baseLits1 instCl alts1 resolvedLit multiset hne1
      (by omega) (by omega) hproper1 hass tl1 fuel1 res1 h2
    have : res = true ↔ res1 = true := by rw [g1, g2, hiff]
    cases res <;> cases res1 <;> simp at this ⊢
  refine ⟨?_, key⟩
  obtain ⟨n, hn⟩ := canBeMatched_decides baseLits instCl alts resolvedLit multiset hne
    (by omega) h32 hproper hass
  obtain ⟨n1, hn1⟩ := canBeMatched_decides baseLits1 instCl alts1 resolvedLit multiset hne1
    (by omega) (by omega) hproper1 hass
  refine ⟨max n n1, fun fuel hfuel => ?_⟩
  obtain ⟨res, g1, _⟩ := hn fuel (by omega)
  obtain ⟨res1, g2, _⟩ := hn1 fuel (by omega)
  have := key _ _ fuel fuel res res1 g1 g2
  subst this
  exact ⟨res, g1, g2⟩

/-- The statement of C11 at the base {P(X), Q(X)} with the alternatives P(a)
and Q(a), and the same base in the other order. -/
theorem C11_order_independence_witness :
    ([Q [X], P [X]].zip [[Q [a]], [P [a]]]).Perm ([P [X], Q [X]].zip [[P [a]], [Q [a]]]) ∧
    properAlts [P [a], Q [a]] none [P [X], Q [X]] [[P [a]], [Q [a]]] = true ∧
    ∃ n, ∀ fuel, n ≤ fuel →
      ∃ res,
        MLMatcher.canBeMatched fuel (fun _ => false) [P [X], Q [X]] [P [a], Q [a]]
          [[P [a]], [Q [a]]] none false = .result res ∧
        MLMatcher.canBeMatched fuel (fun _ => false) [Q [X], P [X]] [P [a], Q [a]]
          [[Q [a]], [P [a]]] none false = .result res :=
  ⟨List.Perm.swap _ _ _, by decide,
    (C11_order_independence [P [X], Q [X]] [Q [X], P [X]] [P [a], Q [a]]
      [[P [a]], [Q [a]]] [[Q [a]], [P [a]]] none false (by decide) rfl rfl (by decide)
      (by decide) (by decide) (List.Perm.swap _ _ _)).1⟩

end Kernel


namespace Indexing

open Kernel

/-- The last step of a walk over a non-empty instruction sequence: the walk
passes the instruction `i` at a pointer `q` and then only follows alternative
links from the entry behind `q`. -/
theorem pathTo_snoc (mem : List CodeBlock) (r q1 : Ptr) (code : List Instruction)
    (h : PathTo mem r code q1) :
    ∀ (c : List Instruction) (i : Instruction), code = c ++ [i] →
      ∃ q alt, PathTo mem r c q ∧ deref mem q = .ok ⟨i, alt⟩ ∧
        PathTo mem ⟨q.blk, q.ofs + 1⟩ [] q1 := by
  induction h with
  | here p =>
    intro c i hc
    cases c <;> cases hc
  | step p i0 alt rest q h0 hrest ih =>
    intro c i hc
    cases c with
    | nil =>
      simp only [List.nil_append, List.cons.injEq] at hc
      obtain ⟨h1, h2⟩ := hc
      subst h1
      subst h2
      exact ⟨p, alt, PathTo.here p, h0, hrest⟩
    | cons x c1 =>
      simp only [List.cons_append, List.cons.injEq] at hc
      obtain ⟨h1, h2⟩ := hc
      subst h1
      obtain ⟨q0, alt0, g1, g2, g3⟩ := ih c1 i h2
      exact ⟨q0, alt0, PathTo.step p i0 alt c1 q0 h0 g1, g2, g3⟩
  | alt p a i0 code q h0 _ ih =>
    intro c i hc
    obtain ⟨q0, alt0, g1, g2, g3⟩ := ih c i hc
    exact ⟨q0, alt0, PathTo.alt p a i0 c q0 h0 g1, g2, g3⟩

/-- In a tree built by insertions a SUCCESS is the last entry of its block:
the entry behind it does not exist. -/
theorem success_last (tree : CodeTree) (hinv : TreeOK tree) (q : Ptr) (r : Nat)
    (alt : Option Ptr) (hd : deref tree.mem q = .ok ⟨.SUCCESS r, alt⟩) :
    deref tree.mem ⟨q.blk, q.ofs + 1⟩ = .fault .outOfBounds := by
  obtain ⟨blk, h1, h2⟩ := deref_ok_get tree.mem q _ hd
  obtain ⟨body, hb, hprops⟩ := treeOK_block tree hinv q.blk blk h1
  have hi := instrsOf_get blk q.ofs _ h2
  rw [hb] at hi
  have hlen : blk.length = body.length + 1 := by
    rw [← instrsOf_length, hb]
    simp
  have hofs : q.ofs < blk.length := by
    by_contra hc
    rw [List.getElem?_eq_none (by omega)] at h2
    cases h2
  have hge : ¬ q.ofs < body.length := by
    intro hlt
    rw [List.getElem?_append_left hlt] at hi
    have := (hprops _ (List.getElem?_mem hi)).1
    cases this
  rw [deref_eq]
  simp only [h1, Option.some_bind]
  rw [List.getElem?_eq_none (by omega)]
  rfl

/-- The cursor after a walk over all of a sequence that ends with SUCCESS is
behind the end of a block. -/
theorem full_walk_cursor (tree : CodeTree) (hinv : TreeOK tree) (root q1 : Ptr)
    (c : List Instruction) (r : Nat) (h : PathTo tree.mem root (c ++ [.SUCCESS r]) q1) :
    deref tree.mem q1 = .fault .outOfBounds := by
  obtain ⟨q, alt, _, g2, g3⟩ := pathTo_snoc tree.mem root q1 _ h c _ rfl
  have hf := success_last tree hinv q r alt g2
  obtain ⟨_, hq⟩ := pathTo_fault tree.mem _ q1 [] _ hf g3
  rw [hq]
  exact hf

/-- The instruction sequence of a pattern, and the code that `compile` pushes
for it on any tree. -/
theorem compilePattern_code (tree : CodeTree) (pat : Pattern) :
    (tree.compilePattern pat).1 = pat.code.map OpCode.mk0 ∧
    ∃ body, pat.code = body ++ [Instruction.SUCCESS 0] := by
  obtain ⟨body, hb, _⟩ := compile_props pat
  have hc : pat.code = body ++ [Instruction.SUCCESS 0] := by
    unfold Pattern.code
    rw [hb, instrsOf_map_mk0]
  refine ⟨?_, body, hc⟩
  rw [(compilePattern_tree tree pat).1, hb, hc]

/-- Claim C18, as the code behaves: in a tree built by compiling and
incorporating patterns, the cursor after a walk of `incorporate` over all the
instructions of a compiled sequence is not at the final SUCCESS of the path
but one entry behind it, behind the end of the block, so that the instruction
that the duplicate branch inspects is read out of bounds; a call of
`incorporate` that gives a tree has therefore stopped at an instruction that
differs from an instruction of the sequence and has hung the rest of the
sequence there. Inserting f(a), f(b) and again f(a), or the clause P(X) twice,
ends in the read out of bounds, and no block is linked. -/
theorem C18_full_match_reads_past_block :
    (∀ (pats : List Pattern) (tree : CodeTree) (root : Nat) (pat : Pattern),
      CodeTree.insertPatterns CodeTree.empty pats = .ok tree → tree._data = some root →
      (∀ q1, PathTo tree.mem ⟨root, 0⟩ pat.code q1 →
        deref tree.mem q1 = .fault .outOfBounds) ∧
      (∀ tree1, tree.insertPattern pat = .ok tree1 →
        ∃ j q i, j < pat.code.length ∧ PathTo tree.mem ⟨root, 0⟩ (pat.code.take j) q ∧
          deref tree.mem q = .ok ⟨i, none⟩ ∧ pat.code.get? j ≠ some i ∧
          tree1.mem = setAlternative (tree.mem ++ [(pat.code.drop j).map OpCode.mk0]) q
            ⟨tree.mem.length, 0⟩)) ∧
    CodeTree.insertPatterns CodeTree.empty
      [.term (.term 0 [.term 1 []]), .term (.term 0 [.term 2 []]),
        .term (.term 0 [.term 1 []])] = .fault .outOfBounds ∧
    CodeTree.insertPatterns CodeTree.empty
      [.clause [⟨3, true, [.var 0]⟩], .clause [⟨3, true, [.var 0]⟩]] = .fault .outOfBounds := by
  refine ⟨?_, by decide, by decide⟩
  intro pats tree root pat h hroot
  obtain ⟨hinv, _, _⟩ := insertPatterns_ok pats CodeTree.empty tree treeOK_empty h
  obtain ⟨hcode, body, hbody⟩ := compilePattern_code tree pat
  obtain ⟨_, hc2, hc3, _⟩ := compilePattern_tree tree pat
  have hfull : ∀ q1, PathTo tree.mem ⟨root, 0⟩ pat.code q1 →
      deref tree.mem q1 = .fault .outOfBounds := by
    intro q1 hp
    rw [hbody] at hp
    exact full_walk_cursor tree hinv _ q1 body 0 hp
  refine ⟨hfull, fun tree1 hins => ?_⟩
  unfold CodeTree.insertPattern at hins
  obtain ⟨_, _, j, q, i, blk, _, hp, hdq, hm, hcase, _, _⟩ :=
    incorporate_shape _ tree1 _ root (by rw [hc3]; exact hroot) hins
  rw [hc2] at hp hdq hm
  rw [hcode] at hp hcase
  rcases hcase with ⟨g1, g2, g3⟩ | ⟨_, ⟨q1, r, alt, k1, k2⟩, _⟩
  · rw [← List.map_take, instrsOf_map_mk0] at hp
    rw [List.length_map] at g1
    refine ⟨j, q, i, g1, hp, hdq, ?_, ?_⟩
    · intro hget
      have hg : (pat.code.map OpCode.mk0).get? j = some (OpCode.mk0 i) := by
        simp only [List.get?_eq_getElem?] at hget ⊢
        rw [List.getElem?_map, hget]
        rfl
      exact g2 _ hg rfl
    · rw [hm, g3, List.map_drop]
  · exfalso
    rw [hc2, instrsOf_map_mk0] at k1
    rw [hc2] at k2
    rw [hfull q1 k1] at k2
    cases k2

end Indexing


namespace Indexing

open Kernel

/-- Equality of two instructions is equality of tag and operand. -/
theorem instr_eq_iff (i j : Instruction) :
    i = j ↔ i.tag = j.tag ∧ i.operand = j.operand := by
  constructor
  · intro h
    rw [h]
    exact ⟨rfl, rfl⟩
  · intro h
    cases i <;> cases j <;> simp [Instruction.tag, Instruction.operand] at h ⊢ <;> exact h

/-- The comparison of the words of two instructions, as `eqModAlt` makes it on
64-bit machines, tells whether the instructions are equal, whatever stands in
the bits that are not initialised. -/
theorem eqModAltData_iff (i j : Instruction) (hi hj : Nat) (h1 : i.fits) (h2 : j.fits) :
    eqModAltData (i.data hi) (j.data hj) = decide (i = j) := by
  have e32 : (2 : Nat) ^ 32 = 4294967296 := by norm_num
  have e29 : (2 : Nat) ^ 29 = 536870912 := by norm_num
  cases i <;> cases j <;>
    simp only [Instruction.fits, Instruction.operand, e29] at h1 h2 <;>
    simp only [eqModAltData, Instruction.data, e32] <;>
    (split <;> (rw [decide_eq_decide]; constructor <;> intro h <;>
      simp only [Instruction.SUCCESS.injEq, Instruction.CHECK_FUN.injEq,
        Instruction.ASSIGN_VAR.injEq, Instruction.CHECK_VAR.injEq, reduceCtorEq] at h ⊢ <;>
      omega))

/-- Claim C28: `eqModAlt(a, b)` is true if and only if `a` and `b` have the
same instruction tag and the same operand (for SUCCESS the same payload),
whatever their alternative fields are; it is reflexive, symmetric and
transitive, and it does not change when the alternative link of either
argument is changed. The comparison that the code makes on the 64-bit words
of the two instructions (all bits of a SUCCESS word, the first 32 bits of any
other word) gives this result whatever the bits that are not initialised
hold. -/
theorem C28_eqModAlt_equivalence :
    (∀ a b : OpCode, a.eqModAlt b = true ↔
      a.instr.tag = b.instr.tag ∧ a.instr.operand = b.instr.operand) ∧
    (∀ a : OpCode, a.eqModAlt a = true) ∧
    (∀ a b : OpCode, a.eqModAlt b = true → b.eqModAlt a = true) ∧
    (∀ a b c : OpCode, a.eqModAlt b = true → b.eqModAlt c = true → a.eqModAlt c = true) ∧
    (∀ (a b : OpCode) (p q : Option Ptr),
      OpCode.eqModAlt { a with alternative := p } { b with alternative := q } =
        a.eqModAlt b) ∧
    (∀ (a b : OpCode) (hi hj : Nat), a.instr.fits → b.instr.fits →
      eqModAltData (a.instr.data hi) (b.instr.data hj) = a.eqModAlt b) := by
  refine ⟨?_, ?_, ?_, ?_, ?_, ?_⟩
  · intro a b
    unfold OpCode.eqModAlt
    rw [decide_eq_true_eq]
    exact instr_eq_iff _ _
  · intro a
    simp [OpCode.eqModAlt]
  · intro a b h
    simp only [OpCode.eqModAlt, decide_eq_true_eq] at h ⊢
    exact h.symm
  · intro a b c h1 h2
    simp only [OpCode.eqModAlt, decide_eq_true_eq] at h1 h2 ⊢
    exact h1.trans h2
  · intro a b p q
    rfl
  · intro a b hi hj h1 h2
    exact eqModAltData_iff a.instr b.instr hi hj h1 h2

end Indexing


namespace Indexing

open Kernel

/-- The entries of a flat term from the position behind `pre` on. -/
theorem get?_flat_at (pre rest : List FlatTerm.Entry) (k : Nat) :
    (pre ++ rest).get? (pre.length + k) = rest.get? k :=
  get?_append_at pre rest k

/-- What `doCheckFun` does at a FUN entry. -/
theorem doCheckFun_fun (ctx : EContext) (f n : Nat) (h : ctx.ft.get? ctx.tp = some (.FUN n)) :
    ctx.doCheckFun f =
      if n ≠ f then .ok (false, ctx)
      else .ok (true, { ctx with tp := ctx.tp + FlatTerm.functionEntryCount }) := by
  unfold EContext.doCheckFun
  rw [h]

/-- Claim C26, counterexample: on the flat term of f(a) the check of the
functor f at position 0 succeeds and moves the query position to 3, the
position of the argument a, while the whole subterm f(a) takes up 6
entries. -/
theorem C26_check_fun_counterexample :
    EContext.doCheckFun ⟨false, 0, ⟨0, 0⟩, [], [], FlatTerm.create (.term 0 [.term 1 []])⟩ 0 =
      .ok (true, ⟨false, 3, ⟨0, 0⟩, [], [], FlatTerm.create (.term 0 [.term 1 []])⟩) ∧
    FlatTerm.getEntryCount (.term 0 [.term 1 []]) = 6 ∧
    (FlatTerm.create (.term 0 [.term 1 []])).get? 3 = some (.FUN 1) := by
  refine ⟨by decide, by decide, by decide⟩

/-- Claim C26, amended: `doCheckFun` compares the functor of the entry at the
current query position with the operand of the instruction. On a mismatch (a
FUN entry with another functor, or an entry that is not a FUN entry) it
reports failure and leaves the context as it is. On a match it advances the
query position by the three entries of the function header
(`functionEntryCount`), that is to the first argument of the matched subterm;
this is the position behind the whole subterm only when the subterm has no
arguments. -/
theorem C26_check_fun_step :
    (∀ (ctx : EContext) (f : Nat), ctx.ft.get? ctx.tp = some (.FUN f) →
      ctx.doCheckFun f = .ok (true, { ctx with tp := ctx.tp + 3 })) ∧
    (∀ (ctx : EContext) (f n : Nat), ctx.ft.get? ctx.tp = some (.FUN n) → n ≠ f →
      ctx.doCheckFun f = .ok (false, ctx)) ∧
    (∀ (ctx : EContext) (f : Nat) (e : FlatTerm.Entry), ctx.ft.get? ctx.tp = some e →
      (∀ n, e ≠ .FUN n) → ctx.doCheckFun f = .ok (false, ctx)) ∧
    (∀ (ctx : EContext) (pre post : List FlatTerm.Entry) (f : Nat) (args : List TermList),
      ctx.ft = pre ++ FlatTerm.flat (.term f args) ++ post → ctx.tp = pre.length →
      ctx.doCheckFun f = .ok (true, { ctx with tp := pre.length + 3 }) ∧
      ctx.ft = (pre ++ (FlatTerm.flat (.term f args)).take 3) ++ FlatTerm.flatArgs args ++ post ∧
      (pre ++ (FlatTerm.flat (.term f args)).take 3).length = pre.length + 3 ∧
      (pre.length + 3 = pre.length + FlatTerm.getEntryCount (.term f args) ↔ args = [])) := by
  refine ⟨?_, ?_, ?_, ?_⟩
  · intro ctx f h
    rw [doCheckFun_fun ctx f f h]
    simp [FlatTerm.functionEntryCount]
  · intro ctx f n h hne
    rw [doCheckFun_fun ctx f n h, if_pos hne]
  · intro ctx f e h hne
    unfold EContext.doCheckFun
    rw [h]
    cases e with
    | FUN n => exact absurd rfl (hne n)
    | VAR n => rfl
    | FUN_TERM_PTR t => rfl
    | FUN_RIGHT_OFS k => rfl
  · intro ctx pre post f args hft htp
    have hget : ctx.ft.get? ctx.tp = some (.FUN f) := by
      rw [hft, htp, List.append_assoc]
      have := get?_flat_at pre (FlatTerm.flat (.term f args) ++ post) 0
      rw [Nat.add_zero] at this
      rw [this]
      simp [FlatTerm.flat]
    refine ⟨?_, ?_, ?_, ?_⟩
    · rw [doCheckFun_fun ctx f f hget, htp]
      simp [FlatTerm.functionEntryCount]
    · rw [hft]
      simp [FlatTerm.flat]
    · simp [FlatTerm.flat]
    · simp only [FlatTerm.getEntryCount, FlatTerm.functionEntryCount]
      cases args with
      | nil => simp [FlatTerm.getEntryCountOfArgs]
      | cons t ts =>
        simp only [FlatTerm.getEntryCountOfArgs, reduceCtorEq, iff_false]
        have : 0 < FlatTerm.getEntryCount t := by
          cases t <;> simp [FlatTerm.getEntryCount, FlatTerm.functionEntryCount]
        omega

/-- The statement of the amended C26 at the flat term of f(a, X), for the
check of f at position 0 and the failing check of g. -/
theorem C26_check_fun_step_witness :
    EContext.doCheckFun
        ⟨false, 0, ⟨0, 0⟩, [], [], FlatTerm.create (.term 0 [.term 1 [], .var 0])⟩ 0 =
      .ok (true, ⟨false, 3, ⟨0, 0⟩, [], [], FlatTerm.create (.term 0 [.term 1 [], .var 0])⟩) ∧
    EContext.doCheckFun
        ⟨false, 0, ⟨0, 0⟩, [], [], FlatTerm.create (.term 0 [.term 1 [], .var 0])⟩ 7 =
      .ok (false, ⟨false, 0, ⟨0, 0⟩, [], [], FlatTerm.create (.term 0 [.term 1 [], .var 0])⟩) :=
  ⟨C26_check_fun_step.1
      ⟨false, 0, ⟨0, 0⟩, [], [], FlatTerm.create (.term 0 [.term 1 [], .var 0])⟩ 0 (by decide),
    C26_check_fun_step.2.1
      ⟨false, 0, ⟨0, 0⟩, [], [], FlatTerm.create (.term 0 [.term 1 [], .var 0])⟩ 7 0
      (by decide) (by decide)⟩

/-- What `doAssignVar` does at a VAR entry. -/
theorem doAssignVar_var (ctx : EContext) (v n : Nat) (h : ctx.ft.get? ctx.tp = some (.VAR n))
    (hv : v < ctx.bindings.length) :
    ctx.doAssignVar v =
      .ok { ctx with bindings := ctx.bindings.set v (some (.var n)), tp := ctx.tp + 1 } := by
  unfold EContext.doAssignVar EContext.setBinding
  rw [h]
  simp only [hv, if_true]

/-- What `doAssignVar` does at the header of a function. -/
theorem doAssignVar_fun (ctx : EContext) (v f k : Nat) (t : TermList)
    (h0 : ctx.ft.get? ctx.tp = some (.FUN f))
    (h1 : ctx.ft.get? (ctx.tp + 1) = some (.FUN_TERM_PTR t))
    (h2 : ctx.ft.get? (ctx.tp + 2) = some (.FUN_RIGHT_OFS k))
    (hv : v < ctx.bindings.length) :
    ctx.doAssignVar v =
      .ok { ctx with bindings := ctx.bindings.set v (some t), tp := ctx.tp + k } := by
  unfold EContext.doAssignVar EContext.setBinding
  rw [h0, h1]
  simp only [hv, if_true, h2]

/-- Claim C27: `doAssignVar` has no failing outcome: after it the loop of
`next` always goes on with the following instruction. At a VAR entry it
sets `bindings[v]` to the variable and advances the query position by 1; at a
FUN entry it sets `bindings[v]` to the term pointer stored in the entry behind
it and advances the query position by the right offset stored in the third
entry. On the flat term of a query, at the first entry of a subterm `u`, this
binds the slot to `u` and moves the position behind the whole subterm. -/
theorem C27_assign_var_step :
    (∀ (mem : List CodeBlock) (ctx c1 : EContext) (res v : Nat) (alt : Option Ptr),
      deref mem ctx.op = .ok ⟨.ASSIGN_VAR v, alt⟩ →
      (ctx.pushAlt alt).doAssignVar v = .ok c1 →
      TermCodeTree.loopBody mem ctx res =
        .ok (.again { c1 with op := ⟨c1.op.blk, c1.op.ofs + 1⟩ })) ∧
    (∀ (ctx : EContext) (v n : Nat), ctx.ft.get? ctx.tp = some (.VAR n) →
      v < ctx.bindings.length →
      ctx.doAssignVar v =
        .ok { ctx with bindings := ctx.bindings.set v (some (.var n)), tp := ctx.tp + 1 }) ∧
    (∀ (ctx : EContext) (v f k : Nat) (t : TermList),
      ctx.ft.get? ctx.tp = some (.FUN f) →
      ctx.ft.get? (ctx.tp + 1) = some (.FUN_TERM_PTR t) →
      ctx.ft.get? (ctx.tp + 2) = some (.FUN_RIGHT_OFS k) →
      v < ctx.bindings.length →
      ctx.doAssignVar v =
        .ok { ctx with bindings := ctx.bindings.set v (some t), tp := ctx.tp + k }) ∧
    (∀ (ctx : EContext) (pre post : List FlatTerm.Entry) (u : TermList) (v : Nat),
      ctx.ft = pre ++ FlatTerm.flat u ++ post → ctx.tp = pre.length →
      v < ctx.bindings.length →
      ctx.doAssignVar v =
        .ok { ctx with bindings := ctx.bindings.set v (some u),
                       tp := pre.length + FlatTerm.getEntryCount u }) := by
  refine ⟨?_, doAssignVar_var, doAssignVar_fun, ?_⟩
  · intro mem ctx c1 res v alt hd h
    unfold TermCodeTree.loopBody
    rw [hd]
    cases alt with
    | none =>
      simp only [EContext.pushAlt] at h
      simp only [h]
      rfl
    | some a =>
      simp only [EContext.pushAlt] at h
      simp only [h]
      rfl
  · intro ctx pre post u v hft htp hv
    have h0 : ∀ k, ctx.ft.get? (ctx.tp + k) = (FlatTerm.flat u ++ post).get? k := by
      intro k
      rw [hft, htp, List.append_assoc]
      exact get?_flat_at pre _ k
    have h00 := h0 0
    rw [Nat.add_zero] at h00
    cases u with
    | var n =>
      rw [doAssignVar_var ctx v n (by rw [h00]; rfl) hv, htp]
      rfl
    | term f args =>
      rw [doAssignVar_fun ctx v f _ (.term f args) (by rw [h00]; rfl) (by rw [h0 1]; rfl)
        (by rw [h0 2]; rfl) hv, htp]
      rfl

/-- The statement of C27 at the flat term of f(a, X): at position 3 the slot
is bound to a and the position moves by 3, at position 6 the slot is bound to
X and the position moves by 1. -/
theorem C27_assign_var_step_witness :
    EContext.doAssignVar
        ⟨false, 3, ⟨0, 1⟩, [], [none], FlatTerm.create (.term 0 [.term 1 [], .var 0])⟩ 0 =
      .ok ⟨false, 6, ⟨0, 1⟩, [], [some (.term 1 [])],
        FlatTerm.create (.term 0 [.term 1 [], .var 0])⟩ ∧
    EContext.doAssignVar
        ⟨false, 6, ⟨0, 1⟩, [], [none], FlatTerm.create (.term 0 [.term 1 [], .var 0])⟩ 0 =
      .ok ⟨false, 7, ⟨0, 1⟩, [], [some (.var 0)],
        FlatTerm.create (.term 0 [.term 1 [], .var 0])⟩ :=
  ⟨C27_assign_var_step.2.2.1
      ⟨false, 3, ⟨0, 1⟩, [], [none], FlatTerm.create (.term 0 [.term 1 [], .var 0])⟩ 0 1 3
      (.term 1 []) (by decide) (by decide) (by decide) (by decide),
    C27_assign_var_step.2.1
      ⟨false, 6, ⟨0, 1⟩, [], [none], FlatTerm.create (.term 0 [.term 1 [], .var 0])⟩ 0 0
      (by decide) (by decide)⟩

end Indexing


namespace Indexing

open Kernel

end Indexing


namespace Kernel

open Indexing (Run Fault)
open Example

/-- The passes of the outer loop of `canBeMatched` keep the state of the
search in order. -/
theorem stateAfter_good (multiset resolved : Bool) (V : Nat → List Nat)
    (A : Nat → List AltBinding) (recLen : Nat) (tl : Nat → Bool) :
    ∀ (n : Nat) (s s1 : SearchState), Good multiset resolved V A recLen s →
      stateAfter multiset tl n s = some s1 → Good multiset resolved V A recLen s1 := by
  intro n
  induction n with
  | zero =>
    intro s s1 h hs
    rw [stateAfter] at hs
    cases hs
    exact h
  | succ n ih =>
    intro s s1 h hs
    rw [stateAfter] at hs
    rcases step_spec multiset resolved V A recLen tl s h with ⟨b, hb, _⟩ | hb | ⟨s2, hb, hg, _, _⟩
    · rw [hb] at hs
      cases hs
    · rw [hb] at hs
      cases hs
    · rw [hb] at hs
      exact ih s2 s1 hg hs

/-- Every state at the head of the outer loop of a call of `canBeMatched` on
proper input is in order. -/
theorem stateAt_good (baseLits : List Literal) (instCl : Clause)
    (alts : List (List Literal)) (resolvedLit : Option Literal) (multiset : Bool)
    (hne : baseLits ≠ []) (hlen : baseLits.length ≤ alts.length)
    (h32 : baseLits.length ≤ unclaimed)
    (hproper : properAlts instCl resolvedLit baseLits alts = true) :
    ∃ V A recLen, ∀ (n : Nat) (tl : Nat → Bool) (s : SearchState),
      MLMatcher.stateAt n tl baseLits instCl alts resolvedLit multiset = some s →
      Good multiset resolvedLit.isSome V A recLen s := by
  obtain ⟨bs, as, hre, hb, ha, π, hπ⟩ := reorderLits_spec baseLits alts resolvedLit hne hlen
  have hpos : 0 < baseLits.length := List.length_pos.2 hne
  have hproper1 : ∀ i b a, bs.get? i = some b → as.get? i = some a →
      ∃ res, createLiteralBindings b a instCl resolvedLit = .ok res := by
    intro i b a g1 g2
    rw [(hπ i).1] at g1
    rw [(hπ i).2] at g2
    have hlt : π i < baseLits.length := (List.get?_eq_some.1 g1).1
    simp only [List.get?_eq_getElem?] at g2
    rw [List.getElem?_take_of_lt hlt] at g2
    exact properAlts_get instCl resolvedLit baseLits alts hproper (π i) b a g1
      (by simpa using g2)
  have hgood := initial_good multiset instCl resolvedLit bs as baseLits.length hb ha hpos h32
    hproper1 _ rfl
  refine ⟨fun i => (slotOf instCl resolvedLit bs as i).1,
    fun i => (slotOf instCl resolvedLit bs as i).2,
    if resolvedLit.isSome then 2 else instCl.length, fun n tl s hs => ?_⟩
  unfold MLMatcher.stateAt at hs
  split at hs
  · cases hs
  · rw [getMatchingData_eq baseLits instCl alts resolvedLit bs as hre] at hs
    exact stateAfter_good multiset _ _ _ _ tl n _ s hgood hs

/-- In a state in order the variables of a base literal are its bound
variables, and its alternatives are the ones that `createLiteralBindings`
creates. -/
theorem good_created (multiset resolved : Bool) (V : Nat → List Nat)
    (A : Nat → List AltBinding) (recLen : Nat) (s : SearchState)
    (h : Good multiset resolved V A recLen s) (i : Nat) (hi : i < s.md.len) :
    ∃ b as, s.md.bases.get? i = some b ∧ s.md.alts.get? i = some as ∧
      createLiteralBindings b as s.md.instCl s.md.resolvedLit = .ok (V i, A i) ∧
      V i = boundVars b := by
  obtain ⟨_, hcr, _⟩ := h
  obtain ⟨b, as, g1, g2, g3⟩ := hcr i hi
  exact ⟨b, as, g1, g2, g3, (createLiteralBindings_spec b as _ _ _ g3).1⟩

end Kernel


namespace Kernel

open Indexing (Run Fault)
open Example

/-- With a resolved literal, the alternatives made from one literal of a list
of alternatives have the record index 0. -/
theorem altsOfLiteral_record_zero (baseLit : Literal) (vars : List Nat) (instCl : Clause)
    (r : Literal) (alit : Literal) (l : List AltBinding)
    (h : altsOfLiteral baseLit vars instCl (some r) alit = .ok l) : ∀ x ∈ l, x.record = 0 := by
  unfold altsOfLiteral at h
  have hrec : altRecord instCl (some r) alit = .ok 0 := rfl
  rw [hrec] at h
  split at h
  · cases h
    intro x hx
    cases hx
  · split at h
    · simp only [Run.ok.injEq] at h
      subst h
      intro x hx
      rw [List.mem_append] at hx
      rcases hx with hx | hx
      · split at hx
        · rw [List.mem_singleton] at hx
          rw [hx]
        · cases hx
      · split at hx
        · rw [List.mem_singleton] at hx
          rw [hx]
        · cases hx
    · split at h
      · cases h
      · simp only [Run.ok.injEq] at h
        subst h
        intro x hx
        rw [List.mem_singleton] at hx
        rw [hx]

/-- With a resolved literal, the alternatives made from a list of alternatives
have the record index 0. -/
theorem altsOfList_record_zero (baseLit : Literal) (vars : List Nat) (instCl : Clause)
    (r : Literal) : ∀ (alts : List Literal) (l : List AltBinding),
    altsOfList baseLit vars instCl (some r) alts = .ok l → ∀ x ∈ l, x.record = 0 := by
  intro alts
  induction alts with
  | nil =>
    intro l h x hx
    rw [altsOfList] at h
    cases h
    cases hx
  | cons alit rest ih =>
    intro l h x hx
    rw [altsOfList] at h
    cases h1 : altsOfLiteral baseLit vars instCl (some r) alit with
    | fault f => rw [h1] at h; cases h
    | ok l1 =>
      rw [h1] at h
      simp only [] at h
      cases h2 : altsOfList baseLit vars instCl (some r) rest with
      | fault f => rw [h2] at h; cases h
      | ok l2 =>
        rw [h2] at h
        simp only [Run.ok.injEq] at h
        subst h
        rw [List.mem_append] at hx
        rcases hx with hx | hx
        · exact altsOfLiteral_record_zero baseLit vars instCl r alit l1 h1 x hx
        · exact ih l2 h2 x hx

/-- The alternatives made from the resolved literal have the record index 1,
and there are some only when the header of the base literal is the
complementary header of the resolved literal. -/
theorem altsOfResolved_record_one (baseLit : Literal) (vars : List Nat) (r : Literal) :
    ∀ x ∈ altsOfResolved baseLit vars (some r),
      x.record = 1 ∧ r.complementaryHeader = baseLit.header := by
  intro x hx
  unfold altsOfResolved at hx
  simp only [] at hx
  split at hx
  · rename_i hh
    refine ⟨?_, hh⟩
    rw [List.mem_append] at hx
    rcases hx with hx | hx
    · split at hx
      · rw [List.mem_singleton] at hx
        rw [hx]
      · cases hx
    · split at hx
      · rw [List.mem_singleton] at hx
        rw [hx]
      · cases hx
  · cases hx

/-- With a resolved literal, the alternatives of a base literal with the
record index 1 are the matches against the resolved literal; all others have
the record index 0. -/
theorem created_records (baseLit : Literal) (alts : List Literal) (instCl : Clause)
    (r : Literal) (vars : List Nat) (A : List AltBinding)
    (h : createLiteralBindings baseLit alts instCl (some r) = .ok (vars, A)) :
    ∀ x ∈ A, (x.record = 1 ↔ x ∈ altsOfResolved baseLit vars (some r)) ∧
      (x.record = 1 → r.complementaryHeader = baseLit.header) ∧
      (x.record = 0 ∨ x.record = 1) := by
  unfold createLiteralBindings at h
  cases h1 : altsOfList baseLit (boundVars baseLit) instCl (some r) alts with
  | fault f => rw [h1] at h; cases h
  | ok l =>
    rw [h1] at h
    simp only [Run.ok.injEq, Prod.mk.injEq] at h
    obtain ⟨hv, hA⟩ := h
    subst hv
    subst hA
    intro x hx
    rw [List.mem_append] at hx
    rcases hx with hx | hx
    · have h0 := altsOfList_record_zero baseLit _ instCl r alts l h1 x hx
      refine ⟨⟨fun h => ?_, fun h => ?_⟩, fun h => ?_, Or.inl h0⟩
      · omega
      · have := (altsOfResolved_record_one baseLit _ r x h).1
        omega
      · omega
    · have h1 := altsOfResolved_record_one baseLit _ r x hx
      exact ⟨⟨fun _ => hx, fun _ => h1.1⟩, fun _ => h1.2, Or.inr h1.1⟩

/-- Claim C21: with a resolved literal, multiset = false and a time limit that
is never reached, `canBeMatched` on proper input returns, given enough fuel, a
boolean that is true if and only if one alternative can be chosen for every
base literal such that the chosen alternatives agree on all shared variables
and one of them has the record index 1. The alternatives with the record
index 1 are exactly the matches of the base literal against the resolved
literal, which exist only for a base literal whose header is the complementary
header of the resolved literal; the others have the record index 0. With the
resolved literal ¬P(a), the base {P(X), Q(X)} gives true against Q(a) and
false against Q(b); with the resolved literal ¬R(a), the base {P(X), Q(Y)}
gives false against P(a), Q(b). -/
theorem C21_resolved_literal_matching :
    (∀ (baseLits : List Literal) (instCl : Clause) (alts : List (List Literal)) (r : Literal),
      baseLits ≠ [] → baseLits.length ≤ alts.length → baseLits.length ≤ unclaimed →
      properAlts instCl (some r) baseLits alts = true →
      ∃ n, ∀ fuel, n ≤ fuel →
        ∃ res, MLMatcher.canBeMatched fuel (fun _ => false) baseLits instCl alts (some r) false
            = .result res ∧
          (res = true ↔ ∃ σ : Nat → AltBinding,
            (∀ i, i < baseLits.length → σ i ∈ (slotOf instCl (some r) baseLits alts i).2) ∧
            (∀ i j b1 b2, baseLits.get? i = some b1 → baseLits.get? j = some b2 → i ≠ j →
              Agree b1 (σ i) b2 (σ j)) ∧
            ∃ i, i < baseLits.length ∧ (σ i).record = 1)) ∧
    (∀ (baseLit : Literal) (alts : List Literal) (instCl : Clause) (r : Literal)
      (vars : List Nat) (A : List AltBinding),
      createLiteralBindings baseLit alts instCl (some r) = .ok (vars, A) →
      ∀ x ∈ A, (x.record = 1 ↔ x ∈ altsOfResolved baseLit vars (some r)) ∧
        (x.record = 1 → r.complementaryHeader = baseLit.header) ∧
        (x.record = 0 ∨ x.record = 1)) ∧
    (∀ fuel, 2 ≤ fuel →
      MLMatcher.canBeMatched fuel (fun _ => false) [P [X], Q [X]] [Q [a]] [[], [Q [a]]]
        (some (notP [a])) false = .result true) ∧
    (∀ fuel, 3 ≤ fuel →
      MLMatcher.canBeMatched fuel (fun _ => false) [P [X], Q [X]] [Q [b]] [[], [Q [b]]]
        (some (notP [a])) false = .result false) ∧
    (∀ fuel, 4 ≤ fuel →
      MLMatcher.canBeMatched fuel (fun _ => false) [P [X], Q [Y]] [P [a], Q [b]]
        [[P [a]], [Q [b]]] (some ⟨3, false, [a]⟩) false = .result false) := by
  refine ⟨?_, created_records, ?_, ?_, ?_⟩
  · intro baseLits instCl alts r hne hlen h32 hproper
    obtain ⟨n, hn⟩ := canBeMatched_decides baseLits instCl alts (some r) false hne hlen h32
      hproper (by simp)
    refine ⟨n, fun fuel hfuel => ?_⟩
    obtain ⟨res, hb, hiff⟩ := hn fuel hfuel
    refine ⟨res, hb, hiff.trans ?_⟩
    constructor
    · rintro ⟨σ, m1, m2, _, m4⟩
      exact ⟨σ, m1, m2, m4 rfl⟩
    · rintro ⟨σ, m1, m2, m4⟩
      exact ⟨σ, m1, m2, fun h => absurd h (by simp), fun _ => m4⟩
  · intro fuel hfuel
    exact canBeMatched_mono 2 fuel hfuel _ _ _ _ _ _ _ (by decide)
  · intro fuel hfuel
    exact canBeMatched_mono 3 fuel hfuel _ _ _ _ _ _ _ (by decide)
  · intro fuel hfuel
    exact canBeMatched_mono 4 fuel hfuel _ _ _ _ _ _ _ (by decide)

/-- The general statement of C21 at the base {P(X), Q(X)} with the resolved
literal ¬P(a) and the alternative Q(a) for Q(X). -/
theorem C21_resolved_literal_matching_witness :
    ∃ n, ∀ fuel, n ≤ fuel →
      ∃ res, MLMatcher.canBeMatched fuel (fun _ => false) [P [X], Q [X]] [Q [a]]
          [[], [Q [a]]] (some (notP [a])) false = .result res ∧
        (res = true ↔ ∃ σ : Nat → AltBinding,
          (∀ i, i < [P [X], Q [X]].length →
            σ i ∈ (slotOf [Q [a]] (some (notP [a])) [P [X], Q [X]] [[], [Q [a]]] i).2) ∧
          (∀ i j b1 b2, [P [X], Q [X]].get? i = some b1 → [P [X], Q [X]].get? j = some b2 →
            i ≠ j → Agree b1 (σ i) b2 (σ j)) ∧
          ∃ i, i < [P [X], Q [X]].length ∧ (σ i).record = 1) :=
  C21_resolved_literal_matching.1 [P [X], Q [X]] [Q [a]] [[], [Q [a]]] (notP [a])
    (by decide) (by decide) (by decide) (by decide)

end Kernel


namespace Kernel

open Indexing (Run Fault)
open Example

/-- In multiset mode the match record of a state in order tells, for the base
literals before the current one, exactly which record index each of them has
taken. -/
theorem good_record (V : Nat → List Nat) (A : Nat → List AltBinding) (recLen : Nat)
    (resolved : Bool) (s : SearchState) (h : Good true resolved V A recLen s) :
    (∀ t, t < s.currBLit → ∃ ct, s.md.committed t = some ct) ∧
    ∀ p t, t < s.currBLit →
      (s.matchRecord.get? p = some t ↔ ∃ ct, s.md.committed t = some ct ∧ ct.record = p) := by
  obtain ⟨⟨m, hinv, _⟩, _⟩ := h
  constructor
  · intro t ht
    obtain ⟨ct, hct, _⟩ := committed_exists V A m s.currBLit s.md hinv.md hinv.hcm t ht
    exact ⟨ct, hct⟩
  · intro p t ht
    constructor
    · intro hp
      exact hinv.hrec.rec1 p t ht hp
    · rintro ⟨ct, hct, hrec⟩
      obtain ⟨v, hv, hle⟩ := hinv.hrec.rec2 t ct ht hct
      rw [hrec] at hv
      by_cases hvt : v = t
      · rw [← hvt]
        exact hv
      · exfalso
        have hlt : v < t := by omega
        obtain ⟨cv, hcv, hcvr⟩ := hinv.hrec.rec1 p v (by omega) hv
        exact hinv.hrec.inj rfl v t cv ct hlt ht hcv hct (by rw [hcvr, hrec])

/-- Claim C22: in multiset mode, on proper input, in every state in which the
outer loop of `canBeMatched` starts a pass for the base literal `currBLit`,
every base literal before `currBLit` is committed to an alternative, and for
every position `p` of the match record and every base literal `t` before
`currBLit` the entry `matchRecord[p]` is `t` if and only if the alternative to
which `t` is committed has the record index `p`, the position of the literal
of the instance that it takes. -/
theorem C22_match_record_invariant (baseLits : List Literal) (instCl : Clause)
    (alts : List (List Literal)) (hne : baseLits ≠ []) (hlen : baseLits.length ≤ alts.length)
    (h32 : baseLits.length ≤ unclaimed) (hproper : properAlts instCl none baseLits alts = true)
    (n : Nat) (tl : Nat → Bool) (s : SearchState)
    (hs : MLMatcher.stateAt n tl baseLits instCl alts none true = some s) :
    (∀ t, t < s.currBLit → ∃ ct, s.md.committed t = some ct) ∧
    ∀ p t, t < s.currBLit →
      (s.matchRecord.get? p = some t ↔ ∃ ct, s.md.committed t = some ct ∧ ct.record = p) := by
  obtain ⟨V, A, recLen, hg⟩ := stateAt_good baseLits instCl alts none true hne hlen h32 hproper
  exact good_record V A recLen _ s (hg n tl s hs)

/-- The statement of C22 at the base {P(X), P(Y)} against the instance
{P(a), P(b)}, after the first pass of the loop. -/
theorem C22_match_record_invariant_witness :
    ∃ s, MLMatcher.stateAt 1 (fun _ => false) [P [X], P [Y]] [P [a], P [b]]
        [[P [a], P [b]], [P [a], P [b]]] none true = some s ∧
      ∀ p t, t < s.currBLit →
        (s.matchRecord.get? p = some t ↔ ∃ ct, s.md.committed t = some ct ∧ ct.record = p) :=
  (Option.isSome_iff_exists.1 (by decide)).imp fun s hs =>
    ⟨hs, (C22_match_record_invariant [P [X], P [Y]] [P [a], P [b]]
      [[P [a], P [b]], [P [a], P [b]]] (by decide) (by decide) (by decide) (by decide)
      1 (fun _ => false) s hs).2⟩

end Kernel


namespace Kernel

open Indexing (Run Fault)
open Example

/-- The alternative to which a base literal is committed does not depend on
the arrays of the other base literals. -/
theorem committed_eq (md md1 : MatchingData) (t : Nat) (h1 : md1.nextAlts = md.nextAlts)
    (h2 : md1.altBindings t = md.altBindings t) : md1.committed t = md.committed t := by
  unfold MatchingData.committed
  rw [h1, h2]

/-- A base literal that is not initialised in a state in order is the first
that is not. -/
theorem good_uninit (multiset : Bool) (V : Nat → List Nat)
    (A : Nat → List AltBinding) (recLen m : Nat) (s : SearchState)
    (hinv : SInv multiset V A recLen m s)
    (hnew : s.md.isInitialized s.currBLit = false) : s.currBLit = m := by
  have h1 := hinv.md.init s.currBLit
  have h2 := hinv.hcm
  unfold MatchingData.isInitialized at hnew
  by_cases hlt : s.currBLit < m
  · rw [if_pos hlt] at h1
    rw [h1] at hnew
    cases hnew
  · omega

/-- What `ensureInit` leaves when it initialises the current base literal of a
state in order and does not signal NO_ALTERNATIVE: the array of the base
literal is a rearrangement of the alternatives created for it, its first
`remaining` entries are the alternatives that agree with the alternatives to
which the earlier base literals are committed, and each of the others
disagrees with one of these. -/
theorem ensureInit_pruned (multiset resolved : Bool) (V : Nat → List Nat)
    (A : Nat → List AltBinding) (recLen : Nat) (s : SearchState)
    (h : Good multiset resolved V A recLen s)
    (hnew : s.md.isInitialized s.currBLit = false) (res : InitResult) (md1 : MatchingData)
    (hres : s.md.ensureInit s.currBLit = .ok (res, md1)) (hne : res ≠ .NO_ALTERNATIVE) :
    ∃ b as, s.md.bases.get? s.currBLit = some b ∧ s.md.alts.get? s.currBLit = some as ∧
      createLiteralBindings b as s.md.instCl s.md.resolvedLit = .ok (V s.currBLit, A s.currBLit) ∧
      (md1.altBindings s.currBLit).Perm (A s.currBLit) ∧
      md1.remaining s.currBLit s.currBLit ≤ (md1.altBindings s.currBLit).length ∧
      (res = .OK → 0 < md1.remaining s.currBLit s.currBLit) ∧
      (res = .MUST_BACKTRACK → 0 < s.currBLit ∧ md1.remaining s.currBLit s.currBLit = 0) ∧
      (∀ x ∈ (md1.altBindings s.currBLit).take (md1.remaining s.currBLit s.currBLit),
        ∀ t, t < s.currBLit → ∃ ct bt, s.md.committed t = some ct ∧
          s.md.bases.get? t = some bt ∧ Agree bt ct b x) ∧
      (∀ x ∈ (md1.altBindings s.currBLit).drop (md1.remaining s.currBLit s.currBLit),
        ∃ t ct bt, t < s.currBLit ∧ s.md.committed t = some ct ∧
          s.md.bases.get? t = some bt ∧ ¬ Agree bt ct b x) := by
  have hg := h
  obtain ⟨⟨m, hinv, _⟩, hcr, _⟩ := h
  have hcm := good_uninit multiset V A recLen m s hinv hnew
  obtain ⟨res1, md2, g1, _, g3, g4, _, g6⟩ :=
    ensureInit_spec V A m s.currBLit s.md hinv.md hcr hinv.hc hinv.hcm
  rw [hres] at g1
  simp only [Run.ok.injEq, Prod.mk.injEq] at g1
  obtain ⟨e1, e2⟩ := g1
  subst e1
  subst e2
  obtain ⟨_, g7⟩ := g6 hcm
  obtain ⟨hperm, hmd1, hmb, hok⟩ := g7 hne
  obtain ⟨b, as, k1, k2, k3, k4⟩ := good_created multiset resolved V A recLen s hg s.currBLit
    hinv.hc
  have hpr := hmd1.rem s.currBLit s.currBLit (by omega) (Nat.le_refl _) (Nat.le_refl _)
  obtain ⟨p1, p2, p3⟩ := hpr
  have hcomm : ∀ t, t < s.currBLit → md1.committed t = s.md.committed t := by
    intro t ht
    exact committed_eq s.md md1 t g3 (g4 t (by omega))
  have hbase : ∀ t, t < s.currBLit → ∃ bt, s.md.bases.get? t = some bt ∧ V t = boundVars bt := by
    intro t ht
    obtain ⟨bt, _, q1, _, _, q4⟩ := good_created multiset resolved V A recLen s hg t
      (by have := hinv.hc; omega)
    exact ⟨bt, q1, q4⟩
  refine ⟨b, as, k1, k2, k3, hperm, p1, hok, hmb, ?_, ?_⟩
  · intro x hx t ht
    obtain ⟨ct, c1, c2⟩ := p2 x hx t ht
    obtain ⟨bt, q1, q4⟩ := hbase t ht
    rw [hcomm t ht] at c1
    rw [q4, k4] at c2
    exact ⟨ct, bt, c1, q1, (agree_iff bt b ct x).1 c2⟩
  · intro x hx
    have hn := p3 x hx
    unfold CompatBelow at hn
    push_neg at hn
    obtain ⟨t, ht, hn⟩ := hn
    obtain ⟨ct, hct, _⟩ := committed_exists V A m s.currBLit s.md hinv.md hinv.hcm t ht
    obtain ⟨bt, q1, q4⟩ := hbase t ht
    have hc := hn ct (by rw [hcomm t ht]; exact hct)
    rw [q4, k4] at hc
    exact ⟨t, ct, bt, ht, hct, q1, fun ha => hc ((agree_iff bt b ct x).2 ha)⟩

/-- Claim C23: on proper input, when `ensureInit` initialises a base literal
and returns OK (for the first base literal there is no earlier one to agree
with), the array of alternatives of this base
literal is a rearrangement of the alternatives that `createLiteralBindings`
created for it, its usable range (the first `remaining(b, b)` entries) is not
empty and holds alternatives that agree, on every shared variable, with the
alternative to which each earlier base literal is committed, and every
alternative behind the usable range disagrees with the alternative to which
some earlier base literal is committed. -/
theorem C23_ensureInit_pruning (baseLits : List Literal) (instCl : Clause)
    (alts : List (List Literal)) (resolvedLit : Option Literal) (multiset : Bool)
    (hne : baseLits ≠ []) (hlen : baseLits.length ≤ alts.length)
    (h32 : baseLits.length ≤ unclaimed)
    (hproper : properAlts instCl resolvedLit baseLits alts = true)
    (n : Nat) (tl : Nat → Bool) (s : SearchState)
    (hs : MLMatcher.stateAt n tl baseLits instCl alts resolvedLit multiset = some s)
    (hnew : s.md.isInitialized s.currBLit = false)
    (hok : initResultOf (s.md.ensureInit s.currBLit) = some .OK) :
    ∃ md1 b as vars created, s.md.ensureInit s.currBLit = .ok (.OK, md1) ∧
      s.md.bases.get? s.currBLit = some b ∧ s.md.alts.get? s.currBLit = some as ∧
      createLiteralBindings b as s.md.instCl s.md.resolvedLit = .ok (vars, created) ∧
      (md1.altBindings s.currBLit).Perm created ∧
      0 < md1.remaining s.currBLit s.currBLit ∧
      md1.remaining s.currBLit s.currBLit ≤ (md1.altBindings s.currBLit).length ∧
      (∀ x ∈ (md1.altBindings s.currBLit).take (md1.remaining s.currBLit s.currBLit),
        ∀ t, t < s.currBLit → ∃ ct bt, s.md.committed t = some ct ∧
          s.md.bases.get? t = some bt ∧ Agree bt ct b x) ∧
      (∀ x ∈ (md1.altBindings s.currBLit).drop (md1.remaining s.currBLit s.currBLit),
        ∃ t ct bt, t < s.currBLit ∧ s.md.committed t = some ct ∧
          s.md.bases.get? t = some bt ∧ ¬ Agree bt ct b x) := by
  obtain ⟨V, A, recLen, hg⟩ := stateAt_good baseLits instCl alts resolvedLit multiset hne hlen
    h32 hproper
  have hgood := hg n tl s hs
  cases hr : s.md.ensureInit s.currBLit with
  | fault f =>
    rw [hr] at hok
    cases hok
  | ok x =>
    obtain ⟨res, md1⟩ := x
    rw [hr] at hok
    simp only [initResultOf, Option.some.injEq] at hok
    subst hok
    obtain ⟨b, as, k1, k2, k3, k4, k5, k6, _, k8, k9⟩ :=
      ensureInit_pruned multiset _ V A recLen s hgood hnew .OK md1 hr (by simp)
    exact ⟨md1, b, as, _, _, rfl, k1, k2, k3, k4, k6 rfl, k5, k8, k9⟩

/-- The statement of C23 at the base {P(X), Q(X)} with the alternatives P(a)
for P(X) and Q(a), Q(b) for Q(X), after the first pass of the loop: the base
literal Q(X) is initialised, Q(b) is moved behind the usable range. -/
theorem C23_ensureInit_pruning_witness :
    ∃ s, MLMatcher.stateAt 1 (fun _ => false) [P [X], Q [X]] [P [a], Q [a], Q [b]]
        [[P [a]], [Q [a], Q [b]]] none false = some s ∧
      ∃ md1 base lits vars created,
        s.md.ensureInit s.currBLit = .ok (.OK, md1) ∧
        s.md.bases.get? s.currBLit = some base ∧ s.md.alts.get? s.currBLit = some lits ∧
        createLiteralBindings base lits s.md.instCl s.md.resolvedLit = .ok (vars, created) ∧
        (md1.altBindings s.currBLit).Perm created ∧
        0 < md1.remaining s.currBLit s.currBLit :=
  ⟨((MLMatcher.stateAt 1 (fun _ => false) [P [X], Q [X]] [P [a], Q [a], Q [b]]
      [[P [a]], [Q [a], Q [b]]] none false).get (by decide)),
    (Option.some_get _).symm,
    (C23_ensureInit_pruning [P [X], Q [X]] [P [a], Q [a], Q [b]] [[P [a]], [Q [a], Q [b]]]
      none false (by decide) (by decide) (by decide) (by decide) 1 (fun _ => false)
      ((MLMatcher.stateAt 1 (fun _ => false) [P [X], Q [X]] [P [a], Q [a], Q [b]]
      [[P [a]], [Q [a], Q [b]]] none false).get (by decide))
      (Option.some_get _).symm (by decide) (by decide)).imp fun md1 h1 =>
        h1.imp fun base h2 => h2.imp fun lits h3 => h3.imp fun vars h4 =>
          h4.imp fun created h5 =>
            ⟨h5.1, h5.2.1, h5.2.2.1, h5.2.2.2.1, h5.2.2.2.2.1, h5.2.2.2.2.2.1⟩⟩

end Kernel


namespace Kernel

open Indexing (Run Fault)
open Example

/-- A base literal for which `createLiteralBindings` creates no alternative
makes `ensureInit` signal NO_ALTERNATIVE when it is initialised. -/
theorem ensureInit_no_alternative (md : MatchingData) (c : Nat) (b : Literal)
    (as : List Literal) (vars : List Nat) (hnew : md.isInitialized c = false)
    (h1 : md.bases.get? c = some b) (h2 : md.alts.get? c = some as)
    (h3 : createLiteralBindings b as md.instCl md.resolvedLit = .ok (vars, [])) :
    initResultOf (md.ensureInit c) = some .NO_ALTERNATIVE := by
  unfold MatchingData.ensureInit
  rw [hnew, h1, h2]
  simp only [Bool.false_eq_true, if_false, h3, List.length_nil, if_true]
  rfl

/-- Claim C24, counterexample: two inputs in which every listed alternative
is a validated instance of its base literal. First the base {P(X), Q(X)} with
the alternative P(a) for P(X) and the empty list for Q(X): the reordering
leaves Q(X) at index 1, and when it is initialised there,
`createLiteralBindings` creates no alternative for it, `ensureInit` signals
NO_ALTERNATIVE, not MUST_BACKTRACK, and `canBeMatched` returns false in this
pass without stepping back. Then the base {P(X), Q(X)} with two empty lists
and the resolved literal ¬P(a): P(X) at index 0 gets the complementary match
with the resolved literal and is initialised with the result OK, Q(X) at index
1 gets no alternative, and the result for it is NO_ALTERNATIVE as well. -/
theorem C24_no_alternative_counterexample :
    properAlts [P [a]] none [P [X], Q [X]] [[P [a]], []] = true ∧
    (MLMatcher.stateAt 1 (fun _ => false) [P [X], Q [X]] [P [a]] [[P [a]], []] none false).map
      (fun s => (s.currBLit, s.md.bases, s.md.isInitialized s.currBLit,
        initResultOf (s.md.ensureInit s.currBLit))) =
      some (1, [P [X], Q [X]], false, some .NO_ALTERNATIVE) ∧
    createLiteralBindings (Q [X]) [] [P [a]] none = .ok ([0], []) ∧
    (MLMatcher.stateAt 2 (fun _ => false) [P [X], Q [X]] [P [a]] [[P [a]], []] none
      false).isSome = false ∧
    MLMatcher.canBeMatched 2 (fun _ => false) [P [X], Q [X]] [P [a]] [[P [a]], []] none false
      = .result false ∧
    properAlts [] (some (notP [a])) [P [X], Q [X]] [[], []] = true ∧
    (MLMatcher.stateAt 0 (fun _ => false) [P [X], Q [X]] [] [[], []] (some (notP [a])) false).map
      (fun s => (s.currBLit, s.md.bases, initResultOf (s.md.ensureInit s.currBLit))) =
      some (0, [P [X], Q [X]], some .OK) ∧
    (MLMatcher.stateAt 1 (fun _ => false) [P [X], Q [X]] [] [[], []] (some (notP [a])) false).map
      (fun s => (s.currBLit, s.md.isInitialized s.currBLit,
        initResultOf (s.md.ensureInit s.currBLit))) = some (1, false, some .NO_ALTERNATIVE) ∧
    createLiteralBindings (Q [X]) [] [] (some (notP [a])) = .ok ([0], []) ∧
    MLMatcher.canBeMatched 2 (fun _ => false) [P [X], Q [X]] [] [[], []] (some (notP [a])) false
      = .result false := by
  refine ⟨by decide, by decide, by decide, by decide, by decide, by decide, by decide,
    by decide, by decide, by decide⟩

/-- Claim C24, amended: on proper input, in every state in which the outer
loop of `canBeMatched` starts a pass, `ensureInit` returns a result. The
result is NO_ALTERNATIVE exactly when the base literal is initialised in this
call and `createLiteralBindings` creates no alternative for it, whether it is
the first base literal or not; then `canBeMatched` returns false. The result
is MUST_BACKTRACK exactly when the base literal is initialised in this call,
`createLiteralBindings` creates alternatives for it, and every one of them
disagrees, on a shared variable, with the alternative to which some earlier
base literal is committed, so that none is left usable; this happens only for
a base literal that is not the first, and then `canBeMatched` steps back
exactly one base literal and goes on with the next pass of the loop. -/
theorem C24_ensureInit_signalling (baseLits : List Literal) (instCl : Clause)
    (alts : List (List Literal)) (resolvedLit : Option Literal) (multiset : Bool)
    (hne : baseLits ≠ []) (hlen : baseLits.length ≤ alts.length)
    (h32 : baseLits.length ≤ unclaimed)
    (hproper : properAlts instCl resolvedLit baseLits alts = true)
    (n : Nat) (tl : Nat → Bool) (s : SearchState)
    (hs : MLMatcher.stateAt n tl baseLits instCl alts resolvedLit multiset = some s) :
    ∃ res md1, s.md.ensureInit s.currBLit = .ok (res, md1) ∧
      (res = .NO_ALTERNATIVE ↔
        s.md.isInitialized s.currBLit = false ∧
        ∃ base lits vars, s.md.bases.get? s.currBLit = some base ∧
          s.md.alts.get? s.currBLit = some lits ∧
          createLiteralBindings base lits s.md.instCl s.md.resolvedLit = .ok (vars, [])) ∧
      (res = .NO_ALTERNATIVE → loopBody multiset s = .ok (.ret false) ∧
        ∀ fuel, searchLoop multiset tl (fuel + 1) s = .result false) ∧
      (res = .MUST_BACKTRACK →
        0 < s.currBLit ∧ s.md.isInitialized s.currBLit = false ∧
        md1.altBindings s.currBLit ≠ [] ∧ md1.remaining s.currBLit s.currBLit = 0 ∧
        loopBody multiset s = .ok (.again { s with md := md1, currBLit := s.currBLit - 1 }) ∧
        step multiset tl s = .next { s with md := md1, currBLit := s.currBLit - 1 }) ∧
      (res = .MUST_BACKTRACK ↔
        s.md.isInitialized s.currBLit = false ∧
        ∃ base lits vars created, s.md.bases.get? s.currBLit = some base ∧
          s.md.alts.get? s.currBLit = some lits ∧
          createLiteralBindings base lits s.md.instCl s.md.resolvedLit = .ok (vars, created) ∧
          created ≠ [] ∧
          ∀ x ∈ created, ∃ t ct bt, t < s.currBLit ∧ s.md.committed t = some ct ∧
            s.md.bases.get? t = some bt ∧ ¬ Agree bt ct base x) := by
  obtain ⟨V, A, recLen, hg⟩ := stateAt_good baseLits instCl alts resolvedLit multiset hne hlen
    h32 hproper
  have hgood := hg n tl s hs
  obtain ⟨⟨m, hinv, _⟩, hcr, _⟩ := hgood
  obtain ⟨res, md1, g1, _, _, _, g5, g6⟩ :=
    ensureInit_spec V A m s.currBLit s.md hinv.md hcr hinv.hc hinv.hcm
  obtain ⟨base, lits, k1, k2, k3, _⟩ := good_created multiset _ V A recLen s (hg n tl s hs)
    s.currBLit hinv.hc
  have huninit : s.currBLit = m → s.md.isInitialized s.currBLit = false := by
    intro hcm
    have := hinv.md.init s.currBLit
    rw [if_neg (by omega)] at this
    unfold MatchingData.isInitialized
    rw [this]
    rfl
  have hcases : s.currBLit < m ∨ s.currBLit = m := by
    have := hinv.hcm
    omega
  have hloop : loopBody multiset s =
      (match res with
        | .MUST_BACKTRACK => .ok (.again { s with md := md1, currBLit := s.currBLit - 1 })
        | .NO_ALTERNATIVE => .ok (.ret false)
        | .OK => loopBody multiset s) := by
    cases res with
    | OK => rfl
    | MUST_BACKTRACK =>
      unfold loopBody
      simp only [g1]
    | NO_ALTERNATIVE =>
      unfold loopBody
      simp only [g1]
  refine ⟨res, md1, g1, ?_, ?_, ?_, ?_⟩
  · constructor
    · intro hres
      rcases hcases with hlt | heq
      · have := (g5 hlt).2
        rw [hres] at this
        cases this
      · have hA := (g6 heq).1 hres
        rw [hA] at k3
        exact ⟨huninit heq, base, lits, _, k1, k2, k3⟩
    · rintro ⟨hnew, b2, l2, vars, q1, q2, q3⟩
      have := ensureInit_no_alternative s.md s.currBLit b2 l2 vars hnew q1 q2 q3
      rw [g1] at this
      simp only [initResultOf, Option.some.injEq] at this
      exact this
  · intro hres
    subst hres
    simp only [] at hloop
    refine ⟨hloop, fun fuel => ?_⟩
    rw [searchLoop]
    unfold step
    rw [hloop]
  · intro hres
    subst hres
    simp only [] at hloop
    rcases hcases with hlt | heq
    · have := (g5 hlt).2
      cases this
    · obtain ⟨hperm, hmd1, hmb, _⟩ := (g6 heq).2 (by simp)
      obtain ⟨hpos, hrem⟩ := hmb rfl
      refine ⟨hpos, huninit heq, ?_, hrem, hloop, ?_⟩
      · intro hnil
        rw [hnil] at hperm
        have hA : A s.currBLit = [] := List.Perm.eq_nil (hperm.symm)
        rw [hA] at k3
        have := ensureInit_no_alternative s.md s.currBLit base lits _ (huninit heq) k1 k2 k3
        rw [g1] at this
        simp [initResultOf] at this
      · unfold step
        rw [hloop]
  · have hnoalt : res = .NO_ALTERNATIVE → A s.currBLit = [] := by
      intro hres
      rcases hcases with hlt | heq
      · have := (g5 hlt).2
        rw [hres] at this
        cases this
      · exact (g6 heq).1 hres
    constructor
    · intro hres
      have hne : res ≠ .NO_ALTERNATIVE := by rw [hres]; simp
      rcases hcases with hlt | heq
      · have := (g5 hlt).2
        rw [hres] at this
        cases this
      · have hnew := huninit heq
        obtain ⟨b2, as2, q1, q2, q3, q4, _, _, q7, _, q9⟩ :=
          ensureInit_pruned multiset _ V A recLen s (hg n tl s hs) hnew res md1 g1 hne
        obtain ⟨_, hrem⟩ := q7 hres
        rw [k1] at q1
        cases q1
        refine ⟨hnew, base, lits, _, _, k1, k2, k3, ?_, ?_⟩
        · intro hnil
          rw [hnil] at k3
          have := ensureInit_no_alternative s.md s.currBLit base lits _ hnew k1 k2 k3
          rw [g1, hres] at this
          simp [initResultOf] at this
        · intro x hx
          apply q9 x
          rw [hrem, List.drop_zero]
          exact q4.mem_iff.2 hx
    · rintro ⟨hnew, b2, l2, vars, created, q1, q2, q3, hcne, hall⟩
      rw [k1] at q1
      rw [k2] at q2
      cases q1
      cases q2
      rw [k3] at q3
      simp only [Run.ok.injEq, Prod.mk.injEq] at q3
      obtain ⟨_, hA⟩ := q3
      subst hA
      have hne : res ≠ .NO_ALTERNATIVE := fun h => hcne (hnoalt h)
      obtain ⟨b3, as3, p1, _, _, p4, _, p6, _, p8, _⟩ :=
        ensureInit_pruned multiset _ V A recLen s (hg n tl s hs) hnew res md1 g1 hne
      rw [k1] at p1
      cases p1
      cases hres : res with
      | MUST_BACKTRACK => rfl
      | NO_ALTERNATIVE => exact absurd hres hne
      | OK =>
        exfalso
        have hpos := p6 hres
        have hlen : 0 < (md1.altBindings s.currBLit).length := by
          by_contra hc
          have hnil : md1.altBindings s.currBLit = [] := List.length_eq_zero.1 (by omega)
          rw [hnil] at p4
          exact hcne (List.Perm.eq_nil p4.symm)
        have hx : (md1.altBindings s.currBLit)[0] ∈
            (md1.altBindings s.currBLit).take (md1.remaining s.currBLit s.currBLit) := by
          rw [List.mem_take_iff_getElem]
          exact ⟨0, by omega, rfl⟩
        obtain ⟨t, ct, bt, ht, hct, hbt, hdis⟩ :=
          hall _ (p4.mem_iff.1 (List.getElem_mem hlen))
        obtain ⟨ct2, bt2, hct2, hbt2, hag⟩ := p8 _ hx t ht
        rw [hct] at hct2
        rw [hbt] at hbt2
        cases hct2
        cases hbt2
        exact hdis hag

/-- The statement of the amended C24 at the base {P(X), Q(X)} with the
alternatives P(a) and Q(b), after the first pass of the loop: the only
alternative of Q(X) disagrees with the commitment of P(X), `ensureInit`
signals MUST_BACKTRACK. -/
theorem C24_ensureInit_signalling_witness :
    ∃ s, MLMatcher.stateAt 1 (fun _ => false) [P [X], Q [X]] [P [a], Q [b]]
        [[P [a]], [Q [b]]] none false = some s ∧
      initResultOf (s.md.ensureInit s.currBLit) = some .MUST_BACKTRACK ∧
      ∃ res md1, s.md.ensureInit s.currBLit = .ok (res, md1) ∧
        (res = .MUST_BACKTRACK →
          0 < s.currBLit ∧ s.md.isInitialized s.currBLit = false ∧
          md1.altBindings s.currBLit ≠ [] ∧ md1.remaining s.currBLit s.currBLit = 0 ∧
          loopBody false s = .ok (.again { s with md := md1, currBLit := s.currBLit - 1 }) ∧
          step false (fun _ => false) s =
            .next { s with md := md1, currBLit := s.currBLit - 1 }) :=
  ⟨(MLMatcher.stateAt 1 (fun _ => false) [P [X], Q [X]] [P [a], Q [b]]
      [[P [a]], [Q [b]]] none false).get (by decide),
    (Option.some_get _).symm, by decide,
    (C24_ensureInit_signalling [P [X], Q [X]] [P [a], Q [b]] [[P [a]], [Q [b]]] none false
      (by decide) (by decide) (by decide) (by decide) 1 (fun _ => false)
      ((MLMatcher.stateAt 1 (fun _ => false) [P [X], Q [X]] [P [a], Q [b]]
        [[P [a]], [Q [b]]] none false).get (by decide))
      (Option.some_get _).symm).imp fun res h1 => h1.imp fun md1 h2 => ⟨h2.1, h2.2.2.2.1⟩⟩

end Kernel


namespace Kernel

open Indexing (Run Fault)
open Example

/-- Two exchanges of the same two entries leave an array as it was. -/
theorem swapAt_swapAt {α : Type} (l : List α) (i j : Nat) : swapAt (swapAt l i j) i j = l := by
  by_cases h : i < l.length ∧ j < l.length
  · apply List.ext_get?
    intro k
    rw [swapAt_get _ i j (by rw [swapAt_length]; exact h.1) (by rw [swapAt_length]; exact h.2),
      swapAt_get _ i j h.1 h.2, Equiv.swap_apply_self]
  · rw [swapAt_out l i j h, swapAt_out l i j h]

end Kernel


namespace Kernel

open Indexing (Run Fault)
open Example

/-- The invariant of the reordering loop after a pass, for arrays that are
the arrays before the pass read through a map `π` of the indices. -/
theorem inv_of_read (r : Option Literal) (B A0 : List Literal) (A A1 : List (List Literal))
    (s s1 i : Nat) (π : Nat → Nat) (lit : Literal) (lits : List Literal)
    (hrd : ∀ k, A0.get? k = B.get? (π k) ∧ A1.get? k = A.get? (π k))
    (hold : ∀ k l ls, k < i → B.get? k = some l → A.get? k = some ls →
      (forcedSlot r l ls = true ↔ k < s))
    (h1 : B.get? i = some lit) (h2 : A.get? i = some lits)
    (hπ : ∀ k, k < i + 1 → (π k < i ∧ (k < s1 ↔ π k < s)) ∨
      (π k = i ∧ (k < s1 ↔ forcedSlot r lit lits = true))) :
    ∀ k l ls, k < i + 1 → A0.get? k = some l → A1.get? k = some ls →
      (forcedSlot r l ls = true ↔ k < s1) := by
  intro k l ls hk g1 g2
  rw [(hrd k).1] at g1
  rw [(hrd k).2] at g2
  rcases hπ k hk with ⟨q1, q2⟩ | ⟨q1, q2⟩
  · rw [q2]
    exact hold (π k) l ls q1 g1 g2
  · rw [q1, h1] at g1
    rw [q1, h2] at g2
    cases g1
    cases g2
    exact q2.symm

/-- One pass of the reordering loop keeps the invariant. -/
theorem step_inv (r : Option Literal) (len : Nat) (st st1 : Reorder) (i : Nat)
    (hinv : Reorder.Inv r len st i) (hi : i < len) (hstep : st.step r i = .ok st1) :
    Reorder.Inv r len st1 (i + 1) := by
  obtain ⟨hB, hA, hz, hs, hold⟩ := hinv
  have h1 : st.baseLits.get? i = some st.baseLits[i] := by simp [hB, hi]
  have h2 : st.altsArr.get? i = some st.altsArr[i] := by simp [hA, hi]
  generalize st.baseLits[i] = lit at h1
  generalize st.altsArr[i] = lits at h2
  have hid : ∀ k, st.baseLits.get? k = st.baseLits.get? (id k) ∧
      st.altsArr.get? k = st.altsArr.get? (id k) := fun k => ⟨rfl, rfl⟩
  unfold Reorder.step at hstep
  rw [h1, h2] at hstep
  simp only [] at hstep
  by_cases c0 : countAlts lits = 0
  · have hf : forcedSlot r lit lits = true := by simp [forcedSlot, c0]
    rw [if_pos c0] at hstep
    by_cases hzi : st.zeroAlts = i
    · simp only [hzi, ne_eq, not_true_eq_false, if_false, Run.ok.injEq] at hstep
      subst hstep
      refine ⟨hB, hA, by simp only []; omega, by simp only []; omega, ?_⟩
      refine inv_of_read r _ _ _ _ st.singleAlts _ i id lit lits hid hold h1 h2 ?_
      intro k hk
      simp only [id, hf, iff_true]
      omega
    · by_cases hsz : st.singleAlts = st.zeroAlts
      · simp only [hzi, hsz, ne_eq, not_false_eq_true, not_true_eq_false, if_true, if_false,
          Run.ok.injEq] at hstep
        subst hstep
        refine ⟨by simp only [Reorder.swapLits, swapAt_length]; exact hB,
          by simp only [Reorder.swapLits, swapAt_length]; exact hA,
          by simp only []; omega, by simp only []; omega, ?_⟩
        refine inv_of_read r st.baseLits _ st.altsArr _ st.singleAlts _ i
          (fun k => Equiv.swap i st.zeroAlts k) lit lits ?_ hold h1 h2 ?_
        · intro k
          exact ⟨swapAt_get _ i st.zeroAlts (by omega) (by omega) k,
            swapAt_get _ i st.zeroAlts (by omega) (by omega) k⟩
        · intro k hk
          simp only [Equiv.swap_apply_def, hf, iff_true]
          split_ifs <;> omega
      · simp only [hzi, hsz, ne_eq, not_false_eq_true, if_true, Run.ok.injEq] at hstep
        subst hstep
        refine ⟨by simp only [Reorder.swapLits, swapAt_length]; exact hB,
          by simp only [Reorder.swapLits, swapAt_length]; exact hA,
          by simp only []; omega, by simp only []; omega, ?_⟩
        refine inv_of_read r st.baseLits _ st.altsArr _ st.singleAlts _ i
          (fun k => Equiv.swap st.singleAlts st.zeroAlts (Equiv.swap i st.zeroAlts k)) lit lits
          ?_ hold h1 h2 ?_
        · intro k
          constructor
          · show (swapAt (swapAt st.baseLits st.singleAlts st.zeroAlts) i st.zeroAlts).get? k = _
            rw [swapAt_get _ i st.zeroAlts (by rw [swapAt_length]; omega)
              (by rw [swapAt_length]; omega) k,
              swapAt_get _ st.singleAlts st.zeroAlts (by omega) (by omega)]
          · show (swapAt (swapAt st.altsArr st.singleAlts st.zeroAlts) i st.zeroAlts).get? k = _
            rw [swapAt_get _ i st.zeroAlts (by rw [swapAt_length]; omega)
              (by rw [swapAt_length]; omega) k,
              swapAt_get _ st.singleAlts st.zeroAlts (by omega) (by omega)]
        · intro k hk
          simp only [Equiv.swap_apply_def, hf, iff_true]
          split_ifs <;> omega
  · rw [if_neg c0] at hstep
    split at hstep
    · rename_i c1
      have hf : forcedSlot r lit lits = true := by
        obtain ⟨c11, c12⟩ := c1
        cases r with
        | none => simp [forcedSlot, c11]
        | some x =>
          simp only [] at c12
          simp [forcedSlot, c11, c12]
      by_cases hsi : st.singleAlts = i
      · simp only [hsi, ne_eq, not_true_eq_false, if_false, Run.ok.injEq] at hstep
        subst hstep
        refine ⟨hB, hA, by simp only []; omega, by simp only []; omega, ?_⟩
        refine inv_of_read r _ _ _ _ st.singleAlts _ i id lit lits hid hold h1 h2 ?_
        intro k hk
        simp only [id, hf, iff_true]
        omega
      · simp only [hsi, ne_eq, not_false_eq_true, if_true, Run.ok.injEq] at hstep
        subst hstep
        refine ⟨by simp only [Reorder.swapLits, swapAt_length]; exact hB,
          by simp only [Reorder.swapLits, swapAt_length]; exact hA,
          by simp only [Reorder.swapLits]; omega, by simp only []; omega, ?_⟩
        refine inv_of_read r st.baseLits _ st.altsArr _ st.singleAlts _ i
          (fun k => Equiv.swap i st.singleAlts k) lit lits ?_ hold h1 h2 ?_
        · intro k
          exact ⟨swapAt_get _ i st.singleAlts (by omega) (by omega) k,
            swapAt_get _ i st.singleAlts (by omega) (by omega) k⟩
        · intro k hk
          simp only [Equiv.swap_apply_def, hf, iff_true]
          split_ifs <;> omega
    · rename_i c1
      have hf : forcedSlot r lit lits = false := by
        cases r with
        | none =>
          simp only [and_true, true_and] at c1
          simp [forcedSlot, c0, c1]
        | some x =>
          simp only [] at c1
          simp only [forcedSlot, c0, decide_False, Bool.false_or, Bool.and_eq_false_imp,
            decide_eq_true_eq, Bool.not_eq_false']
          intro h
          by_contra hc
          exact c1 ⟨h, by simpa using hc⟩
      have harr : st1.baseLits = st.baseLits ∧ st1.altsArr = st.altsArr ∧
          st1.zeroAlts = st.zeroAlts ∧ st1.singleAlts = st.singleAlts := by
        split at hstep
        · simp only [Run.ok.injEq] at hstep
          subst hstep
          exact ⟨rfl, rfl, rfl, rfl⟩
        · simp only [Run.ok.injEq] at hstep
          subst hstep
          exact ⟨rfl, rfl, rfl, rfl⟩
      obtain ⟨e1, e2, e3, e4⟩ := harr
      refine ⟨by rw [e1]; exact hB, by rw [e2]; exact hA, by omega, by omega, ?_⟩
      rw [e1, e2, e4]
      refine inv_of_read r _ _ _ _ st.singleAlts _ i id lit lits hid hold h1 h2 ?_
      intro k hk
      simp only [id, hf, Bool.false_eq_true, iff_false, iff_self, and_true]
      omega

/-- The reordering loop keeps the invariant. -/
theorem loop_inv (r : Option Literal) (len : Nat) :
    ∀ (n i : Nat) (st st1 : Reorder), Reorder.Inv r len st i → i + n = len →
      Reorder.loop r n i st = .ok st1 → Reorder.Inv r len st1 len := by
  intro n
  induction n with
  | zero =>
    intro i st st1 hinv hn h
    rw [Reorder.loop] at h
    cases h
    have : i = len := by omega
    subst this
    exact hinv
  | succ n ih =>
    intro i st st1 hinv hn h
    rw [Reorder.loop] at h
    cases hs : st.step r i with
    | fault f => rw [hs] at h; cases h
    | ok st2 =>
      rw [hs] at h
      exact ih (i + 1) st2 st1 (step_inv r len st st2 i hinv (by omega) hs) (by omega) h

/-- What the reordering of `getMatchingData` achieves: the base literals that
have no alternative, or one alternative and no possible match with the
resolved literal, stand before all the others. Among themselves they are in no
particular order. -/
theorem reorder_forced_first (baseLits0 : List Literal) (alts : List (List Literal))
    (r : Option Literal) (bs : List Literal) (as : List (List Literal))
    (hlen : baseLits0.length ≤ alts.length)
    (h : reorderLits baseLits0 alts r = .ok (bs, as)) :
    ∃ s, ∀ k lit lits, bs.get? k = some lit → as.get? k = some lits →
      (forcedSlot r lit lits = true ↔ k < s) := by
  unfold reorderLits at h
  cases baseLits0 with
  | nil => cases h
  | cons first rest =>
    simp only [] at h
    cases hl : Reorder.loop r (first :: rest).length 0
        ⟨first :: rest, alts.take (first :: rest).length, 0, 0, 0, first.getDistinctVars⟩ with
    | fault f => rw [hl] at h; cases h
    | ok st =>
      rw [hl] at h
      simp only [] at h
      have hinv0 : Reorder.Inv r (first :: rest).length
          ⟨first :: rest, alts.take (first :: rest).length, 0, 0, 0, first.getDistinctVars⟩ 0 := by
        refine ⟨rfl, ?_, Nat.le_refl _, Nat.le_refl _, ?_⟩
        · simp only [List.length_take]
          omega
        · intro k lit lits hk
          omega
      obtain ⟨hB, hA, _, hs, hold⟩ := loop_inv r _ _ 0 _ st hinv0 (by omega) hl
      have hrange : ∀ k lit, st.baseLits.get? k = some lit → k < (first :: rest).length := by
        intro k lit hk
        rw [← hB]
        exact (List.get?_eq_some.1 hk).1
      split at h
      · rename_i hm
        simp only [Run.ok.injEq, Prod.mk.injEq] at h
        obtain ⟨e1, e2⟩ := h
        by_cases hml : st.mostDistVarsLit < (first :: rest).length
        · refine ⟨st.singleAlts, fun k lit lits g1 g2 => ?_⟩
          rw [← e1] at g1
          rw [← e2] at g2
          have r1 : (swapAt st.baseLits st.mostDistVarsLit st.singleAlts).get? k = some lit := g1
          have r2 : (swapAt st.altsArr st.mostDistVarsLit st.singleAlts).get? k = some lits := g2
          rw [swapAt_get _ _ _ (by omega) (by omega)] at r1 r2
          have hk := hrange _ lit r1
          have := hold _ lit lits hk r1 r2
          rw [this]
          simp only [Equiv.swap_apply_def]
          split_ifs <;> omega
        · refine ⟨st.singleAlts, fun k lit lits g1 g2 => ?_⟩
          rw [← e1] at g1
          rw [← e2] at g2
          have r1 : (swapAt st.baseLits st.mostDistVarsLit st.singleAlts).get? k = some lit := g1
          have r2 : (swapAt st.altsArr st.mostDistVarsLit st.singleAlts).get? k = some lits := g2
          rw [swapAt_out _ _ _ (by omega)] at r1 r2
          exact hold k lit lits (hrange k lit r1) r1 r2
      · simp only [Run.ok.injEq, Prod.mk.injEq] at h
        obtain ⟨e1, e2⟩ := h
        refine ⟨st.singleAlts, fun k lit lits g1 g2 => ?_⟩
        rw [← e1] at g1
        rw [← e2] at g2
        exact hold k lit lits (hrange k lit g1) g1 g2

/-- Claim C29, as the code behaves: when the reordering loop of
`getMatchingData` comes to a base literal without alternatives at the index
`i = singleAlts` while `zeroAlts < singleAlts` (all base literals before it
have at most one alternative, and one of them has one), the pass executes
`swapLits(singleAlts, zeroAlts)` and then `swapLits(i, zeroAlts)`, which
exchange the same two entries twice: the arrays stay as they are, and the
base literal without alternatives stays behind the base literals with one
alternative. So for the base {P(X), Q(X)} with one alternative for P(X) and
none for Q(X) the order is unchanged, and `canBeMatched` finds out that there
is no match in its second pass only, while it does so in the first pass when
the base literals are given in the other order. What the loop does achieve is
that a base literal without alternatives stands before every base literal that
has two or more alternatives, or one alternative and a possible match with
the resolved literal. -/
theorem C29_zero_alternatives_not_first :
    (∀ (resolvedLit : Option Literal) (st : Reorder) (i : Nat) (lit : Literal)
      (lits : List Literal),
      st.baseLits.get? i = some lit → st.altsArr.get? i = some lits → countAlts lits = 0 →
      st.singleAlts = i → st.zeroAlts ≠ i →
      ∃ st1, st.step resolvedLit i = .ok st1 ∧ st1.baseLits = st.baseLits ∧
        st1.altsArr = st.altsArr ∧ st1.zeroAlts = st.zeroAlts + 1 ∧ st1.singleAlts = i + 1) ∧
    reorderLits [P [X], Q [X]] [[P [a]], []] none = .ok ([P [X], Q [X]], [[P [a]], []]) ∧
    reorderLits [P [X], Q [X], R [X]] [[P [a]], [], []] none =
      .ok ([P [X], Q [X], R [X]], [[P [a]], [], []]) ∧
    MLMatcher.canBeMatched 1 (fun _ => false) [P [X], Q [X]] [P [a]] [[P [a]], []] none false
      = .fault .outOfFuel ∧
    MLMatcher.canBeMatched 2 (fun _ => false) [P [X], Q [X]] [P [a]] [[P [a]], []] none false
      = .result false ∧
    MLMatcher.canBeMatched 1 (fun _ => false) [Q [X], P [X]] [P [a]] [[], [P [a]]] none false
      = .result false ∧
    (∀ (baseLits0 : List Literal) (alts : List (List Literal)) (r : Option Literal)
      (bs : List Literal) (as : List (List Literal)),
      baseLits0.length ≤ alts.length → reorderLits baseLits0 alts r = .ok (bs, as) →
      ∀ j k lj aj lk ak, bs.get? j = some lj → as.get? j = some aj →
        bs.get? k = some lk → as.get? k = some ak →
        countAlts aj = 0 → forcedSlot r lk ak = false → j < k) := by
  refine ⟨?_, by decide, by decide, by decide, by decide, by decide, ?_⟩
  rotate_left
  · intro baseLits0 alts r bs as hlen h j k lj aj lk ak g1 g2 g3 g4 hz hf
    obtain ⟨s, hs⟩ := reorder_forced_first baseLits0 alts r bs as hlen h
    have h1 : j < s := (hs j lj aj g1 g2).1 (by simp [forcedSlot, hz])
    have h2 : ¬ k < s := fun hk => by
      have := (hs k lk ak g3 g4).2 hk
      rw [hf] at this
      cases this
    omega
  intro resolvedLit st i lit lits h1 h2 h3 h4 h5
  have h6 : st.singleAlts ≠ st.zeroAlts := by
    rw [h4]
    exact fun h => h5 h.symm
  have ex : ∃ st1, st.step resolvedLit i = .ok st1 := by
    unfold Reorder.step
    rw [h1, h2]
    simp only [h3, if_true]
    exact ⟨_, rfl⟩
  obtain ⟨st1, hst⟩ := ex
  refine ⟨st1, hst, ?_⟩
  unfold Reorder.step at hst
  rw [h1, h2] at hst
  simp only [h3, if_true, h5, h6, ne_eq, not_false_eq_true, Run.ok.injEq] at hst
  rw [← hst]
  refine ⟨?_, ?_, rfl, ?_⟩
  · show swapAt (swapAt st.baseLits st.singleAlts st.zeroAlts) i st.zeroAlts = st.baseLits
    rw [h4]
    exact swapAt_swapAt _ _ _
  · show swapAt (swapAt st.altsArr st.singleAlts st.zeroAlts) i st.zeroAlts = st.altsArr
    rw [h4]
    exact swapAt_swapAt _ _ _
  · show st.singleAlts + 1 = i + 1
    rw [h4]

/-- Claim C30, as the code behaves: a base literal with exactly one
alternative can stay before a base literal without alternatives. For the base
{P(X), Q(Y), R(X,Y)} with one alternative for P(X), none for Q(Y) and two for
R(X,Y), the order after the reordering is P(X), Q(Y), R(X,Y): the two
exchanges made for Q(Y) cancel each other. The exception for the resolved
literal is made as claimed: with the resolved literal ¬P(c) the base literal
P(X), which has one alternative, is not moved before R(X,Y), as it is without
a resolved literal. What the loop does achieve is that the base literals that
have no alternative, or exactly one and no possible match with the resolved
literal, stand, in some order, before all the others. -/
theorem C30_single_alternative_before_zero :
    (∀ (baseLits0 : List Literal) (alts : List (List Literal)) (r : Option Literal)
      (bs : List Literal) (as : List (List Literal)),
      baseLits0.length ≤ alts.length → reorderLits baseLits0 alts r = .ok (bs, as) →
      ∃ s, ∀ k lit lits, bs.get? k = some lit → as.get? k = some lits →
        (forcedSlot r lit lits = true ↔ k < s)) ∧
    reorderLits [P [X], Q [Y], R [X, Y]] [[P [a]], [], [R [a, b], R [b, a]]] none =
      .ok ([P [X], Q [Y], R [X, Y]], [[P [a]], [], [R [a, b], R [b, a]]]) ∧
    reorderLits [R [X, Y], P [X], Q [Y]] [[R [a, b], R [b, a]], [P [a]], []] none =
      .ok ([Q [Y], P [X], R [X, Y]], [[], [P [a]], [R [a, b], R [b, a]]]) ∧
    reorderLits [R [X, Y], P [X]] [[R [a, b], R [b, a]], [P [a]]] none =
      .ok ([P [X], R [X, Y]], [[P [a]], [R [a, b], R [b, a]]]) ∧
    reorderLits [R [X, Y], P [X]] [[R [a, b], R [b, a]], [P [a]]] (some (notP [c])) =
      .ok ([R [X, Y], P [X]], [[R [a, b], R [b, a]], [P [a]]]) := by
  refine ⟨reorder_forced_first, by decide, by decide, by decide, by decide⟩

end Kernel


namespace Indexing

open Kernel

/-- When a pass of the loop returns false, the choice-point stack of the
context it leaves behind is empty. -/
theorem loopBody_ret_false_stack (mem : List CodeBlock) (ctx : EContext) (res r : Nat)
    (c1 : EContext) (h : TermCodeTree.loopBody mem ctx res = .ok (.ret false r c1)) :
    c1.btStack = [] := by
  cases hd : deref mem ctx.op with
  | fault e => simp [TermCodeTree.loopBody, hd] at h
  | ok op =>
    obtain ⟨i, alt⟩ := op
    rw [loopBody_eq mem ctx res i alt hd] at h
    have key : ∀ b c, TermCodeTree.afterInstr res (b, c) = .ret false r c1 → c1.btStack = [] := by
      intro b c hh
      unfold TermCodeTree.afterInstr at hh
      cases b with
      | true => simp at hh
      | false =>
        simp only [Bool.false_eq_true, if_false] at hh
        cases hb : c.backtrack with
        | none =>
          rw [hb] at hh
          simp only [LoopStep.ret.injEq, true_and] at hh
          rw [← hh.2]
          unfold EContext.backtrack at hb
          cases hs : c.btStack with
          | nil => rfl
          | cons bp rest => rw [hs] at hb; simp at hb
        | some c2 => rw [hb] at hh; simp at hh
    cases i with
    | SUCCESS r0 => simp [loopBodySpec] at h
    | NEXT_LIT => simp [loopBodySpec] at h
    | FAIL => simp only [loopBodySpec, execInstr, Run.ok.injEq] at h; exact key _ _ h
    | CHECK_FUN f =>
      simp only [loopBodySpec] at h
      cases hx : execInstr ctx.ft (.CHECK_FUN f) ctx.tp ctx.bindings with
      | fault e => rw [hx] at h; simp at h
      | ok o =>
        rw [hx] at h
        cases o with
        | none => simp only [Run.ok.injEq] at h; exact key _ _ h
        | some v => simp only [Run.ok.injEq] at h; exact key _ _ h
    | ASSIGN_VAR f =>
      simp only [loopBodySpec] at h
      cases hx : execInstr ctx.ft (.ASSIGN_VAR f) ctx.tp ctx.bindings with
      | fault e => rw [hx] at h; simp at h
      | ok o =>
        rw [hx] at h
        cases o with
        | none => simp only [Run.ok.injEq] at h; exact key _ _ h
        | some v => simp only [Run.ok.injEq] at h; exact key _ _ h
    | CHECK_VAR f =>
      simp only [loopBodySpec] at h
      cases hx : execInstr ctx.ft (.CHECK_VAR f) ctx.tp ctx.bindings with
      | fault e => rw [hx] at h; simp at h
      | ok o =>
        rw [hx] at h
        cases o with
        | none => simp only [Run.ok.injEq] at h; exact key _ _ h
        | some v => simp only [Run.ok.injEq] at h; exact key _ _ h

/-- A run of the loop that ends with false hands back the `res` it was given
and a context with the flag `fresh` of the start and an empty stack. -/
theorem nextLoop_false (mem : List CodeBlock) (k : Nat) :
    ∀ (ctx c1 : EContext) (res r : Nat),
      TermCodeTree.nextLoop mem k ctx res = .ok (false, r, c1) →
      r = res ∧ c1.fresh = ctx.fresh ∧ c1.btStack = [] := by
  induction k with
  | zero => intro ctx c1 res r h; simp [TermCodeTree.nextLoop] at h
  | succ k ih =>
    intro ctx c1 res r h
    simp only [TermCodeTree.nextLoop] at h
    cases hb : TermCodeTree.loopBody mem ctx res with
    | fault f => rw [hb] at h; simp at h
    | ok s =>
      rw [hb] at h
      cases s with
      | ret b r2 c2 =>
        simp only [Run.ok.injEq, Prod.mk.injEq] at h
        obtain ⟨h1, h2, h3⟩ := h
        subst h1 h2 h3
        exact ⟨loopBody_ret_false_res mem ctx res _ _ hb,
          (loopBody_fresh mem ctx res).1 _ _ _ hb, loopBody_ret_false_stack mem ctx res _ _ hb⟩
      | again c2 =>
        simp only at h
        obtain ⟨g1, g2, g3⟩ := ih c2 c1 res r h
        exact ⟨g1, g2.trans ((loopBody_fresh mem ctx res).2 _ hb), g3⟩

/-- Claim C38: exhaustion is permanent. When `TermCodeTree.next` returns false
it hands back the `res` it was given, and the context it leaves behind is
not fresh and has an empty choice-point stack; hence every later call of
`next` on that context, with any fuel and any `res`, returns false again,
leaves `res` as it was and leaves the context as it was (so the same holds
for the call after it, and so on). -/
theorem C38_exhaustion_permanent (tree : CodeTree) (fuel res r : Nat) (ctx c1 : EContext)
    (h : TermCodeTree.next tree fuel ctx res = .ok (false, r, c1)) :
    r = res ∧ c1.fresh = false ∧ c1.btStack = [] ∧
      ∀ fuel2 res2, TermCodeTree.next tree fuel2 c1 res2 = .ok (false, res2, c1) := by
  have key : r = res ∧ c1.fresh = false ∧ c1.btStack = [] := by
    unfold TermCodeTree.next at h
    by_cases hf : ctx.fresh = true
    · simp only [hf, if_true] at h
      exact nextLoop_false tree.mem fuel _ c1 res r h
    · simp only [hf, Bool.false_eq_true, if_false] at h
      have hf0 : ctx.fresh = false := by simpa using hf
      cases hb : ctx.backtrack with
      | none =>
        rw [hb] at h
        simp only [Run.ok.injEq, Prod.mk.injEq, true_and] at h
        obtain ⟨h1, h2⟩ := h
        subst h1 h2
        refine ⟨rfl, hf0, ?_⟩
        unfold EContext.backtrack at hb
        cases hs : ctx.btStack with
        | nil => rfl
        | cons bp rest => rw [hs] at hb; simp at hb
      | some c =>
        rw [hb] at h
        exact nextLoop_false tree.mem fuel _ c1 res r h
  refine ⟨key.1, key.2.1, key.2.2, fun fuel2 res2 => ?_⟩
  unfold TermCodeTree.next EContext.backtrack
  simp only [key.2.1, Bool.false_eq_true, if_false, key.2.2]

/-- The statement of C38 at the tree that holds the constant 0 alone, queried
with the constant 1: the first call of `next` on the fresh context returns
false, and so does every later call on the context it leaves behind. -/
theorem C38_exhaustion_permanent_witness :
    TermCodeTree.next ⟨0, some 0, [[⟨.CHECK_FUN 0, none⟩, ⟨.SUCCESS 0, none⟩]]⟩ 5
        ⟨true, 0, ⟨0, 0⟩, [], [], FlatTerm.create (.term 1 [])⟩ 7 =
      .ok (false, 7, ⟨false, 0, ⟨0, 0⟩, [], [], FlatTerm.create (.term 1 [])⟩) ∧
    ∀ fuel2 res2,
      TermCodeTree.next ⟨0, some 0, [[⟨.CHECK_FUN 0, none⟩, ⟨.SUCCESS 0, none⟩]]⟩ fuel2
          ⟨false, 0, ⟨0, 0⟩, [], [], FlatTerm.create (.term 1 [])⟩ res2 =
        .ok (false, res2, ⟨false, 0, ⟨0, 0⟩, [], [], FlatTerm.create (.term 1 [])⟩) :=
  ⟨by decide,
    (C38_exhaustion_permanent ⟨0, some 0, [[⟨.CHECK_FUN 0, none⟩, ⟨.SUCCESS 0, none⟩]]⟩ 5 7 7
      ⟨true, 0, ⟨0, 0⟩, [], [], FlatTerm.create (.term 1 [])⟩
      ⟨false, 0, ⟨0, 0⟩, [], [], FlatTerm.create (.term 1 [])⟩ (by decide)).2.2.2⟩

end Indexing


namespace Indexing

open Kernel

/-- An instruction of a compiled sequence that is followed by further
instructions does not end a path. -/
theorem compiled_inner (tree : CodeTree) (pat : Pattern) (pre rest : List OpCode) (c : OpCode)
    (hcode : (tree.compilePattern pat).1 = pre ++ c :: rest) (hrest : rest ≠ []) :
    c.instr.terminal = false := by
  obtain ⟨body, hb, hprops⟩ := compile_props pat
  rw [(compilePattern_tree tree pat).1, hb] at hcode
  have hlen := congrArg List.length hcode
  simp only [List.length_map, List.length_append, List.length_cons, List.length_nil] at hlen
  have hr : 0 < rest.length := List.length_pos.2 hrest
  have hlt : pre.length < body.length := by omega
  have hget := congrArg (fun l => l[pre.length]?) hcode
  simp only [List.getElem?_map, List.getElem?_append_right (Nat.le_refl _), Nat.sub_self,
    List.getElem?_cons_zero, List.getElem?_append_left hlt] at hget
  rw [List.getElem?_eq_getElem hlt] at hget
  simp only [Option.map_some', Option.some.injEq] at hget
  rw [← hget]
  exact (hprops _ (List.getElem_mem hlt)).1

/-- Claim C40: cursor safety in `incorporate`. In a tree built by compiling
and incorporating patterns, let the walk of `incorporate` stand at an
instruction `c` of a compiled sequence that is followed by further
instructions of the sequence, and let the inner loop over the alternatives
end at a tree instruction equal to `c`. Then this tree instruction is not the
last one of its block, the cursor advanced by one addresses an instruction of
the same block, and the walk goes on from there with the rest of the
sequence. -/
theorem C40_cursor_safety (pats : List Pattern) (tree : CodeTree) (pat : Pattern)
    (pre rest : List OpCode) (c : OpCode) (treeOp p : Ptr) (op : OpCode)
    (hbuilt : CodeTree.insertPatterns CodeTree.empty pats = .ok tree)
    (hcode : (tree.compilePattern pat).1 = pre ++ c :: rest) (hrest : rest ≠ [])
    (hskip : CodeTree.skipAlternatives tree.mem c (tree.mem.length + 1) treeOp = .ok p)
    (hd : deref tree.mem p = .ok op) (hm : c.eqModAlt op = true) :
    (∃ blk, tree.mem[p.blk]? = some blk ∧ p.ofs + 1 < blk.length) ∧
    validPtr tree.mem ⟨p.blk, p.ofs + 1⟩ ∧
    CodeTree.incorporateLoop tree.mem (tree.compilePattern pat).1 (c :: rest) treeOp =
      CodeTree.incorporateLoop tree.mem (tree.compilePattern pat).1 rest ⟨p.blk, p.ofs + 1⟩ := by
  have hinv := (insertPatterns_ok pats CodeTree.empty tree treeOK_empty hbuilt).1
  have hterm := compiled_inner tree pat pre rest c hcode hrest
  have heq : c.instr = op.instr := by
    simpa [OpCode.eqModAlt] using hm
  rw [heq] at hterm
  have hv := (treeOK_next tree hinv p op hd).2 hterm
  refine ⟨?_, hv, ?_⟩
  · obtain ⟨op1, h1⟩ := hv
    obtain ⟨blk, g1, g2⟩ := deref_ok_get tree.mem _ op1 h1
    refine ⟨blk, g1, ?_⟩
    by_contra hc
    rw [List.getElem?_eq_none (by simpa using hc)] at g2
    cases g2
  · rw [CodeTree.incorporateLoop, hskip]
    simp only [hd, hm, Bool.not_true, Bool.false_eq_true, if_false]

/-- The statement of C40 at the tree of f(X,Y), for the first instruction of
the compiled sequence of f(X,X): CHECK_FUN f is matched by the first
instruction of the root block, which has four instructions, and the walk goes
on at the second. -/
theorem C40_cursor_safety_witness :
    (∃ blk, ([[⟨.CHECK_FUN 0, none⟩, ⟨.ASSIGN_VAR 0, none⟩, ⟨.ASSIGN_VAR 1, none⟩,
          ⟨.SUCCESS 0, none⟩]] : List CodeBlock)[0]? = some blk ∧ 0 + 1 < blk.length) ∧
    validPtr [[⟨.CHECK_FUN 0, none⟩, ⟨.ASSIGN_VAR 0, none⟩, ⟨.ASSIGN_VAR 1, none⟩,
          ⟨.SUCCESS 0, none⟩]] ⟨0, 0 + 1⟩ :=
  ⟨(C40_cursor_safety [.term (.term 0 [.var 0, .var 1])]
      ⟨2, some 0, [[⟨.CHECK_FUN 0, none⟩, ⟨.ASSIGN_VAR 0, none⟩, ⟨.ASSIGN_VAR 1, none⟩,
          ⟨.SUCCESS 0, none⟩]]⟩
      (.term (.term 0 [.var 0, .var 0])) []
      [⟨.ASSIGN_VAR 0, none⟩, ⟨.CHECK_VAR 0, none⟩, ⟨.SUCCESS 0, none⟩]
      ⟨.CHECK_FUN 0, none⟩ ⟨0, 0⟩ ⟨0, 0⟩ ⟨.CHECK_FUN 0, none⟩
      (by decide) (by decide) (by decide) (by decide) (by decide) (by decide)).1,
    (C40_cursor_safety [.term (.term 0 [.var 0, .var 1])]
      ⟨2, some 0, [[⟨.CHECK_FUN 0, none⟩, ⟨.ASSIGN_VAR 0, none⟩, ⟨.ASSIGN_VAR 1, none⟩,
          ⟨.SUCCESS 0, none⟩]]⟩
      (.term (.term 0 [.var 0, .var 0])) []
      [⟨.ASSIGN_VAR 0, none⟩, ⟨.CHECK_VAR 0, none⟩, ⟨.SUCCESS 0, none⟩]
      ⟨.CHECK_FUN 0, none⟩ ⟨0, 0⟩ ⟨0, 0⟩ ⟨.CHECK_FUN 0, none⟩
      (by decide) (by decide) (by decide) (by decide) (by decide) (by decide)).2.1⟩

end Indexing


namespace Kernel

open Indexing (Run Fault)
open Example

/-- A list that is another list of the same length read through an injective
map of the indices is a rearrangement of it. -/
theorem perm_of_read {α : Type} : ∀ (l1 l2 : List α) (π : Nat → Nat), Function.Injective π →
    l1.length = l2.length → (∀ k, l1[k]? = l2[π k]?) → l1.Perm l2 := by
  intro l1
  induction l1 with
  | nil =>
    intro l2 π _ hlen _
    have : l2 = [] := List.length_eq_zero.1 hlen.symm
    rw [this]
  | cons a t ih =>
    intro l2 π hinj hlen h
    have h0 := h 0
    simp only [List.getElem?_cons_zero] at h0
    have hj : π 0 < l2.length := by
      by_contra hc
      rw [List.getElem?_eq_none (by omega)] at h0
      cases h0
    have ha : l2[π 0] = a := by
      rw [List.getElem?_eq_getElem hj] at h0
      exact (Option.some.inj h0).symm
    have hsplit : l2 = l2.take (π 0) ++ a :: l2.drop (π 0 + 1) := by
      rw [← ha, ← List.drop_eq_getElem_cons hj, List.take_append_drop]
    have hperm : l2.Perm (a :: l2.eraseIdx (π 0)) := by
      rw [List.eraseIdx_eq_take_drop_succ]
      nth_rewrite 1 [hsplit]
      exact List.perm_middle
    have hne : ∀ k, π (k + 1) ≠ π 0 := fun k hk => by
      have := hinj hk
      omega
    have key := ih (l2.eraseIdx (π 0))
      (fun k => if π (k + 1) < π 0 then π (k + 1) else π (k + 1) - 1)
      (by
        intro k1 k2 hk
        simp only [] at hk
        have n1 := hne k1
        have n2 := hne k2
        have : π (k1 + 1) = π (k2 + 1) := by
          split at hk <;> split at hk <;> omega
        have := hinj this
        omega)
      (by
        rw [List.length_eraseIdx_of_lt hj]
        simp only [List.length_cons] at hlen
        omega)
      (by
        intro k
        have hk := h (k + 1)
        simp only [List.getElem?_cons_succ] at hk
        rw [hk, List.getElem?_eraseIdx]
        have n1 := hne k
        by_cases c : π (k + 1) < π 0
        · simp only [c, if_true]
        · have c2 : ¬ π (k + 1) - 1 < π 0 := by omega
          have e : π (k + 1) - 1 + 1 = π (k + 1) := by omega
          simp only [c, c2, if_false, e])
    exact (List.Perm.cons a key).trans hperm.symm

/-- Two arrays that are two other arrays read through one and the same
permutation of the indices hold the same pairs. -/
theorem samePerm_pairs (B0 : List Literal) (A0 : List (List Literal)) (bs : List Literal)
    (as : List (List Literal)) (hA : B0.length ≤ A0.length)
    (h : SamePerm B0 (A0.take B0.length) bs as) : (bs.zip as).Perm (B0.zip A0) := by
  obtain ⟨h1, h2, π, hπ⟩ := h
  apply perm_of_read _ _ π π.injective
  · simp only [List.length_zip]
    omega
  · intro k
    obtain ⟨g1, g2⟩ := hπ k
    simp only [List.get?_eq_getElem?] at g1 g2
    apply Option.ext
    intro z
    simp only [Option.mem_def, List.getElem?_zip_eq_some, g1, g2]
    constructor
    · rintro ⟨e1, e2⟩
      refine ⟨e1, ?_⟩
      rw [List.getElem?_take] at e2
      split at e2
      · exact e2
      · cases e2
    · rintro ⟨e1, e2⟩
      refine ⟨e1, ?_⟩
      have hlt : π k < B0.length := by
        by_contra hc
        rw [List.getElem?_eq_none (by omega)] at e1
        cases e1
      rw [List.getElem?_take, if_pos hlt]
      exact e2

/-- Claim C33: the reordering in `getMatchingData` is a permutation that keeps
each base literal paired with its own list of alternatives. For a non-empty
array of base literals with at least as many lists of alternatives,
`getMatchingData` returns matching data whose arrays `s_baseLits` and
`s_altsArr` have the length of the array of the caller, and the pairs (base
literal, list of alternatives) at equal indices are, as a multiset, the pairs
(baseLits0[i], alts[i]) that the caller supplied. -/
theorem C33_reorder_permutation (baseLits0 : List Literal) (instCl : Clause)
    (alts : List (List Literal)) (resolvedLit : Option Literal) (hne : baseLits0 ≠ [])
    (hlen : baseLits0.length ≤ alts.length) :
    ∃ md, getMatchingData baseLits0 instCl alts resolvedLit = .ok md ∧
      md.bases.length = baseLits0.length ∧ md.alts.length = baseLits0.length ∧
      (md.bases.zip md.alts).Perm (baseLits0.zip alts) := by
  obtain ⟨bs, as, h, hs⟩ := reorderLits_spec baseLits0 alts resolvedLit hne hlen
  unfold getMatchingData
  rw [h]
  exact ⟨_, rfl, hs.1, hs.2.1, samePerm_pairs baseLits0 alts bs as hlen hs⟩

/-- The statement of C33 at the base literals P(X), Q(X,Y), R(X), of which
the last has a single alternative. -/
theorem C33_reorder_permutation_witness :
    ∃ md, getMatchingData [P [X], Q [X, Y], R [X]] [P [a], Q [a, b], R [a]]
        [[P [a], P [b]], [Q [a, b], Q [b, a]], [R [a]]] none = .ok md ∧
      md.bases.length = [P [X], Q [X, Y], R [X]].length ∧
      md.alts.length = [P [X], Q [X, Y], R [X]].length ∧
      (md.bases.zip md.alts).Perm
        ([P [X], Q [X, Y], R [X]].zip [[P [a], P [b]], [Q [a, b], Q [b, a]], [R [a]]]) :=
  C33_reorder_permutation [P [X], Q [X, Y], R [X]] [P [a], Q [a, b], R [a]]
    [[P [a], P [b]], [Q [a, b], Q [b, a]], [R [a]]] none (by decide) (by decide)

end Kernel


namespace Kernel

open Indexing (Run Fault)
open Example

/-- The position that `getLiteralPosition` returns holds the literal. -/
theorem getLiteralPosition_get : ∀ (cl : Clause) (lit : Literal) (n : Nat),
    Clause.getLiteralPosition cl lit = .ok n → cl.get? n = some lit := by
  intro cl
  induction cl with
  | nil => intro lit n h; simp [Clause.getLiteralPosition] at h
  | cons l ls ih =>
    intro lit n h
    rw [Clause.getLiteralPosition] at h
    by_cases hl : l = lit
    · rw [if_pos hl] at h
      cases h
      simp [hl]
    · rw [if_neg hl] at h
      cases hp : Clause.getLiteralPosition ls lit with
      | fault f => rw [hp] at h; cases h
      | ok m =>
        rw [hp] at h
        cases h
        simpa using ih lit m hp

/-- Every alternative made from a literal of the list of alternatives carries
the record index that `altRecord` computes for this literal. -/
theorem altsOfLiteral_altRecord (baseLit : Literal) (vars : List Nat) (instCl : Clause)
    (resolvedLit : Option Literal) (alit : Literal) (l : List AltBinding)
    (h : altsOfLiteral baseLit vars instCl resolvedLit alit = .ok l) :
    ∀ x ∈ l, altRecord instCl resolvedLit alit = .ok x.record := by
  unfold altsOfLiteral at h
  by_cases h1 : some alit = resolvedLit
  · rw [if_pos h1] at h
    cases h
    intro x hx
    cases hx
  · rw [if_neg h1] at h
    by_cases h2 : alit.isEquality = true
    · rw [if_pos h2] at h
      cases hr : altRecord instCl resolvedLit alit with
      | fault f =>
        rw [hr] at h
        simp only at h
        split at h
        · cases h
        · cases h
          intro x hx
          cases hx
      | ok r =>
        rw [hr] at h
        simp only at h
        cases h
        intro x hx
        rw [List.mem_append] at hx
        rcases hx with hx | hx
        · split at hx
          · rw [List.mem_singleton] at hx
            subst hx
            rfl
          · cases hx
        · split at hx
          · rw [List.mem_singleton] at hx
            subst hx
            rfl
          · cases hx
    · rw [if_neg h2] at h
      split at h
      · cases h
      · cases hr : altRecord instCl resolvedLit alit with
        | fault f =>
          rw [hr] at h
          cases h
        | ok r =>
          rw [hr] at h
          simp only at h
          cases h
          intro x hx
          rw [List.mem_singleton] at hx
          subst hx
          rfl

/-- Every alternative made by the loop over the list of alternatives comes
from a literal of the list and carries the record index of this literal. -/
theorem altsOfList_altRecord (baseLit : Literal) (vars : List Nat) (instCl : Clause)
    (resolvedLit : Option Literal) : ∀ (alts : List Literal) (l : List AltBinding),
    altsOfList baseLit vars instCl resolvedLit alts = .ok l →
    ∀ x ∈ l, ∃ alit ∈ alts, some alit ≠ resolvedLit ∧
      altRecord instCl resolvedLit alit = .ok x.record := by
  intro alts
  induction alts with
  | nil =>
    intro l h x hx
    rw [altsOfList] at h
    cases h
    cases hx
  | cons alit rest ih =>
    intro l h x hx
    rw [altsOfList] at h
    cases h1 : altsOfLiteral baseLit vars instCl resolvedLit alit with
    | fault f => rw [h1] at h; cases h
    | ok l1 =>
      rw [h1] at h
      simp only at h
      cases h2 : altsOfList baseLit vars instCl resolvedLit rest with
      | fault f => rw [h2] at h; cases h
      | ok l2 =>
        rw [h2] at h
        simp only [Run.ok.injEq] at h
        subst h
        rw [List.mem_append] at hx
        rcases hx with hx | hx
        · refine ⟨alit, List.mem_cons_self _ _, ?_,
            altsOfLiteral_altRecord baseLit vars instCl resolvedLit alit l1 h1 x hx⟩
          intro hres
          unfold altsOfLiteral at h1
          rw [if_pos hres] at h1
          cases h1
          cases hx
        · obtain ⟨al, g1, g2, g3⟩ := ih l2 h2 x hx
          exact ⟨al, List.mem_cons_of_mem _ g1, g2, g3⟩

/-- Claim C36: the record index that `createLiteralBindings` stores behind
the bindings of each alternative. Without a resolved literal every
alternative comes from a literal of the list of alternatives and its record
index is the position of this literal in the candidate clause, which is
smaller than the length of the clause. With a resolved literal the
alternatives are those of the loop over the list, all with the record index
0, followed by the complementary matches against the resolved literal, all
with the record index 1; a literal of the list that is the resolved literal
itself gives no alternative. In both cases every record index is smaller than
the length of the match record of `canBeMatched`: 2 with a resolved literal,
the length of the clause without. -/
theorem C36_record_index :
    (∀ (baseLit : Literal) (alts : List Literal) (instCl : Clause) (vars : List Nat)
      (A : List AltBinding),
      createLiteralBindings baseLit alts instCl none = .ok (vars, A) →
      ∀ x ∈ A, ∃ alit ∈ alts, instCl.getLiteralPosition alit = .ok x.record ∧
        instCl.get? x.record = some alit ∧ x.record < instCl.length) ∧
    (∀ (baseLit : Literal) (alts : List Literal) (instCl : Clause) (r : Literal)
      (vars : List Nat) (A : List AltBinding),
      createLiteralBindings baseLit alts instCl (some r) = .ok (vars, A) →
      ∃ L0, altsOfList baseLit vars instCl (some r) alts = .ok L0 ∧
        A = L0 ++ altsOfResolved baseLit vars (some r) ∧
        (∀ x ∈ L0, x.record = 0) ∧
        (∀ x ∈ altsOfResolved baseLit vars (some r), x.record = 1)) ∧
    (∀ (baseLit : Literal) (vars : List Nat) (instCl : Clause) (r : Literal),
      altsOfLiteral baseLit vars instCl (some r) r = .ok []) ∧
    (∀ (baseLit : Literal) (alts : List Literal) (instCl : Clause) (resolvedLit : Option Literal)
      (vars : List Nat) (A : List AltBinding) (md : MatchingData),
      createLiteralBindings baseLit alts instCl resolvedLit = .ok (vars, A) →
      md.resolvedLit = resolvedLit →
      (initialState md instCl).matchRecord.length =
        (if resolvedLit.isSome then 2 else instCl.length) ∧
      ∀ x ∈ A, x.record < (initialState md instCl).matchRecord.length) := by
  refine ⟨?_, ?_, ?_, ?_⟩
  · intro baseLit alts instCl vars A h x hx
    unfold createLiteralBindings at h
    cases h1 : altsOfList baseLit (boundVars baseLit) instCl none alts with
    | fault f => rw [h1] at h; cases h
    | ok l =>
      rw [h1] at h
      simp only [Run.ok.injEq, Prod.mk.injEq] at h
      obtain ⟨hv, hA⟩ := h
      subst hA
      have hx0 : x ∈ l := by
        rw [List.mem_append] at hx
        rcases hx with hx | hx
        · exact hx
        · cases hx
      obtain ⟨alit, g1, _, g3⟩ := altsOfList_altRecord baseLit _ instCl none alts l h1 x hx0
      exact ⟨alit, g1, g3, getLiteralPosition_get instCl alit _ g3,
        getLiteralPosition_lt instCl alit _ g3⟩
  · intro baseLit alts instCl r vars A h
    unfold createLiteralBindings at h
    cases h1 : altsOfList baseLit (boundVars baseLit) instCl (some r) alts with
    | fault f => rw [h1] at h; cases h
    | ok l =>
      rw [h1] at h
      simp only [Run.ok.injEq, Prod.mk.injEq] at h
      obtain ⟨hv, hA⟩ := h
      subst hv
      refine ⟨l, h1, hA.symm, fun x hx => ?_, fun x hx => ?_⟩
      · exact altsOfList_record_zero baseLit _ instCl r alts l h1 x hx
      · exact (altsOfResolved_record_one baseLit _ r x hx).1
  · intro baseLit vars instCl r
    unfold altsOfLiteral
    rw [if_pos rfl]
  · intro baseLit alts instCl resolvedLit vars A md h hmd
    have hlen : (initialState md instCl).matchRecord.length =
        (if resolvedLit.isSome then 2 else instCl.length) := by
      simp [initialState, hmd]
    refine ⟨hlen, fun x hx => ?_⟩
    rw [hlen]
    exact (createLiteralBindings_spec baseLit alts instCl resolvedLit _ h).2 x hx

end Kernel


namespace Kernel

open Indexing (Run Fault)
open Example

/-- The pairs that the loop of `getIntersectInfo` yields start at the two
indices of the loop and go up in both components. -/
theorem intersectLoop_sorted : ∀ (n : Nat) (as bs : List Nat) (i j : Nat),
    (∀ p ∈ intersectLoop n as bs i j, i ≤ p.1 ∧ j ≤ p.2) ∧
    (intersectLoop n as bs i j).Pairwise (fun p q => p.1 < q.1 ∧ p.2 < q.2) := by
  intro n
  induction n with
  | zero =>
    intro as bs i j
    simp [intersectLoop]
  | succ n ih =>
    intro as bs i j
    cases as with
    | nil => simp [intersectLoop]
    | cons a as1 =>
      cases bs with
      | nil => simp [intersectLoop]
      | cons b bs1 =>
        rw [intersectLoop]
        by_cases hab : a < b
        · rw [if_pos hab]
          obtain ⟨g1, g2⟩ := ih as1 (b :: bs1) (i + 1) j
          exact ⟨fun p hp => ⟨by have := (g1 p hp).1; omega, (g1 p hp).2⟩, g2⟩
        · rw [if_neg hab]
          by_cases hba : a > b
          · rw [if_pos hba]
            obtain ⟨g1, g2⟩ := ih (a :: as1) bs1 i (j + 1)
            exact ⟨fun p hp => ⟨(g1 p hp).1, by have := (g1 p hp).2; omega⟩, g2⟩
          · rw [if_neg hba]
            obtain ⟨g1, g2⟩ := ih as1 bs1 (i + 1) (j + 1)
            constructor
            · intro p hp
              rw [List.mem_cons] at hp
              rcases hp with hp | hp
              · subst hp
                exact ⟨Nat.le_refl _, Nat.le_refl _⟩
              · have := g1 p hp
                omega
            · rw [List.pairwise_cons]
              refine ⟨fun q hq => ?_, g2⟩
              have := g1 q hq
              simp only []
              omega

/-- The intersection info of two strictly ascending arrays of variables lists
each pair of positions of a common variable once. -/
theorem intersectInfo_nodup (v1 v2 : List Nat) : (intersectInfo v1 v2).Nodup := by
  unfold intersectInfo
  refine (intersectLoop_sorted _ v1 v2 0 0).2.imp ?_
  intro p q h he
  rw [he] at h
  omega

/-- Claim C35: the intersection info of two initialised base slots. In every
state at the head of the outer loop of a call of `canBeMatched` on proper
input, for base slots `b1 < b2` that are both initialised, `getIntersectInfo
b1 b2` returns a list that holds the pair `(i, j)` exactly when the variable
with the number `i` of the base literal at `b1` and the variable with the
number `j` of the base literal at `b2` are the same variable, and holds each
such pair once; what is stored is this list followed by one entry with first
component -1, and all entries before it have a first component that is not
negative; when the two base literals share no variable (so also when one of
them has no variable) the stored list is the entry with -1 alone. The model
does not follow the comparison that the source makes with `b2vn` at its stop
when the second base literal has no variable: whatever is read there, the
loop is left without a pair being stored. -/
theorem C35_intersect_info (baseLits : List Literal) (instCl : Clause)
    (alts : List (List Literal)) (resolvedLit : Option Literal) (multiset : Bool)
    (hne : baseLits ≠ []) (hlen : baseLits.length ≤ alts.length)
    (h32 : baseLits.length ≤ unclaimed)
    (hproper : properAlts instCl resolvedLit baseLits alts = true)
    (n : Nat) (tl : Nat → Bool) (s : SearchState)
    (hs : MLMatcher.stateAt n tl baseLits instCl alts resolvedLit multiset = some s)
    (b1 b2 : Nat) (_ : b1 < b2) (h1 : s.md.isInitialized b1 = true)
    (h2 : s.md.isInitialized b2 = true) :
    ∃ l1 l2 info md1, s.md.bases.get? b1 = some l1 ∧ s.md.bases.get? b2 = some l2 ∧
      s.md.boundVarNums b1 = some (boundVars l1) ∧ s.md.boundVarNums b2 = some (boundVars l2) ∧
      s.md.getIntersectInfo b1 b2 = .ok (info, md1) ∧
      (∀ i j, (i, j) ∈ info ↔
        ∃ x, (boundVars l1).get? i = some x ∧ (boundVars l2).get? j = some x) ∧
      info.Nodup ∧
      (storedEntries info).getLast? = some (-1, none) ∧
      (∀ e ∈ (storedEntries info).dropLast, 0 ≤ e.1) ∧
      ((∀ x, x ∈ l1.varOccs → x ∉ l2.varOccs) → storedEntries info = [(-1, none)]) := by
  obtain ⟨V, A, recLen, hgood⟩ := stateAt_good baseLits instCl alts resolvedLit multiset hne hlen
    h32 hproper
  have hg := hgood n tl s hs
  obtain ⟨⟨m, hinv, _⟩, _⟩ := id hg
  have hi1 := hinv.md.init b1
  have hi2 := hinv.md.init b2
  have hm1 : b1 < m := by
    by_contra hc
    rw [if_neg hc] at hi1
    simp [MatchingData.isInitialized, hi1] at h1
  have hm2 : b2 < m := by
    by_contra hc
    rw [if_neg hc] at hi2
    simp [MatchingData.isInitialized, hi2] at h2
  rw [if_pos hm1] at hi1
  rw [if_pos hm2] at hi2
  have hmlen := hinv.hm
  obtain ⟨l1, as1, g1, _, _, gv1⟩ := good_created multiset _ V A recLen s hg b1 (by omega)
  obtain ⟨l2, as2, g2, _, _, gv2⟩ := good_created multiset _ V A recLen s hg b2 (by omega)
  obtain ⟨c1, hget, _⟩ := getIntersectInfo_spec V s.md b1 b2 hinv.md.cache hi1 hi2
  rw [gv1, gv2] at hget
  have hmem : ∀ i j, (i, j) ∈ intersectInfo (boundVars l1) (boundVars l2) ↔
      ∃ x, (boundVars l1).get? i = some x ∧ (boundVars l2).get? j = some x := by
    intro i j
    unfold intersectInfo
    rw [intersectLoop_mem _ _ _ 0 0 (Nat.le_refl _) (boundVars_sorted l1) (boundVars_sorted l2)]
    constructor
    · rintro ⟨d, e, x, e1, e2, e3, e4⟩
      simp only [Nat.zero_add] at e1 e2
      subst e1 e2
      exact ⟨x, e3, e4⟩
    · rintro ⟨x, e3, e4⟩
      exact ⟨i, j, x, (Nat.zero_add _).symm, (Nat.zero_add _).symm, e3, e4⟩
  refine ⟨l1, l2, _, _, g1, g2, by rw [hi1, gv1], by rw [hi2, gv2], hget, hmem,
    intersectInfo_nodup _ _, ?_, ?_, ?_⟩
  · simp [storedEntries]
  · intro e he
    simp only [storedEntries, List.dropLast_concat, List.mem_map] at he
    obtain ⟨p, _, hp⟩ := he
    rw [← hp]
    exact Int.ofNat_nonneg _
  · intro hdis
    have hnil : intersectInfo (boundVars l1) (boundVars l2) = [] := by
      apply List.eq_nil_iff_forall_not_mem.2
      rintro ⟨i, j⟩ hp
      obtain ⟨x, e3, e4⟩ := (hmem i j).1 hp
      exact hdis x ((mem_boundVars l1 x).1 (List.get?_mem e3))
        ((mem_boundVars l2 x).1 (List.get?_mem e4))
    rw [hnil]
    rfl

/-- The statement of C35 at the base {P(X), Q(X,Y), R(Y)} after two passes of
the loop, for the slots 0 and 1, which are both initialised. -/
theorem C35_intersect_info_witness :
    ∃ s, MLMatcher.stateAt 2 (fun _ => false) [P [X], Q [X, Y], R [Y]]
        [P [a], Q [a, b], R [b]] [[P [a]], [Q [a, b]], [R [b]]] none false = some s ∧
      ∃ l1 l2 info md1, s.md.bases.get? 0 = some l1 ∧ s.md.bases.get? 1 = some l2 ∧
        s.md.getIntersectInfo 0 1 = .ok (info, md1) ∧
        (∀ i j, (i, j) ∈ info ↔
          ∃ x, (boundVars l1).get? i = some x ∧ (boundVars l2).get? j = some x) ∧
        info.Nodup ∧ (storedEntries info).getLast? = some (-1, none) :=
  ⟨((MLMatcher.stateAt 2 (fun _ => false) [P [X], Q [X, Y], R [Y]]
      [P [a], Q [a, b], R [b]] [[P [a]], [Q [a, b]], [R [b]]] none false).get (by decide)),
    (Option.some_get _).symm,
    (C35_intersect_info [P [X], Q [X, Y], R [Y]] [P [a], Q [a, b], R [b]]
      [[P [a]], [Q [a, b]], [R [b]]] none false (by decide) (by decide) (by decide) (by decide)
      2 (fun _ => false)
      ((MLMatcher.stateAt 2 (fun _ => false) [P [X], Q [X, Y], R [Y]]
        [P [a], Q [a, b], R [b]] [[P [a]], [Q [a, b]], [R [b]]] none false).get (by decide))
      (Option.some_get _).symm 0 1 (by decide) (by decide) (by decide)).imp fun l1 h1 =>
        h1.imp fun l2 h2 => h2.imp fun info h3 => h3.imp fun md1 h4 =>
          ⟨h4.1, h4.2.1, h4.2.2.2.2.1, h4.2.2.2.2.2.1, h4.2.2.2.2.2.2.1,
            h4.2.2.2.2.2.2.2.1⟩⟩

end Kernel


namespace Kernel

open Indexing (Run Fault)
open Example

mutual
/-- The binder that stores into an array keeps the length of the array. -/
theorem matchTerms_length (vars : List Nat) (t u : TermList) (arr arr1 : List (Option TermList))
    (h : MatchingUtils.matchTerms (ArrayStoringBinder.bind vars) t u arr = some arr1) :
    arr1.length = arr.length := by
  cases t with
  | var v =>
    simp only [MatchingUtils.matchTerms, ArrayStoringBinder.bind, Option.some.injEq] at h
    rw [← h, List.length_set]
  | term f as =>
    cases u with
    | var w => simp [MatchingUtils.matchTerms] at h
    | term g bs =>
      simp only [MatchingUtils.matchTerms] at h
      split at h
      · exact matchList_length vars as bs arr arr1 h
      · cases h
/-- The same for argument lists. -/
theorem matchList_length (vars : List Nat) (ts us : List TermList)
    (arr arr1 : List (Option TermList))
    (h : MatchingUtils.matchList (ArrayStoringBinder.bind vars) ts us arr = some arr1) :
    arr1.length = arr.length := by
  cases ts with
  | nil =>
    cases us with
    | nil =>
      simp only [MatchingUtils.matchList, Option.some.injEq] at h
      rw [h]
    | cons u us1 => simp [MatchingUtils.matchList] at h
  | cons t ts1 =>
    cases us with
    | nil => simp [MatchingUtils.matchList] at h
    | cons u us1 =>
      simp only [MatchingUtils.matchList] at h
      cases h1 : MatchingUtils.matchTerms (ArrayStoringBinder.bind vars) t u arr with
      | none => rw [h1] at h; cases h
      | some arr2 =>
        rw [h1] at h
        rw [matchList_length vars ts1 us1 arr2 arr1 h, matchTerms_length vars t u arr arr2 h1]
end

/-- Two variables of the array of variables with the same position are the
same variable. -/
theorem variablePosition_inj (vars : List Nat) (x v : Nat) (hx : x ∈ vars)
    (h : variablePosition vars x = variablePosition vars v) : x = v := by
  unfold variablePosition at h
  by_cases hv : v ∈ vars
  · exact (List.indexOf_inj hx hv).1 h
  · have h1 := List.indexOf_lt_length.2 hx
    have h2 : List.indexOf v vars = vars.length := List.indexOf_eq_length.2 hv
    omega

mutual
/-- Matching a term against its instance under `σ` with the binder that
stores into an array: the cell of every variable of the term holds the term
that `σ` gives to the variable, and the cells of the other variables stay. -/
theorem matchTerms_bind (σ : Nat → TermList) (vars : List Nat) (t : TermList)
    (arr : List (Option TermList)) (hlen : arr.length = vars.length) :
    ∃ arr1, MatchingUtils.matchTerms (ArrayStoringBinder.bind vars) t (t.subst σ) arr = some arr1 ∧
      arr1.length = vars.length ∧
      (∀ x ∈ vars, x ∈ t.varOccs → arr1.get? (variablePosition vars x) = some (some (σ x))) ∧
      (∀ x ∈ vars, x ∉ t.varOccs →
        arr1.get? (variablePosition vars x) = arr.get? (variablePosition vars x)) := by
  cases t with
  | var v =>
    refine ⟨arr.set (variablePosition vars v) (some (σ v)), ?_, ?_, ?_, ?_⟩
    · simp only [MatchingUtils.matchTerms, ArrayStoringBinder.bind, TermList.subst]
    · rw [List.length_set, hlen]
    · intro x hx hocc
      simp only [TermList.varOccs, List.mem_singleton] at hocc
      subst hocc
      have hlt : variablePosition vars x < arr.length := by
        rw [hlen]
        exact List.indexOf_lt_length.2 hx
      simp only [List.get?_eq_getElem?]
      rw [List.getElem?_set_self hlt]
    · intro x hx hocc
      simp only [TermList.varOccs, List.mem_singleton] at hocc
      have hne : variablePosition vars v ≠ variablePosition vars x := fun e =>
        hocc (variablePosition_inj vars x v hx e.symm)
      simp only [List.get?_eq_getElem?]
      rw [List.getElem?_set_ne hne]
  | term f as =>
    obtain ⟨arr1, g1, g2, g3, g4⟩ := matchList_bind σ vars as arr hlen
    refine ⟨arr1, ?_, g2, ?_, ?_⟩
    · simp only [TermList.subst, MatchingUtils.matchTerms, if_true]
      exact g1
    · intro x hx hocc
      exact g3 x hx (by simpa [TermList.varOccs] using hocc)
    · intro x hx hocc
      exact g4 x hx (by simpa [TermList.varOccs] using hocc)
/-- The same for argument lists. -/
theorem matchList_bind (σ : Nat → TermList) (vars : List Nat) (ts : List TermList)
    (arr : List (Option TermList)) (hlen : arr.length = vars.length) :
    ∃ arr1, MatchingUtils.matchList (ArrayStoringBinder.bind vars) ts (TermList.substArgs σ ts) arr
        = some arr1 ∧
      arr1.length = vars.length ∧
      (∀ x ∈ vars, x ∈ TermList.varOccsArgs ts →
        arr1.get? (variablePosition vars x) = some (some (σ x))) ∧
      (∀ x ∈ vars, x ∉ TermList.varOccsArgs ts →
        arr1.get? (variablePosition vars x) = arr.get? (variablePosition vars x)) := by
  cases ts with
  | nil =>
    refine ⟨arr, ?_, hlen, ?_, ?_⟩
    · simp only [TermList.substArgs, MatchingUtils.matchList]
    · intro x _ hocc
      simp [TermList.varOccsArgs] at hocc
    · intro x _ _
      rfl
  | cons t ts1 =>
    obtain ⟨arr1, g1, g2, g3, g4⟩ := matchTerms_bind σ vars t arr hlen
    obtain ⟨arr2, k1, k2, k3, k4⟩ := matchList_bind σ vars ts1 arr1 g2
    refine ⟨arr2, ?_, k2, ?_, ?_⟩
    · simp only [TermList.substArgs, MatchingUtils.matchList, g1]
      exact k1
    · intro x hx hocc
      simp only [TermList.varOccsArgs, List.mem_append] at hocc
      by_cases h2 : x ∈ TermList.varOccsArgs ts1
      · exact k3 x hx h2
      · rw [k4 x hx h2]
        rcases hocc with hocc | hocc
        · exact g3 x hx hocc
        · exact absurd hocc h2
    · intro x hx hocc
      simp only [TermList.varOccsArgs, List.mem_append, not_or] at hocc
      rw [k4 x hx hocc.2, g4 x hx hocc.1]
end

/-- The array that the binder fills when the arguments `ts`, whose variables
are the variables `vars`, are matched against their instance under `σ`: cell
`i` holds the term that `σ` gives to the variable at place `i`. -/
theorem matchList_bindings (σ : Nat → TermList) (vars : List Nat) (hn : vars.Nodup)
    (ts : List TermList) (hall : ∀ x ∈ vars, x ∈ TermList.varOccsArgs ts) :
    MatchingUtils.matchList (ArrayStoringBinder.bind vars) ts (TermList.substArgs σ ts)
        (List.replicate vars.length none) = some (vars.map (fun x => some (σ x))) := by
  obtain ⟨arr1, g1, g2, g3, _⟩ := matchList_bind σ vars ts (List.replicate vars.length none)
    (by simp)
  rw [g1]
  congr 1
  apply List.ext_get?
  intro i
  by_cases hi : i < vars.length
  · have hx : vars.get? i = some vars[i] := by simp [hi]
    have hmem : vars[i] ∈ vars := List.getElem_mem hi
    have := g3 _ hmem (hall _ hmem)
    rw [variablePosition_eq vars hn i _ hx] at this
    rw [this]
    simp [hi]
  · simp only [List.get?_eq_getElem?]
    rw [List.getElem?_eq_none (by omega), List.getElem?_eq_none (by simp; omega)]

theorem argBindings_length (vars : List Nat) (baseLit alit : Literal) :
    (argBindings vars baseLit alit).length = vars.length := by
  unfold argBindings
  cases h : MatchingUtils.matchList (ArrayStoringBinder.bind vars) baseLit.args alit.args
      (List.replicate vars.length none) with
  | none => simp
  | some arr1 =>
    simp only [Option.getD_some]
    rw [matchList_length vars _ _ _ _ h]
    simp

theorem reversedBindings_length (vars : List Nat) (baseLit alit : Literal) :
    (reversedBindings vars baseLit alit).length = vars.length := by
  unfold reversedBindings
  split
  · rename_i b0 b1 i0 i1 _ _
    cases h : MatchingUtils.matchList (ArrayStoringBinder.bind vars) [b0, b1] [i1, i0]
        (List.replicate vars.length none) with
    | none => simp
    | some arr1 =>
      simp only [Option.getD_some]
      rw [matchList_length vars _ _ _ _ h]
      simp
  · simp

theorem altsOfLiteral_length (baseLit : Literal) (vars : List Nat) (instCl : Clause)
    (resolvedLit : Option Literal) (alit : Literal) (l : List AltBinding)
    (h : altsOfLiteral baseLit vars instCl resolvedLit alit = .ok l) :
    ∀ x ∈ l, x.bindings.length = vars.length := by
  unfold altsOfLiteral at h
  by_cases h1 : some alit = resolvedLit
  · rw [if_pos h1] at h
    cases h
    intro x hx
    cases hx
  · rw [if_neg h1] at h
    by_cases h2 : alit.isEquality = true
    · rw [if_pos h2] at h
      cases hr : altRecord instCl resolvedLit alit with
      | fault f =>
        rw [hr] at h
        simp only at h
        split at h
        · cases h
        · cases h
          intro x hx
          cases hx
      | ok r =>
        rw [hr] at h
        simp only at h
        cases h
        intro x hx
        rw [List.mem_append] at hx
        rcases hx with hx | hx
        · split at hx
          · rw [List.mem_singleton] at hx
            subst hx
            exact argBindings_length vars baseLit alit
          · cases hx
        · split at hx
          · rw [List.mem_singleton] at hx
            subst hx
            exact reversedBindings_length vars baseLit alit
          · cases hx
    · rw [if_neg h2] at h
      by_cases h3 : vars.length ≠ 0
      · rw [if_pos h3] at h
        cases hm : MatchingUtils.matchList (ArrayStoringBinder.bind vars) baseLit.args alit.args
            (List.replicate vars.length none) with
        | none => rw [hm] at h; cases h
        | some arr1 =>
          rw [hm] at h
          simp only at h
          cases hr : altRecord instCl resolvedLit alit with
          | fault f => rw [hr] at h; cases h
          | ok r =>
            rw [hr] at h
            simp only at h
            cases h
            intro x hx
            rw [List.mem_singleton] at hx
            subst hx
            simp only []
            rw [matchList_length vars _ _ _ _ hm]
            simp
      · rw [if_neg h3] at h
        simp only at h
        cases hr : altRecord instCl resolvedLit alit with
        | fault f => rw [hr] at h; cases h
        | ok r =>
          rw [hr] at h
          simp only at h
          cases h
          intro x hx
          rw [List.mem_singleton] at hx
          subst hx
          simp only [List.length_nil]
          omega

/-- The loop over the list of alternatives goes through `altsOfLiteral` for
every literal of the list and keeps what it yields. -/
theorem altsOfList_mem (baseLit : Literal) (vars : List Nat) (instCl : Clause)
    (resolvedLit : Option Literal) : ∀ (alts : List Literal) (l : List AltBinding),
    altsOfList baseLit vars instCl resolvedLit alts = .ok l →
    (∀ x ∈ l, ∃ alit ∈ alts, ∃ l1, altsOfLiteral baseLit vars instCl resolvedLit alit = .ok l1 ∧
      x ∈ l1) ∧
    (∀ alit ∈ alts, ∃ l1, altsOfLiteral baseLit vars instCl resolvedLit alit = .ok l1 ∧
      ∀ x ∈ l1, x ∈ l) := by
  intro alts
  induction alts with
  | nil =>
    intro l h
    rw [altsOfList] at h
    cases h
    exact ⟨fun x hx => (by cases hx), fun alit ha => (by cases ha)⟩
  | cons alit rest ih =>
    intro l h
    rw [altsOfList] at h
    cases h1 : altsOfLiteral baseLit vars instCl resolvedLit alit with
    | fault f => rw [h1] at h; cases h
    | ok l1 =>
      rw [h1] at h
      simp only at h
      cases h2 : altsOfList baseLit vars instCl resolvedLit rest with
      | fault f => rw [h2] at h; cases h
      | ok l2 =>
        rw [h2] at h
        simp only [Run.ok.injEq] at h
        subst h
        obtain ⟨i1, i2⟩ := ih l2 h2
        constructor
        · intro x hx
          rw [List.mem_append] at hx
          rcases hx with hx | hx
          · exact ⟨alit, List.mem_cons_self _ _, l1, h1, hx⟩
          · obtain ⟨al, g1, l3, g2, g3⟩ := i1 x hx
            exact ⟨al, List.mem_cons_of_mem _ g1, l3, g2, g3⟩
        · intro al hal
          rw [List.mem_cons] at hal
          rcases hal with hal | hal
          · subst hal
            exact ⟨l1, h1, fun x hx => List.mem_append_left _ hx⟩
          · obtain ⟨l3, g2, g3⟩ := i2 al hal
            exact ⟨l3, g2, fun x hx => List.mem_append_right _ (g3 x hx)⟩

theorem altsOfResolved_length (baseLit : Literal) (vars : List Nat)
    (resolvedLit : Option Literal) :
    ∀ x ∈ altsOfResolved baseLit vars resolvedLit, x.bindings.length = vars.length := by
  intro x hx
  unfold altsOfResolved at hx
  cases resolvedLit with
  | none => cases hx
  | some r =>
    simp only at hx
    split at hx
    · rw [List.mem_append] at hx
      rcases hx with hx | hx
      · split at hx
        · rw [List.mem_singleton] at hx
          subst hx
          simp only []
          split
          · exact argBindings_length vars baseLit r
          · rename_i h0
            simp only [List.length_nil]
            omega
        · cases hx
      · split at hx
        · rw [List.mem_singleton] at hx
          subst hx
          exact reversedBindings_length vars baseLit r
        · cases hx
    · cases hx

end Kernel


namespace Kernel

open Indexing (Run Fault)
open Example

/-- Claim C34, counterexample: in the base literal Q(Y,Z,X), with the
variable numbers 1, 2, 0, the numbering in the order of first occurrence is
Y, Z, X; `createLiteralBindings` stores X, Y, Z, and in the alternative made
from Q(a,b,c), where Y is bound to a, Z to b and X to c, slot 0 of the
binding array holds c, the binding of X, and not a, the binding of the
variable that occurs first. -/
theorem C34_first_occurrence_counterexample :
    (Q [Y, .var 2, X]).varOccs = [1, 2, 0] ∧
    specVarOrder (Q [Y, .var 2, X]).varOccs = [1, 2, 0] ∧
    createLiteralBindings (Q [Y, .var 2, X]) [Q [a, b, c]] [Q [a, b, c]] none =
      .ok ([0, 1, 2], [⟨[some c, some a, some b], 0⟩]) ∧
    (∀ vars A,
      createLiteralBindings (Q [Y, .var 2, X]) [Q [a, b, c]] [Q [a, b, c]] none = .ok (vars, A) →
      vars ≠ specVarOrder (Q [Y, .var 2, X]).varOccs) := by
  refine ⟨by decide, by decide, by decide, ?_⟩
  intro vars A h
  have e : createLiteralBindings (Q [Y, .var 2, X]) [Q [a, b, c]] [Q [a, b, c]] none =
      .ok ([0, 1, 2], [⟨[some c, some a, some b], 0⟩]) := by decide
  rw [e] at h
  simp only [Run.ok.injEq, Prod.mk.injEq] at h
  rw [← h.1]
  decide

/-- Claim C34, as the code behaves: `createLiteralBindings` stores in
`boundVarNums` the variables of the base literal in ascending order of their
numbers, each once; their count is the number of distinct variables of the
base literal, and the canonical number of a variable is its place in this
ascending array. The binding array of every alternative has one slot for
each of these variables, and when the arguments of a literal are the
arguments of the base literal under a substitution `σ`, slot `i` of the
binding array made from this literal holds the term that `σ` gives to the
variable with the canonical number `i`; such a literal of the list of
alternatives that is not an equality and not the resolved literal gives an
alternative with exactly this binding array. -/
theorem C34_variable_numbering (baseLit : Literal) (alts : List Literal) (instCl : Clause)
    (resolvedLit : Option Literal) (vars : List Nat) (A : List AltBinding)
    (h : createLiteralBindings baseLit alts instCl resolvedLit = .ok (vars, A)) :
    vars.Pairwise (fun x y => x < y) ∧ vars.Nodup ∧ (∀ x, x ∈ vars ↔ x ∈ baseLit.varOccs) ∧
    vars.length = baseLit.getDistinctVars ∧
    (∀ i x, vars.get? i = some x → variablePosition vars x = i) ∧
    (∀ x ∈ A, x.bindings.length = vars.length) ∧
    (∀ (σ : Nat → TermList) (alit : Literal), alit.args = TermList.substArgs σ baseLit.args →
      argBindings vars baseLit alit = vars.map (fun x => some (σ x))) ∧
    (∀ (σ : Nat → TermList) (alit : Literal), alit ∈ alts → some alit ≠ resolvedLit →
      alit.isEquality = false → alit.args = TermList.substArgs σ baseLit.args →
      ∃ r, altRecord instCl resolvedLit alit = .ok r ∧
        (⟨vars.map (fun x => some (σ x)), r⟩ : AltBinding) ∈ A) := by
  have hv : vars = boundVars baseLit := (createLiteralBindings_spec _ _ _ _ _ h).1
  subst hv
  have hsorted := boundVars_sorted baseLit
  have hnodup : (boundVars baseLit).Nodup := hsorted.imp (fun h => Nat.ne_of_lt h)
  have hmem := mem_boundVars baseLit
  have hmatch : ∀ σ : Nat → TermList,
      MatchingUtils.matchList (ArrayStoringBinder.bind (boundVars baseLit)) baseLit.args
        (TermList.substArgs σ baseLit.args) (List.replicate (boundVars baseLit).length none) =
      some ((boundVars baseLit).map (fun x => some (σ x))) := fun σ =>
    matchList_bindings σ _ hnodup baseLit.args (fun x hx => (hmem x).1 hx)
  unfold createLiteralBindings at h
  cases h1 : altsOfList baseLit (boundVars baseLit) instCl resolvedLit alts with
  | fault f => rw [h1] at h; cases h
  | ok l =>
    rw [h1] at h
    simp only [Run.ok.injEq, Prod.mk.injEq, true_and] at h
    subst h
    obtain ⟨m1, m2⟩ := altsOfList_mem baseLit _ instCl resolvedLit alts l h1
    refine ⟨hsorted, hnodup, hmem, ?_, ?_, ?_, ?_, ?_⟩
    · unfold Literal.getDistinctVars
      apply List.Perm.length_eq
      rw [List.perm_ext_iff_of_nodup hnodup (List.nodup_dedup _)]
      intro x
      rw [hmem x, List.mem_dedup]
    · intro i x hx
      exact variablePosition_eq _ hnodup i x hx
    · intro x hx
      rw [List.mem_append] at hx
      rcases hx with hx | hx
      · obtain ⟨alit, _, l1, g1, g2⟩ := m1 x hx
        exact altsOfLiteral_length baseLit _ instCl resolvedLit alit l1 g1 x g2
      · exact altsOfResolved_length baseLit _ resolvedLit x hx
    · intro σ alit hargs
      unfold argBindings
      rw [hargs, hmatch σ]
      rfl
    · intro σ alit hal hres heq hargs
      obtain ⟨l1, g1, g2⟩ := m2 alit hal
      unfold altsOfLiteral at g1
      rw [if_neg hres] at g1
      simp only [heq, Bool.false_eq_true, if_false] at g1
      rw [hargs, hmatch σ] at g1
      have hb : (if (boundVars baseLit).length ≠ 0 then
            some ((boundVars baseLit).map (fun x => some (σ x)))
          else some []) = some ((boundVars baseLit).map (fun x => some (σ x))) := by
        by_cases h0 : (boundVars baseLit).length ≠ 0
        · rw [if_pos h0]
        · rw [if_neg h0]
          have : boundVars baseLit = [] := List.length_eq_zero.1 (by omega)
          rw [this]
          rfl
      rw [hb] at g1
      simp only at g1
      cases hr : altRecord instCl resolvedLit alit with
      | fault f => rw [hr] at g1; cases g1
      | ok r =>
        rw [hr] at g1
        simp only [Run.ok.injEq] at g1
        refine ⟨r, rfl, List.mem_append_left _ (g2 _ ?_)⟩
        rw [← g1]
        exact List.mem_singleton_self _

/-- The statement of C34 at the base literal Q(Y,X) with the alternative
Q(a,b). -/
theorem C34_variable_numbering_witness :
    createLiteralBindings (Q [Y, X]) [Q [a, b]] [Q [a, b]] none =
      .ok ([0, 1], [⟨[some b, some a], 0⟩]) ∧
    ([0, 1] : List Nat).Pairwise (fun x y => x < y) ∧
    ([0, 1] : List Nat).length = (Q [Y, X]).getDistinctVars ∧
    (∀ x ∈ ([⟨[some b, some a], 0⟩] : List AltBinding),
      x.bindings.length = ([0, 1] : List Nat).length) :=
  ⟨by decide,
    (C34_variable_numbering (Q [Y, X]) [Q [a, b]] [Q [a, b]] none [0, 1]
      [⟨[some b, some a], 0⟩] (by decide)).1,
    (C34_variable_numbering (Q [Y, X]) [Q [a, b]] [Q [a, b]] none [0, 1]
      [⟨[some b, some a], 0⟩] (by decide)).2.2.2.1,
    (C34_variable_numbering (Q [Y, X]) [Q [a, b]] [Q [a, b]] none [0, 1]
      [⟨[some b, some a], 0⟩] (by decide)).2.2.2.2.2.1⟩

end Kernel


namespace Indexing

open Kernel

theorem withRes_again (res : Nat) (x : Run LoopStep) (c1 : EContext)
    (h : LoopStep.withRes res x = .ok (.again c1)) : x = .ok (.again c1) := by
  unfold LoopStep.withRes at h
  split at h
  · cases h
  · exact h

theorem withRes_true (res r : Nat) (x : Run LoopStep) (c1 : EContext)
    (h : LoopStep.withRes res x = .ok (.ret true r c1)) : x = .ok (.ret true r c1) := by
  unfold LoopStep.withRes at h
  split at h
  · cases h
  · exact h

theorem withRes_ok (res : Nat) (x : Run LoopStep) (s : LoopStep) (h : x = .ok s) :
    ∃ s1, LoopStep.withRes res x = .ok s1 := by
  subst h
  unfold LoopStep.withRes
  split
  · exact ⟨_, rfl⟩
  · exact ⟨_, rfl⟩

/-- Every context at the head of the loop of `next`, in the calls that follow
`init` on a tree in which the exhaustive run ends without a fault, is not
fresh, and the exhaustive run from it ends without a fault. -/
theorem visits_drive (mem : List CodeBlock) (ctx0 : EContext) (k0 : Nat)
    (h0 : (drive mem k0 { ctx0 with fresh := false }).2.2 = none) (c : EContext)
    (hv : Visits mem ctx0 c) : c.fresh = false ∧ ∃ k, (drive mem k c).2.2 = none := by
  induction hv with
  | start => exact ⟨rfl, k0, h0⟩
  | again c c1 res _ hl ih =>
    obtain ⟨hf, k, hk⟩ := ih
    refine ⟨((loopBody_fresh mem c res).2 c1 hl).trans hf, ?_⟩
    cases k with
    | zero => simp [drive] at hk
    | succ k =>
      rw [loopBody_res] at hl
      have hl0 := withRes_again res _ c1 hl
      simp only [drive, hl0] at hk
      exact ⟨k, hk⟩
  | resume c c1 c2 res r _ hl hb ih =>
    obtain ⟨hf, k, hk⟩ := ih
    have hf1 : c1.fresh = false := ((loopBody_fresh mem c res).1 _ _ c1 hl).trans hf
    have hf2 : c2.fresh = false := (backtrack_fresh c1 c2 hb).trans hf1
    rw [setFresh_eq c2 hf2]
    refine ⟨hf2, ?_⟩
    cases k with
    | zero => simp [drive] at hk
    | succ k =>
      rw [loopBody_res] at hl
      have hl0 := withRes_true res r _ c1 hl
      simp only [drive, hl0, hb] at hk
      exact ⟨k, hk⟩

/-- A context from which the exhaustive run ends without a fault passes the
body of the loop without a fault. -/
theorem drive_loopBody (mem : List CodeBlock) (c : EContext) (k : Nat)
    (hk : (drive mem k c).2.2 = none) (res : Nat) :
    ∃ s, TermCodeTree.loopBody mem c res = .ok s := by
  cases k with
  | zero => simp [drive] at hk
  | succ k =>
    rw [loopBody_res]
    cases hl : TermCodeTree.loopBody mem c 0 with
    | fault f => simp [drive, hl] at hk
    | ok s => exact withRes_ok res _ s rfl

theorem doCheckFun_reads (ctx : EContext) (f : Nat) (r : Bool × EContext)
    (h : ctx.doCheckFun f = .ok r) : ctx.tp < ctx.ft.length := by
  unfold EContext.doCheckFun at h
  by_contra hc
  have : ctx.ft.get? ctx.tp = none := by simp; omega
  rw [this] at h
  cases h

theorem get?_inside {α : Type} (l : List α) (k : Nat) (x : α) (h : l.get? k = some x) :
    k < l.length := (List.get?_eq_some.1 h).1

theorem doAssignVar_reads (ctx c1 : EContext) (v : Nat) (h : ctx.doAssignVar v = .ok c1) :
    ctx.tp < ctx.ft.length ∧
      ∀ n, ctx.ft.get? ctx.tp = some (.FUN n) → ctx.tp + 2 < ctx.ft.length := by
  unfold EContext.doAssignVar at h
  cases h0 : ctx.ft.get? ctx.tp with
  | none => rw [h0] at h; cases h
  | some e =>
    refine ⟨get?_inside _ _ _ h0, fun n hn => ?_⟩
    cases hn
    rw [h0] at h
    simp only [] at h
    cases h1 : ctx.ft.get? (ctx.tp + 1) with
    | none => rw [h1] at h; cases h
    | some e1 =>
      rw [h1] at h
      cases e1 with
      | FUN_TERM_PTR t =>
        simp only [] at h
        cases hs : ctx.setBinding v t with
        | fault f => rw [hs] at h; cases h
        | ok c =>
          rw [hs] at h
          simp only [] at h
          cases h2 : ctx.ft.get? (ctx.tp + 2) with
          | none => rw [h2] at h; cases h
          | some e2 => exact get?_inside _ _ _ h2
      | VAR m => cases h
      | FUN m => cases h
      | FUN_RIGHT_OFS m => cases h

theorem doCheckVar_reads (ctx : EContext) (v : Nat) (r : Bool × EContext)
    (h : ctx.doCheckVar v = .ok r) :
    ctx.tp < ctx.ft.length ∧
      ∀ n, ctx.ft.get? ctx.tp = some (.FUN n) → ctx.tp + 1 < ctx.ft.length ∧
        ∀ t, ctx.ft.get? (ctx.tp + 1) = some (.FUN_TERM_PTR t) →
          ctx.bindings.get? v = some (some t) → ctx.tp + 2 < ctx.ft.length := by
  unfold EContext.doCheckVar at h
  cases h0 : ctx.ft.get? ctx.tp with
  | none => rw [h0] at h; cases h
  | some e =>
    refine ⟨get?_inside _ _ _ h0, fun n hn => ?_⟩
    cases hn
    rw [h0] at h
    simp only [] at h
    cases h1 : ctx.ft.get? (ctx.tp + 1) with
    | none => rw [h1] at h; cases h
    | some e1 =>
      refine ⟨get?_inside _ _ _ h1, fun t ht hb => ?_⟩
      cases ht
      rw [h1] at h
      simp only [EContext.getBinding, hb, ne_eq, not_true_eq_false, if_false] at h
      cases h2 : ctx.ft.get? (ctx.tp + 2) with
      | none => rw [h2] at h; cases h
      | some e2 => exact get?_inside _ _ _ h2

/-- A pass through the body of the loop that ends without a fault has read
the flattened query inside the flat term only. -/
theorem loopBody_reads (mem : List CodeBlock) (ctx : EContext) (res : Nat) (s : LoopStep)
    (i : Instruction) (alt : Option Ptr) (hd : deref mem ctx.op = .ok ⟨i, alt⟩)
    (h : TermCodeTree.loopBody mem ctx res = .ok s) : ReadsInside ctx i := by
  unfold TermCodeTree.loopBody at h
  rw [hd] at h
  cases i with
  | SUCCESS r => trivial
  | NEXT_LIT => trivial
  | FAIL => trivial
  | CHECK_FUN f =>
    cases alt with
    | none =>
      simp only [] at h
      cases hx : ctx.doCheckFun f with
      | fault e => rw [hx] at h; cases h
      | ok r => exact doCheckFun_reads ctx f r hx
    | some a =>
      simp only [] at h
      cases hx : EContext.doCheckFun { ctx with btStack := ⟨ctx.tp, a⟩ :: ctx.btStack } f with
      | fault e => rw [hx] at h; cases h
      | ok r =>
        have := doCheckFun_reads _ f r hx
        exact this
  | ASSIGN_VAR v =>
    cases alt with
    | none =>
      simp only [] at h
      cases hx : ctx.doAssignVar v with
      | fault e => rw [hx] at h; cases h
      | ok r => exact doAssignVar_reads ctx r v hx
    | some a =>
      simp only [] at h
      cases hx : EContext.doAssignVar { ctx with btStack := ⟨ctx.tp, a⟩ :: ctx.btStack } v with
      | fault e => rw [hx] at h; cases h
      | ok r =>
        have := doAssignVar_reads _ r v hx
        exact this
  | CHECK_VAR v =>
    cases alt with
    | none =>
      simp only [] at h
      cases hx : ctx.doCheckVar v with
      | fault e => rw [hx] at h; cases h
      | ok r => exact doCheckVar_reads ctx v r hx
    | some a =>
      simp only [] at h
      cases hx : EContext.doCheckVar { ctx with btStack := ⟨ctx.tp, a⟩ :: ctx.btStack } v with
      | fault e => rw [hx] at h; cases h
      | ok r =>
        have := doCheckVar_reads _ v r hx
        exact this

end Indexing


namespace Indexing

open Kernel

/-- A walk from the root of a term tree that ends at a SUCCESS has gone over
the whole code of an inserted pattern but its final SUCCESS. -/
theorem success_walk (tree : CodeTree) (ps : List TermList) (t : Trie) (root : Nat)
    (hinv : TreeInv tree ps t) (hroot : tree._data = some root) (code : List Instruction)
    (q : Ptr) (r : Nat) (alt : Option Ptr)
    (hp : PathTo tree.mem ⟨root, 0⟩ code q) (hd : deref tree.mem q = .ok ⟨.SUCCESS r, alt⟩) :
    ∃ p ∈ ps, code = patternBody p := by
  obtain ⟨hrep, hsh, hto, _, _, hperm, _⟩ := treeInv_paths tree ps t root hinv hroot
  obtain ⟨_, sq, hsq, hpre⟩ := pathTo_paths tree.mem _ q _ hp t hrep hsh hto _ alt hd
  obtain ⟨p1, hp1m, hp1⟩ := (paths_pattern ps t hperm).1 sq hsq
  obtain ⟨w, hw⟩ := hpre
  rw [hp1] at hw
  unfold patternCode at hw
  refine ⟨p1, hp1m, ?_⟩
  have hlen := congrArg List.length hw
  simp only [List.length_append, List.length_cons, List.length_nil] at hlen
  have hge : ¬ code.length < (patternBody p1).length := by
    intro hlt
    have hget := congrArg (fun l => l[code.length]?) hw
    simp only [List.append_assoc, List.getElem?_append_right (Nat.le_refl _), Nat.sub_self,
      List.singleton_append, List.getElem?_cons_zero, List.getElem?_append_left hlt] at hget
    have hmem : Instruction.SUCCESS r ∈ patternBody p1 := List.getElem?_mem hget.symm
    have := compArg_plain p1 ([], 0) _ hmem
    cases this
  have hw2 : code ++ ([Instruction.SUCCESS r] ++ w) = patternBody p1 ++ [Instruction.SUCCESS 0] := by
    rw [← List.append_assoc]
    exact hw
  exact (List.append_inj hw2 (by omega)).1

/-- Claim C39: query positions stay in bounds. For a tree built by inserting
term patterns over a signature in which every functor has a fixed arity, and a
query over this signature, every context with which the loop of `next` starts
a pass, in the calls of `next` that follow `init`, works on the flat term of
the query, passes the body of the loop without a fault (no read outside the
flat term, no failed assertion), and the positions that `doCheckFun`,
`doAssignVar` and `doCheckVar` read for the instruction under the cursor are
inside the flat term; when this instruction is SUCCESS, the query position is
the length of the flat term. -/
theorem C39_query_positions_in_bounds (ar : Nat → Nat) (ps : List TermList) (tree : CodeTree)
    (q : TermList) (ctx0 c : EContext)
    (hps : ∀ p ∈ ps, p.wellFormed ar = true) (hq : q.wellFormed ar = true)
    (htree : TermCodeTree.insertAll CodeTree.empty ps = .ok tree)
    (hinit : TermCodeTree.init tree q = .ok ctx0) (hv : Visits tree.mem ctx0 c) :
    c.ft = FlatTerm.create q ∧
    (∀ res, ∃ s, TermCodeTree.loopBody tree.mem c res = .ok s) ∧
    ∃ i alt, deref tree.mem c.op = .ok ⟨i, alt⟩ ∧ ReadsInside c i ∧
      ∀ r, i = .SUCCESS r → c.tp = c.ft.length := by
  obtain ⟨t, hinv, _⟩ := insertAll_inv ps CodeTree.empty [] .nil tree treeInv_empty htree
  simp only [List.append_nil] at hinv
  cases hroot : tree._data with
  | none => simp [TermCodeTree.init, hroot] at hinit
  | some root =>
    have hcompat : ∀ p ∈ ps, shapeCompat p q := fun p hp =>
      shapeCompat_of_wf ar p q (hps p hp) hq
    obtain ⟨l, tr, hdrive, _⟩ := enumerate tree ps t q root hinv hroot hcompat
    have hi := hinit
    rw [init_ok tree q root hroot] at hi
    simp only [Run.ok.injEq] at hi
    have h0 : (drive tree.mem (0 + tr.length) { ctx0 with fresh := false }).2.2 = none := by
      rw [← hi, hdrive 0]
    obtain ⟨_, k, hk⟩ := visits_drive tree.mem ctx0 _ h0 c hv
    have hok := drive_loopBody tree.mem c k hk
    obtain ⟨hft, code, b1, _, hpath, hexec, _, _⟩ :=
      visits_runOK tree ps t root hinv hroot q ctx0 hinit c hv
    have hft0 : ctx0.ft = FlatTerm.create q := by rw [← hi]
    have hb0 : ctx0.bindings = List.replicate tree._maxVarCnt none := by rw [← hi]
    refine ⟨hft.trans hft0, hok, ?_⟩
    obtain ⟨s, hs⟩ := hok 0
    cases hd : deref tree.mem c.op with
    | fault f => simp [TermCodeTree.loopBody, hd] at hs
    | ok op =>
      obtain ⟨i, alt⟩ := op
      refine ⟨i, alt, rfl, loopBody_reads tree.mem c 0 s i alt hd hs, ?_⟩
      intro r hr
      subst hr
      obtain ⟨p, hp, hcode⟩ := success_walk tree ps t root hinv hroot code c.op r alt hpath hd
      have hmax := (treeInv_paths tree ps t root hinv hroot).2.2.2.2.2.2 p hp
      have hex := patternCode_exec p q (hcompat p hp) ctx0.bindings (by rw [hb0]; simpa using hmax)
      rw [hft0] at hexec
      have hall : execCode (FlatTerm.create q) (patternCode p) 0 ctx0.bindings =
          .ok (some (c.tp, b1)) := by
        unfold patternCode
        rw [execCode_append, ← hcode, hexec]
        rfl
      rw [hall] at hex
      rcases hex with ⟨h1, _⟩ | ⟨b2, h1, _⟩
      · cases h1
      · simp only [Run.ok.injEq, Option.some.injEq, Prod.mk.injEq] at h1
        rw [hft, hft0]
        exact h1.1

/-- The statement of C39 at the tree of f(X,Y) and f(X,X), queried with
f(a,a), for the first pass of the loop: the instruction under the cursor is
CHECK_FUN f and the query position 0 is inside the flat term. -/
theorem C39_query_positions_in_bounds_witness :
    (⟨false, 0, ⟨0, 0⟩, [], [none, none],
        FlatTerm.create (.term 0 [.term 1 [], .term 1 []])⟩ : EContext).ft =
      FlatTerm.create (.term 0 [.term 1 [], .term 1 []]) ∧
    (∀ res, ∃ s, TermCodeTree.loopBody
      [[⟨.CHECK_FUN 0, none⟩, ⟨.ASSIGN_VAR 0, none⟩, ⟨.ASSIGN_VAR 1, some ⟨1, 0⟩⟩,
          ⟨.SUCCESS 0, none⟩],
        [⟨.CHECK_VAR 0, none⟩, ⟨.SUCCESS 0, none⟩]]
      ⟨false, 0, ⟨0, 0⟩, [], [none, none], FlatTerm.create (.term 0 [.term 1 [], .term 1 []])⟩
      res = .ok s) ∧
    ∃ i alt,
      deref [[⟨.CHECK_FUN 0, none⟩, ⟨.ASSIGN_VAR 0, none⟩, ⟨.ASSIGN_VAR 1, some ⟨1, 0⟩⟩,
          ⟨.SUCCESS 0, none⟩],
        [⟨.CHECK_VAR 0, none⟩, ⟨.SUCCESS 0, none⟩]] ⟨0, 0⟩ = .ok ⟨i, alt⟩ ∧
      ReadsInside ⟨false, 0, ⟨0, 0⟩, [], [none, none],
        FlatTerm.create (.term 0 [.term 1 [], .term 1 []])⟩ i ∧
      ∀ r, i = .SUCCESS r →
        0 = (FlatTerm.create (.term 0 [.term 1 [], .term 1 []])).length :=
  C39_query_positions_in_bounds (fun f => if f = 0 then 2 else 0)
    [.term 0 [.var 0, .var 1], .term 0 [.var 0, .var 0]]
    ⟨2, some 0,
      [[⟨.CHECK_FUN 0, none⟩, ⟨.ASSIGN_VAR 0, none⟩, ⟨.ASSIGN_VAR 1, some ⟨1, 0⟩⟩,
          ⟨.SUCCESS 0, none⟩],
        [⟨.CHECK_VAR 0, none⟩, ⟨.SUCCESS 0, none⟩]]⟩
    (.term 0 [.term 1 [], .term 1 []])
    ⟨true, 0, ⟨0, 0⟩, [], [none, none], FlatTerm.create (.term 0 [.term 1 [], .term 1 []])⟩
    ⟨false, 0, ⟨0, 0⟩, [], [none, none], FlatTerm.create (.term 0 [.term 1 [], .term 1 []])⟩
    (by decide) (by decide) (by decide) (by decide) (Visits.start)

end Indexing


namespace Indexing

open Kernel

/-- The walk of `incorporate` on the trie keeps the stored sequences, with
the addresses of their final instructions, in their order. -/
theorem insert_sublist (newBlk : Nat) (t : Trie) :
    ∀ (code : List Instruction) (t1 : Trie), Trie.insert newBlk t code = some t1 →
      t.paths.Sublist t1.paths := by
  induction t with
  | nil => intro code t1 h; simp [Trie.insert] at h
  | node p i c a ihc iha =>
    intro code t1 h
    obtain ⟨X, hX⟩ := paths_node_split p i c
    cases code with
    | nil => simp [Trie.insert] at h
    | cons c0 rest =>
      simp only [Trie.insert] at h
      by_cases h0 : c0 = i
      · simp only [h0, if_true] at h
        cases rest with
        | nil => cases h
        | cons c1 rest1 =>
          simp only [] at h
          cases hc : Trie.insert newBlk c (c1 :: rest1) with
          | none => rw [hc] at h; cases h
          | some cn =>
            rw [hc] at h
            simp only [Option.some.injEq] at h
            subst h
            have hsub := ihc _ _ hc
            cases i with
            | SUCCESS r => exact List.Sublist.refl _
            | FAIL => exact List.Sublist.refl _
            | NEXT_LIT =>
              exact List.Sublist.append (List.Sublist.map _ hsub) (List.Sublist.refl _)
            | CHECK_FUN f =>
              exact List.Sublist.append (List.Sublist.map _ hsub) (List.Sublist.refl _)
            | ASSIGN_VAR v =>
              exact List.Sublist.append (List.Sublist.map _ hsub) (List.Sublist.refl _)
            | CHECK_VAR v =>
              exact List.Sublist.append (List.Sublist.map _ hsub) (List.Sublist.refl _)
      · simp only [h0, if_false] at h
        cases a with
        | nil =>
          simp only [Option.some.injEq] at h
          subst h
          rw [hX, hX]
          exact List.Sublist.append (List.Sublist.refl _) (List.nil_sublist _)
        | node p2 i2 c2 a2 =>
          simp only [] at h
          cases ha : Trie.insert newBlk (.node p2 i2 c2 a2) (c0 :: rest) with
          | none => rw [ha] at h; cases h
          | some an =>
            rw [ha] at h
            simp only [Option.some.injEq] at h
            subst h
            rw [hX, hX]
            exact List.Sublist.append (List.Sublist.refl _) (iha _ _ ha)

/-- A successful insertion of a pattern keeps the invariant of the tree, and
the trie after it holds the stored sequences of the trie before it in their
order. -/
theorem insert_trie (tree tree1 : CodeTree) (ps : List TermList) (t : Trie) (p : TermList)
    (hinv : TreeInv tree ps t) (h : TermCodeTree.insert tree p = .ok tree1) :
    ∃ t1, TreeInv tree1 (p :: ps) t1 ∧ t.paths.Sublist t1.paths := by
  obtain ⟨t1, hinv1, _⟩ := (insert_inv tree ps t p hinv).1 tree1 h
  obtain ⟨hmax, hshape⟩ := hinv
  obtain ⟨hc1, hc2, hc3⟩ := compile_tree tree p
  have hcode := compile_code tree p
  have hok := patternCode_ok p
  unfold TermCodeTree.insert at h
  simp only [] at h
  unfold CodeTree.incorporate at h
  rw [hc2, hcode, hc1] at h
  cases hd : tree._data with
  | none =>
    rw [hd] at hshape
    simp only [] at hshape
    obtain ⟨_, ht⟩ := hshape
    subst ht
    exact ⟨t1, hinv1, List.nil_sublist _⟩
  | some root =>
    rw [hd] at hshape h
    simp only [] at hshape h
    obtain ⟨hrep, hsh, hto, hrange, hnd, hperm⟩ := hshape
    cases hops : (patternCode p).map OpCode.mk0 with
    | nil =>
      have := patternCode_ne_nil p
      simp at hops
      exact absurd hops this
    | cons c rest =>
      rw [hops] at h
      have hinstr : instrsOf (c :: rest) = patternCode p := by
        rw [← hops, instrsOf_map_mk0]
      have hI := incSpec_all tree.mem (c :: rest) t ⟨root, 0⟩ c rest [] (tree.mem.length + 1)
        hrep hsh hrange hnd (by rw [hinstr]; exact hok) (by simp)
        (by rw [← hops]; exact mk0_alt _) (by simp)
      rw [incorporateLoop_cons] at h
      rw [hinstr] at hI
      rcases hI with ⟨_, h2⟩ | ⟨t2, q, blk, h1, _, h3, h4⟩
      · rw [h2] at h
        cases h
      · rw [h3] at h
        simp only [Run.ok.injEq] at h
        subst h
        obtain ⟨k1, k2, _, ⟨q2, k4⟩, ⟨l, k5, k6, k7⟩⟩ :=
          insert_some tree.mem.length t (patternCode p) t2 hok hsh hto h1
        refine ⟨t2, ⟨hinv1.1, ?_⟩, insert_sublist _ t _ _ h1⟩
        simp only [hd]
        refine ⟨h4, k1, k2, ?_, ?_, ?_⟩
        · intro x hx
          rw [setAlternative_length, List.length_append, List.length_singleton]
          rcases List.mem_append.1 (k5.mem_iff.1 hx) with hx | hx
          · have := hrange x hx
            omega
          · rw [k6 x hx]
            omega
        · rw [k5.nodup_iff, List.nodup_append]
          refine ⟨hnd, k7, ?_⟩
          intro x hx1 hx2
          have := hrange x hx1
          rw [k6 x hx2] at this
          omega
        · refine (k4.map Prod.fst).trans ?_
          simp only [List.map_append, List.map_cons, List.map_nil]
          refine (List.perm_append_comm).trans ?_
          simp only [List.singleton_append]
          exact List.Perm.cons _ hperm

/-- The calls of `next` on a freshly initialised context of a tree that holds
the patterns `ps` return true at the final instructions of the stored
sequences that execute successfully on the query, in the order of the trie,
and then false. -/
theorem collect_paths (tree : CodeTree) (ps : List TermList) (t : Trie) (q : TermList)
    (root : Nat) (hinv : TreeInv tree ps t) (hroot : tree._data = some root)
    (hcompat : ∀ p ∈ ps, shapeCompat p q) :
    ∃ (l : List Ptr) (fuel : Nat),
      (∀ n, l.length < n →
        TermCodeTree.collect tree fuel n
          ⟨true, 0, ⟨root, 0⟩, [], List.replicate tree._maxVarCnt none, FlatTerm.create q⟩
            = (l, .exhausted)) ∧
      l = (t.paths.filter (fun sq => succeeds (execCode (FlatTerm.create q) sq.1 0
        (List.replicate tree._maxVarCnt none)))).map Prod.snd := by
  obtain ⟨l0, tr, hdrive, _, hmap, _⟩ := enumerate tree ps t q root hinv hroot hcompat
  refine ⟨l0.map Prod.fst, tr.length, ?_, hmap⟩
  intro n hn
  have hd0 := hdrive 0
  simp only [Nat.zero_add] at hd0
  have := collect_fresh_of_drive tree tr.length
    ⟨true, 0, ⟨root, 0⟩, [], List.replicate tree._maxVarCnt none, FlatTerm.create q⟩ rfl
    (by simp only []; rw [hd0]; simp) n (by simp only []; rw [hd0]; simpa using hn)
  simp only [] at this
  rw [hd0] at this
  exact this

/-- Claim C37: insertion never removes or reorders existing matches. Let a
tree be built by inserting term patterns over a signature in which every
functor has a fixed arity, let the compiled sequence of a further pattern over
this signature be inserted with `incorporate`, and let a query over the
signature be given. Then the successive calls of `next` on a freshly
initialised context return true at SUCCESS instructions `l` and then false on
the tree before the insertion, and at SUCCESS instructions `l1` and then
false on the tree after it, and `l` is a subsequence of `l1`: every match of
before is a match of after, at the same instruction, and in the same relative
order. -/
theorem C37_insertion_keeps_matches (ar : Nat → Nat) (ps : List TermList) (p q : TermList)
    (tree tree1 : CodeTree) (ctx ctx1 : EContext)
    (hps : ∀ x ∈ p :: ps, x.wellFormed ar = true) (hq : q.wellFormed ar = true)
    (htree : TermCodeTree.insertAll CodeTree.empty ps = .ok tree)
    (hins : TermCodeTree.insert tree p = .ok tree1)
    (hinit : TermCodeTree.init tree q = .ok ctx)
    (hinit1 : TermCodeTree.init tree1 q = .ok ctx1) :
    ∃ (l l1 : List Ptr) (fuel fuel1 : Nat),
      (∀ n, l.length < n → TermCodeTree.collect tree fuel n ctx = (l, .exhausted)) ∧
      (∀ n, l1.length < n → TermCodeTree.collect tree1 fuel1 n ctx1 = (l1, .exhausted)) ∧
      l.Sublist l1 := by
  obtain ⟨t, hinv, _⟩ := insertAll_inv ps CodeTree.empty [] .nil tree treeInv_empty htree
  simp only [List.append_nil] at hinv
  obtain ⟨t1, hinv1, hsub⟩ := insert_trie tree tree1 ps t p hinv hins
  have hcompat1 : ∀ x ∈ p :: ps, shapeCompat x q := fun x hx =>
    shapeCompat_of_wf ar x q (hps x hx) hq
  have hcompat : ∀ x ∈ ps, shapeCompat x q := fun x hx =>
    hcompat1 x (List.mem_cons_of_mem _ hx)
  cases hroot : tree._data with
  | none => simp [TermCodeTree.init, hroot] at hinit
  | some root =>
    cases hroot1 : tree1._data with
    | none => simp [TermCodeTree.init, hroot1] at hinit1
    | some root1 =>
      rw [init_ok tree q root hroot] at hinit
      rw [init_ok tree1 q root1 hroot1] at hinit1
      simp only [Run.ok.injEq] at hinit hinit1
      subst hinit
      subst hinit1
      obtain ⟨l, fuel, hl, hlmap⟩ := collect_paths tree ps t q root hinv hroot hcompat
      obtain ⟨l1, fuel1, hl1, hl1map⟩ :=
        collect_paths tree1 (p :: ps) t1 q root1 hinv1 hroot1 hcompat1
      refine ⟨l, l1, fuel, fuel1, hl, hl1, ?_⟩
      obtain ⟨_, _, _, _, _, hperm, hmax⟩ := treeInv_paths tree ps t root hinv hroot
      have hmax1 := (treeInv_paths tree1 (p :: ps) t1 root1 hinv1 hroot1).2.2.2.2.2.2
      obtain ⟨hpp, _⟩ := paths_pattern ps t hperm
      have hfilter : t.paths.filter (fun sq => succeeds (execCode (FlatTerm.create q) sq.1 0
            (List.replicate tree._maxVarCnt none))) =
          t.paths.filter (fun sq => succeeds (execCode (FlatTerm.create q) sq.1 0
            (List.replicate tree1._maxVarCnt none))) := by
        apply List.filter_congr
        intro sq hsq
        obtain ⟨x, hx, hxe⟩ := hpp sq hsq
        rw [hxe]
        have e1 := patternCode_succeeds x q (hcompat x hx)
          (List.replicate tree._maxVarCnt none) (by simpa using hmax x hx)
        have e2 := patternCode_succeeds x q (hcompat x hx)
          (List.replicate tree1._maxVarCnt none)
          (by simpa using hmax1 x (List.mem_cons_of_mem _ hx))
        exact Bool.eq_iff_iff.2 (e1.trans e2.symm)
      rw [hlmap, hl1map, hfilter]
      exact List.Sublist.map _ (List.Sublist.filter _ hsub)

/-- The statement of C37 at the tree of f(X), into which f(a) is inserted,
for the query f(a). -/
theorem C37_insertion_keeps_matches_witness :
    ∃ (l l1 : List Ptr) (fuel fuel1 : Nat),
      (∀ n, l.length < n →
        TermCodeTree.collect
          ⟨1, some 0, [[⟨.CHECK_FUN 0, none⟩, ⟨.ASSIGN_VAR 0, none⟩, ⟨.SUCCESS 0, none⟩]]⟩
          fuel n ⟨true, 0, ⟨0, 0⟩, [], [none], FlatTerm.create (.term 0 [.term 1 []])⟩
          = (l, .exhausted)) ∧
      (∀ n, l1.length < n →
        TermCodeTree.collect
          ⟨1, some 0,
            [[⟨.CHECK_FUN 0, none⟩, ⟨.ASSIGN_VAR 0, some ⟨1, 0⟩⟩, ⟨.SUCCESS 0, none⟩],
              [⟨.CHECK_FUN 1, none⟩, ⟨.SUCCESS 0, none⟩]]⟩
          fuel1 n ⟨true, 0, ⟨0, 0⟩, [], [none], FlatTerm.create (.term 0 [.term 1 []])⟩
          = (l1, .exhausted)) ∧
      l.Sublist l1 :=
  C37_insertion_keeps_matches (fun f => if f = 0 then 1 else 0) [.term 0 [.var 0]]
    (.term 0 [.term 1 []]) (.term 0 [.term 1 []])
    ⟨1, some 0, [[⟨.CHECK_FUN 0, none⟩, ⟨.ASSIGN_VAR 0, none⟩, ⟨.SUCCESS 0, none⟩]]⟩
    ⟨1, some 0,
      [[⟨.CHECK_FUN 0, none⟩, ⟨.ASSIGN_VAR 0, some ⟨1, 0⟩⟩, ⟨.SUCCESS 0, none⟩],
        [⟨.CHECK_FUN 1, none⟩, ⟨.SUCCESS 0, none⟩]]⟩
    ⟨true, 0, ⟨0, 0⟩, [], [none], FlatTerm.create (.term 0 [.term 1 []])⟩
    ⟨true, 0, ⟨0, 0⟩, [], [none], FlatTerm.create (.term 0 [.term 1 []])⟩
    (by decide) (by decide) (by decide) (by decide) (by decide) (by decide)

end Indexing


namespace Kernel

open Indexing (Run Fault)
open Example

/-- A list in which exactly the entries from the index `s` on pass a test is,
filtered by the test, the list from `s` on. -/
theorem filter_eq_drop {α : Type} (pred : α → Bool) : ∀ (l : List α) (s : Nat),
    (∀ k x, l.get? k = some x → (pred x = true ↔ s ≤ k)) → l.filter pred = l.drop s := by
  intro l
  induction l with
  | nil => intro s _; simp
  | cons x xs ih =>
    intro s h
    cases s with
    | zero =>
      have hx : pred x = true := (h 0 x rfl).2 (Nat.le_refl _)
      rw [List.filter_cons_of_pos hx, List.drop_zero]
      have := ih 0 (fun k y hy => by
        have := h (k + 1) y (by simpa using hy)
        simp only [this]
        omega)
      rw [this, List.drop_zero]
    | succ s =>
      have hx : ¬ pred x = true := fun hp => by
        have := (h 0 x rfl).1 hp
        omega
      rw [List.filter_cons_of_neg hx, List.drop_succ_cons]
      exact ih s (fun k y hy => by
        have := h (k + 1) y (by simpa using hy)
        simp only [this]
        omega)

/-- Claim C32, counterexample: for the base literals P(X), Q(X), R(X,Y), each
with two alternatives, no slot is a zero-alternative or a forced
single-alternative slot, and R(X,Y) is the slot with the most distinct
variables. After the reordering the arrays hold R(X,Y), Q(X), P(X): the
remaining slots P(X) and Q(X) stand in the order Q(X), P(X), while the caller
gave them in the order P(X), Q(X). -/
theorem C32_stability_counterexample :
    reorderLits [P [X], Q [X], R [X, Y]]
        [[P [a], P [b]], [Q [a], Q [b]], [R [a, b], R [b, a]]] none =
      .ok ([R [X, Y], Q [X], P [X]], [[R [a, b], R [b, a]], [Q [a], Q [b]], [P [a], P [b]]]) ∧
    forcedSlot none (P [X]) [P [a], P [b]] = false ∧
    forcedSlot none (Q [X]) [Q [a], Q [b]] = false ∧
    forcedSlot none (R [X, Y]) [R [a, b], R [b, a]] = false ∧
    (R [X, Y]).getDistinctVars = 2 ∧ (P [X]).getDistinctVars = 1 ∧
    (Q [X]).getDistinctVars = 1 := by
  refine ⟨by decide, by decide, by decide, by decide, by decide, by decide, by decide⟩

/-- Claim C32, as the code behaves: after the reordering of `getMatchingData`
the base slots that are not zero-alternative or forced single-alternative
slots stand behind all the slots that are, from an index `s` on, and the
pairs (base literal, list of alternatives) from the index `s` on are, as a
multiset, the pairs of the caller's arrays that are not such slots; their
order is the one that the exchanges of the loop leave, not in general the
order of the caller's arrays. -/
theorem C32_remaining_slots (baseLits0 : List Literal) (alts : List (List Literal))
    (resolvedLit : Option Literal) (bs : List Literal) (as : List (List Literal))
    (hlen : baseLits0.length ≤ alts.length)
    (h : reorderLits baseLits0 alts resolvedLit = .ok (bs, as)) :
    ∃ s, (∀ k lit lits, bs.get? k = some lit → as.get? k = some lits →
        (forcedSlot resolvedLit lit lits = true ↔ k < s)) ∧
      ((bs.zip as).drop s).Perm
        ((baseLits0.zip alts).filter (fun p => !forcedSlot resolvedLit p.1 p.2)) := by
  have hne : baseLits0 ≠ [] := by
    intro he
    subst he
    simp [reorderLits] at h
  obtain ⟨bs1, as1, h1, hs⟩ := reorderLits_spec baseLits0 alts resolvedLit hne hlen
  rw [h] at h1
  simp only [Run.ok.injEq, Prod.mk.injEq] at h1
  obtain ⟨e1, e2⟩ := h1
  subst e1
  subst e2
  obtain ⟨s, hforced⟩ := reorder_forced_first baseLits0 alts resolvedLit bs as hlen h
  refine ⟨s, hforced, ?_⟩
  have hperm := samePerm_pairs baseLits0 alts bs as hlen hs
  have hdrop : (bs.zip as).filter (fun p => !forcedSlot resolvedLit p.1 p.2) =
      (bs.zip as).drop s := by
    apply filter_eq_drop
    intro k x hx
    simp only [List.get?_eq_getElem?, List.getElem?_zip_eq_some] at hx
    have := hforced k x.1 x.2 (by simpa using hx.1) (by simpa using hx.2)
    cases hf : forcedSlot resolvedLit x.1 x.2 with
    | true =>
      rw [hf] at this
      simp only [Bool.not_true, Bool.false_eq_true, false_iff, Nat.not_le]
      exact this.1 rfl
    | false =>
      rw [hf] at this
      simp only [Bool.not_false, true_iff]
      have h2 : ¬ k < s := fun hk => by
        have := this.2 hk
        cases this
      omega
  rw [← hdrop]
  exact hperm.filter _

/-- The statement of C32 at the base literals P(X), Q(X), R(X,Y), each with
two alternatives. -/
theorem C32_remaining_slots_witness :
    ∃ s, (∀ k lit lits, [R [X, Y], Q [X], P [X]].get? k = some lit →
        [[R [a, b], R [b, a]], [Q [a], Q [b]], [P [a], P [b]]].get? k = some lits →
        (forcedSlot none lit lits = true ↔ k < s)) ∧
      (([R [X, Y], Q [X], P [X]].zip
          [[R [a, b], R [b, a]], [Q [a], Q [b]], [P [a], P [b]]]).drop s).Perm
        (([P [X], Q [X], R [X, Y]].zip
          [[P [a], P [b]], [Q [a], Q [b]], [R [a, b], R [b, a]]]).filter
            (fun p => !forcedSlot none p.1 p.2)) :=
  C32_remaining_slots [P [X], Q [X], R [X, Y]]
    [[P [a], P [b]], [Q [a], Q [b]], [R [a, b], R [b, a]]] none
    [R [X, Y], Q [X], P [X]] [[R [a, b], R [b, a]], [Q [a], Q [b]], [P [a], P [b]]]
    (by decide) (by decide)

end Kernel


namespace Kernel

open Indexing (Run Fault)
open Example

/-- The candidate of the reordering loop after a pass that moved a forced
base literal to the index `singleAlts`: the base literal that stood there
stands at the index `i`, the base literals between are where they were, and
the candidate follows the base literal it pointed to. -/
theorem most_of_read (st st1 : Reorder) (i : Nat) (hm : Reorder.Most st i)
    (hs : st1.singleAlts = st.singleAlts + 1)
    (hmdl : st1.mostDistVarsLit =
      if st.mostDistVarsLit = st.singleAlts then i else st.mostDistVarsLit)
    (hcnt : st1.mostDistVarsCnt = st.mostDistVarsCnt)
    (hrd : st1.baseLits.get? i = st.baseLits.get? st.singleAlts)
    (hkeep : ∀ k, st.singleAlts < k → k < i → st1.baseLits.get? k = st.baseLits.get? k) :
    Reorder.Most st1 (i + 1) := by
  obtain ⟨m1, m2, ⟨sel, m3, m4⟩, m5⟩ := hm
  by_cases hc : st.mostDistVarsLit = st.singleAlts
  · rw [if_pos hc] at hmdl
    refine ⟨by omega, by omega, ⟨sel, ?_, by rw [hcnt]; exact m4⟩, ?_⟩
    · rw [hmdl, hrd, ← hc]
      exact m3
    · intro k lit g1 g2 g3
      rw [hcnt]
      by_cases hk : k = i
      · subst hk
        rw [hrd] at g3
        exact m5 _ lit (Nat.le_refl _) (by omega) g3
      · rw [hkeep k (by omega) (by omega)] at g3
        exact m5 k lit (by omega) (by omega) g3
  · rw [if_neg hc] at hmdl
    refine ⟨by omega, by omega, ⟨sel, ?_, by rw [hcnt]; exact m4⟩, ?_⟩
    · rw [hmdl, hkeep _ (by omega) (by omega)]
      exact m3
    · intro k lit g1 g2 g3
      rw [hcnt]
      by_cases hk : k = i
      · subst hk
        rw [hrd] at g3
        exact m5 _ lit (Nat.le_refl _) (by omega) g3
      · rw [hkeep k (by omega) (by omega)] at g3
        exact m5 k lit (by omega) (by omega) g3

/-- A pass of the reordering loop keeps the candidate in order. -/
theorem step_most (r : Option Literal) (len : Nat) (st st1 : Reorder) (i : Nat)
    (hinv : Reorder.Inv r len st i) (hm : Reorder.Most st i) (hi : i < len)
    (hstep : st.step r i = .ok st1) : Reorder.Most st1 (i + 1) := by
  obtain ⟨hB, hA, hz, hs, _⟩ := hinv
  have hm0 := hm
  obtain ⟨m1, m2, ⟨sel, m3, m4⟩, m5⟩ := hm0
  have h1 : st.baseLits.get? i = some st.baseLits[i] := by simp [hB, hi]
  have h2 : st.altsArr.get? i = some st.altsArr[i] := by simp [hA, hi]
  generalize st.baseLits[i] = lit at h1
  generalize st.altsArr[i] = lits at h2
  unfold Reorder.step at hstep
  rw [h1, h2] at hstep
  simp only [] at hstep
  have hzi : st.zeroAlts ≠ i := by omega
  have hsi : st.singleAlts ≠ i := by omega
  by_cases c0 : countAlts lits = 0
  · rw [if_pos c0] at hstep
    by_cases hsz : st.singleAlts = st.zeroAlts
    · simp only [hzi, hsz, ne_eq, not_false_eq_true, not_true_eq_false, if_true, if_false,
        Run.ok.injEq] at hstep
      subst hstep
      refine most_of_read st _ i hm (by simp only []; omega) (by simp only [hsz]) rfl ?_ ?_
      · show (swapAt st.baseLits i st.zeroAlts).get? i = _
        rw [swapAt_get _ i st.zeroAlts (by omega) (by omega), Equiv.swap_apply_left, hsz]
      · intro k g1 g2
        show (swapAt st.baseLits i st.zeroAlts).get? k = _
        rw [swapAt_get _ i st.zeroAlts (by omega) (by omega),
          Equiv.swap_apply_of_ne_of_ne (by omega) (by omega)]
    · simp only [hzi, hsz, ne_eq, not_false_eq_true, if_true, Run.ok.injEq] at hstep
      subst hstep
      refine most_of_read st _ i hm (by simp only []) rfl rfl ?_ ?_
      · show (swapAt (swapAt st.baseLits st.singleAlts st.zeroAlts) i st.zeroAlts).get? i = _
        rw [swapAt_get _ i st.zeroAlts (by rw [swapAt_length]; omega)
          (by rw [swapAt_length]; omega),
          swapAt_get _ st.singleAlts st.zeroAlts (by omega) (by omega),
          Equiv.swap_apply_left, Equiv.swap_apply_right]
      · intro k g1 g2
        show (swapAt (swapAt st.baseLits st.singleAlts st.zeroAlts) i st.zeroAlts).get? k = _
        have e1 : Equiv.swap i st.zeroAlts k = k :=
          Equiv.swap_apply_of_ne_of_ne (by omega) (by omega)
        have e2 : Equiv.swap st.singleAlts st.zeroAlts k = k :=
          Equiv.swap_apply_of_ne_of_ne (by omega) (by omega)
        rw [swapAt_get _ i st.zeroAlts (by rw [swapAt_length]; omega)
          (by rw [swapAt_length]; omega),
          swapAt_get _ st.singleAlts st.zeroAlts (by omega) (by omega), e1, e2]
  · rw [if_neg c0] at hstep
    split at hstep
    · simp only [hsi, ne_eq, not_false_eq_true, if_true, Run.ok.injEq] at hstep
      subst hstep
      refine most_of_read st _ i hm (by simp only [Reorder.swapLits]) rfl rfl ?_ ?_
      · show (swapAt st.baseLits i st.singleAlts).get? i = _
        rw [swapAt_get _ i st.singleAlts (by omega) (by omega), Equiv.swap_apply_left]
      · intro k g1 g2
        show (swapAt st.baseLits i st.singleAlts).get? k = _
        rw [swapAt_get _ i st.singleAlts (by omega) (by omega),
          Equiv.swap_apply_of_ne_of_ne (by omega) (by omega)]
    · split at hstep
      · rename_i c2
        simp only [Run.ok.injEq] at hstep
        subst hstep
        refine ⟨hs, Nat.lt_succ_self _, ⟨lit, h1, rfl⟩, ?_⟩
        intro k l g1 g2 g3
        simp only [] at g1 g3 ⊢
        by_cases hk : k = i
        · subst hk
          rw [h1] at g3
          cases g3
          exact Nat.le_refl _
        · have := m5 k l g1 (by omega) g3
          omega
      · rename_i c2
        simp only [Run.ok.injEq] at hstep
        subst hstep
        refine ⟨m1, by omega, ⟨sel, m3, m4⟩, ?_⟩
        intro k l g1 g2 g3
        by_cases hk : k = i
        · subst hk
          rw [h1] at g3
          cases g3
          by_contra hc
          exact c2 ⟨by omega, by omega⟩
        · exact m5 k l g1 (by omega) g3

/-- The reordering loop keeps the candidate in order. -/
theorem loop_most (r : Option Literal) (len : Nat) :
    ∀ (n i : Nat) (st st1 : Reorder), Reorder.Inv r len st i → Reorder.Most st i →
      i + n = len → Reorder.loop r n i st = .ok st1 →
      Reorder.Inv r len st1 len ∧ Reorder.Most st1 len := by
  intro n
  induction n with
  | zero =>
    intro i st st1 hinv hm hn h
    rw [Reorder.loop] at h
    cases h
    have : i = len := by omega
    subst this
    exact ⟨hinv, hm⟩
  | succ n ih =>
    intro i st st1 hinv hm hn h
    rw [Reorder.loop] at h
    cases hs : st.step r i with
    | fault f => rw [hs] at h; cases h
    | ok st2 =>
      rw [hs] at h
      exact ih (i + 1) st2 st1 (step_inv r len st st2 i hinv (by omega) hs)
        (step_most r len st st2 i hinv hm (by omega) hs) (by omega) h

/-- The first pass of the reordering loop leaves everything as it is when
the base literal at index 0 is not forced. -/
theorem step_first (r : Option Literal) (st : Reorder) (lit : Literal) (lits : List Literal)
    (h1 : st.baseLits.get? 0 = some lit) (h2 : st.altsArr.get? 0 = some lits)
    (hf : forcedSlot r lit lits = false) : st.step r 0 = .ok st := by
  cases hstep : st.step r 0 with
  | fault f =>
    unfold Reorder.step at hstep
    rw [h1, h2] at hstep
    simp only [] at hstep
    split at hstep
    · cases hstep
    · split at hstep
      · cases hstep
      · split at hstep <;> cases hstep
  | ok st1 =>
    unfold Reorder.step at hstep
    rw [h1, h2] at hstep
    simp only [] at hstep
    by_cases c0 : countAlts lits = 0
    · simp [forcedSlot, c0] at hf
    · rw [if_neg c0] at hstep
      split at hstep
      · rename_i c1
        exfalso
        obtain ⟨c11, c12⟩ := c1
        cases r with
        | none => simp [forcedSlot, c11] at hf
        | some x =>
          simp only [] at c12
          simp [forcedSlot, c11, c12] at hf
      · split at hstep
        · rename_i c2
          omega
        · simp only [Run.ok.injEq] at hstep
          rw [hstep]

/-- What the reordering of `getMatchingData` achieves for the slot at the
index behind the forced slots when the first base literal of the caller is
not a forced slot: no slot from this index on has more distinct variables
than the slot at this index. -/
theorem reorder_most (first : Literal) (rest : List Literal) (alts : List (List Literal))
    (r : Option Literal) (lits0 : List Literal) (bs : List Literal) (as : List (List Literal))
    (hlen : (first :: rest).length ≤ alts.length) (h0 : alts.get? 0 = some lits0)
    (hf : forcedSlot r first lits0 = false)
    (h : reorderLits (first :: rest) alts r = .ok (bs, as)) :
    ∃ s sel, (∀ k lit lits, bs.get? k = some lit → as.get? k = some lits →
        (forcedSlot r lit lits = true ↔ k < s)) ∧
      bs.get? s = some sel ∧
      ∀ k lit, s ≤ k → bs.get? k = some lit → lit.getDistinctVars ≤ sel.getDistinctVars := by
  unfold reorderLits at h
  simp only [] at h
  have hinv0 : Reorder.Inv r (first :: rest).length
      ⟨first :: rest, alts.take (first :: rest).length, 0, 0, 0, first.getDistinctVars⟩ 0 := by
    refine ⟨rfl, ?_, Nat.le_refl _, Nat.le_refl _, ?_⟩
    · simp only [List.length_take]
      omega
    · intro k lit lits hk
      omega
  have ha0 : (alts.take (first :: rest).length).get? 0 = some lits0 := by
    simp only [List.get?_eq_getElem?] at h0 ⊢
    rw [List.getElem?_take_of_lt (by simp)]
    exact h0
  have hstep0 := step_first r
    ⟨first :: rest, alts.take (first :: rest).length, 0, 0, 0, first.getDistinctVars⟩
    first lits0 rfl ha0 hf
  have hinv1 := step_inv r _ _ _ 0 hinv0 (by simp) hstep0
  have hmost1 : Reorder.Most
      ⟨first :: rest, alts.take (first :: rest).length, 0, 0, 0, first.getDistinctVars⟩ 1 := by
    refine ⟨Nat.le_refl _, Nat.zero_lt_one, ⟨first, rfl, rfl⟩, ?_⟩
    intro k lit g1 g2 g3
    have hk : k = 0 := by omega
    subst hk
    simp only [List.get?_cons_zero, Option.some.injEq] at g3
    subst g3
    exact Nat.le_refl _
  have hloop : Reorder.loop r (first :: rest).length 0
      ⟨first :: rest, alts.take (first :: rest).length, 0, 0, 0, first.getDistinctVars⟩ =
      Reorder.loop r rest.length 1
        ⟨first :: rest, alts.take (first :: rest).length, 0, 0, 0, first.getDistinctVars⟩ := by
    show Reorder.loop r (rest.length + 1) 0 _ = _
    rw [Reorder.loop, hstep0]
  rw [hloop] at h
  cases hl : Reorder.loop r rest.length 1
      ⟨first :: rest, alts.take (first :: rest).length, 0, 0, 0, first.getDistinctVars⟩ with
  | fault f => rw [hl] at h; cases h
  | ok st =>
    rw [hl] at h
    simp only [] at h
    obtain ⟨⟨hB, hA, _, hs, hold⟩, m1, m2, ⟨sel, m3, m4⟩, m5⟩ :=
      loop_most r (first :: rest).length rest.length 1 _ st hinv1 hmost1
        (by simp only [List.length_cons]; omega) hl
    have hrange : ∀ k lit, st.baseLits.get? k = some lit → k < (first :: rest).length := by
      intro k lit hk
      rw [← hB]
      exact (List.get?_eq_some.1 hk).1
    split at h
    · rename_i hm
      simp only [Run.ok.injEq, Prod.mk.injEq] at h
      obtain ⟨e1, e2⟩ := h
      refine ⟨st.singleAlts, sel, fun k lit lits g1 g2 => ?_, ?_, fun k lit g1 g2 => ?_⟩
      · rw [← e1] at g1
        rw [← e2] at g2
        have r1 : (swapAt st.baseLits st.mostDistVarsLit st.singleAlts).get? k = some lit := g1
        have r2 : (swapAt st.altsArr st.mostDistVarsLit st.singleAlts).get? k = some lits := g2
        rw [swapAt_get _ _ _ (by omega) (by omega)] at r1 r2
        have hk := hrange _ lit r1
        have := hold _ lit lits hk r1 r2
        rw [this]
        simp only [Equiv.swap_apply_def]
        split_ifs <;> omega
      · rw [← e1]
        show (swapAt st.baseLits st.mostDistVarsLit st.singleAlts).get? st.singleAlts = _
        rw [swapAt_get _ _ _ (by omega) (by omega), Equiv.swap_apply_right]
        exact m3
      · rw [← e1] at g2
        have r1 : (swapAt st.baseLits st.mostDistVarsLit st.singleAlts).get? k = some lit := g2
        rw [swapAt_get _ _ _ (by omega) (by omega)] at r1
        have hk := hrange _ lit r1
        rw [m4]
        refine m5 _ lit ?_ hk r1
        simp only [Equiv.swap_apply_def]
        split_ifs <;> omega
    · rename_i hm
      simp only [Run.ok.injEq, Prod.mk.injEq] at h
      obtain ⟨e1, e2⟩ := h
      have hms : st.mostDistVarsLit = st.singleAlts := by omega
      refine ⟨st.singleAlts, sel, fun k lit lits g1 g2 => ?_, ?_, fun k lit g1 g2 => ?_⟩
      · rw [← e1] at g1
        rw [← e2] at g2
        exact hold k lit lits (hrange k lit g1) g1 g2
      · rw [← e1, ← hms]
        exact m3
      · rw [← e1] at g2
        rw [m4]
        exact m5 k lit g1 (hrange k lit g2) g2

end Kernel


namespace Kernel

open Indexing (Run Fault)
open Example

/-- Claim C31, as the code behaves: `mostDistVarsCnt` starts with the number
of distinct variables of the first base literal of the caller, whether or
not this base literal is one of the remaining slots, and the third branch of
the loop replaces the candidate only by a base literal with strictly more
distinct variables. For the base literals P(X,Y), Q(X), R(X,Y) with one
alternative for P(X,Y) and two for each of the others, P(X,Y) is a forced
single-alternative slot with two distinct variables, neither Q(X) nor R(X,Y)
has more, so no candidate is chosen and the arrays stay as they are: the
slot at index `singleAlts = 1` is Q(X) with one distinct variable, while the
remaining slot R(X,Y) has two. With the caller's order Q(X), P(X,Y), R(X,Y)
the slot R(X,Y) is placed at index 1. In general, when the first base
literal of the caller is not a zero-alternative or forced single-alternative
slot, the slot at the index behind these slots has the largest number of
distinct variables of all slots from this index on. -/
theorem C31_most_distinct_variables_not_next :
    reorderLits [P [X, Y], Q [X], R [X, Y]]
        [[P [a, b]], [Q [a], Q [b]], [R [a, b], R [b, a]]] none =
      .ok ([P [X, Y], Q [X], R [X, Y]], [[P [a, b]], [Q [a], Q [b]], [R [a, b], R [b, a]]]) ∧
    forcedSlot none (P [X, Y]) [P [a, b]] = true ∧
    forcedSlot none (Q [X]) [Q [a], Q [b]] = false ∧
    forcedSlot none (R [X, Y]) [R [a, b], R [b, a]] = false ∧
    (Q [X]).getDistinctVars = 1 ∧ (R [X, Y]).getDistinctVars = 2 ∧
    reorderLits [Q [X], P [X, Y], R [X, Y]]
        [[Q [a], Q [b]], [P [a, b]], [R [a, b], R [b, a]]] none =
      .ok ([P [X, Y], R [X, Y], Q [X]], [[P [a, b]], [R [a, b], R [b, a]], [Q [a], Q [b]]]) ∧
    (∀ (first : Literal) (rest : List Literal) (alts : List (List Literal))
      (r : Option Literal) (lits0 : List Literal) (bs : List Literal)
      (as : List (List Literal)),
      (first :: rest).length ≤ alts.length → alts.get? 0 = some lits0 →
      forcedSlot r first lits0 = false →
      reorderLits (first :: rest) alts r = .ok (bs, as) →
      ∃ s sel, (∀ k lit lits, bs.get? k = some lit → as.get? k = some lits →
          (forcedSlot r lit lits = true ↔ k < s)) ∧
        bs.get? s = some sel ∧
        ∀ k lit, s ≤ k → bs.get? k = some lit →
          lit.getDistinctVars ≤ sel.getDistinctVars) := by
  refine ⟨by decide, by decide, by decide, by decide, by decide, by decide, by decide, ?_⟩
  intro first rest alts r lits0 bs as hlen h0 hf h
  exact reorder_most first rest alts r lits0 bs as hlen h0 hf h

end Kernel

